import Mathlib

/-!
# Buffer pool and B+-tree index of `SortMarkDup/bustub`

A shallow embedding of the storage engine found under `SortMarkDup/bustub`
(LRU replacer, buffer pool manager, B+-tree index) together with theorems
about the embedded code.

Conventions.
* `frame_id_t` and `page_id_t` are the C++ `int32_t` typedefs; they are embedded
  as `Int`, and `INVALID_PAGE_ID` is `-1`.
* Mutexes and reader/writer latches are not part of the sequential embedding:
  every method is embedded as the state transformer it is while it holds
  its lock.
-/

namespace bustub

/-- The C++ typedef `frame_id_t` (an `int32_t`). -/
abbrev frame_id_t := Int

/-- The C++ typedef `page_id_t` (an `int32_t`). -/
abbrev page_id_t := Int

/-- The sentinel page id meaning "no page". -/
def INVALID_PAGE_ID : page_id_t := -1

/-! ## `buffer/lru_replacer.cpp` -/

/-- State of `LRUReplacer`.  `order_` is the `std::list<frame_id_t>` (head of the
Lean list is `order_.front()`), `hash_` is the key set of the
`std::unordered_map<frame_id_t, std::list<frame_id_t>::iterator>`: the iterator
stored under key `f` designates the list node that holds `f`. -/
structure LRUReplacer where
  capacity_ : Nat
  order_ : List frame_id_t
  hash_ : List frame_id_t

namespace LRUReplacer

/-- Constructor `LRUReplacer(num_pages)`. -/
def new (num_pages : Nat) : LRUReplacer :=
  { capacity_ := num_pages, order_ := [], hash_ := [] }

/-- Method `Victim(frame_id_t *frame_id)`: the returned option is `some f` when the
C++ returns `true` with `*frame_id = f`, and `none` when it returns `false`. -/
def Victim (r : LRUReplacer) : Option frame_id_t × LRUReplacer :=
  match r.order_.getLast? with
  | none => (none, r)
  | some f =>
    (some f, { r with order_ := r.order_.dropLast, hash_ := r.hash_.filter (fun g => g ≠ f) })

/-- Method `Pin(frame_id)`: erases the node designated by `hash_[frame_id]` and the key. -/
def Pin (r : LRUReplacer) (frame_id : frame_id_t) : LRUReplacer :=
  if frame_id ∈ r.hash_ then
    { r with order_ := r.order_.erase frame_id,
             hash_ := r.hash_.filter (fun g => g ≠ frame_id) }
  else r

/-- Method `Unpin(frame_id)`. -/
def Unpin (r : LRUReplacer) (frame_id : frame_id_t) : LRUReplacer :=
  if frame_id ∈ r.hash_ ∨ r.order_.length = r.capacity_ then r
  else { r with order_ := frame_id :: r.order_, hash_ := frame_id :: r.hash_ }

/-- Method `Size()`. -/
def Size (r : LRUReplacer) : Nat := r.order_.length

end LRUReplacer

/-- One call on a replacer. -/
inductive ROp where
  | Unpin (f : frame_id_t)
  | Pin (f : frame_id_t)
  | Victim
  deriving DecidableEq

/-- Effect of one call on the replacer state. -/
def ROp.apply (r : LRUReplacer) : ROp → LRUReplacer
  | ROp.Unpin f => r.Unpin f
  | ROp.Pin f => r.Pin f
  | ROp.Victim => r.Victim.2

/-- The replacer after the calls `ops`, issued in list order, starting from `r`. -/
def runFrom (r : LRUReplacer) (ops : List ROp) : LRUReplacer :=
  ops.foldl ROp.apply r

/-- The replacer reached from a freshly constructed one of capacity `cap`. -/
def run (cap : Nat) (tr : List ROp) : LRUReplacer :=
  runFrom (LRUReplacer.new cap) tr

/-- The frames returned by the `Victim` calls among `ops`, in call order. -/
def victimsOf : LRUReplacer → List ROp → List frame_id_t
  | _, [] => []
  | r, ROp.Victim :: ops =>
    match r.Victim.1 with
    | some f => f :: victimsOf r.Victim.2 ops
    | none => victimsOf r.Victim.2 ops
  | r, op :: ops => victimsOf (op.apply r) ops

/-- The frames returned by calling `Victim` `n` times in a row. -/
def drain : Nat → LRUReplacer → List frame_id_t
  | 0, _ => []
  | n + 1, r =>
    match r.Victim.1 with
    | some f => f :: drain n r.Victim.2
    | none => []

/-- Call number `i` of the trace `tr` is an effective `Unpin f`: it is `Unpin f` and
the guard of `Unpin` does not make it return early in the state it is issued in. -/
def effectiveUnpinAt (cap : Nat) (tr : List ROp) (f : frame_id_t) (i : Nat) : Bool :=
  decide (tr[i]? = some (ROp.Unpin f)) &&
    !decide (f ∈ (run cap (tr.take i)).hash_ ∨
      (run cap (tr.take i)).order_.length = (run cap (tr.take i)).capacity_)

/-- Position in `tr` of the most recent effective `Unpin f`, if there is one. -/
def lastEffectiveUnpin (cap : Nat) (tr : List ROp) (f : frame_id_t) : Option Nat :=
  ((List.range tr.length).filter (effectiveUnpinAt cap tr f)).getLast?

/-- Representation invariant of the replacer: the list holds no frame twice, the hash
index has exactly the frames of the list as keys, and the list is within capacity. -/
structure RInv (r : LRUReplacer) : Prop where
  nodup : r.order_.Nodup
  keys : ∀ f, f ∈ r.hash_ ↔ f ∈ r.order_
  bound : r.order_.length ≤ r.capacity_

/-- The frames listed in `order_` carry timestamps of their most recent effective
`Unpin`, and these timestamps strictly decrease from `order_.front()` to `order_.back()`. -/
def StampSorted (cap : Nat) (tr : List ROp) : Prop :=
  (∀ f ∈ (run cap tr).order_, ∃ t, lastEffectiveUnpin cap tr f = some t) ∧
  (run cap tr).order_.Pairwise (fun a b =>
    ∀ ta tb, lastEffectiveUnpin cap tr a = some ta → lastEffectiveUnpin cap tr b = some tb →
      tb < ta)

/-- Frame `f` is tracked by the replacer: it has an entry in the hash index, which is
what `Pin` and `Unpin` test. -/
def Tracked (r : LRUReplacer) (f : frame_id_t) : Prop := f ∈ r.hash_

instance (r : LRUReplacer) (f : frame_id_t) : Decidable (Tracked r f) := by
  unfold Tracked
  infer_instance

/-! ## Disk collaborator and page frames -/

/-- Content of a page buffer (`char data_[PAGE_SIZE]`), one list element per byte. -/
abbrev PageData := List Nat

/-- Modelled from the spec: the fixed page size.  The constant is declared in
`common/config.h`, which is not among the sources; its value is not used by any proof. -/
def PAGE_SIZE : Nat := 4096

/-- One call into the disk collaborator. -/
inductive DiskOp where
  | Read (page_id : page_id_t)
  | Write (page_id : page_id_t) (data : PageData)
  | Allocate (page_id : page_id_t)
  | Deallocate (page_id : page_id_t)
  deriving DecidableEq

/-- Modelled from the spec: the disk collaborator of section 6 (`DiskManager` is not among
the sources).  `next_page_id_` is the monotone allocation counter, `content` what is
stored under each page id, `log` the calls received so far, oldest first. -/
structure DiskManager where
  next_page_id_ : page_id_t
  content : page_id_t → PageData
  log : List DiskOp

namespace DiskManager

/-- Modelled from the spec: `ReadPage(page_id, buffer)` yields the stored content. -/
def ReadPage (d : DiskManager) (page_id : page_id_t) : PageData × DiskManager :=
  (d.content page_id, { d with log := d.log ++ [DiskOp.Read page_id] })

/-- Modelled from the spec: `WritePage(page_id, buffer)` stores the buffer. -/
def WritePage (d : DiskManager) (page_id : page_id_t) (data : PageData) : DiskManager :=
  { d with content := Function.update d.content page_id data,
           log := d.log ++ [DiskOp.Write page_id data] }

/-- Modelled from the spec: `AllocatePage()` "returns a fresh monotonically-issued
identifier". -/
def AllocatePage (d : DiskManager) : page_id_t × DiskManager :=
  (d.next_page_id_, { d with next_page_id_ := d.next_page_id_ + 1,
                             log := d.log ++ [DiskOp.Allocate d.next_page_id_] })

/-- Modelled from the spec: `DeallocatePage(page_id)` "is advisory (may no-op)". -/
def DeallocatePage (d : DiskManager) (page_id : page_id_t) : DiskManager :=
  { d with log := d.log ++ [DiskOp.Deallocate page_id] }

end DiskManager

/-- Modelled from the spec: a frame (`class Page`, declared in `storage/page/page.h`, which
is not among the sources): the buffer and the metadata page id, pin count and dirty
flag.  `pin_count_` is a C++ `int`; it is embedded as an unbounded `Int`. -/
structure Page where
  data_ : PageData
  page_id_ : page_id_t
  pin_count_ : Int
  is_dirty_ : Bool
  deriving DecidableEq

/-- Modelled from the spec: a frame as constructed by `new Page[pool_size_]`: zeroed
buffer, no page, not pinned, clean. -/
def Page.init : Page :=
  { data_ := List.replicate PAGE_SIZE 0, page_id_ := INVALID_PAGE_ID, pin_count_ := 0,
    is_dirty_ := false }

/-- Modelled from the spec: `Page::ResetMemory()` zeroes the buffer. -/
def Page.ResetMemory (p : Page) : Page :=
  { p with data_ := List.replicate PAGE_SIZE 0 }

/-! ## `buffer/buffer_pool_manager.cpp` -/

/-- State of `BufferPoolManager`.  `pages_` is the frame array, read through frame ids;
`page_table_` is the `std::unordered_map<page_id_t, frame_id_t>` as an association list
with one entry per key; `free_list_` is the `std::list<frame_id_t>` (head is
`front()`). -/
structure BufferPoolManager where
  pool_size_ : Nat
  pages_ : frame_id_t → Page
  page_table_ : List (page_id_t × frame_id_t)
  free_list_ : List frame_id_t
  replacer_ : LRUReplacer
  disk_manager_ : DiskManager

namespace BufferPoolManager

/-- Constructor `BufferPoolManager(pool_size, disk_manager, log_manager)`. -/
def new (pool_size : Nat) (disk_manager : DiskManager) : BufferPoolManager :=
  { pool_size_ := pool_size,
    pages_ := fun _ => Page.init,
    page_table_ := [],
    free_list_ := (List.range pool_size).map Int.ofNat,
    replacer_ := LRUReplacer.new pool_size,
    disk_manager_ := disk_manager }

/-- The expression `page_table_.erase(page_id)`. -/
def eraseEntry (pt : List (page_id_t × frame_id_t)) (page_id : page_id_t) :
    List (page_id_t × frame_id_t) :=
  pt.filter (fun e => e.1 ≠ page_id)

/-- Modelled from the spec: `SetHelper1(page_id, frame_id)`, declared in the header that is
not among the sources: "map the new id, mark pinned", the frame is returned "with
pin_count = 1" and clean. -/
def SetHelper1 (b : BufferPoolManager) (page_id : page_id_t) (frame_id : frame_id_t) :
    BufferPoolManager :=
  { b with
    page_table_ := (page_id, frame_id) :: eraseEntry b.page_table_ page_id,
    pages_ := Function.update b.pages_ frame_id
      { b.pages_ frame_id with page_id_ := page_id, pin_count_ := 1, is_dirty_ := false } }

/-- The statements `ReadPage(page_id, pages_[frame_id].GetData())` of `FetchPageImpl`. -/
def readInto (b : BufferPoolManager) (page_id : page_id_t) (frame_id : frame_id_t) :
    BufferPoolManager :=
  { b with
    disk_manager_ := (b.disk_manager_.ReadPage page_id).2,
    pages_ := Function.update b.pages_ frame_id
      { b.pages_ frame_id with data_ := (b.disk_manager_.ReadPage page_id).1 } }

/-- The write-back of a dirty victim followed by `page_table_.erase(old_page_id)`, shared
by `FetchPageImpl` and `NewPageImpl`. -/
def evict (b : BufferPoolManager) (frame_id : frame_id_t) : BufferPoolManager :=
  { b with
    disk_manager_ :=
      if (b.pages_ frame_id).is_dirty_ then
        b.disk_manager_.WritePage (b.pages_ frame_id).page_id_ (b.pages_ frame_id).data_
      else b.disk_manager_,
    page_table_ := eraseEntry b.page_table_ (b.pages_ frame_id).page_id_ }

/-- Method `FetchPageImpl(page_id)`; the result is the index of the returned frame, or
`none` for `nullptr`. -/
def FetchPageImpl (b : BufferPoolManager) (page_id : page_id_t) :
    Option frame_id_t × BufferPoolManager :=
  match b.page_table_.lookup page_id with
  | some frame_id =>
    (some frame_id,
      { b with
        pages_ := Function.update b.pages_ frame_id
          { b.pages_ frame_id with pin_count_ := (b.pages_ frame_id).pin_count_ + 1 },
        replacer_ := b.replacer_.Pin frame_id })
  | none =>
    match b.free_list_ with
    | frame_id :: rest =>
      (some frame_id, readInto (SetHelper1 { b with free_list_ := rest } page_id frame_id)
        page_id frame_id)
    | [] =>
      match b.replacer_.Victim.1 with
      | none => (none, b)
      | some frame_id =>
        (some frame_id,
          readInto (SetHelper1 (evict { b with replacer_ := b.replacer_.Victim.2 } frame_id)
            page_id frame_id) page_id frame_id)

/-- Method `UnpinPageImpl(page_id, is_dirty)`. -/
def UnpinPageImpl (b : BufferPoolManager) (page_id : page_id_t) (is_dirty : Bool) :
    Bool × BufferPoolManager :=
  match b.page_table_.lookup page_id with
  | none => (false, b)
  | some frame_id =>
    if (b.pages_ frame_id).pin_count_ ≤ 0 then (false, b)
    else
      (true,
        { b with
          pages_ := Function.update b.pages_ frame_id
            { b.pages_ frame_id with
              pin_count_ := (b.pages_ frame_id).pin_count_ - 1,
              is_dirty_ := if is_dirty then true else (b.pages_ frame_id).is_dirty_ },
          replacer_ :=
            if (b.pages_ frame_id).pin_count_ - 1 = 0 then b.replacer_.Unpin frame_id
            else b.replacer_ })

/-- Method `FlushPageImpl(page_id)`. -/
def FlushPageImpl (b : BufferPoolManager) (page_id : page_id_t) : Bool × BufferPoolManager :=
  match b.page_table_.lookup page_id with
  | none => (false, b)
  | some frame_id =>
    (true, { b with disk_manager_ := b.disk_manager_.WritePage page_id (b.pages_ frame_id).data_ })

/-- Method `NewPageImpl(page_id_t *page_id)`; the result is the allocated page id with the
index of the returned frame, or `none` for `nullptr`. -/
def NewPageImpl (b : BufferPoolManager) : Option (page_id_t × frame_id_t) × BufferPoolManager :=
  let page_id := b.disk_manager_.AllocatePage.1
  let b0 := { b with disk_manager_ := b.disk_manager_.AllocatePage.2 }
  match b0.free_list_ with
  | frame_id :: rest =>
    let b1 := SetHelper1 { b0 with free_list_ := rest } page_id frame_id
    (some (page_id, frame_id),
      { b1 with pages_ := Function.update b1.pages_ frame_id (b1.pages_ frame_id).ResetMemory })
  | [] =>
    match b0.replacer_.Victim.1 with
    | none => (none, { b0 with disk_manager_ := b0.disk_manager_.DeallocatePage page_id })
    | some frame_id =>
      let b1 := SetHelper1 (evict { b0 with replacer_ := b0.replacer_.Victim.2 } frame_id)
        page_id frame_id
      (some (page_id, frame_id),
        { b1 with pages_ := Function.update b1.pages_ frame_id (b1.pages_ frame_id).ResetMemory })

/-- Method `DeletePageImpl(page_id)`. -/
def DeletePageImpl (b : BufferPoolManager) (page_id : page_id_t) : Bool × BufferPoolManager :=
  match b.page_table_.lookup page_id with
  | none => (true, { b with disk_manager_ := b.disk_manager_.DeallocatePage page_id })
  | some frame_id =>
    if (b.pages_ frame_id).pin_count_ > 0 then (false, b)
    else
      (true,
        { b with
          page_table_ := eraseEntry b.page_table_ page_id,
          pages_ := Function.update b.pages_ frame_id
            { b.pages_ frame_id with
              pin_count_ := 0, page_id_ := INVALID_PAGE_ID, is_dirty_ := false },
          free_list_ := b.free_list_ ++ [frame_id],
          replacer_ := b.replacer_.Pin frame_id,
          disk_manager_ := b.disk_manager_.DeallocatePage page_id })

/-- Method `FlushAllPagesImpl()`: one `WritePage` per entry of the page table. -/
def FlushAllPagesImpl (b : BufferPoolManager) : BufferPoolManager :=
  { b with
    disk_manager_ := b.page_table_.foldl
      (fun d e => d.WritePage e.1 (b.pages_ e.2).data_) b.disk_manager_ }

end BufferPoolManager

/-- One call on the public surface of the buffer pool. -/
inductive BOp where
  | Fetch (page_id : page_id_t)
  | Unpin (page_id : page_id_t) (is_dirty : Bool)
  | New
  | Delete (page_id : page_id_t)
  | Flush (page_id : page_id_t)
  | FlushAll
  deriving DecidableEq

/-- Effect of one call on the pool state. -/
def BOp.apply (b : BufferPoolManager) : BOp → BufferPoolManager
  | BOp.Fetch p => (b.FetchPageImpl p).2
  | BOp.Unpin p d => (b.UnpinPageImpl p d).2
  | BOp.New => b.NewPageImpl.2
  | BOp.Delete p => (b.DeletePageImpl p).2
  | BOp.Flush p => (b.FlushPageImpl p).2
  | BOp.FlushAll => b.FlushAllPagesImpl

/-- The pool after the calls `ops`, issued in list order, starting from `b`. -/
def poolRun (b : BufferPoolManager) (ops : List BOp) : BufferPoolManager :=
  ops.foldl BOp.apply b

/-- A disk collaborator that has issued no page id yet and stores `content`. -/
def DiskManager.fresh (content : page_id_t → PageData) : DiskManager :=
  { next_page_id_ := 0, content := content, log := [] }

/-- The partition property of the pool: every frame index below `pool_size_` is either
in the free list and not the image of any page id, or not in the free list and the image
of exactly one page id; the free list has no duplicates; distinct page ids are mapped to
distinct frames. -/
def Partition (b : BufferPoolManager) : Prop :=
  (∀ f : frame_id_t, 0 ≤ f → f < b.pool_size_ →
    (f ∈ b.free_list_ ∧ ∀ p, (p, f) ∉ b.page_table_) ∨
    (f ∉ b.free_list_ ∧ ∃ p, (p, f) ∈ b.page_table_ ∧ ∀ q, (q, f) ∈ b.page_table_ → q = p)) ∧
  b.free_list_.Nodup ∧
  (∀ p q f g, (p, f) ∈ b.page_table_ → (q, g) ∈ b.page_table_ → p ≠ q → f ≠ g)

/-- A call respects the allocation discipline of the disk collaborator: `FetchPage` is
only asked for page ids below the allocation counter, that is, ids that `AllocatePage`
will not issue later. -/
def BOp.allocated (b : BufferPoolManager) : BOp → Bool
  | BOp.Fetch p => decide (p < b.disk_manager_.next_page_id_)
  | _ => true

/-- Every call of `ops`, issued in list order from `b`, respects the allocation
discipline. -/
def Allocated : BufferPoolManager → List BOp → Bool
  | _, [] => true
  | b, op :: ops => op.allocated b && Allocated (op.apply b) ops

/-- Bookkeeping invariant of the pool used to establish the partition property. -/
structure PoolInv (b : BufferPoolManager) : Prop where
  fl_nodup : b.free_list_.Nodup
  fl_range : ∀ f ∈ b.free_list_, 0 ≤ f ∧ f < b.pool_size_
  pt_keys : (b.page_table_.map Prod.fst).Nodup
  pt_vals : (b.page_table_.map Prod.snd).Nodup
  pt_range : ∀ e ∈ b.page_table_, 0 ≤ e.2 ∧ e.2 < b.pool_size_
  pt_disj : ∀ e ∈ b.page_table_, e.2 ∉ b.free_list_
  pt_id : ∀ e ∈ b.page_table_, (b.pages_ e.2).page_id_ = e.1
  cover : ∀ f : frame_id_t, 0 ≤ f → f < b.pool_size_ →
    f ∈ b.free_list_ ∨ f ∈ b.page_table_.map Prod.snd
  rep : RInv b.replacer_
  rep_mapped : ∀ f ∈ b.replacer_.order_, f ∈ b.page_table_.map Prod.snd
  alloc : ∀ e ∈ b.page_table_, e.1 < b.disk_manager_.next_page_id_

/-! ## Tree pages: `storage/page/b_plus_tree_internal_page.cpp` and the leaf layout -/

/-- Keys of the index (`GenericKey<N>`), embedded as integers. -/
abbrev KeyType := Int

/-- Values of the index (`RID`), embedded as integers. -/
abbrev ValueType := Int

/-- Modelled from the spec: the key comparator (`GenericComparator<N>` is not among the
sources): a three-way comparison returning `-1`, `0` or `1`. -/
def comparator_ (a b : KeyType) : Int :=
  if a < b then -1 else if a = b then 0 else 1

/-- The enum `IndexPageType`. -/
inductive IndexPageType where
  | INVALID_INDEX_PAGE
  | LEAF_PAGE
  | INTERNAL_PAGE
  deriving DecidableEq

/-- A tree page as laid out in a frame buffer: the common header, the leaf's forward link,
and the slots `array[0 .. size-1]`; `GetSize()` is the length of `array`.  The second
component of a slot is a child page id on an internal page and a value on a leaf. -/
structure BPlusTreePage where
  page_type_ : IndexPageType
  max_size_ : Nat
  parent_page_id_ : page_id_t
  page_id_ : page_id_t
  next_page_id_ : page_id_t
  array : List (KeyType × Int)
  deriving DecidableEq

namespace BPlusTreePage

/-- A page buffer after `ResetMemory()`: every field is zero. -/
def zero : BPlusTreePage :=
  { page_type_ := IndexPageType.INVALID_INDEX_PAGE, max_size_ := 0, parent_page_id_ := 0,
    page_id_ := 0, next_page_id_ := 0, array := [] }

/-- Modelled from the spec: `IsLeafPage()`. -/
def IsLeafPage (p : BPlusTreePage) : Bool := p.page_type_ = IndexPageType.LEAF_PAGE

/-- Modelled from the spec: `IsRootPage()`: the page has no parent. -/
def IsRootPage (p : BPlusTreePage) : Bool := p.parent_page_id_ = INVALID_PAGE_ID

/-- Modelled from the spec: `GetSize()`. -/
def GetSize (p : BPlusTreePage) : Nat := p.array.length

/-- Modelled from the spec: `GetMaxSize()`. -/
def GetMaxSize (p : BPlusTreePage) : Nat := p.max_size_

/-- Modelled from the spec: `GetMinSize()`, "min-size = ceil(max/2)". -/
def GetMinSize (p : BPlusTreePage) : Nat := (p.max_size_ + 1) / 2

/-- Modelled from the spec: `SetParentPageId(parent_id)`. -/
def SetParentPageId (p : BPlusTreePage) (parent_id : page_id_t) : BPlusTreePage :=
  { p with parent_page_id_ := parent_id }

/-- Modelled from the spec: `SetNextPageId(next_page_id)` of the leaf layout. -/
def SetNextPageId (p : BPlusTreePage) (next_page_id : page_id_t) : BPlusTreePage :=
  { p with next_page_id_ := next_page_id }

/-- The macro `IS_INSERT_SAFE`. -/
def IS_INSERT_SAFE (p : BPlusTreePage) : Bool := p.GetSize < p.GetMaxSize

/-- The macro `IS_DELETE_SAFE`. -/
def IS_DELETE_SAFE (p : BPlusTreePage) : Bool := p.GetSize > p.GetMinSize

/-- Internal page `Init(page_id, parent_id, max_size)`. -/
def InitInternal (p : BPlusTreePage) (page_id parent_id : page_id_t) (max_size : Nat) :
    BPlusTreePage :=
  { p with page_type_ := IndexPageType.INTERNAL_PAGE, array := [], max_size_ := max_size,
           parent_page_id_ := parent_id, page_id_ := page_id }

/-- Slot `index` of the page, when `0 <= index < GetSize()`. -/
def slot? (p : BPlusTreePage) (index : Int) : Option (KeyType × Int) :=
  if 0 ≤ index then p.array[index.toNat]? else none

/-- Method `SetKeyAt(index, key)`. -/
def SetKeyAt (p : BPlusTreePage) (index : Nat) (key : KeyType) : BPlusTreePage :=
  { p with array := p.array.modify (fun e => (key, e.2)) index }

/-- Method `ValueIndex(value)` of the internal page; `none` stands for `-1`. -/
def ValueIndex (p : BPlusTreePage) (value : Int) : Option Nat :=
  p.array.findIdx? (fun e => e.2 = value)

/-- The `while (begin != end)` loop of internal `Lookup`; the result is the final `end`.
Only reached with `begin <= end < GetSize()`; the first argument bounds the number of
iterations. -/
def lookupLoop (arr : List (KeyType × Int)) (key : KeyType) : Nat → Nat → Nat → Option Nat
  | 0, _, _ => none
  | fuel + 1, begin_, end_ =>
    if begin_ = end_ then some end_
    else
      match arr[(begin_ + end_ + 1) / 2]? with
      | none => none
      | some e =>
        if comparator_ e.1 key = -1 then lookupLoop arr key fuel ((begin_ + end_ + 1) / 2) end_
        else if comparator_ e.1 key = 0 then some ((begin_ + end_ + 1) / 2)
        else lookupLoop arr key fuel begin_ ((begin_ + end_ + 1) / 2 - 1)

/-- Internal page `Lookup(key, comparator)`.  On a page of size zero the C++ loop starts
with `end = -1` and reads outside the page; that case yields `none`. -/
def LookupInternal (p : BPlusTreePage) (key : KeyType) : Option page_id_t :=
  if p.array.length = 0 then none
  else
    match lookupLoop p.array key (p.array.length + 1) 0 (p.array.length - 1) with
    | none => none
    | some e => p.array[e]?.map Prod.snd

/-- Method `PopulateNewRoot(old_value, new_key, new_value)`, called on a page of size zero
in a zeroed buffer: the key of slot 0 is left as it is in memory. -/
def PopulateNewRoot (p : BPlusTreePage) (old_value : Int) (new_key : KeyType)
    (new_value : Int) : BPlusTreePage :=
  { p with array := [(0, old_value), (new_key, new_value)] }

/-- Method `InsertNodeAfter(old_value, new_key, new_value)`, given the slot `index` that
`ValueIndex(old_value)` returned. -/
def InsertNodeAfterAt (p : BPlusTreePage) (index : Nat) (new_key : KeyType)
    (new_value : Int) : BPlusTreePage :=
  { p with array := p.array.take (index + 1) ++ (new_key, new_value) :: p.array.drop (index + 1) }

/-- Method `InsertNodeAfter(old_value, new_key, new_value)`; `none` when the assertion
`index != -1` fails. -/
def InsertNodeAfter (p : BPlusTreePage) (old_value : Int) (new_key : KeyType)
    (new_value : Int) : Option BPlusTreePage :=
  (p.ValueIndex old_value).map (fun index => p.InsertNodeAfterAt index new_key new_value)

/-- Method `IncreaseSize(-1)`. -/
def DecreaseSize (p : BPlusTreePage) : BPlusTreePage :=
  { p with array := p.array.dropLast }

/-- Internal page `Remove(index)`: the slots after `index` move one place down and the
size drops by one. -/
def Remove (p : BPlusTreePage) (index : Nat) : BPlusTreePage :=
  { p with array := if index < p.array.length then p.array.eraseIdx index
                    else p.array.dropLast }

/-- Method `SetSize(size)` for `size <= GetSize()`. -/
def SetSize (p : BPlusTreePage) (size : Nat) : BPlusTreePage :=
  { p with array := p.array.take size }

/-! ### Leaf layout (modelled from the spec) -/

/-- Modelled from the spec: leaf `Init(page_id, parent_id, max_size)`; the forward link
starts as `INVALID_PAGE_ID`. -/
def InitLeaf (p : BPlusTreePage) (page_id parent_id : page_id_t) (max_size : Nat) :
    BPlusTreePage :=
  { p with page_type_ := IndexPageType.LEAF_PAGE, array := [], max_size_ := max_size,
           parent_page_id_ := parent_id, page_id_ := page_id,
           next_page_id_ := INVALID_PAGE_ID }

/-- Modelled from the spec: leaf `Lookup(key, &value, comparator)`: "search for exact
match; returns found flag + value". -/
def LookupLeaf (p : BPlusTreePage) (key : KeyType) : Option ValueType :=
  (p.array.find? (fun e => comparator_ e.1 key = 0)).map Prod.snd

/-- Modelled from the spec: leaf `Insert(key, value, comparator)` keeps the "sorted array
of (key, value) pairs": the pair goes in front of the first slot whose key is not below
`key`. -/
def InsertLeaf (p : BPlusTreePage) (key : KeyType) (value : ValueType) : BPlusTreePage :=
  { p with array := p.array.takeWhile (fun e => comparator_ e.1 key = -1) ++
      (key, value) :: p.array.dropWhile (fun e => comparator_ e.1 key = -1) }

/-- Modelled from the spec: leaf `RemoveAndDeleteRecord(key, comparator)` removes the slot
holding `key`, if there is one; its C++ result is the size afterwards. -/
def RemoveAndDeleteRecord (p : BPlusTreePage) (key : KeyType) : BPlusTreePage :=
  { p with array := p.array.eraseP (fun e => comparator_ e.1 key = 0) }

/-- Modelled from the spec: leaf `KeyIndex(key, comparator)`: the first slot whose key is
not below `key`. -/
def KeyIndex (p : BPlusTreePage) (key : KeyType) : Nat :=
  (p.array.takeWhile (fun e => comparator_ e.1 key = -1)).length

end BPlusTreePage

/-! ## The buffer pool as the tree sees it -/

/-- The page id of the header page. -/
def HEADER_PAGE_ID : page_id_t := 0

/-- State of a `BPlusTree` object together with the buffer pool it works on, seen through
the pool's public surface: `pages` is the content a `FetchPage` finds under a page id
(`none` when the page was never created or has been deleted), `pin` the pin counts,
`rlatch`/`wlatch` the number of read and write latch acquisitions not yet released,
`next_page_id_` the allocation counter of the disk collaborator, `new_budget` the number
of `NewPage` calls that can still find a frame (`none`: unlimited), `header_record` the
root id recorded for this index in the header page, `deleted_page_set` the transaction's
set of deleted pages.  Blocking is not part of the embedding: acquiring a lock or latch
records the acquisition. -/
structure TState where
  root_page_id_ : page_id_t
  leaf_max_size_ : Nat
  internal_max_size_ : Nat
  root_mutex_ : Bool
  pages : page_id_t → Option BPlusTreePage
  pin : page_id_t → Int
  rlatch : page_id_t → Int
  wlatch : page_id_t → Int
  next_page_id_ : page_id_t
  new_budget : Option Nat
  header_record : Option page_id_t
  deleted_page_set : List page_id_t

/-- Outcome of running tree code: a result with the state reached, a C++ exception
escaping with the state at the `throw`, or a fault (a page that does not exist is
dereferenced, a slot outside a page is read, an assertion fails, `back()` of an empty
page set is taken, or a loop exceeds its bound). -/
inductive Res (α : Type) where
  | ok (a : α) (s : TState)
  | throw (s : TState)
  | fault

/-- Tree code: a state transformer with exceptions and faults. -/
structure TM (α : Type) where
  run : TState → Res α

namespace TM

/-- Return a value without touching the state. -/
protected def pure {α : Type} (a : α) : TM α := ⟨fun s => Res.ok a s⟩

/-- Sequencing: exceptions and faults of the first part end the run. -/
protected def bind {α β : Type} (m : TM α) (f : α → TM β) : TM β :=
  ⟨fun s => match m.run s with
    | Res.ok a t => (f a).run t
    | Res.throw t => Res.throw t
    | Res.fault => Res.fault⟩

instance : Monad TM where
  pure := TM.pure
  bind := TM.bind

/-- Read the state. -/
def get : TM TState := ⟨fun s => Res.ok s s⟩

/-- Replace the state. -/
def modify (f : TState → TState) : TM Unit := ⟨fun s => Res.ok () (f s)⟩

/-- A C++ `throw` statement (`std::runtime_error`). -/
def raise {α : Type} : TM α := ⟨fun s => Res.throw s⟩

/-- Undefined behaviour or a failed assertion. -/
def fault {α : Type} : TM α := ⟨fun _ => Res.fault⟩

/-- Use of a value that must be present. -/
def ofOption {α : Type} : Option α → TM α
  | some a => pure a
  | none => fault

end TM

/-- Dereference of the pointer `FetchPage` returned for `page_id`. -/
def getPage (page_id : page_id_t) : TM BPlusTreePage := do
  let s ← TM.get
  TM.ofOption (s.pages page_id)

/-- In-place update of the page held in the frame of `page_id`. -/
def modifyPage (page_id : page_id_t) (f : BPlusTreePage → BPlusTreePage) : TM Unit := do
  let p ← getPage page_id
  TM.modify (fun s => { s with pages := Function.update s.pages page_id (some (f p)) })

/-- Call `buffer_pool_manager_->FetchPage(page_id)` on a page that exists. -/
def FetchPage (page_id : page_id_t) : TM Unit := do
  let _ ← getPage page_id
  TM.modify (fun s => { s with pin := Function.update s.pin page_id (s.pin page_id + 1) })

/-- Call `buffer_pool_manager_->FetchPage(HEADER_PAGE_ID)`.  The header page is not a tree
page: its content is the field `header_record`, kept apart from `pages`.  This is the
program as long as no tree page has the id `HEADER_PAGE_ID`, which holds for every tree
built over a pool that created the header page first (`HEADER_PAGE_ID < first_page_id`
in `BPlusTree.new`). -/
def FetchHeaderPage : TM Unit :=
  TM.modify (fun s =>
    { s with pin := Function.update s.pin HEADER_PAGE_ID (s.pin HEADER_PAGE_ID + 1) })

/-- Call `buffer_pool_manager_->UnpinPage(page_id, is_dirty)`. -/
def UnpinPage (page_id : page_id_t) (_is_dirty : Bool) : TM Bool := do
  let s ← TM.get
  if s.pin page_id ≤ 0 then pure false
  else do
    TM.modify (fun s => { s with pin := Function.update s.pin page_id (s.pin page_id - 1) })
    pure true

/-- Call `buffer_pool_manager_->NewPage(&page_id)`: `none` stands for `nullptr`.  The page
id is allocated before a frame is looked for. -/
def NewPage : TM (Option page_id_t) := do
  let s ← TM.get
  match s.new_budget with
  | some 0 =>
    TM.modify (fun s => { s with next_page_id_ := s.next_page_id_ + 1 })
    pure none
  | budget =>
    TM.modify (fun s =>
      { s with next_page_id_ := s.next_page_id_ + 1,
               new_budget := budget.map (fun n => n - 1),
               pages := Function.update s.pages s.next_page_id_ (some BPlusTreePage.zero),
               pin := Function.update s.pin s.next_page_id_ 1 })
    pure (some s.next_page_id_)

/-- Call `buffer_pool_manager_->DeletePage(page_id)`. -/
def DeletePage (page_id : page_id_t) : TM Bool := do
  let s ← TM.get
  match s.pages page_id with
  | none => pure true
  | some _ =>
    if s.pin page_id > 0 then pure false
    else do
      TM.modify (fun s => { s with pages := Function.update s.pages page_id none })
      pure true

/-- Call `page->RLatch()`. -/
def RLatch (page_id : page_id_t) : TM Unit :=
  TM.modify (fun s => { s with rlatch := Function.update s.rlatch page_id (s.rlatch page_id + 1) })

/-- Call `page->RUnlatch()`. -/
def RUnlatch (page_id : page_id_t) : TM Unit :=
  TM.modify (fun s => { s with rlatch := Function.update s.rlatch page_id (s.rlatch page_id - 1) })

/-- Call `page->WLatch()`. -/
def WLatch (page_id : page_id_t) : TM Unit :=
  TM.modify (fun s => { s with wlatch := Function.update s.wlatch page_id (s.wlatch page_id + 1) })

/-- Call `page->WUnlatch()`. -/
def WUnlatch (page_id : page_id_t) : TM Unit :=
  TM.modify (fun s => { s with wlatch := Function.update s.wlatch page_id (s.wlatch page_id - 1) })

/-- Call `root_mutex_.lock()`. -/
def lockRoot : TM Unit := TM.modify (fun s => { s with root_mutex_ := true })

/-- Call `root_mutex_.unlock()`. -/
def unlockRoot : TM Unit := TM.modify (fun s => { s with root_mutex_ := false })

/-- The statement `if (root_locked) { root_mutex_.unlock(); root_locked = false; }`. -/
def unlockRootIf (root_locked : Bool) : TM Unit :=
  if root_locked then unlockRoot else pure ()

/-- Call `transaction->AddIntoDeletedPageSet(page_id)`. -/
def AddIntoDeletedPageSet (page_id : page_id_t) : TM Unit :=
  TM.modify (fun s => { s with deleted_page_set := page_id :: s.deleted_page_set })

/-- The macro `REPLACE(page_id, SetParentPageId(parent_id), buffer_pool_manager, true)`. -/
def REPLACE (page_id parent_id : page_id_t) : TM Unit := do
  FetchPage page_id
  WLatch page_id
  modifyPage page_id (fun p => p.SetParentPageId parent_id)
  WUnlatch page_id
  let _ ← UnpinPage page_id true
  pure ()

/-- The macro `QueueWUnlatchUnpin`; the page set is a list whose head is `back()`. -/
def QueueWUnlatchUnpin : List page_id_t → TM Unit
  | [] => pure ()
  | page_id :: queue => do
    WUnlatch page_id
    let _ ← UnpinPage page_id false
    QueueWUnlatchUnpin queue

/-- The macro `CLEAN_ROUTINE`. -/
def CLEAN_ROUTINE (queue : List page_id_t) (root_locked : Bool) : TM Unit := do
  QueueWUnlatchUnpin queue
  unlockRootIf root_locked

/-- Modelled from the spec: the header page calls of `UpdateRootPageId(insert_record)`:
`InsertRecord` adds the record of this index when there is none, `UpdateRecord` replaces
an existing one.  The record lives in the buffer of page `HEADER_PAGE_ID`, which the
embedding keeps in `header_record`; a tree page stored under the id `HEADER_PAGE_ID`
would be overwritten by these calls in the program and is not in the embedding, so
trees are built with `HEADER_PAGE_ID < first_page_id` only. -/
def UpdateRootPageId (insert_record : Bool) : TM Unit := do
  FetchHeaderPage
  WLatch HEADER_PAGE_ID
  TM.modify (fun s =>
    { s with header_record :=
        if insert_record then
          (match s.header_record with
            | none => some s.root_page_id_
            | some r => some r)
        else
          (match s.header_record with
            | none => none
            | some _ => some s.root_page_id_) })
  WUnlatch HEADER_PAGE_ID
  let _ ← UnpinPage HEADER_PAGE_ID true
  pure ()

/-! ## `storage/index/b_plus_tree.cpp` -/

/-- The enum `OPERATION_TYPE` selecting the instantiation of `LatchCrabbingToLeaf`. -/
inductive OPERATION_TYPE where
  | SEARCH_TRAVEL
  | REACH_LEFTMOST
  | INSERT_TRAVEL
  | DELETE_TRAVEL
  deriving DecidableEq

/-- Constructor `BPlusTree(name, buffer_pool_manager, comparator, leaf_max_size,
internal_max_size)` over a pool in which the page ids below `first_page_id` are taken
and no tree page exists yet; `first_page_id` is the id the next `NewPage` call returns.
The header page has the id `HEADER_PAGE_ID = 0` and is created before any index, so the
states that stand for a tree of the program are those with
`HEADER_PAGE_ID < first_page_id`: there no tree page ever gets the id of the header
page.  With `first_page_id = 0` the first tree page would share its frame with the header
record, which this embedding does not follow; the theorems about trees built from the
constructor assume `HEADER_PAGE_ID < first_page_id`. -/
def BPlusTree.new (leaf_max_size internal_max_size : Nat) (first_page_id : page_id_t)
    (new_budget : Option Nat) : TState :=
  { root_page_id_ := INVALID_PAGE_ID,
    leaf_max_size_ := leaf_max_size,
    internal_max_size_ := internal_max_size,
    root_mutex_ := false,
    pages := fun _ => none,
    pin := fun _ => 0,
    rlatch := fun _ => 0,
    wlatch := fun _ => 0,
    next_page_id_ := first_page_id,
    new_budget := new_budget,
    header_record := none,
    deleted_page_set := [] }

/-- The read loop of `LatchCrabbingToLeaf` (`SEARCH_TRAVEL`, `REACH_LEFTMOST`); the first
argument bounds the number of iterations. -/
def crabRead (leftMost : Bool) (key : KeyType) : Nat → page_id_t → TM page_id_t
  | 0, _ => TM.fault
  | fuel + 1, page_id => do
    let page_data ← getPage page_id
    if page_data.IsLeafPage then pure page_id
    else do
      let child ← TM.ofOption
        (if leftMost then (page_data.slot? 0).map Prod.snd else page_data.LookupInternal key)
      FetchPage child
      RLatch child
      RUnlatch page_id
      let _ ← UnpinPage page_id false
      crabRead leftMost key fuel child

/-- The write loop of `LatchCrabbingToLeaf` (`INSERT_TRAVEL`, `DELETE_TRAVEL`); the result
is the leaf, the page set (head is `back()`) and `root_locked`. -/
def crabWrite (insert : Bool) (key : KeyType) :
    Nat → page_id_t → List page_id_t → Bool → TM (page_id_t × List page_id_t × Bool)
  | 0, _, _, _ => TM.fault
  | fuel + 1, page_id, queue, root_locked => do
    let page_data ← getPage page_id
    if page_data.IsLeafPage then pure (page_id, queue, root_locked)
    else do
      let safe_ := if insert then page_data.IS_INSERT_SAFE else page_data.IS_DELETE_SAFE
      if safe_ then do
        QueueWUnlatchUnpin queue
        unlockRootIf root_locked
        let child ← TM.ofOption (page_data.LookupInternal key)
        FetchPage child
        WLatch child
        crabWrite insert key fuel child [page_id] false
      else do
        let child ← TM.ofOption (page_data.LookupInternal key)
        FetchPage child
        WLatch child
        crabWrite insert key fuel child (page_id :: queue) root_locked

/-- Method `LatchCrabbingToLeaf<OPERATION>(key, transaction, &root_locked)`: the result is
the leaf (`none` for `nullptr`), the transaction's page set and `*root_locked`.  The loop
bound is the number of page ids issued so far. -/
def LatchCrabbingToLeaf (op : OPERATION_TYPE) (key : KeyType) :
    TM (Option page_id_t × List page_id_t × Bool) := do
  lockRoot
  let s ← TM.get
  if s.root_page_id_ = INVALID_PAGE_ID then pure (none, [], true)
  else do
    FetchPage s.root_page_id_
    match op with
    | OPERATION_TYPE.SEARCH_TRAVEL => do
      RLatch s.root_page_id_
      unlockRoot
      let leaf ← crabRead false key (s.next_page_id_.toNat + 1) s.root_page_id_
      pure (some leaf, [], false)
    | OPERATION_TYPE.REACH_LEFTMOST => do
      RLatch s.root_page_id_
      unlockRoot
      let leaf ← crabRead true key (s.next_page_id_.toNat + 1) s.root_page_id_
      pure (some leaf, [], false)
    | OPERATION_TYPE.INSERT_TRAVEL => do
      WLatch s.root_page_id_
      let r ← crabWrite true key (s.next_page_id_.toNat + 1) s.root_page_id_ [] true
      pure (some r.1, r.2.1, r.2.2)
    | OPERATION_TYPE.DELETE_TRAVEL => do
      WLatch s.root_page_id_
      let r ← crabWrite false key (s.next_page_id_.toNat + 1) s.root_page_id_ [] true
      pure (some r.1, r.2.1, r.2.2)

/-- Method `IsEmpty()`. -/
def IsEmpty : TM Bool := do
  lockRoot
  let s ← TM.get
  if s.root_page_id_ = INVALID_PAGE_ID then do
    unlockRoot
    pure true
  else do
    FetchPage s.root_page_id_
    let page_data ← getPage s.root_page_id_
    RLatch s.root_page_id_
    unlockRoot
    let ret := page_data.IsLeafPage && page_data.GetSize = 0
    RUnlatch s.root_page_id_
    let _ ← UnpinPage s.root_page_id_ false
    pure ret

/-- Method `GetValue(key, result, transaction)`: `some v` when the C++ returns `true` and
pushes `v` to `result`, `none` when it returns `false`. -/
def GetValue (key : KeyType) : TM (Option ValueType) := do
  let r ← LatchCrabbingToLeaf OPERATION_TYPE.SEARCH_TRAVEL key
  match r.1 with
  | none => do
    unlockRootIf r.2.2
    pure none
  | some page => do
    let page_data ← getPage page
    let ret := page_data.LookupLeaf key
    RUnlatch page
    let _ ← UnpinPage page_data.page_id_ false
    pure ret

/-- Method `StartNewTree(key, value)`. -/
def StartNewTree (key : KeyType) (value : ValueType) : TM Unit := do
  let new_page ← NewPage
  match new_page with
  | none => TM.raise
  | some new_page_id => do
    let s ← TM.get
    modifyPage new_page_id (fun p => p.InitLeaf new_page_id INVALID_PAGE_ID s.leaf_max_size_)
    modifyPage new_page_id (fun p => p.InsertLeaf key value)
    TM.modify (fun s => { s with root_page_id_ := new_page_id })
    UpdateRootPageId true
    let _ ← UnpinPage new_page_id true
    pure ()

/-- Modelled from the spec: leaf `MoveHalfTo(recipient)`: "moves the upper half of entries
(split index = current min-size = ceil(max/2))" to the recipient. -/
def MoveHalfToLeaf (node recipient : page_id_t) : TM Unit := do
  let node_data ← getPage node
  modifyPage recipient (fun r => { r with array := r.array ++ node_data.array.drop node_data.GetMinSize })
  modifyPage node (fun p => p.SetSize node_data.GetMinSize)

/-- Method `Split(node)` for a leaf page. -/
def SplitLeaf (node : page_id_t) : TM page_id_t := do
  let new_page ← NewPage
  match new_page with
  | none => TM.raise
  | some new_page_id => do
    let s ← TM.get
    let node_data ← getPage node
    modifyPage new_page_id (fun p => p.InitLeaf new_page_id node_data.parent_page_id_ s.leaf_max_size_)
    modifyPage new_page_id (fun p => p.SetNextPageId node_data.next_page_id_)
    modifyPage node (fun p => p.SetNextPageId new_page_id)
    MoveHalfToLeaf node new_page_id
    pure new_page_id

/-- Method `CopyNFrom(items, size, buffer_pool_manager)` of the internal page: each item is
stored in the recipient and the page it points to is adopted.  The C++ loop writes slot `i`
for `i = 0, 1, ...` and its only caller `MoveHalfTo` raises the size of the recipient by
`size` afterwards; the recipient is the empty page `Split` has just initialised, on which
this is appending the items one by one. -/
def CopyNFrom (recipient : page_id_t) : List (KeyType × Int) → TM Unit
  | [] => pure ()
  | item :: items => do
    modifyPage recipient (fun r => { r with array := r.array ++ [item] })
    let r ← getPage recipient
    REPLACE item.2 r.page_id_
    CopyNFrom recipient items

/-- Internal page `MoveHalfTo(recipient, buffer_pool_manager)`. -/
def MoveHalfToInternal (node recipient : page_id_t) : TM Unit := do
  let node_data ← getPage node
  CopyNFrom recipient (node_data.array.drop node_data.GetMinSize)
  modifyPage node (fun p => p.SetSize node_data.GetMinSize)

/-- Method `Split(node)` for an internal page. -/
def SplitInternal (node : page_id_t) : TM page_id_t := do
  let new_page ← NewPage
  match new_page with
  | none => TM.raise
  | some new_page_id => do
    let s ← TM.get
    let node_data ← getPage node
    modifyPage new_page_id
      (fun p => p.InitInternal new_page_id node_data.parent_page_id_ s.internal_max_size_)
    MoveHalfToInternal node new_page_id
    pure new_page_id

/-- The branch `if (old_node->IsRootPage())` of `InsertIntoParent`: a new root is created
over `old_node` and `new_node`. -/
def InsertIntoParentRoot (old_node : page_id_t) (key : KeyType) (new_node : page_id_t) :
    TM Unit := do
  let new_page ← NewPage
  match new_page with
  | none => TM.raise
  | some new_page_id => do
    let s ← TM.get
    let old_data ← getPage old_node
    let new_data ← getPage new_node
    modifyPage new_page_id
      (fun p => p.InitInternal new_page_id INVALID_PAGE_ID s.internal_max_size_)
    modifyPage new_page_id
      (fun p => p.PopulateNewRoot old_data.page_id_ key new_data.page_id_)
    modifyPage old_node (fun p => p.SetParentPageId new_page_id)
    modifyPage new_node (fun p => p.SetParentPageId new_page_id)
    TM.modify (fun s => { s with root_page_id_ := new_page_id })
    let _ ← UnpinPage new_page_id true
    UpdateRootPageId false

/-- The branch of `InsertIntoParent` for a full parent, up to the recursive call: the
parent is split, with the last pair held back in `temp` and appended to the new page
afterwards.  The result is the new page, its first key, and `uncle_data->GetPageId()`. -/
def InsertIntoParentSplit (old_data parent_data new_data : BPlusTreePage) (key : KeyType)
    (parent_page new_node : page_id_t) : TM (page_id_t × KeyType × page_id_t) := do
  let last ← TM.ofOption (parent_data.slot? ((parent_data.GetSize : Int) - 1))
  let temp ←
    (if comparator_ key last.1 < 0 then do
      let parent_new ← TM.ofOption
        (parent_data.DecreaseSize.InsertNodeAfter old_data.page_id_ key new_data.page_id_)
      modifyPage parent_page (fun _ => parent_new)
      pure last
    else pure (key, new_data.page_id_))
  let uncle ← SplitInternal parent_page
  let uncle_data ← getPage uncle
  let uncle_last ← TM.ofOption (uncle_data.slot? ((uncle_data.GetSize : Int) - 1))
  let uncle_new ← TM.ofOption (uncle_data.InsertNodeAfter uncle_last.2 temp.1 temp.2)
  modifyPage uncle (fun _ => uncle_new)
  (if temp.2 = new_data.page_id_ then
    modifyPage new_node (fun p => p.SetParentPageId uncle_data.page_id_)
  else
    REPLACE temp.2 uncle_data.page_id_)
  WUnlatch parent_page
  let uncle_data ← getPage uncle
  let uncle_first ← TM.ofOption (uncle_data.slot? 0)
  pure (uncle, uncle_first.1, uncle_data.page_id_)

/-- Method `InsertIntoParent(old_node, key, new_node, transaction)`; the argument and the
result `List` are the transaction's page set before and after (head is `back()`). -/
def InsertIntoParent (old_node : page_id_t) (key : KeyType) (new_node : page_id_t) :
    List page_id_t → TM (List page_id_t)
  | [] => do
    let old_data ← getPage old_node
    if old_data.IsRootPage then do
      InsertIntoParentRoot old_node key new_node
      pure []
    else TM.fault
  | parent_page :: rest => do
    let old_data ← getPage old_node
    if old_data.IsRootPage then do
      InsertIntoParentRoot old_node key new_node
      pure (parent_page :: rest)
    else do
      let parent_data ← getPage parent_page
      let new_data ← getPage new_node
      let parent_id := parent_data.page_id_
      if parent_data.IS_INSERT_SAFE then do
        let parent_new ← TM.ofOption
          (parent_data.InsertNodeAfter old_data.page_id_ key new_data.page_id_)
        modifyPage parent_page (fun _ => parent_new)
        WUnlatch parent_page
        let _ ← UnpinPage parent_data.page_id_ true
        pure rest
      else do
        let r ← InsertIntoParentSplit old_data parent_data new_data key parent_page new_node
        let rest ← InsertIntoParent parent_page r.2.1 r.1 rest
        let _ ← UnpinPage r.2.2 true
        let _ ← UnpinPage parent_id true
        pure rest

/-- Method `InsertIntoLeaf(key, value, transaction)`. -/
def InsertIntoLeaf (key : KeyType) (value : ValueType) : TM Bool := do
  let r ← LatchCrabbingToLeaf OPERATION_TYPE.INSERT_TRAVEL key
  match r.1 with
  | none => do
    StartNewTree key value
    unlockRootIf r.2.2
    pure true
  | some leaf_page => do
    let leaf_data ← getPage leaf_page
    match leaf_data.LookupLeaf key with
    | some _ => do
      WUnlatch leaf_page
      let _ ← UnpinPage leaf_data.page_id_ false
      CLEAN_ROUTINE r.2.1 r.2.2
      pure false
    | none => do
      modifyPage leaf_page (fun p => p.InsertLeaf key value)
      let leaf_data ← getPage leaf_page
      if ¬ leaf_data.IS_INSERT_SAFE then do
        let new_page ← SplitLeaf leaf_page
        WUnlatch leaf_page
        let new_data ← getPage new_page
        let first ← TM.ofOption (new_data.slot? 0)
        let queue ← InsertIntoParent leaf_page first.1 new_page r.2.1
        let _ ← UnpinPage new_data.page_id_ true
        let _ ← UnpinPage leaf_data.page_id_ true
        CLEAN_ROUTINE queue r.2.2
        pure true
      else do
        WUnlatch leaf_page
        let _ ← UnpinPage leaf_data.page_id_ true
        CLEAN_ROUTINE r.2.1 r.2.2
        pure true

/-- Method `Insert(key, value, transaction)`. -/
def Insert (key : KeyType) (value : ValueType) : TM Bool :=
  InsertIntoLeaf key value

/-- Modelled from the spec: leaf `MoveAllTo(recipient)`: "appends all of one page's entries
onto a sibling"; the recipient takes over the forward link ("merge and set recipient's
next page id", as the comment in `Coalesce` puts it). -/
def MoveAllToLeaf (node recipient : page_id_t) : TM Unit := do
  let node_data ← getPage node
  modifyPage recipient
    (fun r => { r with array := r.array ++ node_data.array,
                       next_page_id_ := node_data.next_page_id_ })
  modifyPage node (fun p => p.SetSize 0)

/-- Modelled from the spec: leaf `MoveFirstToEndOf(recipient)`: "moves exactly one entry
between two siblings". -/
def MoveFirstToEndOfLeaf (node recipient : page_id_t) : TM Unit := do
  let node_data ← getPage node
  let first ← TM.ofOption (node_data.slot? 0)
  modifyPage recipient (fun r => { r with array := r.array ++ [first] })
  modifyPage node (fun p => { p with array := p.array.tail })

/-- Modelled from the spec: leaf `MoveLastToFrontOf(recipient)`. -/
def MoveLastToFrontOfLeaf (node recipient : page_id_t) : TM Unit := do
  let node_data ← getPage node
  let last ← TM.ofOption (node_data.slot? ((node_data.GetSize : Int) - 1))
  modifyPage recipient (fun r => { r with array := last :: r.array })
  modifyPage node (fun p => p.DecreaseSize)

/-- The loop of internal `MoveAllTo`: slot by slot, the pair is stored behind the
recipient's slots and the page it points to is adopted. -/
def moveAllLoop (recipient recipient_id : page_id_t) : List (KeyType × Int) → TM Unit
  | [] => pure ()
  | item :: items => do
    modifyPage recipient (fun r => { r with array := r.array ++ [item] })
    REPLACE item.2 recipient_id
    moveAllLoop recipient recipient_id items

/-- Internal page `MoveAllTo(recipient, middle_key, buffer_pool_manager)`. -/
def MoveAllToInternal (node recipient : page_id_t) (middle_key : KeyType) : TM Unit := do
  let node_data ← getPage node
  let recipient_data ← getPage recipient
  let recipient_old_size := recipient_data.GetSize
  let recipient_id := recipient_data.page_id_
  moveAllLoop recipient recipient_id node_data.array
  modifyPage recipient (fun r => r.SetKeyAt recipient_old_size middle_key)
  modifyPage node (fun p => p.SetSize 0)

/-- Internal page `MoveFirstToEndOf(recipient, middle_key, buffer_pool_manager)`. -/
def MoveFirstToEndOfInternal (node recipient : page_id_t) (middle_key : KeyType) :
    TM Unit := do
  let node_data ← getPage node
  let first ← TM.ofOption (node_data.slot? 0)
  modifyPage recipient (fun r => { r with array := r.array ++ [(middle_key, first.2)] })
  let recipient_data ← getPage recipient
  REPLACE first.2 recipient_data.page_id_
  modifyPage node (fun p => { p with array := p.array.tail })

/-- Internal page `MoveLastToFrontOf(recipient, middle_key, buffer_pool_manager)`. -/
def MoveLastToFrontOfInternal (node recipient : page_id_t) (middle_key : KeyType) :
    TM Unit := do
  let node_data ← getPage node
  let last ← TM.ofOption (node_data.slot? ((node_data.GetSize : Int) - 1))
  modifyPage recipient (fun r =>
    { r with array :=
        match r.array with
        | [] => [(0, last.2)]
        | e :: es => (e.1, last.2) :: (middle_key, e.2) :: es })
  let recipient_data ← getPage recipient
  REPLACE last.2 recipient_data.page_id_
  modifyPage node (fun p => p.DecreaseSize)

/-- Method `Redistribute(neighbor_node, node, index)` for internal pages. -/
def RedistributeInternal (neighbor_node node : page_id_t) (index : Int) : TM Unit := do
  let node_data ← getPage node
  let parent_id := node_data.parent_page_id_
  FetchPage parent_id
  let parent_data ← getPage parent_id
  let neighbor_data ← getPage neighbor_node
  (if index < 0 then do
    let tmp ← TM.ofOption (neighbor_data.slot? 1)
    let middle ← TM.ofOption (parent_data.slot? (-index))
    MoveFirstToEndOfInternal neighbor_node node middle.1
    modifyPage parent_id (fun p => p.SetKeyAt (-index).toNat tmp.1)
  else do
    let tmp ← TM.ofOption (neighbor_data.slot? ((neighbor_data.GetSize : Int) - 1))
    let middle ← TM.ofOption (parent_data.slot? index)
    MoveLastToFrontOfInternal neighbor_node node middle.1
    modifyPage parent_id (fun p => p.SetKeyAt index.toNat tmp.1))
  let _ ← UnpinPage parent_id true
  pure ()

/-- Method `Redistribute(neighbor_node, node, index)` for leaf pages. -/
def RedistributeLeaf (neighbor_node node : page_id_t) (index : Int) : TM Unit := do
  let node_data ← getPage node
  let parent_id := node_data.parent_page_id_
  FetchPage parent_id
  (if index < 0 then do
    MoveFirstToEndOfLeaf neighbor_node node
    let neighbor_data ← getPage neighbor_node
    let first ← TM.ofOption (neighbor_data.slot? 0)
    modifyPage parent_id (fun p => p.SetKeyAt (-index).toNat first.1)
  else do
    MoveLastToFrontOfLeaf neighbor_node node
    let node_data ← getPage node
    let first ← TM.ofOption (node_data.slot? 0)
    modifyPage parent_id (fun p => p.SetKeyAt index.toNat first.1))
  let _ ← UnpinPage parent_id true
  pure ()

/-- The call of `MoveAllTo` in `Coalesce`: the right one of the two siblings is emptied
into the left one; for internal pages the key between them comes from the parent. -/
def CoalesceMove (isLeaf : Bool) (neighbor_node node parent : page_id_t) (index : Nat) :
    TM Unit :=
  if isLeaf then
    (if index = 0 then MoveAllToLeaf neighbor_node node
     else MoveAllToLeaf node neighbor_node)
  else do
    let parent_data ← getPage parent
    (if index = 0 then do
      let middle ← TM.ofOption (parent_data.slot? 1)
      MoveAllToInternal neighbor_node node middle.1
    else do
      let middle ← TM.ofOption (parent_data.slot? index)
      MoveAllToInternal node neighbor_node middle.1)

/-- Method `Coalesce(&neighbor_node, &node, &parent, index, transaction)`, for leaf pages
(`isLeaf`) and for internal pages. -/
def Coalesce (isLeaf : Bool) (neighbor_node node parent : page_id_t) (index : Nat) :
    TM Bool := do
  CoalesceMove isLeaf neighbor_node node parent index
  modifyPage parent (fun p => p.Remove (if index = 0 then 1 else index))
  let parent_data ← getPage parent
  pure (decide (parent_data.GetSize < parent_data.GetMinSize))

/-- Method `AdjustRoot(old_root_node)`. -/
def AdjustRoot (old_root_node : page_id_t) : TM Bool := do
  let old_root ← getPage old_root_node
  if old_root.IsLeafPage ∧ old_root.GetSize = 0 then do
    TM.modify (fun s => { s with root_page_id_ := INVALID_PAGE_ID })
    FetchHeaderPage
    WLatch HEADER_PAGE_ID
    TM.modify (fun s => { s with header_record := none })
    WUnlatch HEADER_PAGE_ID
    let _ ← UnpinPage HEADER_PAGE_ID true
    pure true
  else if ¬ old_root.IsLeafPage ∧ old_root.GetSize = 1 then do
    let only ← TM.ofOption (old_root.slot? 0)
    modifyPage old_root_node (fun p => p.SetSize 0)
    TM.modify (fun s => { s with root_page_id_ := only.2 })
    FetchPage only.2
    WLatch only.2
    modifyPage only.2 (fun p => p.SetParentPageId INVALID_PAGE_ID)
    WUnlatch only.2
    let _ ← UnpinPage only.2 true
    UpdateRootPageId false
    pure true
  else pure false

/-- One sibling test of `CoalesceOrRedistribute`: the sibling is fetched and latched; when
its slots and those of the page fit into one page it is released again and the result is
`false` (`sibling_page_data = nullptr`). -/
def testSibling (page_data : BPlusTreePage) (sibling_id : page_id_t) : TM Bool := do
  FetchPage sibling_id
  let sibling_data ← getPage sibling_id
  WLatch sibling_id
  if sibling_data.GetSize + page_data.GetSize ≤ page_data.GetMaxSize then do
    WUnlatch sibling_id
    let _ ← UnpinPage sibling_id false
    pure false
  else pure true

/-- The two sibling tests at the start of `CoalesceOrRedistribute`: the result is the
sibling to redistribute with (`none` for `sibling_page_data == nullptr`) and
`redistribute_index`. -/
def findRedistributeSibling (page_data parent_data : BPlusTreePage) (page_index : Nat) :
    TM (Option page_id_t × Int) := do
  let left ← (if page_index > 0 then do
      let e ← TM.ofOption (parent_data.slot? ((page_index : Int) - 1))
      let keep ← testSibling page_data e.2
      pure (if keep then some e.2 else none)
    else pure none)
  match left with
  | some sibling_id => pure (some sibling_id, (page_index : Int))
  | none =>
    if page_index + 1 < parent_data.GetSize then do
      let e ← TM.ofOption (parent_data.slot? ((page_index : Int) + 1))
      let keep ← testSibling page_data e.2
      pure (if keep then (some e.2, -((page_index : Int) + 1)) else (none, (page_index : Int)))
    else pure (none, (page_index : Int))

/-- The redistribute branch of `CoalesceOrRedistribute`. -/
def RedistributeWith (isLeaf : Bool) (sibling_id page parent_page parent_id : page_id_t)
    (redistribute_index : Int) : TM Unit := do
  (if isLeaf then RedistributeLeaf sibling_id page redistribute_index
   else RedistributeInternal sibling_id page redistribute_index)
  WUnlatch sibling_id
  let _ ← UnpinPage sibling_id true
  WUnlatch parent_page
  let _ ← UnpinPage parent_id false
  pure ()

/-- The coalesce branch of `CoalesceOrRedistribute` up to the handling of the sibling; the
result is `CR_recursively`. -/
def CoalesceWith (isLeaf : Bool) (page parent_page : page_id_t) (parent_data : BPlusTreePage)
    (page_index : Nat) : TM Bool := do
  let e ← TM.ofOption
    (parent_data.slot? (if page_index = 0 then 1 else (page_index : Int) - 1))
  let sibling_id := e.2
  FetchPage sibling_id
  WLatch sibling_id
  let CR_recursively ← Coalesce isLeaf sibling_id page parent_page page_index
  WUnlatch sibling_id
  let _ ← UnpinPage sibling_id true
  (if page_index = 0 then do
    AddIntoDeletedPageSet sibling_id
    let _ ← DeletePage sibling_id
    pure ()
  else pure ())
  pure CR_recursively

/-- The statement `if (parent_delete) { AddIntoDeletedPageSet(parent_id); DeletePage(parent_id); }`
after the parent has been released. -/
def releaseParent (parent_page parent_id : page_id_t) (parent_delete : Bool) : TM Unit := do
  WUnlatch parent_page
  let _ ← UnpinPage parent_id true
  (if parent_delete then do
    AddIntoDeletedPageSet parent_id
    let _ ← DeletePage parent_id
    pure ()
  else pure ())

/-- The coalesce branch of `CoalesceOrRedistribute`; `recur` is the call
`CoalesceOrRedistribute(parent_page_data, transaction)` made when the parent has become too
small. -/
def CoalesceAndRecurse (isLeaf : Bool) (page parent_page parent_id : page_id_t)
    (parent_data : BPlusTreePage) (page_index : Nat) (rest : List page_id_t)
    (recur : TM (Bool × List page_id_t)) : TM (Bool × List page_id_t) := do
  let CR_recursively ← CoalesceWith isLeaf page parent_page parent_data page_index
  let r ← (if CR_recursively then do
      let page_data ← getPage page
      FetchPage page_data.page_id_
      WUnlatch page
      let r ← recur
      WLatch page
      let page_data ← getPage page
      let _ ← UnpinPage page_data.page_id_ true
      pure r
    else pure (false, rest))
  releaseParent parent_page parent_id r.1
  pure (decide (page_index ≠ 0), r.2)

/-- Method `CoalesceOrRedistribute<N>(page_data, transaction)`, for `N` the leaf page type
(`isLeaf`) and the internal page type; the `List` argument and result are the
transaction's page set (head is `back()`). -/
def CoalesceOrRedistribute (isLeaf : Bool) (page : page_id_t) :
    List page_id_t → TM (Bool × List page_id_t)
  | [] => do
    let page_data ← getPage page
    if page_data.IsRootPage then do
      let r ← AdjustRoot page
      pure (r, [])
    else TM.fault
  | parent_page :: rest => do
    let page_data ← getPage page
    if page_data.IsRootPage then do
      let r ← AdjustRoot page
      pure (r, parent_page :: rest)
    else do
      let parent_data ← getPage parent_page
      let parent_id := parent_data.page_id_
      let page_index ← TM.ofOption (parent_data.ValueIndex page_data.page_id_)
      let found ← findRedistributeSibling page_data parent_data page_index
      match found.1 with
      | some sibling_id => do
        RedistributeWith isLeaf sibling_id page parent_page parent_id found.2
        pure (false, rest)
      | none =>
        CoalesceAndRecurse isLeaf page parent_page parent_id parent_data page_index rest
          (CoalesceOrRedistribute false parent_page rest)

/-- The end of `Remove`: the leaf is released, and deleted when `CoalesceOrRedistribute`
asked for it. -/
def releaseLeaf (leaf_page leaf_page_id : page_id_t) (leaf_delete : Bool) : TM Unit := do
  WUnlatch leaf_page
  let _ ← UnpinPage leaf_page_id true
  (if leaf_delete then do
    AddIntoDeletedPageSet leaf_page_id
    let _ ← DeletePage leaf_page_id
    pure ()
  else pure ())

/-- Method `Remove(key, transaction)`. -/
def Remove (key : KeyType) : TM Unit := do
  let r ← LatchCrabbingToLeaf OPERATION_TYPE.DELETE_TRAVEL key
  match r.1 with
  | none => unlockRootIf r.2.2
  | some leaf_page => do
    let leaf_data ← getPage leaf_page
    let leaf_page_id := leaf_data.page_id_
    modifyPage leaf_page (fun p => p.RemoveAndDeleteRecord key)
    let leaf_data ← getPage leaf_page
    let c ← (if leaf_data.GetSize < leaf_data.GetMinSize then
        CoalesceOrRedistribute true leaf_page r.2.1
      else pure (false, r.2.1))
    releaseLeaf leaf_page leaf_page_id c.1
    CLEAN_ROUTINE c.2 r.2.2

/-! ## `storage/index/index_iterator.cpp` -/

/-- State of an `IndexIterator`: the anchored leaf (`none` for `nullptr`) and the slot. -/
structure IndexIterator where
  leaf_page_ : Option page_id_t
  index_ : Int
  deriving DecidableEq

/-- Method `FindLeafPage(key, leftMost)`. -/
def FindLeafPage (key : KeyType) (leftMost : Bool) : TM (Option page_id_t) := do
  let r ← LatchCrabbingToLeaf
    (if leftMost then OPERATION_TYPE.REACH_LEFTMOST else OPERATION_TYPE.SEARCH_TRAVEL) key
  pure r.1

/-- Method `begin()`; the assertion `page != nullptr` faults on the empty tree. -/
def BPlusTree.begin : TM IndexIterator := do
  let page ← FindLeafPage 0 true
  match page with
  | none => TM.fault
  | some p => do
    RUnlatch p
    pure { leaf_page_ := some p, index_ := 0 }

/-- Method `Begin(key)`. -/
def BPlusTree.Begin (key : KeyType) : TM IndexIterator := do
  let page ← FindLeafPage key false
  match page with
  | none => pure { leaf_page_ := none, index_ := 0 }
  | some p => do
    RUnlatch p
    let page_data ← getPage p
    pure { leaf_page_ := some p, index_ := (page_data.KeyIndex key : Int) }

/-- Method `end()`. -/
def BPlusTree.end_ : IndexIterator := { leaf_page_ := none, index_ := 0 }

namespace IndexIterator

/-- Method `isEnd()`. -/
def isEnd (it : IndexIterator) : TM Bool :=
  match it.leaf_page_ with
  | none => pure true
  | some p => do
    let leaf ← getPage p
    pure (it.index_ = (leaf.GetSize : Int) && leaf.next_page_id_ = INVALID_PAGE_ID)

/-- Method `operator*()`; the `runtime_error` thrown at the end position is embedded as the
exception outcome, a slot outside the leaf as a fault. -/
def deref (it : IndexIterator) : TM (KeyType × ValueType) := do
  let e ← it.isEnd
  if e then TM.raise
  else
    match it.leaf_page_ with
    | none => TM.fault
    | some p => do
      let leaf ← getPage p
      TM.ofOption (leaf.slot? it.index_)

/-- Method `operator++()`. -/
def next (it : IndexIterator) : TM IndexIterator := do
  let e ← it.isEnd
  if e then pure it
  else
    match it.leaf_page_ with
    | none => TM.fault
    | some p => do
      let leaf ← getPage p
      if it.index_ < (leaf.GetSize : Int) - 1 then pure { it with index_ := it.index_ + 1 }
      else if leaf.next_page_id_ ≠ INVALID_PAGE_ID then do
        let _ ← UnpinPage leaf.page_id_ false
        FetchPage leaf.next_page_id_
        pure { leaf_page_ := some leaf.next_page_id_, index_ := 0 }
      else pure { it with index_ := it.index_ + 1 }

end IndexIterator

/-- The client loop `for (it = begin(); !it.isEnd(); ++it) out.push_back((*it).first)`; the
first argument bounds the number of iterations. -/
def scanFrom : Nat → IndexIterator → TM (List KeyType)
  | 0, _ => TM.fault
  | fuel + 1, it => do
    let e ← it.isEnd
    if e then pure []
    else do
      let kv ← it.deref
      let it2 ← it.next
      let rest ← scanFrom fuel it2
      pure (kv.1 :: rest)

/-- The keys met by an iteration from `begin()` until `isEnd()`. -/
def scan (fuel : Nat) : TM (List KeyType) := do
  let it ← BPlusTree.begin
  scanFrom fuel it

/-- Total-correctness weakest precondition: from `s` the code runs to a result without
exception or fault, and the result and final state satisfy `Q`. -/
def wp {α : Type} (m : TM α) (Q : α → TState → Prop) (s : TState) : Prop :=
  ∃ a t, m.run s = Res.ok a t ∧ Q a t

/-- The keys at slots `1 ..` are strictly ascending. -/
def KeysAscending (arr : List (KeyType × Int)) : Prop :=
  ∀ i j ei ej, 1 ≤ i → i < j → arr[i]? = some ei → arr[j]? = some ej → ei.1 < ej.1

/-- Slot `e` is the greatest slot from `1` on whose key is at most `key`, or slot 0 when
there is none. -/
def IsLookupSlot (arr : List (KeyType × Int)) (key : KeyType) (e : Nat) : Prop :=
  e < arr.length ∧
  (∀ i ei, 1 ≤ i → i ≤ e → arr[i]? = some ei → ei.1 ≤ key) ∧
  (∀ i ei, e < i → arr[i]? = some ei → key < ei.1)

/-! ## Tree invariant -/

/-- The part of the state the shape of the tree depends on. -/
structure TreeView where
  pages : Int → Option BPlusTreePage
  root : Int
  lmax : Nat
  imax : Nat
  next : Int

/-- The tree as stored in a state. -/
def TState.view (s : TState) : TreeView :=
  { pages := s.pages, root := s.root_page_id_, lmax := s.leaf_max_size_,
    imax := s.internal_max_size_, next := s.next_page_id_ }

/-- Auxiliary description of a tree: which pages belong to it, their height above the
leaves, the half-open key range `[lo, hi)` each is responsible for (`none`: unbounded)
and their parent. -/
structure Ghost where
  live : Int → Prop
  lvl : Int → Nat
  lo : Int → Option Int
  hi : Int → Option Int
  par : Int → Int

/-- Lower bound `l` is at most `k`. -/
def loLe (l : Option Int) (k : Int) : Prop := ∀ a, l = some a → a ≤ k

/-- Key `k` is below the upper bound `h`. -/
def ltHi (k : Int) (h : Option Int) : Prop := ∀ b, h = some b → k < b

/-- The range `[l, h)` is not empty. -/
def bLt (l h : Option Int) : Prop := ∀ a b, l = some a → h = some b → a < b

/-- Page `c` is a child of `p` responsible for `[l, h)`. -/
structure ChildAt (G : Ghost) (p c : Int) (l h : Option Int) : Prop where
  live : G.live c
  par : G.par c = p
  lvl : G.lvl c + 1 = G.lvl p
  lo : G.lo c = l
  hi : G.hi c = h
  ne : bLt l h

/-- The slots `arr` of internal page `p` split `[l, h)` among their children: the first
slot starts at `l` (its key is not used), every later slot starts at its key. -/
def Seg (G : Ghost) (p : Int) : Option Int → List (KeyType × Int) → Option Int → Prop
  | _, [], _ => False
  | l, [e], h => ChildAt G p e.2 l h
  | l, e :: e2 :: rest, h => ChildAt G p e.2 l (some e2.1) ∧ Seg G p (some e2.1) (e2 :: rest) h

/-- What the invariant asks of the page `pg` stored under the live page id `p`.  The
page `E`, if given, is exempt from the lower bounds on sizes. -/
structure PageGood (t : TreeView) (G : Ghost) (E : Option Int) (p : Int)
    (pg : BPlusTreePage) : Prop where
  id : pg.page_id_ = p
  parent : pg.parent_page_id_ = G.par p
  root_iff : G.par p = INVALID_PAGE_ID ↔ p = t.root
  attached : G.par p ≠ INVALID_PAGE_ID →
    G.live (G.par p) ∧ G.lvl (G.par p) = G.lvl p + 1 ∧
      ∃ ppg, t.pages (G.par p) = some ppg ∧ p ∈ ppg.array.map Prod.snd
  range_ne : bLt (G.lo p) (G.hi p)
  leaf_type : G.lvl p = 0 → pg.page_type_ = IndexPageType.LEAF_PAGE ∧ pg.max_size_ = t.lmax
  leaf_sorted : G.lvl p = 0 → (pg.array.map Prod.fst).Pairwise (fun a b => a < b)
  leaf_range : G.lvl p = 0 → ∀ e ∈ pg.array, loLe (G.lo p) e.1 ∧ ltHi e.1 (G.hi p)
  leaf_ne : G.lvl p = 0 → E ≠ some p → pg.array ≠ []
  next_end : G.lvl p = 0 → (pg.next_page_id_ = INVALID_PAGE_ID ↔ G.hi p = none)
  next_ok : G.lvl p = 0 → pg.next_page_id_ ≠ INVALID_PAGE_ID →
    G.live pg.next_page_id_ ∧ G.lvl pg.next_page_id_ = 0 ∧ G.lo pg.next_page_id_ = G.hi p
  int_type : G.lvl p ≠ 0 →
    pg.page_type_ = IndexPageType.INTERNAL_PAGE ∧ pg.max_size_ = t.imax
  int_seg : G.lvl p ≠ 0 → Seg G p (G.lo p) pg.array (G.hi p)
  int_size : G.lvl p ≠ 0 → E ≠ some p → 2 ≤ pg.array.length

/-- The tree invariant, relative to a description `G` and an exempt page `E`. -/
structure Good (t : TreeView) (G : Ghost) (E : Option Int) : Prop where
  lmax_pos : 1 ≤ t.lmax
  imax_ge : 3 ≤ t.imax
  next_nonneg : 0 ≤ t.next
  root_none : t.root = INVALID_PAGE_ID → ∀ p, ¬ G.live p
  root_live : t.root ≠ INVALID_PAGE_ID →
    G.live t.root ∧ G.lo t.root = none ∧ G.hi t.root = none
  live_range : ∀ p, G.live p → 0 ≤ p ∧ p < t.next
  lvl_le : ∀ p, G.live p → G.lvl p ≤ G.lvl t.root
  lvl_fuel : t.root ≠ INVALID_PAGE_ID → (G.lvl t.root : Int) < t.next
  page : ∀ p, G.live p → ∃ pg, t.pages p = some pg ∧ PageGood t G E p pg

/-- The pair `(k, v)` is stored in a leaf of the tree. -/
def Stored (t : TreeView) (G : Ghost) (k : KeyType) (v : ValueType) : Prop :=
  ∃ p pg, G.live p ∧ G.lvl p = 0 ∧ t.pages p = some pg ∧ (k, v) ∈ pg.array

/-- State `s` holds the tree `v`, no `NewPage` call can fail, the pins held are exactly
those of the multiset `h`, and the root lock is held iff `b`. -/
def St (s : TState) (v : TreeView) (h : Multiset Int) (b : Bool) : Prop :=
  s.view = v ∧ s.new_budget = none ∧ (∀ p, s.pin p = (h.count p : Int)) ∧ s.root_mutex_ = b

/-- The view after the page stored under `p` is replaced. -/
def TreeView.setPage (v : TreeView) (p : Int) (pg : BPlusTreePage) : TreeView :=
  { v with pages := Function.update v.pages p (some pg) }

/-- The view after `NewPage` handed out a zeroed page. -/
def TreeView.alloc (v : TreeView) : TreeView :=
  { v with pages := Function.update v.pages v.next (some BPlusTreePage.zero),
           next := v.next + 1 }

/-- The view after the page stored under `p` is deleted. -/
def TreeView.delPage (v : TreeView) (p : Int) : TreeView :=
  { v with pages := Function.update v.pages p none }

/-- The view after the root id is set. -/
def TreeView.setRoot (v : TreeView) (r : Int) : TreeView :=
  { v with root := r }

/-- Key `k` lies in the range page `p` is responsible for. -/
def InRange (G : Ghost) (p : Int) (k : Int) : Prop := loLe (G.lo p) k ∧ ltHi k (G.hi p)

/-- The safety test `LatchCrabbingToLeaf` applies to an internal page. -/
def safeFor (insert : Bool) (pg : BPlusTreePage) : Bool :=
  if insert then pg.IS_INSERT_SAFE else pg.IS_DELETE_SAFE

/-- The page set `queue` (head is `back()`) holds the ancestors of `node`, bottom-up, up to
the first one that was safe in the tree `v`, or up to the root. -/
def PathQ (v : TreeView) (G : Ghost) (insert : Bool) : Int → List Int → Prop
  | node, [] => node = v.root
  | node, q :: rest =>
    node ≠ v.root ∧ G.par node = q ∧ G.live q ∧ G.lvl q = G.lvl node + 1 ∧
      (((∃ pg, v.pages q = some pg ∧ safeFor insert pg = true) ∧ rest = []) ∨
        PathQ v G insert q rest)

/-- The description `H` agrees with `G` at page `x`. -/
structure GAgree (G H : Ghost) (x : Int) : Prop where
  live : G.live x → H.live x
  par : H.par x = G.par x
  lvl : H.lvl x = G.lvl x
  lo : H.lo x = G.lo x
  hi : H.hi x = G.hi x

/-- The description of a tree that consists of the single leaf `N`. -/
def Ghost.single (N : Int) : Ghost :=
  { live := fun p => p = N, lvl := fun _ => 0, lo := fun _ => none, hi := fun _ => none,
    par := fun _ => INVALID_PAGE_ID }

/-- The view after `StartNewTree(key, value)`. -/
def TreeView.startNew (v : TreeView) (key : KeyType) (value : ValueType) : TreeView :=
  (((v.alloc.setPage v.next
      (BPlusTreePage.zero.InitLeaf v.next INVALID_PAGE_ID v.lmax)).setPage v.next
      ((BPlusTreePage.zero.InitLeaf v.next INVALID_PAGE_ID v.lmax).InsertLeaf key value)).setRoot
      v.next)

/-- The description after page `old` handed the upper part of its range, from `key` on,
to the new page `new`; the pages in `moved` became children of `new`. -/
def Ghost.addSib (G : Ghost) (old new : Int) (key : Int) (moved : List Int) : Ghost :=
  { live := fun p => p = new ∨ G.live p
    lvl := fun p => if p = new then G.lvl old else G.lvl p
    lo := fun p => if p = new then some key else G.lo p
    hi := fun p => if p = new then G.hi old else if p = old then some key else G.hi p
    par := fun p => if p = new then G.par old else if p ∈ moved then new else G.par p }

/-- The description after the new root `r` was put over `old` and `new`. -/
def Ghost.addRoot (G : Ghost) (r old new : Int) : Ghost :=
  { live := fun p => p = r ∨ G.live p
    lvl := fun p => if p = r then G.lvl old + 1 else G.lvl p
    lo := fun p => if p = r then none else G.lo p
    hi := fun p => if p = r then none else G.hi p
    par := fun p => if p = r then INVALID_PAGE_ID else if p = old ∨ p = new then r
      else G.par p }

/-- The lower half a leaf keeps in a split. -/
def leafLow (pg : BPlusTreePage) (N : Int) : BPlusTreePage :=
  (pg.SetNextPageId N).SetSize pg.GetMinSize

/-- The page a leaf split creates. -/
def leafHigh (pg : BPlusTreePage) (N : Int) (lmax : Nat) : BPlusTreePage :=
  { ((BPlusTreePage.zero.InitLeaf N pg.parent_page_id_ lmax).SetNextPageId
      pg.next_page_id_) with array := pg.array.drop pg.GetMinSize }

/-- The view after `Split` of the leaf `L`. -/
def TreeView.splitLeaf (v : TreeView) (L : Int) (pg : BPlusTreePage) : TreeView :=
  { v with
    pages := Function.update (Function.update v.pages v.next (some (leafHigh pg v.next v.lmax)))
      L (some (leafLow pg v.next))
    next := v.next + 1 }

/-- The page `InsertIntoParent` sets up as the new root. -/
def rootPage (R : Int) (imax : Nat) (old : Int) (key : KeyType) (new : Int) : BPlusTreePage :=
  (BPlusTreePage.zero.InitInternal R INVALID_PAGE_ID imax).PopulateNewRoot old key new

/-- The view after `InsertIntoParent` created a new root over `old` and `new`. -/
def TreeView.newRoot (v : TreeView) (old : Int) (key : KeyType) (new : Int)
    (pgo pgn : BPlusTreePage) : TreeView :=
  { v with
    pages := Function.update (Function.update (Function.update v.pages v.next
      (some (rootPage v.next v.imax pgo.page_id_ key pgn.page_id_)))
      old (some (pgo.SetParentPageId v.next))) new (some (pgn.SetParentPageId v.next))
    root := v.next
    next := v.next + 1 }

/-- The pages stored under the ids in `cs` get the parent pointer `U`. -/
def reparent (cs : List Int) (U : Int) (f : Int → Option BPlusTreePage) :
    Int → Option BPlusTreePage :=
  fun p => if p ∈ cs then (f p).map (fun pg => pg.SetParentPageId U) else f p

/-- The lower part an internal page keeps in a split. -/
def intLow (pg : BPlusTreePage) : BPlusTreePage := pg.SetSize pg.GetMinSize

/-- The page an internal split creates. -/
def intHigh (pg : BPlusTreePage) (U : Int) (imax : Nat) : BPlusTreePage :=
  { (BPlusTreePage.zero.InitInternal U pg.parent_page_id_ imax) with
    array := pg.array.drop pg.GetMinSize }

/-- The children an internal split hands to the new page. -/
def movedOf (pg : BPlusTreePage) : List Int := (pg.array.drop pg.GetMinSize).map Prod.snd

/-- The view after `Split` of the internal page `P` whose slots are those of `pg`. -/
def TreeView.splitInt (t : TreeView) (P : Int) (pg : BPlusTreePage) : TreeView :=
  { t with
    pages := reparent (movedOf pg) t.next
      (Function.update (Function.update t.pages t.next (some (intHigh pg t.next t.imax)))
        P (some (intLow pg)))
    next := t.next + 1 }

/-- The view after `CopyNFrom(items)` on the recipient `U`, whose page was `g`. -/
def copyView (w : TreeView) (U : Int) (g : BPlusTreePage) (items : List (KeyType × Int)) :
    TreeView :=
  { w with
    pages := reparent (items.map Prod.snd) U
      (Function.update w.pages U (some { g with array := g.array ++ items })) }

/-- A split is pending: `new` was split off `old` and carries the keys from `key` on, and
recording it above `old` (in the parent at the head of the page set, or in a new root)
yields a tree that satisfies the invariant and stores what `S` describes. -/
def Pend (a : TreeView) (G : Ghost) (S : KeyType → ValueType → Prop) (old : Int)
    (key : KeyType) (new : Int) (queue : List Int) : Prop :=
  ∃ (pgo pgn : BPlusTreePage), a.pages old = some pgo ∧ a.pages new = some pgn ∧ pgo.page_id_ = old ∧
    pgn.page_id_ = new ∧ old ≠ new ∧ old < a.next ∧ new < a.next ∧
    (∀ q ∈ queue, q < a.next) ∧ 0 ≤ a.next ∧
    ((pgo.IsRootPage = true ∧ Good (a.newRoot old key new pgo pgn) G none ∧
        (∀ k w, Stored (a.newRoot old key new pgo pgn) G k w ↔ S k w)) ∨
     (pgo.IsRootPage = false ∧ ∃ (P : Int) (rest : List Int) (ppg : BPlusTreePage) (i : Nat) (f : KeyType × Int),
        queue = P :: rest ∧ a.pages P = some ppg ∧
        ppg.array[i]? = some f ∧ f.2 = old ∧
        Good (a.setPage P (ppg.InsertNodeAfterAt i key new)) G none ∧
        (∀ k w, Stored (a.setPage P (ppg.InsertNodeAfterAt i key new)) G k w ↔ S k w) ∧
        G.live P ∧ G.lvl P ≠ 0 ∧ G.live new ∧ G.par new = P ∧
        ((ppg.IS_INSERT_SAFE = true ∧ rest = []) ∨
          PathQ (a.setPage P (ppg.InsertNodeAfterAt i key new)) G true P rest)))

/-- The least number of slots the tree code leaves on a page other than the root: the
minimum size `ceil(max_size / 2)` on an internal page, and `floor(max_size / 2)` on a leaf,
which a split of a leaf of odd capacity leaves on the new page. -/
def lowerOf (pg : BPlusTreePage) : Nat :=
  if pg.IsLeafPage then pg.max_size_ / 2 else (pg.max_size_ + 1) / 2

/-- The occupancy condition on the page `pg` stored under `p`: at most `max_size` slots;
when `p` is not the root, at least `lowerOf pg` slots, where the page `E`, if given, may be
one slot short, and a page without any slot (one that has left the tree) is passed over. -/
def PageOcc (root : Int) (E : Option Int) (p : Int) (pg : BPlusTreePage) : Prop :=
  pg.array.length ≤ pg.max_size_ ∧
    (p ≠ root → (E = some p → lowerOf pg ≤ pg.array.length + 1) ∧
      (E ≠ some p → 0 < pg.array.length → lowerOf pg ≤ pg.array.length))

/-- The occupancy invariant of a view: every stored page satisfies the occupancy
condition, and nothing is stored under `INVALID_PAGE_ID`. -/
structure Occ (v : TreeView) (E : Option Int) : Prop where
  none_invalid : v.pages INVALID_PAGE_ID = none
  page : ∀ p pg, v.pages p = some pg → PageOcc v.root E p pg

/-- What holds of the two halves of a split before the split is recorded above them: the
occupancy invariant, the bounds on the old page even when it is the root, and the old page
is the root when it has no parent. -/
def OccPend (a : TreeView) (old : Int) : Prop :=
  Occ a none ∧ ∀ pgo, a.pages old = some pgo →
    pgo.array.length ≤ pgo.max_size_ ∧ lowerOf pgo ≤ pgo.array.length ∧
      (pgo.IsRootPage = true → old = a.root)

/-- The calls `Insert(k, v)` for the pairs of a list, in order; the result lists what the
calls returned. -/
def insertAll : List (KeyType × ValueType) → TM (List Bool)
  | [] => pure []
  | kv :: rest => do
    let r ← Insert kv.1 kv.2
    let rs ← insertAll rest
    pure (r :: rs)

/-- The description of the empty tree. -/
def Ghost.empty : Ghost :=
  { live := fun _ => False, lvl := fun _ => 0, lo := fun _ => none, hi := fun _ => none,
    par := fun _ => INVALID_PAGE_ID }

/-- State `s` is at rest (no pin is held, the root lock is free, `NewPage` cannot fail)
and holds a well-formed tree that stores exactly the pairs of the map `m`. -/
def Rep (s : TState) (m : KeyType → Option ValueType) : Prop :=
  ∃ G, St s s.view 0 false ∧ Good s.view G none ∧
    ∀ k w, Stored s.view G k w ↔ m k = some w

/-- The map that holds the pairs of a list; for a key that occurs twice, the first pair
counts. -/
def mapOf (kvs : List (KeyType × ValueType)) : KeyType → Option ValueType :=
  fun k => (kvs.find? (fun kv => kv.1 = k)).map Prod.snd

/-- The state reached by running tree code, when it returns. -/
def stateAfter {α : Type} (m : TM α) (s : TState) : TState :=
  match m.run s with
  | Res.ok _ t => t
  | _ => s

/-- The description after a change at two adjacent siblings `Y` (left) and `X` (right):
the bound between them becomes `b`, `X` stays in the tree only when `keepX` is set, and
the pages in `cs` get the parent `D`. -/
def Ghost.sib (G : Ghost) (Y X : Int) (b : Option Int) (keepX : Bool) (cs : List Int)
    (D : Int) : Ghost :=
  { live := fun p => G.live p ∧ (p = X → keepX = true)
    lvl := G.lvl
    lo := Function.update G.lo X b
    hi := Function.update G.hi Y b
    par := fun p => if p ∈ cs then D else G.par p }

/-- The view after a change at two adjacent siblings `Y` and `X` with parent `P`. -/
def TreeView.sib (v : TreeView) (cs : List Int) (D Y X P : Int)
    (yg xg ppg : BPlusTreePage) : TreeView :=
  { v with
    pages := Function.update (Function.update (Function.update (reparent cs D v.pages)
      Y (some yg)) X (some xg)) P (some ppg) }

/-- Two adjacent slots of an internal page. -/
structure Adjacent (G : Ghost) (P : Int) (ppg : BPlusTreePage) (j : Nat)
    (ey ex : KeyType × Int) : Prop where
  liveP : G.live P
  lvlP : G.lvl P ≠ 0
  slotY : ppg.array[j]? = some ey
  slotX : ppg.array[j + 1]? = some ex

/-- The left leaf after it has taken over the pairs of its right sibling. -/
def leafMerged (yg xg : BPlusTreePage) : BPlusTreePage :=
  { yg with array := yg.array ++ xg.array, next_page_id_ := xg.next_page_id_ }

/-- The left internal page after it has taken over the slots of its right sibling; the
key of the first slot taken over is the key between the two pages. -/
def intMerged (yg xg : BPlusTreePage) (mid : KeyType) : BPlusTreePage :=
  ({ yg with array := yg.array ++ xg.array } : BPlusTreePage).SetKeyAt yg.GetSize mid

/-- The right internal page after a child has been put in front of its slots; the key
between the two pages goes to the slot that was first. -/
def intPushFront (xg : BPlusTreePage) (mid : KeyType) (c : Int) : BPlusTreePage :=
  { xg with array :=
      match xg.array with
      | [] => [(0, c)]
      | e :: es => (e.1, c) :: (mid, e.2) :: es }

/-- The description after the only child `c` of the root `R` has become the root. -/
def Ghost.dropRoot (G : Ghost) (R c : Int) : Ghost :=
  { G with
    live := fun p => p ≠ R ∧ G.live p
    par := Function.update G.par c INVALID_PAGE_ID }

/-- The view after the only child `c` of the root `R` has become the root. -/
def TreeView.dropRoot (v : TreeView) (R c : Int) (rg cg : BPlusTreePage) : TreeView :=
  ((v.setPage R (rg.SetSize 0)).setRoot c).setPage c (cg.SetParentPageId INVALID_PAGE_ID)

/-- Pages that are not part of the tree at level `n` or above stay resident under their
id. -/
def Kept (a u : TreeView) (G : Ghost) (n : Nat) : Prop :=
  ∀ x pg, a.pages x = some pg → pg.page_id_ = x → (G.live x → G.lvl x < n) →
    ∃ pg2, u.pages x = some pg2 ∧ pg2.page_id_ = x

/-- There is no left sibling, or it fits into one page together with the page. -/
def LeftFits (v : TreeView) (pg ppg : BPlusTreePage) (i : Nat) : Prop :=
  i = 0 ∨ ∃ ey yg, ppg.array[i - 1]? = some ey ∧ v.pages ey.2 = some yg ∧
    yg.GetSize + pg.GetSize ≤ pg.GetMaxSize

/-- There is no right sibling, or it fits into one page together with the page. -/
def RightFits (v : TreeView) (pg ppg : BPlusTreePage) (i : Nat) : Prop :=
  ¬ (i + 1 < ppg.GetSize) ∨ ∃ ex xg, ppg.array[i + 1]? = some ex ∧ v.pages ex.2 = some xg ∧
    xg.GetSize + pg.GetSize ≤ pg.GetMaxSize

/-- The tree `(a1, G1)` is what a merge of `page` with a sibling under the parent `P`
made of the tree `(a, G)`. -/
structure Merged (a : TreeView) (G : Ghost) (page P : Int) (ppg : BPlusTreePage)
    (a1 : TreeView) (G1 : Ghost) : Prop where
  good : Good a1 G1 (some P)
  stored : ∀ k w, Stored a1 G1 k w ↔ Stored a G k w
  live_sub : ∀ x, G1.live x → G.live x
  lvl_eq : ∀ x, G1.lvl x = G.lvl x
  kept : Kept a a1 G (G.lvl page)
  root : a1.root = a.root
  page_res : ∃ pg2, a1.pages page = some pg2 ∧ pg2.page_id_ = page
  up_live : ∀ x, G.live x → G.lvl P ≤ G.lvl x → G1.live x ∧ G1.par x = G.par x
  up_pages : ∀ x, G.live x → G.lvl P < G.lvl x → a1.pages x = a.pages x
  parent : ∃ qg, a1.pages P = some qg ∧ qg.array.length + 1 = ppg.array.length ∧
    qg.max_size_ = ppg.max_size_

/-- What `CoalesceOrRedistribute` on `page` achieves: the tree is well formed again and
stores what it stored; the result tells whether `page` has left the tree. -/
def CoRPost (a : TreeView) (G : Ghost) (page : Int) (queue : List Int) (h : Multiset Int)
    (b : Bool) (r : Bool × List Int) (t : TState) : Prop :=
  ∃ u H, St t u (page ::ₘ ((r.2 : Multiset Int) + h)) b ∧ Good u H none ∧
    (∀ k w, Stored u H k w ↔ Stored a G k w) ∧ (r.1 = true → ¬ H.live page) ∧
    (∀ x ∈ r.2, x ∈ queue) ∧ (∀ x, H.live x → G.live x) ∧ Kept a u G (G.lvl page) ∧
    (u.root = INVALID_PAGE_ID → r.1 = true ∧ page = a.root ∧ G.lvl page = 0)

/-- The statement proved about `CoalesceOrRedistribute` for a given page set. -/
def CoRSpec (queue : List Int) : Prop :=
  ∀ (isLeaf : Bool) (page : Int) (s : TState) (a : TreeView) (G : Ghost)
    (h : Multiset Int) (b : Bool),
    St s a (page ::ₘ ((queue : Multiset Int) + h)) b →
    Good a G (some page) → G.live page → (isLeaf = true ↔ G.lvl page = 0) →
    PathQ a G false page queue →
    (∀ pg, a.pages page = some pg → pg.GetSize < pg.GetMinSize) →
    (∀ x ∈ h, G.live x → G.lvl x < G.lvl page) →
    wp (CoalesceOrRedistribute isLeaf page queue) (CoRPost a G page queue h b) s

/-- What `CoalesceOrRedistribute` on `page` achieves, with the occupancy invariant: under
the condition `F`, it holds of the result when it held but for `page`. -/
def CoRPostOcc (a : TreeView) (G : Ghost) (page : Int) (queue : List Int) (h : Multiset Int)
    (b : Bool) (F : Prop) (r : Bool × List Int) (t : TState) : Prop :=
  ∃ u H, St t u (page ::ₘ ((r.2 : Multiset Int) + h)) b ∧ Good u H none ∧
    (∀ k w, Stored u H k w ↔ Stored a G k w) ∧ (r.1 = true → ¬ H.live page) ∧
    (∀ x ∈ r.2, x ∈ queue) ∧ (∀ x, H.live x → G.live x) ∧ Kept a u G (G.lvl page) ∧
    (u.root = INVALID_PAGE_ID → r.1 = true ∧ page = a.root ∧ G.lvl page = 0) ∧
    (F → Occ a (some page) → Occ u none)

/-- The statement proved about `CoalesceOrRedistribute` for a given page set, with the
occupancy invariant. -/
def CoRSpecOcc (queue : List Int) : Prop :=
  ∀ (isLeaf : Bool) (page : Int) (s : TState) (a : TreeView) (G : Ghost)
    (h : Multiset Int) (b : Bool),
    St s a (page ::ₘ ((queue : Multiset Int) + h)) b →
    Good a G (some page) → G.live page → (isLeaf = true ↔ G.lvl page = 0) →
    PathQ a G false page queue →
    (∀ pg, a.pages page = some pg → pg.GetSize < pg.GetMinSize) →
    wp (CoalesceOrRedistribute isLeaf page queue) (CoRPostOcc a G page queue h b True) s

/-- The calls `Remove(k)` for the keys of a list, in order; the result lists the value of
`root_page_id_` before each call. -/
def removeAll : List KeyType → TM (List page_id_t)
  | [] => pure []
  | key :: rest => do
    let s ← TM.get
    Remove key
    let roots ← removeAll rest
    pure (s.root_page_id_ :: roots)

/-- A call of the index: `Insert(key, value)` or `Remove(key)`. -/
inductive Op where
  | insert (key : KeyType) (value : ValueType)
  | remove (key : KeyType)
  deriving DecidableEq

/-- One call of the index. -/
def runOp : Op → TM Unit
  | Op.insert key value => do
    let _ ← Insert key value
    pure ()
  | Op.remove key => Remove key

/-- The calls of a list, in order. -/
def runOps : List Op → TM Unit
  | [] => pure ()
  | op :: rest => do
    runOp op
    runOps rest

/-- The effect of a call on the map from keys to values that the index stands for. -/
def applyOp (m : KeyType → Option ValueType) : Op → KeyType → Option ValueType
  | Op.insert key value => if m key = none then Function.update m key (some value) else m
  | Op.remove key => Function.update m key none

/-- The map that the index stands for after the calls of a list, from the empty index. -/
def modelOf (ops : List Op) : KeyType → Option ValueType :=
  ops.foldl applyOp (fun _ => none)

/-- Page `q` belongs to the subtree of page `p`: it is `p`, or it belongs to the subtree
of a child that an internal page `p` points to. -/
inductive Under (s : TState) : page_id_t → page_id_t → Prop
  | self (p : page_id_t) : Under s p p
  | child (p q : page_id_t) (pg : BPlusTreePage) (e : KeyType × Int) :
      s.pages p = some pg → pg.IsLeafPage = false → e ∈ pg.array → Under s e.2 q →
      Under s p q

/-- Key `k` is stored in the subtree of page `c`: a leaf of that subtree holds it. -/
def SubtreeKey (s : TState) (c : page_id_t) (k : KeyType) : Prop :=
  ∃ q pg, Under s c q ∧ s.pages q = some pg ∧ pg.IsLeafPage = true ∧
    k ∈ pg.array.map Prod.fst

/-- The internal-node bound invariant: for every internal page of the tree and every slot
`i`, the keys stored in the subtree of `ValueAt(i)` are at least `KeyAt(i)` (for `i >= 1`)
and below `KeyAt(i + 1)` (for `i + 1 < GetSize()`). -/
def BoundInvariant (s : TState) : Prop :=
  s.root_page_id_ ≠ INVALID_PAGE_ID →
    ∀ p pg, Under s s.root_page_id_ p → s.pages p = some pg → pg.IsLeafPage = false →
      ∀ (i : Nat) (e : KeyType × Int), pg.array[i]? = some e →
        ∀ k, SubtreeKey s e.2 k →
          (1 ≤ i → e.1 ≤ k) ∧ (∀ e2, pg.array[i + 1]? = some e2 → k < e2.1)

/-- An ill-formed tree, as an example of what the bound invariant rules out: the root
separates its two leaves at key 5, but the left leaf holds key 7. -/
def misplacedKeyState : TState :=
  { BPlusTree.new 2 3 4 none with
    root_page_id_ := 3
    pages := fun p =>
      if p = 3 then
        some { page_type_ := IndexPageType.INTERNAL_PAGE, max_size_ := 3,
               parent_page_id_ := INVALID_PAGE_ID, page_id_ := 3, next_page_id_ := 0,
               array := [(0, 1), (5, 2)] }
      else if p = 1 then
        some { page_type_ := IndexPageType.LEAF_PAGE, max_size_ := 2, parent_page_id_ := 3,
               page_id_ := 1, next_page_id_ := 2, array := [(7, 70)] }
      else if p = 2 then
        some { page_type_ := IndexPageType.LEAF_PAGE, max_size_ := 2, parent_page_id_ := 3,
               page_id_ := 2, next_page_id_ := INVALID_PAGE_ID, array := [(9, 90)] }
      else none }

/-- The pairs of the leaves from leaf `p` to the last leaf, along the `next_page_id_`
links; every leaf on the way holds at least one pair. -/
inductive Chain (v : TreeView) : Int → List (KeyType × Int) → Prop
  | last (p : Int) (pg : BPlusTreePage) : v.pages p = some pg → pg.page_id_ = p →
      pg.array ≠ [] → pg.next_page_id_ = INVALID_PAGE_ID → Chain v p pg.array
  | more (p : Int) (pg : BPlusTreePage) (L : List (KeyType × Int)) : v.pages p = some pg →
      pg.page_id_ = p → pg.array ≠ [] → pg.next_page_id_ ≠ INVALID_PAGE_ID →
      Chain v pg.next_page_id_ L → Chain v p (pg.array ++ L)

/-- The iterator position `(p, i)` has the pairs `R` ahead of it. -/
def Pos (v : TreeView) (p : Int) (i : Nat) (R : List (KeyType × Int)) : Prop :=
  ∃ pg, v.pages p = some pg ∧ pg.page_id_ = p ∧
    ((pg.next_page_id_ = INVALID_PAGE_ID ∧ i ≤ pg.array.length ∧ R = pg.array.drop i) ∨
     (pg.next_page_id_ ≠ INVALID_PAGE_ID ∧ i < pg.array.length ∧
       ∃ L, Chain v pg.next_page_id_ L ∧ R = pg.array.drop i ++ L))

/-- The client program of the deletion contract: the pairs `kvs` are inserted, `Remove` is
called for the keys `rs`, then `IsEmpty()` is asked; the result lists the value of
`root_page_id_` before each `Remove` and what `IsEmpty()` returned. -/
def insertThenRemoveAll (kvs : List (KeyType × ValueType)) (rs : List KeyType) :
    TM (List page_id_t × Bool) := do
  let _ ← insertAll kvs
  let roots ← removeAll rs
  let e ← IsEmpty
  pure (roots, e)

/-- Bookkeeping invariant of the pool that holds after every sequence of calls, whatever
page ids are asked for: the free list and the page table are duplicate free, within the
pool and disjoint, a mapped frame carries the page id it is mapped under, and the
replacer, of capacity `pool_size_`, tracks only frames of the pool that are not free and
have pin count 0. -/
structure PoolBase (b : BufferPoolManager) : Prop where
  fl_nodup : b.free_list_.Nodup
  fl_range : ∀ f ∈ b.free_list_, 0 ≤ f ∧ f < b.pool_size_
  pt_keys : (b.page_table_.map Prod.fst).Nodup
  pt_vals : (b.page_table_.map Prod.snd).Nodup
  pt_range : ∀ e ∈ b.page_table_, 0 ≤ e.2 ∧ e.2 < b.pool_size_
  pt_disj : ∀ e ∈ b.page_table_, e.2 ∉ b.free_list_
  pt_id : ∀ e ∈ b.page_table_, (b.pages_ e.2).page_id_ = e.1
  rep : RInv b.replacer_
  rep_cap : b.replacer_.capacity_ = b.pool_size_
  rep_range : ∀ f ∈ b.replacer_.order_, 0 ≤ f ∧ f < b.pool_size_
  rep_free : ∀ f ∈ b.replacer_.order_, f ∉ b.free_list_
  rep_pin : ∀ f ∈ b.replacer_.order_, (b.pages_ f).pin_count_ = 0

/-! ## `include/primer/p0_starter.h` -/

/-- Class `RowMatrix<T>` with its base `Matrix<T>`, for `T` the integers: the dimensions
and the flattened array `linear` of `rows * cols` cells, row after row; `data_[i]` points
at cell `i * cols` of it. -/
structure RowMatrix where
  rows : Int
  cols : Int
  linear : List Int
  deriving DecidableEq

namespace RowMatrix

/-- Constructor `RowMatrix(r, c)`; `new T[r * c]` leaves the cells as they are in memory,
which `mem` describes. -/
def new (r c : Int) (mem : Nat → Int) : RowMatrix :=
  { rows := r, cols := c, linear := (List.range (r * c).toNat).map mem }

/-- Method `GetRows()`. -/
def GetRows (m : RowMatrix) : Int := m.rows

/-- Method `GetColumns()`. -/
def GetColumns (m : RowMatrix) : Int := m.cols

/-- Method `GetElem(i, j)`: outside the matrix the result is `data_[0][0]`. -/
def GetElem (m : RowMatrix) (i j : Int) : Int :=
  if 0 ≤ i ∧ i < m.rows ∧ 0 ≤ j ∧ j < m.cols then m.linear.getD (i * m.cols + j).toNat 0
  else m.linear.getD 0 0

/-- Method `SetElem(i, j, val)`: outside the matrix nothing is stored. -/
def SetElem (m : RowMatrix) (i j : Int) (val : Int) : RowMatrix :=
  if 0 ≤ i ∧ i < m.rows ∧ 0 ≤ j ∧ j < m.cols then
    { m with linear := m.linear.set (i * m.cols + j).toNat val }
  else m

/-- Method `MatImport(arr)`. -/
def MatImport (m : RowMatrix) (arr : List Int) : RowMatrix :=
  (List.range m.GetRows.toNat).foldl (fun (acc : RowMatrix) (i : Nat) =>
    (List.range m.GetColumns.toNat).foldl (fun (acc : RowMatrix) (j : Nat) =>
      acc.SetElem i j (arr.getD (i * m.GetColumns.toNat + j) 0)) acc) m

end RowMatrix

/-- Method `RowMatrixOperations<T>::AddMatrices(mat1, mat2)`; `none` stands for the null
pointer, `mem` for the memory the result is allocated in. -/
def AddMatrices (mem : Nat → Int) (mat1 mat2 : RowMatrix) : Option RowMatrix :=
  if mat1.GetRows ≠ mat2.GetRows ∨ mat1.GetColumns ≠ mat2.GetColumns then none
  else
    some ((List.range mat1.GetRows.toNat).foldl (fun (ret : RowMatrix) (i : Nat) =>
      (List.range mat2.GetColumns.toNat).foldl (fun (ret : RowMatrix) (j : Nat) =>
        ret.SetElem i j (mat1.GetElem i j + mat2.GetElem i j)) ret)
      (RowMatrix.new mat1.GetRows mat2.GetRows mem))

namespace IndexIterator

/-- Method `operator==(itr)`; `same_buffer_pool` is the outcome of the pointer comparison
`buffer_pool_manager_ == itr.buffer_pool_manager_`. -/
def operatorEq (it itr : IndexIterator) (same_buffer_pool : Bool) : TM Bool := do
  let e1 ← it.isEnd
  let both ← (if e1 then itr.isEnd else pure false)
  if both then pure true
  else do
    let e1 ← it.isEnd
    let one ← (if e1 then pure true else itr.isEnd)
    if one then pure false
    else pure (same_buffer_pool && decide (it.leaf_page_ = itr.leaf_page_) &&
      decide (it.index_ = itr.index_))

end IndexIterator

/-- A state with two chained leaves, `1` holding the keys 1 and 2 and `2` holding the key
3, in which leaf `1` is pinned once. -/
def twoLeafState : TState :=
  { BPlusTree.new 4 4 3 none with
    pages := fun p =>
      if p = 1 then some { BPlusTreePage.zero with
        page_type_ := IndexPageType.LEAF_PAGE, page_id_ := 1, next_page_id_ := 2,
        array := [(1, 10), (2, 20)] }
      else if p = 2 then some { BPlusTreePage.zero with
        page_type_ := IndexPageType.LEAF_PAGE, page_id_ := 2,
        next_page_id_ := INVALID_PAGE_ID, array := [(3, 30)] }
      else none
    pin := fun p => if p = 1 then 1 else 0 }

/-- A leaf page with the given header fields and slots. -/
def leafPage (max_size : Nat) (page_id parent_id next_page_id : page_id_t)
    (array : List (KeyType × Int)) : BPlusTreePage :=
  { page_type_ := IndexPageType.LEAF_PAGE, max_size_ := max_size,
    parent_page_id_ := parent_id, page_id_ := page_id, next_page_id_ := next_page_id,
    array := array }

/-- A tree with `leaf_max_size = 6` and `internal_max_size = 4` after the keys 1 to 11 have
been inserted in order: the root (page 3) has the three leaves 1, 2 and 4, which hold the
keys 1 to 3, 4 to 6 and 7 to 11. -/
def siblingState : TState :=
  stateAfter (insertAll [(1, 10), (2, 20), (3, 30), (4, 40), (5, 50), (6, 60), (7, 70),
    (8, 80), (9, 90), (10, 100), (11, 110)]) (BPlusTree.new 6 4 1 none)

/-- The state `siblingState` after the key 4 has been taken out of leaf 2, which leaves it
with two pairs, one less than the minimum. -/
def siblingShort : TState :=
  { siblingState with
    pages := Function.update siblingState.pages 2
      ((siblingState.pages 2).map (fun p => p.RemoveAndDeleteRecord 4)) }

/-- The value tree code returns, when it returns. -/
def resultOf {α : Type} (m : TM α) (s : TState) : Option α :=
  match m.run s with
  | Res.ok a _ => some a
  | _ => none

/-- An internal page with the given header fields and slots. -/
def internalPage (max_size : Nat) (page_id parent_id : page_id_t)
    (array : List (KeyType × Int)) : BPlusTreePage :=
  { page_type_ := IndexPageType.INTERNAL_PAGE, max_size_ := max_size,
    parent_page_id_ := parent_id, page_id_ := page_id, next_page_id_ := 0, array := array }

/-- A tree with `leaf_max_size = 2` and `internal_max_size = 3` in the middle of
`Insert(4, 40)`: the root (page 3) is full with the children 1, 2 and 4, and leaf 4 has just
been split, its upper half being the new leaf 5.  The root lock is held, the root and leaf 4
are pinned and write-latched by the descent, and the new leaf 5 is pinned. -/
def fullParentState : TState :=
  { BPlusTree.new 2 3 6 none with
    root_page_id_ := 3
    root_mutex_ := true
    pin := fun p => if p = 3 ∨ p = 4 ∨ p = 5 then 1 else 0
    wlatch := fun p => if p = 3 ∨ p = 4 then 1 else 0
    pages := fun p =>
      if p = 1 then some (leafPage 2 1 3 2 [(1, 10)])
      else if p = 2 then some (leafPage 2 2 3 4 [(2, 20)])
      else if p = 3 then some (internalPage 3 3 INVALID_PAGE_ID [(0, 1), (2, 2), (3, 4)])
      else if p = 4 then some (leafPage 2 4 3 5 [(3, 30)])
      else if p = 5 then some (leafPage 2 5 3 INVALID_PAGE_ID [(4, 40)])
      else none }

/-- The state with the number of `NewPage` calls that can still find a frame replaced. -/
def TState.withBudget (s : TState) (b : Option Nat) : TState := { s with new_budget := b }

/-- The outcome with the final state changed by `f`. -/
def Res.mapState {α : Type} (f : TState → TState) : Res α → Res α
  | Res.ok a t => Res.ok a (f t)
  | Res.throw t => Res.throw (f t)
  | Res.fault => Res.fault

/-- Code that does not call `NewPage`: it runs the same way whatever the number of frames
left, and leaves that number and the allocation counter as they are. -/
def Oblivious {α : Type} (m : TM α) : Prop :=
  (∀ s b, m.run (s.withBudget b) = (m.run s).mapState (fun t => t.withBudget b)) ∧
  (∀ s a t, m.run s = Res.ok a t →
    t.next_page_id_ = s.next_page_id_ ∧ t.new_budget = s.new_budget)

/-- Code built from state reads that do not look at the number of frames left, state
updates that leave it and the allocation counter alone, dereferences and sequencing: code
that calls no `NewPage` and has no `throw`. -/
inductive Built : {α : Type} → TM α → Prop
  | ret {α : Type} (a : α) : Built (pure a : TM α)
  | stop {α : Type} : Built (TM.fault : TM α)
  | read {β : Type} {f : TState → TM β} (hf : ∀ s b, f (s.withBudget b) = f s)
      (h : ∀ s, Built (f s)) : Built (TM.get >>= f)
  | write {f : TState → TState} (h1 : ∀ s b, f (s.withBudget b) = (f s).withBudget b)
      (h2 : ∀ s, (f s).next_page_id_ = s.next_page_id_ ∧ (f s).new_budget = s.new_budget) :
      Built (TM.modify f)
  | seq {α β : Type} {m : TM α} {f : α → TM β} (hm : Built m) (hf : ∀ a, Built (f a)) :
      Built (m >>= f)

/-- Code that has no `throw`. -/
def NoThrow {α : Type} (m : TM α) : Prop := ∀ s t, m.run s ≠ Res.throw t

/-- Code whose run with an unlimited pool determines its run with `n` frames left: when it
allocates `k` pages, it gives the same result for `k ≤ n` and throws for `n < k`. -/
def BudgetSim {α : Type} (m : TM α) : Prop :=
  ∀ s a t, s.new_budget = none → m.run s = Res.ok a t →
    t.new_budget = none ∧ ∃ k : Nat, t.next_page_id_ = s.next_page_id_ + k ∧
      ∀ n : Nat,
        (k ≤ n → m.run (s.withBudget (some n)) = Res.ok a (t.withBudget (some (n - k)))) ∧
        (n < k → ∃ t2, m.run (s.withBudget (some n)) = Res.throw t2)

/-- The state after a `NewPage` that found a frame, the number of frames left apart. -/
def TState.afterNew (s : TState) : TState :=
  { s with
    next_page_id_ := s.next_page_id_ + 1,
    pages := Function.update s.pages s.next_page_id_ (some BPlusTreePage.zero),
    pin := Function.update s.pin s.next_page_id_ 1 }

/-- From `s` to `t` nothing was released: the root lock is as it was and no page that
existed in `s` has lost a pin. -/
def Keep (s t : TState) : Prop :=
  t.root_mutex_ = s.root_mutex_ ∧ s.next_page_id_ ≤ t.next_page_id_ ∧
    ∀ p, p < s.next_page_id_ → s.pin p ≤ t.pin p

/-- Code that has released nothing when it returns. -/
def HoldsOk {α : Type} (m : TM α) : Prop := ∀ s a t, m.run s = Res.ok a t → Keep s t

/-- Code that has released nothing when it throws. -/
def Holds {α : Type} (m : TM α) : Prop := ∀ s t, m.run s = Res.throw t → Keep s t

/-- Code that leaves the root lock, the allocation counter and the pins alone. -/
def Still {α : Type} (m : TM α) : Prop :=
  ∀ s a t, m.run s = Res.ok a t →
    t.root_mutex_ = s.root_mutex_ ∧ t.next_page_id_ = s.next_page_id_ ∧ t.pin = s.pin

/-- The part of `InsertIntoLeaf` after the descent. -/
def insertAfterCrab (key : KeyType) (value : ValueType)
    (r : Option page_id_t × List page_id_t × Bool) : TM Bool :=
  match r.1 with
  | none => do
    StartNewTree key value
    unlockRootIf r.2.2
    pure true
  | some leaf_page => do
    let leaf_data ← getPage leaf_page
    match leaf_data.LookupLeaf key with
    | some _ => do
      WUnlatch leaf_page
      let _ ← UnpinPage leaf_data.page_id_ false
      CLEAN_ROUTINE r.2.1 r.2.2
      pure false
    | none => do
      modifyPage leaf_page (fun p => p.InsertLeaf key value)
      let leaf_data ← getPage leaf_page
      if ¬ leaf_data.IS_INSERT_SAFE then do
        let new_page ← SplitLeaf leaf_page
        WUnlatch leaf_page
        let new_data ← getPage new_page
        let first ← TM.ofOption (new_data.slot? 0)
        let queue ← InsertIntoParent leaf_page first.1 new_page r.2.1
        let _ ← UnpinPage new_data.page_id_ true
        let _ ← UnpinPage leaf_data.page_id_ true
        CLEAN_ROUTINE queue r.2.2
        pure true
      else do
        WUnlatch leaf_page
        let _ ← UnpinPage leaf_data.page_id_ true
        CLEAN_ROUTINE r.2.1 r.2.2
        pure true

/-- The state in which tree code has thrown, when it has. -/
def thrownState {α : Type} (m : TM α) (s : TState) : Option TState :=
  match m.run s with
  | Res.throw t => some t
  | _ => none

/-- A root leaf of capacity four that holds the keys 1, 2 and 3, in a pool that has no
frame left for a new page. -/
def fullLeafNoFrame : TState :=
  (stateAfter (insertAll [(1, 10), (2, 20), (3, 30)]) (BPlusTree.new 4 4 1 none)).withBudget
    (some 0)

/-- The occupancy the spec states: every page of the tree other than the root has
`ceil(max_size / 2) <= size <= max_size`. -/
def ClaimedOccupancy (s : TState) : Prop :=
  s.root_page_id_ ≠ INVALID_PAGE_ID →
    ∀ p, Under s s.root_page_id_ p → p ≠ s.root_page_id_ →
      ∃ pg, s.pages p = some pg ∧ pg.GetMinSize ≤ pg.GetSize ∧ pg.GetSize ≤ pg.GetMaxSize

/-- The occupancy the code keeps: every page of the tree other than the root is stored and
holds at most `max_size` slots; an internal page holds at least `ceil(max_size / 2)` slots,
the minimum size, and a leaf at least `floor(max_size / 2)` pairs, which is the minimum size
when the capacity of leaves is even. -/
def OccupancyInvariant (s : TState) : Prop :=
  s.root_page_id_ ≠ INVALID_PAGE_ID →
    ∀ p, Under s s.root_page_id_ p → p ≠ s.root_page_id_ →
      ∃ pg, s.pages p = some pg ∧ pg.GetSize ≤ pg.GetMaxSize ∧
        (pg.IsLeafPage = true →
          pg.GetMaxSize = s.leaf_max_size_ ∧ pg.GetMaxSize / 2 ≤ pg.GetSize ∧
          (pg.GetMaxSize % 2 = 0 → pg.GetMinSize ≤ pg.GetSize)) ∧
        (pg.IsLeafPage = false →
          pg.GetMaxSize = s.internal_max_size_ ∧ pg.GetMinSize ≤ pg.GetSize)

/-- The tree holding the pair `(7, 70)` in its root leaf (page 1), with one pin on that leaf
held from outside the tree, as by an iterator or another caller of `FetchPage`. -/
def pinnedLeafState : TState :=
  stateAfter (FetchPage 1) (stateAfter (Insert 7 70) (BPlusTree.new 2 3 1 none))

/-- The `while (begin != end)` loop of internal `Lookup` on the C++ `int`s `begin` and
`end`, over the memory of the page: `KeyAt(i)` is `keyAt i`, also for a slot outside the
size of the page.  The result is the final `end`; `none` says that the loop has not ended
within the number of iterations given as the first argument. -/
def lookupLoopInt (keyAt : Int → KeyType) (key : KeyType) : Nat → Int → Int → Option Int
  | 0, _, _ => none
  | fuel + 1, begin_, end_ =>
    if begin_ = end_ then some end_
    else if comparator_ (keyAt (Int.tdiv (begin_ + end_ + 1) 2)) key = -1 then
      lookupLoopInt keyAt key fuel (Int.tdiv (begin_ + end_ + 1) 2) end_
    else if comparator_ (keyAt (Int.tdiv (begin_ + end_ + 1) 2)) key = 0 then
      some (Int.tdiv (begin_ + end_ + 1) 2)
    else lookupLoopInt keyAt key fuel begin_ (Int.tdiv (begin_ + end_ + 1) 2 - 1)

/-- The iterations of the loop of internal `Lookup`, in order: `begin`, `end` and the slot
`middle` whose key the iteration compares with the search key. -/
def lookupTrace (keyAt : Int → KeyType) (key : KeyType) :
    Nat → Int → Int → List (Int × Int × Int)
  | 0, _, _ => []
  | fuel + 1, begin_, end_ =>
    if begin_ = end_ then []
    else
      (begin_, end_, Int.tdiv (begin_ + end_ + 1) 2) ::
        (if comparator_ (keyAt (Int.tdiv (begin_ + end_ + 1) 2)) key = -1 then
          lookupTrace keyAt key fuel (Int.tdiv (begin_ + end_ + 1) 2) end_
        else if comparator_ (keyAt (Int.tdiv (begin_ + end_ + 1) 2)) key = 0 then []
        else lookupTrace keyAt key fuel begin_ (Int.tdiv (begin_ + end_ + 1) 2 - 1))

/-- The leaf `q` is on the leaf chain that starts at the leaf `L`: it is reached from `L`
along next page ids. -/
inductive OnChain (pages : page_id_t → Option BPlusTreePage) (L : page_id_t) :
    page_id_t → Prop where
  | start : OnChain pages L L
  | step {q : page_id_t} {pg : BPlusTreePage} : OnChain pages L q → pages q = some pg →
      pg.next_page_id_ ≠ INVALID_PAGE_ID → OnChain pages L pg.next_page_id_

/-- The iterator is anchored at the resident leaf `L` on a slot below the size of `L`. -/
def InLeaf (s : TState) (it : IndexIterator) (L : page_id_t) : Prop :=
  ∃ leaf, it.leaf_page_ = some L ∧ s.pages L = some leaf ∧ it.index_ < (leaf.GetSize : Int)

/-- The client code `++it; ...; ++it` with `n` increments. -/
def nextN : Nat → IndexIterator → TM IndexIterator
  | 0, it => pure it
  | n + 1, it => do
    let it2 ← it.next
    nextN n it2

/-- A client that holds the frame `frame_id` stores `data` in its buffer. -/
def writeBuffer (b : BufferPoolManager) (frame_id : frame_id_t) (data : PageData) :
    BufferPoolManager :=
  { b with pages_ := Function.update b.pages_ frame_id { b.pages_ frame_id with data_ := data } }

/-- One step of the clients of the pool: a call on the public surface of the pool, or a
write into the buffer of a resident page. -/
inductive COp where
  | call (op : BOp)
  | write (page_id : page_id_t) (data : PageData)
  deriving DecidableEq

/-- Effect of one step of the clients on the pool state. -/
def COp.apply (b : BufferPoolManager) : COp → BufferPoolManager
  | COp.call op => op.apply b
  | COp.write page_id data =>
    match b.page_table_.lookup page_id with
    | some frame_id => writeBuffer b frame_id data
    | none => b

/-- The pool after the client steps `ops`, in list order, starting from `b`. -/
def clientRun (b : BufferPoolManager) (ops : List COp) : BufferPoolManager :=
  ops.foldl COp.apply b

/-- A client step respects the allocation discipline of the disk collaborator. -/
def COp.allocated (b : BufferPoolManager) : COp → Bool
  | COp.call op => op.allocated b
  | COp.write _ _ => true

/-- Every step of `ops`, in list order from `b`, respects the allocation discipline. -/
def AllocatedC : BufferPoolManager → List COp → Bool
  | _, [] => true
  | b, op :: ops => op.allocated b && AllocatedC (op.apply b) ops

/-- The client step does not name the page `p`: it is a `FetchPage`, `UnpinPage`,
`FlushPage` or `DeletePage` of another page id, a write into the buffer of another page, a
`NewPage` or a `FlushAllPages`. -/
def COp.avoids (p : page_id_t) : COp → Bool
  | COp.call (BOp.Fetch q) => decide (q ≠ p)
  | COp.call (BOp.Unpin q _) => decide (q ≠ p)
  | COp.call BOp.New => true
  | COp.call (BOp.Delete q) => decide (q ≠ p)
  | COp.call (BOp.Flush q) => decide (q ≠ p)
  | COp.call BOp.FlushAll => true
  | COp.write q _ => decide (q ≠ p)

/-- The content `C` of page `p` cannot get lost: the page id has been issued, and the page
is resident with content `C` and a dirty frame or a disk copy `C`, or it is not resident
and the disk holds `C`. -/
def Durable (b : BufferPoolManager) (p : page_id_t) (C : PageData) : Prop :=
  p < b.disk_manager_.next_page_id_ ∧
  ((∃ f, b.page_table_.lookup p = some f ∧ (b.pages_ f).data_ = C ∧
      ((b.pages_ f).is_dirty_ = true ∨ b.disk_manager_.content p = C)) ∨
    (b.page_table_.lookup p = none ∧ b.disk_manager_.content p = C))

/-- A tree whose root is the internal page 3 with the single child 1 (a leaf with the keys
5 and 7), as `Remove` leaves it after the last merge below the root. -/
def oneChildRootState : TState :=
  { root_page_id_ := 3, leaf_max_size_ := 2, internal_max_size_ := 3, root_mutex_ := true,
    pages := fun p =>
      if p = 3 then some (internalPage 3 3 INVALID_PAGE_ID [(0, 1)])
      else if p = 1 then
        some { page_type_ := IndexPageType.LEAF_PAGE, max_size_ := 2, parent_page_id_ := 3,
               page_id_ := 1, next_page_id_ := INVALID_PAGE_ID, array := [(5, 50), (7, 70)] }
      else none,
    pin := fun p => if p = 3 then 1 else 0,
    rlatch := fun _ => 0,
    wlatch := fun p => if p = 3 then 1 else 0,
    next_page_id_ := 4, new_budget := none, header_record := some 3,
    deleted_page_set := [2] }

/-- An internal page 3 of maximal size 4 with the children 1, 2, 4 and 5 (each an empty
internal page whose parent is 3) and the freshly initialised internal page 6. -/
def halfMoveState : TState :=
  { root_page_id_ := 3, leaf_max_size_ := 2, internal_max_size_ := 4, root_mutex_ := true,
    pages := fun p =>
      if p = 3 then some (internalPage 4 3 INVALID_PAGE_ID [(0, 1), (10, 2), (20, 4), (30, 5)])
      else if p = 6 then some (internalPage 4 6 INVALID_PAGE_ID [])
      else if p = 1 ∨ p = 2 ∨ p = 4 ∨ p = 5 then some (internalPage 4 p 3 [])
      else none,
    pin := fun _ => 0,
    rlatch := fun _ => 0,
    wlatch := fun _ => 0,
    next_page_id_ := 7, new_budget := none, header_record := some 3,
    deleted_page_set := [] }

/-- The internal root 9 with the children 3 and 6 (maximal size 6 each): page 3 has the
children 1 and 2, its right sibling 6 the children 4 and 5; every grandchild is an empty
internal page. -/
def mergeState : TState :=
  { root_page_id_ := 9, leaf_max_size_ := 2, internal_max_size_ := 6, root_mutex_ := true,
    pages := fun p =>
      if p = 3 then some (internalPage 6 3 9 [(0, 1), (10, 2)])
      else if p = 6 then some (internalPage 6 6 9 [(0, 4), (30, 5)])
      else if p = 1 ∨ p = 2 then some (internalPage 6 p 3 [])
      else if p = 4 ∨ p = 5 then some (internalPage 6 p 6 [])
      else if p = 9 then some (internalPage 6 9 INVALID_PAGE_ID [(0, 3), (20, 6)])
      else none,
    pin := fun _ => 0,
    rlatch := fun _ => 0,
    wlatch := fun _ => 0,
    next_page_id_ := 10, new_budget := none, header_record := some 9,
    deleted_page_set := [] }

/-- The root-to-leaf path `LatchCrabbingToLeaf` follows for `key` from page `p`: the
internal pages, top-down, and the leaf; `none` when a page on the way does not exist, the
lookup in an internal page fails, or the bound on the number of pages is exceeded. -/
def internalPath (pages : page_id_t → Option BPlusTreePage) (key : KeyType) :
    Nat → page_id_t → Option (List page_id_t × page_id_t)
  | 0, _ => none
  | fuel + 1, p =>
    match pages p with
    | none => none
    | some pg =>
      if pg.IsLeafPage then some ([], p)
      else
        match pg.LookupInternal key with
        | none => none
        | some c =>
          match pages c with
          | none => none
          | some _ => (internalPath pages key fuel c).map (fun r => (p :: r.1, r.2))

/-- The safety test of `LatchCrabbingToLeaf` on the page stored under an id. -/
def safeAt (pages : page_id_t → Option BPlusTreePage) (insert : Bool) (p : page_id_t) :
    Bool :=
  match pages p with
  | some pg => safeFor insert pg
  | none => false

/-- The page set (head is `back()`) after the write descent has passed the internal pages
of a list, top-down, starting with the page set `queue`: a safe page empties the set before
it is added. -/
def heldOf (safe : page_id_t → Bool) : List page_id_t → List page_id_t → List page_id_t
  | queue, [] => queue
  | queue, p :: ps => heldOf safe (if safe p then [p] else p :: queue) ps

/-- The pages of a top-down path from the deepest safe one on, or all of them if none is
safe. -/
def crabSet (safe : page_id_t → Bool) : List page_id_t → List page_id_t
  | [] => []
  | p :: ps => if ps.any safe then crabSet safe ps else p :: ps

/-- State `t` differs from `s` at most in pin counts, write latches and the root lock. -/
def SameData (s t : TState) : Prop :=
  t.root_page_id_ = s.root_page_id_ ∧ t.leaf_max_size_ = s.leaf_max_size_ ∧
  t.internal_max_size_ = s.internal_max_size_ ∧ t.pages = s.pages ∧ t.rlatch = s.rlatch ∧
  t.next_page_id_ = s.next_page_id_ ∧ t.new_budget = s.new_budget ∧
  t.header_record = s.header_record ∧ t.deleted_page_set = s.deleted_page_set

/-- A tree of height three with `internal_max_size = 3`: the root 9 has the children 3 and
6; page 3 is full with the leaves 1, 2 and 7; page 6 has the leaves 4 and 5. -/
def crabState : TState :=
  { root_page_id_ := 9, leaf_max_size_ := 2, internal_max_size_ := 3, root_mutex_ := false,
    pages := fun p =>
      if p = 9 then some (internalPage 3 9 INVALID_PAGE_ID [(0, 3), (20, 6)])
      else if p = 3 then some (internalPage 3 3 9 [(0, 1), (5, 2), (10, 7)])
      else if p = 6 then some (internalPage 3 6 9 [(0, 4), (30, 5)])
      else if p = 1 then some (leafPage 2 1 3 2 [(1, 10)])
      else if p = 2 then some (leafPage 2 2 3 7 [(5, 50), (7, 70)])
      else if p = 7 then some (leafPage 2 7 3 4 [(10, 100)])
      else if p = 4 then some (leafPage 2 4 6 5 [(20, 200)])
      else if p = 5 then some (leafPage 2 5 6 INVALID_PAGE_ID [(30, 300)])
      else none,
    pin := fun _ => 0,
    rlatch := fun _ => 0,
    wlatch := fun _ => 0,
    next_page_id_ := 10, new_budget := none, header_record := some 9,
    deleted_page_set := [] }

/-- Whether tree code ends in a fault. -/
def faults {α : Type} (m : TM α) (s : TState) : Bool :=
  match m.run s with
  | Res.fault => true
  | _ => false

/-- The tree after `Insert` of the keys 1, 2, 4 and 5 with `leaf_max_size = 4`: the root
(page 3) points to the leaves 1, holding 1 and 2, and 2, holding 4 and 5. -/
def gapTree : TState :=
  stateAfter (insertAll [(1, 10), (2, 20), (4, 40), (5, 50)]) (BPlusTree.new 4 4 1 none)

/-- Two page contents agree in everything but the parent pointer. -/
def SameButParent (x y : Option BPlusTreePage) : Prop :=
  x.map (fun pg => pg.SetParentPageId INVALID_PAGE_ID) =
    y.map (fun pg => pg.SetParentPageId INVALID_PAGE_ID)

/-- What a call `InsertIntoParent(old, key, new)` with the page set `queue`, started on
the tree `a`, leaves in the pages `u`: a page that existed before and is not in the page
set is as before up to its parent pointer; a page that existed before and is neither
`old` nor `new`, nor in the page set, nor a child of a page in the page set, is as before;
and the pair `(key, new)` is a slot of the page that `new` has as its parent. -/
def InsertFrame (a : TreeView) (old : Int) (key : KeyType) (new : Int) (queue : List Int)
    (u : Int → Option BPlusTreePage) : Prop :=
  (∀ q, q < a.next → q ∉ queue → SameButParent (u q) (a.pages q)) ∧
  (∀ q, q < a.next → q ≠ old → q ≠ new → q ∉ queue →
    (∀ p ∈ queue, ∀ pg, a.pages p = some pg → q ∉ pg.array.map Prod.snd) →
    u q = a.pages q) ∧
  (∃ npg wpg, u new = some npg ∧ u npg.parent_page_id_ = some wpg ∧
    (key, new) ∈ wpg.array)

/-- The description of the tree of `fullParentState` with the pair `(4, 5)` recorded in
the root: the root (page 3) is one level above the leaves 1, 2, 4 and 5, which are
responsible for the keys below 2, from 2 to below 3, from 3 to below 4, and from 4 on. -/
def fullParentGhost : Ghost :=
  { live := fun p => p = 1 ∨ p = 2 ∨ p = 3 ∨ p = 4 ∨ p = 5
    lvl := fun p => if p = 3 then 1 else 0
    lo := fun p => if p = 2 then some 2 else if p = 4 then some 3 else if p = 5 then some 4
      else none
    hi := fun p => if p = 1 then some 2 else if p = 2 then some 3 else if p = 4 then some 4
      else none
    par := fun p => if p = 3 then INVALID_PAGE_ID else 3 }

/-- The tree of `fullParentState` with the pair `(4, 5)` recorded in the root. -/
def fullParentPending : TreeView :=
  fullParentState.view.setPage 3
    ((internalPage 3 3 INVALID_PAGE_ID [(0, 1), (2, 2), (3, 4)]).InsertNodeAfterAt 2 4 5)

/-! # Theorems -/

/-! ## LRU replacer -/

theorem getLast?_eq_some_mem {α : Type} {l : List α} {a : α} (h : l.getLast? = some a) :
    a ∈ l := by
  rw [List.getLast?_eq_some_iff] at h
  obtain ⟨ys, rfl⟩ := h
  simp

theorem getLast?_eq_some_split {α : Type} {l : List α} {a : α} (h : l.getLast? = some a) :
    l = l.dropLast ++ [a] := by
  rw [List.getLast?_eq_some_iff] at h
  obtain ⟨ys, rfl⟩ := h
  simp

theorem RInv_new (cap : Nat) : RInv (LRUReplacer.new cap) :=
  ⟨List.nodup_nil, by simp [LRUReplacer.new], by simp [LRUReplacer.new]⟩

theorem RInv_Unpin {r : LRUReplacer} (h : RInv r) (f : frame_id_t) : RInv (r.Unpin f) := by
  unfold LRUReplacer.Unpin
  split
  · exact h
  · rename_i hg
    push_neg at hg
    refine ⟨?_, ?_, ?_⟩
    · simp only [List.nodup_cons]
      exact ⟨fun hm => hg.1 ((h.keys f).2 hm), h.nodup⟩
    · intro g
      simp [h.keys g]
    · have := h.bound
      simp only [List.length_cons]
      omega

theorem RInv_Pin {r : LRUReplacer} (h : RInv r) (f : frame_id_t) : RInv (r.Pin f) := by
  unfold LRUReplacer.Pin
  split
  · refine ⟨h.nodup.erase f, ?_, ?_⟩
    · intro g
      simp only [List.mem_filter, decide_eq_true_eq, h.nodup.mem_erase_iff, h.keys g]
      tauto
    · exact le_trans (List.length_erase_le f r.order_) h.bound
  · exact h

theorem RInv_Victim {r : LRUReplacer} (h : RInv r) : RInv r.Victim.2 := by
  unfold LRUReplacer.Victim
  split
  · exact h
  · rename_i f hf
    have hsplit := getLast?_eq_some_split hf
    have hnd : (r.order_.dropLast ++ [f]).Nodup := hsplit ▸ h.nodup
    rw [List.nodup_append] at hnd
    refine ⟨hnd.1, ?_, ?_⟩
    · intro g
      simp only [List.mem_filter, decide_eq_true_eq, h.keys g]
      constructor
      · rintro ⟨hm, hne⟩
        rw [hsplit] at hm
        simpa [hne] using hm
      · intro hm
        refine ⟨List.mem_of_mem_dropLast hm, ?_⟩
        rintro rfl
        exact hnd.2.2 hm (by simp)
    · simp only [List.length_dropLast]
      have := h.bound
      omega

theorem RInv_apply {r : LRUReplacer} (h : RInv r) (op : ROp) : RInv (op.apply r) := by
  cases op with
  | Unpin f => exact RInv_Unpin h f
  | Pin f => exact RInv_Pin h f
  | Victim => exact RInv_Victim h

theorem RInv_runFrom {r : LRUReplacer} (h : RInv r) (ops : List ROp) : RInv (runFrom r ops) := by
  induction ops generalizing r with
  | nil => exact h
  | cons op ops ih => exact ih (RInv_apply h op)

theorem RInv_run (cap : Nat) (tr : List ROp) : RInv (run cap tr) :=
  RInv_runFrom (RInv_new cap) tr

theorem capacity_apply (r : LRUReplacer) (op : ROp) : (op.apply r).capacity_ = r.capacity_ := by
  cases op with
  | Unpin f => simp only [ROp.apply, LRUReplacer.Unpin]; split <;> rfl
  | Pin f => simp only [ROp.apply, LRUReplacer.Pin]; split <;> rfl
  | Victim => simp only [ROp.apply, LRUReplacer.Victim]; split <;> rfl

theorem capacity_runFrom (r : LRUReplacer) (ops : List ROp) :
    (runFrom r ops).capacity_ = r.capacity_ := by
  induction ops generalizing r with
  | nil => rfl
  | cons op ops ih =>
    show (runFrom (op.apply r) ops).capacity_ = _
    rw [ih, capacity_apply]

theorem run_snoc (cap : Nat) (tr : List ROp) (op : ROp) :
    run cap (tr ++ [op]) = op.apply (run cap tr) := by
  simp [run, runFrom, List.foldl_append]

theorem effectiveUnpinAt_snoc_lt (cap : Nat) (tr : List ROp) (op : ROp) (f : frame_id_t)
    (i : Nat) (hi : i < tr.length) :
    effectiveUnpinAt cap (tr ++ [op]) f i = effectiveUnpinAt cap tr f i := by
  unfold effectiveUnpinAt
  rw [List.getElem?_append_left hi, List.take_append_of_le_length (le_of_lt hi)]

theorem effectiveUnpinAt_snoc_last (cap : Nat) (tr : List ROp) (op : ROp) (f : frame_id_t) :
    effectiveUnpinAt cap (tr ++ [op]) f tr.length =
      (decide (op = ROp.Unpin f) &&
        !decide (f ∈ (run cap tr).hash_ ∨ (run cap tr).order_.length = (run cap tr).capacity_)) := by
  unfold effectiveUnpinAt
  simp

theorem lastEffectiveUnpin_snoc (cap : Nat) (tr : List ROp) (op : ROp) (f : frame_id_t) :
    lastEffectiveUnpin cap (tr ++ [op]) f =
      if op = ROp.Unpin f ∧
          ¬ (f ∈ (run cap tr).hash_ ∨ (run cap tr).order_.length = (run cap tr).capacity_)
      then some tr.length else lastEffectiveUnpin cap tr f := by
  unfold lastEffectiveUnpin
  have hc : (List.range tr.length).filter (effectiveUnpinAt cap (tr ++ [op]) f) =
      (List.range tr.length).filter (effectiveUnpinAt cap tr f) := by
    apply List.filter_congr
    intro i hi
    exact effectiveUnpinAt_snoc_lt cap tr op f i (List.mem_range.1 hi)
  rw [List.length_append, List.length_singleton, List.range_succ, List.filter_append, hc]
  by_cases h : op = ROp.Unpin f ∧
      ¬ (f ∈ (run cap tr).hash_ ∨ (run cap tr).order_.length = (run cap tr).capacity_)
  · rw [if_pos h]
    have : effectiveUnpinAt cap (tr ++ [op]) f tr.length = true := by
      rw [effectiveUnpinAt_snoc_last]
      simp only [Bool.and_eq_true, decide_eq_true_eq, Bool.not_eq_true', decide_eq_false_iff_not]
      exact h
    simp [List.filter_cons, this]
  · rw [if_neg h]
    have : effectiveUnpinAt cap (tr ++ [op]) f tr.length = false := by
      rw [effectiveUnpinAt_snoc_last]
      rw [← Bool.not_eq_true]
      simp only [Bool.and_eq_true, decide_eq_true_eq, Bool.not_eq_true', decide_eq_false_iff_not]
      exact h
    simp [List.filter_cons, this]

theorem lastEffectiveUnpin_lt {cap : Nat} {tr : List ROp} {f : frame_id_t} {t : Nat}
    (h : lastEffectiveUnpin cap tr f = some t) : t < tr.length := by
  have hm := getLast?_eq_some_mem h
  exact List.mem_range.1 (List.mem_filter.1 hm).1

theorem StampSorted_nil (cap : Nat) : StampSorted cap [] := by
  constructor
  · intro f hf
    simp [run, runFrom, LRUReplacer.new] at hf
  · simp [run, runFrom, LRUReplacer.new]

/-- Stamps are kept by a call that is not an effective `Unpin` of the frame. -/
theorem lastEffectiveUnpin_snoc_of_ne (cap : Nat) (tr : List ROp) (op : ROp) (f : frame_id_t)
    (h : op ≠ ROp.Unpin f) :
    lastEffectiveUnpin cap (tr ++ [op]) f = lastEffectiveUnpin cap tr f := by
  rw [lastEffectiveUnpin_snoc, if_neg]
  exact fun hh => h hh.1

theorem StampSorted_mono {cap : Nat} {tr : List ROp} {op : ROp}
    (h : StampSorted cap tr)
    (hst : ∀ f, lastEffectiveUnpin cap (tr ++ [op]) f = lastEffectiveUnpin cap tr f)
    (hsub : (run cap (tr ++ [op])).order_.Sublist (run cap tr).order_) :
    StampSorted cap (tr ++ [op]) := by
  constructor
  · intro f hf
    rw [hst]
    exact h.1 f (hsub.subset hf)
  · have := h.2.sublist hsub
    refine this.imp ?_
    intro a b hab ta tb
    rw [hst, hst]
    exact hab ta tb

theorem StampSorted_snoc {cap : Nat} {tr : List ROp} (h : StampSorted cap tr) (op : ROp) :
    StampSorted cap (tr ++ [op]) := by
  cases op with
  | Pin g =>
    apply StampSorted_mono h
    · intro f
      exact lastEffectiveUnpin_snoc_of_ne cap tr _ f (by simp)
    · rw [run_snoc]
      simp only [ROp.apply, LRUReplacer.Pin]
      split
      · exact List.erase_sublist g _
      · exact List.Sublist.refl _
  | Victim =>
    apply StampSorted_mono h
    · intro f
      exact lastEffectiveUnpin_snoc_of_ne cap tr _ f (by simp)
    · rw [run_snoc]
      simp only [ROp.apply, LRUReplacer.Victim]
      split
      · exact List.Sublist.refl _
      · exact List.dropLast_sublist _
  | Unpin g =>
    by_cases hg : g ∈ (run cap tr).hash_ ∨ (run cap tr).order_.length = (run cap tr).capacity_
    · apply StampSorted_mono h
      · intro f
        rw [lastEffectiveUnpin_snoc, if_neg]
        rintro ⟨he, hn⟩
        injection he with he
        subst he
        exact hn hg
      · rw [run_snoc]
        simp only [ROp.apply, LRUReplacer.Unpin, if_pos hg]
        exact List.Sublist.refl _
    · have hrun : (run cap (tr ++ [ROp.Unpin g])).order_ = g :: (run cap tr).order_ := by
        rw [run_snoc]
        simp only [ROp.apply, LRUReplacer.Unpin, if_neg hg]
      have hgs : lastEffectiveUnpin cap (tr ++ [ROp.Unpin g]) g = some tr.length := by
        rw [lastEffectiveUnpin_snoc, if_pos ⟨rfl, hg⟩]
      have hnotin : g ∉ (run cap tr).order_ := by
        intro hm
        exact hg (Or.inl (((RInv_run cap tr).keys g).2 hm))
      have hother : ∀ f ∈ (run cap tr).order_,
          lastEffectiveUnpin cap (tr ++ [ROp.Unpin g]) f = lastEffectiveUnpin cap tr f := by
        intro f hf
        apply lastEffectiveUnpin_snoc_of_ne
        intro he
        injection he with he
        subst he
        exact hnotin hf
      constructor
      · intro f hf
        rw [hrun] at hf
        rcases List.mem_cons.1 hf with rfl | hf
        · exact ⟨_, hgs⟩
        · rw [hother f hf]
          exact h.1 f hf
      · rw [hrun, List.pairwise_cons]
        constructor
        · intro b hb ta tb hta htb
          rw [hgs] at hta
          injection hta with hta
          rw [hother b hb] at htb
          have := lastEffectiveUnpin_lt htb
          omega
        · refine h.2.imp_of_mem ?_
          intro a b ha hb hab ta tb
          rw [hother a ha, hother b hb]
          exact hab ta tb

theorem StampSorted_run (cap : Nat) (tr : List ROp) : StampSorted cap tr := by
  induction tr using List.reverseRecOn with
  | nil => exact StampSorted_nil cap
  | append_singleton tr op ih => exact StampSorted_snoc ih op

theorem filter_ne_append_singleton {l : List frame_id_t} {f : frame_id_t}
    (h : (l ++ [f]).Nodup) : (l ++ [f]).filter (fun g => g ≠ f) = l := by
  rw [List.nodup_append] at h
  rw [List.filter_append]
  have h1 : l.filter (fun g => g ≠ f) = l := by
    apply List.filter_eq_self.2
    intro a ha
    simp only [ne_eq, decide_not, Bool.not_eq_true', decide_eq_false_iff_not]
    rintro rfl
    exact h.2.2 ha (by simp)
  rw [h1]
  simp

theorem drain_eq_reverse (n : Nat) (r : LRUReplacer) (hn : n = r.order_.length) :
    drain n r = r.order_.reverse := by
  induction n generalizing r with
  | zero =>
    have : r.order_ = [] := List.length_eq_zero.1 hn.symm
    simp [drain, this]
  | succ n ih =>
    unfold drain
    cases hl : r.order_.getLast? with
    | none =>
      rw [List.getLast?_eq_none_iff] at hl
      rw [hl] at hn
      simp at hn
    | some f =>
      have hsplit := getLast?_eq_some_split hl
      have hv1 : r.Victim.1 = some f := by simp [LRUReplacer.Victim, hl]
      have hv2 : r.Victim.2.order_ = r.order_.dropLast := by simp [LRUReplacer.Victim, hl]
      rw [hv1]
      simp only
      rw [ih r.Victim.2 (by rw [hv2, List.length_dropLast]; omega), hv2]
      conv_rhs => rw [hsplit]
      simp

/-- Claim C6 (strict LRU).  In every state `run cap tr` reachable from a fresh replacer:
`Victim` returns none iff no frame is tracked, and then the state is unchanged;
otherwise the frame returned is tracked, its most recent effective `Unpin` is strictly
older than that of every other tracked frame, exactly that frame is removed (the others
keep their order) and `Size` drops by one.  Moreover `Unpin A; Unpin B` on a fresh
replacer of capacity at least two, with `A ≠ B`, makes two `Victim` calls return `A`
then `B`. -/
theorem lru_victim_least_recently_unpinned (cap : Nat) (tr : List ROp) :
    (((run cap tr).Victim.1 = none ↔ ∀ f, ¬ Tracked (run cap tr) f) ∧
     ((run cap tr).Victim.1 = none → (run cap tr).Victim.2 = run cap tr)) ∧
    (∀ f, (run cap tr).Victim.1 = some f →
      Tracked (run cap tr) f ∧
      (∃ t, lastEffectiveUnpin cap tr f = some t ∧
        ∀ g, Tracked (run cap tr) g → g ≠ f →
          ∃ u, lastEffectiveUnpin cap tr g = some u ∧ t < u) ∧
      (∀ g, Tracked (run cap tr).Victim.2 g ↔ (Tracked (run cap tr) g ∧ g ≠ f)) ∧
      (run cap tr).Victim.2.order_ = (run cap tr).order_.filter (fun g => g ≠ f) ∧
      (run cap tr).Victim.2.Size + 1 = (run cap tr).Size) ∧
    (∀ A B : frame_id_t, A ≠ B → 2 ≤ cap →
      (run cap [ROp.Unpin A, ROp.Unpin B]).Victim.1 = some A ∧
      (run cap [ROp.Unpin A, ROp.Unpin B]).Victim.2.Victim.1 = some B) := by
  have hinv := RInv_run cap tr
  have hst := StampSorted_run cap tr
  refine ⟨⟨?_, ?_⟩, ?_, ?_⟩
  · unfold LRUReplacer.Victim Tracked
    cases hl : (run cap tr).order_.getLast? with
    | none =>
      rw [List.getLast?_eq_none_iff] at hl
      simp [hinv.keys, hl]
    | some f =>
      simp only [false_iff, not_forall, not_not, reduceCtorEq]
      exact ⟨f, (hinv.keys f).2 (getLast?_eq_some_mem hl)⟩
  · unfold LRUReplacer.Victim
    cases hl : (run cap tr).order_.getLast? with
    | none => simp
    | some f => simp
  · intro f hf
    unfold LRUReplacer.Victim at hf
    cases hl : (run cap tr).order_.getLast? with
    | none => rw [hl] at hf; simp at hf
    | some f0 =>
      rw [hl] at hf
      simp only [Option.some.injEq] at hf
      subst hf
      have hsplit := getLast?_eq_some_split hl
      have hmem := getLast?_eq_some_mem hl
      have hv2o : (run cap tr).Victim.2.order_ = (run cap tr).order_.dropLast := by
        simp [LRUReplacer.Victim, hl]
      have hv2h : (run cap tr).Victim.2.hash_ = (run cap tr).hash_.filter (fun g => g ≠ f0) := by
        simp [LRUReplacer.Victim, hl]
      have hnd : ((run cap tr).order_.dropLast ++ [f0]).Nodup := hsplit ▸ hinv.nodup
      refine ⟨(hinv.keys f0).2 hmem, ?_, ?_, ?_, ?_⟩
      · obtain ⟨t, ht⟩ := hst.1 f0 hmem
        refine ⟨t, ht, ?_⟩
        intro g hg hne
        have hgm : g ∈ (run cap tr).order_ := (hinv.keys g).1 hg
        obtain ⟨u, hu⟩ := hst.1 g hgm
        refine ⟨u, hu, ?_⟩
        have hp := hst.2
        rw [hsplit, List.pairwise_append] at hp
        have hgi : g ∈ (run cap tr).order_.dropLast := by
          rw [hsplit] at hgm
          simpa [hne] using hgm
        exact hp.2.2 g hgi f0 (by simp) u t hu ht
      · intro g
        unfold Tracked
        rw [hv2h]
        simp
      · rw [hv2o]
        conv_rhs => rw [hsplit]
        exact (filter_ne_append_singleton hnd).symm
      · unfold LRUReplacer.Size
        rw [hv2o, List.length_dropLast]
        have : 0 < (run cap tr).order_.length := List.length_pos_of_mem hmem
        omega
  · intro A B hAB hcap
    have hBA : ¬ B = A := fun h => hAB h.symm
    have h0 : ¬ (0 = cap) := by omega
    have h1 : ¬ (1 = cap) := by omega
    simp [run, runFrom, ROp.apply, LRUReplacer.Unpin, LRUReplacer.new, LRUReplacer.Victim,
      hBA, h0, h1, List.getLast?]

theorem lru_victim_least_recently_unpinned_witness :
    ((run 2 [ROp.Unpin 1, ROp.Unpin 2]).Victim.1 = some 1 ∧
      (run 2 [ROp.Unpin 1, ROp.Unpin 2]).Victim.2.Size + 1 =
        (run 2 [ROp.Unpin 1, ROp.Unpin 2]).Size) ∧
    ((1 : frame_id_t) ≠ 2 ∧ 2 ≤ 2 ∧
      (run 2 [ROp.Unpin 1, ROp.Unpin 2]).Victim.1 = some 1 ∧
      (run 2 [ROp.Unpin 1, ROp.Unpin 2]).Victim.2.Victim.1 = some 2) :=
  ⟨⟨by decide,
    ((lru_victim_least_recently_unpinned 2 [ROp.Unpin 1, ROp.Unpin 2]).2.1 1
      (by decide)).2.2.2.2⟩,
   by decide, by decide,
    (lru_victim_least_recently_unpinned 2 []).2.2 1 2 (by decide) (by decide)⟩

/-- Claim C7.  In every reachable replacer state, `Unpin f` changes nothing when `f` is
already tracked or `Size()` equals the capacity; otherwise `f` becomes tracked, `Size()`
grows by exactly one, the other tracked frames are the same, and `f` is the last frame
that repeated `Victim` calls return.  `Size()` never exceeds the capacity. -/
theorem lru_unpin_effect (cap : Nat) (tr : List ROp) (f : frame_id_t) :
    ((Tracked (run cap tr) f ∨ (run cap tr).Size = (run cap tr).capacity_) →
      (run cap tr).Unpin f = run cap tr) ∧
    (¬ (Tracked (run cap tr) f ∨ (run cap tr).Size = (run cap tr).capacity_) →
      ((run cap tr).Unpin f).Size = (run cap tr).Size + 1 ∧
      (∀ g, Tracked ((run cap tr).Unpin f) g ↔ (g = f ∨ Tracked (run cap tr) g)) ∧
      drain ((run cap tr).Unpin f).Size ((run cap tr).Unpin f) =
        drain (run cap tr).Size (run cap tr) ++ [f]) ∧
    ((run cap tr).Size ≤ cap ∧ (run cap tr).capacity_ = cap) := by
  refine ⟨?_, ?_, ?_⟩
  · intro h
    unfold LRUReplacer.Unpin
    exact if_pos h
  · intro h
    have hu : (run cap tr).Unpin f =
        { run cap tr with order_ := f :: (run cap tr).order_, hash_ := f :: (run cap tr).hash_ } := by
      unfold LRUReplacer.Unpin
      exact if_neg h
    refine ⟨?_, ?_, ?_⟩
    · rw [hu]
      simp [LRUReplacer.Size]
    · intro g
      rw [hu]
      simp [Tracked]
    · unfold LRUReplacer.Size
      rw [drain_eq_reverse _ _ rfl, drain_eq_reverse _ _ rfl, hu]
      simp
  · have hc : (run cap tr).capacity_ = cap := by
      unfold run
      rw [capacity_runFrom]
      rfl
    refine ⟨?_, hc⟩
    have := (RInv_run cap tr).bound
    rw [hc] at this
    exact this

theorem lru_unpin_effect_witness :
    ¬ (Tracked (run 2 [ROp.Unpin 1]) 2 ∨
        (run 2 [ROp.Unpin 1]).Size = (run 2 [ROp.Unpin 1]).capacity_) ∧
    ((run 2 [ROp.Unpin 1]).Unpin 2).Size = (run 2 [ROp.Unpin 1]).Size + 1 ∧
    (Tracked (run 2 [ROp.Unpin 1]) 1 ∨
        (run 2 [ROp.Unpin 1]).Size = (run 2 [ROp.Unpin 1]).capacity_) ∧
    (run 2 [ROp.Unpin 1]).Unpin 1 = run 2 [ROp.Unpin 1] :=
  ⟨by decide, ((lru_unpin_effect 2 [ROp.Unpin 1] 2).2.1 (by decide)).1,
   by decide, (lru_unpin_effect 2 [ROp.Unpin 1] 1).1 (by decide)⟩

theorem not_mem_order_apply {r : LRUReplacer} {x : frame_id_t} (h : x ∉ r.order_)
    (op : ROp) (hop : op ≠ ROp.Unpin x) : x ∉ (op.apply r).order_ := by
  cases op with
  | Unpin g =>
    have hne : x ≠ g := by
      rintro rfl
      exact hop rfl
    simp only [ROp.apply, LRUReplacer.Unpin]
    split
    · exact h
    · simp [hne, h]
  | Pin g =>
    simp only [ROp.apply, LRUReplacer.Pin]
    split
    · exact fun hm => h (List.mem_of_mem_erase hm)
    · exact h
  | Victim =>
    simp only [ROp.apply, LRUReplacer.Victim]
    split
    · exact h
    · exact fun hm => h (List.mem_of_mem_dropLast hm)

theorem Victim_some_mem {r : LRUReplacer} {f : frame_id_t} (h : r.Victim.1 = some f) :
    f ∈ r.order_ := by
  unfold LRUReplacer.Victim at h
  cases hl : r.order_.getLast? with
  | none => rw [hl] at h; simp at h
  | some g =>
    rw [hl] at h
    simp only [Option.some.injEq] at h
    subst h
    exact getLast?_eq_some_mem hl

theorem not_mem_victimsOf {x : frame_id_t} (ops : List ROp) :
    ∀ r : LRUReplacer, x ∉ r.order_ → ROp.Unpin x ∉ ops → x ∉ victimsOf r ops := by
  induction ops with
  | nil => intro r _ _; simp [victimsOf]
  | cons op ops ih =>
    intro r hx hops
    have hop : op ≠ ROp.Unpin x := fun h => hops (by simp [h])
    have hrest : ROp.Unpin x ∉ ops := fun h => hops (by simp [h])
    have hnext := not_mem_order_apply hx op hop
    cases op with
    | Unpin g => exact ih _ hnext hrest
    | Pin g => exact ih _ hnext hrest
    | Victim =>
      unfold victimsOf
      cases hv : r.Victim.1 with
      | none => exact ih _ hnext hrest
      | some f =>
        simp only [List.mem_cons, not_or]
        refine ⟨?_, ih _ hnext hrest⟩
        rintro rfl
        exact hx (Victim_some_mem hv)

/-- Claim C8.  In every reachable replacer state: after `Pin x`, whatever calls follow, as
long as none of them is `Unpin x`, no `Victim` call returns `x`; `Pin x` on an untracked
frame changes nothing; `Pin x` on a tracked frame removes only `x` and keeps the eviction
order of all other tracked frames. -/
theorem lru_pin_effect (cap : Nat) (tr : List ROp) (x : frame_id_t) :
    (∀ ops : List ROp, ROp.Unpin x ∉ ops → x ∉ victimsOf ((run cap tr).Pin x) ops) ∧
    (¬ Tracked (run cap tr) x → (run cap tr).Pin x = run cap tr) ∧
    (Tracked (run cap tr) x →
      (∀ g, Tracked ((run cap tr).Pin x) g ↔ (Tracked (run cap tr) g ∧ g ≠ x)) ∧
      ((run cap tr).Pin x).order_ = (run cap tr).order_.filter (fun g => g ≠ x) ∧
      drain ((run cap tr).Pin x).Size ((run cap tr).Pin x) =
        (drain (run cap tr).Size (run cap tr)).filter (fun g => g ≠ x)) := by
  have hinv := RInv_run cap tr
  refine ⟨?_, ?_, ?_⟩
  · intro ops hops
    apply not_mem_victimsOf ops _ _ hops
    have hp := RInv_Pin hinv x
    intro hm
    have hk := (hp.keys x).2 hm
    unfold LRUReplacer.Pin at hk
    split at hk
    · simp at hk
    · rename_i hnt
      exact hnt hk
  · intro h
    unfold LRUReplacer.Pin
    exact if_neg h
  · intro h
    have hu : (run cap tr).Pin x =
        { run cap tr with order_ := (run cap tr).order_.erase x,
                          hash_ := (run cap tr).hash_.filter (fun g => g ≠ x) } := by
      unfold LRUReplacer.Pin
      exact if_pos h
    have he : (run cap tr).order_.erase x = (run cap tr).order_.filter (fun g => g ≠ x) := by
      rw [hinv.nodup.erase_eq_filter]
      congr 1
      funext g
      by_cases hgx : g = x <;> simp [hgx]
    refine ⟨?_, ?_, ?_⟩
    · intro g
      rw [hu]
      simp [Tracked]
    · rw [hu]
      exact he
    · unfold LRUReplacer.Size
      rw [drain_eq_reverse _ _ rfl, drain_eq_reverse _ _ rfl, hu]
      simp only
      rw [he, List.filter_reverse]

theorem lru_pin_effect_witness :
    (ROp.Unpin 1 ∉ [ROp.Unpin 3, ROp.Victim, ROp.Victim] ∧
      (1 : frame_id_t) ∉ victimsOf ((run 3 [ROp.Unpin 1, ROp.Unpin 2]).Pin 1)
        [ROp.Unpin 3, ROp.Victim, ROp.Victim]) ∧
    (¬ Tracked (run 3 [ROp.Unpin 1, ROp.Unpin 2]) 5 ∧
      (run 3 [ROp.Unpin 1, ROp.Unpin 2]).Pin 5 = run 3 [ROp.Unpin 1, ROp.Unpin 2]) ∧
    (Tracked (run 3 [ROp.Unpin 1, ROp.Unpin 2]) 1 ∧
      ((run 3 [ROp.Unpin 1, ROp.Unpin 2]).Pin 1).order_ =
        (run 3 [ROp.Unpin 1, ROp.Unpin 2]).order_.filter (fun g => g ≠ 1)) :=
  ⟨⟨by decide, (lru_pin_effect 3 [ROp.Unpin 1, ROp.Unpin 2] 1).1 _ (by decide)⟩,
   ⟨by decide, (lru_pin_effect 3 [ROp.Unpin 1, ROp.Unpin 2] 5).2.1 (by decide)⟩,
   ⟨by decide, ((lru_pin_effect 3 [ROp.Unpin 1, ROp.Unpin 2] 1).2.2 (by decide)).2.1⟩⟩

/-! ## Buffer pool manager -/

theorem pin_update {pages : frame_id_t → Page} (h : ∀ f, 0 ≤ (pages f).pin_count_)
    (g : frame_id_t) (p : Page) (hp : 0 ≤ p.pin_count_) :
    ∀ f, 0 ≤ (Function.update pages g p f).pin_count_ := by
  intro f
  by_cases hf : f = g
  · subst hf
    simpa using hp
  · simpa [Function.update_noteq hf] using h f

theorem pin_SetHelper1 {b : BufferPoolManager} (h : ∀ f, 0 ≤ (b.pages_ f).pin_count_)
    (p : page_id_t) (g : frame_id_t) : ∀ f, 0 ≤ ((b.SetHelper1 p g).pages_ f).pin_count_ :=
  pin_update h g _ (by simp)

theorem pin_readInto {b : BufferPoolManager} (h : ∀ f, 0 ≤ (b.pages_ f).pin_count_)
    (p : page_id_t) (g : frame_id_t) : ∀ f, 0 ≤ ((b.readInto p g).pages_ f).pin_count_ :=
  pin_update h g _ (h g)

theorem pin_FetchPageImpl {b : BufferPoolManager} (h : ∀ f, 0 ≤ (b.pages_ f).pin_count_)
    (p : page_id_t) : ∀ f, 0 ≤ (((b.FetchPageImpl p).2).pages_ f).pin_count_ := by
  unfold BufferPoolManager.FetchPageImpl
  split
  · rename_i g _
    exact pin_update h g _ (by have := h g; simp only; omega)
  · split
    · exact pin_readInto (pin_SetHelper1 (b := { b with free_list_ := _ }) h _ _) _ _
    · split
      · exact h
      · exact pin_readInto (pin_SetHelper1
          (b := BufferPoolManager.evict { b with replacer_ := _ } _) h _ _) _ _

theorem pin_UnpinPageImpl {b : BufferPoolManager} (h : ∀ f, 0 ≤ (b.pages_ f).pin_count_)
    (p : page_id_t) (d : Bool) : ∀ f, 0 ≤ (((b.UnpinPageImpl p d).2).pages_ f).pin_count_ := by
  unfold BufferPoolManager.UnpinPageImpl
  split
  · exact h
  · split
    · exact h
    · rename_i g _ hg
      exact pin_update h g _ (by simp only; omega)

theorem pin_NewPageImpl {b : BufferPoolManager} (h : ∀ f, 0 ≤ (b.pages_ f).pin_count_) :
    ∀ f, 0 ≤ ((b.NewPageImpl.2).pages_ f).pin_count_ := by
  unfold BufferPoolManager.NewPageImpl
  simp only
  split
  · rename_i g rest _
    have h1 := pin_SetHelper1 (b := { b with
      disk_manager_ := b.disk_manager_.AllocatePage.2, free_list_ := rest }) h
      b.disk_manager_.AllocatePage.1 g
    exact pin_update h1 g _ (h1 g)
  · split
    · exact h
    · rename_i g _
      have h1 := pin_SetHelper1 (b := BufferPoolManager.evict { b with
        disk_manager_ := b.disk_manager_.AllocatePage.2,
        replacer_ := b.replacer_.Victim.2 } g) h b.disk_manager_.AllocatePage.1 g
      exact pin_update h1 g _ (h1 g)

theorem pin_DeletePageImpl {b : BufferPoolManager} (h : ∀ f, 0 ≤ (b.pages_ f).pin_count_)
    (p : page_id_t) : ∀ f, 0 ≤ (((b.DeletePageImpl p).2).pages_ f).pin_count_ := by
  unfold BufferPoolManager.DeletePageImpl
  split
  · exact h
  · split
    · exact h
    · rename_i g _ _
      exact pin_update h g _ (by simp)

theorem pin_apply {b : BufferPoolManager} (h : ∀ f, 0 ≤ (b.pages_ f).pin_count_) (op : BOp) :
    ∀ f, 0 ≤ ((op.apply b).pages_ f).pin_count_ := by
  cases op with
  | Fetch p => exact pin_FetchPageImpl h p
  | Unpin p d => exact pin_UnpinPageImpl h p d
  | New => exact pin_NewPageImpl h
  | Delete p => exact pin_DeletePageImpl h p
  | Flush p =>
    simp only [BOp.apply, BufferPoolManager.FlushPageImpl]
    split <;> exact h
  | FlushAll => exact h

/-- Claim C9.  In every state reached from a freshly constructed pool by any sequence of
`FetchPage`, `UnpinPage`, `NewPage`, `DeletePage`, `FlushPage` and `FlushAllPages` calls,
the pin count of every frame is at least zero. -/
theorem pool_pin_count_nonneg (pool_size : Nat) (disk : DiskManager) (ops : List BOp)
    (f : frame_id_t) :
    0 ≤ ((poolRun (BufferPoolManager.new pool_size disk) ops).pages_ f).pin_count_ := by
  have key : ∀ (ops : List BOp) (b : BufferPoolManager),
      (∀ f, 0 ≤ (b.pages_ f).pin_count_) → ∀ f, 0 ≤ ((poolRun b ops).pages_ f).pin_count_ := by
    intro ops
    induction ops with
    | nil => intro b h; exact h
    | cons op ops ih => intro b h; exact ih (op.apply b) (pin_apply h op)
  exact key ops _ (by intro f; simp [BufferPoolManager.new, Page.init]) f

theorem lookup_eq_none {pt : List (page_id_t × frame_id_t)} {p : page_id_t} :
    pt.lookup p = none ↔ ∀ e ∈ pt, e.1 ≠ p := by
  induction pt with
  | nil => simp
  | cons e pt ih =>
    obtain ⟨q, g⟩ := e
    by_cases hq : p = q
    · subst hq
      simp [List.lookup_cons]
    · have hq2 : ¬ q = p := fun h => hq h.symm
      have : (p == q) = false := by simpa using hq
      simp [List.lookup_cons, this, ih, hq2]

theorem lookup_eq_some_mem {pt : List (page_id_t × frame_id_t)} {p : page_id_t}
    {g : frame_id_t} (h : pt.lookup p = some g) : (p, g) ∈ pt := by
  induction pt with
  | nil => simp at h
  | cons e pt ih =>
    obtain ⟨q, g2⟩ := e
    by_cases hq : p = q
    · subst hq
      simp [List.lookup_cons] at h
      simp [h]
    · have : (p == q) = false := by simpa using hq
      simp only [List.lookup_cons, this] at h
      exact List.mem_cons_of_mem _ (ih h)

theorem eraseEntry_of_lookup_none {pt : List (page_id_t × frame_id_t)} {p : page_id_t}
    (h : pt.lookup p = none) : BufferPoolManager.eraseEntry pt p = pt := by
  unfold BufferPoolManager.eraseEntry
  apply List.filter_eq_self.2
  intro e he
  simpa using lookup_eq_none.1 h e he

theorem mem_eraseEntry {pt : List (page_id_t × frame_id_t)} {p : page_id_t}
    {e : page_id_t × frame_id_t} :
    e ∈ BufferPoolManager.eraseEntry pt p ↔ e ∈ pt ∧ e.1 ≠ p := by
  simp [BufferPoolManager.eraseEntry]

theorem eraseEntry_sublist (pt : List (page_id_t × frame_id_t)) (p : page_id_t) :
    (BufferPoolManager.eraseEntry pt p).Sublist pt :=
  List.filter_sublist _

/-- With distinct frames in the table, an entry is determined by its frame. -/
theorem entry_unique_of_vals {pt : List (page_id_t × frame_id_t)}
    (h : (pt.map Prod.snd).Nodup) {p q : page_id_t} {g : frame_id_t}
    (hp : (p, g) ∈ pt) (hq : (q, g) ∈ pt) : p = q := by
  have := List.inj_on_of_nodup_map h hp hq rfl
  exact congrArg Prod.fst this

theorem entry_unique_of_keys {pt : List (page_id_t × frame_id_t)}
    (h : (pt.map Prod.fst).Nodup) {p : page_id_t} {f g : frame_id_t}
    (hp : (p, f) ∈ pt) (hq : (p, g) ∈ pt) : f = g := by
  have := List.inj_on_of_nodup_map h hp hq rfl
  exact congrArg Prod.snd this

/-- The invariant only reads the bookkeeping structures, the page ids stored in mapped
frames and the allocation counter. -/
theorem PoolInv_congr {b c : BufferPoolManager} (h : PoolInv b)
    (hs : c.pool_size_ = b.pool_size_) (ht : c.page_table_ = b.page_table_)
    (hf : c.free_list_ = b.free_list_) (hr : c.replacer_ = b.replacer_)
    (hp : ∀ e ∈ b.page_table_, (c.pages_ e.2).page_id_ = (b.pages_ e.2).page_id_)
    (hn : b.disk_manager_.next_page_id_ ≤ c.disk_manager_.next_page_id_) : PoolInv c := by
  refine ⟨?_, ?_, ?_, ?_, ?_, ?_, ?_, ?_, ?_, ?_, ?_⟩
  · rw [hf]; exact h.fl_nodup
  · rw [hf, hs]; exact h.fl_range
  · rw [ht]; exact h.pt_keys
  · rw [ht]; exact h.pt_vals
  · rw [ht, hs]; exact h.pt_range
  · rw [ht, hf]; exact h.pt_disj
  · rw [ht]; intro e he; rw [hp e he]; exact h.pt_id e he
  · rw [hs, hf, ht]; exact h.cover
  · rw [hr]; exact h.rep
  · rw [hr, ht]; exact h.rep_mapped
  · rw [ht]; intro e he; exact lt_of_lt_of_le (h.alloc e he) hn

theorem PoolInv_new (pool_size : Nat) (disk : DiskManager) :
    PoolInv (BufferPoolManager.new pool_size disk) := by
  refine ⟨?_, ?_, ?_, ?_, ?_, ?_, ?_, ?_, ?_, ?_, ?_⟩
  · show ((List.range pool_size).map Int.ofNat).Nodup
    exact List.Nodup.map (fun a b hab => by simpa using hab) (List.nodup_range pool_size)
  · intro f hf
    simp only [BufferPoolManager.new, List.mem_map, List.mem_range] at hf
    obtain ⟨i, hi, rfl⟩ := hf
    show (0 : Int) ≤ Int.ofNat i ∧ Int.ofNat i < (pool_size : Int)
    simp only [Int.ofNat_eq_coe]
    omega
  · simp [BufferPoolManager.new]
  · simp [BufferPoolManager.new]
  · simp [BufferPoolManager.new]
  · simp [BufferPoolManager.new]
  · simp [BufferPoolManager.new]
  · intro f h0 h1
    left
    have h2 : f < (pool_size : Int) := h1
    show f ∈ (List.range pool_size).map Int.ofNat
    rw [List.mem_map]
    refine ⟨f.toNat, List.mem_range.2 ?_, ?_⟩
    · exact (Int.toNat_lt h0).2 h2
    · simp only [Int.ofNat_eq_coe]
      exact Int.toNat_of_nonneg h0
  · exact RInv_new pool_size
  · simp [BufferPoolManager.new, LRUReplacer.new]
  · simp [BufferPoolManager.new]

/-- The partition property follows from the bookkeeping invariant. -/
theorem Partition_of_PoolInv {b : BufferPoolManager} (h : PoolInv b) : Partition b := by
  refine ⟨?_, h.fl_nodup, ?_⟩
  · intro f h0 h1
    rcases h.cover f h0 h1 with hf | hm
    · left
      exact ⟨hf, fun p hp => h.pt_disj (p, f) hp hf⟩
    · right
      rw [List.mem_map] at hm
      obtain ⟨⟨p, g⟩, he, rfl⟩ := hm
      exact ⟨h.pt_disj (p, g) he, p, he, fun q hq => entry_unique_of_vals h.pt_vals hq he⟩
  · intro p q f g hp hq hne hfg
    subst hfg
    exact hne (entry_unique_of_vals h.pt_vals hp hq)

theorem mem_Victim_order {r : LRUReplacer} (h : RInv r) {g f : frame_id_t}
    (hv : r.Victim.1 = some g) (hf : f ∈ r.Victim.2.order_) : f ∈ r.order_ ∧ f ≠ g := by
  unfold LRUReplacer.Victim at hv hf
  cases hl : r.order_.getLast? with
  | none => rw [hl] at hv; simp at hv
  | some g0 =>
    rw [hl] at hv hf
    simp only [Option.some.injEq] at hv
    subst hv
    simp only at hf
    have hsplit := getLast?_eq_some_split hl
    have hnd : (r.order_.dropLast ++ [g0]).Nodup := hsplit ▸ h.nodup
    rw [List.nodup_append] at hnd
    refine ⟨List.mem_of_mem_dropLast hf, ?_⟩
    rintro rfl
    exact hnd.2.2 hf (by simp)

theorem mem_Pin_order {r : LRUReplacer} (h : RInv r) {g f : frame_id_t}
    (hf : f ∈ (r.Pin g).order_) : f ∈ r.order_ ∧ f ≠ g := by
  unfold LRUReplacer.Pin at hf
  split at hf
  · simp only at hf
    exact ⟨List.mem_of_mem_erase hf, fun he => by
      subst he
      exact (h.nodup.mem_erase_iff.1 hf).1 rfl⟩
  · rename_i hg
    refine ⟨hf, ?_⟩
    rintro rfl
    exact hg ((h.keys f).2 hf)

theorem mem_Unpin_order {r : LRUReplacer} {g f : frame_id_t}
    (hf : f ∈ (r.Unpin g).order_) : f ∈ r.order_ ∨ f = g := by
  unfold LRUReplacer.Unpin at hf
  split at hf
  · exact Or.inl hf
  · simp only [List.mem_cons] at hf
    exact hf.symm

/-- Variant of `PoolInv_congr` in which the replacer may change, as long as it keeps its
own invariant and only tracks mapped frames. -/
theorem PoolInv_congr_rep {b c : BufferPoolManager} (h : PoolInv b)
    (hs : c.pool_size_ = b.pool_size_) (ht : c.page_table_ = b.page_table_)
    (hf : c.free_list_ = b.free_list_) (hr1 : RInv c.replacer_)
    (hr2 : ∀ f ∈ c.replacer_.order_, f ∈ b.page_table_.map Prod.snd)
    (hp : ∀ e ∈ b.page_table_, (c.pages_ e.2).page_id_ = (b.pages_ e.2).page_id_)
    (hn : b.disk_manager_.next_page_id_ ≤ c.disk_manager_.next_page_id_) : PoolInv c := by
  refine ⟨?_, ?_, ?_, ?_, ?_, ?_, ?_, ?_, hr1, ?_, ?_⟩
  · rw [hf]; exact h.fl_nodup
  · rw [hf, hs]; exact h.fl_range
  · rw [ht]; exact h.pt_keys
  · rw [ht]; exact h.pt_vals
  · rw [ht, hs]; exact h.pt_range
  · rw [ht, hf]; exact h.pt_disj
  · rw [ht]; intro e he; rw [hp e he]; exact h.pt_id e he
  · rw [hs, hf, ht]; exact h.cover
  · rw [ht]; exact hr2
  · rw [ht]; intro e he; exact lt_of_lt_of_le (h.alloc e he) hn

/-- Installing page `p` in the frame `g` popped from the front of the free list. -/
theorem PoolInv_install_free {b c : BufferPoolManager} (h : PoolInv b)
    {p : page_id_t} {g : frame_id_t} {rest : List frame_id_t}
    (hfl : b.free_list_ = g :: rest) (hlk : b.page_table_.lookup p = none)
    (hlt : p < c.disk_manager_.next_page_id_)
    (hs : c.pool_size_ = b.pool_size_) (ht : c.page_table_ = (p, g) :: b.page_table_)
    (hf : c.free_list_ = rest) (hr : c.replacer_ = b.replacer_)
    (hpg : (c.pages_ g).page_id_ = p)
    (hpo : ∀ f, f ≠ g → (c.pages_ f).page_id_ = (b.pages_ f).page_id_)
    (hn : b.disk_manager_.next_page_id_ ≤ c.disk_manager_.next_page_id_) : PoolInv c := by
  have hnd := h.fl_nodup
  rw [hfl, List.nodup_cons] at hnd
  have hgmem : g ∈ b.free_list_ := by rw [hfl]; simp
  have hgnm : g ∉ b.page_table_.map Prod.snd := by
    intro hm
    rw [List.mem_map] at hm
    obtain ⟨e, he, rfl⟩ := hm
    exact h.pt_disj e he hgmem
  have hne : ∀ e ∈ b.page_table_, e.2 ≠ g := by
    intro e he heq
    exact hgnm (List.mem_map.2 ⟨e, he, heq⟩)
  refine ⟨?_, ?_, ?_, ?_, ?_, ?_, ?_, ?_, ?_, ?_, ?_⟩
  · rw [hf]; exact hnd.2
  · rw [hf, hs]
    intro f hfm
    exact h.fl_range f (by rw [hfl]; exact List.mem_cons_of_mem _ hfm)
  · rw [ht, List.map_cons, List.nodup_cons]
    refine ⟨?_, h.pt_keys⟩
    intro hm
    rw [List.mem_map] at hm
    obtain ⟨e, he, heq⟩ := hm
    exact lookup_eq_none.1 hlk e he heq
  · rw [ht, List.map_cons, List.nodup_cons]
    exact ⟨hgnm, h.pt_vals⟩
  · rw [ht, hs]
    intro e he
    rcases List.mem_cons.1 he with rfl | he
    · exact h.fl_range g hgmem
    · exact h.pt_range e he
  · rw [ht, hf]
    intro e he
    rcases List.mem_cons.1 he with rfl | he
    · exact hnd.1
    · intro hm
      exact h.pt_disj e he (by rw [hfl]; exact List.mem_cons_of_mem _ hm)
  · rw [ht]
    intro e he
    rcases List.mem_cons.1 he with rfl | he
    · exact hpg
    · rw [hpo e.2 (hne e he)]
      exact h.pt_id e he
  · rw [hs, hf, ht]
    intro f h0 h1
    rcases h.cover f h0 h1 with hm | hm
    · rw [hfl] at hm
      rcases List.mem_cons.1 hm with rfl | hm
      · right; simp
      · left; exact hm
    · right
      rw [List.map_cons]
      exact List.mem_cons_of_mem _ hm
  · rw [hr]; exact h.rep
  · rw [hr, ht]
    intro f hfm
    rw [List.map_cons]
    exact List.mem_cons_of_mem _ (h.rep_mapped f hfm)
  · rw [ht]
    intro e he
    rcases List.mem_cons.1 he with rfl | he
    · exact hlt
    · exact lt_of_lt_of_le (h.alloc e he) hn

/-- Installing page `p` in the frame `g` obtained from the replacer. -/
theorem PoolInv_install_victim {b c : BufferPoolManager} (h : PoolInv b)
    {p : page_id_t} {g : frame_id_t}
    (hfl : b.free_list_ = []) (hv : b.replacer_.Victim.1 = some g)
    (hlk : b.page_table_.lookup p = none)
    (hlt : p < c.disk_manager_.next_page_id_)
    (hs : c.pool_size_ = b.pool_size_)
    (ht : c.page_table_ =
      (p, g) :: BufferPoolManager.eraseEntry b.page_table_ (b.pages_ g).page_id_)
    (hf : c.free_list_ = []) (hr : c.replacer_ = b.replacer_.Victim.2)
    (hpg : (c.pages_ g).page_id_ = p)
    (hpo : ∀ f, f ≠ g → (c.pages_ f).page_id_ = (b.pages_ f).page_id_)
    (hn : b.disk_manager_.next_page_id_ ≤ c.disk_manager_.next_page_id_) : PoolInv c := by
  have hgo : g ∈ b.replacer_.order_ := Victim_some_mem hv
  have hgm := h.rep_mapped g hgo
  rw [List.mem_map] at hgm
  obtain ⟨⟨q, g0⟩, hqg, hg0⟩ := hgm
  simp only at hg0
  subst hg0
  have hq : (b.pages_ g0).page_id_ = q := h.pt_id (q, g0) hqg
  rw [hq] at ht
  have hne : ∀ e ∈ BufferPoolManager.eraseEntry b.page_table_ q, e.2 ≠ g0 := by
    intro e he heq
    rw [mem_eraseEntry] at he
    obtain ⟨e1, e2⟩ := e
    simp only at heq
    subst heq
    exact he.2 (entry_unique_of_vals h.pt_vals he.1 hqg)
  have hkeep : ∀ e ∈ b.page_table_, e.2 ≠ g0 →
      e ∈ BufferPoolManager.eraseEntry b.page_table_ q := by
    intro e he hneq
    rw [mem_eraseEntry]
    refine ⟨he, ?_⟩
    intro h1
    obtain ⟨e1, e2⟩ := e
    simp only at h1
    subst h1
    exact hneq (entry_unique_of_keys h.pt_keys he hqg)
  have hsub := eraseEntry_sublist b.page_table_ q
  refine ⟨?_, ?_, ?_, ?_, ?_, ?_, ?_, ?_, ?_, ?_, ?_⟩
  · rw [hf]; exact List.nodup_nil
  · rw [hf]; intro f hfm; simp at hfm
  · rw [ht, List.map_cons, List.nodup_cons]
    refine ⟨?_, h.pt_keys.sublist (hsub.map _)⟩
    intro hm
    rw [List.mem_map] at hm
    obtain ⟨e, he, heq⟩ := hm
    exact lookup_eq_none.1 hlk e (hsub.subset he) heq
  · rw [ht, List.map_cons, List.nodup_cons]
    refine ⟨?_, h.pt_vals.sublist (hsub.map _)⟩
    intro hm
    rw [List.mem_map] at hm
    obtain ⟨e, he, heq⟩ := hm
    exact hne e he heq
  · rw [ht, hs]
    intro e he
    rcases List.mem_cons.1 he with rfl | he
    · exact h.pt_range (q, g0) hqg
    · exact h.pt_range e (hsub.subset he)
  · rw [hf]; intro e _; simp
  · rw [ht]
    intro e he
    rcases List.mem_cons.1 he with rfl | he
    · exact hpg
    · rw [hpo e.2 (hne e he)]
      exact h.pt_id e (hsub.subset he)
  · rw [hs, hf, ht]
    intro f h0 h1
    right
    rcases h.cover f h0 h1 with hm | hm
    · rw [hfl] at hm; simp at hm
    · by_cases hfg : f = g0
      · subst hfg; simp
      · rw [List.mem_map] at hm
        obtain ⟨e, he, rfl⟩ := hm
        rw [List.map_cons]
        exact List.mem_cons_of_mem _ (List.mem_map.2 ⟨e, hkeep e he hfg, rfl⟩)
  · rw [hr]; exact RInv_Victim h.rep
  · rw [hr, ht]
    intro f hfm
    obtain ⟨hfo, hfg⟩ := mem_Victim_order h.rep hv hfm
    have hm := h.rep_mapped f hfo
    rw [List.mem_map] at hm
    obtain ⟨e, he, rfl⟩ := hm
    rw [List.map_cons]
    exact List.mem_cons_of_mem _ (List.mem_map.2 ⟨e, hkeep e he hfg, rfl⟩)
  · rw [ht]
    intro e he
    rcases List.mem_cons.1 he with rfl | he
    · exact hlt
    · exact lt_of_lt_of_le (h.alloc e (hsub.subset he)) hn

theorem PoolInv_FetchPageImpl {b : BufferPoolManager} (h : PoolInv b) (p : page_id_t)
    (hp : p < b.disk_manager_.next_page_id_) : PoolInv (b.FetchPageImpl p).2 := by
  unfold BufferPoolManager.FetchPageImpl
  split
  · rename_i g hlk
    refine PoolInv_congr_rep h rfl rfl rfl (RInv_Pin h.rep g) ?_ ?_ (le_refl _)
    · intro f hf
      exact h.rep_mapped f (mem_Pin_order h.rep hf).1
    · intro e he
      show (Function.update b.pages_ g _ e.2).page_id_ = _
      by_cases heg : e.2 = g
      · rw [heg]; simp
      · rw [Function.update_noteq heg]
  · rename_i hlk
    split
    · rename_i g rest hfl
      refine PoolInv_install_free (g := g) (p := p) h hfl hlk hp rfl ?_ rfl rfl ?_ ?_ (le_refl _)
      · show (p, g) :: BufferPoolManager.eraseEntry b.page_table_ p = _
        rw [eraseEntry_of_lookup_none hlk]
      · simp [BufferPoolManager.readInto, BufferPoolManager.SetHelper1]
      · intro f hfg
        simp [BufferPoolManager.readInto, BufferPoolManager.SetHelper1,
          Function.update_noteq hfg]
    · rename_i hfl
      split
      · exact h
      · rename_i g hv
        have hdisk : (DiskManager.ReadPage (if (b.pages_ g).is_dirty_ = true then
              b.disk_manager_.WritePage (b.pages_ g).page_id_ (b.pages_ g).data_
              else b.disk_manager_) p).2.next_page_id_ = b.disk_manager_.next_page_id_ := by
          split <;> rfl
        refine PoolInv_install_victim (g := g) (p := p) h hfl hv hlk ?_ rfl ?_ hfl rfl ?_ ?_ ?_
        · exact lt_of_lt_of_eq hp hdisk.symm
        · show (p, g) :: BufferPoolManager.eraseEntry
            (BufferPoolManager.eraseEntry b.page_table_ (b.pages_ g).page_id_) p = _
          rw [BufferPoolManager.eraseEntry, List.filter_eq_self.2]
          intro e he
          simpa using lookup_eq_none.1 hlk e ((eraseEntry_sublist _ _).subset he)
        · simp [BufferPoolManager.readInto, BufferPoolManager.SetHelper1]
        · intro f hfg
          simp [BufferPoolManager.readInto, BufferPoolManager.SetHelper1,
            BufferPoolManager.evict, Function.update_noteq hfg]
        · exact le_of_eq hdisk.symm

theorem PoolInv_UnpinPageImpl {b : BufferPoolManager} (h : PoolInv b) (p : page_id_t)
    (d : Bool) : PoolInv (b.UnpinPageImpl p d).2 := by
  unfold BufferPoolManager.UnpinPageImpl
  split
  · exact h
  · rename_i g hlk
    split
    · exact h
    · have hmap : g ∈ b.page_table_.map Prod.snd :=
        List.mem_map.2 ⟨(p, g), lookup_eq_some_mem hlk, rfl⟩
      refine PoolInv_congr_rep h rfl rfl rfl ?_ ?_ ?_ (le_refl _)
      · show RInv (if _ then _ else _)
        split
        · exact RInv_Unpin h.rep g
        · exact h.rep
      · intro f hf
        have hf2 : f ∈ (if (b.pages_ g).pin_count_ - 1 = 0 then b.replacer_.Unpin g
            else b.replacer_).order_ := hf
        split at hf2
        · rcases mem_Unpin_order hf2 with hf3 | rfl
          · exact h.rep_mapped f hf3
          · exact hmap
        · exact h.rep_mapped f hf2
      · intro e he
        show (Function.update b.pages_ g _ e.2).page_id_ = _
        by_cases heg : e.2 = g
        · rw [heg]; simp
        · rw [Function.update_noteq heg]

theorem PoolInv_NewPageImpl {b : BufferPoolManager} (h : PoolInv b) :
    PoolInv b.NewPageImpl.2 := by
  have hlk : b.page_table_.lookup b.disk_manager_.next_page_id_ = none := by
    rw [lookup_eq_none]
    intro e he
    exact ne_of_lt (h.alloc e he)
  unfold BufferPoolManager.NewPageImpl
  simp only
  split
  · rename_i g rest hfl
    refine PoolInv_install_free (g := g) (p := b.disk_manager_.next_page_id_) h hfl hlk
      ?_ rfl ?_ rfl rfl ?_ ?_ ?_
    · exact lt_add_one b.disk_manager_.next_page_id_
    · show (b.disk_manager_.next_page_id_, g) ::
        BufferPoolManager.eraseEntry b.page_table_ b.disk_manager_.next_page_id_ = _
      rw [eraseEntry_of_lookup_none hlk]
    · simp [BufferPoolManager.SetHelper1, Page.ResetMemory, DiskManager.AllocatePage]
    · intro f hfg
      simp [BufferPoolManager.SetHelper1, Function.update_noteq hfg]
    · exact le_of_lt (lt_add_one b.disk_manager_.next_page_id_)
  · rename_i hfl
    split
    · exact PoolInv_congr h rfl rfl rfl rfl (fun _ _ => rfl)
        (le_of_lt (lt_add_one b.disk_manager_.next_page_id_))
    · rename_i g hv
      refine PoolInv_install_victim (g := g) (p := b.disk_manager_.next_page_id_) h hfl hv hlk
        ?_ rfl ?_ hfl rfl ?_ ?_ ?_
      · show b.disk_manager_.next_page_id_ <
          (if (b.pages_ g).is_dirty_ = true then
            (b.disk_manager_.AllocatePage.2).WritePage (b.pages_ g).page_id_ (b.pages_ g).data_
            else b.disk_manager_.AllocatePage.2).next_page_id_
        split <;> exact lt_add_one b.disk_manager_.next_page_id_
      · show (b.disk_manager_.next_page_id_, g) :: BufferPoolManager.eraseEntry
          (BufferPoolManager.eraseEntry b.page_table_ (b.pages_ g).page_id_)
          b.disk_manager_.next_page_id_ = _
        rw [BufferPoolManager.eraseEntry, List.filter_eq_self.2]
        intro e he
        simpa using lookup_eq_none.1 hlk e ((eraseEntry_sublist _ _).subset he)
      · simp [BufferPoolManager.SetHelper1, Page.ResetMemory, DiskManager.AllocatePage]
      · intro f hfg
        simp [BufferPoolManager.SetHelper1, BufferPoolManager.evict,
          Function.update_noteq hfg]
      · show b.disk_manager_.next_page_id_ ≤
          (if (b.pages_ g).is_dirty_ = true then
            (b.disk_manager_.AllocatePage.2).WritePage (b.pages_ g).page_id_ (b.pages_ g).data_
            else b.disk_manager_.AllocatePage.2).next_page_id_
        split <;> exact le_of_lt (lt_add_one b.disk_manager_.next_page_id_)

theorem PoolInv_DeletePageImpl {b : BufferPoolManager} (h : PoolInv b) (p : page_id_t) :
    PoolInv (b.DeletePageImpl p).2 := by
  unfold BufferPoolManager.DeletePageImpl
  split
  · exact PoolInv_congr h rfl rfl rfl rfl (fun _ _ => rfl) (le_refl _)
  · rename_i g hlk
    split
    · exact h
    · have hpg : (p, g) ∈ b.page_table_ := lookup_eq_some_mem hlk
      have hsub := eraseEntry_sublist b.page_table_ p
      have hne : ∀ e ∈ BufferPoolManager.eraseEntry b.page_table_ p, e.2 ≠ g := by
        intro e he heq
        rw [mem_eraseEntry] at he
        obtain ⟨e1, e2⟩ := e
        simp only at heq
        subst heq
        exact he.2 (entry_unique_of_vals h.pt_vals he.1 hpg)
      have hkeep : ∀ e ∈ b.page_table_, e.2 ≠ g →
          e ∈ BufferPoolManager.eraseEntry b.page_table_ p := by
        intro e he hneq
        rw [mem_eraseEntry]
        refine ⟨he, ?_⟩
        intro h1
        obtain ⟨e1, e2⟩ := e
        simp only at h1
        subst h1
        exact hneq (entry_unique_of_keys h.pt_keys he hpg)
      refine ⟨?_, ?_, ?_, ?_, ?_, ?_, ?_, ?_, ?_, ?_, ?_⟩
      · show (b.free_list_ ++ [g]).Nodup
        rw [List.nodup_append]
        refine ⟨h.fl_nodup, List.nodup_singleton g, ?_⟩
        intro a ha hb
        rw [List.mem_singleton] at hb
        subst hb
        exact h.pt_disj (p, a) hpg ha
      · intro f hf
        have hf2 : f ∈ b.free_list_ ++ [g] := hf
        rw [List.mem_append, List.mem_singleton] at hf2
        rcases hf2 with hf2 | rfl
        · exact h.fl_range f hf2
        · exact h.pt_range (p, f) hpg
      · exact h.pt_keys.sublist (hsub.map _)
      · exact h.pt_vals.sublist (hsub.map _)
      · intro e he
        exact h.pt_range e (hsub.subset he)
      · intro e he hm
        have hm2 : e.2 ∈ b.free_list_ ++ [g] := hm
        rw [List.mem_append, List.mem_singleton] at hm2
        rcases hm2 with hm2 | hm2
        · exact h.pt_disj e (hsub.subset he) hm2
        · exact hne e he hm2
      · intro e he
        show (Function.update b.pages_ g _ e.2).page_id_ = _
        rw [Function.update_noteq (hne e he)]
        exact h.pt_id e (hsub.subset he)
      · intro f h0 h1
        show f ∈ b.free_list_ ++ [g] ∨ f ∈ (BufferPoolManager.eraseEntry b.page_table_ p).map Prod.snd
        rcases h.cover f h0 h1 with hm | hm
        · left; exact List.mem_append_left _ hm
        · by_cases hfg : f = g
          · left; subst hfg; simp
          · right
            rw [List.mem_map] at hm
            obtain ⟨e, he, rfl⟩ := hm
            exact List.mem_map.2 ⟨e, hkeep e he hfg, rfl⟩
      · exact RInv_Pin h.rep g
      · intro f hf
        obtain ⟨hfo, hfg⟩ := mem_Pin_order h.rep hf
        have hm := h.rep_mapped f hfo
        rw [List.mem_map] at hm
        obtain ⟨e, he, rfl⟩ := hm
        exact List.mem_map.2 ⟨e, hkeep e he hfg, rfl⟩
      · intro e he
        exact h.alloc e (hsub.subset he)

theorem next_page_id_foldl_WritePage (pages : frame_id_t → Page)
    (l : List (page_id_t × frame_id_t)) (d : DiskManager) :
    (l.foldl (fun d e => d.WritePage e.1 (pages e.2).data_) d).next_page_id_ =
      d.next_page_id_ := by
  induction l generalizing d with
  | nil => rfl
  | cons e l ih =>
    rw [List.foldl_cons, ih]
    rfl

theorem PoolInv_apply {b : BufferPoolManager} (h : PoolInv b) (op : BOp)
    (hop : op.allocated b = true) : PoolInv (op.apply b) := by
  cases op with
  | Fetch p => exact PoolInv_FetchPageImpl h p (of_decide_eq_true hop)
  | Unpin p d => exact PoolInv_UnpinPageImpl h p d
  | New => exact PoolInv_NewPageImpl h
  | Delete p => exact PoolInv_DeletePageImpl h p
  | Flush p =>
    simp only [BOp.apply, BufferPoolManager.FlushPageImpl]
    split
    · exact h
    · exact PoolInv_congr h rfl rfl rfl rfl (fun _ _ => rfl) (le_refl _)
  | FlushAll =>
    refine PoolInv_congr h rfl rfl rfl rfl (fun _ _ => rfl) (le_of_eq ?_)
    exact (next_page_id_foldl_WritePage b.pages_ b.page_table_ b.disk_manager_).symm

theorem PoolInv_poolRun (ops : List BOp) :
    ∀ b : BufferPoolManager, PoolInv b → Allocated b ops = true →
      PoolInv (poolRun b ops) := by
  induction ops with
  | nil => intro b h _; exact h
  | cons op ops ih =>
    intro b h ha
    simp only [Allocated, Bool.and_eq_true] at ha
    exact ih (op.apply b) (PoolInv_apply h op ha.1) ha.2

/-- Claim C10, as stated, fails: on a pool of two frames over a disk that has issued no
page id yet, `FetchPage(0)` followed by `NewPage()` (which is issued page id 0) leaves
frame 0 outside the free list and outside the image of the page table. -/
theorem pool_partition_counterexample :
    ¬ Partition (poolRun (BufferPoolManager.new 2 (DiskManager.fresh (fun _ => [])))
      [BOp.Fetch 0, BOp.New]) := by
  intro h
  have h0 := h.1 0 (by decide) (by decide)
  rcases h0 with ⟨hm, _⟩ | ⟨_, p, hp, _⟩
  · revert hm
    decide
  · have hpt : (poolRun (BufferPoolManager.new 2 (DiskManager.fresh (fun _ => [])))
        [BOp.Fetch 0, BOp.New]).page_table_ = [(0, 1)] := by decide
    rw [hpt] at hp
    simp at hp

/-- Claim C10, amended.  In every state reached from a freshly constructed pool by a
sequence of Fetch/Unpin/New/Delete/Flush calls in which `FetchPage` is only asked for page
ids below the allocation counter of the disk collaborator, each frame index below the
pool size is either in the free list or the image of exactly one page id, never both and
never neither; the free list has no duplicates and distinct page ids are mapped to
distinct frames. -/
theorem pool_partition (pool_size : Nat) (disk : DiskManager) (ops : List BOp)
    (h : Allocated (BufferPoolManager.new pool_size disk) ops = true) :
    Partition (poolRun (BufferPoolManager.new pool_size disk) ops) :=
  Partition_of_PoolInv (PoolInv_poolRun ops _ (PoolInv_new pool_size disk) h)

theorem pool_partition_witness :
    Allocated (BufferPoolManager.new 2 (DiskManager.fresh (fun _ => [])))
      [BOp.New, BOp.New, BOp.Unpin 0 true, BOp.Fetch 0, BOp.Unpin 1 false, BOp.New,
        BOp.Delete 0, BOp.FlushAll] = true ∧
    Partition (poolRun (BufferPoolManager.new 2 (DiskManager.fresh (fun _ => [])))
      [BOp.New, BOp.New, BOp.Unpin 0 true, BOp.Fetch 0, BOp.Unpin 1 false, BOp.New,
        BOp.Delete 0, BOp.FlushAll]) :=
  ⟨by decide, pool_partition 2 _ _ (by decide)⟩

theorem wp_pure {α : Type} (a : α) (Q : α → TState → Prop) (s : TState) :
    wp (pure a : TM α) Q s ↔ Q a s := by
  constructor
  · rintro ⟨b, t, h, hq⟩
    cases h
    exact hq
  · intro h
    exact ⟨a, s, rfl, h⟩

theorem wp_bind {α β : Type} (m : TM α) (f : α → TM β) (Q : β → TState → Prop) (s : TState) :
    wp (m >>= f) Q s ↔ wp m (fun a t => wp (f a) Q t) s := by
  constructor
  · rintro ⟨b, t, h, hq⟩
    have h2 : (match m.run s with
      | Res.ok a u => (f a).run u
      | Res.throw u => Res.throw u
      | Res.fault => Res.fault) = Res.ok b t := h
    cases hm : m.run s with
    | ok a u =>
      rw [hm] at h2
      exact ⟨a, u, hm, b, t, h2, hq⟩
    | throw u => rw [hm] at h2; cases h2
    | fault => rw [hm] at h2; cases h2
  · rintro ⟨a, u, hm, b, t, hf, hq⟩
    refine ⟨b, t, ?_, hq⟩
    show (match m.run s with
      | Res.ok a u => (f a).run u
      | Res.throw u => Res.throw u
      | Res.fault => Res.fault) = Res.ok b t
    rw [hm]
    exact hf

theorem wp_mono {α : Type} {m : TM α} {Q R : α → TState → Prop} {s : TState}
    (h : wp m Q s) (hqr : ∀ a t, Q a t → R a t) : wp m R s := by
  obtain ⟨a, t, hm, hq⟩ := h
  exact ⟨a, t, hm, hqr a t hq⟩

theorem wp_get (Q : TState → TState → Prop) (s : TState) : wp TM.get Q s ↔ Q s s := by
  constructor
  · rintro ⟨b, t, h, hq⟩
    cases h
    exact hq
  · intro h
    exact ⟨s, s, rfl, h⟩

theorem wp_modify (f : TState → TState) (Q : Unit → TState → Prop) (s : TState) :
    wp (TM.modify f) Q s ↔ Q () (f s) := by
  constructor
  · rintro ⟨b, t, h, hq⟩
    cases h
    exact hq
  · intro h
    exact ⟨(), f s, rfl, h⟩

theorem wp_fault {α : Type} (Q : α → TState → Prop) (s : TState) :
    wp (TM.fault : TM α) Q s ↔ False := by
  constructor
  · rintro ⟨b, t, h, _⟩
    cases h
  · exact False.elim

theorem wp_raise {α : Type} (Q : α → TState → Prop) (s : TState) :
    wp (TM.raise : TM α) Q s ↔ False := by
  constructor
  · rintro ⟨b, t, h, _⟩
    cases h
  · exact False.elim

theorem wp_ofOption {α : Type} (o : Option α) (Q : α → TState → Prop) (s : TState) :
    wp (TM.ofOption o) Q s ↔ ∃ a, o = some a ∧ Q a s := by
  cases o with
  | none => simp [TM.ofOption, wp_fault]
  | some a => simp [TM.ofOption, wp_pure]

theorem wp_ite {α : Type} (c : Prop) [Decidable c] (m n : TM α) (Q : α → TState → Prop)
    (s : TState) : wp (if c then m else n) Q s ↔ (c → wp m Q s) ∧ (¬ c → wp n Q s) := by
  by_cases h : c <;> simp [h]

theorem wp_getPage (p : page_id_t) (Q : BPlusTreePage → TState → Prop) (s : TState) :
    wp (getPage p) Q s ↔ ∃ pg, s.pages p = some pg ∧ Q pg s := by
  unfold getPage
  rw [wp_bind, wp_get, wp_ofOption]

theorem wp_modifyPage (p : page_id_t) (f : BPlusTreePage → BPlusTreePage)
    (Q : Unit → TState → Prop) (s : TState) :
    wp (modifyPage p f) Q s ↔
      ∃ pg, s.pages p = some pg ∧
        Q () { s with pages := Function.update s.pages p (some (f pg)) } := by
  unfold modifyPage
  rw [wp_bind, wp_getPage]
  simp only [wp_modify]

theorem wp_FetchPage (p : page_id_t) (Q : Unit → TState → Prop) (s : TState) :
    wp (FetchPage p) Q s ↔
      (∃ pg, s.pages p = some pg) ∧
        Q () { s with pin := Function.update s.pin p (s.pin p + 1) } := by
  unfold FetchPage
  rw [wp_bind, wp_getPage]
  simp only [wp_modify]
  constructor
  · rintro ⟨pg, h, hq⟩
    exact ⟨⟨pg, h⟩, hq⟩
  · rintro ⟨⟨pg, h⟩, hq⟩
    exact ⟨pg, h, hq⟩

theorem wp_UnpinPage (p : page_id_t) (d : Bool) (Q : Bool → TState → Prop) (s : TState) :
    wp (UnpinPage p d) Q s ↔
      (s.pin p ≤ 0 → Q false s) ∧
      (¬ s.pin p ≤ 0 → Q true { s with pin := Function.update s.pin p (s.pin p - 1) }) := by
  unfold UnpinPage
  rw [wp_bind, wp_get, wp_ite, wp_pure, wp_bind, wp_modify, wp_pure]

theorem wp_RLatch (p : page_id_t) (Q : Unit → TState → Prop) (s : TState) :
    wp (RLatch p) Q s ↔
      Q () { s with rlatch := Function.update s.rlatch p (s.rlatch p + 1) } := by
  unfold RLatch; rw [wp_modify]

theorem wp_RUnlatch (p : page_id_t) (Q : Unit → TState → Prop) (s : TState) :
    wp (RUnlatch p) Q s ↔
      Q () { s with rlatch := Function.update s.rlatch p (s.rlatch p - 1) } := by
  unfold RUnlatch; rw [wp_modify]

theorem wp_WLatch (p : page_id_t) (Q : Unit → TState → Prop) (s : TState) :
    wp (WLatch p) Q s ↔
      Q () { s with wlatch := Function.update s.wlatch p (s.wlatch p + 1) } := by
  unfold WLatch; rw [wp_modify]

theorem wp_WUnlatch (p : page_id_t) (Q : Unit → TState → Prop) (s : TState) :
    wp (WUnlatch p) Q s ↔
      Q () { s with wlatch := Function.update s.wlatch p (s.wlatch p - 1) } := by
  unfold WUnlatch; rw [wp_modify]

theorem wp_lockRoot (Q : Unit → TState → Prop) (s : TState) :
    wp lockRoot Q s ↔ Q () { s with root_mutex_ := true } := by
  unfold lockRoot; rw [wp_modify]

theorem wp_unlockRoot (Q : Unit → TState → Prop) (s : TState) :
    wp unlockRoot Q s ↔ Q () { s with root_mutex_ := false } := by
  unfold unlockRoot; rw [wp_modify]

theorem comparator_lt {a b : KeyType} : comparator_ a b = -1 ↔ a < b := by
  unfold comparator_
  split
  · simp [*]
  · split <;> simp [*]

theorem comparator_eq {a b : KeyType} : comparator_ a b = 0 ↔ a = b := by
  unfold comparator_
  split
  · rename_i h
    simp only [Int.reduceNeg, Int.neg_eq_zero, one_ne_zero, false_iff]
    exact ne_of_lt h
  · split <;> simp [*]

theorem comparator_neg {a b : KeyType} : comparator_ a b < 0 ↔ a < b := by
  unfold comparator_
  split
  · simp [*]
  · split <;> simp [*]

theorem lookupLoop_spec (arr : List (KeyType × Int)) (key : KeyType)
    (hs : KeysAscending arr) :
    ∀ (fuel begin_ end_ : Nat), begin_ ≤ end_ → end_ < arr.length → end_ - begin_ < fuel →
      (∀ i ei, 1 ≤ i → i ≤ begin_ → arr[i]? = some ei → ei.1 ≤ key) →
      (∀ i ei, end_ < i → arr[i]? = some ei → key < ei.1) →
      ∃ e, BPlusTreePage.lookupLoop arr key fuel begin_ end_ = some e ∧
        IsLookupSlot arr key e := by
  intro fuel
  induction fuel with
  | zero => intro b e _ _ hf; omega
  | succ fuel ih =>
    intro b e hbe hen hf hlow hhigh
    unfold BPlusTreePage.lookupLoop
    by_cases hEq : b = e
    · subst hEq
      rw [if_pos rfl]
      exact ⟨b, rfl, hen, hlow, hhigh⟩
    · rw [if_neg hEq]
      have hlt : b < e := lt_of_le_of_ne hbe hEq
      have hm1 : b < (b + e + 1) / 2 := by omega
      have hm2 : (b + e + 1) / 2 ≤ e := by omega
      have hmn : (b + e + 1) / 2 < arr.length := by omega
      have hget : arr[(b + e + 1) / 2]? = some arr[(b + e + 1) / 2] :=
        List.getElem?_eq_getElem hmn
      rw [hget]
      simp only
      by_cases hless : comparator_ arr[(b + e + 1) / 2].1 key = -1
      · rw [if_pos hless]
        apply ih _ _ hm2 hen (by omega)
        · intro i ei h1 h2 hi
          rcases Nat.lt_or_ge i ((b + e + 1) / 2) with h3 | h3
          · exact le_of_lt (lt_trans (hs i _ ei _ h1 h3 hi hget) (comparator_lt.1 hless))
          · have hie : i = (b + e + 1) / 2 := by omega
            subst hie
            rw [hget] at hi
            cases hi
            exact le_of_lt (comparator_lt.1 hless)
        · exact hhigh
      · rw [if_neg hless]
        by_cases heq : comparator_ arr[(b + e + 1) / 2].1 key = 0
        · rw [if_pos heq]
          refine ⟨_, rfl, hmn, ?_, ?_⟩
          · intro i ei h1 h2 hi
            rcases Nat.lt_or_ge i ((b + e + 1) / 2) with h3 | h3
            · exact le_of_lt (lt_of_lt_of_eq (hs i _ ei _ h1 h3 hi hget) (comparator_eq.1 heq))
            · have hie : i = (b + e + 1) / 2 := by omega
              subst hie
              rw [hget] at hi
              cases hi
              exact le_of_eq (comparator_eq.1 heq)
          · intro i ei h1 hi
            exact lt_of_eq_of_lt (comparator_eq.1 heq).symm (hs _ i _ ei (by omega) h1 hget hi)
        · rw [if_neg heq]
          have hgt : key < arr[(b + e + 1) / 2].1 := by
            rcases lt_trichotomy arr[(b + e + 1) / 2].1 key with h | h | h
            · exact absurd (comparator_lt.2 h) hless
            · exact absurd (comparator_eq.2 h) heq
            · exact h
          apply ih _ _ (by omega) (by omega) (by omega) hlow
          intro i ei h1 hi
          rcases Nat.lt_or_ge ((b + e + 1) / 2) i with h3 | h3
          · exact lt_trans hgt (hs _ i _ ei (by omega) h3 hget hi)
          · have hie : i = (b + e + 1) / 2 := by omega
            subst hie
            rw [hget] at hi
            cases hi
            exact hgt

theorem LookupInternal_spec (pg : BPlusTreePage) (key : KeyType)
    (hs : KeysAscending pg.array) (hne : pg.array ≠ []) :
    ∃ e c, pg.LookupInternal key = some c.2 ∧ pg.array[e]? = some c ∧
      IsLookupSlot pg.array key e := by
  have hlen : 0 < pg.array.length := List.length_pos.2 hne
  obtain ⟨e, he, hslot⟩ := lookupLoop_spec pg.array key hs (pg.array.length + 1) 0
    (pg.array.length - 1) (Nat.zero_le _) (by omega) (by omega)
    (by intro i ei h1 h2; omega)
    (by
      intro i ei h1 hi
      have := (List.getElem?_eq_some_iff.1 hi).1
      omega)
  have he1 : e < pg.array.length := hslot.1
  have hget : pg.array[e]? = some pg.array[e] := List.getElem?_eq_getElem he1
  refine ⟨e, pg.array[e], ?_, hget, hslot⟩
  unfold BPlusTreePage.LookupInternal
  rw [if_neg (by omega), he]
  simp only [hget, Option.map_some']

theorem bLt_trans {l h : Option Int} {k : Int} (h1 : bLt l (some k)) (h2 : bLt (some k) h) :
    bLt l h := by
  intro a b ha hb
  exact lt_trans (h1 a k ha rfl) (h2 k b rfl hb)

theorem Seg_ne_nil {G : Ghost} {p : Int} {l h : Option Int} {arr : List (KeyType × Int)}
    (hs : Seg G p l arr h) : arr ≠ [] := by
  rintro rfl
  exact hs

theorem Seg_cons_cons {G : Ghost} {p : Int} {l h : Option Int} {e e2 : KeyType × Int}
    {rest : List (KeyType × Int)} :
    Seg G p l (e :: e2 :: rest) h ↔
      ChildAt G p e.2 l (some e2.1) ∧ Seg G p (some e2.1) (e2 :: rest) h := by
  rfl

theorem Seg_single {G : Ghost} {p : Int} {l h : Option Int} {e : KeyType × Int} :
    Seg G p l [e] h ↔ ChildAt G p e.2 l h := by
  rfl

/-- The key of the first slot plays no role. -/
theorem Seg_first_key {G : Ghost} {p : Int} {l h : Option Int} {k k2 : KeyType} {c : Int}
    {rest : List (KeyType × Int)} :
    Seg G p l ((k, c) :: rest) h ↔ Seg G p l ((k2, c) :: rest) h := by
  cases rest with
  | nil => rfl
  | cons e2 rest => rfl

theorem Seg_bLt {G : Ghost} {p : Int} {arr : List (KeyType × Int)} :
    ∀ {l h : Option Int}, Seg G p l arr h → bLt l h := by
  induction arr with
  | nil => intro l h hs; exact absurd hs id
  | cons e rest ih =>
    intro l h hs
    cases rest with
    | nil => exact (Seg_single.1 hs).ne
    | cons e2 rest =>
      obtain ⟨hc, hrest⟩ := Seg_cons_cons.1 hs
      exact bLt_trans hc.ne (ih hrest)

/-- Splitting the slots of a page in two non-empty parts. -/
theorem Seg_append {G : Ghost} {p : Int} (A : List (KeyType × Int)) (b : KeyType × Int)
    (B : List (KeyType × Int)) :
    ∀ {l h : Option Int}, A ≠ [] →
      (Seg G p l (A ++ b :: B) h ↔ Seg G p l A (some b.1) ∧ Seg G p (some b.1) (b :: B) h) := by
  induction A with
  | nil => intro l h hA; exact absurd rfl hA
  | cons a A ih =>
    intro l h _
    cases A with
    | nil =>
      show Seg G p l (a :: b :: B) h ↔ _
      rw [Seg_cons_cons, Seg_single]
    | cons a2 A =>
      show Seg G p l (a :: a2 :: (A ++ b :: B)) h ↔ _
      rw [Seg_cons_cons, Seg_cons_cons]
      have := ih (l := some a2.1) (h := h) (by simp)
      simp only [List.cons_append] at this
      rw [this]
      tauto

/-- Every slot points to a child whose range lies inside the range of the page. -/
theorem Seg_child {G : Ghost} {p : Int} {arr : List (KeyType × Int)} :
    ∀ {l h : Option Int}, Seg G p l arr h → ∀ e ∈ arr,
      G.live e.2 ∧ G.par e.2 = p ∧ G.lvl e.2 + 1 = G.lvl p ∧
      (∀ k, loLe (G.lo e.2) k → loLe l k) ∧ (∀ k, ltHi k (G.hi e.2) → ltHi k h) := by
  induction arr with
  | nil => intro l h hs; exact absurd hs id
  | cons e rest ih =>
    intro l h hs x hx
    cases rest with
    | nil =>
      have hc := Seg_single.1 hs
      simp only [List.mem_singleton] at hx
      subst hx
      refine ⟨hc.live, hc.par, hc.lvl, ?_, ?_⟩
      · intro k hk; rw [hc.lo] at hk; exact hk
      · intro k hk; rw [hc.hi] at hk; exact hk
    | cons e2 rest =>
      obtain ⟨hc, hrest⟩ := Seg_cons_cons.1 hs
      have hb := Seg_bLt hrest
      rcases List.mem_cons.1 hx with rfl | hx
      · refine ⟨hc.live, hc.par, hc.lvl, ?_, ?_⟩
        · intro k hk; rw [hc.lo] at hk; exact hk
        · intro k hk b hb2
          rw [hc.hi] at hk
          exact lt_trans (hk _ rfl) (hb _ b rfl hb2)
      · obtain ⟨h1, h2, h3, h4, h5⟩ := ih hrest x hx
        refine ⟨h1, h2, h3, ?_, h5⟩
        intro k hk a ha
        have := h4 k hk _ rfl
        exact le_trans (le_of_lt (hc.ne a _ ha rfl)) this

/-- The ranges of the children of a page are pairwise disjoint. -/
theorem Seg_disjoint {G : Ghost} {p : Int} {arr : List (KeyType × Int)} :
    ∀ {l h : Option Int}, Seg G p l arr h → ∀ e ∈ arr, ∀ f ∈ arr, ∀ k,
      loLe (G.lo e.2) k → ltHi k (G.hi e.2) → loLe (G.lo f.2) k → ltHi k (G.hi f.2) →
      e.2 = f.2 := by
  induction arr with
  | nil => intro l h hs; exact absurd hs id
  | cons a rest ih =>
    intro l h hs e he f hf k h1 h2 h3 h4
    cases rest with
    | nil =>
      simp only [List.mem_singleton] at he hf
      rw [he, hf]
    | cons a2 rest =>
      obtain ⟨hc, hrest⟩ := Seg_cons_cons.1 hs
      have key : ∀ x ∈ a2 :: rest, ∀ k, loLe (G.lo x.2) k → ltHi k (G.hi a.2) → False := by
        intro x hx k hl hh
        have := (Seg_child hrest x hx).2.2.2.1 k hl _ rfl
        rw [hc.hi] at hh
        have := hh _ rfl
        omega
      rcases List.mem_cons.1 he with he1 | he1
      · rcases List.mem_cons.1 hf with hf1 | hf1
        · rw [he1, hf1]
        · rw [he1] at h2
          exact absurd (key f hf1 k h3 h2) id
      · rcases List.mem_cons.1 hf with hf1 | hf1
        · rw [hf1] at h4
          exact absurd (key e he1 k h1 h4) id
        · exact ih hrest e he1 f hf1 k h1 h2 h3 h4

/-- Index view of `Seg`: slot `i` is responsible for the range from its own key (from `l`
for slot 0) to the key of the next slot (to `h` for the last slot). -/
theorem Seg_slot {G : Ghost} {p : Int} {arr : List (KeyType × Int)} :
    ∀ {l h : Option Int}, Seg G p l arr h → ∀ i e, arr[i]? = some e →
      ChildAt G p e.2 (if i = 0 then l else some e.1)
        (match arr[i + 1]? with
          | some e2 => some e2.1
          | none => h) := by
  induction arr with
  | nil => intro l h hs; exact absurd hs id
  | cons a rest ih =>
    intro l h hs i e hi
    cases rest with
    | nil =>
      have hc := Seg_single.1 hs
      cases i with
      | zero =>
        simp only [List.getElem?_cons_zero, Option.some.injEq] at hi
        subst hi
        simpa using hc
      | succ i => simp at hi
    | cons a2 rest =>
      obtain ⟨hc, hrest⟩ := Seg_cons_cons.1 hs
      cases i with
      | zero =>
        simp only [List.getElem?_cons_zero, Option.some.injEq] at hi
        subst hi
        simpa using hc
      | succ i =>
        have hi2 : (a2 :: rest)[i]? = some e := by simpa using hi
        have := ih hrest i e hi2
        cases i with
        | zero =>
          simp only [List.getElem?_cons_zero, Option.some.injEq] at hi2
          subst hi2
          simpa using this
        | succ i => simpa using this

theorem Seg_keys_ascending {G : Ghost} {p : Int} {arr : List (KeyType × Int)}
    {l h : Option Int} (hs : Seg G p l arr h) : KeysAscending arr := by
  intro i j ei ej h1 hij hi hj
  have step : ∀ d i ei ej, 1 ≤ i → arr[i]? = some ei → arr[i + 1 + d]? = some ej →
      ei.1 < ej.1 := by
    intro d
    induction d with
    | zero =>
      intro i ei ej h1 hi hj
      have hc := Seg_slot hs i ei hi
      simp only [Nat.add_zero] at hj
      rw [hj] at hc
      have hi0 : i ≠ 0 := by omega
      simp only [hi0, if_false] at hc
      exact hc.ne _ _ rfl rfl
    | succ d ih =>
      intro i ei ej h1 hi hj
      have hlen := (List.getElem?_eq_some_iff.1 hj).1
      have hmid : i + 1 < arr.length := by omega
      have hm : arr[i + 1]? = some arr[i + 1] := List.getElem?_eq_getElem hmid
      have h12 := ih (i + 1) arr[i + 1] ej (by omega) hm
        (by rw [← hj]; congr 1; omega)
      have hc := Seg_slot hs i ei hi
      rw [hm] at hc
      have hi0 : i ≠ 0 := by omega
      simp only [hi0, if_false] at hc
      exact lt_trans (hc.ne _ _ rfl rfl) h12
  have hj2 : arr[i + 1 + (j - i - 1)]? = some ej := by
    rw [← hj]; congr 1; omega
  exact step (j - i - 1) i ei ej h1 hi hj2

/-- `Seg` only reads the description at the children it lists. -/
theorem Seg_congr {G H : Ghost} {p : Int} {arr : List (KeyType × Int)}
    (hp : H.lvl p = G.lvl p)
    (hc : ∀ e ∈ arr, (G.live e.2 → H.live e.2) ∧ H.par e.2 = G.par e.2 ∧
      H.lvl e.2 = G.lvl e.2 ∧ H.lo e.2 = G.lo e.2 ∧ H.hi e.2 = G.hi e.2) :
    ∀ {l h : Option Int}, Seg G p l arr h → Seg H p l arr h := by
  induction arr with
  | nil => intro l h hs; exact hs
  | cons a rest ih =>
    intro l h hs
    have conv : ∀ {l h}, ChildAt G p a.2 l h → ChildAt H p a.2 l h := by
      intro l h c
      obtain ⟨h1, h2, h3, h4, h5⟩ := hc a (by simp)
      exact ⟨h1 c.live, by rw [h2]; exact c.par, by rw [h3, hp]; exact c.lvl,
        by rw [h4]; exact c.lo, by rw [h5]; exact c.hi, c.ne⟩
    cases rest with
    | nil => exact Seg_single.2 (conv (Seg_single.1 hs))
    | cons a2 rest =>
      obtain ⟨hca, hrest⟩ := Seg_cons_cons.1 hs
      exact Seg_cons_cons.2 ⟨conv hca,
        ih (fun e he => hc e (List.mem_cons_of_mem _ he)) hrest⟩

theorem view_pages {s : TState} {v : TreeView} (h : s.view = v) : s.pages = v.pages := by
  rw [← h]; rfl

theorem view_root {s : TState} {v : TreeView} (h : s.view = v) : s.root_page_id_ = v.root := by
  rw [← h]; rfl

theorem view_next {s : TState} {v : TreeView} (h : s.view = v) : s.next_page_id_ = v.next := by
  rw [← h]; rfl

theorem view_lmax {s : TState} {v : TreeView} (h : s.view = v) : s.leaf_max_size_ = v.lmax := by
  rw [← h]; rfl

theorem view_imax {s : TState} {v : TreeView} (h : s.view = v) :
    s.internal_max_size_ = v.imax := by
  rw [← h]; rfl

theorem wp_bind_of {α β : Type} {m : TM α} {f : α → TM β} {Q : β → TState → Prop}
    {s : TState} (h : wp m (fun a t => wp (f a) Q t) s) : wp (m >>= f) Q s :=
  (wp_bind m f Q s).2 h

theorem wp_getPage_of {p : page_id_t} {Q : BPlusTreePage → TState → Prop} {s : TState}
    {pg : BPlusTreePage} (hp : s.pages p = some pg) (hq : Q pg s) : wp (getPage p) Q s :=
  (wp_getPage p Q s).2 ⟨pg, hp, hq⟩

theorem wp_getPage_st {p : page_id_t} {Q : BPlusTreePage → TState → Prop} {s : TState}
    {v : TreeView} {h : Multiset Int} {b : Bool} {g : BPlusTreePage} (hs : St s v h b)
    (hp : v.pages p = some g) (hq : Q g s) : wp (getPage p) Q s :=
  wp_getPage_of (by rw [view_pages hs.1]; exact hp) hq

theorem wp_get_st {Q : TState → TState → Prop} {s : TState} (hq : Q s s) : wp TM.get Q s :=
  (wp_get Q s).2 hq

theorem wp_modifyPage_st {p : page_id_t} {f : BPlusTreePage → BPlusTreePage}
    {Q : Unit → TState → Prop} {s : TState}
    {v : TreeView} {h : Multiset Int} {b : Bool} {g : BPlusTreePage} (hs : St s v h b)
    (hp : v.pages p = some g) (hq : ∀ t, St t (v.setPage p (f g)) h b → Q () t) :
    wp (modifyPage p f) Q s := by
  rw [wp_modifyPage]
  refine ⟨g, by rw [view_pages hs.1]; exact hp, hq _ ⟨?_, hs.2.1, hs.2.2.1, hs.2.2.2⟩⟩
  obtain ⟨h1, _⟩ := hs
  subst h1
  rfl

theorem wp_FetchPage_st {p : page_id_t} {Q : Unit → TState → Prop} {s : TState}
    {v : TreeView} {h : Multiset Int} {b : Bool} {g : BPlusTreePage} (hs : St s v h b)
    (hp : v.pages p = some g) (hq : ∀ t, St t v (p ::ₘ h) b → Q () t) :
    wp (FetchPage p) Q s := by
  rw [wp_FetchPage]
  refine ⟨⟨g, by rw [view_pages hs.1]; exact hp⟩, hq _ ⟨hs.1, hs.2.1, ?_, hs.2.2.2⟩⟩
  intro q
  by_cases hq : q = p
  · subst hq
    simp [hs.2.2.1 q]
  · simp [Function.update_noteq hq, hs.2.2.1 q, Multiset.count_cons_of_ne hq]

theorem wp_FetchHeaderPage_st {Q : Unit → TState → Prop} {s : TState}
    {v : TreeView} {h : Multiset Int} {b : Bool} (hs : St s v h b)
    (hq : ∀ t, St t v (HEADER_PAGE_ID ::ₘ h) b → Q () t) :
    wp FetchHeaderPage Q s := by
  unfold FetchHeaderPage
  rw [wp_modify]
  refine hq _ ⟨hs.1, hs.2.1, ?_, hs.2.2.2⟩
  intro q
  by_cases hq : q = HEADER_PAGE_ID
  · subst hq
    simp [hs.2.2.1 HEADER_PAGE_ID]
  · simp [Function.update_noteq hq, hs.2.2.1 q, Multiset.count_cons_of_ne hq]

theorem wp_UnpinPage_st {p : page_id_t} {d : Bool} {Q : Bool → TState → Prop} {s : TState}
    {v : TreeView} {h : Multiset Int} {b : Bool} (hs : St s v (p ::ₘ h) b)
    (hq : ∀ t, St t v h b → Q true t) : wp (UnpinPage p d) Q s := by
  rw [wp_UnpinPage]
  have hp := hs.2.2.1 p
  rw [Multiset.count_cons_self] at hp
  constructor
  · intro hle
    rw [hp] at hle
    have : (0 : Int) ≤ (Multiset.count p h : Int) := Int.ofNat_nonneg _
    omega
  · intro _
    refine hq _ ⟨hs.1, hs.2.1, ?_, hs.2.2.2⟩
    intro q
    by_cases hq : q = p
    · subst hq
      simp [hp]
    · have := hs.2.2.1 q
      rw [Multiset.count_cons_of_ne hq] at this
      simp [Function.update_noteq hq, this]

theorem wp_RLatch_st {p : page_id_t} {Q : Unit → TState → Prop} {s : TState}
    {v : TreeView} {h : Multiset Int} {b : Bool} (hs : St s v h b)
    (hq : ∀ t, St t v h b → Q () t) : wp (RLatch p) Q s :=
  (wp_RLatch p Q s).2 (hq _ hs)

theorem wp_RUnlatch_st {p : page_id_t} {Q : Unit → TState → Prop} {s : TState}
    {v : TreeView} {h : Multiset Int} {b : Bool} (hs : St s v h b)
    (hq : ∀ t, St t v h b → Q () t) : wp (RUnlatch p) Q s :=
  (wp_RUnlatch p Q s).2 (hq _ hs)

theorem wp_WLatch_st {p : page_id_t} {Q : Unit → TState → Prop} {s : TState}
    {v : TreeView} {h : Multiset Int} {b : Bool} (hs : St s v h b)
    (hq : ∀ t, St t v h b → Q () t) : wp (WLatch p) Q s :=
  (wp_WLatch p Q s).2 (hq _ hs)

theorem wp_WUnlatch_st {p : page_id_t} {Q : Unit → TState → Prop} {s : TState}
    {v : TreeView} {h : Multiset Int} {b : Bool} (hs : St s v h b)
    (hq : ∀ t, St t v h b → Q () t) : wp (WUnlatch p) Q s :=
  (wp_WUnlatch p Q s).2 (hq _ hs)

theorem wp_lockRoot_st {Q : Unit → TState → Prop} {s : TState}
    {v : TreeView} {h : Multiset Int} {b : Bool} (hs : St s v h b)
    (hq : ∀ t, St t v h true → Q () t) : wp lockRoot Q s :=
  (wp_lockRoot Q s).2 (hq _ ⟨hs.1, hs.2.1, hs.2.2.1, rfl⟩)

theorem wp_unlockRoot_st {Q : Unit → TState → Prop} {s : TState}
    {v : TreeView} {h : Multiset Int} {b : Bool} (hs : St s v h b)
    (hq : ∀ t, St t v h false → Q () t) : wp unlockRoot Q s :=
  (wp_unlockRoot Q s).2 (hq _ ⟨hs.1, hs.2.1, hs.2.2.1, rfl⟩)

theorem wp_unlockRootIf_st {Q : Unit → TState → Prop} {s : TState}
    {v : TreeView} {h : Multiset Int} {b : Bool} (hs : St s v h b)
    (hq : ∀ t, St t v h false → Q () t) : wp (unlockRootIf b) Q s := by
  unfold unlockRootIf
  cases b with
  | true => exact wp_unlockRoot_st hs hq
  | false => exact (wp_pure _ _ _).2 (hq _ hs)

theorem wp_AddIntoDeletedPageSet_st {p : page_id_t} {Q : Unit → TState → Prop} {s : TState}
    {v : TreeView} {h : Multiset Int} {b : Bool} (hs : St s v h b)
    (hq : ∀ t, St t v h b → Q () t) : wp (AddIntoDeletedPageSet p) Q s := by
  unfold AddIntoDeletedPageSet
  rw [wp_modify]
  exact hq _ hs

theorem wp_setRoot_st {r : page_id_t} {Q : Unit → TState → Prop} {s : TState}
    {v : TreeView} {h : Multiset Int} {b : Bool} (hs : St s v h b)
    (hq : ∀ t, St t (v.setRoot r) h b → Q () t) :
    wp (TM.modify (fun s => { s with root_page_id_ := r })) Q s := by
  rw [wp_modify]
  refine hq _ ⟨?_, hs.2.1, hs.2.2.1, hs.2.2.2⟩
  obtain ⟨h1, _⟩ := hs
  subst h1
  rfl

theorem wp_NewPage_st {Q : Option page_id_t → TState → Prop} {s : TState}
    {v : TreeView} {h : Multiset Int} {b : Bool} (hs : St s v h b) (hn : v.next ∉ h)
    (hq : ∀ t, St t v.alloc (v.next ::ₘ h) b → Q (some v.next) t) : wp NewPage Q s := by
  unfold NewPage
  apply wp_bind_of
  rw [wp_get]
  have hb := hs.2.1
  rw [hb]
  simp only
  apply wp_bind_of
  rw [wp_modify, wp_pure]
  obtain ⟨h1, h2, h3, h4⟩ := hs
  subst h1
  refine hq _ ⟨rfl, rfl, ?_, h4⟩
  intro q
  by_cases hqn : q = s.next_page_id_
  · subst hqn
    have : Multiset.count s.next_page_id_ h = 0 := Multiset.count_eq_zero_of_not_mem hn
    simp [TState.view, this]
  · simp [TState.view, Function.update_noteq hqn, h3 q, Multiset.count_cons_of_ne hqn]

theorem wp_DeletePage_st {p : page_id_t} {Q : Bool → TState → Prop} {s : TState}
    {v : TreeView} {h : Multiset Int} {b : Bool} (hs : St s v h b) (hn : p ∉ h)
    (hq : ∀ t, St t (v.delPage p) h b → Q true t) : wp (DeletePage p) Q s := by
  unfold DeletePage
  apply wp_bind_of
  rw [wp_get]
  have hpin : s.pin p = 0 := by
    rw [hs.2.2.1 p, Multiset.count_eq_zero_of_not_mem hn]; rfl
  obtain ⟨h1, h2, h3, h4⟩ := hs
  subst h1
  cases hpg : s.pages p with
  | none =>
    simp only
    rw [wp_pure]
    refine hq _ ⟨?_, h2, h3, h4⟩
    simp only [TreeView.delPage, TState.view]
    congr 1
    funext q
    by_cases hqp : q = p
    · subst hqp; simp [hpg]
    · simp [Function.update_noteq hqp]
  | some pg =>
    simp only
    rw [if_neg (by rw [hpin]; decide)]
    apply wp_bind_of
    rw [wp_modify, wp_pure]
    exact hq _ ⟨rfl, h2, h3, h4⟩

theorem wp_QueueWUnlatchUnpin_st (queue : List page_id_t) :
    ∀ {Q : Unit → TState → Prop} {s : TState} {v : TreeView} {h : Multiset Int} {b : Bool},
      St s v ((queue : Multiset Int) + h) b → (∀ t, St t v h b → Q () t) →
      wp (QueueWUnlatchUnpin queue) Q s := by
  induction queue with
  | nil =>
    intro Q s v h b hs hq
    refine (wp_pure _ _ _).2 (hq _ ?_)
    simpa using hs
  | cons p queue ih =>
    intro Q s v h b hs hq
    unfold QueueWUnlatchUnpin
    apply wp_bind_of
    apply wp_WUnlatch_st hs
    intro t1 h1
    apply wp_bind_of
    have h1b : St t1 v (p ::ₘ ((queue : Multiset Int) + h)) b := by
      rw [← Multiset.cons_coe, Multiset.cons_add] at h1
      exact h1
    apply wp_UnpinPage_st h1b
    intro t2 h2
    exact ih h2 hq

theorem wp_CLEAN_ROUTINE_st (queue : List page_id_t)
    {Q : Unit → TState → Prop} {s : TState} {v : TreeView} {h : Multiset Int} {b : Bool}
    (hs : St s v ((queue : Multiset Int) + h) b) (hq : ∀ t, St t v h false → Q () t) :
    wp (CLEAN_ROUTINE queue b) Q s := by
  unfold CLEAN_ROUTINE
  apply wp_bind_of
  apply wp_QueueWUnlatchUnpin_st queue hs
  intro t1 h1
  exact wp_unlockRootIf_st h1 hq

theorem wp_UpdateRootPageId_st (ir : Bool) {Q : Unit → TState → Prop} {s : TState}
    {v : TreeView} {h : Multiset Int} {b : Bool} (hs : St s v h b)
    (hq : ∀ t, St t v h b → Q () t) : wp (UpdateRootPageId ir) Q s := by
  unfold UpdateRootPageId
  apply wp_bind_of
  apply wp_FetchHeaderPage_st hs
  intro t1 h1
  apply wp_bind_of
  apply wp_WLatch_st h1
  intro t2 h2
  apply wp_bind_of
  rw [wp_modify]
  apply wp_bind_of
  have h3 : St { t2 with header_record :=
        if ir = true then
          (match t2.header_record with
            | none => some t2.root_page_id_
            | some r => some r)
        else
          (match t2.header_record with
            | none => none
            | some _ => some t2.root_page_id_) } v (HEADER_PAGE_ID ::ₘ h) b := h2
  apply wp_WUnlatch_st h3
  intro t4 h4
  apply wp_bind_of
  apply wp_UnpinPage_st h4
  intro t5 h5
  rw [wp_pure]
  exact hq _ h5

theorem live_ne_invalid {t : TreeView} {G : Ghost} {E : Option Int} (hg : Good t G E)
    {p : Int} (hp : G.live p) : p ≠ INVALID_PAGE_ID := by
  have := (hg.live_range p hp).1
  intro h
  rw [h] at this
  exact absurd this (by decide)

theorem root_ne_of_live {t : TreeView} {G : Ghost} {E : Option Int} (hg : Good t G E)
    {p : Int} (hp : G.live p) : t.root ≠ INVALID_PAGE_ID :=
  fun h => hg.root_none h p hp

/-- A page is a leaf exactly when its level is zero. -/
theorem isLeaf_iff {t : TreeView} {G : Ghost} {E : Option Int} {p : Int}
    {pg : BPlusTreePage} (h : PageGood t G E p pg) : pg.IsLeafPage = true ↔ G.lvl p = 0 := by
  unfold BPlusTreePage.IsLeafPage
  by_cases hl : G.lvl p = 0
  · simp [hl, (h.leaf_type hl).1]
  · simp [hl, (h.int_type hl).1]

/-- The parent of a live page other than the root: it is live, one level up, internal,
and lists the page among its children. -/
theorem parent_facts {t : TreeView} {G : Ghost} {E : Option Int} (hg : Good t G E)
    {p : Int} (hp : G.live p) (hr : p ≠ t.root) :
    G.live (G.par p) ∧ G.lvl (G.par p) = G.lvl p + 1 ∧
      ∃ ppg, t.pages (G.par p) = some ppg ∧ PageGood t G E (G.par p) ppg ∧
        ∃ e ∈ ppg.array, e.2 = p := by
  obtain ⟨pg, hpg, hgood⟩ := hg.page p hp
  have hne : G.par p ≠ INVALID_PAGE_ID := fun h => hr (hgood.root_iff.1 h)
  obtain ⟨hl, hlv, ppg, hppg, hmem⟩ := hgood.attached hne
  obtain ⟨ppg2, hppg2, hgood2⟩ := hg.page _ hl
  rw [hppg] at hppg2
  cases hppg2
  rw [List.mem_map] at hmem
  obtain ⟨e, he, hep⟩ := hmem
  exact ⟨hl, hlv, ppg, hppg, hgood2, e, he, hep⟩

/-- Two live pages of the same level whose ranges share a key are the same page. -/
theorem live_unique {t : TreeView} {G : Ghost} {E : Option Int} (hg : Good t G E) :
    ∀ (n : Nat) (p q : Int), G.live p → G.live q → G.lvl p = G.lvl q →
      G.lvl t.root - G.lvl p ≤ n → ∀ k, InRange G p k → InRange G q k → p = q := by
  intro n
  induction n with
  | zero =>
    intro p q hp hq hl hn k _ _
    have h1 := hg.lvl_le p hp
    have hpl : G.lvl p = G.lvl t.root := by omega
    have top : ∀ x, G.live x → G.lvl x = G.lvl t.root → x = t.root := by
      intro x hx hxl
      by_contra hne
      obtain ⟨h2, h3, _⟩ := parent_facts hg hx hne
      have := hg.lvl_le _ h2
      omega
    rw [top p hp hpl, top q hq (by omega)]
  | succ n ih =>
    intro p q hp hq hl hn k hkp hkq
    by_cases hpr : p = t.root
    · by_cases hqr : q = t.root
      · rw [hpr, hqr]
      · obtain ⟨h2, h3, _⟩ := parent_facts hg hq hqr
        have := hg.lvl_le _ h2
        rw [hpr] at hl
        omega
    · by_cases hqr : q = t.root
      · obtain ⟨h2, h3, _⟩ := parent_facts hg hp hpr
        have := hg.lvl_le _ h2
        rw [hqr] at hl
        omega
      · obtain ⟨hP, hPl, ppg, hppg, hPg, e, he, hep⟩ := parent_facts hg hp hpr
        obtain ⟨hQ, hQl, qpg, hqpg, hQg, f, hf, hfq⟩ := parent_facts hg hq hqr
        have hsegP := hPg.int_seg (by omega)
        have hsegQ := hQg.int_seg (by omega)
        have hce := Seg_child hsegP e he
        have hcf := Seg_child hsegQ f hf
        rw [hep] at hce
        rw [hfq] at hcf
        have hPQ : G.par p = G.par q :=
          ih _ _ hP hQ (by omega) (by have := hg.lvl_le _ hP; omega) k
            ⟨hce.2.2.2.1 k hkp.1, hce.2.2.2.2 k hkp.2⟩
            ⟨hcf.2.2.2.1 k hkq.1, hcf.2.2.2.2 k hkq.2⟩
        rw [← hPQ, hppg] at hqpg
        cases hqpg
        have := Seg_disjoint hsegP e he f hf k (by rw [hep]; exact hkp.1)
          (by rw [hep]; exact hkp.2) (by rw [hfq]; exact hkq.1) (by rw [hfq]; exact hkq.2)
        rw [← hep, ← hfq]
        exact this

/-- The child an internal `Lookup` selects is responsible for the key. -/
theorem lookup_child {t : TreeView} {G : Ghost} {E : Option Int} {p : Int}
    {pg : BPlusTreePage} (hgood : PageGood t G E p pg) (hl : G.lvl p ≠ 0) {k : Int}
    (hk : InRange G p k) :
    ∃ c, pg.LookupInternal k = some c ∧ G.live c ∧ G.lvl c + 1 = G.lvl p ∧
      G.par c = p ∧ InRange G c k := by
  have hseg := hgood.int_seg hl
  obtain ⟨e, c, hlook, hget, hslot⟩ :=
    LookupInternal_spec pg k (Seg_keys_ascending hseg) (Seg_ne_nil hseg)
  have hc := Seg_slot hseg e c hget
  refine ⟨c.2, hlook, hc.live, hc.lvl, hc.par, ?_, ?_⟩
  · rw [hc.lo]
    by_cases he : e = 0
    · simp only [he, if_true]
      exact hk.1
    · simp only [he, if_false]
      intro a ha
      cases ha
      exact hslot.2.1 e c (by omega) (le_refl _) hget
  · rw [hc.hi]
    cases hn : pg.array[e + 1]? with
    | none => exact hk.2
    | some e2 =>
      intro b hb
      cases hb
      exact hslot.2.2 (e + 1) e2 (by omega) hn

/-- The read descent of `LatchCrabbingToLeaf` ends in the leaf responsible for the key,
leaves the tree as it is, and trades the pin of the start page for one of the leaf. -/
theorem crabRead_spec {v : TreeView} {G : Ghost} {E : Option Int} (hg : Good v G E)
    (key : KeyType) (h : Multiset Int) (b : Bool) :
    ∀ (fuel : Nat) (p : Int) (s : TState), St s v (p ::ₘ h) b → G.live p →
      InRange G p key → G.lvl p < fuel →
      wp (crabRead false key fuel p)
        (fun leaf t => St t v (leaf ::ₘ h) b ∧ G.live leaf ∧ G.lvl leaf = 0 ∧
          InRange G leaf key) s := by
  intro fuel
  induction fuel with
  | zero => intro p s _ _ _ hf; omega
  | succ fuel ih =>
    intro p s hs hp hk hf
    obtain ⟨pg, hpg, hgood⟩ := hg.page p hp
    unfold crabRead
    apply wp_bind_of
    apply wp_getPage_st hs hpg
    by_cases hleaf : pg.IsLeafPage = true
    · rw [if_pos hleaf, wp_pure]
      exact ⟨hs, hp, (isLeaf_iff hgood).1 hleaf, hk⟩
    · rw [if_neg hleaf]
      have hl : G.lvl p ≠ 0 := fun h => hleaf ((isLeaf_iff hgood).2 h)
      obtain ⟨c, hlook, hcl, hclv, _, hck⟩ := lookup_child hgood hl hk
      obtain ⟨cpg, hcpg, _⟩ := hg.page c hcl
      apply wp_bind_of
      rw [wp_ofOption]
      refine ⟨c, by simp [hlook], ?_⟩
      apply wp_bind_of
      apply wp_FetchPage_st hs hcpg
      intro t1 h1
      apply wp_bind_of
      apply wp_RLatch_st h1
      intro t2 h2
      apply wp_bind_of
      apply wp_RUnlatch_st h2
      intro t3 h3
      apply wp_bind_of
      rw [Multiset.cons_swap] at h3
      apply wp_UnpinPage_st h3
      intro t4 h4
      exact ih c t4 h4 hcl hck (by omega)

theorem find_key_of_sorted {arr : List (KeyType × Int)}
    (hs : (arr.map Prod.fst).Pairwise (fun a b => a < b)) (k : KeyType) (v : Int) :
    (arr.find? (fun e => comparator_ e.1 k = 0)).map Prod.snd = some v ↔ (k, v) ∈ arr := by
  induction arr with
  | nil => simp
  | cons a arr ih =>
    rw [List.map_cons, List.pairwise_cons] at hs
    by_cases hak : a.1 = k
    · have hc : comparator_ a.1 k = 0 := comparator_eq.2 hak
      simp only [List.find?_cons, hc, decide_True, Option.map_some', Option.some.injEq,
        List.mem_cons]
      constructor
      · intro h
        left
        rw [← h, ← hak]
      · rintro (h | h)
        · rw [← h]
        · exfalso
          have := hs.1 k (List.mem_map.2 ⟨(k, v), h, rfl⟩)
          rw [hak] at this
          exact lt_irrefl _ this
    · have hc : ¬ comparator_ a.1 k = 0 := fun h => hak (comparator_eq.1 h)
      simp only [List.find?_cons, hc, decide_False, List.mem_cons]
      rw [ih hs.2]
      constructor
      · exact Or.inr
      · rintro (h | h)
        · exfalso
          apply hak
          rw [← h]
        · exact h

theorem LookupLeaf_iff {arr : List (KeyType × Int)} {pg : BPlusTreePage}
    (ha : pg.array = arr) (hs : (arr.map Prod.fst).Pairwise (fun a b => a < b))
    (k : KeyType) (v : Int) : pg.LookupLeaf k = some v ↔ (k, v) ∈ arr := by
  unfold BPlusTreePage.LookupLeaf
  rw [ha]
  exact find_key_of_sorted hs k v

/-- What is stored under a key is what the leaf responsible for the key holds. -/
theorem Stored_iff_leaf {t : TreeView} {G : Ghost} {E : Option Int} (hg : Good t G E)
    {leaf : Int} {pg : BPlusTreePage} (hl : G.live leaf) (hlv : G.lvl leaf = 0)
    (hpg : t.pages leaf = some pg) {k : Int} (hk : InRange G leaf k) (v : Int) :
    Stored t G k v ↔ (k, v) ∈ pg.array := by
  constructor
  · rintro ⟨p, ppg, hp, hplv, hppg, hmem⟩
    obtain ⟨ppg2, hppg2, hgood⟩ := hg.page p hp
    rw [hppg] at hppg2
    cases hppg2
    have hr := hgood.leaf_range hplv _ hmem
    have : p = leaf := live_unique hg _ p leaf hp hl (by rw [hplv, hlv]) (le_refl _) k
      ⟨hr.1, hr.2⟩ hk
    subst this
    rw [hpg] at hppg
    cases hppg
    exact hmem
  · intro hmem
    exact ⟨leaf, pg, hl, hlv, hpg, hmem⟩

/-- The search instantiation of `LatchCrabbingToLeaf`. -/
theorem LatchCrabbing_search_spec {G : Ghost} {E : Option Int} (key : KeyType) (s : TState)
    {v : TreeView} {h : Multiset Int} {b : Bool} (hs : St s v h b) (hg : Good v G E) :
    wp (LatchCrabbingToLeaf OPERATION_TYPE.SEARCH_TRAVEL key)
      (fun r t =>
        ((v.root = INVALID_PAGE_ID ∧ r = (none, [], true) ∧ St t v h true) ∨
         (∃ leaf, r = (some leaf, [], false) ∧ St t v (leaf ::ₘ h) false ∧ G.live leaf ∧
            G.lvl leaf = 0 ∧ InRange G leaf key))) s := by
  unfold LatchCrabbingToLeaf
  apply wp_bind_of
  apply wp_lockRoot_st hs
  intro t1 h1
  apply wp_bind_of
  rw [wp_get]
  have hr1 : t1.root_page_id_ = v.root := view_root h1.1
  by_cases hroot : v.root = INVALID_PAGE_ID
  · rw [if_pos (by rw [hr1]; exact hroot), wp_pure]
    exact Or.inl ⟨hroot, rfl, h1⟩
  · rw [if_neg (by rw [hr1]; exact hroot)]
    obtain ⟨hrl, hrlo, hrhi⟩ := hg.root_live hroot
    obtain ⟨rpg, hrpg, _⟩ := hg.page _ hrl
    apply wp_bind_of
    rw [hr1]
    apply wp_FetchPage_st h1 hrpg
    intro t2 h2
    simp only
    apply wp_bind_of
    apply wp_RLatch_st h2
    intro t3 h3
    apply wp_bind_of
    apply wp_unlockRoot_st h3
    intro t4 h4
    apply wp_bind_of
    have hfuel := hg.lvl_fuel hroot
    have hn1 : t1.next_page_id_ = v.next := view_next h1.1
    have := crabRead_spec hg key h false (t1.next_page_id_.toNat + 1) v.root t4
      h4 hrl
      (by
        constructor
        · intro a ha; rw [hrlo] at ha; cases ha
        · intro a ha; rw [hrhi] at ha; cases ha)
      (by rw [hn1]; omega)
    refine wp_mono this ?_
    intro leaf t5 ⟨h5, hl, hlv, hk⟩
    rw [wp_pure]
    exact Or.inr ⟨leaf, rfl, h5, hl, hlv, hk⟩

/-- Method `GetValue` returns exactly what is stored under the key, and leaves the tree,
the pins and the root lock as they were. -/
theorem GetValue_spec {G : Ghost} {E : Option Int} (key : KeyType) (s : TState)
    {v : TreeView} {h : Multiset Int} {b : Bool} (hs : St s v h b) (hg : Good v G E) :
    wp (GetValue key) (fun r t => St t v h false ∧ ∀ w, r = some w ↔ Stored v G key w) s := by
  unfold GetValue
  apply wp_bind_of
  refine wp_mono (LatchCrabbing_search_spec key s hs hg) ?_
  rintro r t1 hcase
  rcases hcase with ⟨hroot, rfl, h1⟩ | ⟨leaf, rfl, h1, hl, hlv, hk⟩
  · simp only
    apply wp_bind_of
    apply wp_unlockRootIf_st h1
    intro t2 h2
    rw [wp_pure]
    refine ⟨h2, ?_⟩
    intro w
    constructor
    · intro h; cases h
    · rintro ⟨p, _, hp, _⟩
      exact absurd hp (hg.root_none hroot p)
  · simp only
    obtain ⟨pg, hpg, hgood⟩ := hg.page leaf hl
    apply wp_bind_of
    apply wp_getPage_st h1 hpg
    apply wp_bind_of
    apply wp_RUnlatch_st h1
    intro t2 h2
    apply wp_bind_of
    rw [hgood.id]
    apply wp_UnpinPage_st h2
    intro t3 h3
    rw [wp_pure]
    refine ⟨h3, ?_⟩
    intro w
    rw [Stored_iff_leaf hg hl hlv hpg hk w]
    exact LookupLeaf_iff rfl (hgood.leaf_sorted hlv) key w

theorem child_ne_root {t : TreeView} {G : Ghost} {E : Option Int} (hg : Good t G E)
    {c p : Int} (hc : G.live c) (hp : G.live p) (hpar : G.par c = p) : c ≠ t.root := by
  obtain ⟨pg, _, hgood⟩ := hg.page c hc
  intro h
  have := hgood.root_iff.2 h
  rw [hpar] at this
  exact live_ne_invalid hg hp this

theorem PathQ_live {v : TreeView} {G : Ghost} {insert : Bool} :
    ∀ (queue : List Int) (node : Int), PathQ v G insert node queue → ∀ q ∈ queue, G.live q := by
  intro queue
  induction queue with
  | nil => intro _ _ q hq; cases hq
  | cons a rest ih =>
    intro node hp q hq
    obtain ⟨_, _, hl, _, hor⟩ := hp
    rcases List.mem_cons.1 hq with h | h
    · rw [h]; exact hl
    · rcases hor with ⟨_, hr⟩ | hr
      · rw [hr] at h; cases h
      · exact ih a hr q h

/-- The write descent of `LatchCrabbingToLeaf`: the pins held at the end are those of the
leaf and of the pages in the page set. -/
theorem crabWrite_spec {v : TreeView} {G : Ghost} {E : Option Int} (hg : Good v G E)
    (insert : Bool) (key : KeyType) (h : Multiset Int) :
    ∀ (fuel : Nat) (p : Int) (queue : List Int) (rl : Bool) (s : TState),
      St s v (p ::ₘ ((queue : Multiset Int) + h)) rl →
      G.live p → InRange G p key → G.lvl p < fuel → PathQ v G insert p queue →
      (rl = false → queue ≠ []) →
      wp (crabWrite insert key fuel p queue rl)
        (fun r t => St t v (r.1 ::ₘ ((r.2.1 : Multiset Int) + h)) r.2.2 ∧ G.live r.1 ∧
          G.lvl r.1 = 0 ∧ InRange G r.1 key ∧ PathQ v G insert r.1 r.2.1 ∧
          (r.2.2 = false → r.2.1 ≠ [])) s := by
  intro fuel
  induction fuel with
  | zero => intro p queue rl s _ _ _ hf; omega
  | succ fuel ih =>
    intro p queue rl s hs hp hk hf hq hrl
    obtain ⟨pg, hpg, hgood⟩ := hg.page p hp
    unfold crabWrite
    apply wp_bind_of
    apply wp_getPage_st hs hpg
    by_cases hleaf : pg.IsLeafPage = true
    · rw [if_pos hleaf, wp_pure]
      exact ⟨hs, hp, (isLeaf_iff hgood).1 hleaf, hk, hq, hrl⟩
    · rw [if_neg hleaf]
      have hl : G.lvl p ≠ 0 := fun h => hleaf ((isLeaf_iff hgood).2 h)
      obtain ⟨c, hlook, hcl, hclv, hcpar, hck⟩ := lookup_child hgood hl hk
      obtain ⟨cpg, hcpg, _⟩ := hg.page c hcl
      have hcr : c ≠ v.root := child_ne_root hg hcl hp hcpar
      simp only
      by_cases hsafe : (if insert = true then pg.IS_INSERT_SAFE else pg.IS_DELETE_SAFE) = true
      · rw [if_pos hsafe]
        apply wp_bind_of
        have hs1 : St s v ((queue : Multiset Int) + (p ::ₘ h)) rl := by
          rw [Multiset.add_cons]; exact hs
        apply wp_QueueWUnlatchUnpin_st queue hs1
        intro t1 h1
        apply wp_bind_of
        apply wp_unlockRootIf_st h1
        intro t2 h2
        apply wp_bind_of
        rw [wp_ofOption]
        refine ⟨c, hlook, ?_⟩
        apply wp_bind_of
        apply wp_FetchPage_st h2 hcpg
        intro t3 h3
        apply wp_bind_of
        apply wp_WLatch_st h3
        intro t4 h4
        refine ih c [p] false t4 (by simpa using h4) hcl hck (by omega) ?_ (by simp)
        exact ⟨hcr, hcpar, hp, by omega, Or.inl ⟨⟨pg, hpg, hsafe⟩, rfl⟩⟩
      · rw [if_neg hsafe]
        apply wp_bind_of
        rw [wp_ofOption]
        refine ⟨c, hlook, ?_⟩
        apply wp_bind_of
        apply wp_FetchPage_st hs hcpg
        intro t3 h3
        apply wp_bind_of
        apply wp_WLatch_st h3
        intro t4 h4
        refine ih c (p :: queue) rl t4 ?_ hcl hck (by omega) ?_ (by simp)
        · rw [← Multiset.cons_coe, Multiset.cons_add]; exact h4
        · exact ⟨hcr, hcpar, hp, by omega, Or.inr hq⟩

/-- The insert and delete instantiations of `LatchCrabbingToLeaf` on a non-empty tree. -/
theorem LatchCrabbing_write_spec {G : Ghost} {E : Option Int} (insert : Bool)
    (key : KeyType) (s : TState) {v : TreeView} {h : Multiset Int} {b : Bool}
    (hs : St s v h b) (hg : Good v G E) (hroot : v.root ≠ INVALID_PAGE_ID) :
    wp (LatchCrabbingToLeaf
        (if insert then OPERATION_TYPE.INSERT_TRAVEL else OPERATION_TYPE.DELETE_TRAVEL) key)
      (fun r t => ∃ leaf, r.1 = some leaf ∧
        St t v (leaf ::ₘ ((r.2.1 : Multiset Int) + h)) r.2.2 ∧ G.live leaf ∧ G.lvl leaf = 0 ∧
        InRange G leaf key ∧ PathQ v G insert leaf r.2.1 ∧ (r.2.2 = false → r.2.1 ≠ [])) s := by
  unfold LatchCrabbingToLeaf
  apply wp_bind_of
  apply wp_lockRoot_st hs
  intro t1 h1
  apply wp_bind_of
  rw [wp_get]
  have hr1 : t1.root_page_id_ = v.root := view_root h1.1
  have hn1 : t1.next_page_id_ = v.next := view_next h1.1
  rw [if_neg (by rw [hr1]; exact hroot)]
  obtain ⟨hrl, hrlo, hrhi⟩ := hg.root_live hroot
  obtain ⟨rpg, hrpg, _⟩ := hg.page _ hrl
  apply wp_bind_of
  rw [hr1]
  apply wp_FetchPage_st h1 hrpg
  intro t2 h2
  have hfuel := hg.lvl_fuel hroot
  have hrange : InRange G v.root key := by
    constructor
    · intro a ha; rw [hrlo] at ha; cases ha
    · intro a ha; rw [hrhi] at ha; cases ha
  cases insert with
  | true =>
    simp only [if_true]
    apply wp_bind_of
    apply wp_WLatch_st h2
    intro t3 h3
    apply wp_bind_of
    have := crabWrite_spec hg true key h (t1.next_page_id_.toNat + 1) v.root [] true
      t3 (by simpa using h3) hrl hrange (by rw [hn1]; omega) rfl (by simp)
    refine wp_mono this ?_
    intro r t4 ⟨h4, hl, hlv, hk, hq, hrq⟩
    rw [wp_pure]
    exact ⟨r.1, rfl, h4, hl, hlv, hk, hq, hrq⟩
  | false =>
    simp only [Bool.false_eq_true, if_false]
    apply wp_bind_of
    apply wp_WLatch_st h2
    intro t3 h3
    apply wp_bind_of
    have := crabWrite_spec hg false key h (t1.next_page_id_.toNat + 1) v.root [] true
      t3 (by simpa using h3) hrl hrange (by rw [hn1]; omega) rfl (by simp)
    refine wp_mono this ?_
    intro r t4 ⟨h4, hl, hlv, hk, hq, hrq⟩
    rw [wp_pure]
    exact ⟨r.1, rfl, h4, hl, hlv, hk, hq, hrq⟩

theorem GAgree.refl (G : Ghost) (x : Int) : GAgree G G x :=
  ⟨id, rfl, rfl, rfl, rfl⟩

/-- A page whose slots, type and forward link are kept stays good when the description
keeps its level and range, and is kept at its children and its successor; the parent
pointer may change, as long as the new parent lists the page. -/
theorem PageGood_frame {t u : TreeView} {G H : Ghost} {E F : Option Int} {p : Int}
    {pg qg : BPlusTreePage} (h : PageGood t G E p pg)
    (hid : qg.page_id_ = pg.page_id_) (hty : qg.page_type_ = pg.page_type_)
    (hmx : qg.max_size_ = pg.max_size_) (hnx : qg.next_page_id_ = pg.next_page_id_)
    (har : qg.array = pg.array)
    (hlmax : u.lmax = t.lmax) (himax : u.imax = t.imax)
    (hlvl : H.lvl p = G.lvl p) (hlo : H.lo p = G.lo p) (hhi : H.hi p = G.hi p)
    (hparent : qg.parent_page_id_ = H.par p)
    (hroot : H.par p = INVALID_PAGE_ID ↔ p = u.root)
    (hatt : H.par p ≠ INVALID_PAGE_ID →
      H.live (H.par p) ∧ H.lvl (H.par p) = H.lvl p + 1 ∧
        ∃ ppg, u.pages (H.par p) = some ppg ∧ p ∈ ppg.array.map Prod.snd)
    (hnext : G.lvl p = 0 → pg.next_page_id_ ≠ INVALID_PAGE_ID →
      H.live pg.next_page_id_ ∧ H.lvl pg.next_page_id_ = G.lvl pg.next_page_id_ ∧
        H.lo pg.next_page_id_ = G.lo pg.next_page_id_)
    (hchild : G.lvl p ≠ 0 → ∀ e ∈ pg.array, GAgree G H e.2)
    (hE : E = some p → F = some p) : PageGood u H F p qg := by
  refine
    { id := by rw [hid]; exact h.id
      parent := hparent
      root_iff := hroot
      attached := hatt
      range_ne := by rw [hlo, hhi]; exact h.range_ne
      leaf_type := ?_
      leaf_sorted := ?_
      leaf_range := ?_
      leaf_ne := ?_
      next_end := ?_
      next_ok := ?_
      int_type := ?_
      int_seg := ?_
      int_size := ?_ }
  · rw [hlvl, hlmax, hty, hmx]; exact h.leaf_type
  · rw [hlvl, har]; exact h.leaf_sorted
  · rw [hlvl, hlo, hhi, har]; exact h.leaf_range
  · rw [hlvl, har]
    intro hl hF
    exact h.leaf_ne hl (fun hEq => hF (hE hEq))
  · rw [hlvl, hhi, hnx]; exact h.next_end
  · rw [hlvl, hhi, hnx]
    intro hl hn
    obtain ⟨h1, h2, h3⟩ := hnext hl hn
    obtain ⟨_, h5, h6⟩ := h.next_ok hl hn
    exact ⟨h1, by rw [h2, h5], by rw [h3, h6]⟩
  · rw [hlvl, himax, hty, hmx]; exact h.int_type
  · rw [hlvl, hlo, hhi, har]
    intro hl
    exact Seg_congr hlvl (fun e he =>
      let a := hchild hl e he
      ⟨a.live, a.par, a.lvl, a.lo, a.hi⟩) (h.int_seg hl)
  · rw [hlvl, har]
    intro hl hF
    exact h.int_size hl (fun hEq => hF (hE hEq))

/-- Transfer of the invariant across a change that touches only the pages in `M`. -/
theorem Good_transfer {t u : TreeView} {G H : Ghost} {E F : Option Int} (hg : Good t G E)
    (M : Int → Prop)
    (hlmax : u.lmax = t.lmax) (himax : u.imax = t.imax) (hnn : t.next ≤ u.next)
    (hroot_none : u.root = INVALID_PAGE_ID → ∀ p, ¬ H.live p)
    (hroot_live : u.root ≠ INVALID_PAGE_ID →
      H.live u.root ∧ H.lo u.root = none ∧ H.hi u.root = none)
    (hrange : ∀ p, H.live p → 0 ≤ p ∧ p < u.next)
    (hlvl : ∀ p, H.live p → H.lvl p ≤ H.lvl u.root)
    (hfuel : u.root ≠ INVALID_PAGE_ID → (H.lvl u.root : Int) < u.next)
    (hlive : ∀ p, H.live p → ¬ M p → G.live p)
    (hsame : ∀ p, ¬ M p → u.pages p = t.pages p ∧ GAgree G H p)
    (hmod : ∀ p, M p → H.live p → ∃ pg, u.pages p = some pg ∧ PageGood u H F p pg)
    (hrootiff : ∀ p, ¬ M p → G.live p → (p = u.root ↔ p = t.root))
    (hchild : ∀ x, M x → G.live x → G.live (G.par x) → ¬ M (G.par x) → GAgree G H x)
    (hnext : ∀ p pg, ¬ M p → G.live p → G.lvl p = 0 → t.pages p = some pg →
      M pg.next_page_id_ → pg.next_page_id_ ≠ INVALID_PAGE_ID →
      H.live pg.next_page_id_ ∧ H.lvl pg.next_page_id_ = G.lvl pg.next_page_id_ ∧
        H.lo pg.next_page_id_ = G.lo pg.next_page_id_)
    (hparent : ∀ p, ¬ M p → G.live p → M (G.par p) → G.par p ≠ INVALID_PAGE_ID →
      H.live (G.par p) ∧ H.lvl (G.par p) = G.lvl (G.par p) ∧
        ∃ ppg, u.pages (G.par p) = some ppg ∧ p ∈ ppg.array.map Prod.snd)
    (hE : ∀ p, ¬ M p → E = some p → F = some p) : Good u H F := by
  refine
    { lmax_pos := by rw [hlmax]; exact hg.lmax_pos
      imax_ge := by rw [himax]; exact hg.imax_ge
      next_nonneg := le_trans hg.next_nonneg hnn
      root_none := hroot_none
      root_live := hroot_live
      live_range := hrange
      lvl_le := hlvl
      lvl_fuel := hfuel
      page := ?_ }
  intro p hp
  by_cases hM : M p
  · exact hmod p hM hp
  · have hpl := hlive p hp hM
    obtain ⟨pg, hpg, hgood⟩ := hg.page p hpl
    obtain ⟨hpage, hag⟩ := hsame p hM
    refine ⟨pg, by rw [hpage]; exact hpg, ?_⟩
    refine PageGood_frame hgood rfl rfl rfl rfl rfl hlmax himax hag.lvl hag.lo hag.hi
      (by rw [hag.par]; exact hgood.parent)
      (by rw [hag.par, hrootiff p hM hpl]; exact hgood.root_iff) ?_ ?_ ?_ (hE p hM)
    · rw [hag.par, hag.lvl]
      intro hne
      obtain ⟨h1, h2, ppg, h3, h4⟩ := hgood.attached hne
      by_cases hMp : M (G.par p)
      · obtain ⟨a1, a2, a3⟩ := hparent p hM hpl hMp hne
        exact ⟨a1, by rw [a2, h2], a3⟩
      · obtain ⟨b1, b2⟩ := hsame _ hMp
        exact ⟨b2.live h1, by rw [b2.lvl, h2], ppg, by rw [b1]; exact h3, h4⟩
    · intro hl hn
      by_cases hMn : M pg.next_page_id_
      · exact hnext p pg hM hpl hl hpg hMn hn
      · obtain ⟨_, b2⟩ := hsame _ hMn
        obtain ⟨c1, _, _⟩ := hgood.next_ok hl hn
        exact ⟨b2.live c1, b2.lvl, b2.lo⟩
    · intro hl e he
      have hc := Seg_child (hgood.int_seg hl) e he
      by_cases hMe : M e.2
      · exact hchild e.2 hMe hc.1 (by rw [hc.2.1]; exact hpl) (by rw [hc.2.1]; exact hM)
      · exact (hsame _ hMe).2

theorem mem_InsertLeaf {pg : BPlusTreePage} {key : KeyType} {value : ValueType}
    {e : KeyType × Int} :
    e ∈ (pg.InsertLeaf key value).array ↔ e = (key, value) ∨ e ∈ pg.array := by
  unfold BPlusTreePage.InsertLeaf
  simp only [List.mem_append, List.mem_cons]
  constructor
  · rintro (h | h | h)
    · exact Or.inr ((List.takeWhile_sublist _).subset h)
    · exact Or.inl h
    · exact Or.inr ((List.dropWhile_sublist _).subset h)
  · rintro (h | h)
    · exact Or.inr (Or.inl h)
    · have := List.takeWhile_append_dropWhile (fun e => decide (comparator_ e.1 key = -1)) pg.array
      rw [← this, List.mem_append] at h
      rcases h with h | h
      · exact Or.inl h
      · exact Or.inr (Or.inr h)

theorem sorted_insert (key : KeyType) (value : ValueType) :
    ∀ (arr : List (KeyType × Int)), (arr.map Prod.fst).Pairwise (fun a b => a < b) →
      (∀ e ∈ arr, e.1 ≠ key) →
      ((arr.takeWhile (fun e => comparator_ e.1 key = -1) ++
        (key, value) :: arr.dropWhile (fun e => comparator_ e.1 key = -1)).map
          Prod.fst).Pairwise (fun a b => a < b) := by
  intro arr
  induction arr with
  | nil => intro _ _; simp
  | cons a rest ih =>
    intro hs hne
    rw [List.map_cons, List.pairwise_cons] at hs
    have ih1 := ih hs.2 (fun e he => hne e (List.mem_cons_of_mem _ he))
    by_cases hc : comparator_ a.1 key = -1
    · rw [List.takeWhile_cons_of_pos (by simpa using hc),
        List.dropWhile_cons_of_pos (by simpa using hc)]
      rw [List.cons_append, List.map_cons, List.pairwise_cons]
      refine ⟨?_, ih1⟩
      intro b hb
      rw [List.map_append, List.map_cons, List.mem_append, List.mem_cons] at hb
      rcases hb with hb | hb | hb
      · obtain ⟨e, he, rfl⟩ := List.mem_map.1 hb
        exact hs.1 _ (List.mem_map.2 ⟨e, (List.takeWhile_sublist _).subset he, rfl⟩)
      · rw [hb]; exact comparator_lt.1 hc
      · obtain ⟨e, he, rfl⟩ := List.mem_map.1 hb
        exact hs.1 _ (List.mem_map.2 ⟨e, (List.dropWhile_sublist _).subset he, rfl⟩)
    · rw [List.takeWhile_cons_of_neg (by simpa using hc),
        List.dropWhile_cons_of_neg (by simpa using hc)]
      rw [List.nil_append, List.map_cons, List.pairwise_cons, List.map_cons,
        List.pairwise_cons]
      have hka : key < a.1 := by
        have h1 : ¬ a.1 < key := fun h => hc (comparator_lt.2 h)
        have h2 : a.1 ≠ key := hne a (List.mem_cons_self _ _)
        exact lt_of_le_of_ne (not_lt.1 h1) (Ne.symm h2)
      refine ⟨?_, hs.1, hs.2⟩
      intro b hb
      rw [List.mem_cons] at hb
      rcases hb with hb | hb
      · rw [hb]; exact hka
      · exact lt_trans hka (hs.1 b hb)

theorem lvl_par_ne {t : TreeView} {G : Ghost} {E : Option Int} {p : Int}
    {pg : BPlusTreePage} (h : PageGood t G E p pg) (hne : G.par p ≠ INVALID_PAGE_ID) :
    G.par p ≠ p := by
  intro heq
  have := (h.attached hne).2.1
  rw [heq] at this
  omega

/-- Placing a new pair in the leaf responsible for its key keeps the invariant. -/
theorem Good_InsertLeaf {v : TreeView} {G : Ghost} (hg : Good v G none) {L : Int}
    {pg : BPlusTreePage} {key : KeyType} (value : ValueType) (hL : G.live L)
    (h0 : G.lvl L = 0) (hpg : v.pages L = some pg) (hr : InRange G L key)
    (hnot : ∀ e ∈ pg.array, e.1 ≠ key) :
    Good (v.setPage L (pg.InsertLeaf key value)) G none := by
  obtain ⟨pg1, hpg1, hgood⟩ := hg.page L hL
  rw [hpg] at hpg1; cases hpg1
  have hroot := root_ne_of_live hg hL
  refine Good_transfer hg (fun p => p = L) rfl rfl (le_refl _) (fun h => absurd h hroot)
    (fun _ => hg.root_live hroot) hg.live_range hg.lvl_le hg.lvl_fuel (fun p hp _ => hp)
    ?_ ?_ (fun _ _ _ => Iff.rfl) (fun x _ _ _ _ => GAgree.refl G x) ?_ ?_ (fun _ _ h => h)
  · intro p hp
    exact ⟨by simp [TreeView.setPage, Function.update_noteq hp], GAgree.refl G p⟩
  · intro p hp _
    cases hp
    refine ⟨pg.InsertLeaf key value, by simp [TreeView.setPage], ?_⟩
    refine
      { id := hgood.id
        parent := hgood.parent
        root_iff := hgood.root_iff
        attached := ?_
        range_ne := hgood.range_ne
        leaf_type := hgood.leaf_type
        leaf_sorted := fun _ => sorted_insert key value pg.array (hgood.leaf_sorted h0) hnot
        leaf_range := ?_
        leaf_ne := ?_
        next_end := hgood.next_end
        next_ok := hgood.next_ok
        int_type := fun h => absurd h0 h
        int_seg := fun h => absurd h0 h
        int_size := fun h => absurd h0 h }
    · intro hne
      obtain ⟨h1, h2, ppg, h3, h4⟩ := hgood.attached hne
      refine ⟨h1, h2, ppg, ?_, h4⟩
      simp only [TreeView.setPage]
      rw [Function.update_noteq (lvl_par_ne hgood hne)]
      exact h3
    · intro _ e he
      rcases mem_InsertLeaf.1 he with h | h
      · rw [h]; exact hr
      · exact hgood.leaf_range h0 e h
    · intro _ _ h
      have : (key, value) ∈ (pg.InsertLeaf key value).array := mem_InsertLeaf.2 (Or.inl rfl)
      rw [h] at this
      cases this
  · intro p pg2 _ hp _ h2 _ hn
    obtain ⟨pg3, hpg3, hgood3⟩ := hg.page p hp
    rw [h2] at hpg3; cases hpg3
    obtain ⟨a, b, c⟩ := hgood3.next_ok (by assumption) hn
    exact ⟨a, rfl, rfl⟩
  · intro p hM hp hMp hne
    obtain ⟨pg3, hpg3, hgood3⟩ := hg.page p hp
    have := (hgood3.attached hne).2.1
    rw [hMp, h0] at this
    omega

/-- What is stored after a new pair is placed in a leaf. -/
theorem Stored_InsertLeaf {v : TreeView} {G : Ghost} {L : Int}
    {pg : BPlusTreePage} {key : KeyType} (value : ValueType) (hL : G.live L)
    (h0 : G.lvl L = 0) (hpg : v.pages L = some pg) (k : KeyType) (w : ValueType) :
    Stored (v.setPage L (pg.InsertLeaf key value)) G k w ↔
      (k = key ∧ w = value) ∨ Stored v G k w := by
  constructor
  · rintro ⟨p, qg, hp, hl, hq, hm⟩
    by_cases hpL : p = L
    · subst hpL
      simp only [TreeView.setPage, Function.update_same, Option.some.injEq] at hq
      subst hq
      rcases mem_InsertLeaf.1 hm with h | h
      · left; exact ⟨congrArg Prod.fst h, congrArg Prod.snd h⟩
      · right; exact ⟨p, pg, hp, hl, hpg, h⟩
    · simp only [TreeView.setPage, Function.update_noteq hpL] at hq
      right; exact ⟨p, qg, hp, hl, hq, hm⟩
  · rintro (⟨rfl, rfl⟩ | ⟨p, qg, hp, hl, hq, hm⟩)
    · exact ⟨L, pg.InsertLeaf k w, hL, h0, by simp [TreeView.setPage],
        mem_InsertLeaf.2 (Or.inl rfl)⟩
    · by_cases hpL : p = L
      · subst hpL
        rw [hpg] at hq; cases hq
        exact ⟨p, pg.InsertLeaf key value, hp, hl, by simp [TreeView.setPage],
          mem_InsertLeaf.2 (Or.inr hm)⟩
      · exact ⟨p, qg, hp, hl, by simp [TreeView.setPage, Function.update_noteq hpL, hq], hm⟩

theorem Good_startNew {v : TreeView} {G : Ghost} {E : Option Int} (hg : Good v G E)
    (key : KeyType) (value : ValueType) :
    Good (v.startNew key value) (Ghost.single v.next) none := by
  have hnn := hg.next_nonneg
  have hN : v.next ≠ INVALID_PAGE_ID := by
    intro h; rw [h] at hnn; exact absurd hnn (by decide)
  refine
    { lmax_pos := hg.lmax_pos
      imax_ge := hg.imax_ge
      next_nonneg := ?_
      root_none := fun h => absurd h hN
      root_live := fun _ => ⟨rfl, rfl, rfl⟩
      live_range := ?_
      lvl_le := fun _ _ => le_refl _
      lvl_fuel := ?_
      page := ?_ }
  · show (0 : Int) ≤ v.next + 1
    omega
  · intro p hp
    have hp1 : p = v.next := hp
    subst hp1
    exact ⟨hnn, lt_add_one _⟩
  · intro _
    show ((0 : Nat) : Int) < v.next + 1
    simp only [Nat.cast_zero]
    omega
  · intro p hp
    have hp1 : p = v.next := hp
    subst hp1
    refine ⟨(BPlusTreePage.zero.InitLeaf v.next INVALID_PAGE_ID v.lmax).InsertLeaf key value,
      by simp [TreeView.startNew, TreeView.setRoot, TreeView.setPage], ?_⟩
    refine
      { id := rfl
        parent := rfl
        root_iff := ⟨fun _ => rfl, fun _ => rfl⟩
        attached := fun h => absurd rfl h
        range_ne := fun a b h => by cases h
        leaf_type := fun _ => ⟨rfl, rfl⟩
        leaf_sorted := fun _ => by
          simp [BPlusTreePage.InsertLeaf, BPlusTreePage.InitLeaf]
        leaf_range := fun _ e _ => ⟨fun a h => (by cases h), fun a h => (by cases h)⟩
        leaf_ne := fun _ _ => by
          simp [BPlusTreePage.InsertLeaf, BPlusTreePage.InitLeaf]
        next_end := fun _ => ⟨fun _ => rfl, fun _ => rfl⟩
        next_ok := fun _ h => absurd rfl h
        int_type := fun h => absurd rfl h
        int_seg := fun h => absurd rfl h
        int_size := fun h => absurd rfl h }

theorem Stored_startNew (v : TreeView) (key : KeyType) (value : ValueType) (k : KeyType)
    (w : ValueType) :
    Stored (v.startNew key value) (Ghost.single v.next) k w ↔ (k = key ∧ w = value) := by
  constructor
  · rintro ⟨p, pg, hp, _, hpg, hm⟩
    have hp1 : p = v.next := hp
    subst hp1
    simp only [TreeView.startNew, TreeView.setRoot, TreeView.setPage, Function.update_same,
      Option.some.injEq] at hpg
    subst hpg
    simp only [BPlusTreePage.InsertLeaf, BPlusTreePage.InitLeaf, List.takeWhile_nil,
      List.dropWhile_nil, List.nil_append, List.mem_singleton, Prod.mk.injEq] at hm
    exact hm
  · rintro ⟨rfl, rfl⟩
    refine ⟨v.next,
      (BPlusTreePage.zero.InitLeaf v.next INVALID_PAGE_ID v.lmax).InsertLeaf k w, rfl, rfl,
      by simp [TreeView.startNew, TreeView.setRoot, TreeView.setPage], ?_⟩
    simp [BPlusTreePage.InsertLeaf, BPlusTreePage.InitLeaf]

/-- Method `StartNewTree` on an empty tree. -/
theorem StartNewTree_spec (key : KeyType) (value : ValueType) (s : TState)
    {v : TreeView} {h : Multiset Int} {b : Bool} (hs : St s v h b) (hn : v.next ∉ h)
    {Q : Unit → TState → Prop} (hq : ∀ t, St t (v.startNew key value) h b → Q () t) :
    wp (StartNewTree key value) Q s := by
  unfold StartNewTree
  apply wp_bind_of
  apply wp_NewPage_st hs hn
  intro t1 h1
  simp only
  apply wp_bind_of
  apply wp_get_st
  have hl : t1.leaf_max_size_ = v.lmax := (view_lmax h1.1 : t1.leaf_max_size_ = v.alloc.lmax)
  rw [hl]
  apply wp_bind_of
  apply wp_modifyPage_st h1 (g := BPlusTreePage.zero) (by simp [TreeView.alloc])
  intro t2 h2
  apply wp_bind_of
  apply wp_modifyPage_st h2 (by simp [TreeView.setPage]; rfl)
  intro t3 h3
  apply wp_bind_of
  apply wp_setRoot_st h3
  intro t4 h4
  apply wp_bind_of
  apply wp_UpdateRootPageId_st true h4
  intro t5 h5
  apply wp_bind_of
  apply wp_UnpinPage_st h5
  intro t6 h6
  rw [wp_pure]
  exact hq _ h6

/-- Transport of a segment to another description and another parent. -/
theorem Seg_map {G H : Ghost} {p q : Int} :
    ∀ (arr : List (KeyType × Int)) {l h : Option Int},
      (∀ f ∈ arr, ∀ a b, ChildAt G p f.2 a b → ChildAt H q f.2 a b) →
      Seg G p l arr h → Seg H q l arr h := by
  intro arr
  induction arr with
  | nil => intro l h _ hs; exact hs
  | cons e rest ih =>
    intro l h hc hs
    cases rest with
    | nil => exact hc e (List.mem_cons_self _ _) _ _ hs
    | cons e2 r =>
      exact ⟨hc e (List.mem_cons_self _ _) _ _ hs.1,
        ih (fun f hf => hc f (List.mem_cons_of_mem _ hf)) hs.2⟩

/-- A non-empty range holds a key. -/
theorem range_inhabited {l h : Option Int} (hb : bLt l h) : ∃ k, loLe l k ∧ ltHi k h := by
  cases l with
  | some a =>
    refine ⟨a, fun x hx => ?_, fun y hy => hb a y rfl hy⟩
    cases hx; exact le_refl _
  | none =>
    cases h with
    | some b =>
      refine ⟨b - 1, fun x hx => (by cases hx), fun y hy => ?_⟩
      cases hy
      exact sub_one_lt _
    | none => exact ⟨0, fun x hx => (by cases hx), fun y hy => (by cases hy)⟩

/-- The children of an internal page are pairwise distinct. -/
theorem Seg_nodup {G : Ghost} {p : Int} :
    ∀ (arr : List (KeyType × Int)) {l h : Option Int}, Seg G p l arr h →
      (arr.map Prod.snd).Nodup := by
  intro arr
  induction arr with
  | nil => intro l h hs; exact absurd hs (by simp [Seg])
  | cons e rest ih =>
    intro l h hs
    cases rest with
    | nil => simp
    | cons e2 r =>
      rw [List.map_cons, List.nodup_cons]
      refine ⟨?_, ih hs.2⟩
      intro hmem
      obtain ⟨f, hf, hfe⟩ := List.mem_map.1 hmem
      have hch := hs.1
      obtain ⟨k, hk1, hk2⟩ := range_inhabited hch.ne
      have hfc := Seg_child hs.2 f hf
      have h1 : loLe (G.lo f.2) k := by rw [hfe, hch.lo]; exact hk1
      have h2 := hfc.2.2.2.1 k h1 e2.1 rfl
      have h3 := hk2 e2.1 rfl
      exact absurd (lt_of_le_of_lt h2 h3) (lt_irrefl _)

theorem findIdx_of_nodup {α : Type} [DecidableEq α] :
    ∀ (xs : List α) (i : Nat) (c : α), xs.Nodup → xs[i]? = some c →
      xs.findIdx? (fun x => x = c) = some i := by
  intro xs
  induction xs with
  | nil => intro i c _ h; simp at h
  | cons x rest ih =>
    intro i c hn h
    rw [List.nodup_cons] at hn
    cases i with
    | zero =>
      simp only [List.getElem?_cons_zero, Option.some.injEq] at h
      subst h
      simp [List.findIdx?_cons]
    | succ j =>
      simp only [List.getElem?_cons_succ] at h
      have hne : x ≠ c := by
        intro hxc
        subst hxc
        exact hn.1 (List.getElem?_mem h)
      rw [List.findIdx?_cons]
      simp only [hne, decide_False, Bool.false_eq_true, if_false]
      rw [List.findIdx?_succ, ih j c hn.2 h]
      rfl

/-- On a page with distinct children, `ValueIndex` finds the slot of a child. -/
theorem ValueIndex_of_slot {G : Ghost} {p : Int} {pg : BPlusTreePage} {l h : Option Int}
    (hs : Seg G p l pg.array h) {i : Nat} {e : KeyType × Int} (he : pg.array[i]? = some e) :
    pg.ValueIndex e.2 = some i := by
  unfold BPlusTreePage.ValueIndex
  have hn := Seg_nodup pg.array hs
  have h1 : (pg.array.map Prod.snd)[i]? = some e.2 := by
    rw [List.getElem?_map, he]; rfl
  have := findIdx_of_nodup _ i e.2 hn h1
  rw [List.findIdx?_map] at this
  exact this

theorem slot_ne_of_nodup {G : Ghost} {p : Int} {arr : List (KeyType × Int)} {l h : Option Int}
    (hs : Seg G p l arr h) {i j : Nat} {e f : KeyType × Int} (he : arr[i]? = some e)
    (hf : arr[j]? = some f) (hij : j ≠ i) : f.2 ≠ e.2 := by
  have hn := Seg_nodup arr hs
  intro heq
  have h1 : (arr.map Prod.snd)[i]? = some e.2 := by rw [List.getElem?_map, he]; rfl
  have h2 : (arr.map Prod.snd)[j]? = some e.2 := by rw [List.getElem?_map, hf, ← heq]; rfl
  have hi : i < (arr.map Prod.snd).length := by
    rcases List.getElem?_eq_some_iff.1 h1 with ⟨h, _⟩; exact h
  have hj : j < (arr.map Prod.snd).length := by
    rcases List.getElem?_eq_some_iff.1 h2 with ⟨h, _⟩; exact h
  have e1 : (arr.map Prod.snd)[i] = e.2 := by
    rcases List.getElem?_eq_some_iff.1 h1 with ⟨_, h⟩; exact h
  have e2 : (arr.map Prod.snd)[j] = e.2 := by
    rcases List.getElem?_eq_some_iff.1 h2 with ⟨_, h⟩; exact h
  exact hij ((List.Nodup.getElem_inj_iff hn).1 (e2.trans e1.symm))

/-- A pair placed after slot `i` splits the range of the child of that slot. -/
theorem Seg_insertAfter {G H : Ghost} {p q : Int} (key : KeyType) (new : Int) :
    ∀ (arr : List (KeyType × Int)) {l h : Option Int} (i : Nat) (e : KeyType × Int),
      Seg G p l arr h → arr[i]? = some e →
      (∀ j f, arr[j]? = some f → j ≠ i → ∀ a b, ChildAt G p f.2 a b → ChildAt H q f.2 a b) →
      (∀ a b, ChildAt G p e.2 a b →
        ChildAt H q e.2 a (some key) ∧ ChildAt H q new (some key) b) →
      Seg H q l (arr.take (i + 1) ++ (key, new) :: arr.drop (i + 1)) h := by
  intro arr
  induction arr with
  | nil => intro l h i e _ he; simp at he
  | cons e0 rest ih =>
    intro l h i e hs he ho hold
    cases i with
    | zero =>
      simp only [List.getElem?_cons_zero, Option.some.injEq] at he
      subst he
      cases rest with
      | nil =>
        obtain ⟨h1, h2⟩ := hold _ _ hs
        exact ⟨h1, h2⟩
      | cons e2 r =>
        obtain ⟨h1, h2⟩ := hold _ _ hs.1
        refine ⟨h1, h2, ?_⟩
        refine Seg_map (e2 :: r) ?_ hs.2
        intro f hf a b hc
        obtain ⟨j, hj⟩ := List.getElem?_of_mem hf
        exact ho (j + 1) f (by simpa using hj) (by omega) a b hc
    | succ j =>
      simp only [List.getElem?_cons_succ] at he
      cases rest with
      | nil => simp at he
      | cons e2 r =>
        have ih1 := ih (l := some e2.1) (h := h) j e hs.2 he
          (fun k f hk hkj a b hc => ho (k + 1) f (by simpa using hk) (by omega) a b hc) hold
        simp only [List.take_succ_cons, List.drop_succ_cons, List.cons_append] at ih1 ⊢
        exact ⟨ho 0 e0 (by simp) (by omega) _ _ hs.1, ih1⟩

/-- A segment cut at slot `m`. -/
theorem Seg_take_drop {G : Ghost} {p : Int} {arr : List (KeyType × Int)} {l h : Option Int}
    (hs : Seg G p l arr h) {m : Nat} (hm : 0 < m) {e : KeyType × Int}
    (he : arr[m]? = some e) :
    Seg G p l (arr.take m) (some e.1) ∧ Seg G p (some e.1) (arr.drop m) h := by
  have hlen : m < arr.length := by
    rcases List.getElem?_eq_some_iff.1 he with ⟨h, _⟩; exact h
  have hd : arr.drop m = e :: arr.drop (m + 1) := by
    rw [List.drop_eq_getElem_cons hlen]
    congr 1
    rcases List.getElem?_eq_some_iff.1 he with ⟨_, h⟩; exact h
  have hsplit : arr = arr.take m ++ e :: arr.drop (m + 1) := by
    rw [← hd, List.take_append_drop]
  have hne : arr.take m ≠ [] := by
    intro h0
    have := congrArg List.length h0
    rw [List.length_take, List.length_nil] at this
    omega
  rw [hsplit] at hs
  rw [hd]
  exact (Seg_append _ _ _ hne).1 hs

theorem sorted_take_drop {arr : List (KeyType × Int)}
    (hs : (arr.map Prod.fst).Pairwise (fun a b => a < b)) (m : Nat) :
    ((arr.take m).map Prod.fst).Pairwise (fun a b => a < b) ∧
    ((arr.drop m).map Prod.fst).Pairwise (fun a b => a < b) ∧
    ∀ x ∈ arr.take m, ∀ y ∈ arr.drop m, x.1 < y.1 := by
  have h1 : arr.map Prod.fst = (arr.take m).map Prod.fst ++ (arr.drop m).map Prod.fst := by
    rw [← List.map_append, List.take_append_drop]
  rw [h1, List.pairwise_append] at hs
  refine ⟨hs.1, hs.2.1, ?_⟩
  intro x hx y hy
  exact hs.2.2 x.1 (List.mem_map.2 ⟨x, hx, rfl⟩) y.1 (List.mem_map.2 ⟨y, hy, rfl⟩)

theorem drop_eq_cons {α : Type} {arr : List α} {m : Nat} {e : α} (he : arr[m]? = some e) :
    arr.drop m = e :: arr.drop (m + 1) := by
  obtain ⟨hlen, hv⟩ := List.getElem?_eq_some_iff.1 he
  rw [List.drop_eq_getElem_cons hlen, hv]

/-- The lower half of a split leaf. -/
theorem leafLow_good {v u : TreeView} {G H : Ghost} {E : Option Int} {L N : Int}
    {pg qg : BPlusTreePage} {m : Nat} {e : KeyType × Int}
    (h : PageGood v G E L pg) (h0 : G.lvl L = 0) (hm : 0 < m) (he : pg.array[m]? = some e)
    (hid : qg.page_id_ = pg.page_id_) (hty : qg.page_type_ = pg.page_type_)
    (hmx : qg.max_size_ = pg.max_size_) (hnx : qg.next_page_id_ = N)
    (har : qg.array = pg.array.take m) (hlmax : u.lmax = v.lmax)
    (hlvl : H.lvl L = 0) (hlo : H.lo L = G.lo L) (hhi : H.hi L = some e.1)
    (hparent : qg.parent_page_id_ = H.par L)
    (hroot : H.par L = INVALID_PAGE_ID ↔ L = u.root)
    (hatt : H.par L ≠ INVALID_PAGE_ID →
      H.live (H.par L) ∧ H.lvl (H.par L) = H.lvl L + 1 ∧
        ∃ ppg, u.pages (H.par L) = some ppg ∧ L ∈ ppg.array.map Prod.snd)
    (hN : N ≠ INVALID_PAGE_ID) (hNl : H.live N) (hNlvl : H.lvl N = 0)
    (hNlo : H.lo N = some e.1) : PageGood u H none L qg := by
  obtain ⟨hlen, _⟩ := List.getElem?_eq_some_iff.1 he
  obtain ⟨hs1, _, hs3⟩ := sorted_take_drop (h.leaf_sorted h0) m
  have hed : e ∈ pg.array.drop m := by rw [drop_eq_cons he]; exact List.mem_cons_self _ _
  have hne : pg.array.take m ≠ [] := by
    intro h1
    have := congrArg List.length h1
    rw [List.length_take, List.length_nil] at this
    omega
  refine
    { id := by rw [hid]; exact h.id
      parent := hparent
      root_iff := hroot
      attached := hatt
      range_ne := ?_
      leaf_type := fun _ => by rw [hty, hmx, hlmax]; exact h.leaf_type h0
      leaf_sorted := fun _ => by rw [har]; exact hs1
      leaf_range := ?_
      leaf_ne := fun _ _ => by rw [har]; exact hne
      next_end := fun _ => by rw [hnx, hhi]; simp [hN]
      next_ok := fun _ _ => by rw [hnx, hhi]; exact ⟨hNl, hNlvl, hNlo⟩
      int_type := fun h1 => absurd hlvl h1
      int_seg := fun h1 => absurd hlvl h1
      int_size := fun h1 => absurd hlvl h1 }
  · rw [hlo, hhi]
    intro a b ha hb
    cases hb
    obtain ⟨x, hx⟩ := List.exists_mem_of_ne_nil _ hne
    have h1 := (h.leaf_range h0 x (List.mem_of_mem_take hx)).1 a ha
    exact lt_of_le_of_lt h1 (hs3 x hx e hed)
  · intro _ x hx
    rw [har] at hx
    rw [hlo, hhi]
    refine ⟨(h.leaf_range h0 x (List.mem_of_mem_take hx)).1, ?_⟩
    intro b hb
    cases hb
    exact hs3 x hx e hed

/-- The upper half of a split leaf, stored in the new page. -/
theorem leafHigh_good {v u : TreeView} {G H : Ghost} {E : Option Int} {L N : Int}
    {pg qg : BPlusTreePage} {m : Nat} {e : KeyType × Int}
    (h : PageGood v G E L pg) (h0 : G.lvl L = 0) (he : pg.array[m]? = some e)
    (hid : qg.page_id_ = N) (hty : qg.page_type_ = IndexPageType.LEAF_PAGE)
    (hmx : qg.max_size_ = u.lmax) (hnx : qg.next_page_id_ = pg.next_page_id_)
    (har : qg.array = pg.array.drop m)
    (hlvl : H.lvl N = 0) (hlo : H.lo N = some e.1) (hhi : H.hi N = G.hi L)
    (hparent : qg.parent_page_id_ = H.par N)
    (hroot : H.par N = INVALID_PAGE_ID ↔ N = u.root)
    (hatt : H.par N ≠ INVALID_PAGE_ID →
      H.live (H.par N) ∧ H.lvl (H.par N) = H.lvl N + 1 ∧
        ∃ ppg, u.pages (H.par N) = some ppg ∧ N ∈ ppg.array.map Prod.snd)
    (hnext : pg.next_page_id_ ≠ INVALID_PAGE_ID →
      (G.live pg.next_page_id_ → H.live pg.next_page_id_) ∧
      H.lvl pg.next_page_id_ = G.lvl pg.next_page_id_ ∧
      H.lo pg.next_page_id_ = G.lo pg.next_page_id_) : PageGood u H none N qg := by
  obtain ⟨_, hs2, _⟩ := sorted_take_drop (h.leaf_sorted h0) m
  have hd := drop_eq_cons he
  have hem : e ∈ pg.array := List.getElem?_mem he
  refine
    { id := hid
      parent := hparent
      root_iff := hroot
      attached := hatt
      range_ne := ?_
      leaf_type := fun _ => ⟨hty, hmx⟩
      leaf_sorted := fun _ => by rw [har]; exact hs2
      leaf_range := ?_
      leaf_ne := fun _ _ => by rw [har, hd]; exact List.cons_ne_nil _ _
      next_end := fun _ => by rw [hnx, hhi]; exact h.next_end h0
      next_ok := ?_
      int_type := fun h1 => absurd hlvl h1
      int_seg := fun h1 => absurd hlvl h1
      int_size := fun h1 => absurd hlvl h1 }
  · rw [hlo, hhi]
    intro a b ha hb
    cases ha
    exact (h.leaf_range h0 e hem).2 b hb
  · intro _ x hx
    rw [har] at hx
    rw [hlo, hhi]
    refine ⟨?_, (h.leaf_range h0 x (List.mem_of_mem_drop hx)).2⟩
    intro a ha
    cases ha
    rw [hd] at hx hs2
    rcases List.mem_cons.1 hx with h1 | h1
    · rw [h1]
    · rw [List.map_cons, List.pairwise_cons] at hs2
      exact le_of_lt (hs2.1 x.1 (List.mem_map.2 ⟨x, h1, rfl⟩))
  · intro _ hn
    rw [hnx] at hn ⊢
    obtain ⟨a1, a2, a3⟩ := h.next_ok h0 hn
    obtain ⟨b1, b2, b3⟩ := hnext hn
    exact ⟨b1 a1, by rw [b2, a2], by rw [b3, a3, hhi]⟩

/-- A root created over two pages. -/
theorem newRoot_good {u : TreeView} {H : Ghost} {R old new : Int} {key z : KeyType}
    {qg : BPlusTreePage}
    (hid : qg.page_id_ = R) (hty : qg.page_type_ = IndexPageType.INTERNAL_PAGE)
    (hmx : qg.max_size_ = u.imax) (hpar : qg.parent_page_id_ = INVALID_PAGE_ID)
    (har : qg.array = [(z, old), (key, new)])
    (hR : R = u.root) (hHpar : H.par R = INVALID_PAGE_ID)
    (hlo : H.lo R = none) (hhi : H.hi R = none)
    (hold : ChildAt H R old none (some key)) (hnew : ChildAt H R new (some key) none) :
    PageGood u H none R qg := by
  have hl : H.lvl R ≠ 0 := by
    have := hold.lvl
    omega
  refine
    { id := hid
      parent := by rw [hpar, hHpar]
      root_iff := ⟨fun _ => hR, fun _ => hHpar⟩
      attached := fun h => absurd hHpar h
      range_ne := by rw [hlo]; intro a b ha; cases ha
      leaf_type := fun h => absurd h hl
      leaf_sorted := fun h => absurd h hl
      leaf_range := fun h => absurd h hl
      leaf_ne := fun h => absurd h hl
      next_end := fun h => absurd h hl
      next_ok := fun h => absurd h hl
      int_type := fun _ => ⟨hty, hmx⟩
      int_seg := fun _ => by
        rw [har, hlo, hhi]
        exact ⟨hold, hnew⟩
      int_size := fun _ _ => by rw [har]; simp }

/-- The parent after the pair for a new sibling is placed behind slot `i`. -/
theorem parentInsert_good {v u : TreeView} {G H : Ghost} {E : Option Int} {P new : Int}
    {key : KeyType} {pg : BPlusTreePage} {i : Nat} {e : KeyType × Int}
    (h : PageGood v G E P pg) (hl : G.lvl P ≠ 0) (he : pg.array[i]? = some e)
    (hlimax : u.imax = v.imax)
    (hlvl : H.lvl P = G.lvl P) (hlo : H.lo P = G.lo P) (hhi : H.hi P = G.hi P)
    (hparent : H.par P = G.par P)
    (hroot : H.par P = INVALID_PAGE_ID ↔ P = u.root)
    (hatt : H.par P ≠ INVALID_PAGE_ID →
      H.live (H.par P) ∧ H.lvl (H.par P) = H.lvl P + 1 ∧
        ∃ ppg, u.pages (H.par P) = some ppg ∧ P ∈ ppg.array.map Prod.snd)
    (hothers : ∀ j f, pg.array[j]? = some f → j ≠ i →
      ∀ a b, ChildAt G P f.2 a b → ChildAt H P f.2 a b)
    (hold : ∀ a b, ChildAt G P e.2 a b →
      ChildAt H P e.2 a (some key) ∧ ChildAt H P new (some key) b) :
    PageGood u H none P (pg.InsertNodeAfterAt i key new) := by
  have hl2 : H.lvl P ≠ 0 := by rw [hlvl]; exact hl
  obtain ⟨hlen, _⟩ := List.getElem?_eq_some_iff.1 he
  refine
    { id := h.id
      parent := by rw [hparent]; exact h.parent
      root_iff := hroot
      attached := hatt
      range_ne := by rw [hlo, hhi]; exact h.range_ne
      leaf_type := fun h1 => absurd h1 hl2
      leaf_sorted := fun h1 => absurd h1 hl2
      leaf_range := fun h1 => absurd h1 hl2
      leaf_ne := fun h1 => absurd h1 hl2
      next_end := fun h1 => absurd h1 hl2
      next_ok := fun h1 => absurd h1 hl2
      int_type := fun _ => by rw [hlimax]; exact h.int_type hl
      int_seg := fun _ => by
        rw [hlo, hhi]
        exact Seg_insertAfter key new pg.array i e (h.int_seg hl) he hothers hold
      int_size := fun _ _ => by
        simp only [BPlusTreePage.InsertNodeAfterAt, List.length_append, List.length_take,
          List.length_cons, List.length_drop]
        omega }

theorem addSib_agree (G : Ghost) {old new : Int} (key : Int) {moved : List Int} {p : Int}
    (h1 : p ≠ new) (h2 : p ≠ old) (h3 : p ∉ moved) :
    GAgree G (G.addSib old new key moved) p :=
  { live := fun h => Or.inr h
    par := by simp [Ghost.addSib, h1, h3]
    lvl := by simp [Ghost.addSib, h1]
    lo := by simp [Ghost.addSib, h1]
    hi := by simp [Ghost.addSib, h1, h2] }

theorem addRoot_agree (G : Ghost) {r old new : Int} {p : Int}
    (h1 : p ≠ r) (h2 : p ≠ old) (h3 : p ≠ new) : GAgree G (G.addRoot r old new) p :=
  { live := fun h => Or.inr h
    par := by simp [Ghost.addRoot, h1, h2, h3]
    lvl := by simp [Ghost.addRoot, h1]
    lo := by simp [Ghost.addRoot, h1]
    hi := by simp [Ghost.addRoot, h1] }

theorem mem_insertNodeAfterAt {pg : BPlusTreePage} {i : Nat} {key : KeyType} {new c : Int}
    (h : c ∈ pg.array.map Prod.snd) :
    c ∈ (pg.InsertNodeAfterAt i key new).array.map Prod.snd := by
  obtain ⟨x, hx, rfl⟩ := List.mem_map.1 h
  refine List.mem_map.2 ⟨x, ?_, rfl⟩
  simp only [BPlusTreePage.InsertNodeAfterAt, List.mem_append, List.mem_cons]
  rw [← List.take_append_drop (i + 1) pg.array, List.mem_append] at hx
  rcases hx with h1 | h1
  · exact Or.inl h1
  · exact Or.inr (Or.inr h1)

theorem minSize_pos {pg : BPlusTreePage} (h : 1 ≤ pg.max_size_) : 0 < pg.GetMinSize := by
  unfold BPlusTreePage.GetMinSize
  omega

/-- Splitting a leaf that has a parent, and recording the new page in the parent, keeps
the invariant. -/
theorem Good_splitLeaf_parent {v : TreeView} {G : Ghost} (hg : Good v G none) {L : Int}
    {pg : BPlusTreePage} (hL : G.live L) (h0 : G.lvl L = 0) (hpg : v.pages L = some pg)
    {e : KeyType × Int} (he : pg.array[pg.GetMinSize]? = some e) (hr : L ≠ v.root)
    {ppg : BPlusTreePage} (hppg : v.pages (G.par L) = some ppg) {i : Nat}
    {f : KeyType × Int} (hi : ppg.array[i]? = some f) (hf : f.2 = L) :
    Good ((v.splitLeaf L pg).setPage (G.par L) (ppg.InsertNodeAfterAt i e.1 v.next))
      (G.addSib L v.next e.1 []) none ∧
    ∀ k w, Stored ((v.splitLeaf L pg).setPage (G.par L)
        (ppg.InsertNodeAfterAt i e.1 v.next)) (G.addSib L v.next e.1 []) k w ↔
      Stored v G k w := by
  obtain ⟨pg1, hpg1, hgood⟩ := hg.page L hL
  rw [hpg] at hpg1; cases hpg1
  obtain ⟨hPl, hPlvl, ppg1, hppg1, hPgood, _⟩ := parent_facts hg hL hr
  rw [hppg] at hppg1; cases hppg1
  have hroot := root_ne_of_live hg hL
  have hNnl : ¬ G.live v.next := fun h => absurd (hg.live_range _ h).2 (lt_irrefl _)
  have hLN : L ≠ v.next := fun h => hNnl (h ▸ hL)
  have hPN : G.par L ≠ v.next := fun h => hNnl (h ▸ hPl)
  have hPL : G.par L ≠ L := fun h => by rw [h] at hPlvl; omega
  have hrN : v.root ≠ v.next := fun h => hNnl (h ▸ (hg.root_live hroot).1)
  have hPl0 : G.lvl (G.par L) ≠ 0 := by omega
  have hm : 0 < pg.GetMinSize :=
    minSize_pos (by rw [(hgood.leaf_type h0).2]; exact hg.lmax_pos)
  have hne : ∀ p, G.live p → p ≠ v.next := fun p hp h => hNnl (h ▸ hp)
  have hNI : v.next ≠ INVALID_PAGE_ID := by
    intro h
    have := hg.next_nonneg
    rw [h] at this
    exact absurd this (by decide)
  -- the three pages touched
  have hPpage : ((v.splitLeaf L pg).setPage (G.par L)
      (ppg.InsertNodeAfterAt i e.1 v.next)).pages (G.par L) =
        some (ppg.InsertNodeAfterAt i e.1 v.next) := by
    simp [TreeView.setPage]
  have hLpage : ((v.splitLeaf L pg).setPage (G.par L)
      (ppg.InsertNodeAfterAt i e.1 v.next)).pages L = some (leafLow pg v.next) := by
    simp [TreeView.setPage, TreeView.splitLeaf, Function.update_noteq hPL.symm]
  have hNpage : ((v.splitLeaf L pg).setPage (G.par L)
      (ppg.InsertNodeAfterAt i e.1 v.next)).pages v.next =
        some (leafHigh pg v.next v.lmax) := by
    simp [TreeView.setPage, TreeView.splitLeaf, Function.update_noteq hPN.symm,
      Function.update_noteq hLN.symm]
  have hOpage : ∀ p, p ≠ L → p ≠ v.next → p ≠ G.par L →
      ((v.splitLeaf L pg).setPage (G.par L)
        (ppg.InsertNodeAfterAt i e.1 v.next)).pages p = v.pages p := by
    intro p h1 h2 h3
    simp [TreeView.setPage, TreeView.splitLeaf, Function.update_noteq h1,
      Function.update_noteq h2, Function.update_noteq h3]
  have hLgood : PageGood ((v.splitLeaf L pg).setPage (G.par L)
      (ppg.InsertNodeAfterAt i e.1 v.next)) (G.addSib L v.next e.1 []) none L
      (leafLow pg v.next) := by
    refine leafLow_good (N := v.next) hgood h0 hm he rfl rfl rfl rfl rfl rfl
      (by simp [Ghost.addSib, hLN, h0]) (by simp [Ghost.addSib, hLN])
      (by simp [Ghost.addSib, hLN])
      (by simp [Ghost.addSib, hLN, leafLow, BPlusTreePage.SetSize,
        BPlusTreePage.SetNextPageId]; exact hgood.parent)
      (by simp only [Ghost.addSib, hLN, if_false, List.not_mem_nil]; exact hgood.root_iff)
      ?_ hNI (Or.inl rfl) (by simp [Ghost.addSib, h0]) (by simp [Ghost.addSib])
    intro _
    simp only [Ghost.addSib, hLN, hPN, if_false, List.not_mem_nil]
    refine ⟨Or.inr hPl, by omega, _, hPpage, ?_⟩
    exact mem_insertNodeAfterAt (List.mem_map.2 ⟨f, List.getElem?_mem hi, hf⟩)
  have hNgood : PageGood ((v.splitLeaf L pg).setPage (G.par L)
      (ppg.InsertNodeAfterAt i e.1 v.next)) (G.addSib L v.next e.1 []) none v.next
      (leafHigh pg v.next v.lmax) := by
    refine leafHigh_good (N := v.next) hgood h0 he rfl rfl rfl rfl rfl
      (by simp [Ghost.addSib, h0]) (by simp [Ghost.addSib]) (by simp [Ghost.addSib])
      (by simp [Ghost.addSib, leafHigh, BPlusTreePage.InitLeaf,
        BPlusTreePage.SetNextPageId]; exact hgood.parent) ?_ ?_ ?_
    · simp only [Ghost.addSib, if_true]
      constructor
      · intro h
        exact absurd (hgood.root_iff.1 h) hr
      · intro h
        exact absurd h.symm hrN
    · intro _
      simp only [Ghost.addSib, hPN, if_true, if_false]
      refine ⟨Or.inr hPl, by omega, _, hPpage, ?_⟩
      simp [BPlusTreePage.InsertNodeAfterAt]
    · intro hn
      obtain ⟨a1, _, _⟩ := hgood.next_ok h0 hn
      have := hne _ a1
      exact ⟨fun h => Or.inr h, by simp [Ghost.addSib, this], by simp [Ghost.addSib, this]⟩
  have hPgood2 : PageGood ((v.splitLeaf L pg).setPage (G.par L)
      (ppg.InsertNodeAfterAt i e.1 v.next)) (G.addSib L v.next e.1 []) none (G.par L)
      (ppg.InsertNodeAfterAt i e.1 v.next) := by
    refine parentInsert_good hPgood hPl0 hi rfl (by simp [Ghost.addSib, hPN])
      (by simp [Ghost.addSib, hPN]) (by simp [Ghost.addSib, hPN, hPL])
      (by simp [Ghost.addSib, hPN])
      (by simp only [Ghost.addSib, hPN, if_false, List.not_mem_nil]; exact hPgood.root_iff)
      ?_ ?_ ?_
    · simp only [Ghost.addSib, hPN, if_false, List.not_mem_nil]
      intro hne2
      obtain ⟨b1, b2, gpg, b3, b4⟩ := hPgood.attached hne2
      have c1 : G.par (G.par L) ≠ v.next := hne _ b1
      have c2 : G.par (G.par L) ≠ L := fun h => by rw [h] at b2; omega
      have c3 : G.par (G.par L) ≠ G.par L := lvl_par_ne hPgood hne2
      simp only [c1, if_false]
      exact ⟨Or.inr b1, b2, gpg, by rw [hOpage _ c2 c1 c3]; exact b3, b4⟩
    · intro j x hx hj a b hc
      have hxL : x.2 ≠ L := by
        rw [← hf]
        exact slot_ne_of_nodup (hPgood.int_seg hPl0) hi hx hj
      have hxN : x.2 ≠ v.next := hne _ hc.live
      have ag := addSib_agree G e.1 hxN hxL (List.not_mem_nil _)
      exact ⟨ag.live hc.live, by rw [ag.par]; exact hc.par,
        by rw [ag.lvl]; simp only [Ghost.addSib, hPN, if_false]; exact hc.lvl,
        by rw [ag.lo]; exact hc.lo, by rw [ag.hi]; exact hc.hi, hc.ne⟩
    · intro a b hc
      rw [hf] at hc ⊢
      have r1 := hLgood.range_ne
      have r2 := hNgood.range_ne
      simp only [Ghost.addSib, hLN, if_true, if_false] at r1 r2
      constructor
      · exact ⟨Or.inr hL, by simp [Ghost.addSib, hLN], by
          simp only [Ghost.addSib, hLN, hPN, if_false]; exact hc.lvl,
          by simp only [Ghost.addSib, hLN, if_false]; exact hc.lo,
          by simp [Ghost.addSib, hLN], by rw [← hc.lo]; exact r1⟩
      · exact ⟨Or.inl rfl, by simp [Ghost.addSib], by
          simp only [Ghost.addSib, hPN, if_true, if_false]; exact hc.lvl,
          by simp [Ghost.addSib], by simp only [Ghost.addSib, if_true]; exact hc.hi,
          by rw [← hc.hi]; exact r2⟩
  refine ⟨?_, ?_⟩
  · refine Good_transfer hg (fun p => p = L ∨ p = v.next ∨ p = G.par L) rfl rfl
      (le_of_lt (lt_add_one _)) (fun h => absurd h hroot) ?_ ?_ ?_ ?_ ?_ ?_ ?_
      (fun _ _ _ => Iff.rfl) ?_ ?_ ?_ (fun _ _ h => h)
    · intro _
      obtain ⟨a1, a2, a3⟩ := hg.root_live hroot
      exact ⟨Or.inr a1, by simp [Ghost.addSib, TreeView.splitLeaf, TreeView.setPage, hrN, a2],
        by
          have : v.root ≠ L := fun h => hr h.symm
          simp [Ghost.addSib, TreeView.splitLeaf, TreeView.setPage, hrN, this, a3]⟩
    · intro p hp
      show 0 ≤ p ∧ p < v.next + 1
      rcases hp with hp | hp
      · rw [hp]; exact ⟨hg.next_nonneg, lt_add_one _⟩
      · exact ⟨(hg.live_range p hp).1, lt_trans (hg.live_range p hp).2 (lt_add_one _)⟩
    · intro p hp
      show (G.addSib L v.next e.1 []).lvl p ≤ (G.addSib L v.next e.1 []).lvl v.root
      simp only [Ghost.addSib, hrN, if_false]
      rcases hp with hp | hp
      · simp only [hp, if_true]; exact hg.lvl_le L hL
      · simp only [hne p hp, if_false]; exact hg.lvl_le p hp
    · intro _
      show (((G.addSib L v.next e.1 []).lvl v.root : Nat) : Int) < v.next + 1
      simp only [Ghost.addSib, hrN, if_false]
      exact lt_trans (hg.lvl_fuel hroot) (lt_add_one _)
    · intro p hp hM
      rcases hp with hp | hp
      · exact absurd (Or.inr (Or.inl hp)) hM
      · exact hp
    · intro p hM
      have h1 : p ≠ L := fun h => hM (Or.inl h)
      have h2 : p ≠ v.next := fun h => hM (Or.inr (Or.inl h))
      have h3 : p ≠ G.par L := fun h => hM (Or.inr (Or.inr h))
      exact ⟨hOpage p h1 h2 h3, addSib_agree G e.1 h2 h1 (List.not_mem_nil _)⟩
    · intro p hM _
      rcases hM with h | h | h
      · rw [h]; exact ⟨_, hLpage, hLgood⟩
      · rw [h]; exact ⟨_, hNpage, hNgood⟩
      · rw [h]; exact ⟨_, hPpage, hPgood2⟩
    · intro x hM hx _ hMp
      rcases hM with h | h | h
      · exact absurd (Or.inr (Or.inr (by rw [h]))) hMp
      · exact absurd (h ▸ hx) hNnl
      · rw [h]; exact addSib_agree G e.1 hPN hPL (List.not_mem_nil _)
    · intro p qg _ hp hl hq _ hn
      obtain ⟨qg1, hq1, hqgood⟩ := hg.page p hp
      rw [hq] at hq1; cases hq1
      obtain ⟨a1, _, _⟩ := hqgood.next_ok hl hn
      have := hne _ a1
      exact ⟨Or.inr a1, by simp [Ghost.addSib, this], by simp [Ghost.addSib, this]⟩
    · intro p hM hp hMp hpn
      obtain ⟨qg, hq, hqgood⟩ := hg.page p hp
      obtain ⟨a1, a2, gpg, a3, a4⟩ := hqgood.attached hpn
      rcases hMp with h | h | h
      · rw [h] at a2; omega
      · exact absurd (h ▸ a1) hNnl
      · rw [h] at a3 ⊢
        rw [hppg] at a3; cases a3
        exact ⟨Or.inr hPl, by simp [Ghost.addSib, hPN], _, hPpage, mem_insertNodeAfterAt a4⟩

  · intro k w
    constructor
    · rintro ⟨p, qg, hp, hlv, hq, hmem⟩
      by_cases h2 : p = v.next
      · rw [h2, hNpage] at hq
        cases hq
        exact ⟨L, pg, hL, h0, hpg, List.mem_of_mem_drop hmem⟩
      · by_cases h1 : p = L
        · rw [h1, hLpage] at hq
          cases hq
          exact ⟨L, pg, hL, h0, hpg, List.mem_of_mem_take hmem⟩
        · have hlv2 : G.lvl p = 0 := by
            simp only [Ghost.addSib, h2, if_false] at hlv
            exact hlv
          have h3 : p ≠ G.par L := fun h => by rw [h] at hlv2; omega
          rw [hOpage p h1 h2 h3] at hq
          rcases hp with hp | hp
          · exact absurd hp h2
          · exact ⟨p, qg, hp, hlv2, hq, hmem⟩
    · rintro ⟨q, qg, hq1, hq2, hq3, hmem⟩
      by_cases h1 : q = L
      · rw [h1, hpg] at hq3
        cases hq3
        rw [← List.take_append_drop pg.GetMinSize pg.array, List.mem_append] at hmem
        rcases hmem with hmem | hmem
        · exact ⟨L, _, Or.inr hL, by simp [Ghost.addSib, hLN, h0], hLpage, hmem⟩
        · exact ⟨v.next, _, Or.inl rfl, by simp [Ghost.addSib, h0], hNpage, hmem⟩
      · have h2 : q ≠ v.next := hne q hq1
        have h3 : q ≠ G.par L := fun h => by rw [h] at hq2; omega
        exact ⟨q, qg, Or.inr hq1, by simp [Ghost.addSib, h2, hq2],
          by rw [hOpage q h1 h2 h3]; exact hq3, hmem⟩

/-- Splitting a leaf that is the root, and creating the new root, keeps the invariant. -/
theorem Good_splitLeaf_root {v : TreeView} {G : Ghost} (hg : Good v G none) {L : Int}
    {pg : BPlusTreePage} (hL : G.live L) (h0 : G.lvl L = 0) (hpg : v.pages L = some pg)
    {e : KeyType × Int} (he : pg.array[pg.GetMinSize]? = some e) (hr : L = v.root) :
    Good ((v.splitLeaf L pg).newRoot L e.1 v.next (leafLow pg v.next)
        (leafHigh pg v.next v.lmax))
      ((G.addSib L v.next e.1 []).addRoot (v.next + 1) L v.next) none ∧
    ∀ k w, Stored ((v.splitLeaf L pg).newRoot L e.1 v.next (leafLow pg v.next)
        (leafHigh pg v.next v.lmax))
      ((G.addSib L v.next e.1 []).addRoot (v.next + 1) L v.next) k w ↔ Stored v G k w := by
  obtain ⟨pg1, hpg1, hgood⟩ := hg.page L hL
  rw [hpg] at hpg1; cases hpg1
  have hroot := root_ne_of_live hg hL
  obtain ⟨_, hrlo, hrhi⟩ := hg.root_live hroot
  rw [← hr] at hrlo hrhi
  have hNnl : ¬ G.live v.next := fun h => absurd (hg.live_range _ h).2 (lt_irrefl _)
  have hRnl : ¬ G.live (v.next + 1) := fun h => by
    have := (hg.live_range _ h).2
    exact absurd (lt_trans (lt_add_one _) this) (lt_irrefl _)
  have hLN : L ≠ v.next := fun h => hNnl (h ▸ hL)
  have hLR : L ≠ v.next + 1 := fun h => hRnl (h ▸ hL)
  have hNR : v.next ≠ v.next + 1 := fun h => absurd (lt_add_one v.next) (by rw [← h]; exact lt_irrefl _)
  have hm : 0 < pg.GetMinSize :=
    minSize_pos (by rw [(hgood.leaf_type h0).2]; exact hg.lmax_pos)
  have hne : ∀ p, G.live p → p ≠ v.next := fun p hp h => hNnl (h ▸ hp)
  have hneR : ∀ p, G.live p → p ≠ v.next + 1 := fun p hp h => hRnl (h ▸ hp)
  have hnn := hg.next_nonneg
  have hNI : v.next ≠ INVALID_PAGE_ID := by
    intro h; rw [h] at hnn; exact absurd hnn (by decide)
  have hRI : v.next + 1 ≠ INVALID_PAGE_ID := by
    intro h
    have h1 : (0 : Int) ≤ v.next + 1 := le_trans hnn (le_of_lt (lt_add_one _))
    rw [h] at h1; exact absurd h1 (by decide)
  have hlowid : (leafLow pg v.next).page_id_ = L := hgood.id
  have hRpage : ((v.splitLeaf L pg).newRoot L e.1 v.next (leafLow pg v.next)
      (leafHigh pg v.next v.lmax)).pages (v.next + 1) =
        some (rootPage (v.next + 1) v.imax L e.1 v.next) := by
    simp only [TreeView.newRoot, TreeView.splitLeaf]
    rw [Function.update_noteq hNR.symm, Function.update_noteq hLR.symm, Function.update_same,
      hlowid]
    rfl
  have hLpage : ((v.splitLeaf L pg).newRoot L e.1 v.next (leafLow pg v.next)
      (leafHigh pg v.next v.lmax)).pages L =
        some ((leafLow pg v.next).SetParentPageId (v.next + 1)) := by
    simp only [TreeView.newRoot, TreeView.splitLeaf]
    rw [Function.update_noteq hLN, Function.update_same]
  have hNpage : ((v.splitLeaf L pg).newRoot L e.1 v.next (leafLow pg v.next)
      (leafHigh pg v.next v.lmax)).pages v.next =
        some ((leafHigh pg v.next v.lmax).SetParentPageId (v.next + 1)) := by
    simp only [TreeView.newRoot, TreeView.splitLeaf]
    rw [Function.update_same]
  have hOpage : ∀ p, p ≠ L → p ≠ v.next → p ≠ v.next + 1 →
      ((v.splitLeaf L pg).newRoot L e.1 v.next (leafLow pg v.next)
        (leafHigh pg v.next v.lmax)).pages p = v.pages p := by
    intro p h1 h2 h3
    simp only [TreeView.newRoot, TreeView.splitLeaf]
    rw [Function.update_noteq h2, Function.update_noteq h1, Function.update_noteq h3,
      Function.update_noteq h1, Function.update_noteq h2]
  have hLgood : PageGood ((v.splitLeaf L pg).newRoot L e.1 v.next (leafLow pg v.next)
      (leafHigh pg v.next v.lmax))
      ((G.addSib L v.next e.1 []).addRoot (v.next + 1) L v.next) none L
      ((leafLow pg v.next).SetParentPageId (v.next + 1)) := by
    refine leafLow_good (N := v.next) hgood h0 hm he rfl rfl rfl rfl rfl rfl
      (by simp [Ghost.addRoot, Ghost.addSib, hLN, hLR, h0])
      (by simp [Ghost.addRoot, Ghost.addSib, hLN, hLR])
      (by simp [Ghost.addRoot, Ghost.addSib, hLN, hLR])
      (by simp [Ghost.addRoot, hLR, BPlusTreePage.SetParentPageId]) ?_ ?_ hNI
      (Or.inr (Or.inl rfl)) (by simp [Ghost.addRoot, Ghost.addSib, hNR, h0])
      (by simp [Ghost.addRoot, Ghost.addSib, hNR])
    · simp only [Ghost.addRoot, hLR, if_false, true_or, if_true]
      exact ⟨fun h => absurd h hRI, fun h => absurd h hLR⟩
    · intro _
      have hp : ((G.addSib L v.next e.1 []).addRoot (v.next + 1) L v.next).par L =
          v.next + 1 := by simp [Ghost.addRoot, hLR]
      rw [hp]
      refine ⟨Or.inl rfl, by simp [Ghost.addRoot, Ghost.addSib, hLR, hLN], _, hRpage, ?_⟩
      simp [rootPage, BPlusTreePage.PopulateNewRoot]
  have hNgood : PageGood ((v.splitLeaf L pg).newRoot L e.1 v.next (leafLow pg v.next)
      (leafHigh pg v.next v.lmax))
      ((G.addSib L v.next e.1 []).addRoot (v.next + 1) L v.next) none v.next
      ((leafHigh pg v.next v.lmax).SetParentPageId (v.next + 1)) := by
    refine leafHigh_good (N := v.next) hgood h0 he rfl rfl rfl rfl rfl
      (by simp [Ghost.addRoot, Ghost.addSib, hNR, h0])
      (by simp [Ghost.addRoot, Ghost.addSib, hNR])
      (by simp [Ghost.addRoot, Ghost.addSib, hNR])
      (by simp [Ghost.addRoot, hNR, BPlusTreePage.SetParentPageId]) ?_ ?_ ?_
    · simp only [Ghost.addRoot, hNR, if_false, or_true, if_true]
      exact ⟨fun h => absurd h hRI, fun h => absurd h hNR⟩
    · intro _
      have hp : ((G.addSib L v.next e.1 []).addRoot (v.next + 1) L v.next).par v.next =
          v.next + 1 := by simp [Ghost.addRoot, hNR]
      rw [hp]
      refine ⟨Or.inl rfl, by simp [Ghost.addRoot, Ghost.addSib, hNR], _, hRpage, ?_⟩
      simp [rootPage, BPlusTreePage.PopulateNewRoot]
    · intro hn
      obtain ⟨a1, _, _⟩ := hgood.next_ok h0 hn
      have b1 := hne _ a1
      have b2 := hneR _ a1
      exact ⟨fun h => Or.inr (Or.inr h), by simp [Ghost.addRoot, Ghost.addSib, b1, b2],
        by simp [Ghost.addRoot, Ghost.addSib, b1, b2]⟩
  have hRgood : PageGood ((v.splitLeaf L pg).newRoot L e.1 v.next (leafLow pg v.next)
      (leafHigh pg v.next v.lmax))
      ((G.addSib L v.next e.1 []).addRoot (v.next + 1) L v.next) none (v.next + 1)
      (rootPage (v.next + 1) v.imax L e.1 v.next) := by
    refine newRoot_good (z := 0) rfl rfl rfl rfl rfl rfl (by simp [Ghost.addRoot])
      (by simp [Ghost.addRoot]) (by simp [Ghost.addRoot]) ?_ ?_
    · exact ⟨Or.inr (Or.inr hL), by simp [Ghost.addRoot, hLR],
        by simp [Ghost.addRoot, Ghost.addSib, hLR, hLN],
        by simp [Ghost.addRoot, Ghost.addSib, hLR, hLN, hrlo],
        by simp [Ghost.addRoot, Ghost.addSib, hLR, hLN], fun a b ha => by cases ha⟩
    · exact ⟨Or.inr (Or.inl rfl), by simp [Ghost.addRoot, hNR],
        by simp [Ghost.addRoot, Ghost.addSib, hNR],
        by simp [Ghost.addRoot, Ghost.addSib, hNR],
        by simp [Ghost.addRoot, Ghost.addSib, hNR, hrhi], fun a b _ hb => by cases hb⟩
  refine ⟨?_, ?_⟩
  · refine Good_transfer hg (fun p => p = L ∨ p = v.next ∨ p = v.next + 1) rfl rfl ?_
      (fun h => absurd h hRI) ?_ ?_ ?_ ?_ ?_ ?_ ?_ ?_ ?_ ?_ ?_ (fun _ _ h => h)
    · show v.next ≤ v.next + 1 + 1
      omega
    · intro _
      exact ⟨Or.inl rfl, by simp [Ghost.addRoot, TreeView.newRoot, TreeView.splitLeaf],
        by simp [Ghost.addRoot, TreeView.newRoot, TreeView.splitLeaf]⟩
    · intro p hp
      show 0 ≤ p ∧ p < v.next + 1 + 1
      rcases hp with hp | hp | hp
      · rw [hp]; constructor <;> omega
      · rw [hp]; constructor <;> omega
      · have := hg.live_range p hp
        constructor
        · exact this.1
        · have := this.2; omega
    · intro p hp
      show ((G.addSib L v.next e.1 []).addRoot (v.next + 1) L v.next).lvl p ≤
        ((G.addSib L v.next e.1 []).addRoot (v.next + 1) L v.next).lvl (v.next + 1)
      simp only [Ghost.addRoot, Ghost.addSib, if_true, hLN, if_false]
      rcases hp with hp | hp | hp
      · simp [hp]
      · simp [hp, hNR, h0]
      · have := hg.lvl_le p hp
        rw [← hr, h0] at this
        simp only [hneR p hp, hne p hp, if_false, h0]
        omega
    · intro _
      show ((((G.addSib L v.next e.1 []).addRoot (v.next + 1) L v.next).lvl (v.next + 1) : Nat)
        : Int) < v.next + 1 + 1
      simp only [Ghost.addRoot, Ghost.addSib, if_true, hLN, if_false, h0]
      simp only [zero_add, Nat.cast_one]
      omega
    · intro p hp hM
      rcases hp with hp | hp | hp
      · exact absurd (Or.inr (Or.inr hp)) hM
      · exact absurd (Or.inr (Or.inl hp)) hM
      · exact hp
    · intro p hM
      have h1 : p ≠ L := fun h => hM (Or.inl h)
      have h2 : p ≠ v.next := fun h => hM (Or.inr (Or.inl h))
      have h3 : p ≠ v.next + 1 := fun h => hM (Or.inr (Or.inr h))
      refine ⟨hOpage p h1 h2 h3, ?_⟩
      have a1 := addSib_agree G e.1 h2 h1 (List.not_mem_nil _)
      have a2 := addRoot_agree (G.addSib L v.next e.1 []) h3 h1 h2
      exact ⟨fun h => a2.live (a1.live h), a2.par.trans a1.par, a2.lvl.trans a1.lvl,
        a2.lo.trans a1.lo, a2.hi.trans a1.hi⟩
    · intro p hM _
      rcases hM with h | h | h
      · rw [h]; exact ⟨_, hLpage, hLgood⟩
      · rw [h]; exact ⟨_, hNpage, hNgood⟩
      · rw [h]; exact ⟨_, hRpage, hRgood⟩
    · intro p hM hp
      have h1 : p ≠ L := fun h => hM (Or.inl h)
      have h3 : p ≠ v.next + 1 := fun h => hM (Or.inr (Or.inr h))
      show p = v.next + 1 ↔ p = v.root
      rw [← hr]
      exact ⟨fun h => absurd h h3, fun h => absurd h h1⟩
    · intro x hM hx hpx _
      rcases hM with h | h | h
      · rw [h, hgood.root_iff.2 hr] at hpx
        exact absurd rfl (live_ne_invalid hg hpx)
      · exact absurd (h ▸ hx) hNnl
      · exact absurd (h ▸ hx) hRnl
    · intro p qg _ hp hl hq _ hn
      obtain ⟨qg1, hq1, hqgood⟩ := hg.page p hp
      rw [hq] at hq1; cases hq1
      obtain ⟨a1, _, _⟩ := hqgood.next_ok hl hn
      have b1 := hne _ a1
      have b2 := hneR _ a1
      exact ⟨Or.inr (Or.inr a1), by simp [Ghost.addRoot, Ghost.addSib, b1, b2],
        by simp [Ghost.addRoot, Ghost.addSib, b1, b2]⟩
    · intro p hM hp hMp hpn
      obtain ⟨qg, hq, hqgood⟩ := hg.page p hp
      obtain ⟨a1, a2, gpg, a3, a4⟩ := hqgood.attached hpn
      rcases hMp with h | h | h
      · rw [h] at a2; omega
      · exact absurd (h ▸ a1) hNnl
      · exact absurd (h ▸ a1) hRnl

  · intro k w
    constructor
    · rintro ⟨p, qg, hp, hlv, hq, hmem⟩
      by_cases h3 : p = v.next + 1
      · rw [h3] at hlv
        simp [Ghost.addRoot] at hlv
      · by_cases h2 : p = v.next
        · rw [h2, hNpage] at hq
          cases hq
          exact ⟨L, pg, hL, h0, hpg, List.mem_of_mem_drop hmem⟩
        · by_cases h1 : p = L
          · rw [h1, hLpage] at hq
            cases hq
            exact ⟨L, pg, hL, h0, hpg, List.mem_of_mem_take hmem⟩
          · have hlv2 : G.lvl p = 0 := by
              simp only [Ghost.addRoot, Ghost.addSib, h2, h3, if_false] at hlv
              exact hlv
            rw [hOpage p h1 h2 h3] at hq
            rcases hp with hp | hp | hp
            · exact absurd hp h3
            · exact absurd hp h2
            · exact ⟨p, qg, hp, hlv2, hq, hmem⟩
    · rintro ⟨q, qg, hq1, hq2, hq3, hmem⟩
      by_cases h1 : q = L
      · rw [h1, hpg] at hq3
        cases hq3
        rw [← List.take_append_drop pg.GetMinSize pg.array, List.mem_append] at hmem
        rcases hmem with hmem | hmem
        · exact ⟨L, _, Or.inr (Or.inr hL), by simp [Ghost.addRoot, Ghost.addSib, hLN, hLR, h0],
            hLpage, hmem⟩
        · exact ⟨v.next, _, Or.inr (Or.inl rfl), by simp [Ghost.addRoot, Ghost.addSib, hNR, h0],
            hNpage, hmem⟩
      · have h2 : q ≠ v.next := hne q hq1
        have h3 : q ≠ v.next + 1 := hneR q hq1
        exact ⟨q, qg, Or.inr (Or.inr hq1), by simp [Ghost.addRoot, Ghost.addSib, h2, h3, hq2],
          by rw [hOpage q h1 h2 h3]; exact hq3, hmem⟩

/-- The lower part an internal page keeps in a split. -/
theorem intLow_good {t u : TreeView} {G H : Ghost} {E : Option Int} {P : Int}
    {pg qg : BPlusTreePage} {m : Nat} {e : KeyType × Int}
    (h : PageGood t G E P pg) (hl : G.lvl P ≠ 0) (hm : 2 ≤ m) (he : pg.array[m]? = some e)
    (hid : qg.page_id_ = pg.page_id_) (hty : qg.page_type_ = pg.page_type_)
    (hmx : qg.max_size_ = pg.max_size_) (har : qg.array = pg.array.take m)
    (himax : u.imax = t.imax)
    (hlvl : H.lvl P = G.lvl P) (hlo : H.lo P = G.lo P) (hhi : H.hi P = some e.1)
    (hparent : qg.parent_page_id_ = H.par P)
    (hroot : H.par P = INVALID_PAGE_ID ↔ P = u.root)
    (hatt : H.par P ≠ INVALID_PAGE_ID →
      H.live (H.par P) ∧ H.lvl (H.par P) = H.lvl P + 1 ∧
        ∃ ppg, u.pages (H.par P) = some ppg ∧ P ∈ ppg.array.map Prod.snd)
    (hch : ∀ x ∈ pg.array.take m, ∀ a b, ChildAt G P x.2 a b → ChildAt H P x.2 a b) :
    PageGood u H none P qg := by
  have hl2 : H.lvl P ≠ 0 := by rw [hlvl]; exact hl
  obtain ⟨hlen, _⟩ := List.getElem?_eq_some_iff.1 he
  have hseg := (Seg_take_drop (h.int_seg hl) (by omega) he).1
  refine
    { id := by rw [hid]; exact h.id
      parent := hparent
      root_iff := hroot
      attached := hatt
      range_ne := by rw [hlo, hhi]; exact Seg_bLt hseg
      leaf_type := fun h1 => absurd h1 hl2
      leaf_sorted := fun h1 => absurd h1 hl2
      leaf_range := fun h1 => absurd h1 hl2
      leaf_ne := fun h1 => absurd h1 hl2
      next_end := fun h1 => absurd h1 hl2
      next_ok := fun h1 => absurd h1 hl2
      int_type := fun _ => by rw [hty, hmx, himax]; exact h.int_type hl
      int_seg := fun _ => by
        rw [hlo, hhi, har]
        exact Seg_map _ hch hseg
      int_size := fun _ _ => by
        rw [har, List.length_take]
        omega }

/-- The upper part of a split internal page, stored in the new page. -/
theorem intHigh_good {t u : TreeView} {G H : Ghost} {E : Option Int} {P U : Int}
    {pg qg : BPlusTreePage} {m : Nat} {e e2 : KeyType × Int}
    (h : PageGood t G E P pg) (hl : G.lvl P ≠ 0) (hm : 0 < m) (he : pg.array[m]? = some e)
    (he2 : pg.array[m + 1]? = some e2)
    (hid : qg.page_id_ = U) (hty : qg.page_type_ = IndexPageType.INTERNAL_PAGE)
    (hmx : qg.max_size_ = u.imax) (har : qg.array = pg.array.drop m)
    (hlvl : H.lvl U = G.lvl P) (hlo : H.lo U = some e.1) (hhi : H.hi U = G.hi P)
    (hparent : qg.parent_page_id_ = H.par U)
    (hroot : H.par U = INVALID_PAGE_ID ↔ U = u.root)
    (hatt : H.par U ≠ INVALID_PAGE_ID →
      H.live (H.par U) ∧ H.lvl (H.par U) = H.lvl U + 1 ∧
        ∃ ppg, u.pages (H.par U) = some ppg ∧ U ∈ ppg.array.map Prod.snd)
    (hch : ∀ x ∈ pg.array.drop m, ∀ a b, ChildAt G P x.2 a b → ChildAt H U x.2 a b) :
    PageGood u H none U qg := by
  have hl2 : H.lvl U ≠ 0 := by rw [hlvl]; exact hl
  obtain ⟨hlen, _⟩ := List.getElem?_eq_some_iff.1 he2
  have hseg := (Seg_take_drop (h.int_seg hl) hm he).2
  refine
    { id := hid
      parent := hparent
      root_iff := hroot
      attached := hatt
      range_ne := by rw [hlo, hhi]; exact Seg_bLt hseg
      leaf_type := fun h1 => absurd h1 hl2
      leaf_sorted := fun h1 => absurd h1 hl2
      leaf_range := fun h1 => absurd h1 hl2
      leaf_ne := fun h1 => absurd h1 hl2
      next_end := fun h1 => absurd h1 hl2
      next_ok := fun h1 => absurd h1 hl2
      int_type := fun _ => ⟨hty, hmx⟩
      int_seg := fun _ => by
        rw [hlo, hhi, har]
        exact Seg_map _ hch hseg
      int_size := fun _ _ => by
        rw [har, List.length_drop]
        omega }

/-- What is known about a page handed over in an internal split. -/
theorem moved_facts {t : TreeView} {G : Ghost} {E : Option Int} (hg : Good t G E) {P : Int}
    {pg : BPlusTreePage} (hP : G.live P) (hpg : t.pages P = some pg) (hl : G.lvl P ≠ 0)
    {c : Int} (hc : c ∈ movedOf pg) :
    G.live c ∧ G.par c = P ∧ G.lvl c + 1 = G.lvl P ∧ c ≠ P ∧ c ≠ t.next ∧ c ≠ t.root := by
  obtain ⟨pg1, hpg1, hgood⟩ := hg.page P hP
  rw [hpg] at hpg1; cases hpg1
  obtain ⟨x, hx, rfl⟩ := List.mem_map.1 hc
  obtain ⟨a1, a2, a3, _⟩ := Seg_child (hgood.int_seg hl) x (List.mem_of_mem_drop hx)
  refine ⟨a1, a2, a3, ?_, ?_, child_ne_root hg a1 hP a2⟩
  · intro h; rw [h] at a3; omega
  · intro h
    have := (hg.live_range _ a1).2
    rw [h] at this
    exact absurd this (lt_irrefl _)

/-- A page handed over in an internal split, with its parent pointer set to the new
page. -/
theorem movedChild_good {t u : TreeView} {G H : Ghost} (hg : Good t G none) {P : Int}
    {pg : BPlusTreePage} (hP : G.live P) (hpg : t.pages P = some pg) (hl : G.lvl P ≠ 0)
    {c : Int} (hc : c ∈ movedOf pg) {cpg : BPlusTreePage} (hcpg : t.pages c = some cpg)
    {U : Int} (hU : U ≠ INVALID_PAGE_ID)
    (hlmax : u.lmax = t.lmax) (himax : u.imax = t.imax) (hur : c ≠ u.root)
    (hpar : H.par c = U) (hUl : H.live U) (hUlvl : H.lvl U = G.lvl P)
    (hUpage : ∃ upg, u.pages U = some upg ∧ c ∈ upg.array.map Prod.snd)
    (hag : ∀ x, G.live x → x ≠ P → H.live x ∧ H.lvl x = G.lvl x ∧ H.lo x = G.lo x ∧
      H.hi x = G.hi x)
    (hagp : ∀ x, G.live x → G.lvl x + 2 = G.lvl P → H.par x = G.par x) :
    PageGood u H none c (cpg.SetParentPageId U) := by
  obtain ⟨a1, a2, a3, a4, _, _⟩ := moved_facts hg hP hpg hl hc
  obtain ⟨cpg1, hcpg1, hgood⟩ := hg.page c a1
  rw [hcpg] at hcpg1; cases hcpg1
  obtain ⟨b1, b2, b3, b4⟩ := hag c a1 a4
  refine PageGood_frame hgood rfl rfl rfl rfl rfl hlmax himax b2 b3 b4
    (by rw [hpar]; rfl) (by rw [hpar]; exact ⟨fun h => absurd h hU, fun h => absurd h hur⟩)
    ?_ ?_ ?_ (fun h => h)
  · intro _
    rw [hpar, hUlvl, b2]
    exact ⟨hUl, a3.symm, hUpage⟩
  · intro h0 hn
    obtain ⟨c1, c2, _⟩ := hgood.next_ok h0 hn
    have : cpg.next_page_id_ ≠ P := fun h => by rw [h] at c2; exact hl c2
    obtain ⟨d1, d2, d3, _⟩ := hag _ c1 this
    exact ⟨d1, d2, d3⟩
  · intro h0 x hx
    obtain ⟨c1, c2, c3, _⟩ := Seg_child (hgood.int_seg h0) x hx
    have : x.2 ≠ P := fun h => by rw [h] at c3; omega
    obtain ⟨d1, d2, d3, d4⟩ := hag _ c1 this
    exact ⟨fun _ => d1, hagp _ c1 (by omega), d2, d3, d4⟩

theorem mem_take_of_not_moved {pg : BPlusTreePage} {p : Int}
    (h : p ∈ pg.array.map Prod.snd) (hn : p ∉ movedOf pg) :
    p ∈ (pg.array.take pg.GetMinSize).map Prod.snd := by
  obtain ⟨x, hx, rfl⟩ := List.mem_map.1 h
  rw [← List.take_append_drop pg.GetMinSize pg.array, List.mem_append] at hx
  rcases hx with h1 | h1
  · exact List.mem_map.2 ⟨x, h1, rfl⟩
  · exact absurd (List.mem_map.2 ⟨x, h1, rfl⟩) hn

/-- Splitting an internal page that has a parent, and recording the new page in the
parent, keeps the invariant. -/
theorem Good_splitInt_parent {t : TreeView} {G : Ghost} (hg : Good t G none) {P : Int}
    {pg : BPlusTreePage} (hP : G.live P) (hl : G.lvl P ≠ 0) (hpg : t.pages P = some pg)
    {e e2 : KeyType × Int} (hm : 2 ≤ pg.GetMinSize)
    (he : pg.array[pg.GetMinSize]? = some e)
    (he2 : pg.array[pg.GetMinSize + 1]? = some e2) (hr : P ≠ t.root)
    {gpg : BPlusTreePage} (hgpg : t.pages (G.par P) = some gpg) {i : Nat}
    {f : KeyType × Int} (hi : gpg.array[i]? = some f) (hf : f.2 = P) :
    Good ((t.splitInt P pg).setPage (G.par P) (gpg.InsertNodeAfterAt i e.1 t.next))
      (G.addSib P t.next e.1 (movedOf pg)) none ∧
    ∀ k w, Stored ((t.splitInt P pg).setPage (G.par P)
        (gpg.InsertNodeAfterAt i e.1 t.next)) (G.addSib P t.next e.1 (movedOf pg)) k w ↔
      Stored t G k w := by
  obtain ⟨pg1, hpg1, hgood⟩ := hg.page P hP
  rw [hpg] at hpg1; cases hpg1
  obtain ⟨hGl, hGlvl, gpg1, hgpg1, hGgood, _⟩ := parent_facts hg hP hr
  rw [hgpg] at hgpg1; cases hgpg1
  have hroot := root_ne_of_live hg hP
  have hNnl : ¬ G.live t.next := fun h => absurd (hg.live_range _ h).2 (lt_irrefl _)
  have hPN : P ≠ t.next := fun h => hNnl (h ▸ hP)
  have hGN : G.par P ≠ t.next := fun h => hNnl (h ▸ hGl)
  have hGP : G.par P ≠ P := fun h => by rw [h] at hGlvl; omega
  have hrN : t.root ≠ t.next := fun h => hNnl (h ▸ (hg.root_live hroot).1)
  have hGl0 : G.lvl (G.par P) ≠ 0 := by omega
  have hne : ∀ p, G.live p → p ≠ t.next := fun p hp h => hNnl (h ▸ hp)
  have hNI : t.next ≠ INVALID_PAGE_ID := by
    intro h
    have := hg.next_nonneg
    rw [h] at this
    exact absurd this (by decide)
  have hmv : ∀ c, c ∈ movedOf pg →
      G.live c ∧ G.par c = P ∧ G.lvl c + 1 = G.lvl P ∧ c ≠ P ∧ c ≠ t.next ∧ c ≠ t.root :=
    fun c hc => moved_facts hg hP hpg hl hc
  have hPm : P ∉ movedOf pg := fun h => (hmv P h).2.2.2.1 rfl
  have hNm : t.next ∉ movedOf pg := fun h => (hmv _ h).2.2.2.2.1 rfl
  have hGm : G.par P ∉ movedOf pg := fun h => by
    have := (hmv _ h).2.2.1
    omega
  have hrm : t.root ∉ movedOf pg := fun h => (hmv _ h).2.2.2.2.2 rfl
  -- the pages touched
  have hGpage : ((t.splitInt P pg).setPage (G.par P)
      (gpg.InsertNodeAfterAt i e.1 t.next)).pages (G.par P) =
        some (gpg.InsertNodeAfterAt i e.1 t.next) := by
    simp [TreeView.setPage]
  have hPpage : ((t.splitInt P pg).setPage (G.par P)
      (gpg.InsertNodeAfterAt i e.1 t.next)).pages P = some (intLow pg) := by
    simp [TreeView.setPage, TreeView.splitInt, Function.update_noteq hGP.symm, reparent, hPm]
  have hNpage : ((t.splitInt P pg).setPage (G.par P)
      (gpg.InsertNodeAfterAt i e.1 t.next)).pages t.next =
        some (intHigh pg t.next t.imax) := by
    simp [TreeView.setPage, TreeView.splitInt, Function.update_noteq hGN.symm,
      Function.update_noteq hPN.symm, reparent, hNm]
  have hCpage : ∀ c, c ∈ movedOf pg → ((t.splitInt P pg).setPage (G.par P)
      (gpg.InsertNodeAfterAt i e.1 t.next)).pages c =
        (t.pages c).map (fun x => x.SetParentPageId t.next) := by
    intro c hc
    obtain ⟨_, _, c3, c4, c5, _⟩ := hmv c hc
    have c6 : c ≠ G.par P := fun h => by rw [h] at c3; omega
    simp [TreeView.setPage, TreeView.splitInt, Function.update_noteq c6,
      Function.update_noteq c4, Function.update_noteq c5, reparent, hc]
  have hOpage : ∀ p, p ≠ P → p ≠ t.next → p ≠ G.par P → p ∉ movedOf pg →
      ((t.splitInt P pg).setPage (G.par P)
        (gpg.InsertNodeAfterAt i e.1 t.next)).pages p = t.pages p := by
    intro p h1 h2 h3 h4
    simp [TreeView.setPage, TreeView.splitInt, Function.update_noteq h1,
      Function.update_noteq h2, Function.update_noteq h3, reparent, h4]
  have hHpar : ∀ c, c ∈ movedOf pg →
      (G.addSib P t.next e.1 (movedOf pg)).par c = t.next := by
    intro c hc
    simp [Ghost.addSib, (hmv c hc).2.2.2.2.1, hc]
  have hPgood : PageGood ((t.splitInt P pg).setPage (G.par P)
      (gpg.InsertNodeAfterAt i e.1 t.next)) (G.addSib P t.next e.1 (movedOf pg)) none P
      (intLow pg) := by
    refine intLow_good hgood hl hm he rfl rfl rfl rfl rfl
      (by simp [Ghost.addSib, hPN]) (by simp [Ghost.addSib, hPN])
      (by simp [Ghost.addSib, hPN])
      (by simp [Ghost.addSib, hPN, hPm, intLow, BPlusTreePage.SetSize]; exact hgood.parent)
      (by simp only [Ghost.addSib, hPN, hPm, if_false]; exact hgood.root_iff) ?_ ?_
    · intro _
      simp only [Ghost.addSib, hPN, hGN, hPm, hGm, if_false]
      refine ⟨Or.inr hGl, hGlvl, _, hGpage, ?_⟩
      exact mem_insertNodeAfterAt (List.mem_map.2 ⟨f, List.getElem?_mem hi, hf⟩)
    · intro x hx a b hc
      have hxm : x.2 ∉ movedOf pg := by
        intro hmem
        obtain ⟨y, hy, hyx⟩ := List.mem_map.1 hmem
        have hnd := Seg_nodup pg.array (hgood.int_seg hl)
        rw [← List.take_append_drop pg.GetMinSize pg.array, List.map_append] at hnd
        exact (List.nodup_append.1 hnd).2.2 (List.mem_map.2 ⟨x, hx, rfl⟩)
          (List.mem_map.2 ⟨y, hy, hyx⟩)
      have hxN : x.2 ≠ t.next := hne _ hc.live
      have hxP : x.2 ≠ P := fun h => by have := hc.lvl; rw [h] at this; omega
      have ag := addSib_agree G e.1 hxN hxP hxm
      exact ⟨ag.live hc.live, by rw [ag.par]; exact hc.par,
        by rw [ag.lvl]; simp only [Ghost.addSib, hPN, if_false]; exact hc.lvl,
        by rw [ag.lo]; exact hc.lo, by rw [ag.hi]; exact hc.hi, hc.ne⟩
  have hNgood : PageGood ((t.splitInt P pg).setPage (G.par P)
      (gpg.InsertNodeAfterAt i e.1 t.next)) (G.addSib P t.next e.1 (movedOf pg)) none t.next
      (intHigh pg t.next t.imax) := by
    refine intHigh_good (U := t.next) hgood hl (by omega) he he2 rfl rfl rfl rfl
      (by simp [Ghost.addSib]) (by simp [Ghost.addSib]) (by simp [Ghost.addSib])
      (by simp [Ghost.addSib, intHigh, BPlusTreePage.InitInternal]; exact hgood.parent)
      ?_ ?_ ?_
    · simp only [Ghost.addSib, if_true]
      constructor
      · intro h
        exact absurd (hgood.root_iff.1 h) hr
      · intro h
        exact absurd h.symm hrN
    · intro _
      simp only [Ghost.addSib, hGN, hGm, if_true, if_false]
      refine ⟨Or.inr hGl, hGlvl, _, hGpage, ?_⟩
      simp [BPlusTreePage.InsertNodeAfterAt]
    · intro x hx a b hc
      have hxm : x.2 ∈ movedOf pg := List.mem_map.2 ⟨x, hx, rfl⟩
      have hxN : x.2 ≠ t.next := hne _ hc.live
      have hxP : x.2 ≠ P := fun h => by have := hc.lvl; rw [h] at this; omega
      exact ⟨Or.inr hc.live, hHpar _ hxm, by
          simp only [Ghost.addSib, hxN, if_true, if_false]; exact hc.lvl,
        by simp only [Ghost.addSib, hxN, if_false]; exact hc.lo,
        by simp only [Ghost.addSib, hxN, hxP, if_false]; exact hc.hi, hc.ne⟩
  have hGgood2 : PageGood ((t.splitInt P pg).setPage (G.par P)
      (gpg.InsertNodeAfterAt i e.1 t.next)) (G.addSib P t.next e.1 (movedOf pg)) none
      (G.par P) (gpg.InsertNodeAfterAt i e.1 t.next) := by
    refine parentInsert_good hGgood hGl0 hi rfl (by simp [Ghost.addSib, hGN])
      (by simp [Ghost.addSib, hGN]) (by simp [Ghost.addSib, hGN, hGP])
      (by simp [Ghost.addSib, hGN, hGm])
      (by simp only [Ghost.addSib, hGN, hGm, if_false]; exact hGgood.root_iff)
      ?_ ?_ ?_
    · simp only [Ghost.addSib, hGN, hGm, if_false]
      intro hne2
      obtain ⟨b1, b2, ggpg, b3, b4⟩ := hGgood.attached hne2
      have c1 : G.par (G.par P) ≠ t.next := hne _ b1
      have c2 : G.par (G.par P) ≠ P := fun h => by rw [h] at b2; omega
      have c3 : G.par (G.par P) ≠ G.par P := lvl_par_ne hGgood hne2
      have c4 : G.par (G.par P) ∉ movedOf pg := fun h => by
        have := (hmv _ h).2.2.1
        omega
      simp only [c1, if_false]
      exact ⟨Or.inr b1, b2, ggpg, by rw [hOpage _ c2 c1 c3 c4]; exact b3, b4⟩
    · intro j x hx hj a b hc
      have hxP : x.2 ≠ P := by
        rw [← hf]
        exact slot_ne_of_nodup (hGgood.int_seg hGl0) hi hx hj
      have hxN : x.2 ≠ t.next := hne _ hc.live
      have hxm : x.2 ∉ movedOf pg := fun h => by
        have h1 := (hmv _ h).2.2.1
        have h2 := hc.lvl
        omega
      have ag := addSib_agree G e.1 hxN hxP hxm
      exact ⟨ag.live hc.live, by rw [ag.par]; exact hc.par,
        by rw [ag.lvl]; simp only [Ghost.addSib, hGN, if_false]; exact hc.lvl,
        by rw [ag.lo]; exact hc.lo, by rw [ag.hi]; exact hc.hi, hc.ne⟩
    · intro a b hc
      rw [hf] at hc ⊢
      have r1 := hPgood.range_ne
      have r2 := hNgood.range_ne
      simp only [Ghost.addSib, hPN, if_true, if_false] at r1 r2
      constructor
      · exact ⟨Or.inr hP, by simp [Ghost.addSib, hPN, hPm], by
          simp only [Ghost.addSib, hPN, hGN, if_false]; exact hc.lvl,
          by simp only [Ghost.addSib, hPN, if_false]; exact hc.lo,
          by simp [Ghost.addSib, hPN], by rw [← hc.lo]; exact r1⟩
      · exact ⟨Or.inl rfl, by simp [Ghost.addSib], by
          simp only [Ghost.addSib, hGN, if_true, if_false]; exact hc.lvl,
          by simp [Ghost.addSib], by simp only [Ghost.addSib, if_true]; exact hc.hi,
          by rw [← hc.hi]; exact r2⟩
  refine ⟨?_, ?_⟩
  · refine Good_transfer hg (fun p => p = P ∨ p = t.next ∨ p = G.par P ∨ p ∈ movedOf pg)
      rfl rfl (le_of_lt (lt_add_one _)) (fun h => absurd h hroot) ?_ ?_ ?_ ?_ ?_ ?_ ?_
      (fun _ _ _ => Iff.rfl) ?_ ?_ ?_ (fun _ _ h => h)
    · intro _
      obtain ⟨a1, a2, a3⟩ := hg.root_live hroot
      exact ⟨Or.inr a1, by simp [Ghost.addSib, TreeView.splitInt, TreeView.setPage, hrN, a2],
        by
          have : t.root ≠ P := fun h => hr h.symm
          simp [Ghost.addSib, TreeView.splitInt, TreeView.setPage, hrN, this, a3]⟩
    · intro p hp
      show 0 ≤ p ∧ p < t.next + 1
      rcases hp with hp | hp
      · rw [hp]; exact ⟨hg.next_nonneg, lt_add_one _⟩
      · exact ⟨(hg.live_range p hp).1, lt_trans (hg.live_range p hp).2 (lt_add_one _)⟩
    · intro p hp
      show (G.addSib P t.next e.1 (movedOf pg)).lvl p ≤
        (G.addSib P t.next e.1 (movedOf pg)).lvl t.root
      simp only [Ghost.addSib, hrN, if_false]
      rcases hp with hp | hp
      · simp only [hp, if_true]; exact hg.lvl_le P hP
      · simp only [hne p hp, if_false]; exact hg.lvl_le p hp
    · intro _
      show (((G.addSib P t.next e.1 (movedOf pg)).lvl t.root : Nat) : Int) < t.next + 1
      simp only [Ghost.addSib, hrN, if_false]
      exact lt_trans (hg.lvl_fuel hroot) (lt_add_one _)
    · intro p hp hM
      rcases hp with hp | hp
      · exact absurd (Or.inr (Or.inl hp)) hM
      · exact hp
    · intro p hM
      have h1 : p ≠ P := fun h => hM (Or.inl h)
      have h2 : p ≠ t.next := fun h => hM (Or.inr (Or.inl h))
      have h3 : p ≠ G.par P := fun h => hM (Or.inr (Or.inr (Or.inl h)))
      have h4 : p ∉ movedOf pg := fun h => hM (Or.inr (Or.inr (Or.inr h)))
      exact ⟨hOpage p h1 h2 h3 h4, addSib_agree G e.1 h2 h1 h4⟩
    · intro p hM _
      rcases hM with h | h | h | h
      · rw [h]; exact ⟨_, hPpage, hPgood⟩
      · rw [h]; exact ⟨_, hNpage, hNgood⟩
      · rw [h]; exact ⟨_, hGpage, hGgood2⟩
      · obtain ⟨c1, c2, c3, c4, c5, c6⟩ := hmv p h
        obtain ⟨cpg, hcpg, _⟩ := hg.page p c1
        refine ⟨cpg.SetParentPageId t.next, by rw [hCpage p h, hcpg]; rfl, ?_⟩
        refine movedChild_good hg hP hpg hl h hcpg hNI rfl rfl c6 (hHpar p h) (Or.inl rfl)
          (by simp [Ghost.addSib]) ⟨_, hNpage, ?_⟩ ?_ ?_
        · exact h
        · intro x hx hxP
          have := hne x hx
          exact ⟨Or.inr hx, by simp [Ghost.addSib, this], by simp [Ghost.addSib, this],
            by simp [Ghost.addSib, this, hxP]⟩
        · intro x hx hxl
          have := hne x hx
          have hxm : x ∉ movedOf pg := fun h => by
            have := (hmv x h).2.2.1
            omega
          simp [Ghost.addSib, this, hxm]
    · intro x hM hx _ hMp
      rcases hM with h | h | h | h
      · exact absurd (Or.inr (Or.inr (Or.inl (by rw [h])))) hMp
      · exact absurd (h ▸ hx) hNnl
      · rw [h]; exact addSib_agree G e.1 hGN hGP hGm
      · exact absurd (Or.inl (hmv x h).2.1) hMp
    · intro p qg _ hp hl0 hq _ hn
      obtain ⟨qg1, hq1, hqgood⟩ := hg.page p hp
      rw [hq] at hq1; cases hq1
      obtain ⟨a1, _, _⟩ := hqgood.next_ok hl0 hn
      have := hne _ a1
      exact ⟨Or.inr a1, by simp [Ghost.addSib, this], by simp [Ghost.addSib, this]⟩
    · intro p hM hp hMp hpn
      have h1 : p ≠ P := fun h => hM (Or.inl h)
      have h4 : p ∉ movedOf pg := fun h => hM (Or.inr (Or.inr (Or.inr h)))
      obtain ⟨qg, hq, hqgood⟩ := hg.page p hp
      obtain ⟨a1, a2, ppg, a3, a4⟩ := hqgood.attached hpn
      rcases hMp with h | h | h | h
      · rw [h] at a3 ⊢
        rw [hpg] at a3; cases a3
        exact ⟨Or.inr hP, by simp [Ghost.addSib, hPN], _, hPpage,
          mem_take_of_not_moved a4 h4⟩
      · exact absurd (h ▸ a1) hNnl
      · rw [h] at a3 ⊢
        rw [hgpg] at a3; cases a3
        exact ⟨Or.inr hGl, by simp [Ghost.addSib, hGN], _, hGpage, mem_insertNodeAfterAt a4⟩
      · obtain ⟨c1, _, _, _, c5, _⟩ := hmv _ h
        refine ⟨Or.inr c1, by simp [Ghost.addSib, c5], ppg.SetParentPageId t.next,
          by rw [hCpage _ h, a3]; rfl, a4⟩

  · intro k w
    constructor
    · rintro ⟨p, qg, hp, hlv, hq, hmem⟩
      by_cases h2 : p = t.next
      · rw [h2] at hlv
        simp only [Ghost.addSib, if_true] at hlv
        exact absurd hlv hl
      · have hlv2 : G.lvl p = 0 := by
          simp only [Ghost.addSib, h2, if_false] at hlv
          exact hlv
        have hp2 : G.live p := by
          rcases hp with hp | hp
          · exact absurd hp h2
          · exact hp
        have h1 : p ≠ P := fun h => by rw [h] at hlv2; exact hl hlv2
        have h3 : p ≠ G.par P := fun h => by rw [h] at hlv2; exact hGl0 hlv2
        by_cases h4 : p ∈ movedOf pg
        · obtain ⟨cpg, hcpg, _⟩ := hg.page p hp2
          rw [hCpage p h4, hcpg] at hq
          cases hq
          exact ⟨p, cpg, hp2, hlv2, hcpg, hmem⟩
        · rw [hOpage p h1 h2 h3 h4] at hq
          exact ⟨p, qg, hp2, hlv2, hq, hmem⟩
    · rintro ⟨q, qg, hq1, hq2, hq3, hmem⟩
      have h2 : q ≠ t.next := hne q hq1
      have h1 : q ≠ P := fun h => by rw [h] at hq2; exact hl hq2
      have h3 : q ≠ G.par P := fun h => by rw [h] at hq2; exact hGl0 hq2
      by_cases h4 : q ∈ movedOf pg
      · exact ⟨q, qg.SetParentPageId t.next, Or.inr hq1, by simp [Ghost.addSib, h2, hq2],
          by rw [hCpage q h4, hq3]; rfl, hmem⟩
      · exact ⟨q, qg, Or.inr hq1, by simp [Ghost.addSib, h2, hq2],
          by rw [hOpage q h1 h2 h3 h4]; exact hq3, hmem⟩

/-- Splitting an internal page that is the root, and creating the new root, keeps the
invariant. -/
theorem Good_splitInt_root {t : TreeView} {G : Ghost} (hg : Good t G none) {P : Int}
    {pg : BPlusTreePage} (hP : G.live P) (hl : G.lvl P ≠ 0) (hpg : t.pages P = some pg)
    {e e2 : KeyType × Int} (hm : 2 ≤ pg.GetMinSize)
    (he : pg.array[pg.GetMinSize]? = some e)
    (he2 : pg.array[pg.GetMinSize + 1]? = some e2) (hr : P = t.root) :
    Good ((t.splitInt P pg).newRoot P e.1 t.next (intLow pg) (intHigh pg t.next t.imax))
      ((G.addSib P t.next e.1 (movedOf pg)).addRoot (t.next + 1) P t.next) none ∧
    ∀ k w, Stored ((t.splitInt P pg).newRoot P e.1 t.next (intLow pg)
        (intHigh pg t.next t.imax))
      ((G.addSib P t.next e.1 (movedOf pg)).addRoot (t.next + 1) P t.next) k w ↔
      Stored t G k w := by
  obtain ⟨pg1, hpg1, hgood⟩ := hg.page P hP
  rw [hpg] at hpg1; cases hpg1
  have hroot := root_ne_of_live hg hP
  obtain ⟨_, hrlo, hrhi⟩ := hg.root_live hroot
  rw [← hr] at hrlo hrhi
  have hNnl : ¬ G.live t.next := fun h => absurd (hg.live_range _ h).2 (lt_irrefl _)
  have hRnl : ¬ G.live (t.next + 1) := fun h => by
    have := (hg.live_range _ h).2
    exact absurd (lt_trans (lt_add_one _) this) (lt_irrefl _)
  have hPN : P ≠ t.next := fun h => hNnl (h ▸ hP)
  have hPR : P ≠ t.next + 1 := fun h => hRnl (h ▸ hP)
  have hNR : t.next ≠ t.next + 1 := fun h =>
    absurd (lt_add_one t.next) (by rw [← h]; exact lt_irrefl _)
  have hne : ∀ p, G.live p → p ≠ t.next := fun p hp h => hNnl (h ▸ hp)
  have hneR : ∀ p, G.live p → p ≠ t.next + 1 := fun p hp h => hRnl (h ▸ hp)
  have hnn := hg.next_nonneg
  have hNI : t.next ≠ INVALID_PAGE_ID := by
    intro h; rw [h] at hnn; exact absurd hnn (by decide)
  have hRI : t.next + 1 ≠ INVALID_PAGE_ID := by
    intro h
    have h1 : (0 : Int) ≤ t.next + 1 := le_trans hnn (le_of_lt (lt_add_one _))
    rw [h] at h1; exact absurd h1 (by decide)
  have hmv : ∀ c, c ∈ movedOf pg →
      G.live c ∧ G.par c = P ∧ G.lvl c + 1 = G.lvl P ∧ c ≠ P ∧ c ≠ t.next ∧ c ≠ t.root :=
    fun c hc => moved_facts hg hP hpg hl hc
  have hPm : P ∉ movedOf pg := fun h => (hmv P h).2.2.2.1 rfl
  have hNm : t.next ∉ movedOf pg := fun h => (hmv _ h).2.2.2.2.1 rfl
  have hRm : t.next + 1 ∉ movedOf pg := fun h => hRnl (hmv _ h).1
  have hlowid : (intLow pg).page_id_ = P := hgood.id
  have hRpage : ((t.splitInt P pg).newRoot P e.1 t.next (intLow pg)
      (intHigh pg t.next t.imax)).pages (t.next + 1) =
        some (rootPage (t.next + 1) t.imax P e.1 t.next) := by
    simp only [TreeView.newRoot, TreeView.splitInt]
    rw [Function.update_noteq hNR.symm, Function.update_noteq hPR.symm, Function.update_same,
      hlowid]
    rfl
  have hPpage : ((t.splitInt P pg).newRoot P e.1 t.next (intLow pg)
      (intHigh pg t.next t.imax)).pages P =
        some ((intLow pg).SetParentPageId (t.next + 1)) := by
    simp only [TreeView.newRoot, TreeView.splitInt]
    rw [Function.update_noteq hPN, Function.update_same]
  have hNpage : ((t.splitInt P pg).newRoot P e.1 t.next (intLow pg)
      (intHigh pg t.next t.imax)).pages t.next =
        some ((intHigh pg t.next t.imax).SetParentPageId (t.next + 1)) := by
    simp only [TreeView.newRoot, TreeView.splitInt]
    rw [Function.update_same]
  have hCpage : ∀ c, c ∈ movedOf pg → ((t.splitInt P pg).newRoot P e.1 t.next (intLow pg)
      (intHigh pg t.next t.imax)).pages c =
        (t.pages c).map (fun x => x.SetParentPageId t.next) := by
    intro c hc
    obtain ⟨c1, _, _, c4, c5, _⟩ := hmv c hc
    have c6 : c ≠ t.next + 1 := hneR c c1
    simp only [TreeView.newRoot, TreeView.splitInt]
    rw [Function.update_noteq c5, Function.update_noteq c4, Function.update_noteq c6]
    simp [reparent, hc, Function.update_noteq c4, Function.update_noteq c5]
  have hOpage : ∀ p, p ≠ P → p ≠ t.next → p ≠ t.next + 1 → p ∉ movedOf pg →
      ((t.splitInt P pg).newRoot P e.1 t.next (intLow pg)
        (intHigh pg t.next t.imax)).pages p = t.pages p := by
    intro p h1 h2 h3 h4
    simp only [TreeView.newRoot, TreeView.splitInt]
    rw [Function.update_noteq h2, Function.update_noteq h1, Function.update_noteq h3]
    simp [reparent, h4, Function.update_noteq h1, Function.update_noteq h2]
  have hHpar : ∀ c, c ∈ movedOf pg →
      ((G.addSib P t.next e.1 (movedOf pg)).addRoot (t.next + 1) P t.next).par c =
        t.next := by
    intro c hc
    obtain ⟨c1, _, _, c4, c5, _⟩ := hmv c hc
    simp [Ghost.addRoot, Ghost.addSib, c4, c5, hneR c c1, hc]
  have hPgood : PageGood ((t.splitInt P pg).newRoot P e.1 t.next (intLow pg)
      (intHigh pg t.next t.imax))
      ((G.addSib P t.next e.1 (movedOf pg)).addRoot (t.next + 1) P t.next) none P
      ((intLow pg).SetParentPageId (t.next + 1)) := by
    refine intLow_good hgood hl hm he rfl rfl rfl rfl rfl
      (by simp [Ghost.addRoot, Ghost.addSib, hPN, hPR])
      (by simp [Ghost.addRoot, Ghost.addSib, hPN, hPR])
      (by simp [Ghost.addRoot, Ghost.addSib, hPN, hPR])
      (by simp [Ghost.addRoot, hPR, BPlusTreePage.SetParentPageId]) ?_ ?_ ?_
    · simp only [Ghost.addRoot, hPR, if_false, true_or, if_true]
      exact ⟨fun h => absurd h hRI, fun h => absurd h hPR⟩
    · intro _
      have hp : ((G.addSib P t.next e.1 (movedOf pg)).addRoot (t.next + 1) P t.next).par P =
          t.next + 1 := by simp [Ghost.addRoot, hPR]
      rw [hp]
      refine ⟨Or.inl rfl, by simp [Ghost.addRoot, Ghost.addSib, hPR, hPN], _, hRpage, ?_⟩
      simp [rootPage, BPlusTreePage.PopulateNewRoot]
    · intro x hx a b hc
      have hxm : x.2 ∉ movedOf pg := by
        intro hmem
        obtain ⟨y, hy, hyx⟩ := List.mem_map.1 hmem
        have hnd := Seg_nodup pg.array (hgood.int_seg hl)
        rw [← List.take_append_drop pg.GetMinSize pg.array, List.map_append] at hnd
        exact (List.nodup_append.1 hnd).2.2 (List.mem_map.2 ⟨x, hx, rfl⟩)
          (List.mem_map.2 ⟨y, hy, hyx⟩)
      have hxN : x.2 ≠ t.next := hne _ hc.live
      have hxR : x.2 ≠ t.next + 1 := hneR _ hc.live
      have hxP : x.2 ≠ P := fun h => by have := hc.lvl; rw [h] at this; omega
      exact ⟨Or.inr (Or.inr hc.live),
        by simp only [Ghost.addRoot, Ghost.addSib, hxN, hxR, hxP, hxm, if_false, or_self];
           exact hc.par,
        by simp only [Ghost.addRoot, Ghost.addSib, hxN, hxR, hPR, hPN, if_false]; exact hc.lvl,
        by simp only [Ghost.addRoot, Ghost.addSib, hxN, hxR, if_false]; exact hc.lo,
        by simp only [Ghost.addRoot, Ghost.addSib, hxN, hxR, hxP, if_false]; exact hc.hi,
        hc.ne⟩
  have hNgood : PageGood ((t.splitInt P pg).newRoot P e.1 t.next (intLow pg)
      (intHigh pg t.next t.imax))
      ((G.addSib P t.next e.1 (movedOf pg)).addRoot (t.next + 1) P t.next) none t.next
      ((intHigh pg t.next t.imax).SetParentPageId (t.next + 1)) := by
    refine intHigh_good (U := t.next) hgood hl (by omega) he he2 rfl rfl rfl rfl
      (by simp [Ghost.addRoot, Ghost.addSib, hNR])
      (by simp [Ghost.addRoot, Ghost.addSib, hNR])
      (by simp [Ghost.addRoot, Ghost.addSib, hNR])
      (by simp [Ghost.addRoot, hNR, BPlusTreePage.SetParentPageId]) ?_ ?_ ?_
    · simp only [Ghost.addRoot, hNR, if_false, or_true, if_true]
      exact ⟨fun h => absurd h hRI, fun h => absurd h hNR⟩
    · intro _
      have hp : ((G.addSib P t.next e.1 (movedOf pg)).addRoot (t.next + 1) P t.next).par
          t.next = t.next + 1 := by simp [Ghost.addRoot, hNR]
      rw [hp]
      refine ⟨Or.inl rfl, by simp [Ghost.addRoot, Ghost.addSib, hNR], _, hRpage, ?_⟩
      simp [rootPage, BPlusTreePage.PopulateNewRoot]
    · intro x hx a b hc
      have hxm : x.2 ∈ movedOf pg := List.mem_map.2 ⟨x, hx, rfl⟩
      have hxN : x.2 ≠ t.next := hne _ hc.live
      have hxR : x.2 ≠ t.next + 1 := hneR _ hc.live
      have hxP : x.2 ≠ P := fun h => by have := hc.lvl; rw [h] at this; omega
      exact ⟨Or.inr (Or.inr hc.live), hHpar _ hxm,
        by simp only [Ghost.addRoot, Ghost.addSib, hxN, hxR, hNR, if_true, if_false];
           exact hc.lvl,
        by simp only [Ghost.addRoot, Ghost.addSib, hxN, hxR, if_false]; exact hc.lo,
        by simp only [Ghost.addRoot, Ghost.addSib, hxN, hxR, hxP, if_false]; exact hc.hi,
        hc.ne⟩
  have hRgood : PageGood ((t.splitInt P pg).newRoot P e.1 t.next (intLow pg)
      (intHigh pg t.next t.imax))
      ((G.addSib P t.next e.1 (movedOf pg)).addRoot (t.next + 1) P t.next) none (t.next + 1)
      (rootPage (t.next + 1) t.imax P e.1 t.next) := by
    have r1 := hPgood.range_ne
    have r2 := hNgood.range_ne
    simp only [Ghost.addRoot, Ghost.addSib, hPN, hPR, hNR, if_true, if_false, hrlo, hrhi]
      at r1 r2
    refine newRoot_good (z := 0) rfl rfl rfl rfl rfl rfl (by simp [Ghost.addRoot])
      (by simp [Ghost.addRoot]) (by simp [Ghost.addRoot]) ?_ ?_
    · exact ⟨Or.inr (Or.inr hP), by simp [Ghost.addRoot, hPR],
        by simp [Ghost.addRoot, Ghost.addSib, hPR, hPN],
        by simp [Ghost.addRoot, Ghost.addSib, hPR, hPN, hrlo],
        by simp [Ghost.addRoot, Ghost.addSib, hPR, hPN], fun a b ha => by cases ha⟩
    · exact ⟨Or.inr (Or.inl rfl), by simp [Ghost.addRoot, hNR],
        by simp [Ghost.addRoot, Ghost.addSib, hNR],
        by simp [Ghost.addRoot, Ghost.addSib, hNR],
        by simp [Ghost.addRoot, Ghost.addSib, hNR, hrhi], fun a b _ hb => by cases hb⟩
  refine ⟨?_, ?_⟩
  · refine Good_transfer hg
      (fun p => p = P ∨ p = t.next ∨ p = t.next + 1 ∨ p ∈ movedOf pg) rfl rfl ?_
      (fun h => absurd h hRI) ?_ ?_ ?_ ?_ ?_ ?_ ?_ ?_ ?_ ?_ ?_ (fun _ _ h => h)
    · show t.next ≤ t.next + 1 + 1
      omega
    · intro _
      exact ⟨Or.inl rfl, by simp [Ghost.addRoot, TreeView.newRoot, TreeView.splitInt],
        by simp [Ghost.addRoot, TreeView.newRoot, TreeView.splitInt]⟩
    · intro p hp
      show 0 ≤ p ∧ p < t.next + 1 + 1
      rcases hp with hp | hp | hp
      · rw [hp]; constructor <;> omega
      · rw [hp]; constructor <;> omega
      · have := hg.live_range p hp
        constructor
        · exact this.1
        · have := this.2; omega
    · intro p hp
      show ((G.addSib P t.next e.1 (movedOf pg)).addRoot (t.next + 1) P t.next).lvl p ≤
        ((G.addSib P t.next e.1 (movedOf pg)).addRoot (t.next + 1) P t.next).lvl (t.next + 1)
      simp only [Ghost.addRoot, Ghost.addSib, if_true, hPN, if_false]
      rcases hp with hp | hp | hp
      · simp [hp]
      · simp [hp, hNR]
      · have := hg.lvl_le p hp
        rw [← hr] at this
        simp only [hneR p hp, hne p hp, if_false]
        omega
    · intro _
      show ((((G.addSib P t.next e.1 (movedOf pg)).addRoot (t.next + 1) P t.next).lvl
        (t.next + 1) : Nat) : Int) < t.next + 1 + 1
      simp only [Ghost.addRoot, Ghost.addSib, if_true, hPN, if_false]
      have := hg.lvl_fuel hroot
      rw [← hr] at this
      push_cast
      omega
    · intro p hp hM
      rcases hp with hp | hp | hp
      · exact absurd (Or.inr (Or.inr (Or.inl hp))) hM
      · exact absurd (Or.inr (Or.inl hp)) hM
      · exact hp
    · intro p hM
      have h1 : p ≠ P := fun h => hM (Or.inl h)
      have h2 : p ≠ t.next := fun h => hM (Or.inr (Or.inl h))
      have h3 : p ≠ t.next + 1 := fun h => hM (Or.inr (Or.inr (Or.inl h)))
      have h4 : p ∉ movedOf pg := fun h => hM (Or.inr (Or.inr (Or.inr h)))
      refine ⟨hOpage p h1 h2 h3 h4, ?_⟩
      have a1 := addSib_agree G e.1 h2 h1 h4
      have a2 := addRoot_agree (G.addSib P t.next e.1 (movedOf pg)) h3 h1 h2
      exact ⟨fun h => a2.live (a1.live h), a2.par.trans a1.par, a2.lvl.trans a1.lvl,
        a2.lo.trans a1.lo, a2.hi.trans a1.hi⟩
    · intro p hM _
      rcases hM with h | h | h | h
      · rw [h]; exact ⟨_, hPpage, hPgood⟩
      · rw [h]; exact ⟨_, hNpage, hNgood⟩
      · rw [h]; exact ⟨_, hRpage, hRgood⟩
      · obtain ⟨c1, c2, c3, c4, c5, c6⟩ := hmv p h
        obtain ⟨cpg, hcpg, _⟩ := hg.page p c1
        refine ⟨cpg.SetParentPageId t.next, by rw [hCpage p h, hcpg]; rfl, ?_⟩
        refine movedChild_good hg hP hpg hl h hcpg hNI rfl rfl (hneR p c1) (hHpar p h)
          (Or.inr (Or.inl rfl)) (by simp [Ghost.addRoot, Ghost.addSib, hNR])
          ⟨_, hNpage, ?_⟩ ?_ ?_
        · exact h
        · intro x hx hxP
          have b1 := hne x hx
          have b2 := hneR x hx
          exact ⟨Or.inr (Or.inr hx), by simp [Ghost.addRoot, Ghost.addSib, b1, b2],
            by simp [Ghost.addRoot, Ghost.addSib, b1, b2],
            by simp [Ghost.addRoot, Ghost.addSib, b1, b2, hxP]⟩
        · intro x hx hxl
          have b1 := hne x hx
          have b2 := hneR x hx
          have hxm : x ∉ movedOf pg := fun h => by
            have := (hmv x h).2.2.1
            omega
          have hxP : x ≠ P := fun h => by
            rw [h] at hxl
            omega
          simp [Ghost.addRoot, Ghost.addSib, b1, b2, hxm, hxP]
    · intro p hM hp
      have h1 : p ≠ P := fun h => hM (Or.inl h)
      have h3 : p ≠ t.next + 1 := fun h => hM (Or.inr (Or.inr (Or.inl h)))
      show p = t.next + 1 ↔ p = t.root
      rw [← hr]
      exact ⟨fun h => absurd h h3, fun h => absurd h h1⟩
    · intro x hM hx hpx hMp
      rcases hM with h | h | h | h
      · rw [h, hgood.root_iff.2 hr] at hpx
        exact absurd rfl (live_ne_invalid hg hpx)
      · exact absurd (h ▸ hx) hNnl
      · exact absurd (h ▸ hx) hRnl
      · exact absurd (Or.inl (hmv x h).2.1) hMp
    · intro p qg _ hp hl0 hq _ hn
      obtain ⟨qg1, hq1, hqgood⟩ := hg.page p hp
      rw [hq] at hq1; cases hq1
      obtain ⟨a1, _, _⟩ := hqgood.next_ok hl0 hn
      have b1 := hne _ a1
      have b2 := hneR _ a1
      exact ⟨Or.inr (Or.inr a1), by simp [Ghost.addRoot, Ghost.addSib, b1, b2],
        by simp [Ghost.addRoot, Ghost.addSib, b1, b2]⟩
    · intro p hM hp hMp hpn
      have h4 : p ∉ movedOf pg := fun h => hM (Or.inr (Or.inr (Or.inr h)))
      obtain ⟨qg, hq, hqgood⟩ := hg.page p hp
      obtain ⟨a1, a2, ppg, a3, a4⟩ := hqgood.attached hpn
      rcases hMp with h | h | h | h
      · rw [h] at a3 ⊢
        rw [hpg] at a3; cases a3
        refine ⟨Or.inr (Or.inr hP), by simp [Ghost.addRoot, Ghost.addSib, hPN, hPR], _, hPpage,
          ?_⟩
        exact mem_take_of_not_moved a4 h4
      · exact absurd (h ▸ a1) hNnl
      · exact absurd (h ▸ a1) hRnl
      · obtain ⟨c1, _, _, _, c5, _⟩ := hmv _ h
        refine ⟨Or.inr (Or.inr c1), by simp [Ghost.addRoot, Ghost.addSib, c5, hneR _ c1],
          ppg.SetParentPageId t.next, by rw [hCpage _ h, a3]; rfl, a4⟩

  · intro k w
    constructor
    · rintro ⟨p, qg, hp, hlv, hq, hmem⟩
      by_cases h3 : p = t.next + 1
      · rw [h3] at hlv
        simp [Ghost.addRoot] at hlv
      · by_cases h2 : p = t.next
        · rw [h2] at hlv
          simp only [Ghost.addRoot, Ghost.addSib, hNR, if_true, if_false] at hlv
          exact absurd hlv hl
        · have hlv2 : G.lvl p = 0 := by
            simp only [Ghost.addRoot, Ghost.addSib, h2, h3, if_false] at hlv
            exact hlv
          have hp2 : G.live p := by
            rcases hp with hp | hp | hp
            · exact absurd hp h3
            · exact absurd hp h2
            · exact hp
          have h1 : p ≠ P := fun h => by rw [h] at hlv2; exact hl hlv2
          by_cases h4 : p ∈ movedOf pg
          · obtain ⟨cpg, hcpg, _⟩ := hg.page p hp2
            rw [hCpage p h4, hcpg] at hq
            cases hq
            exact ⟨p, cpg, hp2, hlv2, hcpg, hmem⟩
          · rw [hOpage p h1 h2 h3 h4] at hq
            exact ⟨p, qg, hp2, hlv2, hq, hmem⟩
    · rintro ⟨q, qg, hq1, hq2, hq3, hmem⟩
      have h2 : q ≠ t.next := hne q hq1
      have h3 : q ≠ t.next + 1 := hneR q hq1
      have h1 : q ≠ P := fun h => by rw [h] at hq2; exact hl hq2
      by_cases h4 : q ∈ movedOf pg
      · exact ⟨q, qg.SetParentPageId t.next, Or.inr (Or.inr hq1),
          by simp [Ghost.addRoot, Ghost.addSib, h2, h3, hq2],
          by rw [hCpage q h4, hq3]; rfl, hmem⟩
      · exact ⟨q, qg, Or.inr (Or.inr hq1), by simp [Ghost.addRoot, Ghost.addSib, h2, h3, hq2],
          by rw [hOpage q h1 h2 h3 h4]; exact hq3, hmem⟩

theorem TreeView.ext_pages {a b : TreeView} (h1 : ∀ p, a.pages p = b.pages p)
    (h2 : a.root = b.root) (h3 : a.lmax = b.lmax) (h4 : a.imax = b.imax)
    (h5 : a.next = b.next) : a = b := by
  cases a
  cases b
  simp only [TreeView.mk.injEq]
  exact ⟨funext h1, h2, h3, h4, h5⟩

theorem St.congr {s : TState} {v w : TreeView} {h : Multiset Int} {b : Bool}
    (hs : St s v h b) (hvw : v = w) : St s w h b := hvw ▸ hs

/-- Method `Split` on a leaf. -/
theorem SplitLeaf_spec {L : Int} {s : TState} {v : TreeView} {h : Multiset Int} {b : Bool}
    {pg : BPlusTreePage} (hs : St s v h b) (hn : v.next ∉ h) (hpg : v.pages L = some pg)
    (hLN : L ≠ v.next) {Q : page_id_t → TState → Prop}
    (hq : ∀ t, St t (v.splitLeaf L pg) (v.next ::ₘ h) b → Q v.next t) :
    wp (SplitLeaf L) Q s := by
  unfold SplitLeaf
  apply wp_bind_of
  apply wp_NewPage_st hs hn
  intro t1 h1
  simp only
  apply wp_bind_of
  apply wp_get_st
  have hl : t1.leaf_max_size_ = v.lmax := (view_lmax h1.1 : t1.leaf_max_size_ = v.alloc.lmax)
  rw [hl]
  apply wp_bind_of
  apply wp_getPage_st h1 (g := pg)
    (by simp [TreeView.alloc, Function.update_noteq hLN, hpg])
  apply wp_bind_of
  apply wp_modifyPage_st h1 (g := BPlusTreePage.zero) (by simp [TreeView.alloc])
  intro t2 h2
  apply wp_bind_of
  apply wp_modifyPage_st h2
    (g := BPlusTreePage.zero.InitLeaf v.next pg.parent_page_id_ v.lmax)
    (by simp [TreeView.setPage])
  intro t3 h3
  apply wp_bind_of
  apply wp_modifyPage_st h3 (g := pg)
    (by simp [TreeView.setPage, TreeView.alloc, Function.update_noteq hLN, hpg])
  intro t4 h4
  apply wp_bind_of
  unfold MoveHalfToLeaf
  apply wp_bind_of
  apply wp_getPage_st h4 (g := pg.SetNextPageId v.next) (by simp [TreeView.setPage])
  apply wp_bind_of
  apply wp_modifyPage_st h4
    (g := (BPlusTreePage.zero.InitLeaf v.next pg.parent_page_id_ v.lmax).SetNextPageId
      pg.next_page_id_)
    (by simp [TreeView.setPage, Function.update_noteq hLN.symm])
  intro t5 h5
  apply wp_modifyPage_st h5 (g := pg.SetNextPageId v.next)
    (by simp [TreeView.setPage, Function.update_noteq hLN])
  intro t6 h6
  rw [wp_pure]
  apply hq
  refine St.congr h6 (TreeView.ext_pages ?_ rfl rfl rfl rfl)
  intro p
  by_cases h1 : p = L
  · subst h1
    simp only [TreeView.setPage, TreeView.splitLeaf, Function.update_same]
    rfl
  · by_cases h2 : p = v.next
    · subst h2
      simp [TreeView.setPage, TreeView.splitLeaf, leafHigh, Function.update_noteq h1,
        BPlusTreePage.SetNextPageId, BPlusTreePage.GetMinSize, BPlusTreePage.InitLeaf]
    · simp [TreeView.setPage, TreeView.splitLeaf, TreeView.alloc, Function.update_noteq h1,
        Function.update_noteq h2]

/-- The branch of `InsertIntoParent` that creates a new root. -/
theorem InsertIntoParentRoot_spec {old new : Int} {key : KeyType} {s : TState}
    {v : TreeView} {h : Multiset Int} {b : Bool} {pgo pgn : BPlusTreePage}
    (hs : St s v h b) (hn : v.next ∉ h) (hpgo : v.pages old = some pgo)
    (hpgn : v.pages new = some pgn) (hon : old ≠ new) (hoN : old ≠ v.next)
    (hnN : new ≠ v.next) {Q : Unit → TState → Prop}
    (hq : ∀ t, St t (v.newRoot old key new pgo pgn) h b → Q () t) :
    wp (InsertIntoParentRoot old key new) Q s := by
  unfold InsertIntoParentRoot
  apply wp_bind_of
  apply wp_NewPage_st hs hn
  intro t1 h1
  simp only
  apply wp_bind_of
  apply wp_get_st
  have hl : t1.internal_max_size_ = v.imax :=
    (view_imax h1.1 : t1.internal_max_size_ = v.alloc.imax)
  rw [hl]
  apply wp_bind_of
  apply wp_getPage_st h1 (g := pgo)
    (by simp [TreeView.alloc, Function.update_noteq hoN, hpgo])
  apply wp_bind_of
  apply wp_getPage_st h1 (g := pgn)
    (by simp [TreeView.alloc, Function.update_noteq hnN, hpgn])
  apply wp_bind_of
  apply wp_modifyPage_st h1 (g := BPlusTreePage.zero) (by simp [TreeView.alloc])
  intro t2 h2
  apply wp_bind_of
  apply wp_modifyPage_st h2
    (g := BPlusTreePage.zero.InitInternal v.next INVALID_PAGE_ID v.imax)
    (by simp [TreeView.setPage])
  intro t3 h3
  apply wp_bind_of
  apply wp_modifyPage_st h3 (g := pgo)
    (by simp [TreeView.setPage, TreeView.alloc, Function.update_noteq hoN, hpgo])
  intro t4 h4
  apply wp_bind_of
  apply wp_modifyPage_st h4 (g := pgn)
    (by simp [TreeView.setPage, TreeView.alloc, Function.update_noteq hnN,
      Function.update_noteq hon.symm, hpgn])
  intro t5 h5
  apply wp_bind_of
  apply wp_setRoot_st h5
  intro t6 h6
  apply wp_bind_of
  apply wp_UnpinPage_st h6
  intro t7 h7
  apply wp_UpdateRootPageId_st false h7
  intro t8 h8
  apply hq
  refine St.congr h8 (TreeView.ext_pages ?_ rfl rfl rfl rfl)
  intro p
  by_cases h1 : p = new
  · subst h1
    simp [TreeView.setPage, TreeView.setRoot, TreeView.newRoot]
  · by_cases h2 : p = old
    · subst h2
      simp [TreeView.setPage, TreeView.setRoot, TreeView.newRoot, Function.update_noteq h1]
    · by_cases h3 : p = v.next
      · subst h3
        simp [TreeView.setPage, TreeView.setRoot, TreeView.newRoot, Function.update_noteq h1,
          Function.update_noteq h2, rootPage]
      · simp [TreeView.setPage, TreeView.setRoot, TreeView.newRoot, TreeView.alloc,
          Function.update_noteq h1, Function.update_noteq h2, Function.update_noteq h3]

theorem SetParentPageId_idem (pg : BPlusTreePage) (U : Int) :
    (pg.SetParentPageId U).SetParentPageId U = pg.SetParentPageId U := rfl

/-- Internal page `CopyNFrom`: the items are appended and the pages they point to are
adopted; no pin stays behind. -/
theorem CopyNFrom_spec (U : Int) :
    ∀ (items : List (KeyType × Int)) {s : TState} {w : TreeView} {h : Multiset Int} {b : Bool}
      {g : BPlusTreePage} {Q : Unit → TState → Prop},
      St s w h b → w.pages U = some g → g.page_id_ = U →
      (∀ x ∈ items, x.2 ≠ U ∧ ∃ cpg, w.pages x.2 = some cpg) →
      (∀ t, St t (copyView w U g items) h b → Q () t) →
      wp (CopyNFrom U items) Q s := by
  intro items
  induction items with
  | nil =>
    intro s w h b g Q hs hU _ _ hq
    unfold CopyNFrom
    rw [wp_pure]
    apply hq
    refine St.congr hs (TreeView.ext_pages ?_ rfl rfl rfl rfl)
    intro p
    by_cases hp : p = U
    · subst hp
      simp [copyView, reparent, hU]
    · simp [copyView, reparent, Function.update_noteq hp]
  | cons x rest ih =>
    intro s w h b g Q hs hU hid hall hq
    obtain ⟨hxU, cpg, hcpg⟩ := hall x (List.mem_cons_self _ _)
    unfold CopyNFrom
    apply wp_bind_of
    apply wp_modifyPage_st hs hU
    intro t1 h1
    apply wp_bind_of
    apply wp_getPage_st h1 (g := { g with array := g.array ++ [x] })
      (by simp [TreeView.setPage])
    apply wp_bind_of
    unfold REPLACE
    apply wp_bind_of
    apply wp_FetchPage_st h1 (g := cpg)
      (by simp [TreeView.setPage, Function.update_noteq hxU, hcpg])
    intro t2 h2
    apply wp_bind_of
    apply wp_WLatch_st h2
    intro t3 h3
    apply wp_bind_of
    apply wp_modifyPage_st h3 (g := cpg)
      (by simp [TreeView.setPage, Function.update_noteq hxU, hcpg])
    intro t4 h4
    apply wp_bind_of
    apply wp_WUnlatch_st h4
    intro t5 h5
    apply wp_bind_of
    apply wp_UnpinPage_st h5
    intro t6 h6
    rw [wp_pure]
    have h6b := St.congr h6 (congrArg (fun z =>
      (w.setPage U { g with array := g.array ++ [x] }).setPage x.2
        (cpg.SetParentPageId z)) hid)
    refine ih h6b (g := { g with array := g.array ++ [x] }) ?_ hid ?_ ?_
    · simp [TreeView.setPage, Function.update_noteq (Ne.symm hxU)]
    · intro y hy
      obtain ⟨hyU, ypg, hypg⟩ := hall y (List.mem_cons_of_mem _ hy)
      refine ⟨hyU, ?_⟩
      by_cases hyx : y.2 = x.2
      · exact ⟨cpg.SetParentPageId U, by simp [TreeView.setPage, hyx]⟩
      · exact ⟨ypg, by simp [TreeView.setPage, Function.update_noteq hyx,
          Function.update_noteq hyU, hypg]⟩
    · intro t ht
      apply hq
      refine St.congr ht (TreeView.ext_pages ?_ rfl rfl rfl rfl)
      intro p
      by_cases hp : p = U
      · subst hp
        have h1 : p ∉ rest.map Prod.snd := by
          intro hm
          obtain ⟨y, hy, hyp⟩ := List.mem_map.1 hm
          exact (hall y (List.mem_cons_of_mem _ hy)).1 hyp
        have h2 : p ∉ (x :: rest).map Prod.snd := by
          intro hm
          obtain ⟨y, hy, hyp⟩ := List.mem_map.1 hm
          exact (hall y hy).1 hyp
        simp only [copyView, reparent, h1, h2, if_false, Function.update_same]
        simp
      · by_cases hpx : p = x.2
        · subst hpx
          by_cases hr : x.2 ∈ rest.map Prod.snd
          · simp [copyView, reparent, hr, TreeView.setPage, Function.update_noteq hp, hcpg,
              SetParentPageId_idem]
          · simp [copyView, reparent, hr, TreeView.setPage, Function.update_noteq hp, hcpg]
        · have hne : ¬ (p = x.2) := hpx
          by_cases hr : p ∈ rest.map Prod.snd
          · simp [copyView, reparent, hr, TreeView.setPage, Function.update_noteq hp,
              Function.update_noteq hpx]
          · simp [copyView, reparent, hr, hne, TreeView.setPage, Function.update_noteq hp,
              Function.update_noteq hpx]

/-- Method `Split` on an internal page. -/
theorem SplitInternal_spec {P : Int} {s : TState} {w : TreeView} {h : Multiset Int}
    {b : Bool} {pg : BPlusTreePage} (hs : St s w h b) (hn : w.next ∉ h)
    (hpg : w.pages P = some pg) (hPN : P ≠ w.next)
    (hmv : ∀ c ∈ movedOf pg, c ≠ w.next ∧ c ≠ P ∧ ∃ cpg, w.pages c = some cpg)
    {Q : page_id_t → TState → Prop}
    (hq : ∀ t, St t (w.splitInt P pg) (w.next ::ₘ h) b → Q w.next t) :
    wp (SplitInternal P) Q s := by
  unfold SplitInternal
  apply wp_bind_of
  apply wp_NewPage_st hs hn
  intro t1 h1
  simp only
  apply wp_bind_of
  apply wp_get_st
  have hl : t1.internal_max_size_ = w.imax :=
    (view_imax h1.1 : t1.internal_max_size_ = w.alloc.imax)
  rw [hl]
  apply wp_bind_of
  apply wp_getPage_st h1 (g := pg)
    (by simp [TreeView.alloc, Function.update_noteq hPN, hpg])
  apply wp_bind_of
  apply wp_modifyPage_st h1 (g := BPlusTreePage.zero) (by simp [TreeView.alloc])
  intro t2 h2
  apply wp_bind_of
  unfold MoveHalfToInternal
  apply wp_bind_of
  apply wp_getPage_st h2 (g := pg)
    (by simp [TreeView.setPage, TreeView.alloc, Function.update_noteq hPN, hpg])
  apply wp_bind_of
  have hPm : P ∉ movedOf pg := fun hm => (hmv P hm).2.1 rfl
  have hNm : w.next ∉ movedOf pg := fun hm => (hmv _ hm).1 rfl
  refine CopyNFrom_spec w.next (pg.array.drop pg.GetMinSize) h2
    (g := BPlusTreePage.zero.InitInternal w.next pg.parent_page_id_ w.imax)
    (by simp [TreeView.setPage]) rfl ?_ ?_
  · intro x hx
    have hxm : x.2 ∈ movedOf pg := List.mem_map.2 ⟨x, hx, rfl⟩
    obtain ⟨c1, c2, cpg, c3⟩ := hmv _ hxm
    exact ⟨c1, cpg, by simp [TreeView.setPage, TreeView.alloc, Function.update_noteq c1, c3]⟩
  · intro t3 h3
    apply wp_modifyPage_st h3 (g := pg)
      (by
        have : P ∉ List.drop pg.GetMinSize (List.map Prod.snd pg.array) := by
          rw [← List.map_drop]; exact hPm
        simp [copyView, reparent, this, TreeView.setPage, TreeView.alloc,
          Function.update_noteq hPN, hpg])
    intro t4 h4
    rw [wp_pure]
    apply hq
    refine St.congr h4 (TreeView.ext_pages ?_ rfl rfl rfl rfl)
    intro p
    by_cases h1 : p = P
    · subst h1
      simp [TreeView.setPage, TreeView.splitInt, reparent, hPm]
      rfl
    · by_cases h2 : p = w.next
      · subst h2
        have : w.next ∉ List.drop pg.GetMinSize (List.map Prod.snd pg.array) := by
          rw [← List.map_drop]; exact hNm
        simp [TreeView.setPage, TreeView.splitInt, reparent, hNm, this, copyView,
          Function.update_noteq h1, intHigh, BPlusTreePage.InitInternal]
      · by_cases h3 : p ∈ movedOf pg
        · have : p ∈ List.drop pg.GetMinSize (List.map Prod.snd pg.array) := by
            rw [← List.map_drop]; exact h3
          simp [TreeView.setPage, TreeView.splitInt, reparent, h3, this, copyView,
            Function.update_noteq h1, Function.update_noteq h2, TreeView.alloc]
        · have : p ∉ List.drop pg.GetMinSize (List.map Prod.snd pg.array) := by
            rw [← List.map_drop]; exact h3
          simp [TreeView.setPage, TreeView.splitInt, reparent, h3, this, copyView,
            Function.update_noteq h1, Function.update_noteq h2, TreeView.alloc]

/-- The path recorded in the page set depends only on the pages from the node up. -/
theorem PathQ_congr {t u : TreeView} {G H : Ghost} {ins : Bool} (hroot : u.root = t.root) :
    ∀ (queue : List Int) (node : Int), PathQ t G ins node queue → G.live node →
      (∀ x, G.live x → G.lvl node ≤ G.lvl x →
        H.live x ∧ H.par x = G.par x ∧ H.lvl x = G.lvl x) →
      (∀ x, G.live x → G.lvl node < G.lvl x → u.pages x = t.pages x) →
      PathQ u H ins node queue := by
  intro queue
  induction queue with
  | nil =>
    intro node hp _ _ _
    show node = u.root
    rw [hroot]
    exact hp
  | cons q rest ih =>
    intro node hp hl hag hpg
    obtain ⟨h1, h2, h3, h4, h5⟩ := hp
    obtain ⟨a1, a2, a3⟩ := hag node hl (le_refl _)
    obtain ⟨b1, b2, b3⟩ := hag q h3 (by omega)
    refine ⟨by rw [hroot]; exact h1, by rw [a2]; exact h2, b1, by rw [b3, a3]; exact h4, ?_⟩
    rcases h5 with ⟨⟨pg, hpg1, hsafe⟩, hr⟩ | h5
    · exact Or.inl ⟨⟨pg, by rw [hpg q h3 (by omega)]; exact hpg1, hsafe⟩, hr⟩
    · refine Or.inr (ih q h5 h3 ?_ ?_)
      · intro x hx hlx
        exact hag x hx (by omega)
      · intro x hx hlx
        exact hpg x hx (by omega)

theorem index_of_mem_snd {arr : List (KeyType × Int)} {c : Int}
    (h : ∃ e ∈ arr, e.2 = c) :
    ∃ (i : Nat) (f : KeyType × Int), arr[i]? = some f ∧ f.2 = c := by
  obtain ⟨e, he, hc⟩ := h
  obtain ⟨i, hi⟩ := List.getElem?_of_mem he
  exact ⟨i, e, hi, hc⟩

/-- After the split of a leaf, the split is pending. -/
theorem Pend_splitLeaf {v : TreeView} {G : Ghost} (hg : Good v G none) {L : Int}
    {pg : BPlusTreePage} (hL : G.live L) (h0 : G.lvl L = 0) (hpg : v.pages L = some pg)
    {e : KeyType × Int} (he : pg.array[pg.GetMinSize]? = some e) {queue : List Int}
    (hq : PathQ v G true L queue) :
    ∃ H, Pend (v.splitLeaf L pg) H (Stored v G) L e.1 v.next queue := by
  obtain ⟨pg1, hpg1, hgood⟩ := hg.page L hL
  rw [hpg] at hpg1; cases hpg1
  have hNnl : ¬ G.live v.next := fun h => absurd (hg.live_range _ h).2 (lt_irrefl _)
  have hLN : L ≠ v.next := fun h => hNnl (h ▸ hL)
  have hne : ∀ p, G.live p → p ≠ v.next := fun p hp h => hNnl (h ▸ hp)
  have hLp : (v.splitLeaf L pg).pages L = some (leafLow pg v.next) := by
    simp [TreeView.splitLeaf]
  have hNp : (v.splitLeaf L pg).pages v.next = some (leafHigh pg v.next v.lmax) := by
    simp [TreeView.splitLeaf, Function.update_noteq hLN.symm]
  have hql := PathQ_live queue L hq
  have hqn : ∀ q ∈ queue, q < (v.splitLeaf L pg).next := fun q hq1 =>
    lt_trans (hg.live_range q (hql q hq1)).2 (lt_add_one _)
  have hLn : L < (v.splitLeaf L pg).next := lt_trans (hg.live_range L hL).2 (lt_add_one _)
  have hnn : (0 : Int) ≤ (v.splitLeaf L pg).next :=
    le_trans hg.next_nonneg (le_of_lt (lt_add_one _))
  by_cases hr : L = v.root
  · obtain ⟨h1, h2⟩ := Good_splitLeaf_root hg hL h0 hpg he hr
    refine ⟨_, leafLow pg v.next, leafHigh pg v.next v.lmax, hLp, hNp, hgood.id, rfl, hLN,
      hLn, lt_add_one _, hqn, hnn, Or.inl ⟨?_, h1, h2⟩⟩
    show decide (pg.parent_page_id_ = INVALID_PAGE_ID) = true
    rw [hgood.parent, hgood.root_iff.2 hr]
    rfl
  · obtain ⟨hPl, hPlvl, ppg, hppg, hPgood, hmem⟩ := parent_facts hg hL hr
    obtain ⟨i, f, hi, hf⟩ := index_of_mem_snd hmem
    obtain ⟨h1, h2⟩ := Good_splitLeaf_parent hg hL h0 hpg he hr hppg hi hf
    have hPL : G.par L ≠ L := fun h => by rw [h] at hPlvl; omega
    have hPN : G.par L ≠ v.next := hne _ hPl
    have hPp : (v.splitLeaf L pg).pages (G.par L) = some ppg := by
      simp [TreeView.splitLeaf, Function.update_noteq hPL, Function.update_noteq hPN, hppg]
    cases queue with
    | nil => exact absurd hq hr
    | cons q rest =>
      obtain ⟨_, q2, q3, q4, q5⟩ := hq
      subst q2
      refine ⟨_, leafLow pg v.next, leafHigh pg v.next v.lmax, hLp, hNp, hgood.id, rfl, hLN,
        hLn, lt_add_one _, hqn, hnn, Or.inr ⟨?_, G.par L, rest, ppg, i, f, rfl, hPp, hi, hf,
          h1, h2, Or.inr hPl, ?_, Or.inl rfl, ?_, ?_⟩⟩
      · show decide (pg.parent_page_id_ = INVALID_PAGE_ID) = false
        rw [hgood.parent]
        simp only [decide_eq_false_iff_not]
        exact fun h => hr (hgood.root_iff.1 h)
      · simp only [Ghost.addSib, hPN, if_false]
        omega
      · simp [Ghost.addSib]
      · rcases q5 with ⟨⟨qg, hqg, hsafe⟩, hrest⟩ | q5
        · rw [hppg] at hqg; cases hqg
          exact Or.inl ⟨hsafe, hrest⟩
        · right
          apply PathQ_congr (t := v) (G := G) ?_ rest (G.par L) q5 hPl
          · intro x hx hlx
            have hxN := hne x hx
            have hxL : x ≠ L := fun h => by rw [h] at hlx; omega
            have ag := addSib_agree G e.1 hxN hxL (List.not_mem_nil _)
            exact ⟨ag.live hx, ag.par, ag.lvl⟩
          · intro x hx hlx
            have hxN := hne x hx
            have hxL : x ≠ L := fun h => by rw [h] at hlx; omega
            have hxP : x ≠ G.par L := fun h => by rw [h] at hlx; omega
            simp [TreeView.setPage, TreeView.splitLeaf, Function.update_noteq hxN,
              Function.update_noteq hxL, Function.update_noteq hxP]
          · rfl

/-- After the split of an internal page, the split is pending one level up. -/
theorem Pend_splitInt {t : TreeView} {G : Ghost} {S : KeyType → ValueType → Prop}
    (hg : Good t G none) (hS : ∀ k w, Stored t G k w ↔ S k w) {P : Int}
    {pg : BPlusTreePage} (hP : G.live P) (hl : G.lvl P ≠ 0) (hpg : t.pages P = some pg)
    {e e2 : KeyType × Int} (hm : 2 ≤ pg.GetMinSize)
    (he : pg.array[pg.GetMinSize]? = some e)
    (he2 : pg.array[pg.GetMinSize + 1]? = some e2) {rest : List Int}
    (hq : PathQ t G true P rest) :
    ∃ H, Pend (t.splitInt P pg) H S P e.1 t.next rest := by
  obtain ⟨pg1, hpg1, hgood⟩ := hg.page P hP
  rw [hpg] at hpg1; cases hpg1
  have hNnl : ¬ G.live t.next := fun h => absurd (hg.live_range _ h).2 (lt_irrefl _)
  have hPN : P ≠ t.next := fun h => hNnl (h ▸ hP)
  have hne : ∀ p, G.live p → p ≠ t.next := fun p hp h => hNnl (h ▸ hp)
  have hmv : ∀ c, c ∈ movedOf pg →
      G.live c ∧ G.par c = P ∧ G.lvl c + 1 = G.lvl P ∧ c ≠ P ∧ c ≠ t.next ∧ c ≠ t.root :=
    fun c hc => moved_facts hg hP hpg hl hc
  have hPm : P ∉ movedOf pg := fun h => (hmv P h).2.2.2.1 rfl
  have hNm : t.next ∉ movedOf pg := fun h => (hmv _ h).2.2.2.2.1 rfl
  have hPp : (t.splitInt P pg).pages P = some (intLow pg) := by
    simp [TreeView.splitInt, reparent, hPm]
  have hNp : (t.splitInt P pg).pages t.next = some (intHigh pg t.next t.imax) := by
    simp [TreeView.splitInt, reparent, hNm, Function.update_noteq hPN.symm]
  have hql := PathQ_live rest P hq
  have hqn : ∀ q ∈ rest, q < (t.splitInt P pg).next := fun q hq1 =>
    lt_trans (hg.live_range q (hql q hq1)).2 (lt_add_one _)
  have hPn : P < (t.splitInt P pg).next := lt_trans (hg.live_range P hP).2 (lt_add_one _)
  have hnn : (0 : Int) ≤ (t.splitInt P pg).next :=
    le_trans hg.next_nonneg (le_of_lt (lt_add_one _))
  by_cases hr : P = t.root
  · obtain ⟨h1, h2⟩ := Good_splitInt_root hg hP hl hpg hm he he2 hr
    refine ⟨_, intLow pg, intHigh pg t.next t.imax, hPp, hNp, hgood.id, rfl, hPN,
      hPn, lt_add_one _, hqn, hnn, Or.inl ⟨?_, h1, fun k w => (h2 k w).trans (hS k w)⟩⟩
    show decide (pg.parent_page_id_ = INVALID_PAGE_ID) = true
    rw [hgood.parent, hgood.root_iff.2 hr]
    rfl
  · obtain ⟨hGl, hGlvl, gpg, hgpg, hGgood, hmem⟩ := parent_facts hg hP hr
    obtain ⟨i, f, hi, hf⟩ := index_of_mem_snd hmem
    obtain ⟨h1, h2⟩ := Good_splitInt_parent hg hP hl hpg hm he he2 hr hgpg hi hf
    have hGP : G.par P ≠ P := fun h => by rw [h] at hGlvl; omega
    have hGN : G.par P ≠ t.next := hne _ hGl
    have hGm : G.par P ∉ movedOf pg := fun h => by
      have := (hmv _ h).2.2.1
      omega
    have hGp : (t.splitInt P pg).pages (G.par P) = some gpg := by
      simp [TreeView.splitInt, reparent, hGm, Function.update_noteq hGP,
        Function.update_noteq hGN, hgpg]
    cases rest with
    | nil => exact absurd hq hr
    | cons q rest2 =>
      obtain ⟨_, q2, q3, q4, q5⟩ := hq
      subst q2
      refine ⟨_, intLow pg, intHigh pg t.next t.imax, hPp, hNp, hgood.id, rfl, hPN,
        hPn, lt_add_one _, hqn, hnn, Or.inr ⟨?_, G.par P, rest2, gpg, i, f, rfl, hGp, hi, hf,
          h1, fun k w => (h2 k w).trans (hS k w), Or.inr hGl, ?_, Or.inl rfl, ?_, ?_⟩⟩
      · show decide (pg.parent_page_id_ = INVALID_PAGE_ID) = false
        rw [hgood.parent]
        simp only [decide_eq_false_iff_not]
        exact fun h => hr (hgood.root_iff.1 h)
      · simp only [Ghost.addSib, hGN, if_false]
        omega
      · simp [Ghost.addSib]
      · rcases q5 with ⟨⟨qg, hqg, hsafe⟩, hrest⟩ | q5
        · rw [hgpg] at hqg; cases hqg
          exact Or.inl ⟨hsafe, hrest⟩
        · right
          apply PathQ_congr (t := t) (G := G) ?_ rest2 (G.par P) q5 hGl
          · intro x hx hlx
            have hxN := hne x hx
            have hxP : x ≠ P := fun h => by rw [h] at hlx; omega
            have hxm : x ∉ movedOf pg := fun h => by
              have := (hmv _ h).2.2.1
              omega
            have ag := addSib_agree G e.1 hxN hxP hxm
            exact ⟨ag.live hx, ag.par, ag.lvl⟩
          · intro x hx hlx
            have hxN := hne x hx
            have hxP : x ≠ P := fun h => by rw [h] at hlx; omega
            have hxG : x ≠ G.par P := fun h => by rw [h] at hlx; omega
            have hxm : x ∉ movedOf pg := fun h => by
              have := (hmv _ h).2.2.1
              omega
            simp [TreeView.setPage, TreeView.splitInt, reparent, hxm,
              Function.update_noteq hxN, Function.update_noteq hxP, Function.update_noteq hxG]
          · rfl

theorem insert_split_notlast {α : Type} (B : List α) (last x : α) (i : Nat)
    (hi : i + 1 ≤ B.length) :
    (B ++ [last]).take (i + 1) ++ x :: (B ++ [last]).drop (i + 1) =
      (B.take (i + 1) ++ x :: B.drop (i + 1)) ++ [last] := by
  rw [List.take_append_of_le_length hi, List.drop_append_of_le_length hi]
  simp

theorem insert_split_last {α : Type} (A : List α) (x : α) (i : Nat)
    (hi : i + 1 = A.length) : A.take (i + 1) ++ x :: A.drop (i + 1) = A ++ [x] := by
  rw [hi, List.take_length, List.drop_length]

theorem eq_dropLast_append {α : Type} {A : List α} {last : α}
    (h : A[A.length - 1]? = some last) : A = A.dropLast ++ [last] := by
  obtain ⟨hlen, hv⟩ := List.getElem?_eq_some_iff.1 h
  have hne : A ≠ [] := by
    intro h0
    rw [h0] at hlen
    simp at hlen
  have := List.dropLast_append_getLast hne
  rw [List.getLast_eq_getElem] at this
  rw [hv] at this
  exact this.symm

theorem slot_last {pg : BPlusTreePage} (h : pg.array ≠ []) :
    pg.slot? ((pg.GetSize : Int) - 1) = pg.array[pg.array.length - 1]? := by
  have hpos : 0 < pg.array.length := List.length_pos.2 h
  unfold BPlusTreePage.slot? BPlusTreePage.GetSize
  have h1 : (0 : Int) ≤ (pg.array.length : Int) - 1 := by omega
  rw [if_pos h1]
  congr 1
  omega

theorem slot_zero (pg : BPlusTreePage) : pg.slot? 0 = pg.array[0]? := by
  unfold BPlusTreePage.slot?
  simp

/-- The pair placed behind the last slot of a page with distinct children goes to the
end. -/
theorem InsertNodeAfter_last {pg : BPlusTreePage} {ul : KeyType × Int}
    (hn : (pg.array.map Prod.snd).Nodup) (hl : pg.array[pg.array.length - 1]? = some ul)
    (key : KeyType) (new : Int) :
    pg.InsertNodeAfter ul.2 key new = some { pg with array := pg.array ++ [(key, new)] } := by
  obtain ⟨hlen, _⟩ := List.getElem?_eq_some_iff.1 hl
  have h1 : (pg.array.map Prod.snd)[pg.array.length - 1]? = some ul.2 := by
    rw [List.getElem?_map, hl]; rfl
  have h2 := findIdx_of_nodup _ _ ul.2 hn h1
  rw [List.findIdx?_map] at h2
  unfold BPlusTreePage.InsertNodeAfter BPlusTreePage.ValueIndex
  have h3 : List.findIdx? (fun e => decide (e.2 = ul.2)) pg.array =
      some (pg.array.length - 1) := h2
  rw [h3]
  simp only [Option.map_some', BPlusTreePage.InsertNodeAfterAt]
  have h4 : pg.array.length - 1 + 1 = pg.array.length := by omega
  rw [h4, List.take_length, List.drop_length]

/-- The view reached by the internal split in `InsertIntoParent`, where the last pair is
held back during `Split` and appended to the new page afterwards. -/
theorem splitInt_last {a : TreeView} {P : Int} {ppg cx : BPlusTreePage}
    {W : List (KeyType × Int)} {x : KeyType × Int}
    (hm : ppg.GetMinSize ≤ W.length)
    (hx : a.pages x.2 = some cx) (hxP : x.2 ≠ P) (hxU : x.2 ≠ a.next)
    (hPU : P ≠ a.next)
    (hPm : P ∉ ((W ++ [x]).drop ppg.GetMinSize).map Prod.snd)
    (hUm : a.next ∉ ((W ++ [x]).drop ppg.GetMinSize).map Prod.snd) :
    ((((a.setPage P { ppg with array := W }).splitInt P { ppg with array := W }).setPage
        a.next (intHigh { ppg with array := W ++ [x] } a.next a.imax)).setPage x.2
        (cx.SetParentPageId a.next)) =
      (a.setPage P { ppg with array := W ++ [x] }).splitInt P
        { ppg with array := W ++ [x] } := by
  have hdrop : (W ++ [x]).drop ppg.GetMinSize = W.drop ppg.GetMinSize ++ [x] :=
    List.drop_append_of_le_length hm
  have htake : (W ++ [x]).take ppg.GetMinSize = W.take ppg.GetMinSize :=
    List.take_append_of_le_length hm
  have hmv : ∀ p, p ∈ movedOf { ppg with array := W ++ [x] } ↔
      p ∈ movedOf { ppg with array := W } ∨ p = x.2 := by
    intro p
    show p ∈ ((W ++ [x]).drop ppg.GetMinSize).map Prod.snd ↔
      p ∈ (W.drop ppg.GetMinSize).map Prod.snd ∨ p = x.2
    rw [hdrop]
    simp
  have hPm1 : P ∉ movedOf { ppg with array := W ++ [x] } := hPm
  have hUm1 : a.next ∉ movedOf { ppg with array := W ++ [x] } := hUm
  have hPm2 : P ∉ movedOf { ppg with array := W } := fun h => hPm1 ((hmv P).2 (Or.inl h))
  have hUm2 : a.next ∉ movedOf { ppg with array := W } :=
    fun h => hUm1 ((hmv _).2 (Or.inl h))
  have hxm1 : x.2 ∈ movedOf { ppg with array := W ++ [x] } := (hmv _).2 (Or.inr rfl)
  refine TreeView.ext_pages ?_ rfl rfl rfl rfl
  intro p
  by_cases h1 : p = x.2
  · subst h1
    simp [TreeView.setPage, TreeView.splitInt, reparent, hxm1, Function.update_noteq hxP,
      Function.update_noteq hxU, hx]
  · by_cases h2 : p = a.next
    · subst h2
      simp [TreeView.setPage, TreeView.splitInt, reparent, hUm1, Function.update_noteq h1,
        Function.update_noteq hPU.symm]
    · by_cases h3 : p = P
      · subst h3
        simp only [TreeView.setPage, TreeView.splitInt, reparent, hPm1, hPm2, if_false,
          Function.update_noteq h1, Function.update_noteq h2, Function.update_same]
        show some (intLow { ppg with array := W }) = some (intLow { ppg with array := W ++ [x] })
        simp only [intLow, BPlusTreePage.SetSize, BPlusTreePage.GetMinSize]
        have := htake
        simp only [BPlusTreePage.GetMinSize] at this
        rw [this]
      · by_cases h4 : p ∈ movedOf { ppg with array := W }
        · have h5 : p ∈ movedOf { ppg with array := W ++ [x] } := (hmv p).2 (Or.inl h4)
          simp [TreeView.setPage, TreeView.splitInt, reparent, h4, h5,
            Function.update_noteq h1, Function.update_noteq h2, Function.update_noteq h3]
        · have h5 : p ∉ movedOf { ppg with array := W ++ [x] } := fun h =>
            ((hmv p).1 h).elim h4 h1
          simp [TreeView.setPage, TreeView.splitInt, reparent, h4, h5,
            Function.update_noteq h1, Function.update_noteq h2, Function.update_noteq h3]

theorem not_mem_of_lt {M : Multiset Int} {n : Int} (h : ∀ p ∈ M, p < n) : n ∉ M :=
  fun hn => absurd (h n hn) (lt_irrefl _)

theorem held_rearrange (U P new old : Int) (rest : List Int) (h : Multiset Int) :
    U ::ₘ new ::ₘ old ::ₘ (((P :: rest : List Int) : Multiset Int) + h) =
      U ::ₘ P ::ₘ ((rest : Multiset Int) + (new ::ₘ old ::ₘ h)) := by
  rw [← Multiset.cons_coe, Multiset.cons_add, Multiset.add_cons, Multiset.add_cons,
    Multiset.cons_swap old P, Multiset.cons_swap new P]

theorem held_head (P new old : Int) (rest : List Int) (h : Multiset Int) :
    new ::ₘ old ::ₘ (((P :: rest : List Int) : Multiset Int) + h) =
      P ::ₘ new ::ₘ old ::ₘ ((rest : Multiset Int) + h) := by
  rw [← Multiset.cons_coe, Multiset.cons_add, Multiset.cons_swap old P,
    Multiset.cons_swap new P]

theorem nodup_of_insert {α : Type} {A : List α} {k : Nat} {x : α}
    (h : (A.take k ++ x :: A.drop k).Nodup) : A.Nodup ∧ x ∉ A := by
  rw [List.nodup_middle, List.nodup_cons, List.take_append_drop] at h
  exact ⟨h.2, h.1⟩

theorem getElem?_insert_mid {α : Type} (A : List α) (i : Nat) (x : α) (hi : i < A.length) :
    (A.take (i + 1) ++ x :: A.drop (i + 1))[i + 1]? = some x := by
  have hl : (A.take (i + 1)).length = i + 1 := by
    rw [List.length_take]; omega
  rw [List.getElem?_append_right (by omega), hl]
  simp

theorem getElem?_append_last {α : Type} (W : List α) (x : α) :
    (W ++ [x])[W.length]? = some x := by
  rw [List.getElem?_append_right (le_refl _)]
  simp

/-- What the pending split tells about the parent when the parent is full. -/
theorem Pend_parent_facts {a : TreeView} {G : Ghost} {P : Int} {ppg : BPlusTreePage}
    {i : Nat} {f : KeyType × Int} {key : KeyType} {new : Int}
    (hg : Good (a.setPage P (ppg.InsertNodeAfterAt i key new)) G none) (hP : G.live P)
    (hl : G.lvl P ≠ 0) (hi : ppg.array[i]? = some f) :
    PageGood (a.setPage P (ppg.InsertNodeAfterAt i key new)) G none P
        (ppg.InsertNodeAfterAt i key new) ∧
      (ppg.array.map Prod.snd).Nodup ∧ new ∉ ppg.array.map Prod.snd ∧
      ppg.ValueIndex f.2 = some i ∧
      (∀ y ∈ (ppg.InsertNodeAfterAt i key new).array, G.live y.2 ∧ y.2 ≠ P ∧ y.2 ≠ a.next ∧
        ∃ cpg, a.pages y.2 = some cpg) := by
  obtain ⟨vpg, hvpg, hvgood⟩ := hg.page P hP
  have e1 : (a.setPage P (ppg.InsertNodeAfterAt i key new)).pages P =
      some (ppg.InsertNodeAfterAt i key new) := by simp [TreeView.setPage]
  rw [e1] at hvpg
  cases hvpg
  have hseg := hvgood.int_seg hl
  have hnd := Seg_nodup _ hseg
  have hnd2 : ((ppg.array.map Prod.snd).take (i + 1) ++
      new :: (ppg.array.map Prod.snd).drop (i + 1)).Nodup := by
    simpa [BPlusTreePage.InsertNodeAfterAt, List.map_take, List.map_drop] using hnd
  obtain ⟨n1, n2⟩ := nodup_of_insert hnd2
  refine ⟨hvgood, n1, n2, ?_, ?_⟩
  · unfold BPlusTreePage.ValueIndex
    have h1 : (ppg.array.map Prod.snd)[i]? = some f.2 := by
      rw [List.getElem?_map, hi]; rfl
    have := findIdx_of_nodup _ i f.2 n1 h1
    rw [List.findIdx?_map] at this
    exact this
  · intro y hy
    obtain ⟨c1, _, c3, _⟩ := Seg_child hseg y hy
    have hyP : y.2 ≠ P := fun h => by rw [h] at c3; omega
    obtain ⟨cpg, hcpg, _⟩ := hg.page _ c1
    refine ⟨c1, hyP, ?_, cpg, ?_⟩
    · intro h
      have := (hg.live_range _ c1).2
      rw [h] at this
      exact absurd this (lt_irrefl _)
    · simpa [TreeView.setPage, Function.update_noteq hyP] using hcpg

theorem setArray_self (pg : BPlusTreePage) : ({ pg with array := pg.array } : BPlusTreePage) = pg := by
  cases pg
  rfl

theorem setPage_self {a : TreeView} {P : Int} {pg : BPlusTreePage} (h : a.pages P = some pg) :
    a.setPage P pg = a := by
  refine TreeView.ext_pages ?_ rfl rfl rfl rfl
  intro p
  by_cases hp : p = P
  · subst hp
    simp [TreeView.setPage, h]
  · simp [TreeView.setPage, Function.update_noteq hp]

theorem mem_of_append_last {α : Type} {V W : List α} {x y : α} (hV : V = W ++ [x])
    (hy : y ∈ W) : y ∈ V := by
  rw [hV]
  exact List.mem_append_left _ hy

/-- The first step of the split branch of `InsertIntoParent`: the last pair of the parent
with the new pair in place is held back. -/
theorem holdBack_spec {a : TreeView} {G : Ghost} {old new P : Int} {key : KeyType}
    {ppg pgo pgn : BPlusTreePage} {i : Nat} {f last : KeyType × Int} {h : Multiset Int}
    {b : Bool} {s : TState} (hs : St s a h b)
    (hpo : pgo.page_id_ = old) (hpn : pgn.page_id_ = new)
    (hpp : a.pages P = some ppg) (hi : ppg.array[i]? = some f) (hf : f.2 = old)
    (hg : Good (a.setPage P (ppg.InsertNodeAfterAt i key new)) G none) (hP : G.live P)
    (hl : G.lvl P ≠ 0) (hlast : ppg.array[ppg.array.length - 1]? = some last)
    (hn : 2 ≤ ppg.array.length) :
    wp (if comparator_ key last.1 < 0 then do
          let parent_new ← TM.ofOption
            (ppg.DecreaseSize.InsertNodeAfter pgo.page_id_ key pgn.page_id_)
          modifyPage P (fun _ => parent_new)
          pure last
        else pure (key, pgn.page_id_))
      (fun temp t => ∃ W, (ppg.InsertNodeAfterAt i key new).array = W ++ [temp] ∧
        W.length = ppg.array.length ∧ St t (a.setPage P { ppg with array := W }) h b) s := by
  obtain ⟨hvgood, hnd, hnew, hvi, hch⟩ := Pend_parent_facts hg hP hl hi
  have hasc := Seg_keys_ascending (hvgood.int_seg hl)
  obtain ⟨hin, _⟩ := List.getElem?_eq_some_iff.1 hi
  have hVi : (ppg.InsertNodeAfterAt i key new).array[i + 1]? = some (key, new) :=
    getElem?_insert_mid ppg.array i (key, new) hin
  have hA := eq_dropLast_append hlast
  have hBlen : ppg.array.dropLast.length = ppg.array.length - 1 := List.length_dropLast _
  rw [hpo, hpn]
  by_cases hin1 : i + 1 < ppg.array.length
  · have hV : (ppg.InsertNodeAfterAt i key new).array =
        (ppg.array.dropLast.take (i + 1) ++ (key, new) :: ppg.array.dropLast.drop (i + 1)) ++
          [last] := by
      show ppg.array.take (i + 1) ++ (key, new) :: ppg.array.drop (i + 1) = _
      rw [← insert_split_notlast _ _ _ _ (by omega), ← hA]
    have hWlen : (ppg.array.dropLast.take (i + 1) ++
        (key, new) :: ppg.array.dropLast.drop (i + 1)).length = ppg.array.length := by
      simp only [List.length_append, List.length_take, List.length_cons, List.length_drop, hBlen]
      omega
    have hVn : (ppg.InsertNodeAfterAt i key new).array[ppg.array.length]? = some last := by
      rw [hV, ← hWlen]
      exact getElem?_append_last _ _
    have hlt : key < last.1 := hasc (i + 1) ppg.array.length (key, new) last (by omega) hin1 hVi hVn
    rw [if_pos (comparator_neg.2 hlt)]
    have hBi : ppg.array.dropLast[i]? = some f := by
      rw [List.dropLast_eq_take, List.getElem?_take_of_lt (by omega)]
      exact hi
    have hBnd : (ppg.array.dropLast.map Prod.snd).Nodup :=
      List.Nodup.sublist ((List.dropLast_sublist _).map _) hnd
    have hidx : ppg.DecreaseSize.ValueIndex old = some i := by
      unfold BPlusTreePage.ValueIndex
      have h1 : (ppg.array.dropLast.map Prod.snd)[i]? = some f.2 := by
        rw [List.getElem?_map, hBi]; rfl
      have := findIdx_of_nodup _ i f.2 hBnd h1
      rw [List.findIdx?_map, hf] at this
      exact this
    apply wp_bind_of
    rw [wp_ofOption]
    refine ⟨ppg.DecreaseSize.InsertNodeAfterAt i key new, ?_, ?_⟩
    · unfold BPlusTreePage.InsertNodeAfter
      rw [hidx]
      rfl
    · apply wp_bind_of
      apply wp_modifyPage_st hs hpp
      intro t1 h1
      rw [wp_pure]
      exact ⟨_, hV, hWlen, h1⟩
  · have hin2 : i + 1 = ppg.array.length := by omega
    have hV : (ppg.InsertNodeAfterAt i key new).array = ppg.array ++ [(key, new)] :=
      insert_split_last _ _ _ hin2
    have hVl : (ppg.InsertNodeAfterAt i key new).array[ppg.array.length - 1]? = some last := by
      rw [hV, List.getElem?_append_left (by omega)]
      exact hlast
    have hVi2 : (ppg.InsertNodeAfterAt i key new).array[ppg.array.length]? =
        some (key, new) := by
      rw [← hin2]; exact hVi
    have hlt : last.1 < key :=
      hasc (ppg.array.length - 1) ppg.array.length last (key, new) (by omega) (by omega)
        hVl hVi2
    have hnlt : ¬ comparator_ key last.1 < 0 := fun h => by
      have := comparator_neg.1 h
      exact absurd (lt_trans hlt this) (lt_irrefl _)
    rw [if_neg hnlt, wp_pure]
    refine ⟨ppg.array, hV, rfl, ?_⟩
    rw [setArray_self, setPage_self hpp]
    exact hs

theorem minSize_facts {pg : BPlusTreePage} {imax : Nat} (h : pg.max_size_ = imax)
    (h3 : 3 ≤ imax) : 2 ≤ pg.GetMinSize ∧ pg.GetMinSize + 1 ≤ imax := by
  unfold BPlusTreePage.GetMinSize
  rw [h]
  omega

/-- The split branch of `InsertIntoParent` up to the recursive call: the parent with the
new pair in place is split in two. -/
theorem InsertIntoParentSplit_spec {a : TreeView} {G : Ghost} {old new P : Int}
    {key : KeyType} {ppg pgo pgn : BPlusTreePage} {i : Nat} {f : KeyType × Int}
    {h : Multiset Int} {b : Bool} {s : TState} (hs : St s a h b) (hh : a.next ∉ h)
    (hpo : pgo.page_id_ = old) (hpn : pgn.page_id_ = new)
    (hpp : a.pages P = some ppg) (hi : ppg.array[i]? = some f) (hf : f.2 = old)
    (hg : Good (a.setPage P (ppg.InsertNodeAfterAt i key new)) G none) (hP : G.live P)
    (hl : G.lvl P ≠ 0) (hfull : ¬ ppg.IS_INSERT_SAFE = true)
    {Q : page_id_t × KeyType × page_id_t → TState → Prop}
    (hq : ∀ t e e2,
      (ppg.InsertNodeAfterAt i key new).array[(ppg.InsertNodeAfterAt i key new).GetMinSize]? =
        some e →
      (ppg.InsertNodeAfterAt i key new).array[
        (ppg.InsertNodeAfterAt i key new).GetMinSize + 1]? = some e2 →
      2 ≤ (ppg.InsertNodeAfterAt i key new).GetMinSize →
      St t ((a.setPage P (ppg.InsertNodeAfterAt i key new)).splitInt P
        (ppg.InsertNodeAfterAt i key new)) (a.next ::ₘ h) b →
      Q (a.next, e.1, a.next) t) :
    wp (InsertIntoParentSplit pgo ppg pgn key P new) Q s := by
  obtain ⟨hvgood, hnd, hnew, hvi, hch⟩ := Pend_parent_facts hg hP hl hi
  have himax : ppg.max_size_ = a.imax := (hvgood.int_type hl).2
  obtain ⟨hm2, hm3⟩ := minSize_facts himax hg.imax_ge
  have hn : a.imax ≤ ppg.array.length := by
    have : ¬ (ppg.array.length < ppg.max_size_) := by
      simpa [BPlusTreePage.IS_INSERT_SAFE, BPlusTreePage.GetSize,
        BPlusTreePage.GetMaxSize] using hfull
    omega
  have h3 := hg.imax_ge
  have h3' : 3 ≤ a.imax := h3
  have hne : ppg.array ≠ [] := by
    intro h0
    rw [h0] at hn
    simp at hn
    omega
  obtain ⟨last, hlast⟩ : ∃ last, ppg.array[ppg.array.length - 1]? = some last :=
    ⟨_, List.getElem?_eq_getElem (by omega)⟩
  have hPN : P ≠ a.next := fun h0 => by
    have := (hg.live_range P hP).2
    rw [h0] at this
    exact absurd this (lt_irrefl _)
  have hVnd := Seg_nodup _ (hvgood.int_seg hl)
  unfold InsertIntoParentSplit
  apply wp_bind_of
  rw [wp_ofOption]
  refine ⟨last, by rw [slot_last hne]; exact hlast, ?_⟩
  apply wp_bind_of
  refine wp_mono (holdBack_spec hs hpo hpn hpp hi hf hg hP hl hlast (by omega)) ?_
  rintro temp t1 ⟨W, hV, hWlen, h1⟩
  -- the parent page with the new pair in place
  have hvpg : ppg.InsertNodeAfterAt i key new = { ppg with array := W ++ [temp] } := by
    have : ppg.InsertNodeAfterAt i key new =
        { ppg with array := (ppg.InsertNodeAfterAt i key new).array } := rfl
    rw [this, hV]
  have hmW : ppg.GetMinSize ≤ W.length := by omega
  have hWV : ∀ y ∈ W, y ∈ (ppg.InsertNodeAfterAt i key new).array :=
    fun y hy => mem_of_append_last hV hy
  have htV : temp ∈ (ppg.InsertNodeAfterAt i key new).array := by
    rw [hV]; simp
  obtain ⟨_, htP, htN, cx, hcx⟩ := hch temp htV
  have hVnd2 : ((W ++ [temp]).map Prod.snd).Nodup := by rw [← hV]; exact hVnd
  have htW : temp.2 ∉ W.map Prod.snd := by
    rw [List.map_append, List.nodup_append] at hVnd2
    intro hmem
    exact hVnd2.2.2 hmem (by simp)
  have hWnd : (W.map Prod.snd).Nodup := by
    rw [List.map_append, List.nodup_append] at hVnd2
    exact hVnd2.1
  have hmvW : ∀ c ∈ movedOf { ppg with array := W },
      c ≠ (a.setPage P { ppg with array := W }).next ∧ c ≠ P ∧
        ∃ cpg, (a.setPage P { ppg with array := W }).pages c = some cpg := by
    intro c hc
    obtain ⟨y, hy, rfl⟩ := List.mem_map.1 hc
    obtain ⟨_, c2, c3, cpg, c4⟩ := hch y (hWV y (List.mem_of_mem_drop hy))
    exact ⟨c3, c2, cpg, by simp [TreeView.setPage, Function.update_noteq c2, c4]⟩
  have hUmW : a.next ∉ movedOf { ppg with array := W } := fun h0 => (hmvW _ h0).1 rfl
  have hPmW : P ∉ movedOf { ppg with array := W } := fun h0 => (hmvW _ h0).2.1 rfl
  have htmW : temp.2 ∉ movedOf { ppg with array := W } := by
    intro h0
    obtain ⟨y, hy, hyt⟩ := List.mem_map.1 h0
    exact htW (List.mem_map.2 ⟨y, List.mem_of_mem_drop hy, hyt⟩)
  apply wp_bind_of
  refine SplitInternal_spec h1 hh (by simp [TreeView.setPage]) hPN hmvW ?_
  intro t2 h2
  apply wp_bind_of
  apply wp_getPage_st h2 (g := intHigh { ppg with array := W } a.next a.imax)
    (by
      show ((a.setPage P { ppg with array := W }).splitInt P { ppg with array := W }).pages
        a.next = _
      simp [TreeView.splitInt, reparent, hUmW, TreeView.setPage,
        Function.update_noteq hPN.symm])
  have hua : (intHigh { ppg with array := W } a.next a.imax).array =
      W.drop ppg.GetMinSize := rfl
  have hulen : (intHigh { ppg with array := W } a.next a.imax).array.length =
      W.length - ppg.GetMinSize := by rw [hua, List.length_drop]
  have hune : (intHigh { ppg with array := W } a.next a.imax).array ≠ [] := by
    intro h0
    have := congrArg List.length h0
    rw [hulen] at this
    simp at this
    omega
  obtain ⟨ul, hul⟩ : ∃ ul, (intHigh { ppg with array := W } a.next a.imax).array[
      (intHigh { ppg with array := W } a.next a.imax).array.length - 1]? = some ul :=
    ⟨_, List.getElem?_eq_getElem (by rw [hulen]; omega)⟩
  apply wp_bind_of
  rw [wp_ofOption]
  refine ⟨ul, by rw [slot_last hune]; exact hul, ?_⟩
  have hund : ((intHigh { ppg with array := W } a.next a.imax).array.map Prod.snd).Nodup := by
    rw [hua]
    exact List.Nodup.sublist ((List.drop_sublist _ _).map _) hWnd
  apply wp_bind_of
  rw [wp_ofOption]
  refine ⟨_, InsertNodeAfter_last hund hul temp.1 temp.2, ?_⟩
  have hunew : ({ intHigh { ppg with array := W } a.next a.imax with
      array := (intHigh { ppg with array := W } a.next a.imax).array ++ [(temp.1, temp.2)] } :
        BPlusTreePage) = intHigh { ppg with array := W ++ [temp] } a.next a.imax := by
    simp only [intHigh, BPlusTreePage.GetMinSize]
    have : (W ++ [temp]).drop ppg.GetMinSize = W.drop ppg.GetMinSize ++ [temp] :=
      List.drop_append_of_le_length hmW
    simp only [BPlusTreePage.GetMinSize] at this
    rw [this]
  rw [hunew]
  apply wp_bind_of
  apply wp_modifyPage_st h2 (g := intHigh { ppg with array := W } a.next a.imax)
    (by
      show ((a.setPage P { ppg with array := W }).splitInt P { ppg with array := W }).pages
        a.next = _
      simp [TreeView.splitInt, reparent, hUmW, TreeView.setPage,
        Function.update_noteq hPN.symm])
  intro t3 h3s
  have hx3 : ((((a.setPage P { ppg with array := W }).splitInt P
      { ppg with array := W }).setPage a.next
      (intHigh { ppg with array := W ++ [temp] } a.next a.imax))).pages temp.2 = some cx := by
    simp [TreeView.setPage, TreeView.splitInt, reparent, htmW, Function.update_noteq htN,
      Function.update_noteq htP, hcx]
  have hfin : ∀ t4, St t4 ((((a.setPage P { ppg with array := W }).splitInt P
      { ppg with array := W }).setPage a.next
      (intHigh { ppg with array := W ++ [temp] } a.next a.imax)).setPage temp.2
      (cx.SetParentPageId a.next)) (a.next ::ₘ h) b →
      wp (do
        WUnlatch P
        let uncle_data ← getPage a.next
        let uncle_first ← TM.ofOption (uncle_data.slot? 0)
        pure (a.next, uncle_first.1, uncle_data.page_id_)) Q t4 := by
    intro t4 h4
    have hPmV : P ∉ ((W ++ [temp]).drop ppg.GetMinSize).map Prod.snd := by
      intro h0
      obtain ⟨y, hy, hyP⟩ := List.mem_map.1 h0
      have : y ∈ (ppg.InsertNodeAfterAt i key new).array := by
        rw [hV]; exact List.mem_of_mem_drop hy
      exact (hch y this).2.1 hyP
    have hUmV : a.next ∉ ((W ++ [temp]).drop ppg.GetMinSize).map Prod.snd := by
      intro h0
      obtain ⟨y, hy, hyP⟩ := List.mem_map.1 h0
      have : y ∈ (ppg.InsertNodeAfterAt i key new).array := by
        rw [hV]; exact List.mem_of_mem_drop hy
      exact (hch y this).2.2.1 hyP
    have h5 := St.congr h4 (splitInt_last hmW hcx htP htN hPN hPmV hUmV)
    rw [← hvpg] at h5
    apply wp_bind_of
    apply wp_WUnlatch_st h5
    intro t6 h6
    have hUmV2 : a.next ∉ movedOf (ppg.InsertNodeAfterAt i key new) := by
      rw [hvpg]; exact hUmV
    apply wp_bind_of
    apply wp_getPage_st h6 (g := intHigh (ppg.InsertNodeAfterAt i key new) a.next a.imax)
      (by
        show ((a.setPage P (ppg.InsertNodeAfterAt i key new)).splitInt P
          (ppg.InsertNodeAfterAt i key new)).pages a.next = _
        simp [TreeView.splitInt, reparent, hUmV2, TreeView.setPage,
          Function.update_noteq hPN.symm])
    have hVlen : (ppg.InsertNodeAfterAt i key new).array.length = ppg.array.length + 1 := by
      rw [hV, List.length_append, hWlen]; rfl
    have hmin : (ppg.InsertNodeAfterAt i key new).GetMinSize = ppg.GetMinSize := rfl
    obtain ⟨e, he⟩ : ∃ e, (ppg.InsertNodeAfterAt i key new).array[
        (ppg.InsertNodeAfterAt i key new).GetMinSize]? = some e :=
      ⟨_, List.getElem?_eq_getElem (by rw [hVlen, hmin]; omega)⟩
    obtain ⟨e2, he2⟩ : ∃ e2, (ppg.InsertNodeAfterAt i key new).array[
        (ppg.InsertNodeAfterAt i key new).GetMinSize + 1]? = some e2 :=
      ⟨_, List.getElem?_eq_getElem (by rw [hVlen, hmin]; omega)⟩
    apply wp_bind_of
    rw [wp_ofOption]
    refine ⟨e, ?_, ?_⟩
    · rw [slot_zero]
      show ((ppg.InsertNodeAfterAt i key new).array.drop
        (ppg.InsertNodeAfterAt i key new).GetMinSize)[0]? = some e
      rw [List.getElem?_drop]
      exact he
    · rw [wp_pure]
      exact hq t6 e e2 he he2 hm2 h6
  by_cases hbr : temp.2 = pgn.page_id_
  · rw [if_pos hbr]
    apply wp_bind_of
    rw [hpn] at hbr
    apply wp_modifyPage_st h3s (g := cx) (by rw [← hbr]; exact hx3)
    intro t4 h4
    rw [← hbr] at h4
    exact hfin t4 h4
  · rw [if_neg hbr]
    apply wp_bind_of
    unfold REPLACE
    apply wp_bind_of
    apply wp_FetchPage_st h3s hx3
    intro t4 h4
    apply wp_bind_of
    apply wp_WLatch_st h4
    intro t5 h5
    apply wp_bind_of
    apply wp_modifyPage_st h5 hx3
    intro t6 h6
    apply wp_bind_of
    apply wp_WUnlatch_st h6
    intro t7 h7
    apply wp_bind_of
    apply wp_UnpinPage_st h7
    intro t8 h8
    rw [wp_pure]
    exact hfin t8 h8

theorem PageOcc_full {root : Int} {E : Option Int} {p : Int} {pg : BPlusTreePage}
    (h1 : pg.array.length ≤ pg.max_size_) (h2 : lowerOf pg ≤ pg.array.length) :
    PageOcc root E p pg :=
  And.intro h1 (fun _ => And.intro (fun _ => Nat.le_succ_of_le h2) (fun _ _ => h2))

theorem PageOcc_root {E : Option Int} {p : Int} {pg : BPlusTreePage}
    (h1 : pg.array.length ≤ pg.max_size_) : PageOcc p E p pg :=
  And.intro h1 (fun h => absurd rfl h)

theorem PageOcc_empty {root : Int} {p : Int} {pg : BPlusTreePage}
    (h : pg.array.length = 0) : PageOcc root none p pg :=
  And.intro (by rw [h]; exact Nat.zero_le _)
    (fun _ => And.intro (fun h0 => by cases h0) (fun _ h1 => by omega))

theorem lowerOf_congr {pg pg0 : BPlusTreePage} (hm : pg.max_size_ = pg0.max_size_)
    (ht : pg.page_type_ = pg0.page_type_) : lowerOf pg = lowerOf pg0 := by
  unfold lowerOf BPlusTreePage.IsLeafPage
  rw [hm, ht]

theorem lowerOf_le_min (pg : BPlusTreePage) : lowerOf pg ≤ (pg.max_size_ + 1) / 2 := by
  unfold lowerOf
  split
  · omega
  · exact le_refl _

/-- The occupancy condition depends on the number of slots, the capacity and the type of
the page only. -/
theorem PageOcc.shape {root : Int} {E : Option Int} {p : Int} {pg pg0 : BPlusTreePage}
    (h : PageOcc root E p pg0) (hl : pg.array.length = pg0.array.length)
    (hm : pg.max_size_ = pg0.max_size_) (ht : pg.page_type_ = pg0.page_type_) :
    PageOcc root E p pg := by
  unfold PageOcc
  rw [hl, hm, lowerOf_congr hm ht]
  exact h

/-- A page that is within the bounds needs no exemption. -/
theorem PageOcc.strict {root : Int} {E : Option Int} {p : Int} {pg : BPlusTreePage}
    (h : PageOcc root E p pg) (hE : E = some p → p ≠ root → lowerOf pg ≤ pg.array.length) :
    PageOcc root none p pg := by
  refine And.intro h.1 (fun hr => And.intro (fun h0 => by cases h0) (fun _ hpos => ?_))
  by_cases he : E = some p
  · exact hE he hr
  · exact (h.2 hr).2 he hpos

/-- A page that is not the exempt one needs no exemption. -/
theorem PageOcc.other {root : Int} {E : Option Int} {p : Int} {pg : BPlusTreePage}
    (h : PageOcc root E p pg) (hE : E ≠ some p) : PageOcc root none p pg :=
  h.strict (fun h0 => absurd h0 hE)

/-- A pair is added to an internal page that is not full. -/
theorem PageOcc_insertAt {root : Int} {p : Int} {ppg : BPlusTreePage} (i : Nat)
    (key : KeyType) (new : Int) (h : PageOcc root none p ppg)
    (hsafe : ppg.IS_INSERT_SAFE = true) (hne : 0 < ppg.array.length) :
    PageOcc root none p (ppg.InsertNodeAfterAt i key new) := by
  have hl : (ppg.InsertNodeAfterAt i key new).array.length = ppg.array.length + 1 := by
    show (ppg.array.take (i + 1) ++ (key, new) :: ppg.array.drop (i + 1)).length = _
    have := congrArg List.length (List.take_append_drop (i + 1) ppg.array)
    rw [List.length_append] at this
    rw [List.length_append, List.length_cons]
    omega
  have hlt : ppg.array.length < ppg.max_size_ := by
    simpa [BPlusTreePage.IS_INSERT_SAFE, BPlusTreePage.GetSize, BPlusTreePage.GetMaxSize]
      using hsafe
  have hlw : lowerOf (ppg.InsertNodeAfterAt i key new) = lowerOf ppg := lowerOf_congr rfl rfl
  refine And.intro ?_ (fun hr => And.intro (fun h0 => by cases h0) (fun _ _ => ?_))
  · rw [hl]
    exact hlt
  · rw [hl, hlw]
    exact Nat.le_succ_of_le ((h.2 hr).2 (by simp) hne)

theorem reparent_some {cs : List Int} {U : Int} {f : Int → Option BPlusTreePage} {p : Int}
    {pg : BPlusTreePage} (h : reparent cs U f p = some pg) :
    ∃ pg0, f p = some pg0 ∧ pg.array = pg0.array ∧ pg.max_size_ = pg0.max_size_ ∧
      pg.page_type_ = pg0.page_type_ ∧ (pg = pg0 ∨ pg = pg0.SetParentPageId U) := by
  unfold reparent at h
  split at h
  · cases hf : f p with
    | none => rw [hf] at h; cases h
    | some pg0 =>
      rw [hf] at h
      cases h
      exact ⟨pg0, rfl, rfl, rfl, rfl, Or.inr rfl⟩
  · exact ⟨pg, h, rfl, rfl, rfl, Or.inl rfl⟩

theorem reparent_none {cs : List Int} {U : Int} {f : Int → Option BPlusTreePage} {p : Int}
    (h : f p = none) : reparent cs U f p = none := by
  unfold reparent
  split
  · rw [h]; rfl
  · exact h

theorem invalid_lt_zero : INVALID_PAGE_ID < 0 := by decide

theorem ne_invalid_of_nonneg {p : Int} (h : 0 ≤ p) : p ≠ INVALID_PAGE_ID := by
  intro h0
  rw [h0] at h
  exact absurd h (by decide)

/-- A page is replaced by one that satisfies the occupancy condition. -/
theorem Occ_setPage {v : TreeView} {E F : Option Int} (hocc : Occ v E) {p : Int}
    {pg : BPlusTreePage} (hp : p ≠ INVALID_PAGE_ID) (hpg : PageOcc v.root F p pg)
    (hEF : ∀ q qg, q ≠ p → v.pages q = some qg → PageOcc v.root E q qg →
      PageOcc v.root F q qg) :
    Occ (v.setPage p pg) F := by
  constructor
  · show Function.update v.pages p (some pg) INVALID_PAGE_ID = none
    rw [Function.update_noteq (Ne.symm hp)]
    exact hocc.none_invalid
  · intro q qg hq
    have hq2 : Function.update v.pages p (some pg) q = some qg := hq
    show PageOcc v.root F q qg
    by_cases hqp : q = p
    · subst hqp
      rw [Function.update_same] at hq2
      cases hq2
      exact hpg
    · rw [Function.update_noteq hqp] at hq2
      exact hEF q qg hqp hq2 (hocc.page q qg hq2)

/-- A page is replaced by one that satisfies the occupancy condition; the exemption stays
as it is. -/
theorem Occ_setPage_same {v : TreeView} {E : Option Int} (hocc : Occ v E) {p : Int}
    {pg : BPlusTreePage} (hp : p ≠ INVALID_PAGE_ID) (hpg : PageOcc v.root E p pg) :
    Occ (v.setPage p pg) E :=
  Occ_setPage hocc hp hpg (fun _ _ _ _ h => h)

/-- The first page of a tree satisfies the occupancy invariant. -/
theorem Occ_startNew {v : TreeView} (hocc : Occ v none) (hroot : v.root = INVALID_PAGE_ID)
    (hn : 0 ≤ v.next) (hl : 1 ≤ v.lmax) (key : KeyType) (value : ValueType) :
    Occ (v.startNew key value) none := by
  have hN := ne_invalid_of_nonneg hn
  constructor
  · show Function.update (Function.update (Function.update v.pages v.next _) v.next _) v.next _
      INVALID_PAGE_ID = none
    rw [Function.update_noteq (Ne.symm hN), Function.update_noteq (Ne.symm hN),
      Function.update_noteq (Ne.symm hN)]
    exact hocc.none_invalid
  · intro q qg hq
    have hq2 : Function.update (Function.update (Function.update v.pages v.next
        (some BPlusTreePage.zero)) v.next
        (some (BPlusTreePage.zero.InitLeaf v.next INVALID_PAGE_ID v.lmax))) v.next
        (some ((BPlusTreePage.zero.InitLeaf v.next INVALID_PAGE_ID v.lmax).InsertLeaf
          key value)) q = some qg := hq
    show PageOcc v.next none q qg
    by_cases hqp : q = v.next
    · subst hqp
      rw [Function.update_same] at hq2
      cases hq2
      apply PageOcc_root
      exact hl
    · rw [Function.update_noteq hqp, Function.update_noteq hqp,
        Function.update_noteq hqp] at hq2
      have h0 := hocc.page q qg hq2
      have hqr : q ≠ v.root := by
        intro h1
        rw [h1, hroot, hocc.none_invalid] at hq2
        cases hq2
      exact ⟨h0.1, fun _ => h0.2 hqr⟩

/-- The two halves of a leaf that has become full satisfy the occupancy condition. -/
theorem Occ_splitLeaf {v : TreeView} (hocc : Occ v none) {L : Int} {pg : BPlusTreePage}
    (hL : L ≠ INVALID_PAGE_ID) (hn : 0 ≤ v.next) (hmax : pg.max_size_ = v.lmax)
    (hl : 1 ≤ v.lmax) (hlo : pg.max_size_ ≤ pg.array.length)
    (hhi : pg.array.length ≤ pg.max_size_ + 1) :
    Occ ((v.setPage L pg).splitLeaf L pg) none ∧
      ∀ pgo, ((v.setPage L pg).splitLeaf L pg).pages L = some pgo →
        pgo.array.length ≤ pgo.max_size_ ∧ lowerOf pgo ≤ pgo.array.length ∧
          pgo.parent_page_id_ = pg.parent_page_id_ := by
  have hN := ne_invalid_of_nonneg hn
  have hlow1 : (leafLow pg v.next).array.length = (pg.max_size_ + 1) / 2 := by
    show (pg.array.take ((pg.max_size_ + 1) / 2)).length = _
    rw [List.length_take]
    omega
  have hlowO : (leafLow pg v.next).array.length ≤ (leafLow pg v.next).max_size_ ∧
      lowerOf (leafLow pg v.next) ≤ (leafLow pg v.next).array.length := by
    rw [hlow1]
    have hm : (leafLow pg v.next).max_size_ = pg.max_size_ := rfl
    have := lowerOf_le_min (leafLow pg v.next)
    rw [hm] at this ⊢
    constructor
    · omega
    · exact this
  have hhigh1 : (leafHigh pg v.next v.lmax).array.length =
      pg.array.length - (pg.max_size_ + 1) / 2 := by
    show (pg.array.drop ((pg.max_size_ + 1) / 2)).length = _
    rw [List.length_drop]
  have hhighO : (leafHigh pg v.next v.lmax).array.length ≤
      (leafHigh pg v.next v.lmax).max_size_ ∧
      lowerOf (leafHigh pg v.next v.lmax) ≤ (leafHigh pg v.next v.lmax).array.length := by
    rw [hhigh1]
    have hm : (leafHigh pg v.next v.lmax).max_size_ = v.lmax := rfl
    have hlw : lowerOf (leafHigh pg v.next v.lmax) = v.lmax / 2 := by
      simp [lowerOf, BPlusTreePage.IsLeafPage, leafHigh, BPlusTreePage.InitLeaf,
        BPlusTreePage.SetNextPageId]
    rw [hm, hlw, ← hmax]
    constructor
    · omega
    · omega
  constructor
  · constructor
    · show Function.update (Function.update (Function.update v.pages L _) v.next _) L _
        INVALID_PAGE_ID = none
      rw [Function.update_noteq (Ne.symm hL), Function.update_noteq (Ne.symm hN),
        Function.update_noteq (Ne.symm hL)]
      exact hocc.none_invalid
    · intro q qg hq
      have hq2 : Function.update (Function.update (Function.update v.pages L (some pg)) v.next
          (some (leafHigh pg v.next v.lmax))) L (some (leafLow pg v.next)) q = some qg := hq
      show PageOcc v.root none q qg
      by_cases hqL : q = L
      · subst hqL
        rw [Function.update_same] at hq2
        cases hq2
        exact PageOcc_full hlowO.1 hlowO.2
      · rw [Function.update_noteq hqL] at hq2
        by_cases hqN : q = v.next
        · subst hqN
          rw [Function.update_same] at hq2
          cases hq2
          exact PageOcc_full hhighO.1 hhighO.2
        · rw [Function.update_noteq hqN, Function.update_noteq hqL] at hq2
          exact hocc.page q qg hq2
  · intro pgo hpgo
    have hq2 : Function.update (Function.update (Function.update v.pages L (some pg)) v.next
        (some (leafHigh pg v.next v.lmax))) L (some (leafLow pg v.next)) L = some pgo := hpgo
    rw [Function.update_same] at hq2
    cases hq2
    exact ⟨hlowO.1, hlowO.2, rfl⟩

/-- A new root over the two halves of a split satisfies the occupancy invariant. -/
theorem Occ_newRoot {a : TreeView} {old new : Int} (hp : OccPend a old) {key : KeyType}
    {pgo pgn : BPlusTreePage} (hpgo : a.pages old = some pgo) (hpgn : a.pages new = some pgn)
    (hroot : pgo.IsRootPage = true) (hon : old ≠ new) (hn : 0 ≤ a.next) (hi : 2 ≤ a.imax) :
    Occ (a.newRoot old key new pgo pgn) none := by
  obtain ⟨hocc, hold⟩ := hp
  obtain ⟨ho1, ho2, ho3⟩ := hold pgo hpgo
  have hor : old = a.root := ho3 hroot
  have hN := ne_invalid_of_nonneg hn
  have hoI : old ≠ INVALID_PAGE_ID := fun h => by
    rw [h, hocc.none_invalid] at hpgo
    cases hpgo
  have hnI : new ≠ INVALID_PAGE_ID := fun h => by
    rw [h, hocc.none_invalid] at hpgn
    cases hpgn
  constructor
  · show Function.update (Function.update (Function.update a.pages a.next _) old _) new _
      INVALID_PAGE_ID = none
    rw [Function.update_noteq (Ne.symm hnI), Function.update_noteq (Ne.symm hoI),
      Function.update_noteq (Ne.symm hN)]
    exact hocc.none_invalid
  · intro q qg hq
    have hq2 : Function.update (Function.update (Function.update a.pages a.next
        (some (rootPage a.next a.imax pgo.page_id_ key pgn.page_id_))) old
        (some (pgo.SetParentPageId a.next))) new (some (pgn.SetParentPageId a.next)) q =
          some qg := hq
    show PageOcc a.next none q qg
    by_cases hqn : q = new
    · subst hqn
      rw [Function.update_same] at hq2
      cases hq2
      have h0 := hocc.page q pgn hpgn
      have hqr : q ≠ a.root := fun h => hon (hor.trans h.symm)
      exact PageOcc.shape ⟨h0.1, fun _ => h0.2 hqr⟩ rfl rfl rfl
    · rw [Function.update_noteq hqn] at hq2
      by_cases hqo : q = old
      · subst hqo
        rw [Function.update_same] at hq2
        cases hq2
        exact PageOcc.shape (PageOcc_full ho1 ho2) rfl rfl rfl
      · rw [Function.update_noteq hqo] at hq2
        by_cases hqN : q = a.next
        · subst hqN
          rw [Function.update_same] at hq2
          cases hq2
          exact PageOcc_root hi
        · rw [Function.update_noteq hqN] at hq2
          have h0 := hocc.page q qg hq2
          have hqr : q ≠ a.root := fun h => hqo (h.trans hor.symm)
          exact ⟨h0.1, fun _ => h0.2 hqr⟩

/-- The two halves of an internal page that has become too large satisfy the occupancy
condition. -/
theorem Occ_splitInt {t : TreeView} (hocc : Occ t none) {P : Int} {pg : BPlusTreePage}
    (hP : P ≠ INVALID_PAGE_ID) (hn : 0 ≤ t.next)
    (hmax : pg.max_size_ = t.imax) (hi : 1 ≤ t.imax) (hlen : pg.array.length = pg.max_size_ + 1)
    (hroot : pg.IsRootPage = true → P = t.root) :
    OccPend ((t.setPage P pg).splitInt P pg) P := by
  have hN := ne_invalid_of_nonneg hn
  have hlow1 : (intLow pg).array.length = (pg.max_size_ + 1) / 2 := by
    show (pg.array.take ((pg.max_size_ + 1) / 2)).length = _
    rw [List.length_take]
    omega
  have hlowO : (intLow pg).array.length ≤ (intLow pg).max_size_ ∧
      lowerOf (intLow pg) ≤ (intLow pg).array.length := by
    rw [hlow1]
    have hm : (intLow pg).max_size_ = pg.max_size_ := rfl
    have := lowerOf_le_min (intLow pg)
    rw [hm] at this ⊢
    constructor
    · omega
    · exact this
  have hhigh1 : (intHigh pg t.next t.imax).array.length =
      pg.array.length - (pg.max_size_ + 1) / 2 := by
    show (pg.array.drop ((pg.max_size_ + 1) / 2)).length = _
    rw [List.length_drop]
  have hhighO : (intHigh pg t.next t.imax).array.length ≤
      (intHigh pg t.next t.imax).max_size_ ∧
      lowerOf (intHigh pg t.next t.imax) ≤ (intHigh pg t.next t.imax).array.length := by
    rw [hhigh1]
    have hm : (intHigh pg t.next t.imax).max_size_ = t.imax := rfl
    have hlw : lowerOf (intHigh pg t.next t.imax) = (t.imax + 1) / 2 := by
      simp [lowerOf, BPlusTreePage.IsLeafPage, intHigh, BPlusTreePage.InitInternal]
    rw [hm, hlw, ← hmax, hlen]
    constructor
    · omega
    · omega
  have hpage : ∀ q qg, ((t.setPage P pg).splitInt P pg).pages q = some qg →
      ∃ qg0, Function.update (Function.update (Function.update t.pages P (some pg)) t.next
        (some (intHigh pg t.next t.imax))) P (some (intLow pg)) q = some qg0 ∧
        qg.array = qg0.array ∧ qg.max_size_ = qg0.max_size_ ∧
        qg.page_type_ = qg0.page_type_ ∧ (qg = qg0 ∨ qg = qg0.SetParentPageId t.next) :=
    fun q qg hq => reparent_some hq
  constructor
  · constructor
    · show reparent _ _ _ INVALID_PAGE_ID = none
      apply reparent_none
      show Function.update (Function.update (Function.update t.pages P _) t.next _) P _
        INVALID_PAGE_ID = none
      rw [Function.update_noteq (Ne.symm hP), Function.update_noteq (Ne.symm hN),
        Function.update_noteq (Ne.symm hP)]
      exact hocc.none_invalid
    · intro q qg hq
      obtain ⟨qg0, hq2, e1, e2, e3, _⟩ := hpage q qg hq
      show PageOcc t.root none q qg
      refine PageOcc.shape ?_ (congrArg List.length e1) e2 e3
      by_cases hqP : q = P
      · subst hqP
        rw [Function.update_same] at hq2
        cases hq2
        exact PageOcc_full hlowO.1 hlowO.2
      · rw [Function.update_noteq hqP] at hq2
        by_cases hqN : q = t.next
        · subst hqN
          rw [Function.update_same] at hq2
          cases hq2
          exact PageOcc_full hhighO.1 hhighO.2
        · rw [Function.update_noteq hqN, Function.update_noteq hqP] at hq2
          exact hocc.page q qg0 hq2
  · intro pgo hpgo
    obtain ⟨qg0, hq2, e1, e2, e3, e4⟩ := hpage P pgo hpgo
    rw [Function.update_same] at hq2
    cases hq2
    refine ⟨?_, ?_, ?_⟩
    · rw [e1, e2]
      exact hlowO.1
    · rw [lowerOf_congr e2 e3, e1]
      exact hlowO.2
    · intro hr
      rcases e4 with e4 | e4
      · rw [e4] at hr
        exact hroot hr
      · rw [e4] at hr
        have : t.next = INVALID_PAGE_ID := by
          simpa [BPlusTreePage.IsRootPage, BPlusTreePage.SetParentPageId] using hr
        exact absurd this hN

/-- Method `InsertIntoParent`: a pending split is completed; the result is a tree that
satisfies the invariant and stores what was to be stored, and the pins taken on the way
are given back.  The occupancy invariant holds of the result when it held before the
split. -/
theorem InsertIntoParent_occ (S : KeyType → ValueType → Prop) :
    ∀ (queue : List Int) (old : Int) (key : KeyType) (new : Int) (s : TState) (a : TreeView)
      (G : Ghost) (h : Multiset Int) (b : Bool),
      St s a (new ::ₘ old ::ₘ ((queue : Multiset Int) + h)) b → (∀ p ∈ h, p < a.next) →
      Pend a G S old key new queue →
      wp (InsertIntoParent old key new queue)
        (fun r t => ∃ u H, St t u (new ::ₘ old ::ₘ ((r : Multiset Int) + h)) b ∧
          Good u H none ∧ (∀ k w, Stored u H k w ↔ S k w) ∧ a.next ≤ u.next ∧
          (OccPend a old → Occ u none)) s := by
  intro queue
  induction queue with
  | nil =>
    intro old key new s a G h b hs hh hp
    obtain ⟨pgo, pgn, hpgo, hpgn, hido, hidn, hon, holt, hnlt, hql, hnn, hcase⟩ := hp
    have hheld : a.next ∉ new ::ₘ old ::ₘ ((([] : List Int) : Multiset Int) + h) := by
      apply not_mem_of_lt
      intro p hp
      simp only [Multiset.mem_cons, Multiset.mem_add, Multiset.mem_coe] at hp
      rcases hp with rfl | rfl | hp | hp
      · exact hnlt
      · exact holt
      · exact hql p hp
      · exact hh p hp
    unfold InsertIntoParent
    apply wp_bind_of
    apply wp_getPage_st hs hpgo
    rcases hcase with ⟨hroot, hgood, hst⟩ | ⟨_, P, rest, _, _, _, hq, _⟩
    · rw [if_pos hroot]
      apply wp_bind_of
      apply InsertIntoParentRoot_spec hs hheld hpgo hpgn hon (ne_of_lt holt) (ne_of_lt hnlt)
      intro t1 h1
      rw [wp_pure]
      exact ⟨_, G, h1, hgood, hst, le_of_lt (lt_add_one _), fun hp =>
        Occ_newRoot hp hpgo hpgn hroot hon hnn (le_trans (by decide) hgood.imax_ge)⟩
    · cases hq
  | cons parent_page rest ih =>
    intro old key new s a G h b hs hh hp
    obtain ⟨pgo, pgn, hpgo, hpgn, hido, hidn, hon, holt, hnlt, hql, hnn, hcase⟩ := hp
    have hheld : a.next ∉ new ::ₘ old ::ₘ (((parent_page :: rest : List Int) : Multiset Int) + h) := by
      apply not_mem_of_lt
      intro p hp
      simp only [Multiset.mem_cons, Multiset.mem_add, Multiset.mem_coe] at hp
      rcases hp with rfl | rfl | hp | hp
      · exact hnlt
      · exact holt
      · exact hql p hp
      · exact hh p hp
    unfold InsertIntoParent
    apply wp_bind_of
    apply wp_getPage_st hs hpgo
    rcases hcase with ⟨hroot, hgood, hst⟩ |
      ⟨hroot, P, rest1, ppg, i, f, hq, hpp, hi, hf, hgood, hst, hPl, hPlvl, hnl, hnp, htail⟩
    · rw [if_pos hroot]
      apply wp_bind_of
      apply InsertIntoParentRoot_spec hs hheld hpgo hpgn hon (ne_of_lt holt) (ne_of_lt hnlt)
      intro t1 h1
      rw [wp_pure]
      exact ⟨_, G, h1, hgood, hst, le_of_lt (lt_add_one _), fun hp =>
        Occ_newRoot hp hpgo hpgn hroot hon hnn (le_trans (by decide) hgood.imax_ge)⟩
    · rw [if_neg (by rw [hroot]; decide)]
      cases hq
      obtain ⟨hvgood, hnd, hnew, hvi, hch⟩ := Pend_parent_facts hgood hPl hPlvl hi
      have hidp : ppg.page_id_ = parent_page := hvgood.id
      apply wp_bind_of
      apply wp_getPage_st hs hpp
      apply wp_bind_of
      apply wp_getPage_st hs hpgn
      simp only
      by_cases hsafe : ppg.IS_INSERT_SAFE = true
      · rw [if_pos hsafe]
        apply wp_bind_of
        rw [wp_ofOption]
        refine ⟨ppg.InsertNodeAfterAt i key new, ?_, ?_⟩
        · unfold BPlusTreePage.InsertNodeAfter
          rw [hido, hidn, ← hf, hvi]
          rfl
        · apply wp_bind_of
          apply wp_modifyPage_st hs hpp
          intro t1 h1
          apply wp_bind_of
          apply wp_WUnlatch_st h1
          intro t2 h2
          apply wp_bind_of
          rw [held_head] at h2
          rw [hidp]
          apply wp_UnpinPage_st h2
          intro t3 h3
          rw [wp_pure]
          refine ⟨_, G, h3, hgood, hst, le_refl _, fun hp => ?_⟩
          have hPI : parent_page ≠ INVALID_PAGE_ID := fun h0 => by
            rw [h0, hp.1.none_invalid] at hpp
            cases hpp
          exact Occ_setPage_same hp.1 hPI (PageOcc_insertAt i key new
            (hp.1.page _ _ hpp) hsafe (List.length_pos.2 (fun h0 => by rw [h0] at hi; cases hi)))
      · rw [if_neg hsafe]
        have hpath : PathQ (a.setPage parent_page (ppg.InsertNodeAfterAt i key new)) G true parent_page rest := by
          rcases htail with ⟨hs1, _⟩ | hpath
          · exact absurd hs1 hsafe
          · exact hpath
        apply wp_bind_of
        apply InsertIntoParentSplit_spec hs hheld hido hidn hpp hi hf hgood hPl hPlvl hsafe
        intro t1 e e2 he he2 hm2 h1
        obtain ⟨H, hpend⟩ := Pend_splitInt hgood hst hPl hPlvl
          (by simp [TreeView.setPage]) hm2 he he2 hpath
        apply wp_bind_of
        simp only
        rw [held_rearrange] at h1
        have hh2 : ∀ p ∈ new ::ₘ old ::ₘ h,
            p < ((a.setPage parent_page (ppg.InsertNodeAfterAt i key new)).splitInt parent_page
              (ppg.InsertNodeAfterAt i key new)).next := by
          intro p hp
          show p < a.next + 1
          simp only [Multiset.mem_cons] at hp
          rcases hp with rfl | rfl | hp
          · exact lt_trans hnlt (lt_add_one _)
          · exact lt_trans holt (lt_add_one _)
          · exact lt_trans (hh p hp) (lt_add_one _)
        refine wp_mono (ih parent_page e.1 a.next t1 _ H (new ::ₘ old ::ₘ h) b h1 hh2 hpend) ?_
        rintro r t2 ⟨u, H2, h2, hg2, hs2, hn2, hocc2⟩
        apply wp_bind_of
        apply wp_UnpinPage_st h2
        intro t3 h3
        apply wp_bind_of
        rw [hidp]
        apply wp_UnpinPage_st h3
        intro t4 h4
        rw [wp_pure]
        refine ⟨u, H2, ?_, hg2, hs2, ?_, fun hp => hocc2 ?_⟩
        · rw [Multiset.add_cons, Multiset.add_cons] at h4
          exact h4
        · have : a.next ≤ a.next + 1 := le_of_lt (lt_add_one _)
          exact le_trans this hn2
        · have hPI : parent_page ≠ INVALID_PAGE_ID := fun h0 => by
            rw [h0, hp.1.none_invalid] at hpp
            cases hpp
          have hup := (hp.1.page _ _ hpp).1
          have hge : ¬ ppg.array.length < ppg.max_size_ := by
            simpa [BPlusTreePage.IS_INSERT_SAFE, BPlusTreePage.GetSize,
              BPlusTreePage.GetMaxSize] using hsafe
          have hl : (ppg.InsertNodeAfterAt i key new).array.length = ppg.array.length + 1 := by
            show (ppg.array.take (i + 1) ++ (key, new) :: ppg.array.drop (i + 1)).length = _
            have := congrArg List.length (List.take_append_drop (i + 1) ppg.array)
            rw [List.length_append] at this
            rw [List.length_append, List.length_cons]
            omega
          have hmx : (ppg.InsertNodeAfterAt i key new).max_size_ = ppg.max_size_ := rfl
          refine Occ_splitInt hp.1 hPI hnn (hvgood.int_type hPlvl).2
            (le_trans (by decide) hgood.imax_ge) (by rw [hl, hmx]; omega) ?_
          intro hr
          have h1 : (ppg.InsertNodeAfterAt i key new).parent_page_id_ = INVALID_PAGE_ID := by
            simpa [BPlusTreePage.IsRootPage] using hr
          rw [hvgood.parent] at h1
          exact hvgood.root_iff.1 h1

/-- Method `InsertIntoParent`: a pending split is completed; the result is a tree that
satisfies the invariant and stores what was to be stored, and the pins taken on the way
are given back. -/
theorem InsertIntoParent_spec (S : KeyType → ValueType → Prop) :
    ∀ (queue : List Int) (old : Int) (key : KeyType) (new : Int) (s : TState) (a : TreeView)
      (G : Ghost) (h : Multiset Int) (b : Bool),
      St s a (new ::ₘ old ::ₘ ((queue : Multiset Int) + h)) b → (∀ p ∈ h, p < a.next) →
      Pend a G S old key new queue →
      wp (InsertIntoParent old key new queue)
        (fun r t => ∃ u H, St t u (new ::ₘ old ::ₘ ((r : Multiset Int) + h)) b ∧
          Good u H none ∧ (∀ k w, Stored u H k w ↔ S k w) ∧ a.next ≤ u.next) s := by
  intro queue old key new s a G h b hs hh hp
  refine wp_mono (InsertIntoParent_occ S queue old key new s a G h b hs hh hp) ?_
  rintro r t ⟨u, H, h1, h2, h3, h4, _⟩
  exact ⟨u, H, h1, h2, h3, h4⟩

/-- The insert instantiation of `LatchCrabbingToLeaf` on an empty tree. -/
theorem LatchCrabbing_empty_spec (op : OPERATION_TYPE) (key : KeyType) (s : TState)
    {v : TreeView} {h : Multiset Int} {b : Bool} (hs : St s v h b)
    (hroot : v.root = INVALID_PAGE_ID)
    {Q : Option page_id_t × List page_id_t × Bool → TState → Prop}
    (hq : ∀ t, St t v h true → Q (none, [], true) t) :
    wp (LatchCrabbingToLeaf op key) Q s := by
  unfold LatchCrabbingToLeaf
  apply wp_bind_of
  apply wp_lockRoot_st hs
  intro t1 h1
  apply wp_bind_of
  rw [wp_get]
  have hr1 : t1.root_page_id_ = v.root := view_root h1.1
  rw [if_pos (by rw [hr1]; exact hroot), wp_pure]
  exact hq t1 h1

theorem unsafe_leaf_split_index {pg : BPlusTreePage}
    (h2 : 2 ≤ pg.array.length) (hun : ¬ pg.IS_INSERT_SAFE = true) :
    pg.GetMinSize < pg.array.length := by
  have : ¬ (pg.array.length < pg.max_size_) := by
    simpa [BPlusTreePage.IS_INSERT_SAFE, BPlusTreePage.GetSize,
      BPlusTreePage.GetMaxSize] using hun
  unfold BPlusTreePage.GetMinSize
  omega

theorem length_insert_pred {α : Type} (p : α → Bool) (l : List α) (x : α) :
    (l.takeWhile p ++ x :: l.dropWhile p).length = l.length + 1 := by
  have := congrArg List.length (List.takeWhile_append_dropWhile p l)
  rw [List.length_append] at this
  rw [List.length_append, List.length_cons]
  omega

theorem length_InsertLeaf (pg : BPlusTreePage) (key : KeyType) (value : ValueType) :
    (pg.InsertLeaf key value).array.length = pg.array.length + 1 :=
  length_insert_pred _ _ _

/-- Method `Insert` on a tree that satisfies the invariant: a key that is stored is
refused and nothing changes; a key that is not stored is added, and the invariant holds
again.  The pins held and the root lock are as before, and the occupancy invariant is
kept. -/
theorem Insert_occ (key : KeyType) (value : ValueType) (s : TState) {v : TreeView}
    {G : Ghost} {h : Multiset Int} {b : Bool} (hs : St s v h b) (hh : ∀ p ∈ h, p < v.next)
    (hg : Good v G none) :
    wp (Insert key value)
      (fun r t => ∃ u H, St t u h false ∧ Good u H none ∧ v.next ≤ u.next ∧
        ((∃ w, Stored v G key w) → r = false ∧ u = v) ∧
        ((∀ w, ¬ Stored v G key w) → r = true ∧
          ∀ k w, Stored u H k w ↔ (k = key ∧ w = value) ∨ Stored v G k w) ∧
        (Occ v none → Occ u none)) s := by
  unfold Insert InsertIntoLeaf
  apply wp_bind_of
  by_cases hroot : v.root = INVALID_PAGE_ID
  · apply LatchCrabbing_empty_spec _ key s hs hroot
    intro t1 h1
    simp only
    apply wp_bind_of
    apply StartNewTree_spec key value t1 h1 (not_mem_of_lt hh)
    intro t2 h2
    apply wp_bind_of
    apply wp_unlockRootIf_st h2
    intro t3 h3
    rw [wp_pure]
    have hno : ∀ k w, ¬ Stored v G k w := by
      rintro k w ⟨p, _, hp, _⟩
      exact hg.root_none hroot p hp
    refine ⟨_, _, h3, Good_startNew hg key value, le_of_lt (lt_add_one _), ?_, ?_,
      fun hocc => Occ_startNew hocc hroot hg.next_nonneg hg.lmax_pos key value⟩
    · rintro ⟨w, hw⟩
      exact absurd hw (hno key w)
    · intro _
      refine ⟨rfl, fun k w => ?_⟩
      rw [Stored_startNew]
      constructor
      · exact fun h => Or.inl h
      · rintro (h | h)
        · exact h
        · exact absurd h (hno k w)
  · refine wp_mono (LatchCrabbing_write_spec true key s hs hg hroot) ?_
    rintro r t1 ⟨leaf, hr1, h1, hl, hlv, hk, hq, _⟩
    rw [hr1]
    simp only
    obtain ⟨pg, hpg, hgood⟩ := hg.page leaf hl
    have hql := PathQ_live r.2.1 leaf hq
    apply wp_bind_of
    apply wp_getPage_st h1 hpg
    have hstored : ∀ w, pg.LookupLeaf key = some w ↔ Stored v G key w := by
      intro w
      rw [Stored_iff_leaf hg hl hlv hpg hk w]
      exact LookupLeaf_iff rfl (hgood.leaf_sorted hlv) key w
    cases hlook : pg.LookupLeaf key with
    | some w0 =>
      simp only
      apply wp_bind_of
      apply wp_WUnlatch_st h1
      intro t2 h2
      apply wp_bind_of
      rw [hgood.id]
      apply wp_UnpinPage_st h2
      intro t3 h3
      apply wp_bind_of
      apply wp_CLEAN_ROUTINE_st r.2.1 h3
      intro t4 h4
      rw [wp_pure]
      refine ⟨v, G, h4, hg, le_refl _, fun _ => ⟨rfl, rfl⟩, ?_, fun hocc => hocc⟩
      intro hno
      exact absurd ((hstored w0).1 hlook) (hno w0)
    | none =>
      simp only
      have hno : ∀ w, ¬ Stored v G key w := by
        intro w hw
        have := (hstored w).2 hw
        rw [hlook] at this
        cases this
      have hnot : ∀ e ∈ pg.array, e.1 ≠ key := by
        intro e he hek
        have : Stored v G key e.2 := ⟨leaf, pg, hl, hlv, hpg, by rw [← hek]; exact he⟩
        exact hno _ this
      have hg1 := Good_InsertLeaf hg value hl hlv hpg hk hnot
      have hst1 := fun k w => @Stored_InsertLeaf v G leaf pg key value hl hlv hpg k w
      have hl1 := length_InsertLeaf pg key value
      have hlI : leaf ≠ INVALID_PAGE_ID := ne_invalid_of_nonneg (hg.live_range leaf hl).1
      have hlw1 : lowerOf (pg.InsertLeaf key value) = lowerOf pg := lowerOf_congr rfl rfl
      have hpos : 0 < pg.array.length := List.length_pos.2 (hgood.leaf_ne hlv (by simp))
      apply wp_bind_of
      apply wp_modifyPage_st h1 hpg
      intro t2 h2
      apply wp_bind_of
      apply wp_getPage_st h2 (g := pg.InsertLeaf key value) (by simp [TreeView.setPage])
      have hid1 : (pg.InsertLeaf key value).page_id_ = leaf := hgood.id
      by_cases hsafe : (pg.InsertLeaf key value).IS_INSERT_SAFE = true
      · rw [if_neg (by simp [hsafe])]
        apply wp_bind_of
        apply wp_WUnlatch_st h2
        intro t3 h3
        apply wp_bind_of
        rw [hid1]
        apply wp_UnpinPage_st h3
        intro t4 h4
        apply wp_bind_of
        apply wp_CLEAN_ROUTINE_st r.2.1 h4
        intro t5 h5
        rw [wp_pure]
        refine ⟨_, G, h5, hg1, le_refl _, ?_, fun _ => ⟨rfl, hst1⟩, fun hocc => ?_⟩
        · rintro ⟨w, hw⟩
          exact absurd hw (hno w)
        · have h0 := hocc.page leaf pg hpg
          have hlt : (pg.InsertLeaf key value).array.length <
              (pg.InsertLeaf key value).max_size_ := by
            simpa [BPlusTreePage.IS_INSERT_SAFE, BPlusTreePage.GetSize,
              BPlusTreePage.GetMaxSize] using hsafe
          refine Occ_setPage_same hocc hlI (And.intro (le_of_lt hlt) (fun hr =>
            And.intro (fun h0 => by cases h0) (fun _ _ => ?_)))
          rw [hl1, hlw1]
          exact Nat.le_succ_of_le ((h0.2 hr).2 (by simp) hpos)
      · rw [if_pos (by simp [hsafe])]
        have hLN : leaf ≠ v.next := fun h0 => by
          have := (hg.live_range leaf hl).2
          rw [h0] at this
          exact absurd this (lt_irrefl _)
        have hheld : (v.setPage leaf (pg.InsertLeaf key value)).next ∉
            leaf ::ₘ ((r.2.1 : Multiset Int) + h) := by
          apply not_mem_of_lt
          intro p hp
          simp only [Multiset.mem_cons, Multiset.mem_add, Multiset.mem_coe] at hp
          rcases hp with rfl | hp | hp
          · exact (hg.live_range _ hl).2
          · exact (hg.live_range _ (hql p hp)).2
          · exact hh p hp
        apply wp_bind_of
        have hp2 : (v.setPage leaf (pg.InsertLeaf key value)).pages leaf =
            some (pg.InsertLeaf key value) := by simp [TreeView.setPage]
        apply SplitLeaf_spec h2 hheld hp2 hLN
        intro t3 h3
        apply wp_bind_of
        apply wp_WUnlatch_st h3
        intro t4 h4
        have hNp : ((v.setPage leaf (pg.InsertLeaf key value)).splitLeaf leaf
            (pg.InsertLeaf key value)).pages v.next =
              some (leafHigh (pg.InsertLeaf key value) v.next v.lmax) := by
          simp [TreeView.splitLeaf, TreeView.setPage, Function.update_noteq hLN.symm]
        apply wp_bind_of
        apply wp_getPage_st h4 hNp
        have hlen2 : 2 ≤ (pg.InsertLeaf key value).array.length := by
          have hne := hgood.leaf_ne hlv (by simp)
          have : 0 < pg.array.length := List.length_pos.2 hne
          have hl1 := length_InsertLeaf pg key value
          omega
        have hidx := unsafe_leaf_split_index hlen2 hsafe
        obtain ⟨e, he⟩ : ∃ e, (pg.InsertLeaf key value).array[
            (pg.InsertLeaf key value).GetMinSize]? = some e :=
          ⟨_, List.getElem?_eq_getElem hidx⟩
        apply wp_bind_of
        rw [wp_ofOption]
        refine ⟨e, ?_, ?_⟩
        · rw [slot_zero]
          show ((pg.InsertLeaf key value).array.drop (pg.InsertLeaf key value).GetMinSize)[0]? =
            some e
          rw [List.getElem?_drop]
          exact he
        · have hq1 : PathQ (v.setPage leaf (pg.InsertLeaf key value)) G true leaf r.2.1 := by
            apply PathQ_congr (t := v) (G := G) ?_ r.2.1 leaf hq hl
            · intro x hx _
              exact ⟨hx, rfl, rfl⟩
            · intro x hx hlx
              have hxl : x ≠ leaf := fun h0 => by rw [h0] at hlx; omega
              simp [TreeView.setPage, Function.update_noteq hxl]
            · rfl
          obtain ⟨H, hpend⟩ := Pend_splitLeaf hg1 hl hlv
            (by simp [TreeView.setPage]) he hq1
          apply wp_bind_of
          refine wp_mono (InsertIntoParent_occ _ r.2.1 leaf e.1 v.next t4 _ H h r.2.2 h4
            (fun p hp => lt_trans (hh p hp) (lt_add_one _)) hpend) ?_
          rintro q t5 ⟨u, H2, h5, hg5, hs5, hn5, hocc5⟩
          apply wp_bind_of
          apply wp_UnpinPage_st h5
          intro t6 h6
          apply wp_bind_of
          rw [hid1]
          apply wp_UnpinPage_st h6
          intro t7 h7
          apply wp_bind_of
          apply wp_CLEAN_ROUTINE_st q h7
          intro t8 h8
          rw [wp_pure]
          refine ⟨u, H2, h8, hg5, ?_, ?_,
            fun _ => ⟨rfl, fun k w => (hs5 k w).trans (hst1 k w)⟩, fun hocc => hocc5 ?_⟩
          · have : v.next ≤ v.next + 1 := le_of_lt (lt_add_one _)
            exact le_trans this hn5
          · rintro ⟨w, hw⟩
            exact absurd hw (hno w)
          · have h0 := hocc.page leaf pg hpg
            have hge : ¬ (pg.InsertLeaf key value).array.length <
                (pg.InsertLeaf key value).max_size_ := by
              simpa [BPlusTreePage.IS_INSERT_SAFE, BPlusTreePage.GetSize,
                BPlusTreePage.GetMaxSize] using hsafe
            have hmx : (pg.InsertLeaf key value).max_size_ = pg.max_size_ := rfl
            obtain ⟨o1, o2⟩ := @Occ_splitLeaf _ hocc leaf (pg.InsertLeaf key value)
              hlI hg.next_nonneg (hgood.leaf_type hlv).2 hg.lmax_pos (by omega)
              (by rw [hl1, hmx]; exact Nat.succ_le_succ h0.1)
            refine ⟨o1, fun pgo hpgo => ?_⟩
            obtain ⟨p1, p2, p3⟩ := o2 pgo hpgo
            refine ⟨p1, p2, fun hr => ?_⟩
            have h1 : pgo.parent_page_id_ = INVALID_PAGE_ID := by
              simpa [BPlusTreePage.IsRootPage] using hr
            rw [p3] at h1
            have h2 : pg.parent_page_id_ = INVALID_PAGE_ID := h1
            rw [hgood.parent] at h2
            exact hgood.root_iff.1 h2

/-- Method `Insert` on a tree that satisfies the invariant: a key that is stored is
refused and nothing changes; a key that is not stored is added, and the invariant holds
again.  The pins held and the root lock are as before. -/
theorem Insert_spec (key : KeyType) (value : ValueType) (s : TState) {v : TreeView}
    {G : Ghost} {h : Multiset Int} {b : Bool} (hs : St s v h b) (hh : ∀ p ∈ h, p < v.next)
    (hg : Good v G none) :
    wp (Insert key value)
      (fun r t => ∃ u H, St t u h false ∧ Good u H none ∧ v.next ≤ u.next ∧
        ((∃ w, Stored v G key w) → r = false ∧ u = v) ∧
        ((∀ w, ¬ Stored v G key w) → r = true ∧
          ∀ k w, Stored u H k w ↔ (k = key ∧ w = value) ∨ Stored v G k w)) s := by
  refine wp_mono (Insert_occ key value s hs hh hg) ?_
  rintro r t ⟨u, H, h1, h2, h3, h4, h5, _⟩
  exact ⟨u, H, h1, h2, h3, h4, h5⟩

theorem Rep_new (leaf_max_size internal_max_size : Nat) (first_page_id : page_id_t)
    (h1 : 1 ≤ leaf_max_size) (h3 : 3 ≤ internal_max_size)
    (h0 : HEADER_PAGE_ID < first_page_id) :
    Rep (BPlusTree.new leaf_max_size internal_max_size first_page_id none) (fun _ => none) := by
  refine ⟨Ghost.empty, ⟨rfl, rfl, fun p => by simp [BPlusTree.new], rfl⟩, ?_, ?_⟩
  · exact
      { lmax_pos := h1
        imax_ge := h3
        next_nonneg := le_of_lt h0
        root_none := fun _ p hp => hp
        root_live := fun h => absurd rfl h
        live_range := fun p hp => hp.elim
        lvl_le := fun p hp => hp.elim
        lvl_fuel := fun h => absurd rfl h
        page := fun p hp => hp.elim }
  · intro k w
    constructor
    · rintro ⟨p, _, hp, _⟩
      exact hp.elim
    · intro h
      cases h

theorem St_view {s : TState} {v : TreeView} {h : Multiset Int} {b : Bool} (hs : St s v h b) :
    St s s.view h b := by
  have := hs.1
  exact ⟨rfl, hs.2.1, hs.2.2.1, hs.2.2.2⟩

/-- Method `Insert` in terms of the stored map. -/
theorem Insert_rep (key : KeyType) (value : ValueType) (s : TState)
    (m : KeyType → Option ValueType) (hrep : Rep s m) :
    wp (Insert key value)
      (fun r t =>
        (m key = none → r = true ∧ Rep t (Function.update m key (some value))) ∧
        (m key ≠ none → r = false ∧ Rep t m ∧ t.view = s.view)) s := by
  obtain ⟨G, hs, hg, hst⟩ := hrep
  refine wp_mono (Insert_spec key value s hs (fun p hp => by simp at hp) hg) ?_
  rintro r t ⟨u, H, h1, h2, _, h3, h4⟩
  have hu : t.view = u := h1.1
  constructor
  · intro hm
    have hno : ∀ w, ¬ Stored s.view G key w := by
      intro w hw
      have := (hst key w).1 hw
      rw [hm] at this
      cases this
    obtain ⟨hr, hs2⟩ := h4 hno
    refine ⟨hr, H, St_view h1, by rw [hu]; exact h2, ?_⟩
    intro k w
    rw [hu, hs2 k w, hst k w]
    by_cases hk : k = key
    · subst hk
      simp only [Function.update_same, Option.some.injEq, true_and]
      constructor
      · rintro (h | h)
        · exact h.symm
        · rw [hm] at h; cases h
      · intro h
        exact Or.inl h.symm
    · simp [Function.update_noteq hk, hk]
  · intro hm
    obtain ⟨w, hw⟩ := Option.ne_none_iff_exists'.1 hm
    obtain ⟨hr, huv⟩ := h3 ⟨w, (hst key w).2 hw⟩
    subst huv
    exact ⟨hr, ⟨G, St_view h1, by rw [hu]; exact hg, by rw [hu]; exact hst⟩, hu⟩

/-- Method `GetValue` in terms of the stored map. -/
theorem GetValue_rep (key : KeyType) (s : TState) (m : KeyType → Option ValueType)
    (hrep : Rep s m) :
    wp (GetValue key) (fun r t => r = m key ∧ Rep t m ∧ t.view = s.view) s := by
  obtain ⟨G, hs, hg, hst⟩ := hrep
  refine wp_mono (GetValue_spec key s hs hg) ?_
  rintro r t ⟨h1, h2⟩
  have hu : t.view = s.view := h1.1
  refine ⟨?_, ⟨G, St_view h1, by rw [hu]; exact hg, by rw [hu]; exact hst⟩, hu⟩
  cases hr : r with
  | none =>
    cases hm : m key with
    | none => rfl
    | some w =>
      have := (h2 w).2 ((hst key w).2 hm)
      rw [hr] at this
      cases this
  | some w =>
    have := (hst key w).1 ((h2 w).1 hr)
    exact this.symm

/-- Inserting a list of pairs whose keys are distinct and new: every call returns `true`
and the pairs are added to the map. -/
theorem insertAll_rep :
    ∀ (kvs : List (KeyType × ValueType)) (s : TState) (m : KeyType → Option ValueType),
      Rep s m → (kvs.map Prod.fst).Nodup → (∀ kv ∈ kvs, m kv.1 = none) →
      wp (insertAll kvs)
        (fun rs t => rs = kvs.map (fun _ => true) ∧
          Rep t (fun k => (mapOf kvs k).orElse (fun _ => m k))) s := by
  intro kvs
  induction kvs with
  | nil =>
    intro s m hrep _ _
    unfold insertAll
    rw [wp_pure]
    refine ⟨rfl, ?_⟩
    have : (fun k => (mapOf [] k).orElse (fun _ => m k)) = m := by
      funext k
      simp [mapOf]
    rw [this]
    exact hrep
  | cons kv rest ih =>
    intro s m hrep hnd hnew
    rw [List.map_cons, List.nodup_cons] at hnd
    unfold insertAll
    apply wp_bind_of
    refine wp_mono (Insert_rep kv.1 kv.2 s m hrep) ?_
    rintro r t ⟨h1, _⟩
    obtain ⟨hr, hrep2⟩ := h1 (hnew kv (List.mem_cons_self _ _))
    apply wp_bind_of
    refine wp_mono (ih t _ hrep2 hnd.2 ?_) ?_
    · intro x hx
      have hne : x.1 ≠ kv.1 := by
        intro h
        exact hnd.1 (List.mem_map.2 ⟨x, hx, h⟩)
      rw [Function.update_noteq hne]
      exact hnew x (List.mem_cons_of_mem _ hx)
    · rintro rs t2 ⟨hrs, hrep3⟩
      rw [wp_pure]
      refine ⟨by rw [hr, hrs]; rfl, ?_⟩
      have : (fun k => (mapOf (kv :: rest) k).orElse (fun _ => m k)) =
          (fun k => (mapOf rest k).orElse
            (fun _ => Function.update m kv.1 (some kv.2) k)) := by
        funext k
        by_cases hk : kv.1 = k
        · subst hk
          have hnot : ∀ x ∈ rest, ¬ (x.1 = kv.1) := by
            intro x hx h
            exact hnd.1 (List.mem_map.2 ⟨x, hx, h⟩)
          have hfind : rest.find? (fun x => decide (x.1 = kv.1)) = none := by
            rw [List.find?_eq_none]
            intro x hx
            simpa using hnot x hx
          simp [mapOf, hfind]
        · have hk2 : k ≠ kv.1 := fun h => hk h.symm
          simp [mapOf, List.find?_cons, hk, Function.update_noteq hk2]
      rw [this]
      exact hrep3

theorem mapOf_mem :
    ∀ (kvs : List (KeyType × ValueType)), (kvs.map Prod.fst).Nodup → ∀ kv ∈ kvs,
      mapOf kvs kv.1 = some kv.2 := by
  intro kvs
  induction kvs with
  | nil => intro _ kv hkv; cases hkv
  | cons x rest ih =>
    intro hnd kv hkv
    rw [List.map_cons, List.nodup_cons] at hnd
    rcases List.mem_cons.1 hkv with h | h
    · subst h
      simp [mapOf]
    · have hne : ¬ (x.1 = kv.1) := fun hx =>
        hnd.1 (List.mem_map.2 ⟨kv, h, hx.symm⟩)
      have := ih hnd.2 kv h
      simp only [mapOf] at this ⊢
      rw [List.find?_cons]
      simp only [hne, decide_False]
      exact this

theorem mapOf_not_mem (kvs : List (KeyType × ValueType)) (k : KeyType)
    (hk : k ∉ kvs.map Prod.fst) : mapOf kvs k = none := by
  have : kvs.find? (fun kv => decide (kv.1 = k)) = none := by
    rw [List.find?_eq_none]
    intro x hx
    have : x.1 ≠ k := fun h => hk (List.mem_map.2 ⟨x, hx, h⟩)
    simpa using this
  simp [mapOf, this]

theorem Rep_stateAfter_insert (key : KeyType) (value : ValueType) (s : TState)
    (m : KeyType → Option ValueType) (hrep : Rep s m) (hnew : m key = none) :
    Rep (stateAfter (Insert key value) s) (Function.update m key (some value)) := by
  obtain ⟨r, t, hrun, h1, _⟩ := Insert_rep key value s m hrep
  have : stateAfter (Insert key value) s = t := by
    simp [stateAfter, hrun]
  rw [this]
  exact (h1 hnew).2

/-- C1: round trip.  On a tree constructed with `leaf_max_size >= 1` and
`internal_max_size >= 3` over a pool that holds the header page already (the next page id
is above `HEADER_PAGE_ID`) and in which `NewPage` never fails, inserting pairs with
pairwise distinct keys, in the order of the list, succeeds for every pair (each `Insert`
returns `true`); afterwards `GetValue(k)` returns `true` with exactly the value inserted
with `k` for every inserted key, and `false` for every key that was not inserted. -/
theorem insert_getValue_round_trip (leaf_max_size internal_max_size : Nat)
    (first_page_id : page_id_t) (h1 : 1 ≤ leaf_max_size) (h3 : 3 ≤ internal_max_size)
    (h0 : HEADER_PAGE_ID < first_page_id) (kvs : List (KeyType × ValueType))
    (hnd : (kvs.map Prod.fst).Nodup) :
    ∃ s, (insertAll kvs).run
        (BPlusTree.new leaf_max_size internal_max_size first_page_id none) =
          Res.ok (kvs.map (fun _ => true)) s ∧
      (∀ kv ∈ kvs, ∃ t, (GetValue kv.1).run s = Res.ok (some kv.2) t) ∧
      (∀ k, k ∉ kvs.map Prod.fst → ∃ t, (GetValue k).run s = Res.ok none t) := by
  obtain ⟨rs, s, hrun, hrs, hrep⟩ := insertAll_rep kvs _ _
    (Rep_new leaf_max_size internal_max_size first_page_id h1 h3 h0) hnd (fun _ _ => rfl)
  refine ⟨s, by rw [hrun, hrs], ?_, ?_⟩
  · intro kv hkv
    obtain ⟨r, t, hrun2, hr, _⟩ := GetValue_rep kv.1 s _ hrep
    refine ⟨t, ?_⟩
    rw [hrun2, hr, mapOf_mem kvs hnd kv hkv]
    rfl
  · intro k hk
    obtain ⟨r, t, hrun2, hr, _⟩ := GetValue_rep k s _ hrep
    refine ⟨t, ?_⟩
    rw [hrun2, hr, mapOf_not_mem kvs k hk]
    rfl

theorem insert_getValue_round_trip_witness :
    ∃ s, (insertAll [(5, 50), (1, 10), (3, 30), (2, 20)]).run (BPlusTree.new 2 3 1 none) =
          Res.ok ([(5, 50), (1, 10), (3, 30), (2, 20)].map (fun _ => true)) s ∧
      (∀ kv ∈ [((5 : KeyType), (50 : ValueType)), (1, 10), (3, 30), (2, 20)],
        ∃ t, (GetValue kv.1).run s = Res.ok (some kv.2) t) ∧
      (∀ k, k ∉ [((5 : KeyType), (50 : ValueType)), (1, 10), (3, 30), (2, 20)].map Prod.fst →
        ∃ t, (GetValue k).run s = Res.ok none t) :=
  insert_getValue_round_trip 2 3 1 (by decide) (by decide) (by decide)
    [(5, 50), (1, 10), (3, 30), (2, 20)] (by decide)

/-- C2: unique keys.  On every state at rest that holds a well-formed tree (`Rep s m`:
the tree stores exactly the map `m`, no pin is held, `NewPage` cannot fail), `Insert(k, v)`
returns: for a key that is stored it returns `false` and every page and the root page id
are as before; for a key that is not stored it returns `true`. -/
theorem insert_unique_keys (s : TState) (m : KeyType → Option ValueType) (hrep : Rep s m)
    (k : KeyType) (v : ValueType) :
    ∃ r t, (Insert k v).run s = Res.ok r t ∧
      ((∃ w, m k = some w) → r = false ∧ t.pages = s.pages ∧
        t.root_page_id_ = s.root_page_id_) ∧
      (m k = none → r = true) := by
  obtain ⟨r, t, hrun, h1, h2⟩ := Insert_rep k v s m hrep
  refine ⟨r, t, hrun, ?_, fun h => (h1 h).1⟩
  rintro ⟨w, hw⟩
  obtain ⟨hr, _, hview⟩ := h2 (by rw [hw]; exact fun h => by cases h)
  exact ⟨hr, congrArg TreeView.pages hview, congrArg TreeView.root hview⟩

theorem insert_unique_keys_witness :
    ∃ r t, (Insert 7 71).run (stateAfter (Insert 7 70) (BPlusTree.new 2 3 1 none)) =
        Res.ok r t ∧
      ((∃ w, Function.update (fun _ => (none : Option ValueType)) (7 : KeyType) (some 70) 7 =
          some w) →
        r = false ∧
        t.pages = (stateAfter (Insert 7 70) (BPlusTree.new 2 3 1 none)).pages ∧
        t.root_page_id_ =
          (stateAfter (Insert 7 70) (BPlusTree.new 2 3 1 none)).root_page_id_) ∧
      (Function.update (fun _ => (none : Option ValueType)) (7 : KeyType) (some 70) 7 = none →
        r = true) :=
  insert_unique_keys _ _
    (Rep_stateAfter_insert 7 70 _ _ (Rep_new 2 3 1 (by decide) (by decide) (by decide)) rfl)
    7 71

/-- The exemption from the size bounds can be moved when the pages concerned meet them. -/
theorem PageGood_exempt {t : TreeView} {G : Ghost} {E F : Option Int} {p : Int}
    {pg : BPlusTreePage} (h : PageGood t G E p pg)
    (hl : G.lvl p = 0 → F ≠ some p → pg.array ≠ [])
    (hi : G.lvl p ≠ 0 → F ≠ some p → 2 ≤ pg.array.length) : PageGood t G F p pg :=
  ⟨h.id, h.parent, h.root_iff, h.attached, h.range_ne, h.leaf_type, h.leaf_sorted,
    h.leaf_range, hl, h.next_end, h.next_ok, h.int_type, h.int_seg, hi⟩

theorem Good_exempt {t : TreeView} {G : Ghost} {E F : Option Int} (hg : Good t G E)
    (h : ∀ p pg, G.live p → t.pages p = some pg → E = some p → F ≠ some p →
      (G.lvl p = 0 → pg.array ≠ []) ∧ (G.lvl p ≠ 0 → 2 ≤ pg.array.length)) :
    Good t G F := by
  refine ⟨hg.lmax_pos, hg.imax_ge, hg.next_nonneg, hg.root_none, hg.root_live, hg.live_range,
    hg.lvl_le, hg.lvl_fuel, ?_⟩
  intro p hp
  obtain ⟨pg, hpg, hgood⟩ := hg.page p hp
  refine ⟨pg, hpg, PageGood_exempt hgood ?_ ?_⟩
  · intro hl hF
    by_cases hE : E = some p
    · exact (h p pg hp hpg hE hF).1 hl
    · exact hgood.leaf_ne hl hE
  · intro hl hF
    by_cases hE : E = some p
    · exact (h p pg hp hpg hE hF).2 hl
    · exact hgood.int_size hl hE

/-- What a leaf holds after `RemoveAndDeleteRecord`. -/
theorem mem_eraseKey (key : KeyType) :
    ∀ (arr : List (KeyType × Int)), (arr.map Prod.fst).Pairwise (fun a b => a < b) →
      ∀ e, e ∈ arr.eraseP (fun e => comparator_ e.1 key = 0) ↔ e ∈ arr ∧ e.1 ≠ key := by
  intro arr
  induction arr with
  | nil => intro _ e; simp
  | cons x xs ih =>
    intro hs e
    rw [List.map_cons, List.pairwise_cons] at hs
    by_cases hx : x.1 = key
    · have hp : (fun e : KeyType × Int => decide (comparator_ e.1 key = 0)) x = true := by
        simp [comparator_eq, hx]
      rw [List.eraseP_cons_of_pos (p := fun e : KeyType × Int => decide (comparator_ e.1 key = 0)) hp]
      constructor
      · intro he
        refine ⟨List.mem_cons_of_mem _ he, ?_⟩
        have := hs.1 e.1 (List.mem_map_of_mem _ he)
        rw [hx] at this
        exact ne_of_gt this
      · rintro ⟨he, hne⟩
        rcases List.mem_cons.1 he with h | h
        · rw [h] at hne; exact absurd hx hne
        · exact h
    · have hp : ¬ (fun e : KeyType × Int => decide (comparator_ e.1 key = 0)) x = true := by
        simp [comparator_eq, hx]
      rw [List.eraseP_cons_of_neg (p := fun e : KeyType × Int => decide (comparator_ e.1 key = 0)) hp,
        List.mem_cons, ih hs.2 e, List.mem_cons]
      constructor
      · rintro (h | ⟨h1, h2⟩)
        · exact ⟨Or.inl h, by rw [h]; exact hx⟩
        · exact ⟨Or.inr h1, h2⟩
      · rintro ⟨h | h, h2⟩
        · exact Or.inl h
        · exact Or.inr ⟨h, h2⟩

theorem mem_RemoveAndDeleteRecord {pg : BPlusTreePage} {key : KeyType}
    (hs : (pg.array.map Prod.fst).Pairwise (fun a b => a < b)) (e : KeyType × Int) :
    e ∈ (pg.RemoveAndDeleteRecord key).array ↔ e ∈ pg.array ∧ e.1 ≠ key :=
  mem_eraseKey key pg.array hs e

/-- Removing a key from the leaf responsible for it keeps the invariant, except that the
leaf may now be short of pairs. -/
theorem Good_RemoveLeaf {v : TreeView} {G : Ghost} (hg : Good v G none) {L : Int}
    {pg : BPlusTreePage} (key : KeyType) (hL : G.live L)
    (h0 : G.lvl L = 0) (hpg : v.pages L = some pg) :
    Good (v.setPage L (pg.RemoveAndDeleteRecord key)) G (some L) := by
  obtain ⟨pg1, hpg1, hgood⟩ := hg.page L hL
  rw [hpg] at hpg1; cases hpg1
  have hroot := root_ne_of_live hg hL
  refine Good_transfer hg (fun p => p = L) rfl rfl (le_refl _) (fun h => absurd h hroot)
    (fun _ => hg.root_live hroot) hg.live_range hg.lvl_le hg.lvl_fuel (fun p hp _ => hp)
    ?_ ?_ (fun _ _ _ => Iff.rfl) (fun x _ _ _ _ => GAgree.refl G x) ?_ ?_
    (fun _ _ h => by cases h)
  · intro p hp
    exact ⟨by simp [TreeView.setPage, Function.update_noteq hp], GAgree.refl G p⟩
  · intro p hp _
    cases hp
    refine ⟨pg.RemoveAndDeleteRecord key, by simp [TreeView.setPage], ?_⟩
    refine
      { id := hgood.id
        parent := hgood.parent
        root_iff := hgood.root_iff
        attached := ?_
        range_ne := hgood.range_ne
        leaf_type := hgood.leaf_type
        leaf_sorted := fun _ =>
          (hgood.leaf_sorted h0).sublist ((List.eraseP_sublist _).map Prod.fst)
        leaf_range := ?_
        leaf_ne := fun _ h => absurd rfl h
        next_end := hgood.next_end
        next_ok := hgood.next_ok
        int_type := fun h => absurd h0 h
        int_seg := fun h => absurd h0 h
        int_size := fun h => absurd h0 h }
    · intro hne
      obtain ⟨h1, h2, ppg, h3, h4⟩ := hgood.attached hne
      refine ⟨h1, h2, ppg, ?_, h4⟩
      simp only [TreeView.setPage]
      rw [Function.update_noteq (lvl_par_ne hgood hne)]
      exact h3
    · intro _ e he
      exact hgood.leaf_range h0 e ((List.eraseP_sublist _).subset he)
  · intro p pg2 _ hp _ h2 _ hn
    obtain ⟨pg3, hpg3, hgood3⟩ := hg.page p hp
    rw [h2] at hpg3; cases hpg3
    obtain ⟨a, b, c⟩ := hgood3.next_ok (by assumption) hn
    exact ⟨a, rfl, rfl⟩
  · intro p hM hp hMp hne
    obtain ⟨pg3, hpg3, hgood3⟩ := hg.page p hp
    have := (hgood3.attached hne).2.1
    rw [hMp, h0] at this
    omega

/-- What is stored after a key is removed from the leaf responsible for it. -/
theorem Stored_RemoveLeaf {v : TreeView} {G : Ghost} (hg : Good v G none) {L : Int}
    {pg : BPlusTreePage} {key : KeyType} (hL : G.live L)
    (h0 : G.lvl L = 0) (hpg : v.pages L = some pg) (hr : InRange G L key)
    (k : KeyType) (w : ValueType) :
    Stored (v.setPage L (pg.RemoveAndDeleteRecord key)) G k w ↔ Stored v G k w ∧ k ≠ key := by
  obtain ⟨pg1, hpg1, hgood⟩ := hg.page L hL
  rw [hpg] at hpg1; cases hpg1
  have hs := hgood.leaf_sorted h0
  constructor
  · rintro ⟨p, ppg, hp, hlv, hppg, hmem⟩
    by_cases hpL : p = L
    · subst hpL
      simp only [TreeView.setPage, Function.update_same, Option.some.injEq] at hppg
      subst hppg
      obtain ⟨h1, h2⟩ := (mem_RemoveAndDeleteRecord hs (k, w)).1 hmem
      exact ⟨⟨p, pg, hp, hlv, hpg, h1⟩, h2⟩
    · simp only [TreeView.setPage, Function.update_noteq hpL] at hppg
      refine ⟨⟨p, ppg, hp, hlv, hppg, hmem⟩, ?_⟩
      intro hk
      obtain ⟨ppg2, hppg2, hgood2⟩ := hg.page p hp
      rw [hppg] at hppg2; cases hppg2
      have hrk := hgood2.leaf_range hlv _ hmem
      rw [show ((k, w) : KeyType × Int).1 = key from hk] at hrk
      exact hpL (live_unique hg _ p L hp hL (by rw [hlv, h0]) (le_refl _) key
        ⟨hrk.1, hrk.2⟩ hr)
  · rintro ⟨⟨p, ppg, hp, hlv, hppg, hmem⟩, hk⟩
    by_cases hpL : p = L
    · subst hpL
      rw [hpg] at hppg; cases hppg
      exact ⟨p, pg.RemoveAndDeleteRecord key, hp, hlv, by simp [TreeView.setPage],
        (mem_RemoveAndDeleteRecord hs (k, w)).2 ⟨hmem, hk⟩⟩
    · exact ⟨p, ppg, hp, hlv, by simp [TreeView.setPage, Function.update_noteq hpL, hppg],
        hmem⟩

/-- Two live pages of one level with the same upper bound are the same page. -/
theorem hi_unique {t : TreeView} {G : Ghost} {E : Option Int} (hg : Good t G E)
    {p q : Int} {s : Int} (hp : G.live p) (hq : G.live q) (hl : G.lvl p = G.lvl q)
    (hhp : G.hi p = some s) (hhq : G.hi q = some s) : p = q := by
  obtain ⟨pg, _, hgp⟩ := hg.page p hp
  obtain ⟨qg, _, hgq⟩ := hg.page q hq
  have rp := hgp.range_ne
  have rq := hgq.range_ne
  refine live_unique hg _ p q hp hq hl (le_refl _) (s - 1) ⟨?_, ?_⟩ ⟨?_, ?_⟩
  · intro a ha
    have := rp a s ha hhp
    omega
  · intro b hb
    rw [hhp] at hb; cases hb
    omega
  · intro a ha
    have := rq a s ha hhq
    omega
  · intro b hb
    rw [hhq] at hb; cases hb
    omega

/-- Two live pages of one level with the same lower bound are the same page. -/
theorem lo_unique {t : TreeView} {G : Ghost} {E : Option Int} (hg : Good t G E)
    {p q : Int} {s : Int} (hp : G.live p) (hq : G.live q) (hl : G.lvl p = G.lvl q)
    (hhp : G.lo p = some s) (hhq : G.lo q = some s) : p = q := by
  obtain ⟨pg, _, hgp⟩ := hg.page p hp
  obtain ⟨qg, _, hgq⟩ := hg.page q hq
  have rp := hgp.range_ne
  have rq := hgq.range_ne
  refine live_unique hg _ p q hp hq hl (le_refl _) s ⟨?_, ?_⟩ ⟨?_, ?_⟩
  · intro a ha
    rw [hhp] at ha; cases ha
    exact le_refl _
  · intro b hb
    exact rp s b hhp hb
  · intro a ha
    rw [hhq] at ha; cases ha
    exact le_refl _
  · intro b hb
    exact rq s b hhq hb

/-- Converse of `Seg_slot`. -/
theorem Seg_of_slots {G : Ghost} {p : Int} :
    ∀ (arr : List (KeyType × Int)) {l h : Option Int}, arr ≠ [] →
      (∀ i e, arr[i]? = some e →
        ChildAt G p e.2 (if i = 0 then l else some e.1)
          (match arr[i + 1]? with
            | some e2 => some e2.1
            | none => h)) → Seg G p l arr h := by
  intro arr
  induction arr with
  | nil => intro l h hne; exact absurd rfl hne
  | cons a rest ih =>
    intro l h _ hall
    cases rest with
    | nil =>
      have := hall 0 a rfl
      simpa [Seg_single] using this
    | cons a2 rest =>
      rw [Seg_cons_cons]
      refine ⟨by simpa using hall 0 a rfl, ih (by simp) ?_⟩
      intro i e hi
      have := hall (i + 1) e (by simpa using hi)
      cases i with
      | zero =>
        simp only [List.getElem?_cons_zero, Option.some.injEq] at hi
        subst hi
        simpa using this
      | succ i => simpa using this

theorem adjacent_facts {v : TreeView} {G : Ghost} {E : Option Int} (hg : Good v G E)
    {P : Int} {ppg : BPlusTreePage} {j : Nat} {ey ex : KeyType × Int}
    (ha : Adjacent G P ppg j ey ex) (hpp : v.pages P = some ppg) :
    ChildAt G P ey.2 (if j = 0 then G.lo P else some ey.1) (some ex.1) ∧
    ChildAt G P ex.2 (some ex.1)
      (match ppg.array[j + 2]? with
        | some e2 => some e2.1
        | none => G.hi P) ∧
    ey.2 ≠ ex.2 ∧ ey.2 ≠ P ∧ ex.2 ≠ P ∧ ey.2 ≠ v.root ∧ ex.2 ≠ v.root ∧
    Seg G P (G.lo P) ppg.array (G.hi P) := by
  obtain ⟨pg1, hpg1, hgood⟩ := hg.page P ha.liveP
  rw [hpp] at hpg1; cases hpg1
  have hseg := hgood.int_seg ha.lvlP
  have hy := Seg_slot hseg j ey ha.slotY
  rw [ha.slotX] at hy
  have hx := Seg_slot hseg (j + 1) ex ha.slotX
  simp only [Nat.add_one_ne_zero, if_false] at hx
  refine ⟨hy, hx, ?_, ?_, ?_, ?_, ?_, hseg⟩
  · exact (slot_ne_of_nodup hseg ha.slotX ha.slotY (by omega))
  · intro h; have := hy.lvl; rw [h] at this; omega
  · intro h; have := hx.lvl; rw [h] at this; omega
  · exact child_ne_root hg hy.live ha.liveP hy.par
  · exact child_ne_root hg hx.live ha.liveP hx.par

/-- The description after a change at two siblings agrees with the one before at every
other page whose parent pointer stays. -/
theorem sib_agree (G : Ghost) {Y X : Int} (b : Option Int) (keepX : Bool) {cs : List Int}
    (D : Int) {p : Int} (hX : p ≠ X) (hY : p ≠ Y) (hc : p ∉ cs) :
    GAgree G (G.sib Y X b keepX cs D) p :=
  ⟨fun h => ⟨h, fun h2 => absurd h2 hX⟩, by simp [Ghost.sib, hc], rfl,
    by simp [Ghost.sib, Function.update_noteq hX], by simp [Ghost.sib, Function.update_noteq hY]⟩

/-- The invariant after a change at two adjacent siblings, given that the pages touched
are good. -/
theorem Good_sib {v : TreeView} {G : Ghost} {E F : Option Int} (hg : Good v G E)
    {P : Int} {ppg : BPlusTreePage} {j : Nat} {ey ex : KeyType × Int}
    (ha : Adjacent G P ppg j ey ex) (hpp : v.pages P = some ppg)
    {b : Option Int} {keepX : Bool} {cs : List Int} {D : Int} {yg xg qg : BPlusTreePage}
    (hcs : ∀ c ∈ cs, G.live c ∧ (G.par c = ex.2 ∨ G.par c = ey.2))
    (hYg : PageGood (v.sib cs D ey.2 ex.2 P yg xg qg) (G.sib ey.2 ex.2 b keepX cs D) F ey.2 yg)
    (hXg : keepX = true →
      PageGood (v.sib cs D ey.2 ex.2 P yg xg qg) (G.sib ey.2 ex.2 b keepX cs D) F ex.2 xg)
    (hPg : PageGood (v.sib cs D ey.2 ex.2 P yg xg qg) (G.sib ey.2 ex.2 b keepX cs D) F P qg)
    (hCg : ∀ c ∈ cs, ∃ cpg, v.pages c = some cpg ∧
      PageGood (v.sib cs D ey.2 ex.2 P yg xg qg) (G.sib ey.2 ex.2 b keepX cs D) F c
        (cpg.SetParentPageId D))
    (hkids : ∀ p, G.live p → p ∉ cs →
      (G.par p = ey.2 → p ∈ yg.array.map Prod.snd) ∧
      (G.par p = ex.2 → keepX = true ∧ p ∈ xg.array.map Prod.snd) ∧
      (G.par p = P → p ≠ ex.2 → p ∈ qg.array.map Prod.snd))
    (hE : ∀ p, p ≠ P → p ≠ ex.2 → p ≠ ey.2 → E = some p → F = some p) :
    Good (v.sib cs D ey.2 ex.2 P yg xg qg) (G.sib ey.2 ex.2 b keepX cs D) F := by
  obtain ⟨cy, cx, hyx, hyP, hxP, hyr, hxr, hseg⟩ := adjacent_facts hg ha hpp
  have hclv : ∀ c ∈ cs, G.lvl c + 2 = G.lvl P := by
    intro c hc
    obtain ⟨c1, c2⟩ := hcs c hc
    obtain ⟨cpg, _, hcg⟩ := hg.page c c1
    have hne : G.par c ≠ INVALID_PAGE_ID := by
      rcases c2 with h | h
      · rw [h]; exact live_ne_invalid hg cx.live
      · rw [h]; exact live_ne_invalid hg cy.live
    have := (hcg.attached hne).2.1
    have l1 := cx.lvl
    have l2 := cy.lvl
    rcases c2 with h | h
    · rw [h] at this; omega
    · rw [h] at this; omega
  have hcX : ∀ c ∈ cs, c ≠ ex.2 := by
    intro c hc h
    have := hclv c hc
    have l1 := cx.lvl
    rw [h] at this; omega
  have hcY : ∀ c ∈ cs, c ≠ ey.2 := by
    intro c hc h
    have := hclv c hc
    have l1 := cy.lvl
    rw [h] at this; omega
  have hcP : ∀ c ∈ cs, c ≠ P := by
    intro c hc h
    have := hclv c hc
    rw [h] at this; omega
  have hPcs : P ∉ cs := fun h => hcP P h rfl
  have hpages : ∀ p, p ≠ P → p ≠ ex.2 → p ≠ ey.2 → p ∉ cs →
      (v.sib cs D ey.2 ex.2 P yg xg qg).pages p = v.pages p := by
    intro p h1 h2 h3 h4
    simp [TreeView.sib, Function.update_noteq h1, Function.update_noteq h2,
      Function.update_noteq h3, reparent, h4]
  have hroot : v.root ≠ INVALID_PAGE_ID := root_ne_of_live hg ha.liveP
  obtain ⟨r1, r2, r3⟩ := hg.root_live hroot
  refine Good_transfer hg (fun p => p = P ∨ p = ex.2 ∨ p = ey.2 ∨ p ∈ cs) rfl rfl (le_refl _)
    (fun h => absurd h hroot) ?_ ?_ (fun p hp => hg.lvl_le p hp.1) hg.lvl_fuel ?_ ?_ ?_
    (fun _ _ _ => Iff.rfl)
    ?_ ?_ ?_ ?_
  · intro _
    exact ⟨⟨r1, fun h => absurd h.symm hxr⟩,
      by simp [Ghost.sib, TreeView.sib, Function.update_noteq (Ne.symm hxr), r2],
      by simp [Ghost.sib, TreeView.sib, Function.update_noteq (Ne.symm hyr), r3]⟩
  · intro p hp
    exact hg.live_range p hp.1
  · intro p hp _
    exact hp.1
  · intro p hM
    simp only [not_or] at hM
    exact ⟨hpages p hM.1 hM.2.1 hM.2.2.1 hM.2.2.2,
      sib_agree G b keepX D hM.2.1 hM.2.2.1 hM.2.2.2⟩
  · intro p hM hp
    rcases hM with h | h | h | h
    · subst h
      exact ⟨qg, by simp [TreeView.sib], hPg⟩
    · subst h
      exact ⟨xg, by simp [TreeView.sib, Function.update_noteq hxP], hXg (hp.2 rfl)⟩
    · subst h
      exact ⟨yg, by simp [TreeView.sib, Function.update_noteq hyP, Function.update_noteq hyx],
        hYg⟩
    · obtain ⟨cpg, h1, h2⟩ := hCg p h
      refine ⟨cpg.SetParentPageId D, ?_, h2⟩
      simp [TreeView.sib, Function.update_noteq (hcP p h), Function.update_noteq (hcX p h),
        Function.update_noteq (hcY p h), reparent, h, h1]
  · intro x hM hx hpx hnM
    simp only [not_or] at hnM
    rcases hM with h | h | h | h
    · subst h
      exact sib_agree G b keepX D (Ne.symm hxP) (Ne.symm hyP) hPcs
    · subst h
      exact absurd cx.par hnM.1
    · subst h
      exact absurd cy.par hnM.1
    · rcases (hcs x h).2 with h2 | h2
      · exact absurd h2 hnM.2.1
      · exact absurd h2 hnM.2.2.1
  · intro p pg hnM hp hl hpg hM hn
    simp only [not_or] at hnM
    obtain ⟨pg1, hpg1, hgood⟩ := hg.page p hp
    rw [hpg] at hpg1; cases hpg1
    obtain ⟨n1, n2, n3⟩ := hgood.next_ok hl hn
    have hnX : pg.next_page_id_ ≠ ex.2 := by
      intro h
      rw [h, cx.lo] at n3
      rw [h] at n2
      have l1 := cx.lvl
      have l2 := cy.lvl
      exact hnM.2.2.1 (hi_unique hg hp cy.live (by omega) n3.symm cy.hi)
    exact ⟨⟨n1, fun h => absurd h hnX⟩, rfl, by simp [Ghost.sib, Function.update_noteq hnX]⟩
  · intro p hnM hp hM hne
    simp only [not_or] at hnM
    obtain ⟨pg1, hpg1, hgood⟩ := hg.page p hp
    obtain ⟨a1, a2, ppg1, a3, a4⟩ := hgood.attached hne
    have hk := hkids p hp hnM.2.2.2
    rcases hM with h | h | h | h
    · refine ⟨⟨a1, fun h2 => ?_⟩, rfl, qg, by rw [h]; simp [TreeView.sib], ?_⟩
      · rw [h] at h2; exact absurd h2 (Ne.symm hxP)
      · exact hk.2.2 h hnM.2.1
    · obtain ⟨k1, k2⟩ := hk.2.1 h
      exact ⟨⟨a1, fun _ => k1⟩, rfl, xg,
        by rw [h]; simp [TreeView.sib, Function.update_noteq hxP], k2⟩
    · refine ⟨⟨a1, fun h2 => ?_⟩, rfl, yg, ?_, hk.1 h⟩
      · rw [h] at h2; exact absurd h2 hyx
      · rw [h]; simp [TreeView.sib, Function.update_noteq hyP, Function.update_noteq hyx]
    · obtain ⟨cpg, h1, h2⟩ := hCg _ h
      have hcp : ppg1 = cpg := by rw [h1] at a3; exact (Option.some.inj a3).symm
      subst hcp
      refine ⟨⟨a1, fun h2 => absurd h2 (hcX _ h)⟩, rfl, ppg1.SetParentPageId D, ?_, a4⟩
      simp [TreeView.sib, Function.update_noteq (hcP _ h), Function.update_noteq (hcX _ h),
        Function.update_noteq (hcY _ h), reparent, h, h1]
  · intro p hnM hEp
    simp only [not_or] at hnM
    exact hE p hnM.1 hnM.2.1 hnM.2.2.1 hEp

/-- Dropping the slot of the right one of two adjacent children, whose range the left one
takes over. -/
theorem Seg_erase {G H : Ghost} {P : Int} {arr : List (KeyType × Int)} {l h : Option Int}
    (hs : Seg G P l arr h) {j : Nat} {ey ex : KeyType × Int}
    (hy : arr[j]? = some ey) (hx : arr[j + 1]? = some ex)
    (hag : ∀ e ∈ arr, e.2 ≠ ey.2 → e.2 ≠ ex.2 →
      ∀ a b, ChildAt G P e.2 a b → ChildAt H P e.2 a b)
    (hY : ∀ a c, ChildAt G P ey.2 a (some ex.1) → ChildAt G P ex.2 (some ex.1) c →
      ChildAt H P ey.2 a c) :
    Seg H P l (arr.eraseIdx (j + 1)) h := by
  have hlen : j + 1 < arr.length := (List.getElem?_eq_some_iff.1 hx).1
  apply Seg_of_slots
  · intro h0
    have := congrArg List.length h0
    rw [List.length_eraseIdx, if_pos hlen] at this
    simp at this
    omega
  · intro i e hi
    rw [List.getElem?_eraseIdx] at hi
    rw [List.getElem?_eraseIdx]
    by_cases h1 : i < j + 1
    · rw [if_pos h1] at hi
      by_cases h2 : i + 1 < j + 1
      · rw [if_pos h2]
        have hc := Seg_slot hs i e hi
        exact hag e (List.getElem?_mem hi)
          (slot_ne_of_nodup hs hy hi (by omega)) (slot_ne_of_nodup hs hx hi (by omega)) _ _ hc
      · rw [if_neg h2]
        have hij : i = j := by omega
        subst hij
        rw [hy] at hi; cases hi
        have cy := Seg_slot hs i ey hy
        rw [hx] at cy
        have cx := Seg_slot hs (i + 1) ex hx
        simp only [Nat.add_one_ne_zero, if_false] at cx
        exact hY _ _ cy cx
    · rw [if_neg h1] at hi
      have hi0 : i ≠ 0 := by omega
      have hi1 : ¬ (i + 1 < j + 1) := by omega
      rw [if_neg hi0, if_neg hi1]
      have hc := Seg_slot hs (i + 1) e hi
      simp only [Nat.add_one_ne_zero, if_false] at hc
      exact hag e (List.getElem?_mem hi)
        (slot_ne_of_nodup hs hy hi (by omega)) (slot_ne_of_nodup hs hx hi (by omega)) _ _ hc

/-- Replacing the key between two adjacent children by the new bound between them. -/
theorem Seg_setKey {G H : Ghost} {P : Int} {arr : List (KeyType × Int)} {l h : Option Int}
    (hs : Seg G P l arr h) {j : Nat} {ey ex : KeyType × Int} (k : KeyType)
    (hy : arr[j]? = some ey) (hx : arr[j + 1]? = some ex)
    (hag : ∀ e ∈ arr, e.2 ≠ ey.2 → e.2 ≠ ex.2 →
      ∀ a b, ChildAt G P e.2 a b → ChildAt H P e.2 a b)
    (hY : ∀ a, ChildAt G P ey.2 a (some ex.1) → ChildAt H P ey.2 a (some k))
    (hX : ∀ c, ChildAt G P ex.2 (some ex.1) c → ChildAt H P ex.2 (some k) c) :
    Seg H P l (arr.modify (fun e => (k, e.2)) (j + 1)) h := by
  have hlen : j + 1 < arr.length := (List.getElem?_eq_some_iff.1 hx).1
  apply Seg_of_slots
  · intro h0
    have := congrArg List.length h0
    simp only [List.length_modify, List.length_nil] at this
    omega
  · intro i e hi
    rw [List.getElem?_modify] at hi
    rw [List.getElem?_modify]
    by_cases h1 : i = j + 1
    · subst h1
      rw [hx] at hi
      simp only [Option.map_eq_map, Option.map_some', if_true, Option.some.injEq] at hi
      subst hi
      have cx := Seg_slot hs (j + 1) ex hx
      simp only [Nat.add_one_ne_zero, if_false] at cx ⊢
      have hne : ¬ (j + 1 = j + 1 + 1) := by omega
      cases hnx : arr[j + 1 + 1]? with
      | none =>
        rw [hnx] at cx
        simp only [Option.map_eq_map, Option.map_none']
        exact hX _ cx
      | some e2 =>
        rw [hnx] at cx
        simp only [Option.map_eq_map, Option.map_some', hne, if_false]
        exact hX _ cx
    · by_cases h2 : i = j
      · subst h2
        rw [hy] at hi
        have hne : ¬ (i + 1 = i) := by omega
        simp only [Option.map_eq_map, Option.map_some', hne, if_false, Option.some.injEq] at hi
        subst hi
        have cy := Seg_slot hs i ey hy
        rw [hx] at cy
        rw [hx]
        simp only [Option.map_eq_map, Option.map_some', if_true]
        exact hY _ cy
      · cases hie : arr[i]? with
        | none => rw [hie] at hi; simp at hi
        | some e0 =>
          rw [hie] at hi
          have hne : ¬ (j + 1 = i) := fun h => h1 h.symm
          simp only [Option.map_eq_map, Option.map_some', hne, if_false, Option.some.injEq] at hi
          subst hi
          have hc := Seg_slot hs i e0 hie
          have hne2 : ¬ (j + 1 = i + 1) := by omega
          have hgoal := hag e0 (List.getElem?_mem hie)
            (slot_ne_of_nodup hs hy hie h2) (slot_ne_of_nodup hs hx hie h1) _ _ hc
          cases hnx : arr[i + 1]? with
          | none =>
            rw [hnx] at hgoal
            simp only [Option.map_eq_map, Option.map_none']
            exact hgoal
          | some e2 =>
            rw [hnx] at hgoal
            simp only [Option.map_eq_map, Option.map_some', hne2, if_false]
            exact hgoal

/-- The level facts about a page adopted in a change at two siblings. -/
theorem sib_cs_facts {v : TreeView} {G : Ghost} {E : Option Int} (hg : Good v G E)
    {P : Int} {ppg : BPlusTreePage} {j : Nat} {ey ex : KeyType × Int}
    (ha : Adjacent G P ppg j ey ex) (hpp : v.pages P = some ppg) {cs : List Int}
    (hcs : ∀ c ∈ cs, G.live c ∧ (G.par c = ex.2 ∨ G.par c = ey.2)) :
    ∀ c ∈ cs, G.lvl c + 2 = G.lvl P ∧ c ≠ ex.2 ∧ c ≠ ey.2 ∧ c ≠ P ∧ c ≠ v.root := by
  obtain ⟨cy, cx, hyx, hyP, hxP, hyr, hxr, hseg⟩ := adjacent_facts hg ha hpp
  intro c hc
  obtain ⟨c1, c2⟩ := hcs c hc
  obtain ⟨cpg, _, hcg⟩ := hg.page c c1
  have hne : G.par c ≠ INVALID_PAGE_ID := by
    rcases c2 with h | h
    · rw [h]; exact live_ne_invalid hg cx.live
    · rw [h]; exact live_ne_invalid hg cy.live
  have h1 := (hcg.attached hne).2.1
  have l1 := cx.lvl
  have l2 := cy.lvl
  have hl : G.lvl c + 2 = G.lvl P := by
    rcases c2 with h | h
    · rw [h] at h1; omega
    · rw [h] at h1; omega
  refine ⟨hl, ?_, ?_, ?_, ?_⟩
  · intro h; rw [h] at hl; omega
  · intro h; rw [h] at hl; omega
  · intro h; rw [h] at hl; omega
  · intro h
    exact hne (hcg.root_iff.2 h)

/-- The parent of two siblings after a change at them. -/
theorem sib_parent_good {v : TreeView} {G : Ghost} {E F : Option Int} (hg : Good v G E)
    {P : Int} {ppg : BPlusTreePage} {j : Nat} {ey ex : KeyType × Int}
    (ha : Adjacent G P ppg j ey ex) (hpp : v.pages P = some ppg)
    {b : Option Int} {keepX : Bool} {cs : List Int} {D : Int} {yg xg qg : BPlusTreePage}
    (hcs : ∀ c ∈ cs, G.live c ∧ (G.par c = ex.2 ∨ G.par c = ey.2))
    (hid : qg.page_id_ = ppg.page_id_) (hpa : qg.parent_page_id_ = ppg.parent_page_id_)
    (hty : qg.page_type_ = ppg.page_type_) (hmx : qg.max_size_ = ppg.max_size_)
    (hseg : Seg (G.sib ey.2 ex.2 b keepX cs D) P (G.lo P) qg.array (G.hi P))
    (hsize : F ≠ some P → 2 ≤ qg.array.length) :
    PageGood (v.sib cs D ey.2 ex.2 P yg xg qg) (G.sib ey.2 ex.2 b keepX cs D) F P qg := by
  obtain ⟨cy, cx, hyx, hyP, hxP, hyr, hxr, _⟩ := adjacent_facts hg ha hpp
  obtain ⟨pg1, hpg1, hgood⟩ := hg.page P ha.liveP
  rw [hpp] at hpg1; cases hpg1
  have hcf := sib_cs_facts hg ha hpp hcs
  have hPcs : P ∉ cs := fun h => (hcf P h).2.2.2.1 rfl
  have hagP := sib_agree G b keepX D (Ne.symm hxP) (Ne.symm hyP) hPcs
  refine
    { id := by rw [hid]; exact hgood.id
      parent := by rw [hpa, hagP.par]; exact hgood.parent
      root_iff := by rw [hagP.par]; exact hgood.root_iff
      attached := ?_
      range_ne := by rw [hagP.lo, hagP.hi]; exact hgood.range_ne
      leaf_type := fun h => absurd h ha.lvlP
      leaf_sorted := fun h => absurd h ha.lvlP
      leaf_range := fun h => absurd h ha.lvlP
      leaf_ne := fun h => absurd h ha.lvlP
      next_end := fun h => absurd h ha.lvlP
      next_ok := fun h => absurd h ha.lvlP
      int_type := fun h => by rw [hty, hmx]; exact hgood.int_type h
      int_seg := fun _ => by rw [hagP.lo, hagP.hi]; exact hseg
      int_size := fun _ => hsize }
  rw [hagP.par]
  intro hne
  obtain ⟨a1, a2, upg, a3, a4⟩ := hgood.attached hne
  have l1 := cx.lvl
  have l2 := cy.lvl
  have hu1 : G.par P ≠ P := fun h => by rw [h] at a2; omega
  have hu2 : G.par P ≠ ex.2 := fun h => by rw [h] at a2; omega
  have hu3 : G.par P ≠ ey.2 := fun h => by rw [h] at a2; omega
  have hu4 : G.par P ∉ cs := fun h => by
    have := (hcf _ h).1
    omega
  refine ⟨⟨a1, fun h => absurd h hu2⟩, a2, upg, ?_, a4⟩
  simp [TreeView.sib, Function.update_noteq hu1, Function.update_noteq hu2,
    Function.update_noteq hu3, reparent, hu4, a3]

/-- A page adopted in a change at two siblings. -/
theorem sib_child_good {v : TreeView} {G : Ghost} {E F : Option Int} (hg : Good v G E)
    {P : Int} {ppg : BPlusTreePage} {j : Nat} {ey ex : KeyType × Int}
    (ha : Adjacent G P ppg j ey ex) (hpp : v.pages P = some ppg)
    {b : Option Int} {keepX : Bool} {cs : List Int} {D : Int} {yg xg qg : BPlusTreePage}
    (hcs : ∀ c ∈ cs, G.live c ∧ (G.par c = ex.2 ∨ G.par c = ey.2))
    {c : Int} (hc : c ∈ cs) {cpg : BPlusTreePage} (hcpg : v.pages c = some cpg)
    (hD : (D = ey.2 ∧ c ∈ yg.array.map Prod.snd) ∨
      (D = ex.2 ∧ keepX = true ∧ c ∈ xg.array.map Prod.snd))
    (hE : E = some c → F = some c) :
    PageGood (v.sib cs D ey.2 ex.2 P yg xg qg) (G.sib ey.2 ex.2 b keepX cs D) F c
      (cpg.SetParentPageId D) := by
  obtain ⟨cy, cx, hyx, hyP, hxP, hyr, hxr, _⟩ := adjacent_facts hg ha hpp
  have hcf := sib_cs_facts hg ha hpp hcs
  obtain ⟨c1, c2, c3, c4, c5⟩ := hcf c hc
  obtain ⟨cl, _⟩ := hcs c hc
  obtain ⟨pg1, hpg1, hgood⟩ := hg.page c cl
  rw [hcpg] at hpg1; cases hpg1
  have l1 := cx.lvl
  have l2 := cy.lvl
  have hDne : D ≠ INVALID_PAGE_ID := by
    rcases hD with ⟨h, _⟩ | ⟨h, _⟩
    · rw [h]; exact live_ne_invalid hg cy.live
    · rw [h]; exact live_ne_invalid hg cx.live
  have hpar : (G.sib ey.2 ex.2 b keepX cs D).par c = D := by simp [Ghost.sib, hc]
  refine PageGood_frame hgood rfl rfl rfl rfl rfl rfl rfl rfl
    (by simp [Ghost.sib, Function.update_noteq c2])
    (by simp [Ghost.sib, Function.update_noteq c3])
    (by rw [hpar]; rfl)
    (by rw [hpar]; exact ⟨fun h => absurd h hDne, fun h => absurd h c5⟩) ?_ ?_ ?_ hE
  · intro _
    rw [hpar]
    rcases hD with ⟨h, hm⟩ | ⟨h, hk, hm⟩
    · refine ⟨by rw [h]; exact ⟨cy.live, fun h2 => absurd h2 hyx⟩, ?_, yg, ?_, hm⟩
      · show G.lvl D = G.lvl c + 1
        rw [h]; omega
      · rw [h]
        simp [TreeView.sib, Function.update_noteq hyP, Function.update_noteq hyx]
    · refine ⟨by rw [h]; exact ⟨cx.live, fun _ => hk⟩, ?_, xg, ?_, hm⟩
      · show G.lvl D = G.lvl c + 1
        rw [h]; omega
      · rw [h]
        simp [TreeView.sib, Function.update_noteq hxP]
  · intro h0 hn
    obtain ⟨n1, n2, _⟩ := hgood.next_ok h0 hn
    have hnX : cpg.next_page_id_ ≠ ex.2 := fun h => by rw [h] at n2; omega
    exact ⟨⟨n1, fun h => absurd h hnX⟩, rfl, by simp [Ghost.sib, Function.update_noteq hnX]⟩
  · intro h0 x hx
    obtain ⟨k1, k2, k3, _⟩ := Seg_child (hgood.int_seg h0) x hx
    refine sib_agree G b keepX D ?_ ?_ ?_
    · intro h; rw [h] at k3; omega
    · intro h; rw [h] at k3; omega
    · intro h
      have := (hcf _ h).1
      omega

/-- One of the two siblings after a change at them: the conditions on its slots and its
forward link remain to be shown. -/
theorem sib_page_good {v : TreeView} {G : Ghost} {E F : Option Int} (hg : Good v G E)
    {P : Int} {ppg : BPlusTreePage} {j : Nat} {ey ex : KeyType × Int}
    (ha : Adjacent G P ppg j ey ex) (hpp : v.pages P = some ppg)
    {b : Option Int} {keepX : Bool} {cs : List Int} {D : Int} {yg xg qg : BPlusTreePage}
    (hcs : ∀ c ∈ cs, G.live c ∧ (G.par c = ex.2 ∨ G.par c = ey.2))
    {Z : Int} {zg zg2 : BPlusTreePage} (hZ : Z = ey.2 ∨ (Z = ex.2 ∧ keepX = true))
    (hzg : v.pages Z = some zg)
    (hid : zg2.page_id_ = zg.page_id_) (hpa : zg2.parent_page_id_ = zg.parent_page_id_)
    (hty : zg2.page_type_ = zg.page_type_) (hmx : zg2.max_size_ = zg.max_size_)
    (hin : Z ∈ qg.array.map Prod.snd)
    (hrange : bLt ((G.sib ey.2 ex.2 b keepX cs D).lo Z) ((G.sib ey.2 ex.2 b keepX cs D).hi Z))
    (hleaf : G.lvl Z = 0 →
      (zg2.array.map Prod.fst).Pairwise (fun a b => a < b) ∧
      (∀ e ∈ zg2.array, loLe ((G.sib ey.2 ex.2 b keepX cs D).lo Z) e.1 ∧
        ltHi e.1 ((G.sib ey.2 ex.2 b keepX cs D).hi Z)) ∧
      (F ≠ some Z → zg2.array ≠ []) ∧
      (zg2.next_page_id_ = INVALID_PAGE_ID ↔ (G.sib ey.2 ex.2 b keepX cs D).hi Z = none) ∧
      (zg2.next_page_id_ ≠ INVALID_PAGE_ID →
        (G.sib ey.2 ex.2 b keepX cs D).live zg2.next_page_id_ ∧
        G.lvl zg2.next_page_id_ = 0 ∧
        (G.sib ey.2 ex.2 b keepX cs D).lo zg2.next_page_id_ =
          (G.sib ey.2 ex.2 b keepX cs D).hi Z))
    (hint : G.lvl Z ≠ 0 →
      Seg (G.sib ey.2 ex.2 b keepX cs D) Z ((G.sib ey.2 ex.2 b keepX cs D).lo Z) zg2.array
        ((G.sib ey.2 ex.2 b keepX cs D).hi Z) ∧
      (F ≠ some Z → 2 ≤ zg2.array.length)) :
    PageGood (v.sib cs D ey.2 ex.2 P yg xg qg) (G.sib ey.2 ex.2 b keepX cs D) F Z zg2 := by
  obtain ⟨cy, cx, hyx, hyP, hxP, hyr, hxr, _⟩ := adjacent_facts hg ha hpp
  have hcf := sib_cs_facts hg ha hpp hcs
  have hZl : G.live Z := by
    rcases hZ with h | ⟨h, _⟩
    · rw [h]; exact cy.live
    · rw [h]; exact cx.live
  have hZp : G.par Z = P := by
    rcases hZ with h | ⟨h, _⟩
    · rw [h]; exact cy.par
    · rw [h]; exact cx.par
  have hZlv : G.lvl Z + 1 = G.lvl P := by
    rcases hZ with h | ⟨h, _⟩
    · rw [h]; exact cy.lvl
    · rw [h]; exact cx.lvl
  have hZr : Z ≠ v.root := by
    rcases hZ with h | ⟨h, _⟩
    · rw [h]; exact hyr
    · rw [h]; exact hxr
  have hZcs : Z ∉ cs := fun h => by
    have := (hcf Z h).1
    omega
  have hPcs : P ∉ cs := fun h => (hcf P h).2.2.2.1 rfl
  obtain ⟨pg1, hpg1, hgood⟩ := hg.page Z hZl
  rw [hzg] at hpg1; cases hpg1
  have hpar : (G.sib ey.2 ex.2 b keepX cs D).par Z = P := by simp [Ghost.sib, hZcs, hZp]
  have hPne : P ≠ INVALID_PAGE_ID := live_ne_invalid hg ha.liveP
  refine
    { id := by rw [hid]; exact hgood.id
      parent := by rw [hpa, hpar, ← hZp]; exact hgood.parent
      root_iff := by rw [hpar]; exact ⟨fun h => absurd h hPne, fun h => absurd h hZr⟩
      attached := ?_
      range_ne := hrange
      leaf_type := fun h => by rw [hty, hmx]; exact hgood.leaf_type h
      leaf_sorted := fun h => (hleaf h).1
      leaf_range := fun h => (hleaf h).2.1
      leaf_ne := fun h => (hleaf h).2.2.1
      next_end := fun h => (hleaf h).2.2.2.1
      next_ok := fun h => (hleaf h).2.2.2.2
      int_type := fun h => by rw [hty, hmx]; exact hgood.int_type h
      int_seg := fun h => (hint h).1
      int_size := fun h => (hint h).2 }
  intro _
  rw [hpar]
  refine ⟨⟨ha.liveP, fun h => absurd h.symm hxP⟩, ?_, qg, by simp [TreeView.sib], hin⟩
  show G.lvl P = G.lvl Z + 1
  omega

theorem ChildAt_agree {G H : Ghost} {P c : Int} (hag : GAgree G H c)
    (hP : H.lvl P = G.lvl P) {a b : Option Int} (h : ChildAt G P c a b) : ChildAt H P c a b :=
  ⟨hag.live h.live, by rw [hag.par]; exact h.par, by rw [hag.lvl, hP]; exact h.lvl,
    by rw [hag.lo]; exact h.lo, by rw [hag.hi]; exact h.hi, h.ne⟩

theorem Remove_array {ppg : BPlusTreePage} {i : Nat} (h : i < ppg.array.length) :
    (ppg.Remove i).array = ppg.array.eraseIdx i := by
  simp [BPlusTreePage.Remove, h]

theorem mem_eraseIdx_of_ne {α : Type} {arr : List α} {i n : Nat} {e : α}
    (he : arr[i]? = some e) (hne : i ≠ n) : e ∈ arr.eraseIdx n := by
  by_cases h : i < n
  · have : (arr.eraseIdx n)[i]? = some e := by rw [List.getElem?_eraseIdx, if_pos h]; exact he
    exact List.getElem?_mem this
  · have hi : 1 ≤ i := by omega
    have : (arr.eraseIdx n)[i - 1]? = some e := by
      rw [List.getElem?_eraseIdx, if_neg (by omega)]
      rw [← he]; congr 1; omega
    exact List.getElem?_mem this

theorem map_snd_modify_key (arr : List (KeyType × Int)) (k : KeyType) (n : Nat) :
    (arr.modify (fun e => (k, e.2)) n).map Prod.snd = arr.map Prod.snd := by
  apply List.ext_getElem?
  intro i
  rw [List.getElem?_map, List.getElem?_map, List.getElem?_modify]
  cases arr[i]? with
  | none => rfl
  | some e =>
    by_cases h : n = i
    · simp [h]
    · simp [h]

/-- The children of the parent other than the right sibling are listed after its slot is
dropped. -/
theorem kids_after_erase {v : TreeView} {G : Ghost} {E : Option Int} (hg : Good v G E)
    {P : Int} {ppg : BPlusTreePage} {j : Nat} {ey ex : KeyType × Int}
    (ha : Adjacent G P ppg j ey ex) (hpp : v.pages P = some ppg) :
    ey.2 ∈ (ppg.Remove (j + 1)).array.map Prod.snd ∧
    ∀ p, G.live p → G.par p = P → p ≠ ex.2 → p ∈ (ppg.Remove (j + 1)).array.map Prod.snd := by
  have hlen : j + 1 < ppg.array.length := (List.getElem?_eq_some_iff.1 ha.slotX).1
  rw [Remove_array hlen]
  constructor
  · exact List.mem_map_of_mem _ (mem_eraseIdx_of_ne ha.slotY (by omega))
  · intro p hp hpar hne
    obtain ⟨pg, _, hgood⟩ := hg.page p hp
    have hPne : G.par p ≠ INVALID_PAGE_ID := by
      rw [hpar]; exact live_ne_invalid hg ha.liveP
    obtain ⟨_, _, upg, h3, h4⟩ := hgood.attached hPne
    rw [hpar, hpp] at h3; cases h3
    obtain ⟨e, he, hep⟩ := List.mem_map.1 h4
    obtain ⟨i, hi⟩ := List.getElem?_of_mem he
    have hij : i ≠ j + 1 := by
      intro h
      rw [h, ha.slotX] at hi
      cases hi
      exact hne hep.symm
    rw [← hep]
    exact List.mem_map_of_mem _ (mem_eraseIdx_of_ne hi hij)

/-- The children of the parent are listed after a key is replaced. -/
theorem kids_after_setKey {v : TreeView} {G : Ghost} {E : Option Int} (hg : Good v G E)
    {P : Int} {ppg : BPlusTreePage} (hP : G.live P) (hpp : v.pages P = some ppg)
    (n : Nat) (k : KeyType) :
    ∀ p, G.live p → G.par p = P → p ∈ (ppg.SetKeyAt n k).array.map Prod.snd := by
  intro p hp hpar
  obtain ⟨pg, _, hgood⟩ := hg.page p hp
  have hPne : G.par p ≠ INVALID_PAGE_ID := by
    rw [hpar]; exact live_ne_invalid hg hP
  obtain ⟨_, _, upg, h3, h4⟩ := hgood.attached hPne
  rw [hpar, hpp] at h3; cases h3
  show p ∈ (ppg.array.modify (fun e => (k, e.2)) n).map Prod.snd
  rw [map_snd_modify_key]
  exact h4

/-- The slots of the parent after the slot of the right sibling is dropped. -/
theorem sib_seg_erase {v : TreeView} {G : Ghost} {E : Option Int} (hg : Good v G E)
    {P : Int} {ppg : BPlusTreePage} {j : Nat} {ey ex : KeyType × Int}
    (ha : Adjacent G P ppg j ey ex) (hpp : v.pages P = some ppg) {cs : List Int} {D : Int}
    (hcs : ∀ c ∈ cs, G.live c ∧ (G.par c = ex.2 ∨ G.par c = ey.2)) :
    Seg (G.sib ey.2 ex.2 (G.hi ex.2) false cs D) P (G.lo P) (ppg.Remove (j + 1)).array
      (G.hi P) := by
  obtain ⟨cy, cx, hyx, hyP, hxP, hyr, hxr, hseg⟩ := adjacent_facts hg ha hpp
  have hcf := sib_cs_facts hg ha hpp hcs
  have hlen : j + 1 < ppg.array.length := (List.getElem?_eq_some_iff.1 ha.slotX).1
  rw [Remove_array hlen]
  refine Seg_erase hseg ha.slotY ha.slotX ?_ ?_
  · intro e he h1 h2 a b hc
    refine ChildAt_agree (sib_agree G _ _ _ h2 h1 ?_) rfl hc
    intro h
    have := (hcf _ h).1
    have := hc.lvl
    omega
  · intro a c h1 h2
    have hYcs : ey.2 ∉ cs := fun h => (hcf _ h).2.2.1 rfl
    exact ⟨⟨h1.live, fun h => absurd h hyx⟩, by simp [Ghost.sib, hYcs, h1.par], h1.lvl,
      by simp [Ghost.sib, Function.update_noteq hyx, h1.lo],
      by simp [Ghost.sib, h2.hi], bLt_trans h1.ne h2.ne⟩

/-- The slots of the parent after the key between the two siblings is replaced. -/
theorem sib_seg_setKey {v : TreeView} {G : Ghost} {E : Option Int} (hg : Good v G E)
    {P : Int} {ppg : BPlusTreePage} {j : Nat} {ey ex : KeyType × Int}
    (ha : Adjacent G P ppg j ey ex) (hpp : v.pages P = some ppg) {cs : List Int} {D : Int}
    (hcs : ∀ c ∈ cs, G.live c ∧ (G.par c = ex.2 ∨ G.par c = ey.2)) {k : KeyType}
    (h1 : bLt (G.lo ey.2) (some k)) (h2 : bLt (some k) (G.hi ex.2)) :
    Seg (G.sib ey.2 ex.2 (some k) true cs D) P (G.lo P) (ppg.SetKeyAt (j + 1) k).array
      (G.hi P) := by
  obtain ⟨cy, cx, hyx, hyP, hxP, hyr, hxr, hseg⟩ := adjacent_facts hg ha hpp
  have hcf := sib_cs_facts hg ha hpp hcs
  have hYcs : ey.2 ∉ cs := fun h => (hcf _ h).2.2.1 rfl
  have hXcs : ex.2 ∉ cs := fun h => (hcf _ h).2.1 rfl
  refine Seg_setKey hseg k ha.slotY ha.slotX ?_ ?_ ?_
  · intro e he h1 h2 a b hc
    refine ChildAt_agree (sib_agree G _ _ _ h2 h1 ?_) rfl hc
    intro h
    have := (hcf _ h).1
    have := hc.lvl
    omega
  · intro a c1
    refine ⟨⟨c1.live, fun h => absurd h hyx⟩, by simp [Ghost.sib, hYcs, c1.par], c1.lvl,
      by simp [Ghost.sib, Function.update_noteq hyx, c1.lo], by simp [Ghost.sib], ?_⟩
    rw [← c1.lo]; exact h1
  · intro c c1
    refine ⟨⟨c1.live, fun _ => rfl⟩, by simp [Ghost.sib, hXcs, c1.par], c1.lvl,
      by simp [Ghost.sib], by simp [Ghost.sib, Function.update_noteq (Ne.symm hyx), c1.hi], ?_⟩
    rw [← c1.hi]; exact h2

/-- What is stored stays when the pairs of two sibling leaves are rearranged. -/
theorem Stored_sib_leaf {v : TreeView} {G : Ghost} {E : Option Int} (hg : Good v G E)
    {P : Int} {ppg : BPlusTreePage} {j : Nat} {ey ex : KeyType × Int}
    (ha : Adjacent G P ppg j ey ex) (hpp : v.pages P = some ppg)
    {yg xg : BPlusTreePage} (hyg : v.pages ey.2 = some yg) (hxg : v.pages ex.2 = some xg)
    (hl : G.lvl ey.2 = 0)
    {b : Option Int} {keepX : Bool} {D : Int} {yg2 xg2 qg : BPlusTreePage}
    (hmem : ∀ e, (e ∈ yg2.array ∨ (keepX = true ∧ e ∈ xg2.array)) ↔
      (e ∈ yg.array ∨ e ∈ xg.array)) (k : KeyType) (w : ValueType) :
    Stored (v.sib [] D ey.2 ex.2 P yg2 xg2 qg) (G.sib ey.2 ex.2 b keepX [] D) k w ↔
      Stored v G k w := by
  obtain ⟨cy, cx, hyx, hyP, hxP, hyr, hxr, _⟩ := adjacent_facts hg ha hpp
  have hlx : G.lvl ex.2 = 0 := by have := cy.lvl; have := cx.lvl; omega
  have hpY : (v.sib [] D ey.2 ex.2 P yg2 xg2 qg).pages ey.2 = some yg2 := by
    simp [TreeView.sib, Function.update_noteq hyP, Function.update_noteq hyx]
  have hpX : (v.sib [] D ey.2 ex.2 P yg2 xg2 qg).pages ex.2 = some xg2 := by
    simp [TreeView.sib, Function.update_noteq hxP]
  have hpO : ∀ p, p ≠ P → p ≠ ex.2 → p ≠ ey.2 →
      (v.sib [] D ey.2 ex.2 P yg2 xg2 qg).pages p = v.pages p := by
    intro p h1 h2 h3
    simp [TreeView.sib, Function.update_noteq h1, Function.update_noteq h2,
      Function.update_noteq h3, reparent]
  constructor
  · rintro ⟨p, pg, hp, hlv, hpg, hm⟩
    have hpP : p ≠ P := fun h => by
      rw [h] at hlv; exact ha.lvlP hlv
    by_cases h1 : p = ey.2
    · rw [h1, hpY] at hpg; cases hpg
      rcases (hmem (k, w)).1 (Or.inl hm) with h | h
      · exact ⟨ey.2, yg, cy.live, hl, hyg, h⟩
      · exact ⟨ex.2, xg, cx.live, hlx, hxg, h⟩
    · by_cases h2 : p = ex.2
      · rw [h2, hpX] at hpg; cases hpg
        have hk := hp.2 h2
        rcases (hmem (k, w)).1 (Or.inr ⟨hk, hm⟩) with h | h
        · exact ⟨ey.2, yg, cy.live, hl, hyg, h⟩
        · exact ⟨ex.2, xg, cx.live, hlx, hxg, h⟩
      · rw [hpO p hpP h2 h1] at hpg
        exact ⟨p, pg, hp.1, hlv, hpg, hm⟩
  · rintro ⟨p, pg, hp, hlv, hpg, hm⟩
    have hpP : p ≠ P := fun h => by
      rw [h] at hlv; exact ha.lvlP hlv
    have key : (k, w) ∈ yg.array ∨ (k, w) ∈ xg.array →
        Stored (v.sib [] D ey.2 ex.2 P yg2 xg2 qg) (G.sib ey.2 ex.2 b keepX [] D) k w := by
      intro h
      rcases (hmem (k, w)).2 h with h3 | ⟨h3, h4⟩
      · exact ⟨ey.2, yg2, ⟨cy.live, fun h => absurd h hyx⟩, hl, hpY, h3⟩
      · exact ⟨ex.2, xg2, ⟨cx.live, fun _ => h3⟩, hlx, hpX, h4⟩
    by_cases h1 : p = ey.2
    · rw [h1, hyg] at hpg; cases hpg
      exact key (Or.inl hm)
    · by_cases h2 : p = ex.2
      · rw [h2, hxg] at hpg; cases hpg
        exact key (Or.inr hm)
      · exact ⟨p, pg, ⟨hp, fun h => absurd h h2⟩, hlv, by rw [hpO p hpP h2 h1]; exact hpg, hm⟩

/-- What is stored stays when two internal siblings are changed. -/
theorem Stored_sib_int {v : TreeView} {G : Ghost} {E : Option Int} (hg : Good v G E)
    {P : Int} {ppg : BPlusTreePage} {j : Nat} {ey ex : KeyType × Int}
    (ha : Adjacent G P ppg j ey ex) (hpp : v.pages P = some ppg)
    (hl : G.lvl ey.2 ≠ 0)
    {b : Option Int} {keepX : Bool} {cs : List Int} {D : Int} {yg2 xg2 qg : BPlusTreePage}
    (k : KeyType) (w : ValueType) :
    Stored (v.sib cs D ey.2 ex.2 P yg2 xg2 qg) (G.sib ey.2 ex.2 b keepX cs D) k w ↔
      Stored v G k w := by
  obtain ⟨cy, cx, hyx, hyP, hxP, hyr, hxr, _⟩ := adjacent_facts hg ha hpp
  have hlx : G.lvl ex.2 ≠ 0 := by have := cy.lvl; have := cx.lvl; omega
  have hpO : ∀ p, G.lvl p = 0 → ∀ pg,
      ((v.sib cs D ey.2 ex.2 P yg2 xg2 qg).pages p = some pg →
        ∃ pg0, v.pages p = some pg0 ∧ pg0.array = pg.array) ∧
      (v.pages p = some pg →
        ∃ pg1, (v.sib cs D ey.2 ex.2 P yg2 xg2 qg).pages p = some pg1 ∧
          pg1.array = pg.array) := by
    intro p hlv pg
    have h1 : p ≠ P := fun h => by rw [h] at hlv; exact ha.lvlP hlv
    have h2 : p ≠ ex.2 := fun h => by rw [h] at hlv; exact hlx hlv
    have h3 : p ≠ ey.2 := fun h => by rw [h] at hlv; exact hl hlv
    simp only [TreeView.sib, Function.update_noteq h1, Function.update_noteq h2,
      Function.update_noteq h3, reparent]
    by_cases hc : p ∈ cs
    · simp only [hc, if_true]
      constructor
      · intro h
        cases hv : v.pages p with
        | none => rw [hv] at h; simp at h
        | some pg0 =>
          rw [hv] at h
          simp only [Option.map_some', Option.some.injEq] at h
          exact ⟨pg0, rfl, by rw [← h]; rfl⟩
      · intro h
        rw [h]
        exact ⟨pg.SetParentPageId D, rfl, rfl⟩
    · simp only [hc, if_false]
      exact ⟨fun h => ⟨pg, h, rfl⟩, fun h => ⟨pg, h, rfl⟩⟩
  constructor
  · rintro ⟨p, pg, hp, hlv, hpg, hm⟩
    obtain ⟨pg0, h1, h2⟩ := (hpO p hlv pg).1 hpg
    exact ⟨p, pg0, hp.1, hlv, h1, by rw [h2]; exact hm⟩
  · rintro ⟨p, pg, hp, hlv, hpg, hm⟩
    obtain ⟨pg1, h1, h2⟩ := (hpO p hlv pg).2 hpg
    have h3 : p ≠ ex.2 := fun h => by rw [h] at hlv; exact hlx hlv
    exact ⟨p, pg1, ⟨hp, fun h => absurd h h3⟩, hlv, h1, by rw [h2]; exact hm⟩

/-- Two adjacent leaves: the left one links to the right one and the key between them
separates their pairs. -/
theorem leaf_sib_facts {v : TreeView} {G : Ghost} {E : Option Int} (hg : Good v G E)
    {P : Int} {ppg : BPlusTreePage} {j : Nat} {ey ex : KeyType × Int}
    (ha : Adjacent G P ppg j ey ex) (hpp : v.pages P = some ppg)
    {yg xg : BPlusTreePage} (hyg : v.pages ey.2 = some yg) (hxg : v.pages ex.2 = some xg)
    (hl : G.lvl ey.2 = 0) :
    PageGood v G E ey.2 yg ∧ PageGood v G E ex.2 xg ∧ G.lvl ex.2 = 0 ∧
      yg.next_page_id_ = ex.2 ∧ G.hi ey.2 = some ex.1 ∧ G.lo ex.2 = some ex.1 ∧
      (∀ e ∈ yg.array, e.1 < ex.1) ∧ (∀ e ∈ xg.array, ex.1 ≤ e.1) := by
  obtain ⟨cy, cx, hyx, hyP, hxP, hyr, hxr, _⟩ := adjacent_facts hg ha hpp
  have hlx : G.lvl ex.2 = 0 := by have := cy.lvl; have := cx.lvl; omega
  obtain ⟨pg1, hpg1, hgy⟩ := hg.page _ cy.live
  rw [hyg] at hpg1; cases hpg1
  obtain ⟨pg2, hpg2, hgx⟩ := hg.page _ cx.live
  rw [hxg] at hpg2; cases hpg2
  refine ⟨hgy, hgx, hlx, ?_, cy.hi, cx.lo, ?_, ?_⟩
  · have hn : yg.next_page_id_ ≠ INVALID_PAGE_ID := by
      intro h
      have := (hgy.next_end hl).1 h
      rw [cy.hi] at this
      cases this
    obtain ⟨n1, n2, n3⟩ := hgy.next_ok hl hn
    rw [cy.hi] at n3
    exact lo_unique hg n1 cx.live (by rw [n2, hlx]) n3 cx.lo
  · intro e he
    exact (hgy.leaf_range hl e he).2 _ cy.hi
  · intro e he
    exact (hgx.leaf_range hlx e he).1 _ cx.lo

/-- Merging two adjacent leaves keeps the invariant, except that the parent may now be
short of children. -/
theorem Good_mergeLeaf {v : TreeView} {G : Ghost} {E : Option Int} (hg : Good v G E)
    {P : Int} {ppg : BPlusTreePage} {j : Nat} {ey ex : KeyType × Int}
    (ha : Adjacent G P ppg j ey ex) (hpp : v.pages P = some ppg)
    {yg xg : BPlusTreePage} (hyg : v.pages ey.2 = some yg) (hxg : v.pages ex.2 = some xg)
    (hl : G.lvl ey.2 = 0) (hE : E = some ey.2 ∨ E = some ex.2) :
    Good (v.sib [] ey.2 ey.2 ex.2 P (leafMerged yg xg) (xg.SetSize 0) (ppg.Remove (j + 1)))
      (G.sib ey.2 ex.2 (G.hi ex.2) false [] ey.2) (some P) ∧
    ∀ k w, Stored (v.sib [] ey.2 ey.2 ex.2 P (leafMerged yg xg) (xg.SetSize 0)
        (ppg.Remove (j + 1))) (G.sib ey.2 ex.2 (G.hi ex.2) false [] ey.2) k w ↔
      Stored v G k w := by
  obtain ⟨cy, cx, hyx, hyP, hxP, hyr, hxr, _⟩ := adjacent_facts hg ha hpp
  obtain ⟨hgy, hgx, hlx, hnext, hhiY, hloX, hky, hkx⟩ := leaf_sib_facts hg ha hpp hyg hxg hl
  have hcs : ∀ c ∈ ([] : List Int), G.live c ∧ (G.par c = ex.2 ∨ G.par c = ey.2) := by
    intro c hc; cases hc
  obtain ⟨kY, kP⟩ := kids_after_erase hg ha hpp
  have hHlo : (G.sib ey.2 ex.2 (G.hi ex.2) false [] ey.2).lo ey.2 = G.lo ey.2 := by
    simp [Ghost.sib, Function.update_noteq hyx]
  have hHhi : (G.sib ey.2 ex.2 (G.hi ex.2) false [] ey.2).hi ey.2 = G.hi ex.2 := by
    simp [Ghost.sib]
  have hbXY : bLt (G.lo ey.2) (G.hi ex.2) := by
    have h1 := hgy.range_ne
    have h2 := hgx.range_ne
    rw [hhiY] at h1
    rw [hloX] at h2
    exact bLt_trans h1 h2
  refine ⟨Good_sib hg ha hpp hcs ?_ (fun h => by cases h) ?_ (fun c hc => by cases hc) ?_ ?_,
    fun k w => Stored_sib_leaf hg ha hpp hyg hxg hl ?_ k w⟩
  · refine sib_page_good hg ha hpp hcs (Or.inl rfl) hyg rfl rfl rfl rfl kY ?_ ?_
      (fun h => absurd hl h)
    · rw [hHlo, hHhi]; exact hbXY
    · intro _
      rw [hHlo, hHhi]
      refine ⟨?_, ?_, ?_, ?_, ?_⟩
      · show ((yg.array ++ xg.array).map Prod.fst).Pairwise (fun a b => a < b)
        rw [List.map_append, List.pairwise_append]
        refine ⟨hgy.leaf_sorted hl, hgx.leaf_sorted hlx, ?_⟩
        intro a ha2 b hb2
        obtain ⟨e1, he1, rfl⟩ := List.mem_map.1 ha2
        obtain ⟨e2, he2, rfl⟩ := List.mem_map.1 hb2
        exact lt_of_lt_of_le (hky e1 he1) (hkx e2 he2)
      · intro e he
        rcases List.mem_append.1 he with h | h
        · refine ⟨(hgy.leaf_range hl e h).1, ?_⟩
          intro b hb
          have h1 := hgx.range_ne _ b hloX hb
          exact lt_trans (hky e h) h1
        · refine ⟨?_, (hgx.leaf_range hlx e h).2⟩
          intro a ha2
          have h1 := hgy.range_ne a _ ha2 hhiY
          exact le_trans (le_of_lt h1) (hkx e h)
      · intro _
        show yg.array ++ xg.array ≠ []
        intro h0
        obtain ⟨h1, h2⟩ := List.append_eq_nil.1 h0
        rcases hE with h | h
        · exact hgx.leaf_ne hlx (by rw [h]; intro h3; exact hyx (Option.some.inj h3)) h2
        · exact hgy.leaf_ne hl (by rw [h]; intro h3; exact hyx (Option.some.inj h3).symm) h1
      · exact hgx.next_end hlx
      · intro hn
        obtain ⟨n1, n2, n3⟩ := hgx.next_ok hlx hn
        have hnX : xg.next_page_id_ ≠ ex.2 := by
          intro h
          rw [h, hloX] at n3
          have := hgx.range_ne _ _ hloX n3.symm
          exact absurd this (lt_irrefl _)
        refine ⟨⟨n1, fun h => absurd h hnX⟩, n2, ?_⟩
        show Function.update G.lo ex.2 (G.hi ex.2) xg.next_page_id_ = G.hi ex.2
        rw [Function.update_noteq hnX, n3]
  · exact sib_parent_good hg ha hpp hcs rfl rfl rfl rfl (sib_seg_erase hg ha hpp hcs)
      (fun h => absurd rfl h)
  · intro p hp _
    refine ⟨?_, ?_, fun h1 h2 => kP p hp h1 h2⟩
    · intro h
      obtain ⟨pg, _, hgood⟩ := hg.page p hp
      have := (hgood.attached (by rw [h]; exact live_ne_invalid hg cy.live)).2.1
      rw [h] at this; omega
    · intro h
      obtain ⟨pg, _, hgood⟩ := hg.page p hp
      have := (hgood.attached (by rw [h]; exact live_ne_invalid hg cx.live)).2.1
      rw [h] at this; omega
  · intro p _ h2 h3 hp
    rcases hE with h | h
    · rw [h] at hp; exact absurd (Option.some.inj hp).symm h3
    · rw [h] at hp; exact absurd (Option.some.inj hp).symm h2
  · intro e
    show (e ∈ yg.array ++ xg.array ∨ (false = true ∧ _)) ↔ _
    simp

theorem no_kids_of_leaf {v : TreeView} {G : Ghost} {E : Option Int} (hg : Good v G E)
    {p Z : Int} (hp : G.live p) (hZ : G.live Z) (hl : G.lvl Z = 0) : G.par p ≠ Z := by
  intro h
  obtain ⟨pg, _, hgood⟩ := hg.page p hp
  have := (hgood.attached (by rw [h]; exact live_ne_invalid hg hZ)).2.1
  rw [h] at this; omega

/-- The forward link of the right one of two adjacent leaves does not point back to it. -/
theorem next_ne_self {v : TreeView} {G : Ghost} {E : Option Int} {X : Int}
    {xg : BPlusTreePage} (hgx : PageGood v G E X xg) (hl : G.lvl X = 0)
    (hn : xg.next_page_id_ ≠ INVALID_PAGE_ID) : xg.next_page_id_ ≠ X := by
  obtain ⟨n1, n2, n3⟩ := hgx.next_ok hl hn
  intro h
  rw [h] at n3
  cases hlo : G.lo X with
  | none =>
    have := (hgx.next_end hl).not.1 hn
    rw [← n3, hlo] at this
    exact this rfl
  | some a =>
    have := hgx.range_ne a a hlo (by rw [← n3, hlo])
    exact absurd this (lt_irrefl _)

/-- Moving the first pair of the right leaf to the end of the left leaf keeps the
invariant. -/
theorem Good_shiftLeafL {v : TreeView} {G : Ghost} {E : Option Int} (hg : Good v G E)
    {P : Int} {ppg : BPlusTreePage} {j : Nat} {ey ex : KeyType × Int}
    (ha : Adjacent G P ppg j ey ex) (hpp : v.pages P = some ppg)
    {yg xg : BPlusTreePage} (hyg : v.pages ey.2 = some yg) (hxg : v.pages ex.2 = some xg)
    (hl : G.lvl ey.2 = 0) (hE : ∀ p, E = some p → p = ey.2 ∨ p = ex.2)
    {x0 x1 : KeyType × Int} {rest : List (KeyType × Int)} (hx : xg.array = x0 :: x1 :: rest)
    (D : Int) :
    Good (v.sib [] D ey.2 ex.2 P { yg with array := yg.array ++ [x0] }
        { xg with array := xg.array.tail } (ppg.SetKeyAt (j + 1) x1.1))
      (G.sib ey.2 ex.2 (some x1.1) true [] D) none ∧
    ∀ k w, Stored (v.sib [] D ey.2 ex.2 P { yg with array := yg.array ++ [x0] }
        { xg with array := xg.array.tail } (ppg.SetKeyAt (j + 1) x1.1))
        (G.sib ey.2 ex.2 (some x1.1) true [] D) k w ↔ Stored v G k w := by
  obtain ⟨cy, cx, hyx, hyP, hxP, hyr, hxr, hseg⟩ := adjacent_facts hg ha hpp
  obtain ⟨hgy, hgx, hlx, hnext, hhiY, hloX, hky, hkx⟩ := leaf_sib_facts hg ha hpp hyg hxg hl
  have hcs : ∀ c ∈ ([] : List Int), G.live c ∧ (G.par c = ex.2 ∨ G.par c = ey.2) := by
    intro c hc; cases hc
  have hlen : j + 1 < ppg.array.length := (List.getElem?_eq_some_iff.1 ha.slotX).1
  have hxs := hgx.leaf_sorted hlx
  rw [hx] at hxs
  simp only [List.map_cons, List.pairwise_cons, List.mem_cons, List.mem_map] at hxs
  have h01 : x0.1 < x1.1 := hxs.1 x1.1 (Or.inl rfl)
  have hx0 : x0 ∈ xg.array := by rw [hx]; simp
  have hx1 : x1 ∈ xg.array := by rw [hx]; simp
  have hYlo : (G.sib ey.2 ex.2 (some x1.1) true [] D).lo ey.2 = G.lo ey.2 := by
    simp [Ghost.sib, Function.update_noteq hyx]
  have hYhi : (G.sib ey.2 ex.2 (some x1.1) true [] D).hi ey.2 = some x1.1 := by
    simp [Ghost.sib]
  have hXlo : (G.sib ey.2 ex.2 (some x1.1) true [] D).lo ex.2 = some x1.1 := by
    simp [Ghost.sib]
  have hXhi : (G.sib ey.2 ex.2 (some x1.1) true [] D).hi ex.2 = G.hi ex.2 := by
    simp [Ghost.sib, Function.update_noteq (Ne.symm hyx)]
  have hb1 : bLt (G.lo ey.2) (some x1.1) := by
    intro a b ha2 hb
    cases hb
    exact lt_trans (lt_of_lt_of_le (hgy.range_ne a _ ha2 hhiY) (hkx x0 hx0)) h01
  have hb2 : bLt (some x1.1) (G.hi ex.2) := by
    intro a b ha2 hb
    cases ha2
    exact (hgx.leaf_range hlx x1 hx1).2 b hb
  have hXne : ex.2 ≠ INVALID_PAGE_ID := live_ne_invalid hg cx.live
  refine ⟨Good_sib hg ha hpp hcs ?_ (fun _ => ?_) ?_ (fun c hc => by cases hc) ?_ ?_,
    fun k w => Stored_sib_leaf hg ha hpp hyg hxg hl ?_ k w⟩
  · refine sib_page_good hg ha hpp hcs (Or.inl rfl) hyg rfl rfl rfl rfl
      (kids_after_setKey hg ha.liveP hpp _ _ _ cy.live cy.par) ?_ ?_ (fun h => absurd hl h)
    · rw [hYlo, hYhi]; exact hb1
    · intro _
      rw [hYlo, hYhi]
      refine ⟨?_, ?_, ?_, ?_, ?_⟩
      · show ((yg.array ++ [x0]).map Prod.fst).Pairwise (fun a b => a < b)
        rw [List.map_append, List.pairwise_append]
        refine ⟨hgy.leaf_sorted hl, by simp, ?_⟩
        intro a ha2 b hb2
        obtain ⟨e1, he1, rfl⟩ := List.mem_map.1 ha2
        simp only [List.map_cons, List.map_nil, List.mem_singleton] at hb2
        rw [hb2]
        exact lt_of_lt_of_le (hky e1 he1) (hkx x0 hx0)
      · intro e he
        rcases List.mem_append.1 he with h | h
        · refine ⟨(hgy.leaf_range hl e h).1, ?_⟩
          intro b hb
          cases hb
          exact lt_trans (lt_of_lt_of_le (hky e h) (hkx x0 hx0)) h01
        · simp only [List.mem_singleton] at h
          rw [h]
          refine ⟨?_, ?_⟩
          · intro a ha2
            exact le_of_lt (lt_of_lt_of_le (hgy.range_ne a _ ha2 hhiY) (hkx x0 hx0))
          · intro b hb
            cases hb
            exact h01
      · intro _
        show yg.array ++ [x0] ≠ []
        simp
      · show yg.next_page_id_ = INVALID_PAGE_ID ↔ some x1.1 = none
        rw [hnext]
        exact ⟨fun h => absurd h hXne, fun h => by cases h⟩
      · intro _
        show (G.sib ey.2 ex.2 (some x1.1) true [] D).live yg.next_page_id_ ∧
          G.lvl yg.next_page_id_ = 0 ∧
          (G.sib ey.2 ex.2 (some x1.1) true [] D).lo yg.next_page_id_ = some x1.1
        rw [hnext]
        exact ⟨⟨cx.live, fun _ => rfl⟩, hlx, hXlo⟩
  · refine sib_page_good hg ha hpp hcs (Or.inr ⟨rfl, rfl⟩) hxg rfl rfl rfl rfl
      (kids_after_setKey hg ha.liveP hpp _ _ _ cx.live cx.par) ?_ ?_ (fun h => absurd hlx h)
    · rw [hXlo, hXhi]; exact hb2
    · intro _
      rw [hXlo, hXhi]
      have htail : xg.array.tail = x1 :: rest := by rw [hx]; rfl
      refine ⟨?_, ?_, ?_, ?_, ?_⟩
      · show (xg.array.tail.map Prod.fst).Pairwise (fun a b => a < b)
        exact (hgx.leaf_sorted hlx).sublist ((List.tail_sublist _).map Prod.fst)
      · intro e he
        have he2 : e ∈ xg.array.tail := he
        refine ⟨?_, (hgx.leaf_range hlx e ((List.tail_sublist _).subset he2)).2⟩
        intro a ha2
        cases ha2
        rw [htail] at he2
        rcases List.mem_cons.1 he2 with h | h
        · rw [h]
        · exact le_of_lt (hxs.2.1 e.1 ⟨e, h, rfl⟩)
      · intro _
        show xg.array.tail ≠ []
        rw [htail]; simp
      · exact hgx.next_end hlx
      · intro hn
        obtain ⟨n1, n2, n3⟩ := hgx.next_ok hlx hn
        have hnX := next_ne_self hgx hlx hn
        refine ⟨⟨n1, fun h => absurd h hnX⟩, n2, ?_⟩
        show Function.update G.lo ex.2 (some x1.1) xg.next_page_id_ = G.hi ex.2
        rw [Function.update_noteq hnX, n3]
  · refine sib_parent_good hg ha hpp hcs rfl rfl rfl rfl
      (sib_seg_setKey hg ha hpp hcs hb1 hb2) (fun _ => ?_)
    show 2 ≤ (ppg.array.modify (fun e => (x1.1, e.2)) (j + 1)).length
    rw [List.length_modify]; omega
  · intro p hp _
    exact ⟨fun h => absurd h (no_kids_of_leaf hg hp cy.live hl),
      fun h => absurd h (no_kids_of_leaf hg hp cx.live hlx),
      fun h _ => kids_after_setKey hg ha.liveP hpp _ _ p hp h⟩
  · intro p _ h2 h3 hp
    rcases hE p hp with h | h
    · exact absurd h h3
    · exact absurd h h2
  · intro e
    show (e ∈ yg.array ++ [x0] ∨ (true = true ∧ e ∈ xg.array.tail)) ↔ _
    rw [hx]
    simp only [List.mem_append, List.mem_singleton, List.tail_cons, List.mem_cons, true_and]
    tauto

/-- Moving the last pair of the left leaf to the front of the right leaf keeps the
invariant. -/
theorem Good_shiftLeafR {v : TreeView} {G : Ghost} {E : Option Int} (hg : Good v G E)
    {P : Int} {ppg : BPlusTreePage} {j : Nat} {ey ex : KeyType × Int}
    (ha : Adjacent G P ppg j ey ex) (hpp : v.pages P = some ppg)
    {yg xg : BPlusTreePage} (hyg : v.pages ey.2 = some yg) (hxg : v.pages ex.2 = some xg)
    (hl : G.lvl ey.2 = 0) (hE : ∀ p, E = some p → p = ey.2 ∨ p = ex.2)
    {yl : KeyType × Int} {W : List (KeyType × Int)} (hy : yg.array = W ++ [yl])
    (hW : W ≠ []) (D : Int) :
    Good (v.sib [] D ey.2 ex.2 P yg.DecreaseSize
        { xg with array := yl :: xg.array } (ppg.SetKeyAt (j + 1) yl.1))
      (G.sib ey.2 ex.2 (some yl.1) true [] D) none ∧
    ∀ k w, Stored (v.sib [] D ey.2 ex.2 P yg.DecreaseSize
        { xg with array := yl :: xg.array } (ppg.SetKeyAt (j + 1) yl.1))
        (G.sib ey.2 ex.2 (some yl.1) true [] D) k w ↔ Stored v G k w := by
  obtain ⟨cy, cx, hyx, hyP, hxP, hyr, hxr, hseg⟩ := adjacent_facts hg ha hpp
  obtain ⟨hgy, hgx, hlx, hnext, hhiY, hloX, hky, hkx⟩ := leaf_sib_facts hg ha hpp hyg hxg hl
  have hcs : ∀ c ∈ ([] : List Int), G.live c ∧ (G.par c = ex.2 ∨ G.par c = ey.2) := by
    intro c hc; cases hc
  have hlen : j + 1 < ppg.array.length := (List.getElem?_eq_some_iff.1 ha.slotX).1
  have hys := hgy.leaf_sorted hl
  rw [hy, List.map_append, List.pairwise_append] at hys
  have hWl : ∀ e ∈ W, e.1 < yl.1 := fun e he =>
    hys.2.2 e.1 (List.mem_map_of_mem _ he) yl.1 (by simp)
  have hylm : yl ∈ yg.array := by rw [hy]; simp
  have hWm : ∀ e ∈ W, e ∈ yg.array := fun e he => by rw [hy]; simp [he]
  have hdl : yg.array.dropLast = W := by rw [hy]; simp
  obtain ⟨w0, hw0⟩ := List.exists_mem_of_ne_nil W hW
  have hYlo : (G.sib ey.2 ex.2 (some yl.1) true [] D).lo ey.2 = G.lo ey.2 := by
    simp [Ghost.sib, Function.update_noteq hyx]
  have hYhi : (G.sib ey.2 ex.2 (some yl.1) true [] D).hi ey.2 = some yl.1 := by
    simp [Ghost.sib]
  have hXlo : (G.sib ey.2 ex.2 (some yl.1) true [] D).lo ex.2 = some yl.1 := by
    simp [Ghost.sib]
  have hXhi : (G.sib ey.2 ex.2 (some yl.1) true [] D).hi ex.2 = G.hi ex.2 := by
    simp [Ghost.sib, Function.update_noteq (Ne.symm hyx)]
  have hb1 : bLt (G.lo ey.2) (some yl.1) := by
    intro a b ha2 hb
    cases hb
    exact lt_of_le_of_lt ((hgy.leaf_range hl w0 (hWm w0 hw0)).1 a ha2) (hWl w0 hw0)
  have hb2 : bLt (some yl.1) (G.hi ex.2) := by
    intro a b ha2 hb
    cases ha2
    exact lt_trans (hky yl hylm) (hgx.range_ne _ b hloX hb)
  have hXne : ex.2 ≠ INVALID_PAGE_ID := live_ne_invalid hg cx.live
  refine ⟨Good_sib hg ha hpp hcs ?_ (fun _ => ?_) ?_ (fun c hc => by cases hc) ?_ ?_,
    fun k w => Stored_sib_leaf hg ha hpp hyg hxg hl ?_ k w⟩
  · refine sib_page_good hg ha hpp hcs (Or.inl rfl) hyg rfl rfl rfl rfl
      (kids_after_setKey hg ha.liveP hpp _ _ _ cy.live cy.par) ?_ ?_ (fun h => absurd hl h)
    · rw [hYlo, hYhi]; exact hb1
    · intro _
      rw [hYlo, hYhi]
      refine ⟨?_, ?_, ?_, ?_, ?_⟩
      · show (yg.array.dropLast.map Prod.fst).Pairwise (fun a b => a < b)
        rw [hdl]; exact hys.1
      · intro e he
        have he2 : e ∈ yg.array.dropLast := he
        rw [hdl] at he2
        refine ⟨(hgy.leaf_range hl e (hWm e he2)).1, ?_⟩
        intro b hb
        cases hb
        exact hWl e he2
      · intro _
        show yg.array.dropLast ≠ []
        rw [hdl]; exact hW
      · show yg.next_page_id_ = INVALID_PAGE_ID ↔ some yl.1 = none
        rw [hnext]
        exact ⟨fun h => absurd h hXne, fun h => by cases h⟩
      · intro _
        show (G.sib ey.2 ex.2 (some yl.1) true [] D).live yg.next_page_id_ ∧
          G.lvl yg.next_page_id_ = 0 ∧
          (G.sib ey.2 ex.2 (some yl.1) true [] D).lo yg.next_page_id_ = some yl.1
        rw [hnext]
        exact ⟨⟨cx.live, fun _ => rfl⟩, hlx, hXlo⟩
  · refine sib_page_good hg ha hpp hcs (Or.inr ⟨rfl, rfl⟩) hxg rfl rfl rfl rfl
      (kids_after_setKey hg ha.liveP hpp _ _ _ cx.live cx.par) ?_ ?_ (fun h => absurd hlx h)
    · rw [hXlo, hXhi]; exact hb2
    · intro _
      rw [hXlo, hXhi]
      refine ⟨?_, ?_, ?_, ?_, ?_⟩
      · show ((yl :: xg.array).map Prod.fst).Pairwise (fun a b => a < b)
        rw [List.map_cons, List.pairwise_cons]
        refine ⟨?_, hgx.leaf_sorted hlx⟩
        intro b hb
        obtain ⟨e, he, rfl⟩ := List.mem_map.1 hb
        exact lt_of_lt_of_le (hky yl hylm) (hkx e he)
      · intro e he
        have he2 : e ∈ yl :: xg.array := he
        rcases List.mem_cons.1 he2 with h | h
        · rw [h]
          refine ⟨fun a ha2 => by cases ha2; exact le_refl _, ?_⟩
          intro b hb
          exact hb2 _ b rfl hb
        · refine ⟨?_, (hgx.leaf_range hlx e h).2⟩
          intro a ha2
          cases ha2
          exact le_of_lt (lt_of_lt_of_le (hky yl hylm) (hkx e h))
      · intro _
        show yl :: xg.array ≠ []
        simp
      · exact hgx.next_end hlx
      · intro hn
        obtain ⟨n1, n2, n3⟩ := hgx.next_ok hlx hn
        have hnX := next_ne_self hgx hlx hn
        refine ⟨⟨n1, fun h => absurd h hnX⟩, n2, ?_⟩
        show Function.update G.lo ex.2 (some yl.1) xg.next_page_id_ = G.hi ex.2
        rw [Function.update_noteq hnX, n3]
  · refine sib_parent_good hg ha hpp hcs rfl rfl rfl rfl
      (sib_seg_setKey hg ha hpp hcs hb1 hb2) (fun _ => ?_)
    show 2 ≤ (ppg.array.modify (fun e => (yl.1, e.2)) (j + 1)).length
    rw [List.length_modify]; omega
  · intro p hp _
    exact ⟨fun h => absurd h (no_kids_of_leaf hg hp cy.live hl),
      fun h => absurd h (no_kids_of_leaf hg hp cx.live hlx),
      fun h _ => kids_after_setKey hg ha.liveP hpp _ _ p hp h⟩
  · intro p _ h2 h3 hp
    rcases hE p hp with h | h
    · exact absurd h h3
    · exact absurd h h2
  · intro e
    show (e ∈ yg.array.dropLast ∨ (true = true ∧ e ∈ yl :: xg.array)) ↔ _
    rw [hdl, hy]
    simp only [List.mem_append, List.mem_singleton, List.mem_cons, true_and]
    tauto

theorem modify_append_length {α : Type} (f : α → α) (x : α) (B : List α) :
    ∀ (A : List α), (A ++ x :: B).modify f A.length = A ++ f x :: B := by
  intro A
  induction A with
  | nil => rfl
  | cons a A ih =>
    show (a :: (A ++ x :: B)).modify f (A.length + 1) = a :: (A ++ f x :: B)
    rw [List.modify_succ_cons, ih]

theorem intMerged_array {yg xg : BPlusTreePage} {mid : KeyType} {x0 : KeyType × Int}
    {xt : List (KeyType × Int)} (hx : xg.array = x0 :: xt) :
    (intMerged yg xg mid).array = yg.array ++ (mid, x0.2) :: xt := by
  show (yg.array ++ xg.array).modify (fun e => (mid, e.2)) yg.array.length = _
  rw [hx, modify_append_length]

/-- Two adjacent internal pages and their children. -/
theorem int_sib_facts {v : TreeView} {G : Ghost} {E : Option Int} (hg : Good v G E)
    {P : Int} {ppg : BPlusTreePage} {j : Nat} {ey ex : KeyType × Int}
    (ha : Adjacent G P ppg j ey ex) (hpp : v.pages P = some ppg)
    {yg xg : BPlusTreePage} (hyg : v.pages ey.2 = some yg) (hxg : v.pages ex.2 = some xg)
    (hl : G.lvl ey.2 ≠ 0) :
    PageGood v G E ey.2 yg ∧ PageGood v G E ex.2 xg ∧ G.lvl ex.2 ≠ 0 ∧
      G.lvl ex.2 = G.lvl ey.2 ∧
      Seg G ey.2 (G.lo ey.2) yg.array (some ex.1) ∧
      Seg G ex.2 (some ex.1) xg.array (G.hi ex.2) ∧
      (∀ e ∈ yg.array, G.live e.2 ∧ G.par e.2 = ey.2 ∧ G.lvl e.2 + 1 = G.lvl ey.2) ∧
      (∀ e ∈ xg.array, G.live e.2 ∧ G.par e.2 = ex.2 ∧ G.lvl e.2 + 1 = G.lvl ex.2) := by
  obtain ⟨cy, cx, hyx, hyP, hxP, hyr, hxr, _⟩ := adjacent_facts hg ha hpp
  have hlx : G.lvl ex.2 = G.lvl ey.2 := by have := cy.lvl; have := cx.lvl; omega
  obtain ⟨pg1, hpg1, hgy⟩ := hg.page _ cy.live
  rw [hyg] at hpg1; cases hpg1
  obtain ⟨pg2, hpg2, hgx⟩ := hg.page _ cx.live
  rw [hxg] at hpg2; cases hpg2
  have hlx0 : G.lvl ex.2 ≠ 0 := by rw [hlx]; exact hl
  have sy := hgy.int_seg hl
  have sx := hgx.int_seg hlx0
  rw [cy.hi] at sy
  rw [cx.lo] at sx
  refine ⟨hgy, hgx, hlx0, hlx, sy, sx, ?_, ?_⟩
  · intro e he
    obtain ⟨a1, a2, a3, _⟩ := Seg_child sy e he
    exact ⟨a1, a2, a3⟩
  · intro e he
    obtain ⟨a1, a2, a3, _⟩ := Seg_child sx e he
    exact ⟨a1, a2, a3⟩

/-- The children of a page that are not adopted by another page are still listed when the
slots kept include all the others. -/
theorem kid_listed {v : TreeView} {G : Ghost} {E : Option Int} (hg : Good v G E)
    {Z : Int} {zg : BPlusTreePage} (hZ : G.live Z) (hzg : v.pages Z = some zg)
    {p : Int} (hp : G.live p) (hpar : G.par p = Z) : p ∈ zg.array.map Prod.snd := by
  obtain ⟨pg, _, hgood⟩ := hg.page p hp
  have hne : G.par p ≠ INVALID_PAGE_ID := by
    rw [hpar]; exact live_ne_invalid hg hZ
  obtain ⟨_, _, upg, h3, h4⟩ := hgood.attached hne
  rw [hpar, hzg] at h3; cases h3
  exact h4

/-- Merging two adjacent internal pages keeps the invariant, except that the parent may
now be short of children. -/
theorem Good_mergeInt {v : TreeView} {G : Ghost} {E : Option Int} (hg : Good v G E)
    {P : Int} {ppg : BPlusTreePage} {j : Nat} {ey ex : KeyType × Int}
    (ha : Adjacent G P ppg j ey ex) (hpp : v.pages P = some ppg)
    {yg xg : BPlusTreePage} (hyg : v.pages ey.2 = some yg) (hxg : v.pages ex.2 = some xg)
    (hl : G.lvl ey.2 ≠ 0) (hE : ∀ p, E = some p → p = ey.2 ∨ p = ex.2) :
    Good (v.sib (xg.array.map Prod.snd) ey.2 ey.2 ex.2 P (intMerged yg xg ex.1)
        (xg.SetSize 0) (ppg.Remove (j + 1)))
      (G.sib ey.2 ex.2 (G.hi ex.2) false (xg.array.map Prod.snd) ey.2) (some P) ∧
    ∀ k w, Stored (v.sib (xg.array.map Prod.snd) ey.2 ey.2 ex.2 P (intMerged yg xg ex.1)
        (xg.SetSize 0) (ppg.Remove (j + 1)))
        (G.sib ey.2 ex.2 (G.hi ex.2) false (xg.array.map Prod.snd) ey.2) k w ↔
      Stored v G k w := by
  obtain ⟨cy, cx, hyx, hyP, hxP, hyr, hxr, _⟩ := adjacent_facts hg ha hpp
  obtain ⟨hgy, hgx, hlx0, hlx, sy, sx, hky, hkx⟩ := int_sib_facts hg ha hpp hyg hxg hl
  have hcs : ∀ c ∈ xg.array.map Prod.snd, G.live c ∧ (G.par c = ex.2 ∨ G.par c = ey.2) := by
    intro c hc
    obtain ⟨e, he, rfl⟩ := List.mem_map.1 hc
    exact ⟨(hkx e he).1, Or.inl (hkx e he).2.1⟩
  have hcf := sib_cs_facts hg ha hpp hcs
  obtain ⟨kY, kP⟩ := kids_after_erase hg ha hpp
  have hxne : xg.array ≠ [] := Seg_ne_nil sx
  obtain ⟨x0, xt, hx⟩ := List.exists_cons_of_ne_nil hxne
  have hyne : yg.array ≠ [] := Seg_ne_nil sy
  have harr := @intMerged_array yg xg ex.1 x0 xt hx
  have hHlo : (G.sib ey.2 ex.2 (G.hi ex.2) false (xg.array.map Prod.snd) ey.2).lo ey.2 =
      G.lo ey.2 := by
    simp [Ghost.sib, Function.update_noteq hyx]
  have hHhi : (G.sib ey.2 ex.2 (G.hi ex.2) false (xg.array.map Prod.snd) ey.2).hi ey.2 =
      G.hi ex.2 := by
    simp [Ghost.sib]
  have hbXY : bLt (G.lo ey.2) (G.hi ex.2) := by
    have h1 := hgy.range_ne
    have h2 := hgx.range_ne
    rw [cy.hi] at h1
    rw [cx.lo] at h2
    exact bLt_trans h1 h2
  have hYnotcs : ∀ e ∈ yg.array, e.2 ∉ xg.array.map Prod.snd := by
    intro e he hc
    obtain ⟨f, hf, hfe⟩ := List.mem_map.1 hc
    have h1 := (hky e he).2.1
    have h2 := (hkx f hf).2.1
    rw [hfe, h1] at h2
    exact hyx h2
  have hmemY : ∀ c ∈ yg.array.map Prod.snd ++ xg.array.map Prod.snd,
      c ∈ (intMerged yg xg ex.1).array.map Prod.snd := by
    intro c hc
    rw [harr, List.map_append, List.map_cons]
    rw [hx, List.map_cons] at hc
    exact hc
  refine ⟨Good_sib hg ha hpp hcs ?_ (fun h => by cases h) ?_ ?_ ?_ ?_,
    fun k w => Stored_sib_int hg ha hpp hl k w⟩
  · refine sib_page_good hg ha hpp hcs (Or.inl rfl) hyg rfl rfl rfl rfl kY ?_
      (fun h => absurd h hl) ?_
    · rw [hHlo, hHhi]; exact hbXY
    · intro _
      rw [hHlo, hHhi, harr]
      refine ⟨?_, fun _ => ?_⟩
      · rw [Seg_append _ _ _ hyne]
        constructor
        · refine Seg_congr (G := G)
            (H := G.sib ey.2 ex.2 (G.hi ex.2) false (xg.array.map Prod.snd) ey.2) rfl ?_ sy
          intro e he
          obtain ⟨a1, a2, a3⟩ := hky e he
          have hag := sib_agree G (G.hi ex.2) false ey.2
            (fun h => by rw [h] at a3; omega : e.2 ≠ ex.2)
            (fun h => by rw [h] at a3; omega : e.2 ≠ ey.2) (hYnotcs e he)
          exact ⟨hag.live, hag.par, hag.lvl, hag.lo, hag.hi⟩
        · have s2 : Seg G ex.2 (some ex.1) ((ex.1, x0.2) :: xt) (G.hi ex.2) := by
            rw [hx] at sx
            exact Seg_first_key.1 sx
          refine Seg_map _ ?_ s2
          intro f hf a b hc
          have hfc : f.2 ∈ xg.array.map Prod.snd := by
            rw [hx, List.map_cons]
            rcases List.mem_cons.1 hf with h | h
            · rw [h]; simp
            · exact List.mem_cons_of_mem _ (List.mem_map_of_mem _ h)
          obtain ⟨c1, c2, c3, c4, c5⟩ := hcf _ hfc
          exact ⟨⟨hc.live, fun h => absurd h c2⟩, by simp [Ghost.sib, hfc],
            by have := hc.lvl; show G.lvl f.2 + 1 = G.lvl ey.2; omega,
            by simp [Ghost.sib, Function.update_noteq c2, hc.lo],
            by simp [Ghost.sib, Function.update_noteq c3, hc.hi], hc.ne⟩
      · have h1 := List.length_pos.2 hyne
        simp only [List.length_append, List.length_cons]
        omega
  · exact sib_parent_good hg ha hpp hcs rfl rfl rfl rfl (sib_seg_erase hg ha hpp hcs)
      (fun h => absurd rfl h)
  · intro c hc
    obtain ⟨cl, _⟩ := hcs c hc
    obtain ⟨cpg, hcpg, _⟩ := hg.page c cl
    refine ⟨cpg, hcpg, sib_child_good hg ha hpp hcs hc hcpg
      (Or.inl ⟨rfl, hmemY c (List.mem_append_right _ hc)⟩) ?_⟩
    intro h
    obtain ⟨_, c2, c3, _⟩ := hcf c hc
    rcases hE c h with h2 | h2
    · exact absurd h2 c3
    · exact absurd h2 c2
  · intro p hp hpc
    refine ⟨?_, ?_, fun h1 h2 => kP p hp h1 h2⟩
    · intro h
      exact hmemY p (List.mem_append_left _ (kid_listed hg cy.live hyg hp h))
    · intro h
      exact absurd (kid_listed hg cx.live hxg hp h) hpc
  · intro p _ h2 h3 hp
    rcases hE p hp with h | h
    · exact absurd h h3
    · exact absurd h h2

/-- Slots whose children are not adopted keep their meaning in a change at two siblings of
the level of their page. -/
theorem sib_seg_keep {G : Ghost} {Y X : Int} (b : Option Int) (keepX : Bool) {cs : List Int}
    (D : Int) {Z : Int} {arr : List (KeyType × Int)} {l h : Option Int}
    (hs : Seg G Z l arr h) (hX : G.lvl X = G.lvl Z) (hY : G.lvl Y = G.lvl Z)
    (hnc : ∀ e ∈ arr, e.2 ∉ cs) : Seg (G.sib Y X b keepX cs D) Z l arr h := by
  refine Seg_congr (G := G) (H := G.sib Y X b keepX cs D) rfl ?_ hs
  intro e he
  obtain ⟨a1, a2, a3, _⟩ := Seg_child hs e he
  have hag := sib_agree G b keepX D
    (fun h => by rw [h] at a3; omega : e.2 ≠ X)
    (fun h => by rw [h] at a3; omega : e.2 ≠ Y) (hnc e he)
  exact ⟨hag.live, hag.par, hag.lvl, hag.lo, hag.hi⟩

/-- An adopted child under its new parent. -/
theorem sib_childAt_adopt {G : Ghost} {Y X : Int} (b : Option Int) (keepX : Bool)
    {cs : List Int} {D : Int} {Z c : Int} {l h : Option Int}
    (hc : ChildAt G Z c l h) (hX : G.lvl X = G.lvl Z) (hY : G.lvl Y = G.lvl Z)
    (hD : G.lvl D = G.lvl Z) (hm : c ∈ cs) : ChildAt (G.sib Y X b keepX cs D) D c l h := by
  have h3 := hc.lvl
  have c2 : c ≠ X := fun h => by rw [h] at h3; omega
  have c3 : c ≠ Y := fun h => by rw [h] at h3; omega
  exact ⟨⟨hc.live, fun h => absurd h c2⟩, by simp [Ghost.sib, hm],
    by show G.lvl c + 1 = G.lvl D; omega,
    by simp [Ghost.sib, Function.update_noteq c2, hc.lo],
    by simp [Ghost.sib, Function.update_noteq c3, hc.hi], hc.ne⟩

/-- Moving the first slot of the right internal page to the end of the left one keeps the
invariant. -/
theorem Good_shiftIntL {v : TreeView} {G : Ghost} {E : Option Int} (hg : Good v G E)
    {P : Int} {ppg : BPlusTreePage} {j : Nat} {ey ex : KeyType × Int}
    (ha : Adjacent G P ppg j ey ex) (hpp : v.pages P = some ppg)
    {yg xg : BPlusTreePage} (hyg : v.pages ey.2 = some yg) (hxg : v.pages ex.2 = some xg)
    (hl : G.lvl ey.2 ≠ 0) (hE : ∀ p, E = some p → p = ey.2 ∨ p = ex.2)
    {x0 x1 : KeyType × Int} {rest : List (KeyType × Int)} (hx : xg.array = x0 :: x1 :: rest)
    (hrest : rest ≠ []) :
    Good (v.sib [x0.2] ey.2 ey.2 ex.2 P { yg with array := yg.array ++ [(ex.1, x0.2)] }
        { xg with array := xg.array.tail } (ppg.SetKeyAt (j + 1) x1.1))
      (G.sib ey.2 ex.2 (some x1.1) true [x0.2] ey.2) none ∧
    ∀ k w, Stored (v.sib [x0.2] ey.2 ey.2 ex.2 P
        { yg with array := yg.array ++ [(ex.1, x0.2)] }
        { xg with array := xg.array.tail } (ppg.SetKeyAt (j + 1) x1.1))
        (G.sib ey.2 ex.2 (some x1.1) true [x0.2] ey.2) k w ↔ Stored v G k w := by
  obtain ⟨cy, cx, hyx, hyP, hxP, hyr, hxr, hseg⟩ := adjacent_facts hg ha hpp
  obtain ⟨hgy, hgx, hlx0, hlx, sy, sx, hky, hkx⟩ := int_sib_facts hg ha hpp hyg hxg hl
  have hlen : j + 1 < ppg.array.length := (List.getElem?_eq_some_iff.1 ha.slotX).1
  have hx0 : x0 ∈ xg.array := by rw [hx]; simp
  have hcs : ∀ c ∈ [x0.2], G.live c ∧ (G.par c = ex.2 ∨ G.par c = ey.2) := by
    intro c hc
    simp only [List.mem_singleton] at hc
    rw [hc]
    exact ⟨(hkx x0 hx0).1, Or.inl (hkx x0 hx0).2.1⟩
  have hcf := sib_cs_facts hg ha hpp hcs
  rw [hx, Seg_cons_cons] at sx
  obtain ⟨c0, sx1⟩ := sx
  have hyne : yg.array ≠ [] := Seg_ne_nil sy
  have hnd := Seg_nodup _ (hgx.int_seg hlx0)
  rw [hx, List.map_cons, List.nodup_cons] at hnd
  have hYlo : (G.sib ey.2 ex.2 (some x1.1) true [x0.2] ey.2).lo ey.2 = G.lo ey.2 := by
    simp [Ghost.sib, Function.update_noteq hyx]
  have hYhi : (G.sib ey.2 ex.2 (some x1.1) true [x0.2] ey.2).hi ey.2 = some x1.1 := by
    simp [Ghost.sib]
  have hXlo : (G.sib ey.2 ex.2 (some x1.1) true [x0.2] ey.2).lo ex.2 = some x1.1 := by
    simp [Ghost.sib]
  have hXhi : (G.sib ey.2 ex.2 (some x1.1) true [x0.2] ey.2).hi ex.2 = G.hi ex.2 := by
    simp [Ghost.sib, Function.update_noteq (Ne.symm hyx)]
  have hb1 : bLt (G.lo ey.2) (some x1.1) := bLt_trans (Seg_bLt sy) c0.ne
  have hb2 : bLt (some x1.1) (G.hi ex.2) := Seg_bLt sx1
  have hYnc : ∀ e ∈ yg.array, e.2 ∉ [x0.2] := by
    intro e he hc
    simp only [List.mem_singleton] at hc
    have h1 := (hky e he).2.1
    have h2 := (hkx x0 hx0).2.1
    rw [hc, h2] at h1
    exact hyx h1.symm
  have hXnc : ∀ e ∈ x1 :: rest, e.2 ∉ [x0.2] := by
    intro e he hc
    simp only [List.mem_singleton] at hc
    exact hnd.1 (by rw [← hc]; exact List.mem_map_of_mem _ he)
  have hmY : x0.2 ∈ (yg.array ++ [(ex.1, x0.2)]).map Prod.snd := by simp
  refine ⟨Good_sib hg ha hpp hcs ?_ (fun _ => ?_) ?_ ?_ ?_ ?_,
    fun k w => Stored_sib_int hg ha hpp hl k w⟩
  · refine sib_page_good hg ha hpp hcs (Or.inl rfl) hyg rfl rfl rfl rfl
      (kids_after_setKey hg ha.liveP hpp _ _ _ cy.live cy.par) ?_ (fun h => absurd h hl) ?_
    · rw [hYlo, hYhi]; exact hb1
    · intro _
      rw [hYlo, hYhi]
      refine ⟨?_, fun _ => ?_⟩
      · show Seg _ ey.2 (G.lo ey.2) (yg.array ++ [(ex.1, x0.2)]) (some x1.1)
        rw [Seg_append _ _ _ hyne]
        exact ⟨sib_seg_keep _ _ _ sy hlx rfl hYnc,
          sib_childAt_adopt _ _ c0 rfl hlx.symm hlx.symm (by simp)⟩
      · show 2 ≤ (yg.array ++ [(ex.1, x0.2)]).length
        have h1 := List.length_pos.2 hyne
        simp only [List.length_append, List.length_singleton]
        omega
  · refine sib_page_good hg ha hpp hcs (Or.inr ⟨rfl, rfl⟩) hxg rfl rfl rfl rfl
      (kids_after_setKey hg ha.liveP hpp _ _ _ cx.live cx.par) ?_ (fun h => absurd h hlx0) ?_
    · rw [hXlo, hXhi]; exact hb2
    · intro _
      rw [hXlo, hXhi]
      have htail : xg.array.tail = x1 :: rest := by rw [hx]; rfl
      refine ⟨?_, fun _ => ?_⟩
      · show Seg _ ex.2 (some x1.1) xg.array.tail (G.hi ex.2)
        rw [htail]
        exact sib_seg_keep _ _ _ sx1 rfl hlx.symm hXnc
      · show 2 ≤ xg.array.tail.length
        rw [htail]
        have h1 := List.length_pos.2 hrest
        simp only [List.length_cons]
        omega
  · refine sib_parent_good hg ha hpp hcs rfl rfl rfl rfl
      (sib_seg_setKey hg ha hpp hcs hb1 hb2) (fun _ => ?_)
    show 2 ≤ (ppg.array.modify (fun e => (x1.1, e.2)) (j + 1)).length
    rw [List.length_modify]; omega
  · intro c hc
    obtain ⟨cl, _⟩ := hcs c hc
    obtain ⟨cpg, hcpg, _⟩ := hg.page c cl
    refine ⟨cpg, hcpg, sib_child_good hg ha hpp hcs hc hcpg (Or.inl ⟨rfl, ?_⟩) ?_⟩
    · simp only [List.mem_singleton] at hc
      rw [hc]; exact hmY
    · intro h
      obtain ⟨_, c2, c3, _⟩ := hcf c hc
      rcases hE c h with h2 | h2
      · exact absurd h2 c3
      · exact absurd h2 c2
  · intro p hp hpc
    refine ⟨?_, ?_, fun h _ => kids_after_setKey hg ha.liveP hpp _ _ p hp h⟩
    · intro h
      have := kid_listed hg cy.live hyg hp h
      show p ∈ (yg.array ++ [(ex.1, x0.2)]).map Prod.snd
      rw [List.map_append]
      exact List.mem_append_left _ this
    · intro h
      refine ⟨rfl, ?_⟩
      have := kid_listed hg cx.live hxg hp h
      show p ∈ xg.array.tail.map Prod.snd
      rw [hx, List.map_cons] at this
      rw [hx]
      rcases List.mem_cons.1 this with h1 | h1
      · exact absurd (by rw [h1]; simp) hpc
      · exact h1
  · intro p _ h2 h3 hp
    rcases hE p hp with h | h
    · exact absurd h h3
    · exact absurd h h2

theorem intPushFront_array {xg : BPlusTreePage} {mid : KeyType} {c : Int}
    {x0 : KeyType × Int} {xt : List (KeyType × Int)} (hx : xg.array = x0 :: xt) :
    (intPushFront xg mid c).array = (x0.1, c) :: (mid, x0.2) :: xt := by
  simp [intPushFront, hx]

/-- Moving the last slot of the left internal page to the front of the right one keeps the
invariant. -/
theorem Good_shiftIntR {v : TreeView} {G : Ghost} {E : Option Int} (hg : Good v G E)
    {P : Int} {ppg : BPlusTreePage} {j : Nat} {ey ex : KeyType × Int}
    (ha : Adjacent G P ppg j ey ex) (hpp : v.pages P = some ppg)
    {yg xg : BPlusTreePage} (hyg : v.pages ey.2 = some yg) (hxg : v.pages ex.2 = some xg)
    (hl : G.lvl ey.2 ≠ 0) (hE : ∀ p, E = some p → p = ey.2 ∨ p = ex.2)
    {yl : KeyType × Int} {W : List (KeyType × Int)} (hy : yg.array = W ++ [yl])
    (hW : 2 ≤ W.length) :
    Good (v.sib [yl.2] ex.2 ey.2 ex.2 P yg.DecreaseSize (intPushFront xg ex.1 yl.2)
        (ppg.SetKeyAt (j + 1) yl.1))
      (G.sib ey.2 ex.2 (some yl.1) true [yl.2] ex.2) none ∧
    ∀ k w, Stored (v.sib [yl.2] ex.2 ey.2 ex.2 P yg.DecreaseSize (intPushFront xg ex.1 yl.2)
        (ppg.SetKeyAt (j + 1) yl.1))
        (G.sib ey.2 ex.2 (some yl.1) true [yl.2] ex.2) k w ↔ Stored v G k w := by
  obtain ⟨cy, cx, hyx, hyP, hxP, hyr, hxr, hseg⟩ := adjacent_facts hg ha hpp
  obtain ⟨hgy, hgx, hlx0, hlx, sy, sx, hky, hkx⟩ := int_sib_facts hg ha hpp hyg hxg hl
  have hlen : j + 1 < ppg.array.length := (List.getElem?_eq_some_iff.1 ha.slotX).1
  have hylm : yl ∈ yg.array := by rw [hy]; simp
  have hWne : W ≠ [] := by
    intro h; rw [h] at hW; simp at hW
  have hcs : ∀ c ∈ [yl.2], G.live c ∧ (G.par c = ex.2 ∨ G.par c = ey.2) := by
    intro c hc
    simp only [List.mem_singleton] at hc
    rw [hc]
    exact ⟨(hky yl hylm).1, Or.inr (hky yl hylm).2.1⟩
  have hcf := sib_cs_facts hg ha hpp hcs
  have hnd := Seg_nodup _ (hgy.int_seg hl)
  rw [hy, List.map_append, List.nodup_append] at hnd
  rw [hy, Seg_append _ _ _ hWne, Seg_single] at sy
  obtain ⟨sW, cl⟩ := sy
  have hxne : xg.array ≠ [] := Seg_ne_nil sx
  obtain ⟨x0, xt, hx⟩ := List.exists_cons_of_ne_nil hxne
  have harr := @intPushFront_array xg ex.1 yl.2 x0 xt hx
  have hdl : yg.array.dropLast = W := by rw [hy]; simp
  have hYlo : (G.sib ey.2 ex.2 (some yl.1) true [yl.2] ex.2).lo ey.2 = G.lo ey.2 := by
    simp [Ghost.sib, Function.update_noteq hyx]
  have hYhi : (G.sib ey.2 ex.2 (some yl.1) true [yl.2] ex.2).hi ey.2 = some yl.1 := by
    simp [Ghost.sib]
  have hXlo : (G.sib ey.2 ex.2 (some yl.1) true [yl.2] ex.2).lo ex.2 = some yl.1 := by
    simp [Ghost.sib]
  have hXhi : (G.sib ey.2 ex.2 (some yl.1) true [yl.2] ex.2).hi ex.2 = G.hi ex.2 := by
    simp [Ghost.sib, Function.update_noteq (Ne.symm hyx)]
  have hb1 : bLt (G.lo ey.2) (some yl.1) := Seg_bLt sW
  have hb2 : bLt (some yl.1) (G.hi ex.2) := bLt_trans cl.ne (Seg_bLt sx)
  have hWnc : ∀ e ∈ W, e.2 ∉ [yl.2] := by
    intro e he hc
    simp only [List.mem_singleton] at hc
    exact hnd.2.2 (List.mem_map_of_mem _ he) (by simp [hc])
  have hXnc : ∀ e ∈ xg.array, e.2 ∉ [yl.2] := by
    intro e he hc
    simp only [List.mem_singleton] at hc
    have h1 := (hky yl hylm).2.1
    have h2 := (hkx e he).2.1
    rw [hc, h1] at h2
    exact hyx h2
  have hmX : yl.2 ∈ (intPushFront xg ex.1 yl.2).array.map Prod.snd := by
    rw [harr]; simp
  refine ⟨Good_sib hg ha hpp hcs ?_ (fun _ => ?_) ?_ ?_ ?_ ?_,
    fun k w => Stored_sib_int hg ha hpp hl k w⟩
  · refine sib_page_good hg ha hpp hcs (Or.inl rfl) hyg rfl rfl rfl rfl
      (kids_after_setKey hg ha.liveP hpp _ _ _ cy.live cy.par) ?_ (fun h => absurd h hl) ?_
    · rw [hYlo, hYhi]; exact hb1
    · intro _
      rw [hYlo, hYhi]
      refine ⟨?_, fun _ => ?_⟩
      · show Seg _ ey.2 (G.lo ey.2) yg.array.dropLast (some yl.1)
        rw [hdl]
        exact sib_seg_keep _ _ _ sW hlx rfl hWnc
      · show 2 ≤ yg.array.dropLast.length
        rw [hdl]; exact hW
  · refine sib_page_good hg ha hpp hcs (Or.inr ⟨rfl, rfl⟩) hxg rfl rfl rfl rfl
      (kids_after_setKey hg ha.liveP hpp _ _ _ cx.live cx.par) ?_ (fun h => absurd h hlx0) ?_
    · rw [hXlo, hXhi]; exact hb2
    · intro _
      rw [hXlo, hXhi, harr]
      refine ⟨?_, fun _ => ?_⟩
      · rw [Seg_cons_cons]
        refine ⟨sib_childAt_adopt _ _ cl hlx rfl hlx (by simp), ?_⟩
        have s2 : Seg G ex.2 (some ex.1) ((ex.1, x0.2) :: xt) (G.hi ex.2) := by
          rw [hx] at sx
          exact Seg_first_key.1 sx
        refine sib_seg_keep _ _ _ s2 rfl hlx.symm ?_
        intro e he
        rcases List.mem_cons.1 he with h | h
        · rw [h]; exact hXnc x0 (by rw [hx]; simp)
        · exact hXnc e (by rw [hx]; exact List.mem_cons_of_mem _ h)
      · simp only [List.length_cons]
        omega
  · refine sib_parent_good hg ha hpp hcs rfl rfl rfl rfl
      (sib_seg_setKey hg ha hpp hcs hb1 hb2) (fun _ => ?_)
    show 2 ≤ (ppg.array.modify (fun e => (yl.1, e.2)) (j + 1)).length
    rw [List.length_modify]; omega
  · intro c hc
    obtain ⟨cl2, _⟩ := hcs c hc
    obtain ⟨cpg, hcpg, _⟩ := hg.page c cl2
    refine ⟨cpg, hcpg, sib_child_good hg ha hpp hcs hc hcpg (Or.inr ⟨rfl, rfl, ?_⟩) ?_⟩
    · simp only [List.mem_singleton] at hc
      rw [hc]; exact hmX
    · intro h
      obtain ⟨_, c2, c3, _⟩ := hcf c hc
      rcases hE c h with h2 | h2
      · exact absurd h2 c3
      · exact absurd h2 c2
  · intro p hp hpc
    refine ⟨?_, ?_, fun h _ => kids_after_setKey hg ha.liveP hpp _ _ p hp h⟩
    · intro h
      have := kid_listed hg cy.live hyg hp h
      show p ∈ yg.array.dropLast.map Prod.snd
      rw [hdl]
      rw [hy, List.map_append] at this
      rcases List.mem_append.1 this with h1 | h1
      · exact h1
      · simp only [List.map_cons, List.map_nil, List.mem_singleton] at h1
        exact absurd (by rw [h1]; simp) hpc
    · intro h
      refine ⟨rfl, ?_⟩
      have := kid_listed hg cx.live hxg hp h
      rw [harr]
      rw [hx] at this
      simp only [List.map_cons, List.mem_cons] at this ⊢
      tauto
  · intro p _ h2 h3 hp
    rcases hE p hp with h | h
    · exact absurd h h3
    · exact absurd h h2

/-- Deleting a page that is not part of the tree keeps the invariant. -/
theorem Good_delPage {v : TreeView} {G : Ghost} {E : Option Int} (hg : Good v G E)
    {p : Int} (hp : ¬ G.live p) : Good (v.delPage p) G E := by
  refine ⟨hg.lmax_pos, hg.imax_ge, hg.next_nonneg, hg.root_none, hg.root_live, hg.live_range,
    hg.lvl_le, hg.lvl_fuel, ?_⟩
  intro q hq
  obtain ⟨pg, hpg, hgood⟩ := hg.page q hq
  have hqp : q ≠ p := fun h => hp (h ▸ hq)
  refine ⟨pg, by simp [TreeView.delPage, Function.update_noteq hqp, hpg], ?_⟩
  refine PageGood_frame hgood rfl rfl rfl rfl rfl rfl rfl rfl rfl rfl hgood.parent
    hgood.root_iff ?_ ?_ (fun _ e _ => GAgree.refl G e.2) (fun h => h)
  · intro hne
    obtain ⟨a1, a2, ppg, a3, a4⟩ := hgood.attached hne
    have hne2 : G.par q ≠ p := fun h => hp (h ▸ a1)
    exact ⟨a1, a2, ppg, by simp [TreeView.delPage, Function.update_noteq hne2, a3], a4⟩
  · intro hl hn
    obtain ⟨n1, n2, n3⟩ := hgood.next_ok hl hn
    exact ⟨n1, rfl, rfl⟩

theorem Stored_delPage {v : TreeView} {G : Ghost} {p : Int} (hp : ¬ G.live p)
    (k : KeyType) (w : ValueType) : Stored (v.delPage p) G k w ↔ Stored v G k w := by
  constructor
  · rintro ⟨q, pg, hq, hl, hpg, hm⟩
    have hqp : q ≠ p := fun h => hp (h ▸ hq)
    simp only [TreeView.delPage, Function.update_noteq hqp] at hpg
    exact ⟨q, pg, hq, hl, hpg, hm⟩
  · rintro ⟨q, pg, hq, hl, hpg, hm⟩
    have hqp : q ≠ p := fun h => hp (h ▸ hq)
    exact ⟨q, pg, hq, hl, by simp [TreeView.delPage, Function.update_noteq hqp, hpg], hm⟩

/-- The tree is empty once the root id is invalidated. -/
theorem Good_emptied {v : TreeView} {G : Ghost} {E : Option Int} (hg : Good v G E) :
    Good (v.setRoot INVALID_PAGE_ID) Ghost.empty none :=
  { lmax_pos := hg.lmax_pos
    imax_ge := hg.imax_ge
    next_nonneg := hg.next_nonneg
    root_none := fun _ _ hp => hp
    root_live := fun h => absurd rfl h
    live_range := fun _ hp => hp.elim
    lvl_le := fun _ hp => hp.elim
    lvl_fuel := fun h => absurd rfl h
    page := fun _ hp => hp.elim }

theorem Stored_empty (v : TreeView) (k : KeyType) (w : ValueType) :
    ¬ Stored v Ghost.empty k w := by
  rintro ⟨p, _, hp, _⟩
  exact hp

/-- An internal root with a single child hands the root over to that child. -/
theorem Good_dropRoot {v : TreeView} {G : Ghost} (hg : Good v G (some v.root))
    {rg cg : BPlusTreePage} {e : KeyType × Int} (hroot : v.root ≠ INVALID_PAGE_ID)
    (hrg : v.pages v.root = some rg) (hl : G.lvl v.root ≠ 0) (harr : rg.array = [e])
    (hcg : v.pages e.2 = some cg) :
    Good (v.dropRoot v.root e.2 rg cg) (G.dropRoot v.root e.2) none ∧
    (∀ k w, Stored (v.dropRoot v.root e.2 rg cg) (G.dropRoot v.root e.2) k w ↔
      Stored v G k w) := by
  obtain ⟨hRl, hRlo, hRhi⟩ := hg.root_live hroot
  obtain ⟨pg1, hpg1, hgr⟩ := hg.page _ hRl
  rw [hrg] at hpg1; cases hpg1
  have hseg := hgr.int_seg hl
  rw [harr, Seg_single, hRlo, hRhi] at hseg
  have hcl := hseg.live
  obtain ⟨pg2, hpg2, hgc⟩ := hg.page _ hcl
  rw [hcg] at hpg2; cases hpg2
  have hcR : e.2 ≠ v.root := fun h => by
    have := hseg.lvl
    rw [h] at this; omega
  have hcne : e.2 ≠ INVALID_PAGE_ID := live_ne_invalid hg hcl
  have hlvl : ∀ p, G.live p → p ≠ v.root → G.lvl p ≤ G.lvl e.2 := by
    intro p hp hne
    obtain ⟨a1, a2, _⟩ := parent_facts hg hp hne
    have := hg.lvl_le _ a1
    have := hseg.lvl
    omega
  have honly : ∀ p, G.live p → G.par p = v.root → p = e.2 := by
    intro p hp hpar
    have := kid_listed hg hRl hrg hp hpar
    rw [harr] at this
    simpa using this
  have hpO : ∀ p, p ≠ v.root → p ≠ e.2 →
      (v.dropRoot v.root e.2 rg cg).pages p = v.pages p := by
    intro p h1 h2
    simp [TreeView.dropRoot, TreeView.setPage, TreeView.setRoot, Function.update_noteq h1,
      Function.update_noteq h2]
  have hpc : (v.dropRoot v.root e.2 rg cg).pages e.2 =
      some (cg.SetParentPageId INVALID_PAGE_ID) := by
    simp [TreeView.dropRoot, TreeView.setPage]
  have hag : ∀ p, p ≠ v.root → p ≠ e.2 → GAgree G (G.dropRoot v.root e.2) p := by
    intro p h1 h2
    exact ⟨fun h => ⟨h1, h⟩, by simp [Ghost.dropRoot, Function.update_noteq h2], rfl, rfl, rfl⟩
  constructor
  · refine Good_transfer hg (fun p => p = v.root ∨ p = e.2) rfl rfl (le_refl _)
      (fun h => absurd h hcne) (fun _ => ⟨⟨hcR, hcl⟩, hseg.lo, hseg.hi⟩)
      (fun p hp => hg.live_range p hp.2) (fun p hp => hlvl p hp.2 hp.1) ?_
      (fun p hp _ => hp.2) ?_ ?_ ?_ ?_ ?_ ?_ ?_
    · intro _
      have := hg.lvl_fuel hroot
      have := hseg.lvl
      show (G.lvl e.2 : Int) < v.next
      omega
    · intro p hM
      simp only [not_or] at hM
      exact ⟨hpO p hM.1 hM.2, hag p hM.1 hM.2⟩
    · intro p hM hp
      rcases hM with h | h
      · exact absurd h hp.1
      · subst h
        refine ⟨_, hpc, ?_⟩
        refine PageGood_frame hgc rfl rfl rfl rfl rfl rfl rfl rfl rfl rfl
          (by simp [Ghost.dropRoot, BPlusTreePage.SetParentPageId])
          (by simp [Ghost.dropRoot, TreeView.dropRoot, TreeView.setPage, TreeView.setRoot])
          (fun h => absurd (by simp [Ghost.dropRoot]) h) ?_ ?_
          (fun h => absurd (Option.some.inj h) (Ne.symm hcR))
        · intro h0 hn
          have := (hgc.next_end h0).2 hseg.hi
          exact absurd this hn
        · intro h0 x hx
          obtain ⟨k1, k2, k3, _⟩ := Seg_child (hgc.int_seg h0) x hx
          refine hag x.2 ?_ ?_
          · intro h
            have := hseg.lvl
            rw [h] at k3; omega
          · intro h
            rw [h] at k3; omega
    · intro p hM hp
      simp only [not_or] at hM
      show p = e.2 ↔ p = v.root
      exact ⟨fun h => absurd h hM.2, fun h => absurd h hM.1⟩
    · intro x hM hx hpx hnM
      simp only [not_or] at hnM
      rcases hM with h | h
      · subst h
        have := (hgr.root_iff).2 rfl
        rw [this] at hpx
        exact absurd rfl (live_ne_invalid hg hpx)
      · subst h
        exact absurd hseg.par hnM.1
    · intro p pg hnM hp h0 hpg hM hn
      simp only [not_or] at hnM
      obtain ⟨pg1, hpg1, hgood⟩ := hg.page p hp
      rw [hpg] at hpg1; cases hpg1
      obtain ⟨n1, n2, n3⟩ := hgood.next_ok h0 hn
      rcases hM with h | h
      · rw [h] at n2; exact absurd n2 hl
      · exact ⟨⟨by rw [h]; exact hcR, n1⟩, rfl, rfl⟩
    · intro p hnM hp hM hne
      simp only [not_or] at hnM
      rcases hM with h | h
      · exact absurd (honly p hp h) hnM.2
      · refine ⟨⟨by rw [h]; exact hcR, by rw [h]; exact hcl⟩, rfl, _, by rw [h]; exact hpc, ?_⟩
        exact kid_listed hg hcl hcg hp h
    · intro p hnM hE
      simp only [not_or] at hnM
      exact absurd (Option.some.inj hE).symm hnM.1
  · intro k w
    have key : ∀ p, G.lvl p = 0 → G.live p → p ≠ v.root ∧
        ∀ pg, v.pages p = some pg →
          ∃ pg1, (v.dropRoot v.root e.2 rg cg).pages p = some pg1 ∧ pg1.array = pg.array := by
      intro p h0 hp
      have hpR : p ≠ v.root := fun h => by rw [h] at h0; exact hl h0
      refine ⟨hpR, ?_⟩
      intro pg hpg
      by_cases hc : p = e.2
      · rw [hc] at hpg ⊢
        rw [hcg] at hpg; cases hpg
        exact ⟨_, hpc, rfl⟩
      · exact ⟨pg, by rw [hpO p hpR hc]; exact hpg, rfl⟩
    constructor
    · rintro ⟨p, pg, hp, h0, hpg, hm⟩
      obtain ⟨pg0, hpg0, _⟩ := hg.page p hp.2
      obtain ⟨_, hk⟩ := key p h0 hp.2
      obtain ⟨pg1, h1, h2⟩ := hk pg0 hpg0
      rw [hpg] at h1; cases h1
      exact ⟨p, pg0, hp.2, h0, hpg0, by rw [← h2]; exact hm⟩
    · rintro ⟨p, pg, hp, h0, hpg, hm⟩
      obtain ⟨hpR, hk⟩ := key p h0 hp
      obtain ⟨pg1, h1, h2⟩ := hk pg hpg
      exact ⟨p, pg1, ⟨hpR, hp⟩, h0, h1, by rw [h2]; exact hm⟩

theorem wp_REPLACE_st {c U : page_id_t} {Q : Unit → TState → Prop} {s : TState}
    {v : TreeView} {h : Multiset Int} {b : Bool} {g : BPlusTreePage} (hs : St s v h b)
    (hc : v.pages c = some g)
    (hq : ∀ t, St t (v.setPage c (g.SetParentPageId U)) h b → Q () t) :
    wp (REPLACE c U) Q s := by
  unfold REPLACE
  apply wp_bind_of
  apply wp_FetchPage_st hs hc
  intro t1 h1
  apply wp_bind_of
  apply wp_WLatch_st h1
  intro t2 h2
  apply wp_bind_of
  apply wp_modifyPage_st h2 hc
  intro t3 h3
  apply wp_bind_of
  apply wp_WUnlatch_st h3
  intro t4 h4
  apply wp_bind_of
  apply wp_UnpinPage_st h4
  intro t5 h5
  rw [wp_pure]
  exact hq _ h5

theorem reparent_nil (D : Int) (f : Int → Option BPlusTreePage) : reparent [] D f = f := by
  funext p
  simp [reparent]

/-- Three page updates in the canonical form of a change at two siblings. -/
theorem sib_of_setPages {v : TreeView} {Y X P : Int} (D : Int) (yg xg qg : BPlusTreePage)
    (hYX : Y ≠ X) :
    ((v.setPage Y yg).setPage X xg).setPage P qg = v.sib [] D Y X P yg xg qg ∧
    ((v.setPage X xg).setPage Y yg).setPage P qg = v.sib [] D Y X P yg xg qg := by
  constructor
  · refine TreeView.ext_pages ?_ rfl rfl rfl rfl
    intro p
    simp [TreeView.setPage, TreeView.sib, reparent_nil]
  · refine TreeView.ext_pages ?_ rfl rfl rfl rfl
    intro p
    simp only [TreeView.setPage, TreeView.sib, reparent_nil]
    by_cases h1 : p = P
    · subst h1; simp
    · by_cases h2 : p = X
      · subst h2
        simp [Function.update_noteq h1, Function.update_noteq (Ne.symm hYX)]
      · by_cases h3 : p = Y
        · subst h3
          simp [Function.update_noteq h1, Function.update_noteq h2]
        · simp [Function.update_noteq h1, Function.update_noteq h2, Function.update_noteq h3]

/-- Leaf `Redistribute` with the right sibling: its first pair moves over. -/
theorem RedistributeLeaf_specL {s : TState} {v : TreeView} {h : Multiset Int} {b : Bool}
    {P Y X : Int} {yg xg ppg : BPlusTreePage} (j : Nat) {x0 x1 : KeyType × Int}
    {rest : List (KeyType × Int)}
    (hs : St s v h b) (hyg : v.pages Y = some yg) (hxg : v.pages X = some xg)
    (hpp : v.pages P = some ppg) (hpar : yg.parent_page_id_ = P)
    (hx : xg.array = x0 :: x1 :: rest) (hYX : Y ≠ X) (hYP : Y ≠ P) (hXP : X ≠ P) (D : Int)
    {Q : Unit → TState → Prop}
    (hq : ∀ t, St t (v.sib [] D Y X P { yg with array := yg.array ++ [x0] }
      { xg with array := xg.array.tail } (ppg.SetKeyAt (j + 1) x1.1)) h b → Q () t) :
    wp (RedistributeLeaf X Y (-((j : Int) + 1))) Q s := by
  unfold RedistributeLeaf
  apply wp_bind_of
  apply wp_getPage_st hs hyg
  simp only [hpar]
  apply wp_bind_of
  apply wp_FetchPage_st hs hpp
  intro t1 h1
  apply wp_bind_of
  rw [if_pos (by omega)]
  apply wp_bind_of
  unfold MoveFirstToEndOfLeaf
  apply wp_bind_of
  apply wp_getPage_st h1 hxg
  apply wp_bind_of
  rw [wp_ofOption]
  refine ⟨x0, by rw [slot_zero, hx]; rfl, ?_⟩
  apply wp_bind_of
  apply wp_modifyPage_st h1 hyg
  intro t2 h2
  apply wp_modifyPage_st h2 (g := xg)
    (by simp [TreeView.setPage, Function.update_noteq (Ne.symm hYX), hxg])
  intro t3 h3
  apply wp_bind_of
  apply wp_getPage_st h3 (g := { xg with array := xg.array.tail }) (by simp [TreeView.setPage])
  apply wp_bind_of
  rw [wp_ofOption]
  refine ⟨x1, by rw [slot_zero]; simp [hx], ?_⟩
  apply wp_modifyPage_st h3 (g := ppg)
    (by simp [TreeView.setPage, Function.update_noteq (Ne.symm hXP),
      Function.update_noteq (Ne.symm hYP), hpp])
  intro t4 h4
  apply wp_bind_of
  apply wp_UnpinPage_st h4
  intro t5 h5
  rw [wp_pure]
  apply hq
  have hn : (-(-((j : Int) + 1))).toNat = j + 1 := by omega
  rw [hn] at h5
  exact St.congr h5 (sib_of_setPages D _ _ _ hYX).1

/-- Leaf `Redistribute` with the left sibling: its last pair moves over. -/
theorem RedistributeLeaf_specR {s : TState} {v : TreeView} {h : Multiset Int} {b : Bool}
    {P Y X : Int} {yg xg ppg : BPlusTreePage} (j : Nat) {yl : KeyType × Int}
    {W : List (KeyType × Int)}
    (hs : St s v h b) (hyg : v.pages Y = some yg) (hxg : v.pages X = some xg)
    (hpp : v.pages P = some ppg) (hpar : xg.parent_page_id_ = P)
    (hy : yg.array = W ++ [yl]) (hYX : Y ≠ X) (hYP : Y ≠ P) (hXP : X ≠ P) (D : Int)
    {Q : Unit → TState → Prop}
    (hq : ∀ t, St t (v.sib [] D Y X P yg.DecreaseSize
      { xg with array := yl :: xg.array } (ppg.SetKeyAt (j + 1) yl.1)) h b → Q () t) :
    wp (RedistributeLeaf Y X ((j : Int) + 1)) Q s := by
  have hlast : yg.array[yg.array.length - 1]? = some yl := by
    rw [hy]; simp
  have hyne : yg.array ≠ [] := by rw [hy]; simp
  unfold RedistributeLeaf
  apply wp_bind_of
  apply wp_getPage_st hs hxg
  simp only [hpar]
  apply wp_bind_of
  apply wp_FetchPage_st hs hpp
  intro t1 h1
  apply wp_bind_of
  rw [if_neg (by omega)]
  apply wp_bind_of
  unfold MoveLastToFrontOfLeaf
  apply wp_bind_of
  apply wp_getPage_st h1 hyg
  apply wp_bind_of
  rw [wp_ofOption]
  refine ⟨yl, by rw [slot_last hyne]; exact hlast, ?_⟩
  apply wp_bind_of
  apply wp_modifyPage_st h1 hxg
  intro t2 h2
  apply wp_modifyPage_st h2 (g := yg)
    (by simp [TreeView.setPage, Function.update_noteq hYX, hyg])
  intro t3 h3
  apply wp_bind_of
  apply wp_getPage_st h3 (g := { xg with array := yl :: xg.array })
    (by simp [TreeView.setPage, Function.update_noteq (Ne.symm hYX)])
  apply wp_bind_of
  rw [wp_ofOption]
  refine ⟨yl, by rw [slot_zero]; simp, ?_⟩
  apply wp_modifyPage_st h3 (g := ppg)
    (by simp [TreeView.setPage, Function.update_noteq (Ne.symm hXP),
      Function.update_noteq (Ne.symm hYP), hpp])
  intro t4 h4
  apply wp_bind_of
  apply wp_UnpinPage_st h4
  intro t5 h5
  rw [wp_pure]
  apply hq
  have hn : (((j : Int) + 1)).toNat = j + 1 := by omega
  rw [hn] at h5
  exact St.congr h5 (sib_of_setPages D _ _ _ hYX).2

/-- Leaf `MoveAllTo`. -/
theorem MoveAllToLeaf_spec {s : TState} {v : TreeView} {h : Multiset Int} {b : Bool}
    {Y X : Int} {yg xg : BPlusTreePage}
    (hs : St s v h b) (hyg : v.pages Y = some yg) (hxg : v.pages X = some xg) (hYX : Y ≠ X)
    {Q : Unit → TState → Prop}
    (hq : ∀ t, St t ((v.setPage Y (leafMerged yg xg)).setPage X (xg.SetSize 0)) h b → Q () t) :
    wp (MoveAllToLeaf X Y) Q s := by
  unfold MoveAllToLeaf
  apply wp_bind_of
  apply wp_getPage_st hs hxg
  apply wp_bind_of
  apply wp_modifyPage_st hs hyg
  intro t1 h1
  apply wp_modifyPage_st h1 (g := xg)
    (by simp [TreeView.setPage, Function.update_noteq (Ne.symm hYX), hxg])
  intro t2 h2
  exact hq _ h2

/-- The loop of internal `MoveAllTo`: the items are appended and the pages they point to
are adopted; no pin stays behind. -/
theorem moveAllLoop_spec (U : Int) :
    ∀ (items : List (KeyType × Int)) {s : TState} {w : TreeView} {h : Multiset Int} {b : Bool}
      {g : BPlusTreePage} {Q : Unit → TState → Prop},
      St s w h b → w.pages U = some g →
      (∀ x ∈ items, x.2 ≠ U ∧ ∃ cpg, w.pages x.2 = some cpg) →
      (∀ t, St t (copyView w U g items) h b → Q () t) →
      wp (moveAllLoop U U items) Q s := by
  intro items
  induction items with
  | nil =>
    intro s w h b g Q hs hU _ hq
    unfold moveAllLoop
    rw [wp_pure]
    apply hq
    refine St.congr hs (TreeView.ext_pages ?_ rfl rfl rfl rfl)
    intro p
    by_cases hp : p = U
    · subst hp
      simp [copyView, reparent, hU]
    · simp [copyView, reparent, Function.update_noteq hp]
  | cons x rest ih =>
    intro s w h b g Q hs hU hall hq
    obtain ⟨hxU, cpg, hcpg⟩ := hall x (List.mem_cons_self _ _)
    unfold moveAllLoop
    apply wp_bind_of
    apply wp_modifyPage_st hs hU
    intro t1 h1
    apply wp_bind_of
    apply wp_REPLACE_st h1 (g := cpg)
      (by simp [TreeView.setPage, Function.update_noteq hxU, hcpg])
    intro t6 h6
    refine ih h6 (g := { g with array := g.array ++ [x] }) ?_ ?_ ?_
    · simp [TreeView.setPage, Function.update_noteq (Ne.symm hxU)]
    · intro y hy
      obtain ⟨hyU, ypg, hypg⟩ := hall y (List.mem_cons_of_mem _ hy)
      refine ⟨hyU, ?_⟩
      by_cases hyx : y.2 = x.2
      · exact ⟨cpg.SetParentPageId U, by simp [TreeView.setPage, hyx]⟩
      · exact ⟨ypg, by simp [TreeView.setPage, Function.update_noteq hyx,
          Function.update_noteq hyU, hypg]⟩
    · intro t ht
      apply hq
      refine St.congr ht (TreeView.ext_pages ?_ rfl rfl rfl rfl)
      intro p
      by_cases hp : p = U
      · subst hp
        have h1 : p ∉ rest.map Prod.snd := by
          intro hm
          obtain ⟨y, hy, hyp⟩ := List.mem_map.1 hm
          exact (hall y (List.mem_cons_of_mem _ hy)).1 hyp
        have h2 : p ∉ (x :: rest).map Prod.snd := by
          intro hm
          obtain ⟨y, hy, hyp⟩ := List.mem_map.1 hm
          exact (hall y hy).1 hyp
        simp only [copyView, reparent, h1, h2, if_false, Function.update_same]
        simp
      · by_cases hpx : p = x.2
        · subst hpx
          by_cases hr : x.2 ∈ rest.map Prod.snd
          · simp [copyView, reparent, hr, TreeView.setPage, Function.update_noteq hp, hcpg,
              SetParentPageId_idem]
          · simp [copyView, reparent, hr, TreeView.setPage, Function.update_noteq hp, hcpg]
        · have hne : ¬ (p = x.2) := hpx
          by_cases hr : p ∈ rest.map Prod.snd
          · simp [copyView, reparent, hr, TreeView.setPage, Function.update_noteq hp,
              Function.update_noteq hpx]
          · simp [copyView, reparent, hr, hne, TreeView.setPage, Function.update_noteq hp,
              Function.update_noteq hpx]

/-- The canonical form of the view after an internal `MoveAllTo` and the update of the
parent. -/
theorem sib_of_copy {v : TreeView} {Y X P : Int} (yg ym xm qg : BPlusTreePage)
    (items : List (KeyType × Int)) (hYX : Y ≠ X) (hYP : Y ≠ P) (hXP : X ≠ P) :
    (((copyView v Y yg items).setPage Y ym).setPage X xm).setPage P qg =
      v.sib (items.map Prod.snd) Y Y X P ym xm qg := by
  refine TreeView.ext_pages ?_ rfl rfl rfl rfl
  intro p
  simp only [TreeView.setPage, TreeView.sib, copyView]
  by_cases h1 : p = P
  · subst h1; simp
  · by_cases h2 : p = X
    · subst h2
      simp [Function.update_noteq h1]
    · by_cases h3 : p = Y
      · subst h3
        simp [Function.update_noteq h1, Function.update_noteq h2]
      · simp [Function.update_noteq h1, Function.update_noteq h2, Function.update_noteq h3,
          reparent]

/-- Internal `MoveAllTo`. -/
theorem MoveAllToInternal_spec {s : TState} {v : TreeView} {h : Multiset Int} {b : Bool}
    {Y X : Int} {yg xg : BPlusTreePage} (mid : KeyType)
    (hs : St s v h b) (hyg : v.pages Y = some yg) (hxg : v.pages X = some xg) (hYX : Y ≠ X)
    (hid : yg.page_id_ = Y)
    (hall : ∀ x ∈ xg.array, x.2 ≠ Y ∧ x.2 ≠ X ∧ ∃ cpg, v.pages x.2 = some cpg)
    {Q : Unit → TState → Prop}
    (hq : ∀ t, St t (((copyView v Y yg xg.array).setPage Y (intMerged yg xg mid)).setPage X
      (xg.SetSize 0)) h b → Q () t) :
    wp (MoveAllToInternal X Y mid) Q s := by
  unfold MoveAllToInternal
  apply wp_bind_of
  apply wp_getPage_st hs hxg
  apply wp_bind_of
  apply wp_getPage_st hs hyg
  simp only [hid]
  apply wp_bind_of
  apply moveAllLoop_spec Y xg.array hs hyg (fun x hx => ⟨(hall x hx).1, (hall x hx).2.2⟩)
  intro t1 h1
  have hXc : X ∉ xg.array.map Prod.snd := by
    intro hm
    obtain ⟨y, hy, hyp⟩ := List.mem_map.1 hm
    exact (hall y hy).2.1 hyp
  have hYc : Y ∉ xg.array.map Prod.snd := by
    intro hm
    obtain ⟨y, hy, hyp⟩ := List.mem_map.1 hm
    exact (hall y hy).1 hyp
  apply wp_bind_of
  apply wp_modifyPage_st h1 (g := { yg with array := yg.array ++ xg.array })
    (by simp [copyView, reparent, hYc])
  intro t2 h2
  apply wp_modifyPage_st h2 (g := xg)
    (by simp [TreeView.setPage, copyView, reparent, hXc, Function.update_noteq (Ne.symm hYX),
      hxg])
  intro t3 h3
  exact hq _ h3

theorem slot_nat (pg : BPlusTreePage) (n : Nat) : pg.slot? (n : Int) = pg.array[n]? := by
  unfold BPlusTreePage.slot?
  simp

/-- The canonical form of the view after one child has moved between two internal
siblings, left to right or right to left. -/
theorem sib_of_adopt {v : TreeView} {Y X P c D U : Int} (ym xm qg cg : BPlusTreePage)
    (hYX : Y ≠ X) (hcY : c ≠ Y) (hcX : c ≠ X) (hcP : c ≠ P)
    (hcg : v.pages c = some cg) (hU : U = D) :
    (((v.setPage Y ym).setPage c (cg.SetParentPageId U)).setPage X xm).setPage P qg =
      v.sib [c] D Y X P ym xm qg ∧
    (((v.setPage X xm).setPage c (cg.SetParentPageId U)).setPage Y ym).setPage P qg =
      v.sib [c] D Y X P ym xm qg := by
  subst hU
  constructor
  · refine TreeView.ext_pages ?_ rfl rfl rfl rfl
    intro p
    simp only [TreeView.setPage, TreeView.sib]
    by_cases h1 : p = P
    · subst h1; simp
    · by_cases h2 : p = X
      · subst h2
        simp [Function.update_noteq h1]
      · by_cases h3 : p = Y
        · subst h3
          simp [Function.update_noteq h1, Function.update_noteq h2,
            Function.update_noteq (Ne.symm hcY)]
        · by_cases h4 : p = c
          · subst h4
            simp [Function.update_noteq h1, Function.update_noteq h2, Function.update_noteq h3,
              reparent, hcg]
          · simp [Function.update_noteq h1, Function.update_noteq h2,
              Function.update_noteq h3, Function.update_noteq h4, reparent, h4]
  · refine TreeView.ext_pages ?_ rfl rfl rfl rfl
    intro p
    simp only [TreeView.setPage, TreeView.sib]
    by_cases h1 : p = P
    · subst h1; simp
    · by_cases h2 : p = X
      · subst h2
        simp [Function.update_noteq h1, Function.update_noteq (Ne.symm hYX),
          Function.update_noteq (Ne.symm hcX)]
      · by_cases h3 : p = Y
        · subst h3
          simp [Function.update_noteq h1, Function.update_noteq h2]
        · by_cases h4 : p = c
          · subst h4
            simp [Function.update_noteq h1, Function.update_noteq h2, Function.update_noteq h3,
              reparent, hcg]
          · simp [Function.update_noteq h1, Function.update_noteq h2,
              Function.update_noteq h3, Function.update_noteq h4, reparent, h4]

/-- Internal `Redistribute` with the right sibling: its first child moves over. -/
theorem RedistributeInternal_specL {s : TState} {v : TreeView} {h : Multiset Int} {b : Bool}
    {P Y X : Int} {yg xg ppg cg : BPlusTreePage} (j : Nat) {x0 x1 ex : KeyType × Int}
    {rest : List (KeyType × Int)}
    (hs : St s v h b) (hyg : v.pages Y = some yg) (hxg : v.pages X = some xg)
    (hpp : v.pages P = some ppg) (hcg : v.pages x0.2 = some cg)
    (hpar : yg.parent_page_id_ = P) (hid : yg.page_id_ = Y)
    (hx : xg.array = x0 :: x1 :: rest) (hex : ppg.array[j + 1]? = some ex)
    (hYX : Y ≠ X) (hYP : Y ≠ P) (hXP : X ≠ P)
    (hcY : x0.2 ≠ Y) (hcX : x0.2 ≠ X) (hcP : x0.2 ≠ P)
    {Q : Unit → TState → Prop}
    (hq : ∀ t, St t (v.sib [x0.2] Y Y X P { yg with array := yg.array ++ [(ex.1, x0.2)] }
      { xg with array := xg.array.tail } (ppg.SetKeyAt (j + 1) x1.1)) h b → Q () t) :
    wp (RedistributeInternal X Y (-((j : Int) + 1))) Q s := by
  have hn : (-(-((j : Int) + 1))).toNat = j + 1 := by omega
  have hn2 : -(-((j : Int) + 1)) = ((j + 1 : Nat) : Int) := by omega
  unfold RedistributeInternal
  apply wp_bind_of
  apply wp_getPage_st hs hyg
  simp only [hpar]
  apply wp_bind_of
  apply wp_FetchPage_st hs hpp
  intro t1 h1
  apply wp_bind_of
  apply wp_getPage_st h1 hpp
  apply wp_bind_of
  apply wp_getPage_st h1 hxg
  apply wp_bind_of
  rw [if_pos (by omega)]
  apply wp_bind_of
  rw [wp_ofOption]
  refine ⟨x1, by simp [BPlusTreePage.slot?, hx], ?_⟩
  apply wp_bind_of
  rw [wp_ofOption]
  refine ⟨ex, by rw [hn2, slot_nat]; exact hex, ?_⟩
  apply wp_bind_of
  unfold MoveFirstToEndOfInternal
  apply wp_bind_of
  apply wp_getPage_st h1 hxg
  apply wp_bind_of
  rw [wp_ofOption]
  refine ⟨x0, by rw [slot_zero, hx]; rfl, ?_⟩
  apply wp_bind_of
  apply wp_modifyPage_st h1 hyg
  intro t2 h2
  apply wp_bind_of
  apply wp_getPage_st h2 (g := { yg with array := yg.array ++ [(ex.1, x0.2)] })
    (by simp [TreeView.setPage])
  apply wp_bind_of
  apply wp_REPLACE_st h2 (g := cg)
    (by simp [TreeView.setPage, Function.update_noteq hcY, hcg])
  intro t3 h3
  apply wp_modifyPage_st h3 (g := xg)
    (by simp [TreeView.setPage, Function.update_noteq (Ne.symm hcX),
      Function.update_noteq (Ne.symm hYX), hxg])
  intro t4 h4
  apply wp_modifyPage_st h4 (g := ppg)
    (by simp [TreeView.setPage, Function.update_noteq (Ne.symm hXP),
      Function.update_noteq (Ne.symm hcP), Function.update_noteq (Ne.symm hYP), hpp])
  intro t5 h5
  apply wp_bind_of
  apply wp_UnpinPage_st h5
  intro t6 h6
  rw [wp_pure]
  apply hq
  rw [hn] at h6
  exact St.congr h6 (sib_of_adopt _ _ _ _ hYX hcY hcX hcP hcg hid).1

/-- Internal `Redistribute` with the left sibling: its last child moves over. -/
theorem RedistributeInternal_specR {s : TState} {v : TreeView} {h : Multiset Int} {b : Bool}
    {P Y X : Int} {yg xg ppg cg : BPlusTreePage} (j : Nat) {yl ex : KeyType × Int}
    {W : List (KeyType × Int)}
    (hs : St s v h b) (hyg : v.pages Y = some yg) (hxg : v.pages X = some xg)
    (hpp : v.pages P = some ppg) (hcg : v.pages yl.2 = some cg)
    (hpar : xg.parent_page_id_ = P) (hid : xg.page_id_ = X)
    (hy : yg.array = W ++ [yl]) (hex : ppg.array[j + 1]? = some ex)
    (hYX : Y ≠ X) (hYP : Y ≠ P) (hXP : X ≠ P)
    (hcY : yl.2 ≠ Y) (hcX : yl.2 ≠ X) (hcP : yl.2 ≠ P)
    {Q : Unit → TState → Prop}
    (hq : ∀ t, St t (v.sib [yl.2] X Y X P yg.DecreaseSize (intPushFront xg ex.1 yl.2)
      (ppg.SetKeyAt (j + 1) yl.1)) h b → Q () t) :
    wp (RedistributeInternal Y X ((j : Int) + 1)) Q s := by
  have hn : (((j : Int) + 1)).toNat = j + 1 := by omega
  have hn2 : ((j : Int) + 1) = ((j + 1 : Nat) : Int) := by omega
  have hlast : yg.array[yg.array.length - 1]? = some yl := by
    rw [hy]; simp
  have hyne : yg.array ≠ [] := by rw [hy]; simp
  unfold RedistributeInternal
  apply wp_bind_of
  apply wp_getPage_st hs hxg
  simp only [hpar]
  apply wp_bind_of
  apply wp_FetchPage_st hs hpp
  intro t1 h1
  apply wp_bind_of
  apply wp_getPage_st h1 hpp
  apply wp_bind_of
  apply wp_getPage_st h1 hyg
  apply wp_bind_of
  rw [if_neg (by omega)]
  apply wp_bind_of
  rw [wp_ofOption]
  refine ⟨yl, by rw [slot_last hyne]; exact hlast, ?_⟩
  apply wp_bind_of
  rw [wp_ofOption]
  refine ⟨ex, by rw [hn2, slot_nat]; exact hex, ?_⟩
  apply wp_bind_of
  unfold MoveLastToFrontOfInternal
  apply wp_bind_of
  apply wp_getPage_st h1 hyg
  apply wp_bind_of
  rw [wp_ofOption]
  refine ⟨yl, by rw [slot_last hyne]; exact hlast, ?_⟩
  apply wp_bind_of
  apply wp_modifyPage_st h1 hxg
  intro t2 h2
  apply wp_bind_of
  apply wp_getPage_st h2 (g := intPushFront xg ex.1 yl.2)
    (by simp only [TreeView.setPage, Function.update_same]; rfl)
  apply wp_bind_of
  apply wp_REPLACE_st h2 (g := cg)
    (by simp [TreeView.setPage, Function.update_noteq hcX, hcg])
  intro t3 h3
  apply wp_modifyPage_st h3 (g := yg)
    (by simp [TreeView.setPage, Function.update_noteq (Ne.symm hcY),
      Function.update_noteq hYX, hyg])
  intro t4 h4
  apply wp_modifyPage_st h4 (g := ppg)
    (by simp [TreeView.setPage, Function.update_noteq (Ne.symm hYP),
      Function.update_noteq (Ne.symm hcP), Function.update_noteq (Ne.symm hXP), hpp])
  intro t5 h5
  apply wp_bind_of
  apply wp_UnpinPage_st h5
  intro t6 h6
  rw [wp_pure]
  apply hq
  rw [hn] at h6
  exact St.congr h6 (sib_of_adopt _ _ _ _ hYX hcY hcX hcP hcg hid).2

theorem Kept.same (a : TreeView) (G : Ghost) (n : Nat) : Kept a a G n :=
  fun _ pg h1 h2 _ => ⟨pg, h1, h2⟩

theorem Kept.trans {a u w : TreeView} {G H : Ghost} {n m : Nat} (h1 : Kept a u G n)
    (h2 : Kept u w H m) (hl : ∀ x, H.live x → G.live x ∧ H.lvl x = G.lvl x) (hnm : n ≤ m) :
    Kept a w G n := by
  intro x pg hx hid hlv
  obtain ⟨pg2, a1, a2⟩ := h1 x pg hx hid hlv
  refine h2 x pg2 a1 a2 ?_
  intro hH
  obtain ⟨b1, b2⟩ := hl x hH
  have := hlv b1
  omega

theorem Kept.delPage {a u : TreeView} {G : Ghost} {n : Nat} (h1 : Kept a u G n) {p : Int}
    (hp : G.live p) (hn : n ≤ G.lvl p) : Kept a (u.delPage p) G n := by
  intro x pg hx hid hlv
  obtain ⟨pg2, a1, a2⟩ := h1 x pg hx hid hlv
  have hxp : x ≠ p := by
    intro h
    rw [h] at hlv
    have := hlv hp
    omega
  exact ⟨pg2, by simp [TreeView.delPage, Function.update_noteq hxp, a1], a2⟩

theorem Kept.setPage {a u : TreeView} {G : Ghost} {n : Nat} (h1 : Kept a u G n) {p : Int}
    (pg : BPlusTreePage) (hid : pg.page_id_ = p) : Kept a (u.setPage p pg) G n := by
  intro x xg hx hxid hlv
  obtain ⟨pg2, a1, a2⟩ := h1 x xg hx hxid hlv
  by_cases hxp : x = p
  · subst hxp
    exact ⟨pg, by simp [TreeView.setPage], hid⟩
  · exact ⟨pg2, by simp [TreeView.setPage, Function.update_noteq hxp, a1], a2⟩

theorem Kept.setRoot {a u : TreeView} {G : Ghost} {n : Nat} (h1 : Kept a u G n) (r : Int) :
    Kept a (u.setRoot r) G n := h1

/-- A change at two siblings keeps the pages outside the tree and those below the
siblings. -/
theorem Kept_sib {v : TreeView} {G : Ghost} {E : Option Int} (hg : Good v G E)
    {P : Int} {ppg : BPlusTreePage} {j : Nat} {ey ex : KeyType × Int}
    (ha : Adjacent G P ppg j ey ex) (hpp : v.pages P = some ppg)
    (cs : List Int) (D : Int) (yg xg qg : BPlusTreePage) :
    Kept v (v.sib cs D ey.2 ex.2 P yg xg qg) G (G.lvl ey.2) := by
  obtain ⟨cy, cx, hyx, hyP, hxP, hyr, hxr, _⟩ := adjacent_facts hg ha hpp
  intro x pg hx hid hlv
  have l1 := cy.lvl
  have l2 := cx.lvl
  have h1 : x ≠ P := fun h => by
    rw [h] at hlv
    have := hlv ha.liveP
    omega
  have h2 : x ≠ ex.2 := fun h => by
    rw [h] at hlv
    have := hlv cx.live
    omega
  have h3 : x ≠ ey.2 := fun h => by
    rw [h] at hlv
    have := hlv cy.live
    omega
  by_cases hc : x ∈ cs
  · exact ⟨pg.SetParentPageId D, by
      simp [TreeView.sib, Function.update_noteq h1, Function.update_noteq h2,
        Function.update_noteq h3, reparent, hc, hx], hid⟩
  · exact ⟨pg, by
      simp [TreeView.sib, Function.update_noteq h1, Function.update_noteq h2,
        Function.update_noteq h3, reparent, hc, hx], hid⟩

/-- The levels strictly grow along the page set. -/
theorem PathQ_lvl {v : TreeView} {G : Ghost} {ins : Bool} :
    ∀ (queue : List Int) (node : Int), PathQ v G ins node queue →
      ∀ q ∈ queue, G.live q ∧ G.lvl node < G.lvl q := by
  intro queue
  induction queue with
  | nil => intro _ _ q hq; cases hq
  | cons a rest ih =>
    intro node hp q hq
    obtain ⟨_, _, hl, hlv, hor⟩ := hp
    rcases List.mem_cons.1 hq with h | h
    · rw [h]; exact ⟨hl, by omega⟩
    · rcases hor with ⟨_, hr⟩ | hr
      · rw [hr] at h; cases h
      · obtain ⟨a1, a2⟩ := ih a hr q h
        exact ⟨a1, by omega⟩

/-- The facts about the page handed to `CoalesceOrRedistribute` and its parent. -/
theorem under_facts {a : TreeView} {G : Ghost} {page P : Int} (hg : Good a G (some page))
    (hl : G.live page) (hr : page ≠ a.root) (hpar : G.par page = P) :
    G.live P ∧ G.lvl P = G.lvl page + 1 ∧
    ∃ pg ppg, a.pages page = some pg ∧ a.pages P = some ppg ∧
      PageGood a G (some page) page pg ∧ PageGood a G (some page) P ppg ∧
      2 ≤ ppg.array.length ∧ pg.IsRootPage = false ∧ ppg.page_id_ = P ∧ pg.page_id_ = page ∧
      ∃ (i : Nat) (e : KeyType × Int), ppg.array[i]? = some e ∧ e.2 = page ∧
        ppg.ValueIndex page = some i := by
  obtain ⟨pg, hpg, hgood⟩ := hg.page page hl
  obtain ⟨h1, h2, ppg, h3, h4, e, he, hep⟩ := parent_facts hg hl hr
  rw [hpar] at h1 h2 h3 h4
  have hlP : G.lvl P ≠ 0 := by omega
  have hPne : P ≠ page := fun h => by rw [h] at h2; omega
  have hsz := h4.int_size hlP (fun h => hPne (Option.some.inj h).symm)
  obtain ⟨i, hi⟩ := List.getElem?_of_mem he
  refine ⟨h1, h2, pg, ppg, hpg, h3, hgood, h4, hsz, ?_, h4.id, hgood.id, i, e, hi, hep, ?_⟩
  · unfold BPlusTreePage.IsRootPage
    rw [hgood.parent, hpar]
    simp [live_ne_invalid hg h1]
  · rw [← hep]
    exact ValueIndex_of_slot (h4.int_seg hlP) hi

theorem slot_pred (pg : BPlusTreePage) {i : Nat} (hi : 0 < i) :
    pg.slot? ((i : Int) - 1) = pg.array[i - 1]? := by
  have : ((i : Int) - 1) = ((i - 1 : Nat) : Int) := by omega
  rw [this, slot_nat]

theorem slot_succ (pg : BPlusTreePage) (i : Nat) :
    pg.slot? ((i : Int) + 1) = pg.array[i + 1]? := by
  have : ((i : Int) + 1) = ((i + 1 : Nat) : Int) := by omega
  rw [this, slot_nat]

/-- One sibling test of `CoalesceOrRedistribute` when the two pages fit into one. -/
theorem testSibling_fits {s : TState} {v : TreeView} {h : Multiset Int} {b : Bool}
    {pg sg : BPlusTreePage} {sib : Int} (hs : St s v h b) (hsg : v.pages sib = some sg)
    (hfit : sg.GetSize + pg.GetSize ≤ pg.GetMaxSize) {Q : Bool → TState → Prop}
    (hq : ∀ t, St t v h b → Q false t) : wp (testSibling pg sib) Q s := by
  unfold testSibling
  apply wp_bind_of
  apply wp_FetchPage_st hs hsg
  intro t1 h1
  apply wp_bind_of
  apply wp_getPage_st h1 hsg
  apply wp_bind_of
  apply wp_WLatch_st h1
  intro t2 h2
  rw [if_pos hfit]
  apply wp_bind_of
  apply wp_WUnlatch_st h2
  intro t3 h3
  apply wp_bind_of
  apply wp_UnpinPage_st h3
  intro t4 h4
  rw [wp_pure]
  exact hq _ h4

/-- One sibling test of `CoalesceOrRedistribute` when the two pages do not fit into one:
the sibling stays pinned. -/
theorem testSibling_keeps {s : TState} {v : TreeView} {h : Multiset Int} {b : Bool}
    {pg sg : BPlusTreePage} {sib : Int} (hs : St s v h b) (hsg : v.pages sib = some sg)
    (hfit : ¬ (sg.GetSize + pg.GetSize ≤ pg.GetMaxSize)) {Q : Bool → TState → Prop}
    (hq : ∀ t, St t v (sib ::ₘ h) b → Q true t) : wp (testSibling pg sib) Q s := by
  unfold testSibling
  apply wp_bind_of
  apply wp_FetchPage_st hs hsg
  intro t1 h1
  apply wp_bind_of
  apply wp_getPage_st h1 hsg
  apply wp_bind_of
  apply wp_WLatch_st h1
  intro t2 h2
  rw [if_neg hfit, wp_pure]
  exact hq _ h2

/-- The sibling tests choose the left sibling. -/
theorem findRedistributeSibling_specL {s : TState} {v : TreeView} {h : Multiset Int}
    {b : Bool} {pg ppg yg : BPlusTreePage} {i : Nat} {ey : KeyType × Int}
    (hs : St s v h b) (hi : 0 < i) (hey : ppg.array[i - 1]? = some ey)
    (hyg : v.pages ey.2 = some yg) (hfit : ¬ (yg.GetSize + pg.GetSize ≤ pg.GetMaxSize))
    {Q : Option page_id_t × Int → TState → Prop}
    (hq : ∀ t, St t v (ey.2 ::ₘ h) b → Q (some ey.2, (i : Int)) t) :
    wp (findRedistributeSibling pg ppg i) Q s := by
  unfold findRedistributeSibling
  apply wp_bind_of
  rw [if_pos hi]
  apply wp_bind_of
  rw [wp_ofOption]
  refine ⟨ey, by rw [slot_pred _ hi]; exact hey, ?_⟩
  apply wp_bind_of
  apply testSibling_keeps hs hyg hfit
  intro t1 h1
  rw [wp_pure]
  simp only [if_true]
  rw [wp_pure]
  exact hq _ h1

/-- The left part of the sibling tests when the left sibling is not chosen. -/
theorem findLeft_none {s : TState} {v : TreeView} {h : Multiset Int}
    {b : Bool} {pg ppg : BPlusTreePage} {i : Nat}
    (hs : St s v h b) (hleft : LeftFits v pg ppg i)
    {Q : Option page_id_t → TState → Prop}
    (hq : ∀ t, St t v h b → Q none t) :
    wp (if i > 0 then do
        let e ← TM.ofOption (ppg.slot? ((i : Int) - 1))
        let keep ← testSibling pg e.2
        pure (if keep then some e.2 else none)
      else pure none) Q s := by
  by_cases hi : i > 0
  · rw [if_pos hi]
    rcases hleft with h0 | ⟨ey, yg, hey, hyg, hfit⟩
    · omega
    · apply wp_bind_of
      rw [wp_ofOption]
      refine ⟨ey, by rw [slot_pred _ hi]; exact hey, ?_⟩
      apply wp_bind_of
      apply testSibling_fits hs hyg hfit
      intro t1 h1
      rw [wp_pure]
      exact hq _ h1
  · rw [if_neg hi, wp_pure]
    exact hq _ hs

/-- The sibling tests choose the right sibling. -/
theorem findRedistributeSibling_specR {s : TState} {v : TreeView} {h : Multiset Int}
    {b : Bool} {pg ppg xg : BPlusTreePage} {i : Nat} {ex : KeyType × Int}
    (hs : St s v h b) (hleft : LeftFits v pg ppg i) (hex : ppg.array[i + 1]? = some ex)
    (hxg : v.pages ex.2 = some xg) (hfit : ¬ (xg.GetSize + pg.GetSize ≤ pg.GetMaxSize))
    {Q : Option page_id_t × Int → TState → Prop}
    (hq : ∀ t, St t v (ex.2 ::ₘ h) b → Q (some ex.2, -((i : Int) + 1)) t) :
    wp (findRedistributeSibling pg ppg i) Q s := by
  have hlen : i + 1 < ppg.GetSize := (List.getElem?_eq_some_iff.1 hex).1
  unfold findRedistributeSibling
  apply wp_bind_of
  apply findLeft_none hs hleft
  intro t1 h1
  simp only
  rw [if_pos hlen]
  apply wp_bind_of
  rw [wp_ofOption]
  refine ⟨ex, by rw [slot_succ]; exact hex, ?_⟩
  apply wp_bind_of
  apply testSibling_keeps h1 hxg hfit
  intro t2 h2
  rw [wp_pure]
  exact hq _ h2

/-- The sibling tests choose no sibling. -/
theorem findRedistributeSibling_specN {s : TState} {v : TreeView} {h : Multiset Int}
    {b : Bool} {pg ppg : BPlusTreePage} {i : Nat}
    (hs : St s v h b) (hleft : LeftFits v pg ppg i) (hright : RightFits v pg ppg i)
    {Q : Option page_id_t × Int → TState → Prop}
    (hq : ∀ t, St t v h b → Q (none, (i : Int)) t) :
    wp (findRedistributeSibling pg ppg i) Q s := by
  unfold findRedistributeSibling
  apply wp_bind_of
  apply findLeft_none hs hleft
  intro t1 h1
  simp only
  rcases hright with hlen | ⟨ex, xg, hex, hxg, hfit⟩
  · rw [if_neg hlen, wp_pure]
    exact hq _ h1
  · have hlen : i + 1 < ppg.GetSize := (List.getElem?_eq_some_iff.1 hex).1
    rw [if_pos hlen]
    apply wp_bind_of
    rw [wp_ofOption]
    refine ⟨ex, by rw [slot_succ]; exact hex, ?_⟩
    apply wp_bind_of
    apply testSibling_fits h1 hxg hfit
    intro t2 h2
    rw [wp_pure]
    exact hq _ h2

theorem ne_invalid_of_resident {v : TreeView} {E : Option Int} (hocc : Occ v E) {p : Int}
    {pg : BPlusTreePage} (h : v.pages p = some pg) : p ≠ INVALID_PAGE_ID := by
  intro h0
  rw [h0, hocc.none_invalid] at h
  cases h

/-- A change at two siblings and their parent that leaves each of the three pages within
the occupancy condition keeps the occupancy invariant. -/
theorem Occ_sib {a : TreeView} {E F : Option Int} (hocc : Occ a E) {cs : List Int}
    {D Y X P : Int} {ym xm qm : BPlusTreePage} (hY : Y ≠ INVALID_PAGE_ID)
    (hX : X ≠ INVALID_PAGE_ID) (hP : P ≠ INVALID_PAGE_ID)
    (hYo : PageOcc a.root F Y ym) (hXo : PageOcc a.root F X xm) (hPo : PageOcc a.root F P qm)
    (hother : ∀ q, q ≠ Y → q ≠ X → q ≠ P → E ≠ some q ∧ F ≠ some q) :
    Occ (a.sib cs D Y X P ym xm qm) F := by
  constructor
  · show Function.update (Function.update (Function.update (reparent cs D a.pages) Y _) X _)
      P _ INVALID_PAGE_ID = none
    rw [Function.update_noteq (Ne.symm hP), Function.update_noteq (Ne.symm hX),
      Function.update_noteq (Ne.symm hY)]
    exact reparent_none hocc.none_invalid
  · intro q qg hq
    have hq2 : Function.update (Function.update (Function.update (reparent cs D a.pages)
        Y (some ym)) X (some xm)) P (some qm) q = some qg := hq
    show PageOcc a.root F q qg
    by_cases hqP : q = P
    · subst hqP
      rw [Function.update_same] at hq2
      cases hq2
      exact hPo
    · rw [Function.update_noteq hqP] at hq2
      by_cases hqX : q = X
      · subst hqX
        rw [Function.update_same] at hq2
        cases hq2
        exact hXo
      · rw [Function.update_noteq hqX] at hq2
        by_cases hqY : q = Y
        · subst hqY
          rw [Function.update_same] at hq2
          cases hq2
          exact hYo
        · rw [Function.update_noteq hqY] at hq2
          obtain ⟨qg0, h0, e1, e2, e3, _⟩ := reparent_some hq2
          obtain ⟨n1, n2⟩ := hother q hqY hqX hqP
          have hp0 := hocc.page q qg0 h0
          refine PageOcc.shape ?_ (congrArg List.length e1) e2 e3
          exact And.intro hp0.1 (fun hr => And.intro (fun h => absurd h n2)
            (fun _ hpos => (hp0.2 hr).2 n1 hpos))

/-- Deleting a page keeps the occupancy invariant. -/
theorem Occ_delPage {v : TreeView} {E : Option Int} (hocc : Occ v E) (p : Int) :
    Occ (v.delPage p) E := by
  constructor
  · show Function.update v.pages p none INVALID_PAGE_ID = none
    by_cases h : INVALID_PAGE_ID = p
    · rw [h, Function.update_same]
    · rw [Function.update_noteq h]
      exact hocc.none_invalid
  · intro q qg hq
    have hq2 : Function.update v.pages p none q = some qg := hq
    by_cases h : q = p
    · rw [h, Function.update_same] at hq2
      cases hq2
    · rw [Function.update_noteq h] at hq2
      exact hocc.page q qg hq2

/-- The exemption of a page that is the root, or within the bounds, can be dropped. -/
theorem Occ_strict {v : TreeView} {E : Option Int} (hocc : Occ v E)
    (hE : ∀ p pg, E = some p → v.pages p = some pg → p ≠ v.root →
      lowerOf pg ≤ pg.array.length) : Occ v none :=
  ⟨hocc.none_invalid, fun p pg hp =>
    (hocc.page p pg hp).strict (fun h0 hr => hE p pg h0 hp hr)⟩

/-- The occupancy condition of a page that is not exempt, under another exemption. -/
theorem PageOcc.move {root : Int} {E F : Option Int} {q : Int} {qg : BPlusTreePage}
    (h : PageOcc root E q qg) (hE : E ≠ some q) (hF : F ≠ some q) : PageOcc root F q qg :=
  And.intro h.1 (fun hr => And.intro (fun h0 => absurd h0 hF)
    (fun _ hpos => (h.2 hr).2 hE hpos))

/-- A page that was within the bounds and not empty loses at most one pair: it becomes the
exempt page. -/
theorem Occ_less {v : TreeView} (hocc : Occ v none) {p : Int} {pg pg2 : BPlusTreePage}
    (hpg : v.pages p = some pg) (hpos : 0 < pg.array.length)
    (hlen : pg.array.length ≤ pg2.array.length + 1) (hle : pg2.array.length ≤ pg.array.length)
    (hm : pg2.max_size_ = pg.max_size_) (ht : pg2.page_type_ = pg.page_type_) :
    Occ (v.setPage p pg2) (some p) := by
  have h0 := hocc.page p pg hpg
  have hl : lowerOf pg2 = lowerOf pg := lowerOf_congr hm ht
  refine Occ_setPage hocc (ne_invalid_of_resident hocc hpg) ?_
    (fun q qg hq _ h => h.move (by simp) (fun h1 => hq (Option.some.inj h1).symm))
  refine And.intro ?_ (fun hr => And.intro (fun _ => ?_) (fun h => absurd rfl h))
  · rw [hm]
    exact le_trans hle h0.1
  · rw [hl]
    have := (h0.2 hr).2 (by simp) hpos
    omega

/-- The tree without a root satisfies the occupancy invariant when its pages do. -/
theorem Occ_emptied {v : TreeView} {E : Option Int} (hocc : Occ v E)
    (hroot : ∀ pg, v.pages v.root = some pg → pg.array.length = 0)
    (hE : ∀ p, E = some p → p = v.root) :
    Occ (v.setRoot INVALID_PAGE_ID) none := by
  constructor
  · exact hocc.none_invalid
  · intro q qg hq
    have hq2 : v.pages q = some qg := hq
    show PageOcc INVALID_PAGE_ID none q qg
    by_cases hqr : q = v.root
    · rw [hqr] at hq2
      exact PageOcc_empty (hroot qg hq2)
    · have h0 := hocc.page q qg hq2
      have hne : E ≠ some q := fun h => hqr (hE q h)
      exact And.intro h0.1 (fun _ => And.intro (fun h => by cases h)
        (fun _ hpos => (h0.2 hqr).2 hne hpos))

/-- The only child of an internal root becomes the root. -/
theorem Occ_dropRoot {v : TreeView} {E : Option Int} (hocc : Occ v E) {c : Int}
    {rg cg : BPlusTreePage} (hrg : v.pages v.root = some rg) (hcg : v.pages c = some cg)
    (hE : ∀ p, E = some p → p = v.root) :
    Occ (v.dropRoot v.root c rg cg) none := by
  have hR := ne_invalid_of_resident hocc hrg
  have hC := ne_invalid_of_resident hocc hcg
  constructor
  · show Function.update (Function.update v.pages v.root _) c _ INVALID_PAGE_ID = none
    rw [Function.update_noteq (Ne.symm hC), Function.update_noteq (Ne.symm hR)]
    exact hocc.none_invalid
  · intro q qg hq
    have hq2 : Function.update (Function.update v.pages v.root (some (rg.SetSize 0))) c
        (some (cg.SetParentPageId INVALID_PAGE_ID)) q = some qg := hq
    show PageOcc c none q qg
    by_cases hqc : q = c
    · subst hqc
      rw [Function.update_same] at hq2
      cases hq2
      exact PageOcc_root (hocc.page q cg hcg).1
    · rw [Function.update_noteq hqc] at hq2
      by_cases hqr : q = v.root
      · rw [hqr, Function.update_same] at hq2
        cases hq2
        exact PageOcc_empty (by simp [BPlusTreePage.SetSize])
      · rw [Function.update_noteq hqr] at hq2
        have h0 := hocc.page q qg hq2
        have hne : E ≠ some q := fun h => hqr (hE q h)
        exact And.intro h0.1 (fun _ => And.intro (fun h => by cases h)
          (fun _ hpos => (h0.2 hqr).2 hne hpos))

/-- The occupancy condition on the three pages after one pair or child has moved from a
sibling to the page that was short. -/
theorem PageOcc_shift {root : Int} {E : Option Int} {S X : Int} {sg xg sg2 xg2 : BPlusTreePage}
    (hs : PageOcc root E S sg) (hx : PageOcc root E X xg) (hE : E = some X)
    (hxr : X ≠ root)
    (hunder : xg.GetSize < xg.GetMinSize)
    (hfit : ¬ (sg.GetSize + xg.GetSize ≤ xg.GetMaxSize))
    (hmax : sg.max_size_ = xg.max_size_) (hty : sg.page_type_ = xg.page_type_)
    (hs2 : sg2.array.length + 1 = sg.array.length) (hs2m : sg2.max_size_ = sg.max_size_)
    (hs2t : sg2.page_type_ = sg.page_type_)
    (hx2 : xg2.array.length = xg.array.length + 1) (hx2m : xg2.max_size_ = xg.max_size_)
    (hx2t : xg2.page_type_ = xg.page_type_) :
    PageOcc root none S sg2 ∧ PageOcc root none X xg2 := by
  unfold BPlusTreePage.GetSize BPlusTreePage.GetMinSize at hunder
  unfold BPlusTreePage.GetSize BPlusTreePage.GetMaxSize at hfit
  have hl1 : lowerOf sg2 = lowerOf sg := lowerOf_congr hs2m hs2t
  have hl2 : lowerOf xg2 = lowerOf xg := lowerOf_congr hx2m hx2t
  have hl3 : lowerOf sg = lowerOf xg := lowerOf_congr hmax hty
  have hm := lowerOf_le_min xg
  have hx1 := (hx.2 hxr).1 hE
  have hsu := hs.1
  constructor
  · refine PageOcc_full ?_ ?_
    · rw [hs2m]; omega
    · rw [hl1, hl3]; omega
  · refine PageOcc_full ?_ ?_
    · rw [hx2, hx2m]; omega
    · rw [hl2, hx2]; exact hx1

/-- The occupancy condition on the page that has taken over the slots of its sibling. -/
theorem PageOcc_merge {root : Int} {E : Option Int} {Y X : Int} {yg xg ym : BPlusTreePage}
    (hy : PageOcc root E Y yg) (hx : PageOcc root E X xg) (hyr : Y ≠ root) (hxr : X ≠ root)
    (hpos : (E ≠ some Y ∧ 0 < yg.array.length) ∨ (E ≠ some X ∧ 0 < xg.array.length))
    (hfit : yg.array.length + xg.array.length ≤ yg.max_size_)
    (hmax : xg.max_size_ = yg.max_size_) (hty : xg.page_type_ = yg.page_type_)
    (hlen : ym.array.length = yg.array.length + xg.array.length)
    (hm : ym.max_size_ = yg.max_size_) (ht : ym.page_type_ = yg.page_type_) (F : Option Int) :
    PageOcc root F Y ym := by
  have hl1 : lowerOf ym = lowerOf yg := lowerOf_congr hm ht
  have hl2 : lowerOf xg = lowerOf yg := lowerOf_congr hmax hty
  refine PageOcc_full ?_ ?_
  · rw [hlen, hm]; exact hfit
  · rw [hl1, hlen]
    rcases hpos with ⟨h1, h2⟩ | ⟨h1, h2⟩
    · have := (hy.2 hyr).2 h1 h2
      omega
    · have := (hx.2 hxr).2 h1 h2
      omega

/-- The occupancy condition on the parent that has lost one slot: it may now be one slot
short. -/
theorem PageOcc_parent_less {root : Int} {E : Option Int} {P : Int} {ppg qg : BPlusTreePage}
    (hp : PageOcc root E P ppg) (hE : E ≠ some P)
    (hlen : qg.array.length + 1 = ppg.array.length) (hm : qg.max_size_ = ppg.max_size_)
    (ht : qg.page_type_ = ppg.page_type_) : PageOcc root (some P) P qg := by
  have hl1 : lowerOf qg = lowerOf ppg := lowerOf_congr hm ht
  refine And.intro ?_ (fun hr => And.intro (fun _ => ?_) (fun h => absurd rfl h))
  · rw [hm]
    have := hp.1
    omega
  · rw [hl1, hlen]
    exact (hp.2 hr).2 hE (by omega)

/-- The left sibling `Y` hands one pair or child to the page `X` that was short. -/
theorem Occ_shiftR {a : TreeView} {cs : List Int} {D Y X P : Int}
    {yg xg ppg ym xm qm : BPlusTreePage} (hocc : Occ a (some X))
    (hyg : a.pages Y = some yg) (hxg : a.pages X = some xg) (hpp : a.pages P = some ppg)
    (hXP : X ≠ P) (hxr : X ≠ a.root)
    (hunder : xg.GetSize < xg.GetMinSize)
    (hfit : ¬ (yg.GetSize + xg.GetSize ≤ xg.GetMaxSize))
    (hmax : yg.max_size_ = xg.max_size_) (hty : yg.page_type_ = xg.page_type_)
    (hym : ym.array.length + 1 = yg.array.length) (hymm : ym.max_size_ = yg.max_size_)
    (hymt : ym.page_type_ = yg.page_type_)
    (hxm : xm.array.length = xg.array.length + 1) (hxmm : xm.max_size_ = xg.max_size_)
    (hxmt : xm.page_type_ = xg.page_type_)
    (hqm : qm.array.length = ppg.array.length) (hqmm : qm.max_size_ = ppg.max_size_)
    (hqmt : qm.page_type_ = ppg.page_type_) :
    Occ (a.sib cs D Y X P ym xm qm) none := by
  obtain ⟨o1, o2⟩ := PageOcc_shift (hocc.page Y yg hyg) (hocc.page X xg hxg) rfl hxr hunder
    hfit hmax hty hym hymm hymt hxm hxmm hxmt
  refine Occ_sib hocc (ne_invalid_of_resident hocc hyg) (ne_invalid_of_resident hocc hxg)
    (ne_invalid_of_resident hocc hpp) o1 o2 ?_ ?_
  · exact PageOcc.shape ((hocc.page P ppg hpp).move
      (fun h => hXP (Option.some.inj h)) (by simp)) hqm hqmm hqmt
  · intro q _ hqX _
    exact ⟨fun h => hqX (Option.some.inj h).symm, by simp⟩

/-- The right sibling `X` hands one pair or child to the page `Y` that was short. -/
theorem Occ_shiftL {a : TreeView} {cs : List Int} {D Y X P : Int}
    {yg xg ppg ym xm qm : BPlusTreePage} (hocc : Occ a (some Y))
    (hyg : a.pages Y = some yg) (hxg : a.pages X = some xg) (hpp : a.pages P = some ppg)
    (hYP : Y ≠ P) (hyr : Y ≠ a.root)
    (hunder : yg.GetSize < yg.GetMinSize)
    (hfit : ¬ (xg.GetSize + yg.GetSize ≤ yg.GetMaxSize))
    (hmax : xg.max_size_ = yg.max_size_) (hty : xg.page_type_ = yg.page_type_)
    (hym : ym.array.length = yg.array.length + 1) (hymm : ym.max_size_ = yg.max_size_)
    (hymt : ym.page_type_ = yg.page_type_)
    (hxm : xm.array.length + 1 = xg.array.length) (hxmm : xm.max_size_ = xg.max_size_)
    (hxmt : xm.page_type_ = xg.page_type_)
    (hqm : qm.array.length = ppg.array.length) (hqmm : qm.max_size_ = ppg.max_size_)
    (hqmt : qm.page_type_ = ppg.page_type_) :
    Occ (a.sib cs D Y X P ym xm qm) none := by
  obtain ⟨o1, o2⟩ := PageOcc_shift (hocc.page X xg hxg) (hocc.page Y yg hyg) rfl hyr hunder
    hfit hmax hty hxm hxmm hxmt hym hymm hymt
  refine Occ_sib hocc (ne_invalid_of_resident hocc hyg) (ne_invalid_of_resident hocc hxg)
    (ne_invalid_of_resident hocc hpp) o2 o1 ?_ ?_
  · exact PageOcc.shape ((hocc.page P ppg hpp).move
      (fun h => hYP (Option.some.inj h)) (by simp)) hqm hqmm hqmt
  · intro q hqY _ _
    exact ⟨fun h => hqY (Option.some.inj h).symm, by simp⟩

/-- The right sibling `X` is emptied into the left sibling `Y` and the parent loses the
slot of `X`; one of the two was the exempt page. -/
theorem Occ_merge {a : TreeView} {E : Option Int} {cs : List Int} {D Y X P : Int}
    {yg xg ppg ym xm qm : BPlusTreePage} (hocc : Occ a E)
    (hyg : a.pages Y = some yg) (hxg : a.pages X = some xg) (hpp : a.pages P = some ppg)
    (hE : E = some Y ∨ E = some X) (hYX : Y ≠ X) (hYP : Y ≠ P) (hXP : X ≠ P)
    (hyr : Y ≠ a.root) (hxr : X ≠ a.root)
    (hypos : E ≠ some Y → 0 < yg.array.length) (hxpos : E ≠ some X → 0 < xg.array.length)
    (hfit : yg.array.length + xg.array.length ≤ yg.max_size_)
    (hmax : xg.max_size_ = yg.max_size_) (hty : xg.page_type_ = yg.page_type_)
    (hym : ym.array.length = yg.array.length + xg.array.length)
    (hymm : ym.max_size_ = yg.max_size_) (hymt : ym.page_type_ = yg.page_type_)
    (hxm : xm.array.length = 0)
    (hqm : qm.array.length + 1 = ppg.array.length) (hqmm : qm.max_size_ = ppg.max_size_)
    (hqmt : qm.page_type_ = ppg.page_type_) :
    Occ (a.sib cs D Y X P ym xm qm) (some P) := by
  have hEP : E ≠ some P := by
    rcases hE with h | h
    · rw [h]; exact fun h0 => hYP (Option.some.inj h0)
    · rw [h]; exact fun h0 => hXP (Option.some.inj h0)
  have hpos : (E ≠ some Y ∧ 0 < yg.array.length) ∨ (E ≠ some X ∧ 0 < xg.array.length) := by
    rcases hE with h | h
    · have hne : E ≠ some X := by rw [h]; exact fun h0 => hYX (Option.some.inj h0)
      exact Or.inr ⟨hne, hxpos hne⟩
    · have hne : E ≠ some Y := by rw [h]; exact fun h0 => hYX (Option.some.inj h0).symm
      exact Or.inl ⟨hne, hypos hne⟩
  refine Occ_sib hocc (ne_invalid_of_resident hocc hyg) (ne_invalid_of_resident hocc hxg)
    (ne_invalid_of_resident hocc hpp)
    (PageOcc_merge (hocc.page Y yg hyg) (hocc.page X xg hxg) hyr hxr hpos hfit hmax hty hym
      hymm hymt (some P)) ?_ (PageOcc_parent_less (hocc.page P ppg hpp) hEP hqm hqmm hqmt) ?_
  · refine And.intro (by rw [hxm]; exact Nat.zero_le _) (fun _ => And.intro
      (fun h0 => absurd (Option.some.inj h0) (Ne.symm hXP)) (fun _ h1 => by omega))
  · intro q hqY hqX hqP
    refine ⟨?_, fun h => hqP (Option.some.inj h).symm⟩
    rcases hE with h | h
    · rw [h]; exact fun h0 => hqY (Option.some.inj h0).symm
    · rw [h]; exact fun h0 => hqX (Option.some.inj h0).symm

/-- Call `DeletePage(p)` whatever the pins: the page leaves the pool, or it is pinned by
somebody else and stays as it is. -/
theorem wp_DeletePage_any {p : page_id_t} {Q : Bool → TState → Prop} {s : TState}
    {v : TreeView} {h : Multiset Int} {b : Bool} (hs : St s v h b)
    (hq : ∀ r t, St t (v.delPage p) h b → Q r t)
    (hq2 : p ∈ h → ∀ r t, St t v h b → Q r t) : wp (DeletePage p) Q s := by
  unfold DeletePage
  apply wp_bind_of
  rw [wp_get]
  have hs0 := hs
  obtain ⟨h1, h2, h3, h4⟩ := hs
  subst h1
  cases hpg : s.pages p with
  | none =>
    simp only
    rw [wp_pure]
    refine hq _ _ ⟨?_, h2, h3, h4⟩
    simp only [TreeView.delPage, TState.view]
    congr 1
    funext q
    by_cases hqp : q = p
    · subst hqp; simp [hpg]
    · simp [Function.update_noteq hqp]
  | some pg =>
    simp only
    by_cases hpin : s.pin p > 0
    · rw [if_pos hpin, wp_pure]
      refine hq2 ?_ _ _ hs0
      by_contra hn
      rw [h3 p, Multiset.count_eq_zero_of_not_mem hn] at hpin
      exact absurd hpin (by decide)
    · rw [if_neg hpin]
      apply wp_bind_of
      rw [wp_modify, wp_pure]
      exact hq _ _ ⟨rfl, h2, h3, h4⟩

theorem sizes_redistribute {pg sg : BPlusTreePage}
    (hunder : pg.GetSize < pg.GetMinSize) (hfit : ¬ (sg.GetSize + pg.GetSize ≤ pg.GetMaxSize)) :
    (1 ≤ pg.max_size_ → 2 ≤ sg.array.length) ∧ (3 ≤ pg.max_size_ → 3 ≤ sg.array.length) := by
  unfold BPlusTreePage.GetSize BPlusTreePage.GetMinSize at hunder
  unfold BPlusTreePage.GetSize BPlusTreePage.GetMaxSize at hfit
  constructor
  · intro h; omega
  · intro h; omega

theorem split_last {α : Type} {A : List α} (h : A ≠ []) :
    ∃ (W : List α) (y : α), A = W ++ [y] ∧ W.length + 1 = A.length := by
  refine ⟨A.dropLast, A.getLast h, (List.dropLast_append_getLast h).symm, ?_⟩
  have := List.length_pos.2 h
  rw [List.length_dropLast]
  omega

theorem held_pop (P page : Int) (rest : List Int) (h : Multiset Int) :
    page ::ₘ (((P :: rest : List Int) : Multiset Int) + h) =
      P ::ₘ page ::ₘ ((rest : Multiset Int) + h) := by
  simp only [← Multiset.cons_coe, ← Multiset.singleton_add]
  abel

/-- The redistribute branch of `CoalesceOrRedistribute` with the left sibling; the
occupancy invariant holds afterwards when it held but for the page. -/
theorem RedistributeWith_left_occ {s : TState} {a : TreeView} {G : Ghost} {h : Multiset Int}
    {b : Bool} {P : Int} {ppg yg xg : BPlusTreePage} {j : Nat} {ey ex : KeyType × Int}
    {rest : List Int} (isLeaf : Bool)
    (hs : St s a (ey.2 ::ₘ ex.2 ::ₘ (((P :: rest : List Int) : Multiset Int) + h)) b)
    (hg : Good a G (some ex.2)) (ha : Adjacent G P ppg j ey ex) (hpp : a.pages P = some ppg)
    (hyg : a.pages ey.2 = some yg) (hxg : a.pages ex.2 = some xg)
    (hleaf : isLeaf = true ↔ G.lvl ex.2 = 0)
    (hunder : xg.GetSize < xg.GetMinSize)
    (hfit : ¬ (yg.GetSize + xg.GetSize ≤ xg.GetMaxSize))
    {Q : Unit → TState → Prop}
    (hq : ∀ t u H, St t u (ex.2 ::ₘ ((rest : Multiset Int) + h)) b → Good u H none →
      (∀ k w, Stored u H k w ↔ Stored a G k w) → H.live ex.2 → (∀ x, H.live x → G.live x) →
      Kept a u G (G.lvl ex.2) → u.root = a.root → (Occ a (some ex.2) → Occ u none) →
      Q () t) :
    wp (RedistributeWith isLeaf ey.2 ex.2 P ppg.page_id_ ((j + 1 : Nat) : Int)) Q s := by
  obtain ⟨cy, cx, hyx, hyP, hxP, hyr, hxr, _⟩ := adjacent_facts hg ha hpp
  obtain ⟨pg0, hpg0, hgP⟩ := hg.page P ha.liveP
  rw [hpp] at hpg0; cases hpg0
  obtain ⟨pg1, hpg1, hgx⟩ := hg.page _ cx.live
  rw [hxg] at hpg1; cases hpg1
  obtain ⟨pg2, hpg2, hgy⟩ := hg.page _ cy.live
  rw [hyg] at hpg2; cases hpg2
  have hlv : G.lvl ey.2 = G.lvl ex.2 := by have := cy.lvl; have := cx.lvl; omega
  have hparX : xg.parent_page_id_ = P := by rw [hgx.parent, cx.par]
  have hcast : ((j + 1 : Nat) : Int) = (j : Int) + 1 := by push_cast; ring
  have hE : ∀ p, some ex.2 = some p → p = ey.2 ∨ p = ex.2 := fun p hp =>
    Or.inr (Option.some.inj hp).symm
  have hsz := sizes_redistribute hunder hfit
  have hkept := fun cs D y2 x2 q2 => Kept_sib hg ha hpp cs D y2 x2 q2
  rw [hlv] at hkept
  have fin : ∀ t u H, St t u (ey.2 ::ₘ ex.2 ::ₘ (((P :: rest : List Int) : Multiset Int) + h)) b →
      Good u H none → (∀ k w, Stored u H k w ↔ Stored a G k w) → H.live ex.2 →
      (∀ x, H.live x → G.live x) → Kept a u G (G.lvl ex.2) → u.root = a.root →
      (Occ a (some ex.2) → Occ u none) →
      wp (do
        WUnlatch ey.2
        let _ ← UnpinPage ey.2 true
        WUnlatch P
        let _ ← UnpinPage ppg.page_id_ false
        pure ()) Q t := by
    intro t u H h1 g1 g2 g3 g4 g5 g6 g7
    apply wp_bind_of
    apply wp_WUnlatch_st h1
    intro t2 h2
    apply wp_bind_of
    apply wp_UnpinPage_st h2
    intro t3 h3
    apply wp_bind_of
    apply wp_WUnlatch_st h3
    intro t4 h4
    apply wp_bind_of
    rw [hgP.id]
    rw [held_pop] at h4
    apply wp_UnpinPage_st h4
    intro t5 h5
    rw [wp_pure]
    exact hq t5 u H h5 g1 g2 g3 g4 g5 g6 g7
  unfold RedistributeWith
  apply wp_bind_of
  rw [hcast]
  cases isLeaf with
  | true =>
    have hl0 : G.lvl ex.2 = 0 := hleaf.1 rfl
    have hly : G.lvl ey.2 = 0 := by rw [hlv]; exact hl0
    have hmx : xg.max_size_ = a.lmax := (hgx.leaf_type hl0).2
    have h2 : 2 ≤ yg.array.length := hsz.1 (by rw [hmx]; exact hg.lmax_pos)
    have hyne : yg.array ≠ [] := by
      intro h0; rw [h0] at h2; simp at h2
    obtain ⟨W, yl, hy, hWl⟩ := split_last hyne
    have hW : W ≠ [] := by
      intro h0; rw [h0] at hWl; simp at hWl; omega
    simp only [if_true]
    apply RedistributeLeaf_specR j hs hyg hxg hpp hparX hy hyx hyP hxP P
    intro t1 h1
    obtain ⟨g1, g2⟩ := Good_shiftLeafR hg ha hpp hyg hxg hly hE hy hW P
    refine fin t1 _ _ h1 g1 g2 ⟨cx.live, fun _ => rfl⟩ (fun x hx => hx.1) (hkept _ _ _ _ _) rfl
      (fun hocc => ?_)
    refine Occ_shiftR hocc hyg hxg hpp hxP hxr hunder hfit
      ((hgy.leaf_type hly).2.trans hmx.symm)
      ((hgy.leaf_type hly).1.trans (hgx.leaf_type hl0).1.symm) ?_ rfl rfl rfl rfl rfl
      (by simp [BPlusTreePage.SetKeyAt]) rfl rfl
    show yg.array.dropLast.length + 1 = yg.array.length
    rw [List.length_dropLast]
    omega
  | false =>
    have hl0 : G.lvl ex.2 ≠ 0 := fun h => by
      have := hleaf.2 h
      cases this
    have hly : G.lvl ey.2 ≠ 0 := by rw [hlv]; exact hl0
    have hmx : xg.max_size_ = a.imax := (hgx.int_type hl0).2
    have h3 : 3 ≤ yg.array.length := hsz.2 (by rw [hmx]; exact hg.imax_ge)
    have hyne : yg.array ≠ [] := by
      intro h0; rw [h0] at h3; simp at h3
    obtain ⟨W, yl, hy, hWl⟩ := split_last hyne
    have hW : 2 ≤ W.length := by omega
    obtain ⟨c1, c2, c3, _⟩ := Seg_child (hgy.int_seg hly) yl (by rw [hy]; simp)
    obtain ⟨cg, hcg, _⟩ := hg.page _ c1
    have l1 := cy.lvl
    have l2 := cx.lvl
    have hcY : yl.2 ≠ ey.2 := fun h => by rw [h] at c3; omega
    have hcX : yl.2 ≠ ex.2 := fun h => by rw [h] at c3; omega
    have hcP : yl.2 ≠ P := fun h => by rw [h] at c3; omega
    simp only [Bool.false_eq_true, if_false]
    apply RedistributeInternal_specR j hs hyg hxg hpp hcg hparX hgx.id hy ha.slotX hyx hyP hxP
      hcY hcX hcP
    intro t1 h1
    obtain ⟨g1, g2⟩ := Good_shiftIntR hg ha hpp hyg hxg hly hE hy hW
    refine fin t1 _ _ h1 g1 g2 ⟨cx.live, fun _ => rfl⟩ (fun x hx => hx.1) (hkept _ _ _ _ _) rfl
      (fun hocc => ?_)
    refine Occ_shiftR hocc hyg hxg hpp hxP hxr hunder hfit
      ((hgy.int_type hly).2.trans hmx.symm)
      ((hgy.int_type hly).1.trans (hgx.int_type hl0).1.symm) ?_ rfl rfl ?_ rfl rfl
      (by simp [BPlusTreePage.SetKeyAt]) rfl rfl
    · show yg.array.dropLast.length + 1 = yg.array.length
      rw [List.length_dropLast]
      omega
    · show (intPushFront xg ex.1 yl.2).array.length = xg.array.length + 1
      unfold intPushFront
      cases xg.array with
      | nil => rfl
      | cons e es => simp

/-- The redistribute branch of `CoalesceOrRedistribute` with the left sibling. -/
theorem RedistributeWith_left {s : TState} {a : TreeView} {G : Ghost} {h : Multiset Int}
    {b : Bool} {P : Int} {ppg yg xg : BPlusTreePage} {j : Nat} {ey ex : KeyType × Int}
    {rest : List Int} (isLeaf : Bool)
    (hs : St s a (ey.2 ::ₘ ex.2 ::ₘ (((P :: rest : List Int) : Multiset Int) + h)) b)
    (hg : Good a G (some ex.2)) (ha : Adjacent G P ppg j ey ex) (hpp : a.pages P = some ppg)
    (hyg : a.pages ey.2 = some yg) (hxg : a.pages ex.2 = some xg)
    (hleaf : isLeaf = true ↔ G.lvl ex.2 = 0)
    (hunder : xg.GetSize < xg.GetMinSize)
    (hfit : ¬ (yg.GetSize + xg.GetSize ≤ xg.GetMaxSize))
    {Q : Unit → TState → Prop}
    (hq : ∀ t u H, St t u (ex.2 ::ₘ ((rest : Multiset Int) + h)) b → Good u H none →
      (∀ k w, Stored u H k w ↔ Stored a G k w) → H.live ex.2 → (∀ x, H.live x → G.live x) →
      Kept a u G (G.lvl ex.2) → u.root = a.root → Q () t) :
    wp (RedistributeWith isLeaf ey.2 ex.2 P ppg.page_id_ ((j + 1 : Nat) : Int)) Q s :=
  RedistributeWith_left_occ isLeaf hs hg ha hpp hyg hxg hleaf hunder hfit
    (fun t u H h1 g1 g2 g3 g4 g5 g6 _ => hq t u H h1 g1 g2 g3 g4 g5 g6)

/-- The redistribute branch of `CoalesceOrRedistribute` with the right sibling; the
occupancy invariant holds afterwards when it held but for the page. -/
theorem RedistributeWith_right_occ {s : TState} {a : TreeView} {G : Ghost} {h : Multiset Int}
    {b : Bool} {P : Int} {ppg yg xg : BPlusTreePage} {j : Nat} {ey ex : KeyType × Int}
    {rest : List Int} (isLeaf : Bool)
    (hs : St s a (ex.2 ::ₘ ey.2 ::ₘ (((P :: rest : List Int) : Multiset Int) + h)) b)
    (hg : Good a G (some ey.2)) (ha : Adjacent G P ppg j ey ex) (hpp : a.pages P = some ppg)
    (hyg : a.pages ey.2 = some yg) (hxg : a.pages ex.2 = some xg)
    (hleaf : isLeaf = true ↔ G.lvl ey.2 = 0)
    (hunder : yg.GetSize < yg.GetMinSize)
    (hfit : ¬ (xg.GetSize + yg.GetSize ≤ yg.GetMaxSize))
    {Q : Unit → TState → Prop}
    (hq : ∀ t u H, St t u (ey.2 ::ₘ ((rest : Multiset Int) + h)) b → Good u H none →
      (∀ k w, Stored u H k w ↔ Stored a G k w) → H.live ey.2 → (∀ x, H.live x → G.live x) →
      Kept a u G (G.lvl ey.2) → u.root = a.root → (Occ a (some ey.2) → Occ u none) →
      Q () t) :
    wp (RedistributeWith isLeaf ex.2 ey.2 P ppg.page_id_ (-((j : Int) + 1))) Q s := by
  obtain ⟨cy, cx, hyx, hyP, hxP, hyr, hxr, _⟩ := adjacent_facts hg ha hpp
  obtain ⟨pg0, hpg0, hgP⟩ := hg.page P ha.liveP
  rw [hpp] at hpg0; cases hpg0
  obtain ⟨pg1, hpg1, hgx⟩ := hg.page _ cx.live
  rw [hxg] at hpg1; cases hpg1
  obtain ⟨pg2, hpg2, hgy⟩ := hg.page _ cy.live
  rw [hyg] at hpg2; cases hpg2
  have hlv : G.lvl ex.2 = G.lvl ey.2 := by have := cy.lvl; have := cx.lvl; omega
  have hparY : yg.parent_page_id_ = P := by rw [hgy.parent, cy.par]
  have hE : ∀ p, some ey.2 = some p → p = ey.2 ∨ p = ex.2 := fun p hp =>
    Or.inl (Option.some.inj hp).symm
  have hsz := sizes_redistribute hunder hfit
  have hkept := fun cs D y2 x2 q2 => Kept_sib hg ha hpp cs D y2 x2 q2
  have fin : ∀ t u H, St t u (ex.2 ::ₘ ey.2 ::ₘ (((P :: rest : List Int) : Multiset Int) + h)) b →
      Good u H none → (∀ k w, Stored u H k w ↔ Stored a G k w) → H.live ey.2 →
      (∀ x, H.live x → G.live x) → Kept a u G (G.lvl ey.2) → u.root = a.root →
      (Occ a (some ey.2) → Occ u none) →
      wp (do
        WUnlatch ex.2
        let _ ← UnpinPage ex.2 true
        WUnlatch P
        let _ ← UnpinPage ppg.page_id_ false
        pure ()) Q t := by
    intro t u H h1 g1 g2 g3 g4 g5 g6 g7
    apply wp_bind_of
    apply wp_WUnlatch_st h1
    intro t2 h2
    apply wp_bind_of
    apply wp_UnpinPage_st h2
    intro t3 h3
    apply wp_bind_of
    apply wp_WUnlatch_st h3
    intro t4 h4
    apply wp_bind_of
    rw [hgP.id]
    rw [held_pop] at h4
    apply wp_UnpinPage_st h4
    intro t5 h5
    rw [wp_pure]
    exact hq t5 u H h5 g1 g2 g3 g4 g5 g6 g7
  unfold RedistributeWith
  apply wp_bind_of
  cases isLeaf with
  | true =>
    have hly : G.lvl ey.2 = 0 := hleaf.1 rfl
    have hmx : yg.max_size_ = a.lmax := (hgy.leaf_type hly).2
    have h2 : 2 ≤ xg.array.length := hsz.1 (by rw [hmx]; exact hg.lmax_pos)
    obtain ⟨x0, x1, rest2, hx⟩ : ∃ x0 x1 rest2, xg.array = x0 :: x1 :: rest2 := by
      match hxa : xg.array with
      | [] => rw [hxa] at h2; simp at h2
      | [_] => rw [hxa] at h2; simp at h2
      | x0 :: x1 :: r => exact ⟨x0, x1, r, rfl⟩
    simp only [if_true]
    apply RedistributeLeaf_specL j hs hyg hxg hpp hparY hx hyx hyP hxP P
    intro t1 h1
    obtain ⟨g1, g2⟩ := Good_shiftLeafL hg ha hpp hyg hxg hly hE hx P
    have hlx0 : G.lvl ex.2 = 0 := by rw [hlv]; exact hly
    refine fin t1 _ _ h1 g1 g2 ⟨cy.live, fun h => absurd h hyx⟩ (fun x hx => hx.1)
      (hkept _ _ _ _ _) rfl (fun hocc => ?_)
    refine Occ_shiftL hocc hyg hxg hpp hyP hyr hunder hfit
      ((hgx.leaf_type hlx0).2.trans hmx.symm)
      ((hgx.leaf_type hlx0).1.trans (hgy.leaf_type hly).1.symm) ?_ rfl rfl ?_ rfl rfl
      (by simp [BPlusTreePage.SetKeyAt]) rfl rfl
    · show (yg.array ++ [x0]).length = yg.array.length + 1
      simp
    · show xg.array.tail.length + 1 = xg.array.length
      rw [hx]
      simp
  | false =>
    have hly : G.lvl ey.2 ≠ 0 := fun h => by
      have := hleaf.2 h
      cases this
    have hlx : G.lvl ex.2 ≠ 0 := by rw [hlv]; exact hly
    have hmx : yg.max_size_ = a.imax := (hgy.int_type hly).2
    have h3 : 3 ≤ xg.array.length := hsz.2 (by rw [hmx]; exact hg.imax_ge)
    obtain ⟨x0, x1, rest2, hx, hr2⟩ :
        ∃ x0 x1 rest2, xg.array = x0 :: x1 :: rest2 ∧ rest2 ≠ [] := by
      match hxa : xg.array with
      | [] => rw [hxa] at h3; simp at h3
      | [_] => rw [hxa] at h3; simp at h3
      | [_, _] => rw [hxa] at h3; simp at h3
      | x0 :: x1 :: x2 :: r => exact ⟨x0, x1, x2 :: r, rfl, by simp⟩
    obtain ⟨c1, c2, c3, _⟩ := Seg_child (hgx.int_seg hlx) x0 (by rw [hx]; simp)
    obtain ⟨cg, hcg, _⟩ := hg.page _ c1
    have l1 := cy.lvl
    have l2 := cx.lvl
    have hcY : x0.2 ≠ ey.2 := fun h => by rw [h] at c3; omega
    have hcX : x0.2 ≠ ex.2 := fun h => by rw [h] at c3; omega
    have hcP : x0.2 ≠ P := fun h => by rw [h] at c3; omega
    simp only [Bool.false_eq_true, if_false]
    apply RedistributeInternal_specL j hs hyg hxg hpp hcg hparY hgy.id hx ha.slotX hyx hyP hxP
      hcY hcX hcP
    intro t1 h1
    obtain ⟨g1, g2⟩ := Good_shiftIntL hg ha hpp hyg hxg hly hE hx hr2
    refine fin t1 _ _ h1 g1 g2 ⟨cy.live, fun h => absurd h hyx⟩ (fun x hx => hx.1)
      (hkept _ _ _ _ _) rfl (fun hocc => ?_)
    refine Occ_shiftL hocc hyg hxg hpp hyP hyr hunder hfit
      ((hgx.int_type hlx).2.trans hmx.symm)
      ((hgx.int_type hlx).1.trans (hgy.int_type hly).1.symm) ?_ rfl rfl ?_ rfl rfl
      (by simp [BPlusTreePage.SetKeyAt]) rfl rfl
    · show (yg.array ++ [(ex.1, x0.2)]).length = yg.array.length + 1
      simp
    · show xg.array.tail.length + 1 = xg.array.length
      rw [hx]
      simp

/-- The redistribute branch of `CoalesceOrRedistribute` with the right sibling. -/
theorem RedistributeWith_right {s : TState} {a : TreeView} {G : Ghost} {h : Multiset Int}
    {b : Bool} {P : Int} {ppg yg xg : BPlusTreePage} {j : Nat} {ey ex : KeyType × Int}
    {rest : List Int} (isLeaf : Bool)
    (hs : St s a (ex.2 ::ₘ ey.2 ::ₘ (((P :: rest : List Int) : Multiset Int) + h)) b)
    (hg : Good a G (some ey.2)) (ha : Adjacent G P ppg j ey ex) (hpp : a.pages P = some ppg)
    (hyg : a.pages ey.2 = some yg) (hxg : a.pages ex.2 = some xg)
    (hleaf : isLeaf = true ↔ G.lvl ey.2 = 0)
    (hunder : yg.GetSize < yg.GetMinSize)
    (hfit : ¬ (xg.GetSize + yg.GetSize ≤ yg.GetMaxSize))
    {Q : Unit → TState → Prop}
    (hq : ∀ t u H, St t u (ey.2 ::ₘ ((rest : Multiset Int) + h)) b → Good u H none →
      (∀ k w, Stored u H k w ↔ Stored a G k w) → H.live ey.2 → (∀ x, H.live x → G.live x) →
      Kept a u G (G.lvl ey.2) → u.root = a.root → Q () t) :
    wp (RedistributeWith isLeaf ex.2 ey.2 P ppg.page_id_ (-((j : Int) + 1))) Q s :=
  RedistributeWith_right_occ isLeaf hs hg ha hpp hyg hxg hleaf hunder hfit
    (fun t u H h1 g1 g2 g3 g4 g5 g6 _ => hq t u H h1 g1 g2 g3 g4 g5 g6)

/-- The package of facts for a merge of two adjacent siblings. -/
theorem Merged_sib {a : TreeView} {G : Ghost} {E : Option Int} (hg : Good a G E)
    {P : Int} {ppg : BPlusTreePage} {j : Nat} {ey ex : KeyType × Int}
    (ha : Adjacent G P ppg j ey ex) (hpp : a.pages P = some ppg)
    {cs : List Int} {ym xm : BPlusTreePage}
    (hcs : ∀ c ∈ cs, G.live c ∧ (G.par c = ex.2 ∨ G.par c = ey.2))
    (hgood : Good (a.sib cs ey.2 ey.2 ex.2 P ym xm (ppg.Remove (j + 1)))
      (G.sib ey.2 ex.2 (G.hi ex.2) false cs ey.2) (some P))
    (hst : ∀ k w, Stored (a.sib cs ey.2 ey.2 ex.2 P ym xm (ppg.Remove (j + 1)))
      (G.sib ey.2 ex.2 (G.hi ex.2) false cs ey.2) k w ↔ Stored a G k w)
    (hym : ym.page_id_ = ey.2) (hxm : xm.page_id_ = ex.2) {page : Int}
    (hpage : page = ey.2 ∨ page = ex.2) :
    Merged a G page P ppg (a.sib cs ey.2 ey.2 ex.2 P ym xm (ppg.Remove (j + 1)))
      (G.sib ey.2 ex.2 (G.hi ex.2) false cs ey.2) := by
  obtain ⟨cy, cx, hyx, hyP, hxP, hyr, hxr, _⟩ := adjacent_facts hg ha hpp
  have hcf := sib_cs_facts hg ha hpp hcs
  have hlen : j + 1 < ppg.array.length := (List.getElem?_eq_some_iff.1 ha.slotX).1
  have l1 := cy.lvl
  have l2 := cx.lvl
  have hlp : G.lvl page = G.lvl ey.2 := by
    rcases hpage with h | h
    · rw [h]
    · rw [h]; omega
  refine
    { good := hgood
      stored := hst
      live_sub := fun x hx => hx.1
      lvl_eq := fun _ => rfl
      kept := by rw [hlp]; exact Kept_sib hg ha hpp _ _ _ _ _
      root := rfl
      page_res := ?_
      up_live := ?_
      up_pages := ?_
      parent := ⟨ppg.Remove (j + 1), by simp [TreeView.sib], ?_, rfl⟩ }
  · rcases hpage with h | h
    · rw [h]
      exact ⟨ym, by simp [TreeView.sib, Function.update_noteq hyP, Function.update_noteq hyx],
        hym⟩
    · rw [h]
      exact ⟨xm, by simp [TreeView.sib, Function.update_noteq hxP], hxm⟩
  · intro x hx hlx
    have h2 : x ≠ ex.2 := fun h => by rw [h] at hlx; omega
    have h4 : x ∉ cs := fun h => by
      have := (hcf x h).1
      omega
    exact ⟨⟨hx, fun h => absurd h h2⟩, by simp [Ghost.sib, h4]⟩
  · intro x hx hlx
    have h1 : x ≠ P := fun h => by rw [h] at hlx; omega
    have h2 : x ≠ ex.2 := fun h => by rw [h] at hlx; omega
    have h3 : x ≠ ey.2 := fun h => by rw [h] at hlx; omega
    have h4 : x ∉ cs := fun h => by
      have := (hcf x h).1
      omega
    simp [TreeView.sib, Function.update_noteq h1, Function.update_noteq h2,
      Function.update_noteq h3, reparent, h4]
  · rw [Remove_array hlen, List.length_eraseIdx, if_pos hlen]
    omega

/-- The package of facts survives the deletion of the page that was emptied. -/
theorem Merged.dropPage {a : TreeView} {G : Ghost} {page P : Int} {ppg : BPlusTreePage}
    {a1 : TreeView} {G1 : Ghost} (hm : Merged a G page P ppg a1 G1) {X : Int}
    (hX : G.live X) (hnl : ¬ G1.live X) (hlv : G.lvl X = G.lvl page) (hXp : X ≠ page)
    (hlP : G.lvl P = G.lvl page + 1) :
    Merged a G page P ppg (a1.delPage X) G1 := by
  have hXP : X ≠ P := fun h => by rw [h] at hlv; omega
  obtain ⟨pg2, h1, h2⟩ := hm.page_res
  obtain ⟨qg, q1, q2, q3⟩ := hm.parent
  exact
    { good := Good_delPage hm.good hnl
      stored := fun k w => (Stored_delPage hnl k w).trans (hm.stored k w)
      live_sub := hm.live_sub
      lvl_eq := hm.lvl_eq
      kept := hm.kept.delPage hX (by omega)
      root := hm.root
      page_res := ⟨pg2, by simp [TreeView.delPage, Function.update_noteq (Ne.symm hXp), h1], h2⟩
      up_live := hm.up_live
      up_pages := fun x hx hlx => by
        have hxX : x ≠ X := fun h => by rw [h] at hlx; omega
        simp only [TreeView.delPage, Function.update_noteq hxX]
        exact hm.up_pages x hx hlx
      parent := ⟨qg, by simp [TreeView.delPage, Function.update_noteq (Ne.symm hXP), q1],
        q2, q3⟩ }

/-- Method `Coalesce`: the right sibling `X` is emptied into the left sibling `Y`; `idx` is
the index the method is called with, the slot of the page handed to
`CoalesceOrRedistribute`.  The occupancy invariant holds afterwards, but for the parent,
when it held but for one of the two siblings and the two fit into one page. -/
theorem Coalesce_occ {s : TState} {a : TreeView} {G : Ghost} {E : Option Int}
    {h : Multiset Int} {b : Bool} {P : Int} {ppg yg xg : BPlusTreePage} {j : Nat}
    {ey ex : KeyType × Int} (isLeaf : Bool) (hs : St s a h b)
    (hg : Good a G E) (ha : Adjacent G P ppg j ey ex) (hpp : a.pages P = some ppg)
    (hyg : a.pages ey.2 = some yg) (hxg : a.pages ex.2 = some xg)
    (hleaf : isLeaf = true ↔ G.lvl ey.2 = 0) (hE : ∀ p, E = some p → p = ey.2 ∨ p = ex.2)
    {neighbor node : Int} {idx : Nat}
    (hcase : (idx = 0 ∧ j = 0 ∧ neighbor = ex.2 ∧ node = ey.2) ∨
      (idx = j + 1 ∧ neighbor = ey.2 ∧ node = ex.2))
    {Q : Bool → TState → Prop}
    (hq : ∀ t a1 G1, St t a1 h b → Merged a G node P ppg a1 G1 → ¬ G1.live ex.2 →
      (G1.live ey.2) → a1.pages ex.2 ≠ none →
      (Occ a E → (E = some ey.2 ∨ E = some ex.2) →
        yg.array.length + xg.array.length ≤ yg.max_size_ → Occ a1 (some P)) →
      Q (decide (ppg.array.length - 1 < ppg.GetMinSize)) t) :
    wp (Coalesce isLeaf neighbor node P idx) Q s := by
  obtain ⟨cy, cx, hyx, hyP, hxP, hyr, hxr, _⟩ := adjacent_facts hg ha hpp
  have hlen : j + 1 < ppg.array.length := (List.getElem?_eq_some_iff.1 ha.slotX).1
  have hidx : (if idx = 0 then 1 else idx) = j + 1 := by
    rcases hcase with ⟨h1, h2, _⟩ | ⟨h1, _⟩
    · rw [if_pos h1, h2]
    · rw [if_neg (by omega), h1]
  have hnode : node = ey.2 ∨ node = ex.2 := by
    rcases hcase with ⟨_, _, _, h⟩ | ⟨_, _, h⟩
    · exact Or.inl h
    · exact Or.inr h
  obtain ⟨pg1, hpg1, hgx⟩ := hg.page _ cx.live
  rw [hxg] at hpg1; cases hpg1
  obtain ⟨pg2, hpg2, hgy⟩ := hg.page _ cy.live
  rw [hyg] at hpg2; cases hpg2
  have fin : ∀ (cs : List Int) (ym : BPlusTreePage) t,
      St t (a.sib cs ey.2 ey.2 ex.2 P ym (xg.SetSize 0) (ppg.Remove (j + 1))) h b →
      Merged a G node P ppg (a.sib cs ey.2 ey.2 ex.2 P ym (xg.SetSize 0) (ppg.Remove (j + 1)))
        (G.sib ey.2 ex.2 (G.hi ex.2) false cs ey.2) →
      (ym.array.length = yg.array.length + xg.array.length ∧ ym.max_size_ = yg.max_size_ ∧
        ym.page_type_ = yg.page_type_ ∧ xg.max_size_ = yg.max_size_ ∧
        xg.page_type_ = yg.page_type_ ∧ (E ≠ some ey.2 → 0 < yg.array.length) ∧
        (E ≠ some ex.2 → 0 < xg.array.length)) →
      wp (do
        let parent_data ← getPage P
        pure (decide (parent_data.GetSize < parent_data.GetMinSize))) Q t := by
    intro cs ym t h1 hm hsh
    apply wp_bind_of
    apply wp_getPage_st h1 (g := ppg.Remove (j + 1)) (by simp [TreeView.sib])
    rw [wp_pure]
    have e1 : (ppg.Remove (j + 1)).GetSize = ppg.array.length - 1 := by
      unfold BPlusTreePage.GetSize
      rw [Remove_array hlen, List.length_eraseIdx, if_pos hlen]
    have e2 : (ppg.Remove (j + 1)).GetMinSize = ppg.GetMinSize := rfl
    rw [e1, e2]
    refine hq t _ _ h1 hm (fun h => by cases h.2 rfl) ⟨cy.live, fun h => absurd h hyx⟩ ?_ ?_
    · simp [TreeView.sib, Function.update_noteq hxP]
    · intro hocc hEE hfit
      obtain ⟨s1, s2, s3, s4, s5, s6, s7⟩ := hsh
      refine Occ_merge hocc hyg hxg hpp hEE hyx hyP hxP hyr hxr s6 s7 hfit s4 s5 s1 s2 s3
        (by simp [BPlusTreePage.SetSize]) ?_ rfl rfl
      rw [Remove_array hlen, List.length_eraseIdx, if_pos hlen]
      omega
  unfold Coalesce
  apply wp_bind_of
  unfold CoalesceMove
  cases isLeaf with
  | true =>
    have hly : G.lvl ey.2 = 0 := hleaf.1 rfl
    have hEE : E = some ey.2 ∨ E = some ex.2 ∨ E = none := by
      cases hEq : E with
      | none => exact Or.inr (Or.inr rfl)
      | some p =>
        rcases hE p hEq with h | h
        · exact Or.inl (by rw [h])
        · exact Or.inr (Or.inl (by rw [h]))
    have hg2 : Good a G (some ey.2) ∨ Good a G (some ex.2) := by
      rcases hEE with h | h | h
      · exact Or.inl (h ▸ hg)
      · exact Or.inr (h ▸ hg)
      · refine Or.inl (Good_exempt hg ?_)
        intro p pg _ _ hp
        rw [h] at hp; cases hp
    have hmerge : Good (a.sib [] ey.2 ey.2 ex.2 P (leafMerged yg xg) (xg.SetSize 0)
          (ppg.Remove (j + 1))) (G.sib ey.2 ex.2 (G.hi ex.2) false [] ey.2) (some P) ∧
        ∀ k w, Stored (a.sib [] ey.2 ey.2 ex.2 P (leafMerged yg xg) (xg.SetSize 0)
          (ppg.Remove (j + 1))) (G.sib ey.2 ex.2 (G.hi ex.2) false [] ey.2) k w ↔
          Stored a G k w := by
      rcases hg2 with h | h
      · exact Good_mergeLeaf h ⟨ha.liveP, ha.lvlP, ha.slotY, ha.slotX⟩ hpp hyg hxg hly
          (Or.inl rfl)
      · exact Good_mergeLeaf h ⟨ha.liveP, ha.lvlP, ha.slotY, ha.slotX⟩ hpp hyg hxg hly
          (Or.inr rfl)
    have hmv : wp (MoveAllToLeaf ex.2 ey.2) (fun _ t => wp (do
        modifyPage P (fun p => p.Remove (if idx = 0 then 1 else idx))
        let parent_data ← getPage P
        pure (decide (parent_data.GetSize < parent_data.GetMinSize))) Q t) s := by
      apply MoveAllToLeaf_spec hs hyg hxg hyx
      intro t1 h1
      apply wp_bind_of
      apply wp_modifyPage_st h1 (g := ppg)
        (by simp [TreeView.setPage, Function.update_noteq (Ne.symm hxP),
          Function.update_noteq (Ne.symm hyP), hpp])
      intro t2 h2
      rw [hidx] at h2
      have h3 := St.congr h2 (sib_of_setPages ey.2 _ _ _ hyx).1
      have hlx0 : G.lvl ex.2 = 0 := by
        have := cy.lvl
        have := cx.lvl
        omega
      refine fin [] _ t2 h3 (Merged_sib hg ha hpp (fun c hc => by cases hc) hmerge.1 hmerge.2
        hgy.id hgx.id hnode) ⟨by simp [leafMerged], rfl, rfl,
        (hgx.leaf_type hlx0).2.trans (hgy.leaf_type hly).2.symm,
        (hgx.leaf_type hlx0).1.trans (hgy.leaf_type hly).1.symm,
        fun h => List.length_pos.2 (hgy.leaf_ne hly h),
        fun h => List.length_pos.2 (hgx.leaf_ne hlx0 h)⟩
    simp only [if_true]
    rcases hcase with ⟨h1, _, h3, h4⟩ | ⟨h1, h3, h4⟩
    · rw [if_pos h1, h3, h4]; exact hmv
    · rw [if_neg (by omega), h3, h4]; exact hmv
  | false =>
    have hly : G.lvl ey.2 ≠ 0 := fun h => by
      have := hleaf.2 h
      cases this
    obtain ⟨_, _, hlx0, hlx, sy, sx, hky, hkx⟩ := int_sib_facts hg ha hpp hyg hxg hly
    have hmerge := Good_mergeInt hg ha hpp hyg hxg hly hE
    have hcs : ∀ c ∈ xg.array.map Prod.snd,
        G.live c ∧ (G.par c = ex.2 ∨ G.par c = ey.2) := by
      intro c hc
      obtain ⟨e, he, rfl⟩ := List.mem_map.1 hc
      exact ⟨(hkx e he).1, Or.inl (hkx e he).2.1⟩
    have hall : ∀ x ∈ xg.array, x.2 ≠ ey.2 ∧ x.2 ≠ ex.2 ∧ ∃ cpg, a.pages x.2 = some cpg := by
      intro x hx
      obtain ⟨c1, c2, c3⟩ := hkx x hx
      obtain ⟨cpg, hcpg, _⟩ := hg.page _ c1
      exact ⟨fun h => by rw [h] at c3; omega, fun h => by rw [h] at c3; omega, cpg, hcpg⟩
    have hmv : wp (MoveAllToInternal ex.2 ey.2 ex.1) (fun _ t => wp (do
        modifyPage P (fun p => p.Remove (if idx = 0 then 1 else idx))
        let parent_data ← getPage P
        pure (decide (parent_data.GetSize < parent_data.GetMinSize))) Q t) s := by
      apply MoveAllToInternal_spec ex.1 hs hyg hxg hyx hgy.id hall
      intro t1 h1
      have hPc : P ∉ xg.array.map Prod.snd := fun h => (sib_cs_facts hg ha hpp hcs P h).2.2.2.1 rfl
      apply wp_bind_of
      apply wp_modifyPage_st h1 (g := ppg)
        (by simp [TreeView.setPage, copyView, reparent, hPc,
          Function.update_noteq (Ne.symm hxP), Function.update_noteq (Ne.symm hyP), hpp])
      intro t2 h2
      rw [hidx] at h2
      have h3 := St.congr h2 (sib_of_copy yg _ _ _ xg.array hyx hyP hxP)
      refine fin _ _ t2 h3 (Merged_sib hg ha hpp hcs hmerge.1 hmerge.2 ?_ hgx.id hnode)
        ⟨by simp [intMerged, BPlusTreePage.SetKeyAt], rfl, rfl,
        (hgx.int_type hlx0).2.trans (hgy.int_type hly).2.symm,
        (hgx.int_type hlx0).1.trans (hgy.int_type hly).1.symm,
        fun h => lt_of_lt_of_le (by decide) (hgy.int_size hly h),
        fun h => lt_of_lt_of_le (by decide) (hgx.int_size hlx0 h)⟩
      exact hgy.id
    simp only [Bool.false_eq_true, if_false]
    apply wp_bind_of
    apply wp_getPage_st hs hpp
    rcases hcase with ⟨h1, h2, h3, h4⟩ | ⟨h1, h3, h4⟩
    · rw [if_pos h1]
      apply wp_bind_of
      rw [wp_ofOption]
      refine ⟨ex, ?_, ?_⟩
      · have := ha.slotX
        rw [h2] at this
        simp [BPlusTreePage.slot?, this]
      · rw [h3, h4]; exact hmv
    · rw [if_neg (by omega)]
      apply wp_bind_of
      rw [wp_ofOption]
      refine ⟨ex, ?_, ?_⟩
      · rw [h1, slot_nat]; exact ha.slotX
      · rw [h3, h4]; exact hmv

/-- Method `Coalesce`: the right sibling `X` is emptied into the left sibling `Y`; `idx` is
the index the method is called with, the slot of the page handed to
`CoalesceOrRedistribute`. -/
theorem Coalesce_spec {s : TState} {a : TreeView} {G : Ghost} {E : Option Int}
    {h : Multiset Int} {b : Bool} {P : Int} {ppg yg xg : BPlusTreePage} {j : Nat}
    {ey ex : KeyType × Int} (isLeaf : Bool) (hs : St s a h b)
    (hg : Good a G E) (ha : Adjacent G P ppg j ey ex) (hpp : a.pages P = some ppg)
    (hyg : a.pages ey.2 = some yg) (hxg : a.pages ex.2 = some xg)
    (hleaf : isLeaf = true ↔ G.lvl ey.2 = 0) (hE : ∀ p, E = some p → p = ey.2 ∨ p = ex.2)
    {neighbor node : Int} {idx : Nat}
    (hcase : (idx = 0 ∧ j = 0 ∧ neighbor = ex.2 ∧ node = ey.2) ∨
      (idx = j + 1 ∧ neighbor = ey.2 ∧ node = ex.2))
    {Q : Bool → TState → Prop}
    (hq : ∀ t a1 G1, St t a1 h b → Merged a G node P ppg a1 G1 → ¬ G1.live ex.2 →
      (G1.live ey.2) → a1.pages ex.2 ≠ none →
      Q (decide (ppg.array.length - 1 < ppg.GetMinSize)) t) :
    wp (Coalesce isLeaf neighbor node P idx) Q s :=
  Coalesce_occ isLeaf hs hg ha hpp hyg hxg hleaf hE hcase
    (fun t a1 G1 h1 h2 h3 h4 h5 _ => hq t a1 G1 h1 h2 h3 h4 h5)

/-- The coalesce branch of `CoalesceOrRedistribute` up to the handling of the sibling;
the occupancy invariant holds afterwards, but for the parent, when it held but for the page
and the two siblings fit into one page. -/
theorem CoalesceWith_occ {s : TState} {a : TreeView} {G : Ghost}
    {h : Multiset Int} {b : Bool} {P page : Int} {ppg yg xg : BPlusTreePage} {j i : Nat}
    {ey ex : KeyType × Int} {rest : List Int} (isLeaf : Bool)
    (hs : St s a (page ::ₘ (((P :: rest : List Int) : Multiset Int) + h)) b)
    (hg : Good a G (some page)) (ha : Adjacent G P ppg j ey ex) (hpp : a.pages P = some ppg)
    (hyg : a.pages ey.2 = some yg) (hxg : a.pages ex.2 = some xg)
    (hleaf : isLeaf = true ↔ G.lvl page = 0)
    (hcase : (i = 0 ∧ j = 0 ∧ page = ey.2) ∨ (i = j + 1 ∧ page = ex.2))
    {Q : Bool → TState → Prop}
    (hq : ∀ t a1 G1, St t a1 (page ::ₘ (((P :: rest : List Int) : Multiset Int) + h)) b →
      Merged a G page P ppg a1 G1 → (i ≠ 0 → ¬ G1.live page) →
      (Occ a (some page) → yg.array.length + xg.array.length ≤ yg.max_size_ →
        Occ a1 (some P)) →
      Q (decide (ppg.array.length - 1 < ppg.GetMinSize)) t) :
    wp (CoalesceWith isLeaf page P ppg i) Q s := by
  obtain ⟨cy, cx, hyx, hyP, hxP, hyr, hxr, _⟩ := adjacent_facts hg ha hpp
  have l1 := cy.lvl
  have l2 := cx.lvl
  have hlp : G.lvl page = G.lvl ey.2 := by
    rcases hcase with ⟨_, _, h⟩ | ⟨_, h⟩
    · rw [h]
    · rw [h]; omega
  have hleaf2 : isLeaf = true ↔ G.lvl ey.2 = 0 := by rw [← hlp]; exact hleaf
  have hE : ∀ p, some page = some p → p = ey.2 ∨ p = ex.2 := by
    intro p hp
    have := (Option.some.inj hp).symm
    rcases hcase with ⟨_, _, h⟩ | ⟨_, h⟩
    · exact Or.inl (by rw [this, h])
    · exact Or.inr (by rw [this, h])
  unfold CoalesceWith
  rcases hcase with ⟨h1, h2, h3⟩ | ⟨h1, h3⟩
  · subst h1
    apply wp_bind_of
    rw [wp_ofOption]
    refine ⟨ex, ?_, ?_⟩
    · have := ha.slotX
      rw [h2] at this
      simp [BPlusTreePage.slot?, this]
    apply wp_bind_of
    apply wp_FetchPage_st hs hxg
    intro t1 h1
    apply wp_bind_of
    apply wp_WLatch_st h1
    intro t2 h2b
    apply wp_bind_of
    apply Coalesce_occ isLeaf h2b hg ha hpp hyg hxg hleaf2 hE (Or.inl ⟨rfl, h2, rfl, h3⟩)
    intro t3 a1 G1 h3b hm hnX hlY hres hocc3
    apply wp_bind_of
    apply wp_WUnlatch_st h3b
    intro t4 h4
    apply wp_bind_of
    apply wp_UnpinPage_st h4
    intro t5 h5
    apply wp_bind_of
    rw [if_pos rfl]
    apply wp_bind_of
    apply wp_AddIntoDeletedPageSet_st h5
    intro t6 h6
    apply wp_bind_of
    apply wp_DeletePage_any h6
    · intro _ t7 h7
      rw [wp_pure, wp_pure]
      exact hq t7 _ G1 h7 (hm.dropPage cx.live hnX (by rw [h3]; omega)
        (by rw [h3]; exact Ne.symm hyx) (by rw [h3]; omega)) (fun h => absurd rfl h)
        (fun hocc hfit => Occ_delPage (hocc3 hocc (Or.inl (by rw [h3])) hfit) _)
    · intro _ _ t7 h7
      rw [wp_pure, wp_pure]
      exact hq t7 _ G1 h7 hm (fun h => absurd rfl h)
        (fun hocc hfit => hocc3 hocc (Or.inl (by rw [h3])) hfit)
  · apply wp_bind_of
    rw [wp_ofOption]
    refine ⟨ey, ?_, ?_⟩
    · rw [if_neg (by omega), slot_pred _ (by omega), h1]
      simpa using ha.slotY
    apply wp_bind_of
    apply wp_FetchPage_st hs hyg
    intro t1 h1b
    apply wp_bind_of
    apply wp_WLatch_st h1b
    intro t2 h2b
    apply wp_bind_of
    apply Coalesce_occ isLeaf h2b hg ha hpp hyg hxg hleaf2 hE (Or.inr ⟨h1, rfl, h3⟩)
    intro t3 a1 G1 h3b hm hnX hlY hres hocc3
    apply wp_bind_of
    apply wp_WUnlatch_st h3b
    intro t4 h4
    apply wp_bind_of
    apply wp_UnpinPage_st h4
    intro t5 h5
    apply wp_bind_of
    rw [if_neg (by omega), wp_pure, wp_pure]
    exact hq t5 a1 G1 h5 hm (fun _ => by rw [h3]; exact hnX)
      (fun hocc hfit => hocc3 hocc (Or.inr (by rw [h3])) hfit)

/-- The coalesce branch of `CoalesceOrRedistribute` up to the handling of the sibling. -/
theorem CoalesceWith_spec {s : TState} {a : TreeView} {G : Ghost}
    {h : Multiset Int} {b : Bool} {P page : Int} {ppg yg xg : BPlusTreePage} {j i : Nat}
    {ey ex : KeyType × Int} {rest : List Int} (isLeaf : Bool)
    (hs : St s a (page ::ₘ (((P :: rest : List Int) : Multiset Int) + h)) b)
    (hg : Good a G (some page)) (ha : Adjacent G P ppg j ey ex) (hpp : a.pages P = some ppg)
    (hyg : a.pages ey.2 = some yg) (hxg : a.pages ex.2 = some xg)
    (hleaf : isLeaf = true ↔ G.lvl page = 0)
    (hcase : (i = 0 ∧ j = 0 ∧ page = ey.2) ∨ (i = j + 1 ∧ page = ex.2))
    (_ : ex.2 ∉ ((rest : Multiset Int) + h))
    {Q : Bool → TState → Prop}
    (hq : ∀ t a1 G1, St t a1 (page ::ₘ (((P :: rest : List Int) : Multiset Int) + h)) b →
      Merged a G page P ppg a1 G1 → (i ≠ 0 → ¬ G1.live page) →
      Q (decide (ppg.array.length - 1 < ppg.GetMinSize)) t) :
    wp (CoalesceWith isLeaf page P ppg i) Q s :=
  CoalesceWith_occ isLeaf hs hg ha hpp hyg hxg hleaf hcase
    (fun t a1 G1 h1 h2 h3 _ => hq t a1 G1 h1 h2 h3)

/-- A live page of a tree whose root is a leaf is the root. -/
theorem eq_root_of_leaf_root {a : TreeView} {G : Ghost} {E : Option Int} (hg : Good a G E)
    (h0 : G.lvl a.root = 0) {p : Int} (hp : G.live p) : p = a.root := by
  by_contra hne
  obtain ⟨h1, h2, _⟩ := parent_facts hg hp hne
  have := hg.lvl_le _ h1
  omega

/-- Method `AdjustRoot` on the root of the tree; the occupancy invariant is kept. -/
theorem AdjustRoot_occ {s : TState} {a : TreeView} {G : Ghost} {h : Multiset Int} {b : Bool}
    (hs : St s a h b) (hg : Good a G (some a.root)) (hroot : a.root ≠ INVALID_PAGE_ID)
    {Q : Bool → TState → Prop}
    (hq : ∀ t u H r, St t u h b → Good u H none → (∀ k w, Stored u H k w ↔ Stored a G k w) →
      (r = true → ¬ H.live a.root) → (∀ x, H.live x → G.live x) →
      Kept a u G (G.lvl a.root) → (u.root = INVALID_PAGE_ID → r = true ∧ G.lvl a.root = 0) →
      (u.root = INVALID_PAGE_ID ∨ H.live u.root ∧ (r = false → u.root = a.root)) →
      (Occ a (some a.root) → Occ u none) → Q r t) :
    wp (AdjustRoot a.root) Q s := by
  obtain ⟨hRl, hRlo, hRhi⟩ := hg.root_live hroot
  obtain ⟨rg, hrg, hgr⟩ := hg.page _ hRl
  unfold AdjustRoot
  apply wp_bind_of
  apply wp_getPage_st hs hrg
  by_cases hc1 : rg.IsLeafPage = true ∧ rg.GetSize = 0
  · rw [if_pos hc1]
    have h0 : G.lvl a.root = 0 := (isLeaf_iff hgr).1 hc1.1
    apply wp_bind_of
    apply wp_setRoot_st hs
    intro t1 h1
    apply wp_bind_of
    apply wp_FetchHeaderPage_st h1
    intro t2 h2
    apply wp_bind_of
    apply wp_WLatch_st h2
    intro t3 h3
    apply wp_bind_of
    rw [wp_modify]
    have h4 : St { t3 with header_record := none } (a.setRoot INVALID_PAGE_ID)
        (HEADER_PAGE_ID ::ₘ h) b := h3
    apply wp_bind_of
    apply wp_WUnlatch_st h4
    intro t5 h5
    apply wp_bind_of
    apply wp_UnpinPage_st h5
    intro t6 h6
    rw [wp_pure]
    refine hq t6 _ Ghost.empty true h6 (Good_emptied hg) ?_ (fun _ hl => hl)
      (fun x hx => hx.elim) ((Kept.same a G _).setRoot _) (fun _ => ⟨rfl, h0⟩) (Or.inl rfl)
      (fun hocc => Occ_emptied hocc (fun pg hpg => by
        rw [hrg] at hpg
        cases hpg
        exact hc1.2) (fun p hp => (Option.some.inj hp).symm))
    intro k w
    constructor
    · intro hst
      exact absurd hst (Stored_empty _ k w)
    · rintro ⟨p, pg, hp, hl, hpg, hm⟩
      have := eq_root_of_leaf_root hg h0 hp
      rw [this, hrg] at hpg
      cases hpg
      have hz : rg.array.length = 0 := hc1.2
      rw [List.length_eq_zero] at hz
      rw [hz] at hm
      cases hm
  · rw [if_neg hc1]
    by_cases hc2 : ¬ rg.IsLeafPage = true ∧ rg.GetSize = 1
    · rw [if_pos hc2]
      have hl : G.lvl a.root ≠ 0 := fun h => hc2.1 ((isLeaf_iff hgr).2 h)
      have hlen : rg.array.length = 1 := hc2.2
      obtain ⟨e, harr⟩ : ∃ e, rg.array = [e] := List.length_eq_one.1 hlen
      have hseg := hgr.int_seg hl
      rw [harr, Seg_single] at hseg
      obtain ⟨cg, hcg, hgc⟩ := hg.page _ hseg.live
      have hcR : e.2 ≠ a.root := fun h => by
        have := hseg.lvl
        rw [h] at this; omega
      apply wp_bind_of
      rw [wp_ofOption]
      refine ⟨e, by rw [slot_zero, harr]; rfl, ?_⟩
      apply wp_bind_of
      apply wp_modifyPage_st hs hrg
      intro t1 h1
      apply wp_bind_of
      apply wp_setRoot_st h1
      intro t2 h2
      apply wp_bind_of
      apply wp_FetchPage_st h2 (g := cg)
        (by simp [TreeView.setRoot, TreeView.setPage, Function.update_noteq hcR, hcg])
      intro t3 h3
      apply wp_bind_of
      apply wp_WLatch_st h3
      intro t4 h4
      apply wp_bind_of
      apply wp_modifyPage_st h4 (g := cg)
        (by simp [TreeView.setRoot, TreeView.setPage, Function.update_noteq hcR, hcg])
      intro t5 h5
      apply wp_bind_of
      apply wp_WUnlatch_st h5
      intro t6 h6
      apply wp_bind_of
      apply wp_UnpinPage_st h6
      intro t7 h7
      apply wp_bind_of
      apply wp_UpdateRootPageId_st false h7
      intro t8 h8
      rw [wp_pure]
      obtain ⟨g1, g2⟩ := Good_dropRoot hg hroot hrg hl harr hcg
      have hne : e.2 ≠ INVALID_PAGE_ID := live_ne_invalid hg hseg.live
      refine hq t8 (a.dropRoot a.root e.2 rg cg) (G.dropRoot a.root e.2) true h8 g1 g2
        (fun _ hl2 => hl2.1 rfl) (fun x hx => hx.2) ?_ (fun h0 => absurd h0 ?_)
        (Or.inr ⟨?_, fun h0 => by cases h0⟩)
        (fun hocc => Occ_dropRoot hocc hrg hcg (fun p hp => (Option.some.inj hp).symm))
      · exact (((Kept.same a G _).setPage (rg.SetSize 0) hgr.id).setRoot e.2).setPage
          (cg.SetParentPageId INVALID_PAGE_ID) hgc.id
      · show e.2 ≠ INVALID_PAGE_ID
        exact hne
      · exact ⟨hcR, hseg.live⟩
    · rw [if_neg hc2, wp_pure]
      refine hq s a G false hs (Good_exempt hg ?_) (fun _ _ => Iff.rfl)
        (fun h0 => by cases h0) (fun _ hx => hx) (Kept.same a G _)
        (fun h0 => absurd h0 hroot) (Or.inr ⟨hRl, fun _ => rfl⟩)
        (fun hocc => Occ_strict hocc (fun p pg hp _ hr => absurd (Option.some.inj hp).symm hr))
      intro p pg hp hpg hE _
      have hpR : p = a.root := (Option.some.inj hE).symm
      rw [hpR, hrg] at hpg
      cases hpg
      rw [hpR]
      constructor
      · intro h0 hnil
        apply hc1
        exact ⟨(isLeaf_iff hgr).2 h0, by
          show rg.array.length = 0
          rw [hnil]; rfl⟩
      · intro h0
        have hseg := hgr.int_seg h0
        have hne := Seg_ne_nil hseg
        have hpos := List.length_pos.2 hne
        have hn1 : ¬ rg.array.length = 1 := by
          intro h1
          apply hc2
          exact ⟨fun hl => h0 ((isLeaf_iff hgr).1 hl), h1⟩
        omega

/-- Method `AdjustRoot` on the root of the tree. -/
theorem AdjustRoot_spec {s : TState} {a : TreeView} {G : Ghost} {h : Multiset Int} {b : Bool}
    (hs : St s a h b) (hg : Good a G (some a.root)) (hroot : a.root ≠ INVALID_PAGE_ID)
    {Q : Bool → TState → Prop}
    (hq : ∀ t u H r, St t u h b → Good u H none → (∀ k w, Stored u H k w ↔ Stored a G k w) →
      (r = true → ¬ H.live a.root) → (∀ x, H.live x → G.live x) →
      Kept a u G (G.lvl a.root) → (u.root = INVALID_PAGE_ID → r = true ∧ G.lvl a.root = 0) →
      (u.root = INVALID_PAGE_ID ∨ H.live u.root ∧ (r = false → u.root = a.root)) →
      Q r t) :
    wp (AdjustRoot a.root) Q s :=
  AdjustRoot_occ hs hg hroot
    (fun t u H r h1 h2 h3 h4 h5 h6 h7 h8 _ => hq t u H r h1 h2 h3 h4 h5 h6 h7 h8)

theorem St.held {s : TState} {v : TreeView} {h h2 : Multiset Int} {b : Bool}
    (hs : St s v h b) (e : h = h2) : St s v h2 b := e ▸ hs

theorem CoRPostOcc.post {a : TreeView} {G : Ghost} {page : Int} {queue : List Int}
    {h : Multiset Int} {b : Bool} {F : Prop} {r : Bool × List Int} {t : TState}
    (hp : CoRPostOcc a G page queue h b F r t) : CoRPost a G page queue h b r t := by
  obtain ⟨u, H, h1, h2, h3, h4, h5, h6, h7, h8, _⟩ := hp
  exact ⟨u, H, h1, h2, h3, h4, h5, h6, h7, h8⟩

theorem CoRPost.occ {a : TreeView} {G : Ghost} {page : Int} {queue : List Int}
    {h : Multiset Int} {b : Bool} {r : Bool × List Int} {t : TState}
    (hp : CoRPost a G page queue h b r t) : CoRPostOcc a G page queue h b False r t := by
  obtain ⟨u, H, h1, h2, h3, h4, h5, h6, h7, h8⟩ := hp
  exact ⟨u, H, h1, h2, h3, h4, h5, h6, h7, h8, fun hF => hF.elim⟩

theorem CoRSpecOcc.spec {queue : List Int} (hs : CoRSpecOcc queue) : CoRSpec queue :=
  fun isLeaf page s a G h b h1 h2 h3 h4 h5 h6 _ =>
    wp_mono (hs isLeaf page s a G h b h1 h2 h3 h4 h5 h6) (fun _ _ hp => hp.post)

theorem CoR_nil_occ : CoRSpecOcc [] := by
  intro isLeaf page s a G h b hs hg hl hleaf hq hunder
  have hpr : page = a.root := hq
  subst hpr
  have hroot := root_ne_of_live hg hl
  obtain ⟨pg, hpg, hgood⟩ := hg.page _ hl
  unfold CoalesceOrRedistribute
  apply wp_bind_of
  apply wp_getPage_st hs hpg
  have hir : pg.IsRootPage = true := by
    unfold BPlusTreePage.IsRootPage
    rw [hgood.parent, hgood.root_iff.2 rfl]
    simp
  rw [if_pos hir]
  apply wp_bind_of
  apply AdjustRoot_occ hs hg hroot
  intro t u H r h1 g1 g2 g3 g4 g5 g6 _ g8
  rw [wp_pure]
  exact ⟨u, H, h1, g1, g2, g3, fun x hx => hx, g4, g5,
    fun h0 => ⟨(g6 h0).1, rfl, (g6 h0).2⟩, fun _ hocc => g8 hocc⟩

theorem CoR_nil : CoRSpec [] := CoR_nil_occ.spec

theorem held_rec (page P : Int) (rest : List Int) (h : Multiset Int) :
    page ::ₘ page ::ₘ (((P :: rest : List Int) : Multiset Int) + h) =
      P ::ₘ ((rest : Multiset Int) + (page ::ₘ page ::ₘ h)) := by
  simp only [← Multiset.cons_coe, ← Multiset.singleton_add]
  abel

theorem held_rec2 (page P : Int) (r : List Int) (h : Multiset Int) :
    P ::ₘ ((r : Multiset Int) + (page ::ₘ page ::ₘ h)) =
      page ::ₘ P ::ₘ ((r : Multiset Int) + (page ::ₘ h)) := by
  simp only [← Multiset.singleton_add]
  abel

theorem held_rec3 (page : Int) (r : List Int) (h : Multiset Int) :
    (r : Multiset Int) + (page ::ₘ h) = page ::ₘ ((r : Multiset Int) + h) := by
  simp only [← Multiset.singleton_add]
  abel

theorem minSize_ge_two {pg : BPlusTreePage} (h : 3 ≤ pg.max_size_) : 2 ≤ pg.GetMinSize := by
  unfold BPlusTreePage.GetMinSize
  omega

/-- The statement `if (parent_delete) { ... DeletePage(parent_id); }` with the release of
the parent before it, whatever the pins held by others. -/
theorem releaseParent_any {s : TState} {u : TreeView} {H : Ghost} {P : Int}
    {hd : Multiset Int} {b : Bool} (r : Bool) (hs : St s u (P ::ₘ hd) b)
    (hdead : r = true → ¬ H.live P) (hg : Good u H none)
    {Q : Unit → TState → Prop}
    (hq : ∀ t w, St t w hd b → Good w H none → (∀ k v, Stored w H k v ↔ Stored u H k v) →
      w.root = u.root → (w = u ∨ w = u.delPage P) → Q () t) :
    wp (releaseParent P P r) Q s := by
  unfold releaseParent
  apply wp_bind_of
  apply wp_WUnlatch_st hs
  intro t1 h1
  apply wp_bind_of
  apply wp_UnpinPage_st h1
  intro t2 h2
  cases r with
  | true =>
    simp only [if_true]
    apply wp_bind_of
    apply wp_AddIntoDeletedPageSet_st h2
    intro t3 h3
    apply wp_bind_of
    apply wp_DeletePage_any h3
    · intro _ t4 h4
      rw [wp_pure]
      exact hq t4 _ h4 (Good_delPage hg (hdead rfl))
        (fun k v => Stored_delPage (hdead rfl) k v) rfl (Or.inr rfl)
    · intro _ _ t4 h4
      rw [wp_pure]
      exact hq t4 u h4 hg (fun _ _ => Iff.rfl) rfl (Or.inl rfl)
  | false =>
    simp only [Bool.false_eq_true, if_false]
    rw [wp_pure]
    exact hq t2 u h2 hg (fun _ _ => Iff.rfl) rfl (Or.inl rfl)

/-- The statement `if (parent_delete) { ... DeletePage(parent_id); }` with the release of
the parent before it. -/
theorem releaseParent_spec {s : TState} {u : TreeView} {H : Ghost} {P : Int}
    {hd : Multiset Int} {b : Bool} (r : Bool) (hs : St s u (P ::ₘ hd) b) (_ : P ∉ hd)
    (hdead : r = true → ¬ H.live P) (hg : Good u H none)
    {Q : Unit → TState → Prop}
    (hq : ∀ t w, St t w hd b → Good w H none → (∀ k v, Stored w H k v ↔ Stored u H k v) →
      w.root = u.root → (w = u ∨ w = u.delPage P) → Q () t) :
    wp (releaseParent P P r) Q s :=
  releaseParent_any r hs hdead hg hq

/-- The coalesce branch of `CoalesceOrRedistribute`, given what the call on the parent
achieves; the occupancy invariant holds afterwards when it held but for the page, the
two siblings fit into one page, and the call on the parent keeps it. -/
theorem CoalesceAndRecurse_occ {s : TState} {a : TreeView} {G : Ghost}
    {h : Multiset Int} {b : Bool} {P page : Int} {ppg yg xg : BPlusTreePage} {j i : Nat}
    {ey ex : KeyType × Int} {rest : List Int} (isLeaf : Bool)
    {recur : TM (Bool × List page_id_t)} {F : Prop}
    (hs : St s a (page ::ₘ (((P :: rest : List Int) : Multiset Int) + h)) b)
    (hg : Good a G (some page)) (ha : Adjacent G P ppg j ey ex) (hpp : a.pages P = some ppg)
    (hyg : a.pages ey.2 = some yg) (hxg : a.pages ex.2 = some xg)
    (hleaf : isLeaf = true ↔ G.lvl page = 0)
    (hcase : (i = 0 ∧ j = 0 ∧ page = ey.2) ∨ (i = j + 1 ∧ page = ex.2))
    (hrestlv : ∀ q ∈ rest, G.live q ∧ G.lvl P < G.lvl q)
    (hor : ((∃ pg, a.pages P = some pg ∧ safeFor false pg = true) ∧ rest = []) ∨
      PathQ a G false P rest)
    (hrec : ∀ t a1 G1, St t a1 (P ::ₘ ((rest : Multiset Int) + (page ::ₘ page ::ₘ h))) b →
      Good a1 G1 (some P) → G1.live P → G1.lvl P ≠ 0 → PathQ a1 G1 false P rest →
      (∀ pg, a1.pages P = some pg → pg.GetSize < pg.GetMinSize) →
      ((∀ x ∈ h, G.live x → G.lvl x < G.lvl page) →
        ∀ x ∈ page ::ₘ page ::ₘ h, G1.live x → G1.lvl x < G1.lvl P) →
      wp recur (CoRPostOcc a1 G1 P rest (page ::ₘ page ::ₘ h) b F) t) :
    wp (CoalesceAndRecurse isLeaf page P P ppg i rest recur)
      (CoRPostOcc a G page (P :: rest) h b
        (F ∧ yg.array.length + xg.array.length ≤ yg.max_size_)) s := by
  obtain ⟨cy, cx, hyx, hyP, hxP, hyr, hxr, _⟩ := adjacent_facts hg ha hpp
  have l1 := cy.lvl
  have l2 := cx.lvl
  have hPl := ha.liveP
  have hlp : G.lvl page = G.lvl ey.2 := by
    rcases hcase with ⟨_, _, h⟩ | ⟨_, h⟩
    · rw [h]
    · rw [h]; omega
  have hlvP : G.lvl P = G.lvl page + 1 := by omega
  have hrootne := root_ne_of_live hg hPl
  obtain ⟨pg0, hpg0, hgP⟩ := hg.page P hPl
  rw [hpp] at hpg0; cases hpg0
  have fin : ∀ (r : Bool × List Int) t u H,
      St t u (P ::ₘ ((r.2 : Multiset Int) + (page ::ₘ h))) b → Good u H none →
      (∀ k w, Stored u H k w ↔ Stored a G k w) → (r.1 = true → ¬ H.live P) →
      (∀ x ∈ r.2, x ∈ rest) → (∀ x, H.live x → G.live x) →
      (i ≠ 0 → ¬ H.live page) → Kept a u G (G.lvl page) →
      u.root ≠ INVALID_PAGE_ID →
      (F ∧ yg.array.length + xg.array.length ≤ yg.max_size_ → Occ a (some page) →
        Occ u none) →
      wp ((releaseParent P P r.1) >>= fun _ => pure (decide (i ≠ 0), r.2))
        (CoRPostOcc a G page (P :: rest) h b
          (F ∧ yg.array.length + xg.array.length ≤ yg.max_size_)) t := by
    intro r t u H h1 g1 g2 g3 g4 g5 g6 g7 g8 g9
    apply wp_bind_of
    apply releaseParent_any r.1 h1 g3 g1
    intro t2 w hw gw sw hwr hcases
    rw [wp_pure]
    refine ⟨w, H, hw.held (held_rec3 page r.2 h), gw, fun k v => (sw k v).trans (g2 k v), ?_,
      fun x hx => List.mem_cons_of_mem _ (g4 x hx), g5, ?_, fun h0 => absurd (hwr ▸ h0) g8,
      fun hF hocc => ?_⟩
    · intro hd
      exact g6 (by simpa using hd)
    · rcases hcases with h2 | h2
      · rw [h2]; exact g7
      · rw [h2]; exact g7.delPage hPl (by omega)
    · rcases hcases with h2 | h2
      · rw [h2]; exact g9 hF hocc
      · rw [h2]; exact Occ_delPage (g9 hF hocc) _
  unfold CoalesceAndRecurse
  apply wp_bind_of
  apply CoalesceWith_occ isLeaf hs hg ha hpp hyg hxg hleaf hcase
  intro t1 a1 G1 h1 hm hdead hocc1
  apply wp_bind_of
  by_cases hCR : ppg.array.length - 1 < ppg.GetMinSize
  · rw [if_pos (by simpa using hCR)]
    obtain ⟨pg2, hp2, hid2⟩ := hm.page_res
    apply wp_bind_of
    apply wp_getPage_st h1 hp2
    apply wp_bind_of
    rw [hid2]
    apply wp_FetchPage_st h1 hp2
    intro t2 h2
    apply wp_bind_of
    apply wp_WUnlatch_st h2
    intro t3 h3
    apply wp_bind_of
    have h3b := h3.held (held_rec page P rest h)
    have hPath : PathQ a1 G1 false P rest := by
      rcases hor with ⟨⟨pg0, hp0, hsafe⟩, _⟩ | hpq
      · exfalso
        rw [hpp] at hp0; cases hp0
        simp only [safeFor, Bool.false_eq_true, if_false, BPlusTreePage.IS_DELETE_SAFE,
          BPlusTreePage.GetSize, decide_eq_true_eq] at hsafe
        omega
      · exact PathQ_congr hm.root rest P hpq hPl
          (fun x hx hlx => ⟨(hm.up_live x hx hlx).1, (hm.up_live x hx hlx).2, hm.lvl_eq x⟩)
          (fun x hx hlx => hm.up_pages x hx hlx)
    have hlvP1 : G1.lvl P ≠ 0 := by rw [hm.lvl_eq]; omega
    refine wp_mono (hrec t3 a1 G1 h3b hm.good (hm.up_live P hPl (le_refl _)).1 hlvP1 hPath
      ?_ ?_) ?_
    · intro pg3 hpg3
      obtain ⟨qg, q1, q2, q3⟩ := hm.parent
      rw [q1] at hpg3; cases hpg3
      unfold BPlusTreePage.GetSize BPlusTreePage.GetMinSize
      unfold BPlusTreePage.GetMinSize at hCR
      rw [q3]
      omega
    · intro hh x hx hxl
      rw [hm.lvl_eq, hm.lvl_eq]
      rcases Multiset.mem_cons.1 hx with h4 | h4
      · rw [h4]; omega
      · rcases Multiset.mem_cons.1 h4 with h5 | h5
        · rw [h5]; omega
        · have := hh x h5 (hm.live_sub x hxl)
          omega
    · intro r t4 hpost
      obtain ⟨u, H, g1, g2, g3, g4, g5, g6, g7, g8, g9⟩ := hpost
      apply wp_bind_of
      apply wp_WLatch_st g1
      intro t5 h5
      obtain ⟨pg3, hp3, hid3⟩ := g7 page pg2 hp2 hid2
        (fun _ => by rw [hm.lvl_eq, hm.lvl_eq]; omega)
      apply wp_bind_of
      apply wp_getPage_st h5 hp3
      apply wp_bind_of
      rw [hid3]
      apply wp_UnpinPage_st (h5.held (held_rec2 page P r.2 h))
      intro t6 h6
      rw [wp_pure]
      refine fin r t6 u H h6 g2 (fun k w => (g3 k w).trans (hm.stored k w)) g4 g5
        (fun x hx => hm.live_sub x (g6 x hx)) (fun hi hl => hdead hi (g6 _ hl))
        (hm.kept.trans g7 (fun x hx => ⟨hm.live_sub x hx, hm.lvl_eq x⟩)
          (by rw [hm.lvl_eq]; omega)) ?_ (fun hF hocc => g9 hF.1 (hocc1 hocc hF.2))
      intro h0
      exact hlvP1 (g8 h0).2.2
  · rw [if_neg (by simpa using hCR), wp_pure]
    have hgood1 : Good a1 G1 none := by
      refine Good_exempt hm.good ?_
      intro p pg hp hpg hE _
      have hpP : p = P := (Option.some.inj hE).symm
      subst hpP
      obtain ⟨qg, q1, q2, q3⟩ := hm.parent
      rw [q1] at hpg; cases hpg
      constructor
      · intro h0
        rw [hm.lvl_eq] at h0
        omega
      · intro _
        have hmx : ppg.max_size_ = a.imax := (hgP.int_type ha.lvlP).2
        have := @minSize_ge_two ppg (by rw [hmx]; exact hg.imax_ge)
        omega
    refine fin (false, rest) t1 a1 G1 (h1.held (held_pop P page rest h) |>.held ?_) hgood1
      hm.stored (fun h0 => by cases h0) (fun x hx => hx) hm.live_sub hdead hm.kept
      (by rw [hm.root]; exact hrootne) (fun hF hocc => ?_)
    · simp only [← Multiset.singleton_add]
      abel
    · refine Occ_strict (hocc1 hocc hF.2) ?_
      intro p pg hp hpg _
      have hpP : p = P := (Option.some.inj hp).symm
      subst hpP
      obtain ⟨qg, q1, q2, q3⟩ := hm.parent
      rw [q1] at hpg; cases hpg
      have hlm := lowerOf_le_min pg
      unfold BPlusTreePage.GetMinSize at hCR
      rw [q3] at hlm
      omega

/-- The coalesce branch of `CoalesceOrRedistribute`, given what the call on the parent
achieves. -/
theorem CoalesceAndRecurse_spec {s : TState} {a : TreeView} {G : Ghost}
    {h : Multiset Int} {b : Bool} {P page : Int} {ppg yg xg : BPlusTreePage} {j i : Nat}
    {ey ex : KeyType × Int} {rest : List Int} (isLeaf : Bool)
    {recur : TM (Bool × List page_id_t)}
    (hs : St s a (page ::ₘ (((P :: rest : List Int) : Multiset Int) + h)) b)
    (hg : Good a G (some page)) (ha : Adjacent G P ppg j ey ex) (hpp : a.pages P = some ppg)
    (hyg : a.pages ey.2 = some yg) (hxg : a.pages ex.2 = some xg)
    (hleaf : isLeaf = true ↔ G.lvl page = 0)
    (hcase : (i = 0 ∧ j = 0 ∧ page = ey.2) ∨ (i = j + 1 ∧ page = ex.2))
    (hrestlv : ∀ q ∈ rest, G.live q ∧ G.lvl P < G.lvl q)
    (hh : ∀ x ∈ h, G.live x → G.lvl x < G.lvl page)
    (hor : ((∃ pg, a.pages P = some pg ∧ safeFor false pg = true) ∧ rest = []) ∨
      PathQ a G false P rest)
    (hrec : ∀ t a1 G1, St t a1 (P ::ₘ ((rest : Multiset Int) + (page ::ₘ page ::ₘ h))) b →
      Good a1 G1 (some P) → G1.live P → G1.lvl P ≠ 0 → PathQ a1 G1 false P rest →
      (∀ pg, a1.pages P = some pg → pg.GetSize < pg.GetMinSize) →
      (∀ x ∈ page ::ₘ page ::ₘ h, G1.live x → G1.lvl x < G1.lvl P) →
      wp recur (CoRPost a1 G1 P rest (page ::ₘ page ::ₘ h) b) t) :
    wp (CoalesceAndRecurse isLeaf page P P ppg i rest recur)
      (CoRPost a G page (P :: rest) h b) s := by
  refine wp_mono (CoalesceAndRecurse_occ (F := False) isLeaf hs hg ha hpp hyg hxg hleaf hcase
    hrestlv hor ?_) (fun _ _ hp => hp.post)
  intro t a1 G1 h1 h2 h3 h4 h5 h6 h7
  exact wp_mono (hrec t a1 G1 h1 h2 h3 h4 h5 h6 (h7 hh)) (fun _ _ hp => hp.occ)

theorem sib_resident {a : TreeView} {G : Ghost} {E : Option Int} (hg : Good a G E)
    {P : Int} {ppg : BPlusTreePage} {j : Nat} {ey ex : KeyType × Int}
    (ha : Adjacent G P ppg j ey ex) (hpp : a.pages P = some ppg) :
    ∃ yg xg, a.pages ey.2 = some yg ∧ a.pages ex.2 = some xg := by
  obtain ⟨cy, cx, _⟩ := adjacent_facts hg ha hpp
  obtain ⟨yg, hyg, _⟩ := hg.page _ cy.live
  obtain ⟨xg, hxg, _⟩ := hg.page _ cx.live
  exact ⟨yg, xg, hyg, hxg⟩

theorem slot_exists {α : Type} (l : List α) {i : Nat} (h : i < l.length) :
    ∃ x, l[i]? = some x :=
  ⟨l[i], List.getElem?_eq_getElem h⟩

/-- The three ways the sibling tests of `CoalesceOrRedistribute` can come out. -/
theorem sib_scenarios {a : TreeView} {G : Ghost} {E : Option Int} (hg : Good a G E)
    {P : Int} (pg : BPlusTreePage) {ppg : BPlusTreePage} {i : Nat} {e : KeyType × Int}
    (hPl : G.live P) (hlv : G.lvl P ≠ 0) (hpp : a.pages P = some ppg)
    (hei : ppg.array[i]? = some e)
    (hlen : 2 ≤ ppg.array.length) :
    (∃ j ey yg, i = j + 1 ∧ Adjacent G P ppg j ey e ∧ a.pages ey.2 = some yg ∧
      ¬ (yg.GetSize + pg.GetSize ≤ pg.GetMaxSize)) ∨
    (LeftFits a pg ppg i ∧ ∃ ex xg, Adjacent G P ppg i e ex ∧ a.pages ex.2 = some xg ∧
      ¬ (xg.GetSize + pg.GetSize ≤ pg.GetMaxSize)) ∨
    (LeftFits a pg ppg i ∧ RightFits a pg ppg i ∧
      ∃ j ey ex yg xg, Adjacent G P ppg j ey ex ∧ a.pages ey.2 = some yg ∧
        a.pages ex.2 = some xg ∧
        ((i = 0 ∧ j = 0 ∧ e.2 = ey.2) ∨ (i = j + 1 ∧ e.2 = ex.2))) := by
  have hil : i < ppg.array.length := by
    by_contra hc
    rw [List.getElem?_eq_none (by omega)] at hei
    cases hei
  rcases Nat.eq_zero_or_pos i with hi0 | hipos
  · subst hi0
    obtain ⟨ex, hex⟩ := slot_exists ppg.array (i := 1) (by omega)
    have ha : Adjacent G P ppg 0 e ex := ⟨hPl, hlv, hei, hex⟩
    obtain ⟨yg, xg, hyg, hxg⟩ := sib_resident hg ha hpp
    by_cases hfit : xg.GetSize + pg.GetSize ≤ pg.GetMaxSize
    · exact Or.inr (Or.inr ⟨Or.inl rfl, Or.inr ⟨ex, xg, hex, hxg, hfit⟩,
        0, e, ex, yg, xg, ha, hyg, hxg, Or.inl ⟨rfl, rfl, rfl⟩⟩)
    · exact Or.inr (Or.inl ⟨Or.inl rfl, ex, xg, ha, hxg, hfit⟩)
  · obtain ⟨j, hj⟩ : ∃ j, i = j + 1 := ⟨i - 1, by omega⟩
    subst hj
    obtain ⟨ey, hey⟩ := slot_exists ppg.array (i := j) (by omega)
    have ha : Adjacent G P ppg j ey e := ⟨hPl, hlv, hey, hei⟩
    obtain ⟨yg, xg, hyg, hxg⟩ := sib_resident hg ha hpp
    by_cases hfitL : yg.GetSize + pg.GetSize ≤ pg.GetMaxSize
    · have hL : LeftFits a pg ppg (j + 1) := Or.inr ⟨ey, yg, by simpa using hey, hyg, hfitL⟩
      by_cases hr : j + 1 + 1 < ppg.GetSize
      · obtain ⟨ex, hex⟩ := slot_exists ppg.array (i := j + 1 + 1) hr
        have ha2 : Adjacent G P ppg (j + 1) e ex := ⟨hPl, hlv, hei, hex⟩
        obtain ⟨_, xg2, _, hxg2⟩ := sib_resident hg ha2 hpp
        by_cases hfitR : xg2.GetSize + pg.GetSize ≤ pg.GetMaxSize
        · exact Or.inr (Or.inr ⟨hL, Or.inr ⟨ex, xg2, hex, hxg2, hfitR⟩,
            j, ey, e, yg, xg, ha, hyg, hxg, Or.inr ⟨rfl, rfl⟩⟩)
        · exact Or.inr (Or.inl ⟨hL, ex, xg2, ha2, hxg2, hfitR⟩)
      · exact Or.inr (Or.inr ⟨hL, Or.inl hr,
          j, ey, e, yg, xg, ha, hyg, hxg, Or.inr ⟨rfl, rfl⟩⟩)
    · exact Or.inl ⟨j, ey, yg, rfl, ha, hyg, hfitL⟩

/-- Two adjacent siblings have the same capacity. -/
theorem sib_same_max {a : TreeView} {G : Ghost} {E : Option Int} (hg : Good a G E)
    {P : Int} {ppg : BPlusTreePage} {j : Nat} {ey ex : KeyType × Int}
    (ha : Adjacent G P ppg j ey ex) (hpp : a.pages P = some ppg)
    {yg xg : BPlusTreePage} (hyg : a.pages ey.2 = some yg) (hxg : a.pages ex.2 = some xg) :
    xg.max_size_ = yg.max_size_ := by
  obtain ⟨cy, cx, _⟩ := adjacent_facts hg ha hpp
  obtain ⟨pg1, hpg1, hgx⟩ := hg.page _ cx.live
  rw [hxg] at hpg1; cases hpg1
  obtain ⟨pg2, hpg2, hgy⟩ := hg.page _ cy.live
  rw [hyg] at hpg2; cases hpg2
  have l1 := cy.lvl
  have l2 := cx.lvl
  by_cases h0 : G.lvl ey.2 = 0
  · have h1 : G.lvl ex.2 = 0 := by omega
    exact (hgx.leaf_type h1).2.trans (hgy.leaf_type h0).2.symm
  · have h1 : G.lvl ex.2 ≠ 0 := by omega
    exact (hgx.int_type h1).2.trans (hgy.int_type h0).2.symm

/-- One level of `CoalesceOrRedistribute`, given the call on the parent, with the
occupancy invariant. -/
theorem CoR_cons_occ (P : Int) (rest : List Int) (IH : CoRSpecOcc rest) :
    CoRSpecOcc (P :: rest) := by
  intro isLeaf page s a G h b hs hg hl hleaf hpq hunder
  obtain ⟨hr, hpar, hPl, hlvP, hor⟩ := hpq
  obtain ⟨_, _, pg, ppg, hpg, hpp, hgpg, hgP, hlen, hnr, hPid, hpid, i, e, hei, he, hvi⟩ :=
    under_facts hg hl hr hpar
  subst he
  have hrootne := root_ne_of_live hg hPl
  have hrestlv : ∀ q ∈ rest, G.live q ∧ G.lvl P < G.lvl q := by
    rcases hor with ⟨_, h0⟩ | hpq
    · rw [h0]; intro q hq; cases hq
    · exact PathQ_lvl rest P hpq
  have hun := hunder pg hpg
  have hsc := sib_scenarios hg pg hPl (by omega) hpp hei hlen
  unfold CoalesceOrRedistribute
  apply wp_bind_of
  apply wp_getPage_st hs hpg
  rw [if_neg (by simp [hnr])]
  apply wp_bind_of
  apply wp_getPage_st hs hpp
  apply wp_bind_of
  rw [wp_ofOption]
  refine ⟨i, by rw [hpid]; exact hvi, ?_⟩
  apply wp_bind_of
  rcases hsc with ⟨j, ey, yg, hij, ha, hyg, hfit⟩ | ⟨hL, ex, xg, ha, hxg, hfit⟩ |
    ⟨hL, hR, j, ey, ex, yg, xg, ha, hyg, hxg, hcase⟩
  · subst hij
    apply findRedistributeSibling_specL hs (Nat.succ_pos j) (by simpa using ha.slotY) hyg hfit
    intro t1 h1
    show wp (RedistributeWith isLeaf ey.2 e.2 P ppg.page_id_ ((j + 1 : Nat) : Int) >>=
      fun _ => pure (false, rest)) _ t1
    apply wp_bind_of
    apply RedistributeWith_left_occ isLeaf h1 hg ha hpp hyg hpg hleaf hun hfit
    intro t2 u H h2 g1 g2 g3 g4 g5 g6 g7
    rw [wp_pure]
    exact ⟨u, H, h2, g1, g2, (fun h0 => by cases h0), fun x hx => List.mem_cons_of_mem _ hx,
      g4, g5, fun h0 => absurd (g6 ▸ h0) hrootne, fun _ hocc => g7 hocc⟩
  · apply findRedistributeSibling_specR hs hL ha.slotX hxg hfit
    intro t1 h1
    show wp (RedistributeWith isLeaf ex.2 e.2 P ppg.page_id_ (-((i : Int) + 1)) >>=
      fun _ => pure (false, rest)) _ t1
    apply wp_bind_of
    apply RedistributeWith_right_occ isLeaf h1 hg ha hpp hpg hxg hleaf hun hfit
    intro t2 u H h2 g1 g2 g3 g4 g5 g6 g7
    rw [wp_pure]
    exact ⟨u, H, h2, g1, g2, (fun h0 => by cases h0), fun x hx => List.mem_cons_of_mem _ hx,
      g4, g5, fun h0 => absurd (g6 ▸ h0) hrootne, fun _ hocc => g7 hocc⟩
  · apply findRedistributeSibling_specN hs hL hR
    intro t1 h1
    show wp (CoalesceAndRecurse isLeaf e.2 P ppg.page_id_ ppg i rest
      (CoalesceOrRedistribute false P rest)) _ t1
    rw [hPid]
    have hsame := sib_same_max hg ha hpp hyg hxg
    have hfit : yg.array.length + xg.array.length ≤ yg.max_size_ := by
      rcases hcase with ⟨c1, c2, c3⟩ | ⟨c1, c3⟩
      · rw [c3, hyg] at hpg
        cases hpg
        rcases hR with hR | ⟨ex2, xg2, r1, r2, r3⟩
        · exfalso
          apply hR
          have := (List.getElem?_eq_some_iff.1 ha.slotX).1
          rw [c1]
          unfold BPlusTreePage.GetSize
          omega
        · rw [c1, ← c2, ha.slotX] at r1
          cases r1
          rw [hxg] at r2
          cases r2
          unfold BPlusTreePage.GetSize BPlusTreePage.GetMaxSize at r3
          omega
      · rw [c3, hxg] at hpg
        cases hpg
        rcases hL with hL | ⟨ey2, yg2, r1, r2, r3⟩
        · omega
        · rw [c1, Nat.add_sub_cancel, ha.slotY] at r1
          cases r1
          rw [hyg] at r2
          cases r2
          unfold BPlusTreePage.GetSize BPlusTreePage.GetMaxSize at r3
          omega
    refine wp_mono (CoalesceAndRecurse_occ (F := True) isLeaf h1 hg ha hpp hyg hxg hleaf hcase
      hrestlv hor ?_) ?_
    · intro t a1 G1 hs1 hg1 hl1 hlv1 hp1 hu1 _
      exact IH false P t a1 G1 _ b hs1 hg1 hl1
        ⟨fun h0 => (by cases h0), fun h0 => absurd h0 hlv1⟩ hp1 hu1
    · rintro r t ⟨u, H, g1, g2, g3, g4, g5, g6, g7, g8, g9⟩
      exact ⟨u, H, g1, g2, g3, g4, g5, g6, g7, g8, fun _ hocc => g9 ⟨trivial, hfit⟩ hocc⟩

/-- Method `CoalesceOrRedistribute` restores the invariant at an underflowing page, and
the occupancy invariant with it. -/
theorem CoalesceOrRedistribute_occ : ∀ queue : List Int, CoRSpecOcc queue := by
  intro queue
  induction queue with
  | nil => exact CoR_nil_occ
  | cons P rest ih => exact CoR_cons_occ P rest ih

/-- One level of `CoalesceOrRedistribute`, given the call on the parent. -/
theorem CoR_cons (P : Int) (rest : List Int) (_ : CoRSpec rest) : CoRSpec (P :: rest) :=
  (CoalesceOrRedistribute_occ (P :: rest)).spec

/-- Method `CoalesceOrRedistribute` restores the invariant at an underflowing page. -/
theorem CoalesceOrRedistribute_spec : ∀ queue : List Int, CoRSpec queue :=
  fun queue => (CoalesceOrRedistribute_occ queue).spec

/-- The end of `Remove`: the leaf is released, and deleted when asked for; the occupancy
invariant is kept. -/
theorem releaseLeaf_occ {s : TState} {u : TreeView} {H : Ghost} {P : Int}
    {hd : Multiset Int} {b : Bool} (r : Bool) (hs : St s u (P ::ₘ hd) b)
    (hdead : r = true → ¬ H.live P) (hg : Good u H none)
    {Q : Unit → TState → Prop}
    (hq : ∀ t w, St t w hd b → Good w H none → (∀ k v, Stored w H k v ↔ Stored u H k v) →
      w.root = u.root → (r = true → P ∉ hd → w.pages P = none) →
      (∀ E, Occ u E → Occ w E) → Q () t) :
    wp (releaseLeaf P P r) Q s := by
  unfold releaseLeaf
  apply wp_bind_of
  apply wp_WUnlatch_st hs
  intro t1 h1
  apply wp_bind_of
  apply wp_UnpinPage_st h1
  intro t2 h2
  cases r with
  | true =>
    simp only [if_true]
    apply wp_bind_of
    apply wp_AddIntoDeletedPageSet_st h2
    intro t3 h3
    apply wp_bind_of
    apply wp_DeletePage_any h3
    · intro _ t4 h4
      rw [wp_pure]
      exact hq t4 _ h4 (Good_delPage hg (hdead rfl))
        (fun k v => Stored_delPage (hdead rfl) k v)
        rfl (fun _ _ => by simp [TreeView.delPage]) (fun _ ho => Occ_delPage ho _)
    · intro hmem _ t4 h4
      rw [wp_pure]
      exact hq t4 u h4 hg (fun _ _ => Iff.rfl) rfl (fun _ hn => absurd hmem hn)
        (fun _ ho => ho)
  | false =>
    simp only [Bool.false_eq_true, if_false]
    rw [wp_pure]
    exact hq t2 u h2 hg (fun _ _ => Iff.rfl) rfl (fun h0 => by cases h0) (fun _ ho => ho)

/-- The end of `Remove`: the leaf is released, and deleted when asked for. -/
theorem releaseLeaf_spec {s : TState} {u : TreeView} {H : Ghost} {P : Int}
    {hd : Multiset Int} {b : Bool} (r : Bool) (hs : St s u (P ::ₘ hd) b) (hP : P ∉ hd)
    (hdead : r = true → ¬ H.live P) (hg : Good u H none)
    {Q : Unit → TState → Prop}
    (hq : ∀ t w, St t w hd b → Good w H none → (∀ k v, Stored w H k v ↔ Stored u H k v) →
      w.root = u.root → (r = true → w.pages P = none) → Q () t) :
    wp (releaseLeaf P P r) Q s :=
  releaseLeaf_occ r hs hdead hg
    (fun t w h1 h2 h3 h4 h5 _ => hq t w h1 h2 h3 h4 (fun hr => h5 hr hP))

/-- Method `Remove`, whatever the pins held by others: the tree stays well formed and loses
exactly the pairs of `key`, and the pins are as before; when no page of the tree is pinned by
somebody else and the tree becomes empty, the page that was the root is deleted from the
pool.  The occupancy invariant is kept. -/
theorem Remove_occ (key : KeyType) (s : TState) {v : TreeView}
    {G : Ghost} {h : Multiset Int} {b : Bool} (hs : St s v h b) (hg : Good v G none) :
    wp (Remove key)
      (fun _ t => ∃ u H, St t u h false ∧ Good u H none ∧
        (∀ k w, Stored u H k w ↔ Stored v G k w ∧ k ≠ key) ∧
        ((∀ p ∈ h, ¬ G.live p) → u.root = INVALID_PAGE_ID → v.root ≠ INVALID_PAGE_ID →
          u.pages v.root = none) ∧
        (Occ v none → Occ u none)) s := by
  unfold Remove
  apply wp_bind_of
  by_cases hroot : v.root = INVALID_PAGE_ID
  · apply LatchCrabbing_empty_spec _ key s hs hroot
    intro t1 h1
    simp only
    apply wp_unlockRootIf_st h1
    intro t2 h2
    refine ⟨v, G, h2, hg, ?_, fun _ _ h0 => absurd hroot h0, fun hocc => hocc⟩
    intro k w
    constructor
    · rintro ⟨p, _, hp, _⟩
      exact absurd hp (hg.root_none hroot p)
    · rintro ⟨⟨p, _, hp, _⟩, _⟩
      exact absurd hp (hg.root_none hroot p)
  · have hcrab := LatchCrabbing_write_spec false key s hs hg hroot
    simp only [Bool.false_eq_true, if_false] at hcrab
    refine wp_mono hcrab ?_
    rintro r t1 ⟨leaf, hr1, h1, hl, hlv, hk, hq, _⟩
    rw [hr1]
    simp only
    obtain ⟨pg, hpg, hgood⟩ := hg.page leaf hl
    have hqlv := PathQ_lvl r.2.1 leaf hq
    apply wp_bind_of
    apply wp_getPage_st h1 hpg
    apply wp_bind_of
    apply wp_modifyPage_st h1 hpg
    intro t2 h2
    have hp2 : (v.setPage leaf (pg.RemoveAndDeleteRecord key)).pages leaf =
        some (pg.RemoveAndDeleteRecord key) := by simp [TreeView.setPage]
    apply wp_bind_of
    apply wp_getPage_st h2 hp2
    have hg1 := Good_RemoveLeaf hg key hl hlv hpg
    have hocc1 : Occ v none → Occ (v.setPage leaf (pg.RemoveAndDeleteRecord key))
        (some leaf) := by
      intro hocc
      refine Occ_less hocc hpg (List.length_pos.2 (hgood.leaf_ne hlv (by simp))) ?_ ?_ rfl rfl
      · show pg.array.length ≤ (pg.array.eraseP _).length + 1
        rw [List.length_eraseP]
        split <;> omega
      · exact List.length_eraseP_le _
    have hst1 := Stored_RemoveLeaf hg hl hlv hpg hk
    rw [hgood.id]
    have hnot : (∀ p ∈ h, ¬ G.live p) → ∀ (q : List Int), (∀ x ∈ q, x ∈ r.2.1) →
        leaf ∉ (q : Multiset Int) + h := by
      intro hh q hsub hmem
      rcases Multiset.mem_add.1 hmem with h3 | h3
      · have := (hqlv leaf (hsub leaf (by simpa using h3))).2
        omega
      · exact hh leaf h3 hl
    apply wp_bind_of
    by_cases hunder : (pg.RemoveAndDeleteRecord key).GetSize <
        (pg.RemoveAndDeleteRecord key).GetMinSize
    · rw [if_pos hunder]
      have hq1 : PathQ (v.setPage leaf (pg.RemoveAndDeleteRecord key)) G false leaf r.2.1 := by
        apply PathQ_congr (t := v) (G := G) ?_ r.2.1 leaf hq hl
        · intro x hx _
          exact ⟨hx, rfl, rfl⟩
        · intro x hx hlx
          have hxl : x ≠ leaf := fun h0 => by rw [h0] at hlx; omega
          simp [TreeView.setPage, Function.update_noteq hxl]
        · rfl
      refine wp_mono (CoalesceOrRedistribute_occ r.2.1 true leaf t2 _ G h r.2.2 h2 hg1 hl
        ⟨fun _ => hlv, fun _ => rfl⟩ hq1 ?_) ?_
      · intro pg2 hpg2
        rw [hp2] at hpg2; cases hpg2
        exact hunder
      · rintro c t3 ⟨u, H, g1, g2, g3, g4, g5, g6, g7, g8, g9⟩
        apply wp_bind_of
        apply releaseLeaf_occ c.1 g1 g4 g2
        intro t4 w hw gw sw hwr hdel hwo
        apply wp_CLEAN_ROUTINE_st c.2 hw
        intro t5 h5
        refine ⟨w, H, h5, gw, fun k x => ((sw k x).trans (g3 k x)).trans (hst1 k x), ?_,
          fun hocc => hwo _ (g9 trivial (hocc1 hocc))⟩
        intro hh h0 _
        rw [hwr] at h0
        obtain ⟨c1, c2, _⟩ := g8 h0
        have : leaf = v.root := c2
        rw [← this]
        exact hdel c1 (hnot hh c.2 g5)
    · rw [if_neg hunder, wp_pure]
      have hg2 : Good (v.setPage leaf (pg.RemoveAndDeleteRecord key)) G none := by
        refine Good_exempt hg1 ?_
        intro p pg2 hp hpg2 hE _
        have hpl : leaf = p := Option.some.inj hE
        subst hpl
        rw [hp2] at hpg2; cases hpg2
        refine ⟨fun _ => ?_, fun h0 => absurd hlv h0⟩
        obtain ⟨pg3, hpg3, hgood3⟩ := hg1.page leaf hl
        rw [hp2] at hpg3; cases hpg3
        have hmax := (hgood3.leaf_type hlv).2
        have hl1 := hg1.lmax_pos
        intro hnil
        apply hunder
        unfold BPlusTreePage.GetSize BPlusTreePage.GetMinSize
        rw [hnil, hmax]
        show 0 < ((v.setPage leaf (pg.RemoveAndDeleteRecord key)).lmax + 1) / 2
        omega
      apply wp_bind_of
      apply releaseLeaf_occ false h2 (fun h0 => by cases h0) hg2
      intro t4 w hw gw sw hwr hdel hwo
      apply wp_CLEAN_ROUTINE_st r.2.1 hw
      intro t5 h5
      refine ⟨w, G, h5, gw, fun k x => (sw k x).trans (hst1 k x), ?_, fun hocc => hwo _ ?_⟩
      · intro _ h0 h1
        rw [hwr] at h0
        exact absurd h0 h1
      · refine Occ_strict (hocc1 hocc) ?_
        intro p pg2 hp hpg2 _
        have hpl : leaf = p := Option.some.inj hp
        subst hpl
        rw [hp2] at hpg2; cases hpg2
        have hlm := lowerOf_le_min (pg.RemoveAndDeleteRecord key)
        unfold BPlusTreePage.GetSize BPlusTreePage.GetMinSize at hunder
        omega

/-- Method `Remove`: the tree stays well formed and loses exactly the pairs of `key`; when
the tree becomes empty, the page that was the root is deleted from the pool. -/
theorem Remove_spec (key : KeyType) (s : TState) {v : TreeView}
    {G : Ghost} {h : Multiset Int} {b : Bool} (hs : St s v h b) (hh : ∀ p ∈ h, ¬ G.live p)
    (hg : Good v G none) :
    wp (Remove key)
      (fun _ t => ∃ u H, St t u h false ∧ Good u H none ∧
        (∀ k w, Stored u H k w ↔ Stored v G k w ∧ k ≠ key) ∧
        (u.root = INVALID_PAGE_ID → v.root ≠ INVALID_PAGE_ID → u.pages v.root = none)) s := by
  refine wp_mono (Remove_occ key s hs hg) ?_
  rintro r t ⟨u, H, h1, h2, h3, h4, _⟩
  exact ⟨u, H, h1, h2, h3, h4 hh⟩

/-- Method `Remove` in terms of the stored map. -/
theorem Remove_rep (key : KeyType) (s : TState) (m : KeyType → Option ValueType)
    (hrep : Rep s m) :
    wp (Remove key)
      (fun _ t => Rep t (Function.update m key none) ∧
        (t.root_page_id_ = INVALID_PAGE_ID → s.root_page_id_ ≠ INVALID_PAGE_ID →
          t.pages s.root_page_id_ = none)) s := by
  obtain ⟨G, hs, hg, hst⟩ := hrep
  refine wp_mono (Remove_spec key s hs (fun p hp => by simp at hp) hg) ?_
  rintro r t ⟨u, H, h1, h2, h3, h4⟩
  have hu : t.view = u := h1.1
  constructor
  · refine ⟨H, St_view h1, by rw [hu]; exact h2, ?_⟩
    intro k w
    rw [hu, h3 k w, hst k w]
    by_cases hk : k = key
    · subst hk
      simp
    · simp [Function.update_noteq hk, hk]
  · intro h0 hne
    have hr : t.root_page_id_ = u.root := view_root hu
    have := h4 (by rw [← hr]; exact h0) hne
    rw [← hu] at this
    exact this

/-- Every page of a well-formed tree has a stored pair below it. -/
theorem exists_stored {v : TreeView} {G : Ghost} (hg : Good v G none) :
    ∀ (n : Nat) (p : Int), G.live p → G.lvl p = n → ∃ k w, Stored v G k w := by
  intro n
  induction n with
  | zero =>
    intro p hp hl
    obtain ⟨pg, hpg, hgood⟩ := hg.page p hp
    have hne := hgood.leaf_ne hl (by simp)
    obtain ⟨e, rest, he⟩ := List.exists_cons_of_ne_nil hne
    exact ⟨e.1, e.2, p, pg, hp, hl, hpg, by rw [he]; simp⟩
  | succ n ih =>
    intro p hp hl
    obtain ⟨pg, hpg, hgood⟩ := hg.page p hp
    have hseg := hgood.int_seg (by omega)
    obtain ⟨e, rest, he⟩ := List.exists_cons_of_ne_nil (Seg_ne_nil hseg)
    obtain ⟨c1, _, c3, _⟩ := Seg_child hseg e (by rw [he]; simp)
    exact ih e.2 c1 (by omega)

/-- A tree that stores nothing has no root. -/
theorem Rep_empty_root {s : TState} (hrep : Rep s (fun _ => none)) :
    s.root_page_id_ = INVALID_PAGE_ID := by
  obtain ⟨G, hs, hg, hst⟩ := hrep
  by_contra hne
  obtain ⟨hl, _⟩ := hg.root_live hne
  obtain ⟨k, w, hkw⟩ := exists_stored hg _ _ hl rfl
  have := (hst k w).1 hkw
  cases this

/-- A tree that stores something has a root. -/
theorem Rep_nonempty_root {s : TState} {m : KeyType → Option ValueType} (hrep : Rep s m)
    {k : KeyType} (hk : m k ≠ none) : s.root_page_id_ ≠ INVALID_PAGE_ID := by
  obtain ⟨G, hs, hg, hst⟩ := hrep
  obtain ⟨w, hw⟩ := Option.ne_none_iff_exists'.1 hk
  obtain ⟨p, _, hp, _⟩ := (hst k w).2 hw
  exact root_ne_of_live hg hp

/-- Method `IsEmpty` on a tree without a root. -/
theorem IsEmpty_spec {s : TState} {v : TreeView} {h : Multiset Int} {b : Bool}
    (hs : St s v h b) (hroot : v.root = INVALID_PAGE_ID) :
    wp IsEmpty (fun r t => r = true ∧ St t v h false) s := by
  unfold IsEmpty
  apply wp_bind_of
  apply wp_lockRoot_st hs
  intro t1 h1
  apply wp_bind_of
  rw [wp_get]
  have hr1 : t1.root_page_id_ = v.root := view_root h1.1
  rw [if_pos (by rw [hr1]; exact hroot)]
  apply wp_bind_of
  apply wp_unlockRoot_st h1
  intro t2 h2
  rw [wp_pure]
  exact ⟨rfl, h2⟩

/-- Method `IsEmpty` in terms of the stored map. -/
theorem IsEmpty_rep {s : TState} (hrep : Rep s (fun _ => none)) :
    wp IsEmpty (fun r t => r = true ∧ t.view = s.view) s := by
  have hroot := Rep_empty_root hrep
  obtain ⟨G, hs, hg, hst⟩ := hrep
  refine wp_mono (IsEmpty_spec hs hroot) ?_
  rintro r t ⟨h1, h2⟩
  exact ⟨h1, h2.1⟩

/-- Removing every stored key, each once: the tree ends without a root and the page that
was the root before the last call is deleted. -/
theorem removeAll_rep :
    ∀ (rs : List KeyType) (s : TState) (m : KeyType → Option ValueType),
      Rep s m → rs.Nodup → (∀ k, m k ≠ none ↔ k ∈ rs) →
      wp (removeAll rs)
        (fun roots t => Rep t (fun _ => none) ∧ roots.length = rs.length ∧
          ∀ p, roots.getLast? = some p → p ≠ INVALID_PAGE_ID ∧ t.pages p = none) s := by
  intro rs
  induction rs with
  | nil =>
    intro s m hrep _ hdom
    unfold removeAll
    rw [wp_pure]
    have hm : m = fun _ => none := by
      funext k
      by_contra hk
      exact absurd ((hdom k).1 hk) (List.not_mem_nil k)
    refine ⟨by rw [← hm]; exact hrep, rfl, ?_⟩
    intro p hp
    cases hp
  | cons key rest ih =>
    intro s m hrep hnd hdom
    rw [List.nodup_cons] at hnd
    have hroot : s.root_page_id_ ≠ INVALID_PAGE_ID :=
      Rep_nonempty_root hrep ((hdom key).2 (List.mem_cons_self _ _))
    have hdom2 : ∀ k, Function.update m key none k ≠ none ↔ k ∈ rest := by
      intro k
      by_cases hk : k = key
      · subst hk
        simp [hnd.1]
      · rw [Function.update_noteq hk, hdom k]
        simp [hk]
    unfold removeAll
    apply wp_bind_of
    rw [wp_get]
    apply wp_bind_of
    refine wp_mono (Remove_rep key s m hrep) ?_
    rintro _ t ⟨hrep2, hdel⟩
    cases hrest : rest with
    | nil =>
      apply wp_bind_of
      unfold removeAll
      rw [wp_pure, wp_pure]
      have hmt : Function.update m key none = fun _ => none := by
        funext k
        by_contra hk
        have := (hdom2 k).1 hk
        rw [hrest] at this
        exact absurd this (List.not_mem_nil k)
      rw [hmt] at hrep2
      refine ⟨hrep2, rfl, ?_⟩
      intro p hp
      simp only [List.getLast?_singleton, Option.some.injEq] at hp
      subst hp
      exact ⟨hroot, hdel (Rep_empty_root hrep2) hroot⟩
    | cons r0 rest0 =>
      rw [← hrest]
      apply wp_bind_of
      refine wp_mono (ih t _ hrep2 hnd.2 hdom2) ?_
      rintro roots t2 ⟨hrep3, hlen, hlast⟩
      rw [wp_pure]
      refine ⟨hrep3, by simp [hlen], ?_⟩
      intro p hp
      obtain ⟨q, roots0, hq⟩ : ∃ q roots0, roots = q :: roots0 := by
        cases roots with
        | nil => rw [hrest] at hlen; cases hlen
        | cons q roots0 => exact ⟨q, roots0, rfl⟩
      rw [hq, List.getLast?_cons_cons] at hp
      exact hlast p (by rw [hq]; exact hp)

/-- The calls of a list in terms of the stored map. -/
theorem runOps_rep :
    ∀ (ops : List Op) (s : TState) (m : KeyType → Option ValueType), Rep s m →
      wp (runOps ops) (fun _ t => Rep t (ops.foldl applyOp m)) s := by
  intro ops
  induction ops with
  | nil =>
    intro s m hrep
    unfold runOps
    rw [wp_pure]
    exact hrep
  | cons op rest ih =>
    intro s m hrep
    unfold runOps
    apply wp_bind_of
    cases op with
    | insert key value =>
      unfold runOp
      apply wp_bind_of
      refine wp_mono (Insert_rep key value s m hrep) ?_
      rintro r t ⟨h1, h2⟩
      rw [wp_pure]
      have hrep2 : Rep t (applyOp m (Op.insert key value)) := by
        show Rep t (if m key = none then Function.update m key (some value) else m)
        by_cases hk : m key = none
        · rw [if_pos hk]; exact (h1 hk).2
        · rw [if_neg hk]; exact (h2 hk).2.1
      exact ih t _ hrep2
    | remove key =>
      unfold runOp
      refine wp_mono (Remove_rep key s m hrep) ?_
      rintro r t ⟨h1, _⟩
      exact ih t _ h1

/-- The pages of a subtree belong to the tree, and their key ranges lie within the range
of the subtree's root. -/
theorem Under_live {s : TState} {G : Ghost} {E : Option Int} (hg : Good s.view G E) :
    ∀ c q, Under s c q → G.live c →
      G.live q ∧ (∀ k, loLe (G.lo q) k → loLe (G.lo c) k) ∧
        (∀ k, ltHi k (G.hi q) → ltHi k (G.hi c)) := by
  intro c q hu
  induction hu with
  | self p => intro hp; exact ⟨hp, fun _ h => h, fun _ h => h⟩
  | child p q pg e hpg hint he _ ih =>
    intro hp
    obtain ⟨pg1, hpg1, hgood⟩ := hg.page p hp
    have : s.view.pages p = some pg := hpg
    rw [this] at hpg1; cases hpg1
    have hl : G.lvl p ≠ 0 := fun h0 => by
      have := (isLeaf_iff hgood).2 h0
      rw [hint] at this
      cases this
    obtain ⟨c1, _, _, c4, c5⟩ := Seg_child (hgood.int_seg hl) e he
    obtain ⟨i1, i2, i3⟩ := ih c1
    exact ⟨i1, fun k hk => c4 k (i2 k hk), fun k hk => c5 k (i3 k hk)⟩

/-- A well-formed tree satisfies the internal-node bound invariant. -/
theorem Rep_bound {s : TState} {m : KeyType → Option ValueType} (hrep : Rep s m) :
    BoundInvariant s := by
  obtain ⟨G, hs, hg, hst⟩ := hrep
  intro hroot p pg hup hpg hint i e hie k hk
  obtain ⟨hrl, _, _⟩ := hg.root_live hroot
  obtain ⟨hp, _, _⟩ := Under_live hg _ _ hup hrl
  obtain ⟨pg1, hpg1, hgood⟩ := hg.page p hp
  have : s.view.pages p = some pg := hpg
  rw [this] at hpg1; cases hpg1
  have hl : G.lvl p ≠ 0 := fun h0 => by
    have := (isLeaf_iff hgood).2 h0
    rw [hint] at this
    cases this
  have hc := Seg_slot (hgood.int_seg hl) i e hie
  obtain ⟨q, qg, hq, hqg, hqleaf, hkq⟩ := hk
  obtain ⟨hql, hlo, hhi⟩ := Under_live hg _ _ hq hc.live
  obtain ⟨qg1, hqg1, hgq⟩ := hg.page q hql
  have : s.view.pages q = some qg := hqg
  rw [this] at hqg1; cases hqg1
  have hq0 : G.lvl q = 0 := (isLeaf_iff hgq).1 hqleaf
  obtain ⟨x, hx, hxk⟩ := List.mem_map.1 hkq
  obtain ⟨r1, r2⟩ := hgq.leaf_range hq0 x hx
  rw [hxk] at r1 r2
  have b1 := hlo k r1
  have b2 := hhi k r2
  rw [hc.lo] at b1
  rw [hc.hi] at b2
  constructor
  · intro hi1
    rw [if_neg (by omega)] at b1
    exact b1 e.1 rfl
  · intro e2 he2
    rw [he2] at b2
    exact b2 e2.1 rfl

/-- The bound invariant fails on a tree with a key on the wrong side of a separator. -/
theorem BoundInvariant_misplacedKey : ¬ BoundInvariant misplacedKeyState := by
  intro h
  have h1 := h (by decide) 3 _ (Under.self 3) rfl rfl 0 (0, 1) rfl 7
    ⟨1, _, Under.self 1, rfl, rfl, by simp⟩
  exact absurd (h1.2 (5, 2) rfl) (by decide)

/-- The leftmost descent of `LatchCrabbingToLeaf` ends in the first leaf below the start
page. -/
theorem crabRead_leftmost_spec {v : TreeView} {G : Ghost} {E : Option Int} (hg : Good v G E)
    (key : KeyType) (h : Multiset Int) (b : Bool) :
    ∀ (fuel : Nat) (p : Int) (s : TState), St s v (p ::ₘ h) b → G.live p →
      G.lvl p < fuel →
      wp (crabRead true key fuel p)
        (fun leaf t => St t v (leaf ::ₘ h) b ∧ G.live leaf ∧ G.lvl leaf = 0 ∧
          G.lo leaf = G.lo p) s := by
  intro fuel
  induction fuel with
  | zero => intro p s _ _ hf; omega
  | succ fuel ih =>
    intro p s hs hp hf
    obtain ⟨pg, hpg, hgood⟩ := hg.page p hp
    unfold crabRead
    apply wp_bind_of
    apply wp_getPage_st hs hpg
    by_cases hleaf : pg.IsLeafPage = true
    · rw [if_pos hleaf, wp_pure]
      exact ⟨hs, hp, (isLeaf_iff hgood).1 hleaf, rfl⟩
    · rw [if_neg hleaf]
      have hl : G.lvl p ≠ 0 := fun h => hleaf ((isLeaf_iff hgood).2 h)
      have hseg := hgood.int_seg hl
      obtain ⟨e, rest, he⟩ := List.exists_cons_of_ne_nil (Seg_ne_nil hseg)
      have h0 : pg.array[0]? = some e := by rw [he]; simp
      have hc := Seg_slot hseg 0 e h0
      simp only [if_true] at hc
      obtain ⟨cpg, hcpg, _⟩ := hg.page e.2 hc.live
      apply wp_bind_of
      rw [wp_ofOption]
      refine ⟨e.2, by simp [slot_zero, h0], ?_⟩
      apply wp_bind_of
      apply wp_FetchPage_st hs hcpg
      intro t1 h1
      apply wp_bind_of
      apply wp_RLatch_st h1
      intro t2 h2
      apply wp_bind_of
      apply wp_RUnlatch_st h2
      intro t3 h3
      apply wp_bind_of
      rw [Multiset.cons_swap] at h3
      apply wp_UnpinPage_st h3
      intro t4 h4
      have hlv := hc.lvl
      refine wp_mono (ih e.2 t4 h4 hc.live (by omega)) ?_
      rintro leaf t5 ⟨g1, g2, g3, g4⟩
      exact ⟨g1, g2, g3, by rw [g4, hc.lo]⟩

/-- Method `begin()` on a tree with a root: the iterator stands at slot 0 of the first
leaf, which stays pinned. -/
theorem begin_spec {G : Ghost} {E : Option Int} (s : TState)
    {v : TreeView} {h : Multiset Int} {b : Bool} (hs : St s v h b) (hg : Good v G E)
    (hroot : v.root ≠ INVALID_PAGE_ID) :
    wp BPlusTree.begin
      (fun it t => ∃ leaf, it = { leaf_page_ := some leaf, index_ := 0 } ∧
        St t v (leaf ::ₘ h) false ∧ G.live leaf ∧ G.lvl leaf = 0 ∧ G.lo leaf = none) s := by
  unfold BPlusTree.begin FindLeafPage LatchCrabbingToLeaf
  simp only [if_true]
  apply wp_bind_of
  apply wp_bind_of
  apply wp_bind_of
  apply wp_lockRoot_st hs
  intro t1 h1
  apply wp_bind_of
  rw [wp_get]
  have hr1 : t1.root_page_id_ = v.root := view_root h1.1
  rw [if_neg (by rw [hr1]; exact hroot)]
  obtain ⟨hrl, hrlo, hrhi⟩ := hg.root_live hroot
  obtain ⟨rpg, hrpg, _⟩ := hg.page _ hrl
  apply wp_bind_of
  rw [hr1]
  apply wp_FetchPage_st h1 hrpg
  intro t2 h2
  apply wp_bind_of
  apply wp_RLatch_st h2
  intro t3 h3
  apply wp_bind_of
  apply wp_unlockRoot_st h3
  intro t4 h4
  apply wp_bind_of
  have hfuel := hg.lvl_fuel hroot
  have hn1 : t1.next_page_id_ = v.next := view_next h1.1
  refine wp_mono (crabRead_leftmost_spec hg 0 h false (t1.next_page_id_.toNat + 1) v.root t4
    h4 hrl (by rw [hn1]; omega)) ?_
  intro leaf t5 ⟨h5, hl, hlv, hlo⟩
  rw [wp_pure, wp_pure]
  simp only
  apply wp_bind_of
  apply wp_RUnlatch_st h5
  intro t6 h6
  rw [wp_pure]
  exact ⟨leaf, rfl, h6, hl, hlv, by rw [hlo, hrlo]⟩

theorem Chain.pos {v : TreeView} {p : Int} {L : List (KeyType × Int)} (hc : Chain v p L) :
    Pos v p 0 L := by
  cases hc with
  | last p pg h1 h2 h3 h4 => exact ⟨pg, h1, h2, Or.inl ⟨h4, Nat.zero_le _, rfl⟩⟩
  | more p pg L h1 h2 h3 h4 h5 =>
    exact ⟨pg, h1, h2, Or.inr ⟨h4, List.length_pos.2 h3, L, h5, rfl⟩⟩

theorem isEnd_spec {s : TState} {v : TreeView} {h : Multiset Int} {b : Bool} {p : Int}
    {pg : BPlusTreePage} (idx : Int) (hs : St s v h b) (hpg : v.pages p = some pg)
    {Q : Bool → TState → Prop}
    (hq : Q (decide (idx = (pg.GetSize : Int)) &&
      decide (pg.next_page_id_ = INVALID_PAGE_ID)) s) :
    wp (IndexIterator.isEnd { leaf_page_ := some p, index_ := idx }) Q s := by
  unfold IndexIterator.isEnd
  simp only
  apply wp_bind_of
  apply wp_getPage_st hs hpg
  rw [wp_pure]
  exact hq

theorem deref_spec {s : TState} {v : TreeView} {h : Multiset Int} {b : Bool} {p : Int}
    {pg : BPlusTreePage} (idx : Int) (hs : St s v h b) (hpg : v.pages p = some pg)
    (hend : (decide (idx = (pg.GetSize : Int)) &&
      decide (pg.next_page_id_ = INVALID_PAGE_ID)) = false)
    {x : KeyType × Int} (hx : pg.slot? idx = some x)
    {Q : KeyType × ValueType → TState → Prop} (hq : Q x s) :
    wp (IndexIterator.deref { leaf_page_ := some p, index_ := idx }) Q s := by
  unfold IndexIterator.deref
  apply wp_bind_of
  apply isEnd_spec idx hs hpg
  rw [hend]
  simp only [Bool.false_eq_true, if_false]
  apply wp_bind_of
  apply wp_getPage_st hs hpg
  rw [wp_ofOption]
  exact ⟨x, hx, hq⟩

theorem next_same {s : TState} {v : TreeView} {h : Multiset Int} {b : Bool} {p : Int}
    {pg : BPlusTreePage} (idx : Int) (hs : St s v h b) (hpg : v.pages p = some pg)
    (hend : (decide (idx = (pg.GetSize : Int)) &&
      decide (pg.next_page_id_ = INVALID_PAGE_ID)) = false)
    (hcase : idx < (pg.GetSize : Int) - 1 ∨ pg.next_page_id_ = INVALID_PAGE_ID)
    {Q : IndexIterator → TState → Prop}
    (hq : Q { leaf_page_ := some p, index_ := idx + 1 } s) :
    wp (IndexIterator.next { leaf_page_ := some p, index_ := idx }) Q s := by
  unfold IndexIterator.next
  apply wp_bind_of
  apply isEnd_spec idx hs hpg
  rw [hend]
  simp only [Bool.false_eq_true, if_false]
  apply wp_bind_of
  apply wp_getPage_st hs hpg
  by_cases h1 : idx < (pg.GetSize : Int) - 1
  · rw [if_pos h1, wp_pure]
    exact hq
  · rw [if_neg h1]
    rcases hcase with h2 | h2
    · exact absurd h2 h1
    · rw [if_neg (by simp [h2]), wp_pure]
      exact hq

theorem next_leaf {s : TState} {v : TreeView} {h : Multiset Int} {b : Bool} {p : Int}
    {pg ng : BPlusTreePage} (idx : Int) (hs : St s v (p ::ₘ h) b) (hpg : v.pages p = some pg)
    (hid : pg.page_id_ = p)
    (hend : (decide (idx = (pg.GetSize : Int)) &&
      decide (pg.next_page_id_ = INVALID_PAGE_ID)) = false)
    (h1 : ¬ idx < (pg.GetSize : Int) - 1) (h2 : pg.next_page_id_ ≠ INVALID_PAGE_ID)
    (hng : v.pages pg.next_page_id_ = some ng)
    {Q : IndexIterator → TState → Prop}
    (hq : ∀ t, St t v (pg.next_page_id_ ::ₘ h) b →
      Q { leaf_page_ := some pg.next_page_id_, index_ := 0 } t) :
    wp (IndexIterator.next { leaf_page_ := some p, index_ := idx }) Q s := by
  unfold IndexIterator.next
  apply wp_bind_of
  apply isEnd_spec idx hs hpg
  rw [hend]
  simp only [Bool.false_eq_true, if_false]
  apply wp_bind_of
  apply wp_getPage_st hs hpg
  rw [if_neg h1, if_pos h2]
  apply wp_bind_of
  rw [hid]
  apply wp_UnpinPage_st hs
  intro t1 g1
  apply wp_bind_of
  apply wp_FetchPage_st g1 hng
  intro t2 g2
  rw [wp_pure]
  exact hq t2 g2

/-- The client loop from an iterator position yields the keys ahead of the position, in
their order, when the bound on the iterations exceeds their number. -/
theorem scanFrom_spec {v : TreeView} (h : Multiset Int) (b : Bool) :
    ∀ (fuel : Nat) (p : Int) (i : Nat) (idx : Int) (R : List (KeyType × Int)) (s : TState),
      idx = (i : Int) → St s v (p ::ₘ h) b → Pos v p i R → R.length < fuel →
      wp (scanFrom fuel { leaf_page_ := some p, index_ := idx })
        (fun keys t => keys = R.map Prod.fst ∧ ∃ q, St t v (q ::ₘ h) b) s := by
  intro fuel
  induction fuel with
  | zero => intro p i idx R s _ _ _ hf; omega
  | succ fuel ih =>
    intro p i idx R s hidx hs hpos hf
    obtain ⟨pg, hpg, hid, hcase⟩ := hpos
    unfold scanFrom
    apply wp_bind_of
    apply isEnd_spec idx hs hpg
    cases hR : R with
    | nil =>
      have hend : (decide (idx = (pg.GetSize : Int)) &&
          decide (pg.next_page_id_ = INVALID_PAGE_ID)) = true := by
        rcases hcase with ⟨c1, c2, c3⟩ | ⟨c1, c2, L, c3, c4⟩
        · rw [hR] at c3
          have hlen : pg.array.length ≤ i := List.drop_eq_nil_iff.1 c3.symm
          have : i = pg.array.length := by omega
          simp [hidx, c1, BPlusTreePage.GetSize, this]
        · exfalso
          rw [hR] at c4
          have := congrArg List.length c4
          simp only [List.length_nil, List.length_append, List.length_drop] at this
          omega
      rw [hend]
      simp only [if_true]
      rw [wp_pure]
      exact ⟨rfl, p, hs⟩
    | cons x R2 =>
      have hlt : i < pg.array.length := by
        rcases hcase with ⟨c1, c2, c3⟩ | ⟨c1, c2, _⟩
        · by_contra hc
          rw [hR, List.drop_eq_nil_iff.2 (by omega)] at c3
          cases c3
        · exact c2
      have hend : (decide (idx = (pg.GetSize : Int)) &&
          decide (pg.next_page_id_ = INVALID_PAGE_ID)) = false := by
        have : idx ≠ (pg.GetSize : Int) := by
          unfold BPlusTreePage.GetSize
          omega
        simp [this]
      have hdrop : pg.array.drop i = pg.array[i] :: pg.array.drop (i + 1) :=
        List.drop_eq_getElem_cons hlt
      have hx : pg.array[i]? = some x := by
        rw [List.getElem?_eq_getElem hlt]
        rcases hcase with ⟨c1, c2, c3⟩ | ⟨c1, c2, L, c3, c4⟩
        · rw [hR, hdrop] at c3
          rw [(List.cons.inj c3).1]
        · rw [hR, hdrop, List.cons_append] at c4
          rw [(List.cons.inj c4).1]
      rw [hend]
      simp only [Bool.false_eq_true, if_false]
      apply wp_bind_of
      apply deref_spec idx hs hpg hend (x := x) (by rw [hidx, slot_nat]; exact hx)
      apply wp_bind_of
      have hf2 : R2.length < fuel := by
        rw [hR] at hf
        simp only [List.length_cons] at hf
        omega
      have hidx2 : idx + 1 = ((i + 1 : Nat) : Int) := by rw [hidx]; push_cast; rfl
      rcases hcase with ⟨c1, c2, c3⟩ | ⟨c1, c2, L, c3, c4⟩
      · apply next_same idx hs hpg hend (Or.inr c1)
        apply wp_bind_of
        have hpos2 : Pos v p (i + 1) R2 := by
          refine ⟨pg, hpg, hid, Or.inl ⟨c1, hlt, ?_⟩⟩
          rw [hR, hdrop] at c3
          exact (List.cons.inj c3).2
        refine wp_mono (ih p (i + 1) (idx + 1) R2 s hidx2 hs hpos2 hf2) ?_
        rintro keys t ⟨k1, k2⟩
        rw [wp_pure]
        exact ⟨by rw [k1]; rfl, k2⟩
      · rw [hR, hdrop, List.cons_append] at c4
        have hR2 := (List.cons.inj c4).2
        by_cases hin : idx < (pg.GetSize : Int) - 1
        · apply next_same idx hs hpg hend (Or.inl hin)
          apply wp_bind_of
          have hpos2 : Pos v p (i + 1) R2 := by
            refine ⟨pg, hpg, hid, Or.inr ⟨c1, ?_, L, c3, hR2⟩⟩
            unfold BPlusTreePage.GetSize at hin
            omega
          refine wp_mono (ih p (i + 1) (idx + 1) R2 s hidx2 hs hpos2 hf2) ?_
          rintro keys t ⟨k1, k2⟩
          rw [wp_pure]
          exact ⟨by rw [k1]; rfl, k2⟩
        · have hnpos := c3.pos
          obtain ⟨ng, hng, _⟩ := hnpos
          apply next_leaf idx hs hpg hid hend hin c1 hng
          intro t1 g1
          apply wp_bind_of
          have hd : pg.array.drop (i + 1) = [] := by
            apply List.drop_eq_nil_iff.2
            unfold BPlusTreePage.GetSize at hin
            omega
          rw [hd, List.nil_append] at hR2
          rw [hR2]
          refine wp_mono (ih pg.next_page_id_ 0 0 L t1 rfl g1 c3.pos (by rw [← hR2]; exact hf2))
            ?_
          rintro keys t ⟨k1, k2⟩
          rw [wp_pure]
          exact ⟨by rw [k1]; rfl, k2⟩

/-- The leaves from a leaf on: they hold, in ascending order, the stored pairs whose keys
are not below the range of the leaf.  The finite set `S` bounds the leaves that follow. -/
theorem chain_from {v : TreeView} {G : Ghost} (hg : Good v G none) :
    ∀ (n : Nat) (S : Finset Int) (p : Int), S.card < n → G.live p → G.lvl p = 0 →
      (∀ q, G.live q → G.lvl q = 0 →
        (∃ b c, G.hi p = some b ∧ G.lo q = some c ∧ b ≤ c) → q ∈ S) →
      ∃ L, Chain v p L ∧ (L.map Prod.fst).Pairwise (fun a b => a < b) ∧
        ∀ k w, (k, w) ∈ L ↔ (Stored v G k w ∧ loLe (G.lo p) k) := by
  intro n
  induction n with
  | zero => intro S p hc; omega
  | succ n ih =>
    intro S p hcard hp hl hS
    obtain ⟨pg, hpg, hgood⟩ := hg.page p hp
    have hne := hgood.leaf_ne hl (by simp)
    have hsorted := hgood.leaf_sorted hl
    have hrange := hgood.leaf_range hl
    have hmemL : ∀ k w, (k, w) ∈ pg.array → Stored v G k w ∧ loLe (G.lo p) k :=
      fun k w hm => ⟨⟨p, pg, hp, hl, hpg, hm⟩, (hrange (k, w) hm).1⟩
    by_cases hnext : pg.next_page_id_ = INVALID_PAGE_ID
    · have hhi : G.hi p = none := (hgood.next_end hl).1 hnext
      refine ⟨pg.array, Chain.last p pg hpg hgood.id hne hnext, hsorted, ?_⟩
      intro k w
      constructor
      · exact hmemL k w
      · rintro ⟨hst, hlo⟩
        have hin : InRange G p k := ⟨hlo, fun b hb => by rw [hhi] at hb; cases hb⟩
        exact (Stored_iff_leaf hg hp hl hpg hin w).1 hst
    · obtain ⟨hql, hq0, hqlo⟩ := hgood.next_ok hl hnext
      have hhi : G.hi p ≠ none := fun h0 => hnext ((hgood.next_end hl).2 h0)
      obtain ⟨b, hb⟩ := Option.ne_none_iff_exists'.1 hhi
      rw [hb] at hqlo
      obtain ⟨qg, hqg, hgq⟩ := hg.page _ hql
      have hqS : pg.next_page_id_ ∈ S := hS _ hql hq0 ⟨b, b, hb, hqlo, le_refl _⟩
      have hcard2 : (S.erase pg.next_page_id_).card < n := by
        rw [Finset.card_erase_of_mem hqS]
        have := Finset.card_pos.2 ⟨_, hqS⟩
        omega
      have hS2 : ∀ r, G.live r → G.lvl r = 0 →
          (∃ b2 c, G.hi pg.next_page_id_ = some b2 ∧ G.lo r = some c ∧ b2 ≤ c) →
          r ∈ S.erase pg.next_page_id_ := by
        rintro r hr hr0 ⟨b2, c, h1, h2, h3⟩
        have hbb : b < b2 := hgq.range_ne b b2 hqlo h1
        rw [Finset.mem_erase]
        constructor
        · intro hrq
          rw [hrq, hqlo] at h2
          cases h2
          exact absurd hbb (not_lt.2 h3)
        · exact hS r hr hr0 ⟨b, c, hb, h2, le_trans (le_of_lt hbb) h3⟩
      obtain ⟨L, hchain, hLs, hLm⟩ := ih (S.erase pg.next_page_id_) _ hcard2 hql hq0 hS2
      refine ⟨pg.array ++ L, Chain.more p pg L hpg hgood.id hne hnext hchain, ?_, ?_⟩
      · rw [List.map_append, List.pairwise_append]
        refine ⟨hsorted, hLs, ?_⟩
        intro x hx y hy
        obtain ⟨e, he, rfl⟩ := List.mem_map.1 hx
        obtain ⟨f, hf, rfl⟩ := List.mem_map.1 hy
        have h1 : e.1 < b := (hrange e he).2 b hb
        have h2 : b ≤ f.1 := ((hLm f.1 f.2).1 hf).2 b hqlo
        exact lt_of_lt_of_le h1 h2
      · intro k w
        rw [List.mem_append]
        constructor
        · rintro (hm | hm)
          · exact hmemL k w hm
          · obtain ⟨hst, hlo⟩ := (hLm k w).1 hm
            refine ⟨hst, ?_⟩
            intro a ha
            have h1 : a < b := hgood.range_ne a b ha hb
            have h2 : b ≤ k := hlo b hqlo
            exact le_of_lt (lt_of_lt_of_le h1 h2)
        · rintro ⟨hst, hlo⟩
          by_cases hkb : k < b
          · have hin : InRange G p k :=
              ⟨hlo, fun b2 hb2 => by rw [hb] at hb2; cases hb2; exact hkb⟩
            exact Or.inl ((Stored_iff_leaf hg hp hl hpg hin w).1 hst)
          · refine Or.inr ((hLm k w).2 ⟨hst, ?_⟩)
            intro a ha
            rw [hqlo] at ha
            cases ha
            exact not_lt.1 hkb

/-- The leaves from the first leaf on hold exactly the stored pairs, in ascending order of
their keys. -/
theorem chain_all {v : TreeView} {G : Ghost} (hg : Good v G none) {p : Int}
    (hp : G.live p) (hl : G.lvl p = 0) (hlo : G.lo p = none) :
    ∃ L, Chain v p L ∧ (L.map Prod.fst).Pairwise (fun a b => a < b) ∧
      ∀ k w, (k, w) ∈ L ↔ Stored v G k w := by
  obtain ⟨L, h1, h2, h3⟩ := chain_from hg ((Finset.Icc 0 v.next).card + 1)
    (Finset.Icc 0 v.next) p (Nat.lt_succ_self _) hp hl
    (fun q hq _ _ => by
      have := hg.live_range q hq
      rw [Finset.mem_Icc]
      exact ⟨this.1, le_of_lt this.2⟩)
  refine ⟨L, h1, h2, fun k w => ?_⟩
  rw [h3 k w]
  constructor
  · exact fun h => h.1
  · intro h
    exact ⟨h, fun a ha => by rw [hlo] at ha; cases ha⟩

/-- An iteration from `begin()` until `isEnd()` over a tree with a root yields the stored
keys in strictly ascending order, when the bound on the iterations is large enough. -/
theorem scan_spec {G : Ghost} (s : TState) {v : TreeView} {h : Multiset Int} {b : Bool}
    (hs : St s v h b) (hg : Good v G none) (hroot : v.root ≠ INVALID_PAGE_ID) :
    ∃ n, ∀ fuel, n ≤ fuel →
      wp (scan fuel)
        (fun keys t => keys.Pairwise (fun a b => a < b) ∧
          (∀ k, k ∈ keys ↔ ∃ w, Stored v G k w) ∧ ∃ q, St t v (q ::ₘ h) false) s := by
  obtain ⟨hrl, _, _⟩ := hg.root_live hroot
  have hbegin := begin_spec s hs hg hroot
  obtain ⟨it, t, hrun, leaf, hit, h1, hl, hl0, hlo⟩ := hbegin
  obtain ⟨L, hchain, hsorted, hmem⟩ := chain_all hg hl hl0 hlo
  refine ⟨L.length + 1, ?_⟩
  intro fuel hfuel
  unfold scan
  apply wp_bind_of
  refine ⟨it, t, hrun, ?_⟩
  rw [hit]
  refine wp_mono (scanFrom_spec h false fuel leaf 0 0 L t rfl h1 hchain.pos (by omega)) ?_
  rintro keys t2 ⟨hk, hq⟩
  refine ⟨by rw [hk]; exact hsorted, ?_, hq⟩
  intro k
  rw [hk, List.mem_map]
  constructor
  · rintro ⟨e, he, rfl⟩
    exact ⟨e.2, (hmem e.1 e.2).1 he⟩
  · rintro ⟨w, hw⟩
    exact ⟨(k, w), (hmem k w).2 hw, rfl⟩

/-- An iteration over a tree that stores something, in terms of the stored map. -/
theorem scan_rep {s : TState} {m : KeyType → Option ValueType} (hrep : Rep s m)
    {k0 : KeyType} (hk0 : m k0 ≠ none) :
    ∃ n, ∀ fuel, n ≤ fuel →
      wp (scan fuel)
        (fun keys _ => keys.Pairwise (fun a b => a < b) ∧ ∀ k, k ∈ keys ↔ m k ≠ none) s := by
  have hroot := Rep_nonempty_root hrep hk0
  obtain ⟨G, hs, hg, hst⟩ := hrep
  obtain ⟨n, hn⟩ := scan_spec s hs hg hroot
  refine ⟨n, fun fuel hfuel => wp_mono (hn fuel hfuel) ?_⟩
  rintro keys t ⟨h1, h2, _⟩
  refine ⟨h1, fun k => ?_⟩
  rw [h2 k]
  constructor
  · rintro ⟨w, hw⟩
    rw [(hst k w).1 hw]
    simp
  · intro hk
    obtain ⟨w, hw⟩ := Option.ne_none_iff_exists'.1 hk
    exact ⟨w, (hst k w).2 hw⟩

theorem mapOf_dom (kvs : List (KeyType × ValueType)) (hnd : (kvs.map Prod.fst).Nodup)
    (k : KeyType) :
    (mapOf kvs k).orElse (fun _ => (none : Option ValueType)) ≠ none ↔
      k ∈ kvs.map Prod.fst := by
  constructor
  · intro h
    by_contra hk
    rw [mapOf_not_mem kvs k hk] at h
    exact h rfl
  · intro hk
    obtain ⟨kv, hkv, rfl⟩ := List.mem_map.1 hk
    rw [mapOf_mem kvs hnd kv hkv]
    simp

/-- What `GetValue` returns after the calls of a list is the value of the map the calls
stand for. -/
theorem runOps_getValue {s : TState} {m : KeyType → Option ValueType} (hrep : Rep s m)
    (k : KeyType) : ∃ t, (GetValue k).run s = Res.ok (m k) t := by
  obtain ⟨r, t, hrun, hr, _⟩ := GetValue_rep k s m hrep
  exact ⟨t, by rw [hrun, hr]⟩

/-- C3: in-order scan.  On a tree constructed with `leaf_max_size >= 1` and
`internal_max_size >= 3` over a pool that holds the header page already (the next page id
is above `HEADER_PAGE_ID`) and in which `NewPage` never fails, every sequence of
`Insert` and `Remove` calls from the empty tree returns, and when it leaves a key stored
(`modelOf ops` is the map that `GetValue` then reports), the loop from `begin()` with
`operator++` until `isEnd()` returns, for every large enough bound on its iterations, and
the keys it yields are in strictly ascending order (so each occurs once) and are exactly
the stored keys. -/
theorem scan_in_order (leaf_max_size internal_max_size : Nat)
    (first_page_id : page_id_t) (h1 : 1 ≤ leaf_max_size) (h3 : 3 ≤ internal_max_size)
    (h0 : HEADER_PAGE_ID < first_page_id) (ops : List Op) (hne : ∃ k, modelOf ops k ≠ none) :
    ∃ s, (runOps ops).run
        (BPlusTree.new leaf_max_size internal_max_size first_page_id none) = Res.ok () s ∧
      (∀ k, ∃ t, (GetValue k).run s = Res.ok (modelOf ops k) t) ∧
      ∃ n, ∀ fuel, n ≤ fuel →
        ∃ keys t, (scan fuel).run s = Res.ok keys t ∧
          keys.Pairwise (fun a b => a < b) ∧ ∀ k, k ∈ keys ↔ modelOf ops k ≠ none := by
  obtain ⟨u, s, hrun, hrep⟩ := runOps_rep ops _ _
    (Rep_new leaf_max_size internal_max_size first_page_id h1 h3 h0)
  obtain ⟨k0, hk0⟩ := hne
  obtain ⟨n, hn⟩ := scan_rep hrep hk0
  refine ⟨s, hrun, fun k => runOps_getValue hrep k, n, ?_⟩
  intro fuel hfuel
  obtain ⟨keys, t, hrun2, h4, h5⟩ := hn fuel hfuel
  exact ⟨keys, t, hrun2, h4, h5⟩

theorem scan_in_order_witness :
    ∃ s, (runOps [Op.insert 3 30, Op.insert 1 10, Op.insert 2 20, Op.remove 3]).run
        (BPlusTree.new 2 3 1 none) = Res.ok () s ∧
      (∀ k, ∃ t, (GetValue k).run s =
        Res.ok (modelOf [Op.insert 3 30, Op.insert 1 10, Op.insert 2 20, Op.remove 3] k) t) ∧
      ∃ n, ∀ fuel, n ≤ fuel →
        ∃ keys t, (scan fuel).run s = Res.ok keys t ∧
          keys.Pairwise (fun a b => a < b) ∧
            ∀ k, k ∈ keys ↔
              modelOf [Op.insert 3 30, Op.insert 1 10, Op.insert 2 20, Op.remove 3] k ≠ none :=
  scan_in_order 2 3 1 (by decide) (by decide) (by decide)
    [Op.insert 3 30, Op.insert 1 10, Op.insert 2 20, Op.remove 3] ⟨1, by decide⟩

/-- C4: deleting everything.  On a tree constructed with `leaf_max_size >= 1` and
`internal_max_size >= 3` over a pool that holds the header page already (the next page id
is above `HEADER_PAGE_ID`) and in which `NewPage` never fails, after pairs with
pairwise distinct keys have been inserted and `Remove` has been called once for each of
the keys, in any order, `IsEmpty()` returns `true`, `root_page_id_` is `INVALID_PAGE_ID`,
and the page that was the root before the last `Remove` (the last root) is no longer held
by the pool. -/
theorem remove_all_empties_tree (leaf_max_size internal_max_size : Nat)
    (first_page_id : page_id_t) (h1 : 1 ≤ leaf_max_size) (h3 : 3 ≤ internal_max_size)
    (h0 : HEADER_PAGE_ID < first_page_id) (kvs : List (KeyType × ValueType))
    (hnd : (kvs.map Prod.fst).Nodup) (rs : List KeyType)
    (hperm : rs.Perm (kvs.map Prod.fst)) :
    ∃ roots t, (insertThenRemoveAll kvs rs).run
        (BPlusTree.new leaf_max_size internal_max_size first_page_id none) =
          Res.ok (roots, true) t ∧
      t.root_page_id_ = INVALID_PAGE_ID ∧ roots.length = rs.length ∧
      ∀ p, roots.getLast? = some p → p ≠ INVALID_PAGE_ID ∧ t.pages p = none := by
  have hprog : wp (insertThenRemoveAll kvs rs)
      (fun r t => r.2 = true ∧ t.root_page_id_ = INVALID_PAGE_ID ∧
        r.1.length = rs.length ∧
        ∀ p, r.1.getLast? = some p → p ≠ INVALID_PAGE_ID ∧ t.pages p = none)
      (BPlusTree.new leaf_max_size internal_max_size first_page_id none) := by
    unfold insertThenRemoveAll
    apply wp_bind_of
    refine wp_mono (insertAll_rep kvs _ _
      (Rep_new leaf_max_size internal_max_size first_page_id h1 h3 h0) hnd
      (fun _ _ => rfl)) ?_
    rintro oks t1 ⟨_, hrep1⟩
    apply wp_bind_of
    refine wp_mono (removeAll_rep rs t1 _ hrep1 (hperm.nodup_iff.2 hnd) ?_) ?_
    · intro k
      rw [mapOf_dom kvs hnd k]
      exact (hperm.mem_iff).symm
    · rintro roots t2 ⟨hrep2, hlen, hlast⟩
      apply wp_bind_of
      refine wp_mono (IsEmpty_rep hrep2) ?_
      rintro e t3 ⟨he, hview⟩
      rw [wp_pure]
      have hroot : t3.root_page_id_ = t2.root_page_id_ := congrArg TreeView.root hview
      have hpages : t3.pages = t2.pages := congrArg TreeView.pages hview
      refine ⟨he, by rw [hroot]; exact Rep_empty_root hrep2, hlen, ?_⟩
      intro p hp
      rw [hpages]
      exact hlast p hp
  obtain ⟨r, t, hrun, hr, g1, g2, g3⟩ := hprog
  refine ⟨r.1, t, ?_, g1, g2, g3⟩
  rw [hrun, ← hr]

theorem remove_all_empties_tree_witness :
    ∃ roots t, (insertThenRemoveAll [(5, 50), (1, 10), (3, 30), (2, 20)] [3, 5, 2, 1]).run
        (BPlusTree.new 2 3 1 none) = Res.ok (roots, true) t ∧
      t.root_page_id_ = INVALID_PAGE_ID ∧
      roots.length = [(3 : KeyType), 5, 2, 1].length ∧
      ∀ p, roots.getLast? = some p → p ≠ INVALID_PAGE_ID ∧ t.pages p = none :=
  remove_all_empties_tree 2 3 1 (by decide) (by decide) (by decide)
    [(5, 50), (1, 10), (3, 30), (2, 20)] (by decide) [3, 5, 2, 1] (by decide)

/-- C5: internal-node bound invariant.  On a tree constructed with `leaf_max_size >= 1`
and `internal_max_size >= 3` over a pool that holds the header page already (the next page
id is above `HEADER_PAGE_ID`) and in which `NewPage` never fails, every sequence of
`Insert` and `Remove` calls from the empty tree returns and leaves a tree in which, for
every internal page and every slot `i`, every key stored in the subtree of `ValueAt(i)` is
at least `KeyAt(i)` when `i >= 1` and below `KeyAt(i + 1)` when `i + 1 < GetSize()`. -/
theorem internal_bound_invariant (leaf_max_size internal_max_size : Nat)
    (first_page_id : page_id_t) (h1 : 1 ≤ leaf_max_size) (h3 : 3 ≤ internal_max_size)
    (h0 : HEADER_PAGE_ID < first_page_id) (ops : List Op) :
    ∃ s, (runOps ops).run
        (BPlusTree.new leaf_max_size internal_max_size first_page_id none) = Res.ok () s ∧
      BoundInvariant s := by
  obtain ⟨u, s, hrun, hrep⟩ := runOps_rep ops _ _
    (Rep_new leaf_max_size internal_max_size first_page_id h1 h3 h0)
  exact ⟨s, hrun, Rep_bound hrep⟩

theorem internal_bound_invariant_witness :
    ∃ s, (runOps [Op.insert 3 30, Op.insert 1 10, Op.insert 2 20, Op.insert 4 40,
        Op.remove 3]).run (BPlusTree.new 2 3 1 none) = Res.ok () s ∧
      BoundInvariant s :=
  internal_bound_invariant 2 3 1 (by decide) (by decide) (by decide)
    [Op.insert 3 30, Op.insert 1 10, Op.insert 2 20, Op.insert 4 40, Op.remove 3]

theorem PoolBase_new (pool_size : Nat) (disk : DiskManager) :
    PoolBase (BufferPoolManager.new pool_size disk) := by
  have h := PoolInv_new pool_size disk
  exact
    { fl_nodup := h.fl_nodup
      fl_range := h.fl_range
      pt_keys := h.pt_keys
      pt_vals := h.pt_vals
      pt_range := h.pt_range
      pt_disj := h.pt_disj
      pt_id := h.pt_id
      rep := h.rep
      rep_cap := rfl
      rep_range := fun f hf => by simp [BufferPoolManager.new, LRUReplacer.new] at hf
      rep_free := fun f hf => by simp [BufferPoolManager.new, LRUReplacer.new] at hf
      rep_pin := fun f hf => by simp [BufferPoolManager.new, LRUReplacer.new] at hf }

/-- The invariant only reads the bookkeeping structures and the page ids and pin counts
of the frames. -/
theorem PoolBase_congr {b c : BufferPoolManager} (h : PoolBase b)
    (hs : c.pool_size_ = b.pool_size_) (ht : c.page_table_ = b.page_table_)
    (hf : c.free_list_ = b.free_list_) (hr : c.replacer_ = b.replacer_)
    (hp : ∀ f, (c.pages_ f).page_id_ = (b.pages_ f).page_id_ ∧
      (c.pages_ f).pin_count_ = (b.pages_ f).pin_count_) : PoolBase c := by
  refine ⟨?_, ?_, ?_, ?_, ?_, ?_, ?_, ?_, ?_, ?_, ?_, ?_⟩
  · rw [hf]; exact h.fl_nodup
  · rw [hf, hs]; exact h.fl_range
  · rw [ht]; exact h.pt_keys
  · rw [ht]; exact h.pt_vals
  · rw [ht, hs]; exact h.pt_range
  · rw [ht, hf]; exact h.pt_disj
  · rw [ht]; intro e he; rw [(hp e.2).1]; exact h.pt_id e he
  · rw [hr]; exact h.rep
  · rw [hr, hs]; exact h.rep_cap
  · rw [hr, hs]; exact h.rep_range
  · rw [hr, hf]; exact h.rep_free
  · rw [hr]; intro f hfm; rw [(hp f).2]; exact h.rep_pin f hfm

/-- Installing page `p` in a frame `g` that is neither free nor mapped nor tracked
afterwards; `T` is what is left of the page table before `SetHelper1`. -/
theorem PoolBase_install {b c : BufferPoolManager} (h : PoolBase b)
    {p : page_id_t} {g : frame_id_t} {T : List (page_id_t × frame_id_t)}
    (hT : T.Sublist b.page_table_) (hgT : g ∉ T.map Prod.snd)
    (hgr : 0 ≤ g ∧ g < b.pool_size_)
    (hs : c.pool_size_ = b.pool_size_)
    (ht : c.page_table_ = (p, g) :: BufferPoolManager.eraseEntry T p)
    (hfs : c.free_list_.Sublist b.free_list_) (hgf : g ∉ c.free_list_)
    (hr1 : RInv c.replacer_) (hr2 : c.replacer_.capacity_ = b.replacer_.capacity_)
    (hr3 : ∀ f ∈ c.replacer_.order_, f ∈ b.replacer_.order_ ∧ f ≠ g)
    (hpg : (c.pages_ g).page_id_ = p)
    (hpo : ∀ f, f ≠ g → (c.pages_ f).page_id_ = (b.pages_ f).page_id_ ∧
      (c.pages_ f).pin_count_ = (b.pages_ f).pin_count_) : PoolBase c := by
  have hsubT := eraseEntry_sublist T p
  have hsub : (BufferPoolManager.eraseEntry T p).Sublist b.page_table_ := hsubT.trans hT
  have hne : ∀ e ∈ BufferPoolManager.eraseEntry T p, e.2 ≠ g := by
    intro e he heq
    exact hgT (List.mem_map.2 ⟨e, hsubT.subset he, heq⟩)
  refine ⟨?_, ?_, ?_, ?_, ?_, ?_, ?_, hr1, ?_, ?_, ?_, ?_⟩
  · exact h.fl_nodup.sublist hfs
  · rw [hs]
    intro f hfm
    exact h.fl_range f (hfs.subset hfm)
  · rw [ht, List.map_cons, List.nodup_cons]
    refine ⟨?_, h.pt_keys.sublist (hsub.map _)⟩
    intro hm
    rw [List.mem_map] at hm
    obtain ⟨e, he, heq⟩ := hm
    exact (mem_eraseEntry.1 he).2 heq
  · rw [ht, List.map_cons, List.nodup_cons]
    refine ⟨?_, h.pt_vals.sublist (hsub.map _)⟩
    intro hm
    rw [List.mem_map] at hm
    obtain ⟨e, he, heq⟩ := hm
    exact hne e he heq
  · rw [ht, hs]
    intro e he
    rcases List.mem_cons.1 he with rfl | he
    · exact hgr
    · exact h.pt_range e (hsub.subset he)
  · rw [ht]
    intro e he
    rcases List.mem_cons.1 he with rfl | he
    · exact hgf
    · intro hm
      exact h.pt_disj e (hsub.subset he) (hfs.subset hm)
  · rw [ht]
    intro e he
    rcases List.mem_cons.1 he with rfl | he
    · exact hpg
    · rw [(hpo e.2 (hne e he)).1]
      exact h.pt_id e (hsub.subset he)
  · rw [hr2, hs]; exact h.rep_cap
  · rw [hs]
    intro f hfm
    exact h.rep_range f (hr3 f hfm).1
  · intro f hfm hm
    exact h.rep_free f (hr3 f hfm).1 (hfs.subset hm)
  · intro f hfm
    rw [(hpo f (hr3 f hfm).2).2]
    exact h.rep_pin f (hr3 f hfm).1

/-- The frame at the front of the free list can take a page. -/
theorem PoolBase_free_facts {b : BufferPoolManager} (h : PoolBase b) {g : frame_id_t}
    {rest : List frame_id_t} (hfl : b.free_list_ = g :: rest) :
    g ∉ b.page_table_.map Prod.snd ∧ (0 ≤ g ∧ g < b.pool_size_) ∧
      rest.Sublist b.free_list_ ∧ g ∉ rest ∧
      ∀ f ∈ b.replacer_.order_, f ∈ b.replacer_.order_ ∧ f ≠ g := by
  have hnd := h.fl_nodup
  rw [hfl, List.nodup_cons] at hnd
  have hgmem : g ∈ b.free_list_ := by rw [hfl]; simp
  refine ⟨?_, h.fl_range g hgmem, by rw [hfl]; exact List.sublist_cons_self _ _, hnd.1, ?_⟩
  · intro hm
    rw [List.mem_map] at hm
    obtain ⟨e, he, rfl⟩ := hm
    exact h.pt_disj e he hgmem
  · intro f hf
    refine ⟨hf, ?_⟩
    rintro rfl
    exact h.rep_free f hf hgmem

/-- The victim of the replacer can take a page once its old page id is unmapped. -/
theorem PoolBase_victim_facts {b : BufferPoolManager} (h : PoolBase b) {g : frame_id_t}
    (hv : b.replacer_.Victim.1 = some g) :
    g ∉ (BufferPoolManager.eraseEntry b.page_table_ (b.pages_ g).page_id_).map Prod.snd ∧
      (0 ≤ g ∧ g < b.pool_size_) ∧ g ∉ b.free_list_ ∧
      (b.pages_ g).pin_count_ = 0 ∧
      ∀ f ∈ b.replacer_.Victim.2.order_, f ∈ b.replacer_.order_ ∧ f ≠ g := by
  have hgo := Victim_some_mem hv
  refine ⟨?_, h.rep_range g hgo, h.rep_free g hgo, h.rep_pin g hgo,
    fun f hf => mem_Victim_order h.rep hv hf⟩
  intro hm
  rw [List.mem_map] at hm
  obtain ⟨e, he, heq⟩ := hm
  rw [mem_eraseEntry] at he
  have := h.pt_id e he.1
  rw [heq] at this
  exact he.2 this.symm

theorem PoolBase_FetchPageImpl {b : BufferPoolManager} (h : PoolBase b) (p : page_id_t) :
    PoolBase (b.FetchPageImpl p).2 := by
  unfold BufferPoolManager.FetchPageImpl
  split
  · rename_i g hlk
    refine ⟨h.fl_nodup, h.fl_range, h.pt_keys, h.pt_vals, h.pt_range, h.pt_disj, ?_,
      RInv_Pin h.rep g, ?_, ?_, ?_, ?_⟩
    · intro e he
      show (Function.update b.pages_ g _ e.2).page_id_ = _
      by_cases heg : e.2 = g
      · have := h.pt_id e he
        rw [heg] at this ⊢
        simpa using this
      · rw [Function.update_noteq heg]
        exact h.pt_id e he
    · exact (capacity_apply b.replacer_ (ROp.Pin g)).trans h.rep_cap
    · intro f hf
      exact h.rep_range f (mem_Pin_order h.rep hf).1
    · intro f hf
      exact h.rep_free f (mem_Pin_order h.rep hf).1
    · intro f hf
      obtain ⟨h1, h2⟩ := mem_Pin_order h.rep hf
      show (Function.update b.pages_ g _ f).pin_count_ = 0
      rw [Function.update_noteq h2]
      exact h.rep_pin f h1
  · rename_i hlk
    split
    · rename_i g rest hfl
      obtain ⟨f1, f2, f3, f4, f5⟩ := PoolBase_free_facts h hfl
      refine PoolBase_install (g := g) (p := p) h (List.Sublist.refl _) f1 f2 rfl rfl f3 f4
        h.rep rfl f5 ?_ ?_
      · simp [BufferPoolManager.readInto, BufferPoolManager.SetHelper1]
      · intro f hfg
        simp [BufferPoolManager.readInto, BufferPoolManager.SetHelper1,
          Function.update_noteq hfg]
    · rename_i hfl
      split
      · exact h
      · rename_i g hv
        obtain ⟨v1, v2, v3, _, v5⟩ := PoolBase_victim_facts h hv
        refine PoolBase_install (g := g) (p := p) h (eraseEntry_sublist _ _) v1 v2 rfl rfl
          (List.Sublist.refl _) v3 (RInv_Victim h.rep)
          (capacity_apply b.replacer_ ROp.Victim) v5 ?_ ?_
        · simp [BufferPoolManager.readInto, BufferPoolManager.SetHelper1]
        · intro f hfg
          simp [BufferPoolManager.readInto, BufferPoolManager.SetHelper1,
            BufferPoolManager.evict, Function.update_noteq hfg]

theorem PoolBase_UnpinPageImpl {b : BufferPoolManager} (h : PoolBase b) (p : page_id_t)
    (d : Bool) : PoolBase (b.UnpinPageImpl p d).2 := by
  unfold BufferPoolManager.UnpinPageImpl
  split
  · exact h
  · rename_i g hlk
    split
    · exact h
    · rename_i hpin
      have hpg : (p, g) ∈ b.page_table_ := lookup_eq_some_mem hlk
      have hgo : g ∉ b.replacer_.order_ := by
        intro hm
        have := h.rep_pin g hm
        omega
      have hord : ∀ f ∈ (if (b.pages_ g).pin_count_ - 1 = 0 then b.replacer_.Unpin g
          else b.replacer_).order_, f ∈ b.replacer_.order_ ∨
            (f = g ∧ (b.pages_ g).pin_count_ - 1 = 0) := by
        intro f hf
        split at hf
        · rename_i h0
          rcases mem_Unpin_order hf with h1 | h1
          · exact Or.inl h1
          · exact Or.inr ⟨h1, h0⟩
        · exact Or.inl hf
      refine ⟨h.fl_nodup, h.fl_range, h.pt_keys, h.pt_vals, h.pt_range, h.pt_disj, ?_,
        ?_, ?_, ?_, ?_, ?_⟩
      · intro e he
        show (Function.update b.pages_ g _ e.2).page_id_ = _
        by_cases heg : e.2 = g
        · have := h.pt_id e he
          rw [heg] at this ⊢
          simpa using this
        · rw [Function.update_noteq heg]
          exact h.pt_id e he
      · show RInv (if _ then _ else _)
        split
        · exact RInv_Unpin h.rep g
        · exact h.rep
      · show (if (b.pages_ g).pin_count_ - 1 = 0 then b.replacer_.Unpin g
          else b.replacer_).capacity_ = b.pool_size_
        split
        · exact (capacity_apply b.replacer_ (ROp.Unpin g)).trans h.rep_cap
        · exact h.rep_cap
      · intro f hf
        rcases hord f hf with h1 | ⟨h1, _⟩
        · exact h.rep_range f h1
        · rw [h1]; exact h.pt_range (p, g) hpg
      · intro f hf
        rcases hord f hf with h1 | ⟨h1, _⟩
        · exact h.rep_free f h1
        · rw [h1]; exact h.pt_disj (p, g) hpg
      · intro f hf
        show (Function.update b.pages_ g _ f).pin_count_ = 0
        rcases hord f hf with h1 | ⟨h1, h2⟩
        · have hfg : f ≠ g := fun h0 => hgo (h0 ▸ h1)
          rw [Function.update_noteq hfg]
          exact h.rep_pin f h1
        · rw [h1]
          simpa using h2

theorem PoolBase_NewPageImpl {b : BufferPoolManager} (h : PoolBase b) :
    PoolBase b.NewPageImpl.2 := by
  unfold BufferPoolManager.NewPageImpl
  simp only
  split
  · rename_i g rest hfl
    have hfl2 : b.free_list_ = g :: rest := hfl
    obtain ⟨f1, f2, f3, f4, f5⟩ := PoolBase_free_facts h hfl2
    refine PoolBase_install (g := g) (p := b.disk_manager_.AllocatePage.1) h
      (List.Sublist.refl _) f1 f2 rfl rfl f3 f4 h.rep rfl f5 ?_ ?_
    · simp [BufferPoolManager.SetHelper1, Page.ResetMemory]
    · intro f hfg
      simp [BufferPoolManager.SetHelper1, Function.update_noteq hfg]
  · rename_i hfl
    split
    · exact PoolBase_congr h rfl rfl rfl rfl (fun _ => ⟨rfl, rfl⟩)
    · rename_i g hv
      have hv2 : b.replacer_.Victim.1 = some g := hv
      obtain ⟨v1, v2, v3, _, v5⟩ := PoolBase_victim_facts h hv2
      refine PoolBase_install (g := g) (p := b.disk_manager_.AllocatePage.1) h
        (eraseEntry_sublist _ _) v1 v2 rfl rfl (List.Sublist.refl _) v3 (RInv_Victim h.rep)
        (capacity_apply b.replacer_ ROp.Victim) v5 ?_ ?_
      · simp [BufferPoolManager.SetHelper1, Page.ResetMemory]
      · intro f hfg
        simp [BufferPoolManager.SetHelper1, BufferPoolManager.evict,
          Function.update_noteq hfg]

theorem PoolBase_DeletePageImpl {b : BufferPoolManager} (h : PoolBase b) (p : page_id_t) :
    PoolBase (b.DeletePageImpl p).2 := by
  unfold BufferPoolManager.DeletePageImpl
  split
  · exact PoolBase_congr h rfl rfl rfl rfl (fun _ => ⟨rfl, rfl⟩)
  · rename_i g hlk
    split
    · exact h
    · have hpg : (p, g) ∈ b.page_table_ := lookup_eq_some_mem hlk
      have hsub := eraseEntry_sublist b.page_table_ p
      have hne : ∀ e ∈ BufferPoolManager.eraseEntry b.page_table_ p, e.2 ≠ g := by
        intro e he heq
        rw [mem_eraseEntry] at he
        obtain ⟨e1, e2⟩ := e
        simp only at heq
        subst heq
        exact he.2 (entry_unique_of_vals h.pt_vals he.1 hpg)
      refine ⟨?_, ?_, ?_, ?_, ?_, ?_, ?_, RInv_Pin h.rep g, ?_, ?_, ?_, ?_⟩
      · show (b.free_list_ ++ [g]).Nodup
        rw [List.nodup_append]
        refine ⟨h.fl_nodup, List.nodup_singleton g, ?_⟩
        intro a ha hb
        rw [List.mem_singleton] at hb
        subst hb
        exact h.pt_disj (p, a) hpg ha
      · intro f hf
        have hf2 : f ∈ b.free_list_ ++ [g] := hf
        rw [List.mem_append, List.mem_singleton] at hf2
        rcases hf2 with hf2 | rfl
        · exact h.fl_range f hf2
        · exact h.pt_range (p, f) hpg
      · exact h.pt_keys.sublist (hsub.map _)
      · exact h.pt_vals.sublist (hsub.map _)
      · intro e he
        exact h.pt_range e (hsub.subset he)
      · intro e he hm
        have hm2 : e.2 ∈ b.free_list_ ++ [g] := hm
        rw [List.mem_append, List.mem_singleton] at hm2
        rcases hm2 with hm2 | hm2
        · exact h.pt_disj e (hsub.subset he) hm2
        · exact hne e he hm2
      · intro e he
        show (Function.update b.pages_ g _ e.2).page_id_ = _
        rw [Function.update_noteq (hne e he)]
        exact h.pt_id e (hsub.subset he)
      · exact (capacity_apply b.replacer_ (ROp.Pin g)).trans h.rep_cap
      · intro f hf
        exact h.rep_range f (mem_Pin_order h.rep hf).1
      · intro f hf hm
        obtain ⟨h1, h2⟩ := mem_Pin_order h.rep hf
        have hm2 : f ∈ b.free_list_ ++ [g] := hm
        rw [List.mem_append, List.mem_singleton] at hm2
        rcases hm2 with hm2 | hm2
        · exact h.rep_free f h1 hm2
        · exact h2 hm2
      · intro f hf
        obtain ⟨h1, h2⟩ := mem_Pin_order h.rep hf
        show (Function.update b.pages_ g _ f).pin_count_ = 0
        rw [Function.update_noteq h2]
        exact h.rep_pin f h1

theorem PoolBase_apply {b : BufferPoolManager} (h : PoolBase b) (op : BOp) :
    PoolBase (op.apply b) := by
  cases op with
  | Fetch p => exact PoolBase_FetchPageImpl h p
  | Unpin p d => exact PoolBase_UnpinPageImpl h p d
  | New => exact PoolBase_NewPageImpl h
  | Delete p => exact PoolBase_DeletePageImpl h p
  | Flush p =>
    simp only [BOp.apply, BufferPoolManager.FlushPageImpl]
    split
    · exact h
    · exact PoolBase_congr h rfl rfl rfl rfl (fun _ => ⟨rfl, rfl⟩)
  | FlushAll => exact PoolBase_congr h rfl rfl rfl rfl (fun _ => ⟨rfl, rfl⟩)

theorem PoolBase_poolRun (ops : List BOp) :
    ∀ b : BufferPoolManager, PoolBase b → PoolBase (poolRun b ops) := by
  induction ops with
  | nil => intro b h; exact h
  | cons op ops ih => intro b h; exact ih (op.apply b) (PoolBase_apply h op)

/-- Every state reached from a freshly constructed pool satisfies the bookkeeping
invariant. -/
theorem PoolBase_reach (pool_size : Nat) (disk : DiskManager) (ops : List BOp) :
    PoolBase (poolRun (BufferPoolManager.new pool_size disk) ops) :=
  PoolBase_poolRun ops _ (PoolBase_new pool_size disk)

theorem lookup_cons_self (pt : List (page_id_t × frame_id_t)) (p : page_id_t)
    (g : frame_id_t) : ((p, g) :: pt).lookup p = some g := by
  simp [List.lookup_cons]

theorem lookup_cons_ne (pt : List (page_id_t × frame_id_t)) {p q : page_id_t}
    (g : frame_id_t) (h : q ≠ p) : ((p, g) :: pt).lookup q = pt.lookup q := by
  have : (q == p) = false := by simpa using h
  simp [List.lookup_cons, this]

theorem lookup_eraseEntry_self (pt : List (page_id_t × frame_id_t)) (p : page_id_t) :
    (BufferPoolManager.eraseEntry pt p).lookup p = none := by
  rw [lookup_eq_none]
  intro e he
  exact (mem_eraseEntry.1 he).2

theorem lookup_eraseEntry_ne (pt : List (page_id_t × frame_id_t)) {p q : page_id_t}
    (h : q ≠ p) : (BufferPoolManager.eraseEntry pt p).lookup q = pt.lookup q := by
  induction pt with
  | nil => rfl
  | cons e pt ih =>
    obtain ⟨r, g⟩ := e
    by_cases hr : r = p
    · subst hr
      have h1 : BufferPoolManager.eraseEntry ((r, g) :: pt) r =
          BufferPoolManager.eraseEntry pt r := by
        simp [BufferPoolManager.eraseEntry]
      rw [h1, ih, lookup_cons_ne pt g h]
    · have h1 : BufferPoolManager.eraseEntry ((r, g) :: pt) p =
          (r, g) :: BufferPoolManager.eraseEntry pt p := by
        simp [BufferPoolManager.eraseEntry, hr]
      rw [h1]
      by_cases hq : q = r
      · subst hq
        rw [lookup_cons_self, lookup_cons_self]
      · rw [lookup_cons_ne _ g hq, lookup_cons_ne _ g hq, ih]

theorem lookup_of_mem {pt : List (page_id_t × frame_id_t)}
    (h : (pt.map Prod.fst).Nodup) {p : page_id_t} {f : frame_id_t} (hm : (p, f) ∈ pt) :
    pt.lookup p = some f := by
  cases hl : pt.lookup p with
  | none => exact absurd rfl (lookup_eq_none.1 hl (p, f) hm)
  | some g => rw [entry_unique_of_keys h (lookup_eq_some_mem hl) hm]

theorem not_tracked_Pin (r : LRUReplacer) (f : frame_id_t) : ¬ Tracked (r.Pin f) f := by
  unfold Tracked LRUReplacer.Pin
  split
  · simp
  · rename_i h; exact h

theorem tracked_Pin_ne (r : LRUReplacer) {f g : frame_id_t} (h : g ≠ f) :
    Tracked (r.Pin f) g ↔ Tracked r g := by
  unfold Tracked LRUReplacer.Pin
  split
  · simp [h]
  · rfl

theorem victim_none_iff (r : LRUReplacer) : r.Victim.1 = none ↔ r.order_ = [] := by
  unfold LRUReplacer.Victim
  cases hl : r.order_.getLast? with
  | none => simpa using List.getLast?_eq_none_iff.1 hl
  | some g =>
    constructor
    · intro h0
      cases h0
    · intro h0
      rw [h0] at hl
      cases hl

theorem tracks_none_iff {r : LRUReplacer} (h : RInv r) :
    r.order_ = [] ↔ ∀ f, ¬ Tracked r f := by
  unfold Tracked
  constructor
  · intro h0 f hf
    have := (h.keys f).1 hf
    rw [h0] at this
    cases this
  · intro h0
    cases hl : r.order_ with
    | nil => rfl
    | cons f rest =>
      exact absurd ((h.keys f).2 (by rw [hl]; simp)) (h0 f)

theorem FetchPageImpl_resident {b : BufferPoolManager} {p : page_id_t} {g : frame_id_t}
    (h : b.page_table_.lookup p = some g) :
    b.FetchPageImpl p = (some g,
      { b with
        pages_ := Function.update b.pages_ g
          { b.pages_ g with pin_count_ := (b.pages_ g).pin_count_ + 1 },
        replacer_ := b.replacer_.Pin g }) := by
  unfold BufferPoolManager.FetchPageImpl
  rw [h]

theorem FetchPageImpl_free {b : BufferPoolManager} {p : page_id_t} {g : frame_id_t}
    {rest : List frame_id_t} (h : b.page_table_.lookup p = none)
    (hf : b.free_list_ = g :: rest) :
    b.FetchPageImpl p = (some g,
      BufferPoolManager.readInto
        (BufferPoolManager.SetHelper1 { b with free_list_ := rest } p g) p g) := by
  unfold BufferPoolManager.FetchPageImpl
  rw [h, hf]

theorem FetchPageImpl_none {b : BufferPoolManager} {p : page_id_t}
    (h : b.page_table_.lookup p = none) (hf : b.free_list_ = [])
    (hv : b.replacer_.Victim.1 = none) : b.FetchPageImpl p = (none, b) := by
  unfold BufferPoolManager.FetchPageImpl
  rw [h, hf]
  simp only
  rw [hv]

theorem FetchPageImpl_victim {b : BufferPoolManager} {p : page_id_t} {g : frame_id_t}
    (h : b.page_table_.lookup p = none) (hf : b.free_list_ = [])
    (hv : b.replacer_.Victim.1 = some g) :
    b.FetchPageImpl p = (some g,
      BufferPoolManager.readInto
        (BufferPoolManager.SetHelper1
          (BufferPoolManager.evict { b with replacer_ := b.replacer_.Victim.2 } g) p g)
        p g) := by
  unfold BufferPoolManager.FetchPageImpl
  rw [h, hf]
  simp only
  rw [hv]

theorem UnpinPageImpl_absent {b : BufferPoolManager} {p : page_id_t} (d : Bool)
    (h : b.page_table_.lookup p = none) : b.UnpinPageImpl p d = (false, b) := by
  unfold BufferPoolManager.UnpinPageImpl
  rw [h]

theorem UnpinPageImpl_zero {b : BufferPoolManager} {p : page_id_t} {g : frame_id_t}
    (d : Bool) (h : b.page_table_.lookup p = some g) (hp : (b.pages_ g).pin_count_ ≤ 0) :
    b.UnpinPageImpl p d = (false, b) := by
  unfold BufferPoolManager.UnpinPageImpl
  rw [h]
  simp only
  rw [if_pos hp]

theorem UnpinPageImpl_pinned {b : BufferPoolManager} {p : page_id_t} {g : frame_id_t}
    (d : Bool) (h : b.page_table_.lookup p = some g)
    (hp : ¬ (b.pages_ g).pin_count_ ≤ 0) :
    b.UnpinPageImpl p d = (true,
      { b with
        pages_ := Function.update b.pages_ g
          { b.pages_ g with
            pin_count_ := (b.pages_ g).pin_count_ - 1,
            is_dirty_ := if d then true else (b.pages_ g).is_dirty_ },
        replacer_ :=
          if (b.pages_ g).pin_count_ - 1 = 0 then b.replacer_.Unpin g
          else b.replacer_ }) := by
  unfold BufferPoolManager.UnpinPageImpl
  rw [h]
  simp only
  rw [if_neg hp]

theorem FlushPageImpl_absent {b : BufferPoolManager} {p : page_id_t}
    (h : b.page_table_.lookup p = none) : b.FlushPageImpl p = (false, b) := by
  unfold BufferPoolManager.FlushPageImpl
  rw [h]

theorem FlushPageImpl_resident {b : BufferPoolManager} {p : page_id_t} {g : frame_id_t}
    (h : b.page_table_.lookup p = some g) :
    b.FlushPageImpl p = (true,
      { b with disk_manager_ := b.disk_manager_.WritePage p (b.pages_ g).data_ }) := by
  unfold BufferPoolManager.FlushPageImpl
  rw [h]

theorem NewPageImpl_free {b : BufferPoolManager} {g : frame_id_t} {rest : List frame_id_t}
    (hf : b.free_list_ = g :: rest) :
    b.NewPageImpl = (some (b.disk_manager_.AllocatePage.1, g),
      { BufferPoolManager.SetHelper1
          { b with disk_manager_ := b.disk_manager_.AllocatePage.2, free_list_ := rest }
          b.disk_manager_.AllocatePage.1 g with
        pages_ := Function.update
          (BufferPoolManager.SetHelper1
            { b with disk_manager_ := b.disk_manager_.AllocatePage.2, free_list_ := rest }
            b.disk_manager_.AllocatePage.1 g).pages_ g
          ((BufferPoolManager.SetHelper1
            { b with disk_manager_ := b.disk_manager_.AllocatePage.2, free_list_ := rest }
            b.disk_manager_.AllocatePage.1 g).pages_ g).ResetMemory }) := by
  unfold BufferPoolManager.NewPageImpl
  simp only
  rw [hf]

theorem NewPageImpl_none {b : BufferPoolManager} (hf : b.free_list_ = [])
    (hv : b.replacer_.Victim.1 = none) :
    b.NewPageImpl = (none,
      { b with disk_manager_ :=
          b.disk_manager_.AllocatePage.2.DeallocatePage b.disk_manager_.AllocatePage.1 }) := by
  unfold BufferPoolManager.NewPageImpl
  simp only
  rw [hf]
  simp only
  rw [hv]

theorem NewPageImpl_victim {b : BufferPoolManager} {g : frame_id_t}
    (hf : b.free_list_ = []) (hv : b.replacer_.Victim.1 = some g) :
    b.NewPageImpl = (some (b.disk_manager_.AllocatePage.1, g),
      { BufferPoolManager.SetHelper1
          (BufferPoolManager.evict
            { b with disk_manager_ := b.disk_manager_.AllocatePage.2,
                     replacer_ := b.replacer_.Victim.2 } g)
          b.disk_manager_.AllocatePage.1 g with
        pages_ := Function.update
          (BufferPoolManager.SetHelper1
            (BufferPoolManager.evict
              { b with disk_manager_ := b.disk_manager_.AllocatePage.2,
                       replacer_ := b.replacer_.Victim.2 } g)
            b.disk_manager_.AllocatePage.1 g).pages_ g
          ((BufferPoolManager.SetHelper1
            (BufferPoolManager.evict
              { b with disk_manager_ := b.disk_manager_.AllocatePage.2,
                       replacer_ := b.replacer_.Victim.2 } g)
            b.disk_manager_.AllocatePage.1 g).pages_ g).ResetMemory }) := by
  unfold BufferPoolManager.NewPageImpl
  simp only
  rw [hf]
  simp only
  rw [hv]

theorem DeletePageImpl_absent {b : BufferPoolManager} {p : page_id_t}
    (h : b.page_table_.lookup p = none) :
    b.DeletePageImpl p =
      (true, { b with disk_manager_ := b.disk_manager_.DeallocatePage p }) := by
  unfold BufferPoolManager.DeletePageImpl
  rw [h]

theorem DeletePageImpl_pinned {b : BufferPoolManager} {p : page_id_t} {g : frame_id_t}
    (h : b.page_table_.lookup p = some g) (hp : (b.pages_ g).pin_count_ > 0) :
    b.DeletePageImpl p = (false, b) := by
  unfold BufferPoolManager.DeletePageImpl
  rw [h]
  simp only
  rw [if_pos hp]

theorem DeletePageImpl_unpinned {b : BufferPoolManager} {p : page_id_t} {g : frame_id_t}
    (h : b.page_table_.lookup p = some g) (hp : ¬ (b.pages_ g).pin_count_ > 0) :
    b.DeletePageImpl p = (true,
      { b with
        page_table_ := BufferPoolManager.eraseEntry b.page_table_ p,
        pages_ := Function.update b.pages_ g
          { b.pages_ g with
            pin_count_ := 0, page_id_ := INVALID_PAGE_ID, is_dirty_ := false },
        free_list_ := b.free_list_ ++ [g],
        replacer_ := b.replacer_.Pin g,
        disk_manager_ := b.disk_manager_.DeallocatePage p }) := by
  unfold BufferPoolManager.DeletePageImpl
  rw [h]
  simp only
  rw [if_neg hp]

/-- C12: `FetchPage` on a resident page.  When the page table maps `page_id` to frame
`f`, `FetchPageImpl(page_id)` returns `f`, the pin count of `f` grows by exactly 1, `f`
is not tracked by the replacer afterwards and the other frames are tracked as before, the
disk collaborator receives no call, and the content, dirty flag and page id of `f`, the
page table, the free list and every other frame are as before. -/
theorem fetch_resident_effect (b : BufferPoolManager) (page_id : page_id_t)
    (f : frame_id_t) (h : b.page_table_.lookup page_id = some f) :
    (b.FetchPageImpl page_id).1 = some f ∧
    ((b.FetchPageImpl page_id).2.pages_ f).pin_count_ = (b.pages_ f).pin_count_ + 1 ∧
    ¬ Tracked (b.FetchPageImpl page_id).2.replacer_ f ∧
    (∀ g, g ≠ f → (Tracked (b.FetchPageImpl page_id).2.replacer_ g ↔ Tracked b.replacer_ g)) ∧
    (b.FetchPageImpl page_id).2.disk_manager_ = b.disk_manager_ ∧
    ((b.FetchPageImpl page_id).2.pages_ f).data_ = (b.pages_ f).data_ ∧
    ((b.FetchPageImpl page_id).2.pages_ f).is_dirty_ = (b.pages_ f).is_dirty_ ∧
    ((b.FetchPageImpl page_id).2.pages_ f).page_id_ = (b.pages_ f).page_id_ ∧
    (b.FetchPageImpl page_id).2.page_table_ = b.page_table_ ∧
    (b.FetchPageImpl page_id).2.free_list_ = b.free_list_ ∧
    (b.FetchPageImpl page_id).2.pool_size_ = b.pool_size_ ∧
    ∀ g, g ≠ f → (b.FetchPageImpl page_id).2.pages_ g = b.pages_ g := by
  rw [FetchPageImpl_resident h]
  refine ⟨rfl, by simp, not_tracked_Pin _ f, fun g hg => tracked_Pin_ne _ hg, rfl, by simp,
    by simp, by simp, rfl, rfl, rfl, ?_⟩
  intro g hg
  simp [Function.update_noteq hg]

theorem fetch_resident_effect_witness :
    (((BufferPoolManager.new 2 (DiskManager.fresh (fun _ => []))).NewPageImpl.2).FetchPageImpl
        0).1 = some 0 ∧
    ((((BufferPoolManager.new 2 (DiskManager.fresh (fun _ => []))).NewPageImpl.2).FetchPageImpl
        0).2.pages_ 0).pin_count_ =
      (((BufferPoolManager.new 2 (DiskManager.fresh (fun _ => []))).NewPageImpl.2).pages_
        0).pin_count_ + 1 :=
  ⟨(fetch_resident_effect _ 0 0 (by decide)).1, (fetch_resident_effect _ 0 0 (by decide)).2.1⟩

/-- C16: the dirty flag under `UnpinPage`.  For every pool state, page id and flag:
a frame that is dirty before `UnpinPageImpl` is dirty after it; after a successful
`UnpinPageImpl(page_id, true)` the frame holding `page_id` is dirty; and the dirty flag of
every frame other than the one holding `page_id` is unchanged. -/
theorem unpin_dirty_monotonic (b : BufferPoolManager) (page_id : page_id_t)
    (is_dirty : Bool) :
    (∀ g, (b.pages_ g).is_dirty_ = true →
      ((b.UnpinPageImpl page_id is_dirty).2.pages_ g).is_dirty_ = true) ∧
    (∀ f, b.page_table_.lookup page_id = some f →
      (b.UnpinPageImpl page_id true).1 = true →
      ((b.UnpinPageImpl page_id true).2.pages_ f).is_dirty_ = true) ∧
    (∀ g, b.page_table_.lookup page_id ≠ some g →
      ((b.UnpinPageImpl page_id is_dirty).2.pages_ g).is_dirty_ = (b.pages_ g).is_dirty_) := by
  refine ⟨?_, ?_, ?_⟩
  · intro g hg
    unfold BufferPoolManager.UnpinPageImpl
    split
    · exact hg
    · rename_i f hlk
      split
      · exact hg
      · show (Function.update b.pages_ f _ g).is_dirty_ = true
        by_cases hgf : g = f
        · subst hgf
          simp [hg]
        · rw [Function.update_noteq hgf]
          exact hg
  · intro f hlk hr
    unfold BufferPoolManager.UnpinPageImpl at hr ⊢
    rw [hlk] at hr ⊢
    simp only at hr ⊢
    split
    · rename_i h0
      rw [if_pos h0] at hr
      cases hr
    · simp
  · intro g hg
    unfold BufferPoolManager.UnpinPageImpl
    split
    · rfl
    · rename_i f hlk
      split
      · rfl
      · have hgf : g ≠ f := fun h0 => hg (h0 ▸ hlk)
        show (Function.update b.pages_ f _ g).is_dirty_ = _
        rw [Function.update_noteq hgf]

theorem unpin_dirty_monotonic_witness :
    ((((BufferPoolManager.new 2 (DiskManager.fresh (fun _ => []))).NewPageImpl.2).UnpinPageImpl
      0 true).2.pages_ 0).is_dirty_ = true :=
  (unpin_dirty_monotonic _ 0 true).2.1 0 (by decide) (by decide)

/-- C18: `DeletePage`.  For every pool state, `DeletePageImpl(page_id)` returns `false`
exactly when `page_id` is resident in a frame with pin count above 0, and then the whole
state, the disk collaborator included, is as before.  Otherwise it returns `true` and the
disk collaborator receives exactly the call `DeallocatePage(page_id)`; when `page_id` was
resident in frame `f`, afterwards `page_id` is not in the page table, `f` is at the back of
the free list, is not tracked by the replacer, and has page id `INVALID_PAGE_ID`, pin
count 0 and a clear dirty flag. -/
theorem delete_page_effect (b : BufferPoolManager) (page_id : page_id_t) :
    ((b.DeletePageImpl page_id).1 = false ↔
      ∃ f, b.page_table_.lookup page_id = some f ∧ 0 < (b.pages_ f).pin_count_) ∧
    ((b.DeletePageImpl page_id).1 = false → (b.DeletePageImpl page_id).2 = b) ∧
    ((b.DeletePageImpl page_id).1 = true →
      (b.DeletePageImpl page_id).2.disk_manager_ =
        b.disk_manager_.DeallocatePage page_id) ∧
    (∀ f, b.page_table_.lookup page_id = some f → (b.DeletePageImpl page_id).1 = true →
      (b.DeletePageImpl page_id).2.page_table_.lookup page_id = none ∧
      (b.DeletePageImpl page_id).2.free_list_.getLast? = some f ∧
      ¬ Tracked (b.DeletePageImpl page_id).2.replacer_ f ∧
      ((b.DeletePageImpl page_id).2.pages_ f).page_id_ = INVALID_PAGE_ID ∧
      ((b.DeletePageImpl page_id).2.pages_ f).pin_count_ = 0 ∧
      ((b.DeletePageImpl page_id).2.pages_ f).is_dirty_ = false) := by
  cases hlk : b.page_table_.lookup page_id with
  | none =>
    rw [DeletePageImpl_absent hlk]
    refine ⟨⟨?_, ?_⟩, ?_, ?_, ?_⟩
    · intro h0; cases h0
    · rintro ⟨f, hf, _⟩; cases hf
    · intro h0; cases h0
    · intro _; rfl
    · intro f hf; cases hf
  | some g =>
    by_cases hpin : (b.pages_ g).pin_count_ > 0
    · rw [DeletePageImpl_pinned hlk hpin]
      refine ⟨⟨?_, ?_⟩, ?_, ?_, ?_⟩
      · intro _; exact ⟨g, rfl, hpin⟩
      · intro _; rfl
      · intro _; rfl
      · intro h0; cases h0
      · intro f _ h0; cases h0
    · rw [DeletePageImpl_unpinned hlk hpin]
      refine ⟨⟨?_, ?_⟩, ?_, ?_, ?_⟩
      · intro h0; cases h0
      · rintro ⟨f, hf, hp⟩
        cases hf
        exact absurd hp hpin
      · intro h0; cases h0
      · intro _; rfl
      · intro f hf _
        cases hf
        refine ⟨lookup_eraseEntry_self _ _, by simp, not_tracked_Pin _ _, by simp, by simp,
          by simp⟩

theorem delete_page_effect_witness :
    ((((BufferPoolManager.new 2 (DiskManager.fresh (fun _ => []))).NewPageImpl.2).UnpinPageImpl
      0 false).2.DeletePageImpl 0).2.free_list_.getLast? = some 0 :=
  ((delete_page_effect _ 0).2.2.2 0 (by decide) (by decide)).2.1

theorem victim_cases (r : LRUReplacer) :
    (r.Victim.1 = none ∧ r.order_ = []) ∨ ∃ g, r.Victim.1 = some g ∧ g ∈ r.order_ := by
  cases hv : r.Victim.1 with
  | none => exact Or.inl ⟨rfl, (victim_none_iff r).1 hv⟩
  | some g => exact Or.inr ⟨g, rfl, Victim_some_mem hv⟩

/-- What `FetchPageImpl` does when it cannot serve the page, and when it takes a frame
from the free list. -/
theorem fetch_null_of_rinv (b : BufferPoolManager) (hr : RInv b.replacer_)
    (page_id : page_id_t) :
    ((b.FetchPageImpl page_id).1 = none ↔
      b.page_table_.lookup page_id = none ∧ b.free_list_ = [] ∧
        ∀ f, ¬ Tracked b.replacer_ f) ∧
    ((b.FetchPageImpl page_id).1 = none → (b.FetchPageImpl page_id).2 = b) ∧
    (∀ f rest, b.page_table_.lookup page_id = none → b.free_list_ = f :: rest →
      (b.FetchPageImpl page_id).1 = some f ∧
      (b.FetchPageImpl page_id).2.free_list_ = rest ∧
      (∀ q g, b.page_table_.lookup q = some g →
        (b.FetchPageImpl page_id).2.page_table_.lookup q = some g) ∧
      (b.FetchPageImpl page_id).2.replacer_ = b.replacer_ ∧
      (b.FetchPageImpl page_id).2.disk_manager_ = (b.disk_manager_.ReadPage page_id).2) := by
  refine ⟨?_, ?_, ?_⟩
  · cases hlk : b.page_table_.lookup page_id with
    | some g =>
      rw [FetchPageImpl_resident hlk]
      constructor
      · intro h0; cases h0
      · rintro ⟨h0, _⟩; cases h0
    | none =>
      cases hfl : b.free_list_ with
      | cons g rest =>
        rw [FetchPageImpl_free hlk hfl]
        constructor
        · intro h0; cases h0
        · rintro ⟨_, h0, _⟩; cases h0
      | nil =>
        rcases victim_cases b.replacer_ with ⟨hv, ho⟩ | ⟨g, hv, hg⟩
        · rw [FetchPageImpl_none hlk hfl hv]
          exact ⟨fun _ => ⟨rfl, rfl, (tracks_none_iff hr).1 ho⟩, fun _ => rfl⟩
        · rw [FetchPageImpl_victim hlk hfl hv]
          constructor
          · intro h0; cases h0
          · rintro ⟨_, _, h0⟩
            exact absurd ((hr.keys g).2 hg) (h0 g)
  · cases hlk : b.page_table_.lookup page_id with
    | some g =>
      rw [FetchPageImpl_resident hlk]
      intro h0; cases h0
    | none =>
      cases hfl : b.free_list_ with
      | cons g rest =>
        rw [FetchPageImpl_free hlk hfl]
        intro h0; cases h0
      | nil =>
        rcases victim_cases b.replacer_ with ⟨hv, ho⟩ | ⟨g, hv, hg⟩
        · rw [FetchPageImpl_none hlk hfl hv]
          intro _; rfl
        · rw [FetchPageImpl_victim hlk hfl hv]
          intro h0; cases h0
  · intro f rest hlk hfl
    rw [FetchPageImpl_free hlk hfl]
    refine ⟨rfl, rfl, ?_, rfl, rfl⟩
    intro q g hq
    have hqp : q ≠ page_id := fun h0 => by rw [h0, hlk] at hq; cases hq
    show ((page_id, f) :: BufferPoolManager.eraseEntry b.page_table_ page_id).lookup q = some g
    rw [lookup_cons_ne _ f hqp, lookup_eraseEntry_ne _ hqp]
    exact hq

/-- C13: `FetchPage` returning null.  In every state reached from a freshly constructed
pool by a sequence of calls, `FetchPageImpl(page_id)` returns `nullptr` exactly when
`page_id` is not resident, the free list is empty and the replacer tracks no frame, and
then the whole state, the disk collaborator included, is as before.  When `page_id` is not
resident and the free list is not empty, the frame returned is the front of the free
list, which is popped, every page that was resident stays resident in its frame, the
replacer is as before and the disk collaborator receives only `ReadPage(page_id)`. -/
theorem fetch_null_iff (pool_size : Nat) (disk : DiskManager) (ops : List BOp)
    (page_id : page_id_t) :
    let b := poolRun (BufferPoolManager.new pool_size disk) ops
    ((b.FetchPageImpl page_id).1 = none ↔
      b.page_table_.lookup page_id = none ∧ b.free_list_ = [] ∧
        ∀ f, ¬ Tracked b.replacer_ f) ∧
    ((b.FetchPageImpl page_id).1 = none → (b.FetchPageImpl page_id).2 = b) ∧
    (∀ f rest, b.page_table_.lookup page_id = none → b.free_list_ = f :: rest →
      (b.FetchPageImpl page_id).1 = some f ∧
      (b.FetchPageImpl page_id).2.free_list_ = rest ∧
      (∀ q g, b.page_table_.lookup q = some g →
        (b.FetchPageImpl page_id).2.page_table_.lookup q = some g) ∧
      (b.FetchPageImpl page_id).2.replacer_ = b.replacer_ ∧
      (b.FetchPageImpl page_id).2.disk_manager_ = (b.disk_manager_.ReadPage page_id).2) := by
  intro b
  exact fetch_null_of_rinv b (PoolBase_reach pool_size disk ops).rep page_id

theorem fetch_null_iff_witness :
    ((poolRun (BufferPoolManager.new 1 (DiskManager.fresh (fun _ => [])))
        [BOp.New]).FetchPageImpl 7).1 = none :=
  (fetch_null_iff 1 (DiskManager.fresh (fun _ => [])) [BOp.New] 7).1.2
    ⟨by decide, by decide, fun f => by
      have h0 : (poolRun (BufferPoolManager.new 1 (DiskManager.fresh (fun _ => [])))
          [BOp.New]).replacer_.hash_ = [] := by decide
      unfold Tracked
      rw [h0]
      simp⟩

/-- A mapped frame that the replacer does not track leaves room in the replacer. -/
theorem replacer_has_room {b : BufferPoolManager} (h : PoolBase b) {f : frame_id_t}
    (hr : 0 ≤ f ∧ f < b.pool_size_) (hf : f ∉ b.replacer_.order_) :
    b.replacer_.order_.length ≠ b.replacer_.capacity_ := by
  have hnd : (f :: b.replacer_.order_).Nodup := List.nodup_cons.2 ⟨hf, h.rep.nodup⟩
  have hsub : (f :: b.replacer_.order_) ⊆ (List.range b.pool_size_).map Int.ofNat := by
    intro x hx
    have hx2 : 0 ≤ x ∧ x < b.pool_size_ := by
      rcases List.mem_cons.1 hx with rfl | hx
      · exact hr
      · exact h.rep_range x hx
    rw [List.mem_map]
    refine ⟨x.toNat, List.mem_range.2 ?_, ?_⟩
    · exact (Int.toNat_lt hx2.1).2 hx2.2
    · simp only [Int.ofNat_eq_coe]
      exact Int.toNat_of_nonneg hx2.1
  have hlen := (hnd.subperm hsub).length_le
  simp only [List.length_cons, List.length_map, List.length_range] at hlen
  rw [h.rep_cap]
  omega

/-- What `UnpinPageImpl` does. -/
theorem unpin_effect_of_base (b : BufferPoolManager) (h : PoolBase b) (page_id : page_id_t)
    (is_dirty : Bool) :
    ((b.UnpinPageImpl page_id is_dirty).1 = false ↔
      b.page_table_.lookup page_id = none ∨
        ∃ f, b.page_table_.lookup page_id = some f ∧ (b.pages_ f).pin_count_ ≤ 0) ∧
    ((b.UnpinPageImpl page_id is_dirty).1 = false →
      (b.UnpinPageImpl page_id is_dirty).2 = b) ∧
    (∀ f, b.page_table_.lookup page_id = some f →
      (b.UnpinPageImpl page_id is_dirty).1 = true →
      ((b.UnpinPageImpl page_id is_dirty).2.pages_ f).pin_count_ =
        (b.pages_ f).pin_count_ - 1 ∧
      (Tracked (b.UnpinPageImpl page_id is_dirty).2.replacer_ f ↔
        ((b.UnpinPageImpl page_id is_dirty).2.pages_ f).pin_count_ = 0)) := by
  cases hlk : b.page_table_.lookup page_id with
  | none =>
    rw [UnpinPageImpl_absent is_dirty hlk]
    exact ⟨⟨fun _ => Or.inl rfl, fun _ => rfl⟩, fun _ => rfl, fun f hf => by cases hf⟩
  | some g =>
    by_cases hp : (b.pages_ g).pin_count_ ≤ 0
    · rw [UnpinPageImpl_zero is_dirty hlk hp]
      refine ⟨⟨fun _ => Or.inr ⟨g, rfl, hp⟩, fun _ => rfl⟩, fun _ => rfl, ?_⟩
      intro f _ h0
      cases h0
    · rw [UnpinPageImpl_pinned is_dirty hlk hp]
      refine ⟨⟨fun h0 => (by cases h0), ?_⟩, fun h0 => (by cases h0), ?_⟩
      · rintro (h0 | ⟨f, hf, hf2⟩)
        · cases h0
        · cases hf
          exact absurd hf2 hp
      · intro f hf _
        have hfg : f = g := (Option.some.inj hf).symm
        subst hfg
        have hpg : (page_id, f) ∈ b.page_table_ := lookup_eq_some_mem hlk
        have hfo : f ∉ b.replacer_.order_ := by
          intro hm
          have := h.rep_pin f hm
          omega
        have hpin : (Function.update b.pages_ f
            { b.pages_ f with
              pin_count_ := (b.pages_ f).pin_count_ - 1,
              is_dirty_ := if is_dirty then true else (b.pages_ f).is_dirty_ } f).pin_count_ =
            (b.pages_ f).pin_count_ - 1 := by simp
        refine ⟨hpin, ?_⟩
        show Tracked (if (b.pages_ f).pin_count_ - 1 = 0 then b.replacer_.Unpin f
          else b.replacer_) f ↔ _
        rw [hpin]
        constructor
        · intro ht
          by_contra hne
          rw [if_neg hne] at ht
          exact hfo ((h.rep.keys f).1 ht)
        · intro h0
          rw [if_pos h0]
          unfold Tracked LRUReplacer.Unpin
          have hroom := replacer_has_room h (h.pt_range (page_id, f) hpg) hfo
          have hnh : f ∉ b.replacer_.hash_ := fun hm => hfo ((h.rep.keys f).1 hm)
          rw [if_neg (by
            rintro (h1 | h1)
            · exact hnh h1
            · exact hroom h1)]
          simp

/-- C15: `UnpinPage`.  In every state reached from a freshly constructed pool by a
sequence of calls, `UnpinPageImpl(page_id, is_dirty)` returns `false` exactly when
`page_id` is not in the page table or the frame it is mapped to has pin count at most 0,
and then the whole state is as before, for both values of `is_dirty`; otherwise it returns
`true`, the pin count of the frame decreases by exactly 1, and afterwards the frame is
tracked by the replacer exactly when its new pin count is 0. -/
theorem unpin_page_effect (pool_size : Nat) (disk : DiskManager) (ops : List BOp)
    (page_id : page_id_t) (is_dirty : Bool) :
    let b := poolRun (BufferPoolManager.new pool_size disk) ops
    ((b.UnpinPageImpl page_id is_dirty).1 = false ↔
      b.page_table_.lookup page_id = none ∨
        ∃ f, b.page_table_.lookup page_id = some f ∧ (b.pages_ f).pin_count_ ≤ 0) ∧
    ((b.UnpinPageImpl page_id is_dirty).1 = false →
      (b.UnpinPageImpl page_id is_dirty).2 = b) ∧
    (∀ f, b.page_table_.lookup page_id = some f →
      (b.UnpinPageImpl page_id is_dirty).1 = true →
      ((b.UnpinPageImpl page_id is_dirty).2.pages_ f).pin_count_ =
        (b.pages_ f).pin_count_ - 1 ∧
      (Tracked (b.UnpinPageImpl page_id is_dirty).2.replacer_ f ↔
        ((b.UnpinPageImpl page_id is_dirty).2.pages_ f).pin_count_ = 0)) := by
  intro b
  exact unpin_effect_of_base b (PoolBase_reach pool_size disk ops) page_id is_dirty

theorem unpin_page_effect_witness :
    Tracked ((poolRun (BufferPoolManager.new 2 (DiskManager.fresh (fun _ => [])))
        [BOp.New, BOp.New]).UnpinPageImpl 1 false).2.replacer_ 1 :=
  ((unpin_page_effect 2 (DiskManager.fresh (fun _ => [])) [BOp.New, BOp.New] 1 false).2.2 1
    (by decide) (by decide)).2.2 (by decide)

/-- What `NewPageImpl` does. -/
theorem new_effect_of_rinv (b : BufferPoolManager) (hr : RInv b.replacer_) :
    (b.NewPageImpl.1 = none ↔ b.free_list_ = [] ∧ ∀ f, ¬ Tracked b.replacer_ f) ∧
    (b.NewPageImpl.1 = none →
      b.NewPageImpl.2.disk_manager_ =
        b.disk_manager_.AllocatePage.2.DeallocatePage b.disk_manager_.AllocatePage.1 ∧
      b.NewPageImpl.2.page_table_ = b.page_table_ ∧
      b.NewPageImpl.2.free_list_ = b.free_list_ ∧
      b.NewPageImpl.2.replacer_ = b.replacer_ ∧
      b.NewPageImpl.2.pages_ = b.pages_ ∧
      b.NewPageImpl.2.pool_size_ = b.pool_size_) ∧
    (∀ p f, b.NewPageImpl.1 = some (p, f) →
      p = b.disk_manager_.AllocatePage.1 ∧
      b.NewPageImpl.2.page_table_.lookup p = some f ∧
      (b.NewPageImpl.2.pages_ f).page_id_ = p ∧
      (b.NewPageImpl.2.pages_ f).pin_count_ = 1 ∧
      (b.NewPageImpl.2.pages_ f).is_dirty_ = false ∧
      (b.NewPageImpl.2.pages_ f).data_ = List.replicate PAGE_SIZE 0 ∧
      ∃ calls, b.NewPageImpl.2.disk_manager_.log = b.disk_manager_.log ++ calls ∧
        ∀ q, DiskOp.Read q ∉ calls) := by
  cases hfl : b.free_list_ with
  | cons g rest =>
    rw [NewPageImpl_free hfl]
    refine ⟨⟨fun h0 => (by cases h0), fun h0 => (by cases h0.1)⟩, fun h0 => (by cases h0), ?_⟩
    intro p f hpf
    simp only [Option.some.injEq, Prod.mk.injEq] at hpf
    obtain ⟨rfl, rfl⟩ := hpf
    refine ⟨rfl, lookup_cons_self _ _ _, ?_, ?_, ?_, ?_,
      [DiskOp.Allocate b.disk_manager_.next_page_id_], rfl, ?_⟩
    · simp [BufferPoolManager.SetHelper1, Page.ResetMemory]
    · simp [BufferPoolManager.SetHelper1, Page.ResetMemory]
    · simp [BufferPoolManager.SetHelper1, Page.ResetMemory]
    · simp [BufferPoolManager.SetHelper1, Page.ResetMemory]
    · intro q hq
      simp at hq
  | nil =>
    rcases victim_cases b.replacer_ with ⟨hv, ho⟩ | ⟨g, hv, hg⟩
    · rw [NewPageImpl_none hfl hv]
      refine ⟨⟨fun _ => ⟨rfl, (tracks_none_iff hr).1 ho⟩, fun _ => rfl⟩,
        fun _ => ⟨rfl, rfl, hfl, rfl, rfl, rfl⟩, fun p f h0 => (by cases h0)⟩
    · rw [NewPageImpl_victim hfl hv]
      refine ⟨⟨fun h0 => (by cases h0), fun h0 => absurd ((hr.keys g).2 hg) (h0.2 g)⟩,
        fun h0 => (by cases h0), ?_⟩
      intro p f hpf
      simp only [Option.some.injEq, Prod.mk.injEq] at hpf
      obtain ⟨rfl, rfl⟩ := hpf
      refine ⟨rfl, lookup_cons_self _ _ _, ?_, ?_, ?_, ?_, ?_⟩
      · simp [BufferPoolManager.SetHelper1, Page.ResetMemory]
      · simp [BufferPoolManager.SetHelper1, Page.ResetMemory]
      · simp [BufferPoolManager.SetHelper1, Page.ResetMemory]
      · simp [BufferPoolManager.SetHelper1, Page.ResetMemory]
      · by_cases hd : (b.pages_ g).is_dirty_ = true
        · refine ⟨[DiskOp.Allocate b.disk_manager_.next_page_id_,
            DiskOp.Write (b.pages_ g).page_id_ (b.pages_ g).data_], ?_, ?_⟩
          · simp [BufferPoolManager.SetHelper1, BufferPoolManager.evict, hd,
              DiskManager.WritePage, DiskManager.AllocatePage]
          · intro q hq
            simp at hq
        · refine ⟨[DiskOp.Allocate b.disk_manager_.next_page_id_], ?_, ?_⟩
          · simp [BufferPoolManager.SetHelper1, BufferPoolManager.evict, hd,
              DiskManager.AllocatePage]
          · intro q hq
            simp at hq

/-- C17: `NewPage`.  In every state reached from a freshly constructed pool by a sequence
of calls, `NewPageImpl` returns `nullptr` exactly when the free list is empty and the
replacer tracks no frame; then the page id obtained from `AllocatePage` is passed to
`DeallocatePage` and the page table, the free list, the replacer and every frame are as
before.  Otherwise it returns a frame that the page table maps the freshly allocated id
to, with that page id, pin count 1, a clear dirty flag and an all-zero buffer, and the
disk collaborator receives no `ReadPage`. -/
theorem new_page_effect (pool_size : Nat) (disk : DiskManager) (ops : List BOp) :
    let b := poolRun (BufferPoolManager.new pool_size disk) ops
    (b.NewPageImpl.1 = none ↔ b.free_list_ = [] ∧ ∀ f, ¬ Tracked b.replacer_ f) ∧
    (b.NewPageImpl.1 = none →
      b.NewPageImpl.2.disk_manager_ =
        b.disk_manager_.AllocatePage.2.DeallocatePage b.disk_manager_.AllocatePage.1 ∧
      b.NewPageImpl.2.page_table_ = b.page_table_ ∧
      b.NewPageImpl.2.free_list_ = b.free_list_ ∧
      b.NewPageImpl.2.replacer_ = b.replacer_ ∧
      b.NewPageImpl.2.pages_ = b.pages_ ∧
      b.NewPageImpl.2.pool_size_ = b.pool_size_) ∧
    (∀ p f, b.NewPageImpl.1 = some (p, f) →
      p = b.disk_manager_.AllocatePage.1 ∧
      b.NewPageImpl.2.page_table_.lookup p = some f ∧
      (b.NewPageImpl.2.pages_ f).page_id_ = p ∧
      (b.NewPageImpl.2.pages_ f).pin_count_ = 1 ∧
      (b.NewPageImpl.2.pages_ f).is_dirty_ = false ∧
      (b.NewPageImpl.2.pages_ f).data_ = List.replicate PAGE_SIZE 0 ∧
      ∃ calls, b.NewPageImpl.2.disk_manager_.log = b.disk_manager_.log ++ calls ∧
        ∀ q, DiskOp.Read q ∉ calls) := by
  intro b
  exact new_effect_of_rinv b (PoolBase_reach pool_size disk ops).rep

theorem new_page_effect_witness :
    ((poolRun (BufferPoolManager.new 1 (DiskManager.fresh (fun _ => [])))
        [BOp.New, BOp.Unpin 0 true]).NewPageImpl.2.pages_ 0).pin_count_ = 1 :=
  ((new_page_effect 1 (DiskManager.fresh (fun _ => [])) [BOp.New, BOp.Unpin 0 true]).2.2 1 0
    (by decide)).2.2.2.1

theorem writeAll_log (pages : frame_id_t → Page) :
    ∀ (l : List (page_id_t × frame_id_t)) (d : DiskManager),
      (l.foldl (fun d e => d.WritePage e.1 (pages e.2).data_) d).log =
        d.log ++ l.map (fun e => DiskOp.Write e.1 (pages e.2).data_) := by
  intro l
  induction l with
  | nil => intro d; simp
  | cons e l ih =>
    intro d
    rw [List.foldl_cons, ih]
    simp [DiskManager.WritePage]

theorem writeAll_content_not_mem (pages : frame_id_t → Page) {p : page_id_t} :
    ∀ (l : List (page_id_t × frame_id_t)) (d : DiskManager), p ∉ l.map Prod.fst →
      (l.foldl (fun d e => d.WritePage e.1 (pages e.2).data_) d).content p = d.content p := by
  intro l
  induction l with
  | nil => intro d _; rfl
  | cons e l ih =>
    intro d hp
    rw [List.map_cons, List.mem_cons, not_or] at hp
    rw [List.foldl_cons, ih _ hp.2]
    show Function.update d.content e.1 _ p = _
    rw [Function.update_noteq hp.1]

theorem writeAll_content_mem (pages : frame_id_t → Page) {p : page_id_t} {f : frame_id_t} :
    ∀ (l : List (page_id_t × frame_id_t)) (d : DiskManager), (l.map Prod.fst).Nodup →
      (p, f) ∈ l →
      (l.foldl (fun d e => d.WritePage e.1 (pages e.2).data_) d).content p =
        (pages f).data_ := by
  intro l
  induction l with
  | nil => intro d _ hm; cases hm
  | cons e l ih =>
    intro d hnd hm
    rw [List.map_cons, List.nodup_cons] at hnd
    rw [List.foldl_cons]
    rcases List.mem_cons.1 hm with h0 | h0
    · subst h0
      rw [writeAll_content_not_mem pages l _ hnd.1]
      show Function.update d.content p _ p = _
      rw [Function.update_same]
    · exact ih _ hnd.2 h0

/-- What `FlushPageImpl` and `FlushAllPagesImpl` do, for a page table with one entry per
page id. -/
theorem flush_effect_of_keys (b : BufferPoolManager)
    (hk : (b.page_table_.map Prod.fst).Nodup) (page_id : page_id_t) :
    ((b.FlushPageImpl page_id).1 = true ↔ ∃ f, b.page_table_.lookup page_id = some f) ∧
    (∀ f, b.page_table_.lookup page_id = some f →
      (b.FlushPageImpl page_id).2.disk_manager_.content page_id = (b.pages_ f).data_ ∧
      (b.FlushPageImpl page_id).2.disk_manager_.log =
        b.disk_manager_.log ++ [DiskOp.Write page_id (b.pages_ f).data_]) ∧
    ((b.FlushPageImpl page_id).1 = false → (b.FlushPageImpl page_id).2 = b) ∧
    (∀ p f, b.page_table_.lookup p = some f →
      b.FlushAllPagesImpl.disk_manager_.content p = (b.pages_ f).data_) ∧
    b.FlushAllPagesImpl.disk_manager_.log =
      b.disk_manager_.log ++
        b.page_table_.map (fun e => DiskOp.Write e.1 (b.pages_ e.2).data_) := by
  refine ⟨?_, ?_, ?_, ?_, ?_⟩
  · cases hlk : b.page_table_.lookup page_id with
    | none =>
      rw [FlushPageImpl_absent hlk]
      exact ⟨fun h0 => (by cases h0), fun ⟨f, hf⟩ => (by cases hf)⟩
    | some g =>
      rw [FlushPageImpl_resident hlk]
      exact ⟨fun _ => ⟨g, rfl⟩, fun _ => rfl⟩
  · intro f hlk
    rw [FlushPageImpl_resident hlk]
    refine ⟨?_, rfl⟩
    show Function.update b.disk_manager_.content page_id _ page_id = _
    rw [Function.update_same]
  · cases hlk : b.page_table_.lookup page_id with
    | none =>
      rw [FlushPageImpl_absent hlk]
      intro _; rfl
    | some g =>
      rw [FlushPageImpl_resident hlk]
      intro h0; cases h0
  · intro p f hlk
    exact writeAll_content_mem b.pages_ b.page_table_ b.disk_manager_ hk
      (lookup_eq_some_mem hlk)
  · exact writeAll_log b.pages_ b.page_table_ b.disk_manager_

/-- C19: `FlushPage` and `FlushAllPages`.  In every state reached from a freshly
constructed pool by a sequence of calls, `FlushPageImpl(page_id)` returns `true` exactly
when `page_id` is resident; then the disk collaborator receives `WritePage` with the
content of the frame, so that the disk content under `page_id` is the content of the
frame, whatever the dirty flag and the pin count of the frame are; when it returns `false`
the state, the disk included, is as before.  `FlushAllPagesImpl` issues one `WritePage`
per entry of the page table, after which the disk content under every resident page id is
the content of its frame. -/
theorem flush_page_effect (pool_size : Nat) (disk : DiskManager) (ops : List BOp)
    (page_id : page_id_t) :
    let b := poolRun (BufferPoolManager.new pool_size disk) ops
    ((b.FlushPageImpl page_id).1 = true ↔ ∃ f, b.page_table_.lookup page_id = some f) ∧
    (∀ f, b.page_table_.lookup page_id = some f →
      (b.FlushPageImpl page_id).2.disk_manager_.content page_id = (b.pages_ f).data_ ∧
      (b.FlushPageImpl page_id).2.disk_manager_.log =
        b.disk_manager_.log ++ [DiskOp.Write page_id (b.pages_ f).data_]) ∧
    ((b.FlushPageImpl page_id).1 = false → (b.FlushPageImpl page_id).2 = b) ∧
    (∀ p f, b.page_table_.lookup p = some f →
      b.FlushAllPagesImpl.disk_manager_.content p = (b.pages_ f).data_) ∧
    b.FlushAllPagesImpl.disk_manager_.log =
      b.disk_manager_.log ++
        b.page_table_.map (fun e => DiskOp.Write e.1 (b.pages_ e.2).data_) := by
  intro b
  exact flush_effect_of_keys b (PoolBase_reach pool_size disk ops).pt_keys page_id

theorem flush_page_effect_witness :
    ((poolRun (BufferPoolManager.new 2 (DiskManager.fresh (fun _ => [])))
        [BOp.New, BOp.New]).FlushPageImpl 1).2.disk_manager_.content 1 =
      ((poolRun (BufferPoolManager.new 2 (DiskManager.fresh (fun _ => [])))
        [BOp.New, BOp.New]).pages_ 1).data_ :=
  ((flush_page_effect 2 (DiskManager.fresh (fun _ => [])) [BOp.New, BOp.New] 1).2.1 1
    (by decide)).1

/-- Under the allocation discipline a frame tracked by the replacer holds a resident
page, under the page id stored in the frame. -/
theorem tracked_resident {b : BufferPoolManager} (h : PoolInv b) {g : frame_id_t}
    (hg : g ∈ b.replacer_.order_) :
    b.page_table_.lookup (b.pages_ g).page_id_ = some g := by
  have hm := h.rep_mapped g hg
  rw [List.mem_map] at hm
  obtain ⟨e, he, heq⟩ := hm
  have hid := h.pt_id e he
  rw [heq] at hid
  rw [hid]
  apply lookup_of_mem h.pt_keys
  obtain ⟨e1, e2⟩ := e
  simp only at heq
  subst heq
  exact he

/-- The page id held by the victim is not the page id of a pinned resident page. -/
theorem victim_old_ne {b : BufferPoolManager} (h : PoolInv b) (hb : PoolBase b)
    {g f : frame_id_t} {p : page_id_t} (hg : g ∈ b.replacer_.order_)
    (hp : b.page_table_.lookup p = some f) (hpin : 0 < (b.pages_ f).pin_count_) :
    p ≠ (b.pages_ g).page_id_ := by
  intro h0
  have h1 := tracked_resident h hg
  rw [← h0, hp] at h1
  have h2 : f = g := Option.some.inj h1
  have h3 := hb.rep_pin g hg
  rw [h2] at hpin
  omega

theorem lookup_install (T : List (page_id_t × frame_id_t)) {p q : page_id_t}
    (g : frame_id_t) (h : p ≠ q) :
    ((q, g) :: BufferPoolManager.eraseEntry T q).lookup p = T.lookup p := by
  rw [lookup_cons_ne _ g h, lookup_eraseEntry_ne _ h]

/-- Under the allocation discipline a pinned resident page stays resident in its frame
across every call. -/
theorem resident_stays {b : BufferPoolManager} (h : PoolInv b) (hb : PoolBase b) (op : BOp)
    {p : page_id_t} {f : frame_id_t} (hp : b.page_table_.lookup p = some f)
    (hpin : 0 < (b.pages_ f).pin_count_) : (op.apply b).page_table_.lookup p = some f := by
  have hpm : (p, f) ∈ b.page_table_ := lookup_eq_some_mem hp
  cases op with
  | Fetch q =>
    show (b.FetchPageImpl q).2.page_table_.lookup p = some f
    cases hlk : b.page_table_.lookup q with
    | some g =>
      rw [FetchPageImpl_resident hlk]
      exact hp
    | none =>
      have hpq : p ≠ q := fun h0 => by rw [h0, hlk] at hp; cases hp
      cases hfl : b.free_list_ with
      | cons g rest =>
        rw [FetchPageImpl_free hlk hfl]
        show ((q, g) :: BufferPoolManager.eraseEntry b.page_table_ q).lookup p = some f
        rw [lookup_install _ g hpq]
        exact hp
      | nil =>
        rcases victim_cases b.replacer_ with ⟨hv, _⟩ | ⟨g, hv, hg⟩
        · rw [FetchPageImpl_none hlk hfl hv]
          exact hp
        · rw [FetchPageImpl_victim hlk hfl hv]
          show ((q, g) :: BufferPoolManager.eraseEntry
            (BufferPoolManager.eraseEntry b.page_table_ (b.pages_ g).page_id_) q).lookup p =
              some f
          rw [lookup_install _ g hpq, lookup_eraseEntry_ne _ (victim_old_ne h hb hg hp hpin)]
          exact hp
  | Unpin q d =>
    show (b.UnpinPageImpl q d).2.page_table_.lookup p = some f
    cases hlk : b.page_table_.lookup q with
    | none =>
      rw [UnpinPageImpl_absent d hlk]
      exact hp
    | some g =>
      by_cases h0 : (b.pages_ g).pin_count_ ≤ 0
      · rw [UnpinPageImpl_zero d hlk h0]
        exact hp
      · rw [UnpinPageImpl_pinned d hlk h0]
        exact hp
  | New =>
    show b.NewPageImpl.2.page_table_.lookup p = some f
    have hpq : p ≠ b.disk_manager_.AllocatePage.1 := ne_of_lt (h.alloc (p, f) hpm)
    cases hfl : b.free_list_ with
    | cons g rest =>
      rw [NewPageImpl_free hfl]
      show ((b.disk_manager_.AllocatePage.1, g) ::
        BufferPoolManager.eraseEntry b.page_table_ b.disk_manager_.AllocatePage.1).lookup p =
          some f
      rw [lookup_install _ g hpq]
      exact hp
    | nil =>
      rcases victim_cases b.replacer_ with ⟨hv, _⟩ | ⟨g, hv, hg⟩
      · rw [NewPageImpl_none hfl hv]
        exact hp
      · rw [NewPageImpl_victim hfl hv]
        show ((b.disk_manager_.AllocatePage.1, g) :: BufferPoolManager.eraseEntry
          (BufferPoolManager.eraseEntry b.page_table_ (b.pages_ g).page_id_)
          b.disk_manager_.AllocatePage.1).lookup p = some f
        rw [lookup_install _ g hpq, lookup_eraseEntry_ne _ (victim_old_ne h hb hg hp hpin)]
        exact hp
  | Delete q =>
    show (b.DeletePageImpl q).2.page_table_.lookup p = some f
    cases hlk : b.page_table_.lookup q with
    | none =>
      rw [DeletePageImpl_absent hlk]
      exact hp
    | some g =>
      by_cases h0 : (b.pages_ g).pin_count_ > 0
      · rw [DeletePageImpl_pinned hlk h0]
        exact hp
      · rw [DeletePageImpl_unpinned hlk h0]
        have hpq : p ≠ q := by
          intro h1
          rw [h1, hlk] at hp
          have h2 : g = f := Option.some.inj hp
          rw [h2] at h0
          exact h0 hpin
        show (BufferPoolManager.eraseEntry b.page_table_ q).lookup p = some f
        rw [lookup_eraseEntry_ne _ hpq]
        exact hp
  | Flush q =>
    show (b.FlushPageImpl q).2.page_table_.lookup p = some f
    cases hlk : b.page_table_.lookup q with
    | none =>
      rw [FlushPageImpl_absent hlk]
      exact hp
    | some g =>
      rw [FlushPageImpl_resident hlk]
      exact hp
  | FlushAll => exact hp

/-- The frame that `FetchPageImpl` takes from the replacer. -/
theorem fetch_victim_frame {b : BufferPoolManager} {p : page_id_t} {f : frame_id_t}
    (hlk : b.page_table_.lookup p = none) (hfl : b.free_list_ = [])
    (hr : (b.FetchPageImpl p).1 = some f) :
    b.replacer_.Victim.1 = some f ∧ f ∈ b.replacer_.order_ := by
  rcases victim_cases b.replacer_ with ⟨hv, _⟩ | ⟨g, hv, hg⟩
  · rw [FetchPageImpl_none hlk hfl hv] at hr
    cases hr
  · rw [FetchPageImpl_victim hlk hfl hv] at hr
    have h0 : g = f := Option.some.inj hr
    subst h0
    exact ⟨hv, hg⟩

/-- The frame that `NewPageImpl` takes from the replacer. -/
theorem new_victim_frame {b : BufferPoolManager} {p : page_id_t} {f : frame_id_t}
    (hfl : b.free_list_ = []) (hr : b.NewPageImpl.1 = some (p, f)) :
    b.replacer_.Victim.1 = some f ∧ f ∈ b.replacer_.order_ := by
  rcases victim_cases b.replacer_ with ⟨hv, _⟩ | ⟨g, hv, hg⟩
  · rw [NewPageImpl_none hfl hv] at hr
    cases hr
  · rw [NewPageImpl_victim hfl hv] at hr
    simp only [Option.some.injEq, Prod.mk.injEq] at hr
    obtain ⟨_, h0⟩ := hr
    subst h0
    exact ⟨hv, hg⟩

/-- Claim C11, as stated, fails: on a pool of two frames over a disk that has issued no
page id yet, after `FetchPage(0)`, `UnpinPage(0, false)` and `NewPage()` (which is issued
page id 0) the replacer tracks frame 0 although no page id is mapped to it; and page 0,
resident in frame 1 with pin count 1, is no longer in the page table after one more
`NewPage()`. -/
theorem pinned_never_evicted_counterexample :
    (Tracked (poolRun (BufferPoolManager.new 2 (DiskManager.fresh (fun _ => [])))
        [BOp.Fetch 0, BOp.Unpin 0 false, BOp.New]).replacer_ 0 ∧
      ∀ p, (poolRun (BufferPoolManager.new 2 (DiskManager.fresh (fun _ => [])))
        [BOp.Fetch 0, BOp.Unpin 0 false, BOp.New]).page_table_.lookup p ≠ some 0) ∧
    ((poolRun (BufferPoolManager.new 2 (DiskManager.fresh (fun _ => [])))
        [BOp.Fetch 0, BOp.Unpin 0 false, BOp.New]).page_table_.lookup 0 = some 1 ∧
      ((poolRun (BufferPoolManager.new 2 (DiskManager.fresh (fun _ => [])))
        [BOp.Fetch 0, BOp.Unpin 0 false, BOp.New]).pages_ 1).pin_count_ = 1 ∧
      (BOp.New.apply (poolRun (BufferPoolManager.new 2 (DiskManager.fresh (fun _ => [])))
        [BOp.Fetch 0, BOp.Unpin 0 false, BOp.New])).page_table_.lookup 0 = none) := by
  have hpt : (poolRun (BufferPoolManager.new 2 (DiskManager.fresh (fun _ => [])))
      [BOp.Fetch 0, BOp.Unpin 0 false, BOp.New]).page_table_ = [(0, 1)] := by decide
  refine ⟨⟨by decide, ?_⟩, by decide, by decide, by decide⟩
  intro p hp
  rw [hpt] at hp
  have := lookup_eq_some_mem hp
  simp at this

/-- Claim C11, amended.  In every state reached from a freshly constructed pool by a
sequence of Fetch/Unpin/New/Delete/Flush calls: every frame tracked by the replacer has
pin count 0, and whenever `FetchPageImpl` or `NewPageImpl` repurposes a frame obtained
from the replacer, the pin count of that frame was 0 before the call.  When, in
addition, `FetchPage` was only asked for page ids below the allocation counter of the
disk collaborator: every frame tracked by the replacer is mapped in the page table, and
a page resident in a frame with pin count above 0 is resident in the same frame after
every pool call. -/
theorem pinned_never_evicted (pool_size : Nat) (disk : DiskManager) (ops : List BOp) :
    let b := poolRun (BufferPoolManager.new pool_size disk) ops
    (∀ f, Tracked b.replacer_ f → (b.pages_ f).pin_count_ = 0) ∧
    (∀ p f, b.page_table_.lookup p = none → b.free_list_ = [] →
      (b.FetchPageImpl p).1 = some f → (b.pages_ f).pin_count_ = 0) ∧
    (∀ p f, b.free_list_ = [] → b.NewPageImpl.1 = some (p, f) →
      (b.pages_ f).pin_count_ = 0) ∧
    (Allocated (BufferPoolManager.new pool_size disk) ops = true →
      (∀ f, Tracked b.replacer_ f → ∃ p, b.page_table_.lookup p = some f) ∧
      (∀ (op : BOp) p f, b.page_table_.lookup p = some f → 0 < (b.pages_ f).pin_count_ →
        (op.apply b).page_table_.lookup p = some f)) := by
  intro b
  have hb : PoolBase b := PoolBase_reach pool_size disk ops
  refine ⟨?_, ?_, ?_, ?_⟩
  · intro f hf
    exact hb.rep_pin f ((hb.rep.keys f).1 hf)
  · intro p f hlk hfl hr
    exact hb.rep_pin f (fetch_victim_frame hlk hfl hr).2
  · intro p f hfl hr
    exact hb.rep_pin f (new_victim_frame hfl hr).2
  · intro h
    have hi : PoolInv b := PoolInv_poolRun ops _ (PoolInv_new pool_size disk) h
    refine ⟨?_, ?_⟩
    · intro f hf
      exact ⟨_, tracked_resident hi ((hb.rep.keys f).1 hf)⟩
    · intro op p f hp hpin
      exact resident_stays hi hb op hp hpin

theorem pinned_never_evicted_witness :
    Allocated (BufferPoolManager.new 2 (DiskManager.fresh (fun _ => [])))
      [BOp.New, BOp.New, BOp.Unpin 0 true] = true ∧
    ((poolRun (BufferPoolManager.new 2 (DiskManager.fresh (fun _ => [])))
      [BOp.New, BOp.New, BOp.Unpin 0 true]).pages_ 0).pin_count_ = 0 ∧
    (BOp.New.apply (poolRun (BufferPoolManager.new 2 (DiskManager.fresh (fun _ => [])))
      [BOp.New, BOp.New, BOp.Unpin 0 true])).page_table_.lookup 1 = some 1 :=
  ⟨by decide,
    (pinned_never_evicted 2 (DiskManager.fresh (fun _ => []))
      [BOp.New, BOp.New, BOp.Unpin 0 true]).1 0 (by decide),
    ((pinned_never_evicted 2 (DiskManager.fresh (fun _ => []))
      [BOp.New, BOp.New, BOp.Unpin 0 true]).2.2.2 (by decide)).2 BOp.New 1 1 (by decide)
      (by decide)⟩

/-- Claim C14, as stated, fails: on a pool of one frame over a disk that has issued no
page id yet, after `FetchPage(0)` and `UnpinPage(0, true)` the call `NewPage()` is issued
page id 0 and repurposes the dirty victim frame 0, whose old page id is 0; after the call
the old page id 0 is in the page table. -/
theorem evict_writes_back_counterexample :
    (poolRun (BufferPoolManager.new 1 (DiskManager.fresh (fun _ => [])))
      [BOp.Fetch 0, BOp.Unpin 0 true]).free_list_ = [] ∧
    (poolRun (BufferPoolManager.new 1 (DiskManager.fresh (fun _ => [])))
      [BOp.Fetch 0, BOp.Unpin 0 true]).replacer_.Victim.1 = some 0 ∧
    ((poolRun (BufferPoolManager.new 1 (DiskManager.fresh (fun _ => [])))
      [BOp.Fetch 0, BOp.Unpin 0 true]).pages_ 0).is_dirty_ = true ∧
    ((poolRun (BufferPoolManager.new 1 (DiskManager.fresh (fun _ => [])))
      [BOp.Fetch 0, BOp.Unpin 0 true]).pages_ 0).page_id_ = 0 ∧
    (poolRun (BufferPoolManager.new 1 (DiskManager.fresh (fun _ => [])))
      [BOp.Fetch 0, BOp.Unpin 0 true]).NewPageImpl.1 = some (0, 0) ∧
    (poolRun (BufferPoolManager.new 1 (DiskManager.fresh (fun _ => [])))
      [BOp.Fetch 0, BOp.Unpin 0 true]).NewPageImpl.2.page_table_.lookup 0 = some 0 := by
  refine ⟨by decide, by decide, by decide, by decide, by decide, by decide⟩

/-- Claim C14, amended.  In every state of the pool, whenever `FetchPageImpl` or
`NewPageImpl` repurposes a victim frame of the replacer: when the victim is dirty, the
disk content under its old page id after the call is the content of the frame before the
call; when the victim is not dirty, the disk collaborator receives no `WritePage` (only
the `ReadPage` of the fetched page, respectively the `AllocatePage`).  When, in addition,
the state was reached from a freshly constructed pool by a sequence of
Fetch/Unpin/New/Delete/Flush calls in which `FetchPage` was only asked for page ids below
the allocation counter of the disk collaborator, the old page id of the victim is not in
the page table after the call. -/
theorem evict_writes_back (b : BufferPoolManager) :
    (∀ p f, b.page_table_.lookup p = none → b.free_list_ = [] →
      (b.FetchPageImpl p).1 = some f →
      ((b.pages_ f).is_dirty_ = true →
        (b.FetchPageImpl p).2.disk_manager_.content (b.pages_ f).page_id_ =
          (b.pages_ f).data_) ∧
      ((b.pages_ f).is_dirty_ = false →
        (b.FetchPageImpl p).2.disk_manager_ = (b.disk_manager_.ReadPage p).2)) ∧
    (∀ p f, b.free_list_ = [] → b.NewPageImpl.1 = some (p, f) →
      ((b.pages_ f).is_dirty_ = true →
        b.NewPageImpl.2.disk_manager_.content (b.pages_ f).page_id_ = (b.pages_ f).data_) ∧
      ((b.pages_ f).is_dirty_ = false →
        b.NewPageImpl.2.disk_manager_ = b.disk_manager_.AllocatePage.2)) ∧
    (∀ (pool_size : Nat) (disk : DiskManager) (ops : List BOp),
      b = poolRun (BufferPoolManager.new pool_size disk) ops →
      Allocated (BufferPoolManager.new pool_size disk) ops = true →
      (∀ p f, b.page_table_.lookup p = none → b.free_list_ = [] →
        (b.FetchPageImpl p).1 = some f →
        (b.FetchPageImpl p).2.page_table_.lookup (b.pages_ f).page_id_ = none) ∧
      (∀ p f, b.free_list_ = [] → b.NewPageImpl.1 = some (p, f) →
        b.NewPageImpl.2.page_table_.lookup (b.pages_ f).page_id_ = none)) := by
  refine ⟨?_, ?_, ?_⟩
  · intro p f hlk hfl hr
    obtain ⟨hv, _⟩ := fetch_victim_frame hlk hfl hr
    rw [FetchPageImpl_victim hlk hfl hv]
    refine ⟨?_, ?_⟩
    · intro hd
      simp [BufferPoolManager.readInto, BufferPoolManager.SetHelper1, BufferPoolManager.evict,
        hd, DiskManager.ReadPage, DiskManager.WritePage]
    · intro hd
      simp [BufferPoolManager.readInto, BufferPoolManager.SetHelper1, BufferPoolManager.evict,
        hd]
  · intro p f hfl hr
    obtain ⟨hv, _⟩ := new_victim_frame hfl hr
    rw [NewPageImpl_victim hfl hv]
    refine ⟨?_, ?_⟩
    · intro hd
      simp [BufferPoolManager.SetHelper1, BufferPoolManager.evict, hd,
        DiskManager.WritePage]
    · intro hd
      simp [BufferPoolManager.SetHelper1, BufferPoolManager.evict, hd]
  · intro pool_size disk ops hb h
    have hi : PoolInv b := by
      rw [hb]
      exact PoolInv_poolRun ops _ (PoolInv_new pool_size disk) h
    refine ⟨?_, ?_⟩
    · intro p f hlk hfl hr
      obtain ⟨hv, hfo⟩ := fetch_victim_frame hlk hfl hr
      have hres := tracked_resident hi hfo
      have hne : (b.pages_ f).page_id_ ≠ p := fun h0 => by
        rw [h0, hlk] at hres
        cases hres
      rw [FetchPageImpl_victim hlk hfl hv]
      show ((p, f) :: BufferPoolManager.eraseEntry
        (BufferPoolManager.eraseEntry b.page_table_ (b.pages_ f).page_id_) p).lookup
          (b.pages_ f).page_id_ = none
      rw [lookup_install _ f hne]
      exact lookup_eraseEntry_self _ _
    · intro p f hfl hr
      obtain ⟨hv, hfo⟩ := new_victim_frame hfl hr
      have hres := tracked_resident hi hfo
      have hne : (b.pages_ f).page_id_ ≠ b.disk_manager_.AllocatePage.1 :=
        ne_of_lt (hi.alloc _ (lookup_eq_some_mem hres))
      rw [NewPageImpl_victim hfl hv]
      show ((b.disk_manager_.AllocatePage.1, f) :: BufferPoolManager.eraseEntry
        (BufferPoolManager.eraseEntry b.page_table_ (b.pages_ f).page_id_)
          b.disk_manager_.AllocatePage.1).lookup (b.pages_ f).page_id_ = none
      rw [lookup_install _ f hne]
      exact lookup_eraseEntry_self _ _

theorem evict_writes_back_witness :
    Allocated (BufferPoolManager.new 1 (DiskManager.fresh (fun _ => [])))
      [BOp.New, BOp.Unpin 0 true] = true ∧
    ((poolRun (BufferPoolManager.new 1 (DiskManager.fresh (fun _ => [])))
      [BOp.New, BOp.Unpin 0 true]).pages_ 0).is_dirty_ = true ∧
    (poolRun (BufferPoolManager.new 1 (DiskManager.fresh (fun _ => [])))
      [BOp.New, BOp.Unpin 0 true]).NewPageImpl.2.disk_manager_.content
        ((poolRun (BufferPoolManager.new 1 (DiskManager.fresh (fun _ => [])))
          [BOp.New, BOp.Unpin 0 true]).pages_ 0).page_id_ =
      ((poolRun (BufferPoolManager.new 1 (DiskManager.fresh (fun _ => [])))
        [BOp.New, BOp.Unpin 0 true]).pages_ 0).data_ ∧
    (poolRun (BufferPoolManager.new 1 (DiskManager.fresh (fun _ => [])))
      [BOp.New, BOp.Unpin 0 true]).NewPageImpl.2.page_table_.lookup
        ((poolRun (BufferPoolManager.new 1 (DiskManager.fresh (fun _ => [])))
          [BOp.New, BOp.Unpin 0 true]).pages_ 0).page_id_ = none :=
  ⟨by decide, by decide,
    ((evict_writes_back (poolRun (BufferPoolManager.new 1 (DiskManager.fresh (fun _ => [])))
      [BOp.New, BOp.Unpin 0 true])).2.1 1 0 (by decide) (by decide)).1 (by decide),
    ((evict_writes_back (poolRun (BufferPoolManager.new 1 (DiskManager.fresh (fun _ => [])))
      [BOp.New, BOp.Unpin 0 true])).2.2 1 (DiskManager.fresh (fun _ => []))
      [BOp.New, BOp.Unpin 0 true] rfl (by decide)).2 1 0 (by decide) (by decide)⟩

/-- There is one lookup slot for a key. -/
theorem IsLookupSlot_unique {arr : List (KeyType × Int)} {key : KeyType} {e1 e2 : Nat}
    (h1 : IsLookupSlot arr key e1) (h2 : IsLookupSlot arr key e2) : e1 = e2 := by
  have key_lt : ∀ {a b : Nat}, IsLookupSlot arr key a → IsLookupSlot arr key b → ¬ a < b := by
    intro a b ha hb hab
    have hb1 : b < arr.length := hb.1
    have hget : arr[b]? = some arr[b] := List.getElem?_eq_getElem hb1
    have c1 := ha.2.2 b _ hab hget
    have c2 := hb.2.1 b _ (by omega) (le_refl _) hget
    exact absurd c1 (not_lt.2 c2)
  rcases Nat.lt_trichotomy e1 e2 with h | h | h
  · exact absurd h (key_lt h1 h2)
  · exact h
  · exact absurd h (key_lt h2 h1)

theorem getElem?_SetKeyAt_zero (pg : BPlusTreePage) (k0 : KeyType) (i : Nat) :
    (pg.SetKeyAt 0 k0).array[i]? =
      (pg.array[i]?).map (fun a => if 0 = i then (k0, a.2) else a) := by
  show (pg.array.modify (fun e => (k0, e.2)) 0)[i]? = _
  rw [List.getElem?_modify]
  rfl

theorem getElem?_SetKeyAt_zero_pos (pg : BPlusTreePage) (k0 : KeyType) {i : Nat}
    (hi : 1 ≤ i) : (pg.SetKeyAt 0 k0).array[i]? = pg.array[i]? := by
  rw [getElem?_SetKeyAt_zero]
  have h0 : ¬ (0 = i) := by omega
  cases pg.array[i]? with
  | none => rfl
  | some a => simp [h0]

theorem length_SetKeyAt (pg : BPlusTreePage) (n : Nat) (k0 : KeyType) :
    (pg.SetKeyAt n k0).array.length = pg.array.length := by
  show (pg.array.modify (fun e => (k0, e.2)) n).length = _
  rw [List.length_modify]

/-- Method `Lookup` of the internal page does not read the key of slot 0. -/
theorem LookupInternal_SetKeyAt_zero (pg : BPlusTreePage) (key k0 : KeyType)
    (hs : KeysAscending pg.array) (hne : pg.array ≠ []) :
    (pg.SetKeyAt 0 k0).LookupInternal key = pg.LookupInternal key := by
  have hlen := length_SetKeyAt pg 0 k0
  have hne2 : (pg.SetKeyAt 0 k0).array ≠ [] := by
    intro h0
    rw [h0] at hlen
    exact hne (List.length_eq_zero.1 hlen.symm)
  have hs2 : KeysAscending (pg.SetKeyAt 0 k0).array := by
    intro i j ei ej h1 h2 hi hj
    rw [getElem?_SetKeyAt_zero_pos pg k0 h1] at hi
    rw [getElem?_SetKeyAt_zero_pos pg k0 (by omega)] at hj
    exact hs i j ei ej h1 h2 hi hj
  obtain ⟨e, c, hl, hc, hslot⟩ := LookupInternal_spec pg key hs hne
  obtain ⟨e2, c2, hl2, hc2, hslot2⟩ := LookupInternal_spec (pg.SetKeyAt 0 k0) key hs2 hne2
  have hslot3 : IsLookupSlot pg.array key e2 := by
    refine ⟨by rw [← hlen]; exact hslot2.1, ?_, ?_⟩
    · intro i ei h1 h2 hi
      exact hslot2.2.1 i ei h1 h2 (by rw [getElem?_SetKeyAt_zero_pos pg k0 h1]; exact hi)
    · intro i ei h1 hi
      exact hslot2.2.2 i ei h1 (by rw [getElem?_SetKeyAt_zero_pos pg k0 (by omega)]; exact hi)
  have he : e = e2 := IsLookupSlot_unique hslot hslot3
  subst he
  rw [hl, hl2]
  rw [getElem?_SetKeyAt_zero, hc] at hc2
  simp only [Option.map_some', Option.some.injEq] at hc2
  rw [← hc2]
  split <;> rfl

/-- C20: internal-page `Lookup`.  For every internal page of size at least 1 whose keys
at slots `1 .. size-1` are strictly ascending and every search key, `Lookup` returns the
child pointer of a slot `e` such that `e` is slot 0 or the key of slot `e` is at most the
search key, and the key of every later slot is above the search key: the greatest slot in
`1 .. size-1` with a key at most the search key, or slot 0 when there is none.  The result
is the same whatever key is stored in slot 0. -/
theorem internal_lookup_greatest_slot (pg : BPlusTreePage) (key : KeyType)
    (hsize : 1 ≤ pg.GetSize) (hs : KeysAscending pg.array) :
    (∃ e c, pg.LookupInternal key = some c.2 ∧ pg.array[e]? = some c ∧
      (e = 0 ∨ c.1 ≤ key) ∧
      (∀ i ei, e < i → pg.array[i]? = some ei → key < ei.1)) ∧
    ∀ k0, (pg.SetKeyAt 0 k0).LookupInternal key = pg.LookupInternal key := by
  have hne : pg.array ≠ [] := by
    intro h0
    unfold BPlusTreePage.GetSize at hsize
    rw [h0] at hsize
    simp at hsize
  refine ⟨?_, fun k0 => LookupInternal_SetKeyAt_zero pg key k0 hs hne⟩
  obtain ⟨e, c, hl, hc, hslot⟩ := LookupInternal_spec pg key hs hne
  refine ⟨e, c, hl, hc, ?_, hslot.2.2⟩
  rcases Nat.eq_zero_or_pos e with h0 | h0
  · exact Or.inl h0
  · exact Or.inr (hslot.2.1 e c h0 (le_refl _) hc)

theorem internal_lookup_greatest_slot_witness :
    (∃ e c, BPlusTreePage.LookupInternal
        { page_type_ := IndexPageType.INTERNAL_PAGE, max_size_ := 4,
          parent_page_id_ := INVALID_PAGE_ID, page_id_ := 3, next_page_id_ := 0,
          array := [(0, 10), (5, 11), (9, 12)] } 7 = some c.2 ∧
      [((0 : KeyType), (10 : Int)), (5, 11), (9, 12)][e]? = some c ∧
      (e = 0 ∨ c.1 ≤ 7) ∧
      (∀ i ei, e < i → [((0 : KeyType), (10 : Int)), (5, 11), (9, 12)][i]? = some ei →
        7 < ei.1)) :=
  (internal_lookup_greatest_slot
    { page_type_ := IndexPageType.INTERNAL_PAGE, max_size_ := 4,
      parent_page_id_ := INVALID_PAGE_ID, page_id_ := 3, next_page_id_ := 0,
      array := [(0, 10), (5, 11), (9, 12)] } 7 (by decide) (by
    intro i j ei ej h1 h2 hi hj
    have hj3 : j < 3 := by
      by_contra hc
      rw [List.getElem?_eq_none (by simpa using hc)] at hj
      cases hj
    have hi1 : i = 1 := by omega
    have hj2 : j = 2 := by omega
    subst hi1 hj2
    simp at hi hj
    subst hi hj
    decide)).1

/-- The result of `AddMatrices` has as many columns as `mat1` has rows. -/
theorem AddMatrices_dims (mem : Nat → Int) (mat1 mat2 ret : RowMatrix)
    (h : AddMatrices mem mat1 mat2 = some ret) :
    ret.GetRows = mat1.GetRows ∧ ret.GetColumns = mat1.GetRows := by
  unfold AddMatrices at h
  split at h
  · cases h
  · rename_i hne
    have hrows : mat2.GetRows = mat1.GetRows := by
      by_contra hc
      exact hne (Or.inl (fun e => hc e.symm))
    have key : ∀ (l1 l2 : List Nat) (f : Int → Int → Int) (m0 : RowMatrix),
        (l1.foldl (fun (ret : RowMatrix) (i : Nat) =>
          l2.foldl (fun (ret : RowMatrix) (j : Nat) => ret.SetElem i j (f i j)) ret) m0).rows
            = m0.rows ∧
        (l1.foldl (fun (ret : RowMatrix) (i : Nat) =>
          l2.foldl (fun (ret : RowMatrix) (j : Nat) => ret.SetElem i j (f i j)) ret) m0).cols
            = m0.cols := by
      have inner : ∀ (l2 : List Nat) (i : Nat) (f : Int → Int → Int) (m0 : RowMatrix),
          (l2.foldl (fun (ret : RowMatrix) (j : Nat) => ret.SetElem i j (f i j)) m0).rows
            = m0.rows ∧
          (l2.foldl (fun (ret : RowMatrix) (j : Nat) => ret.SetElem i j (f i j)) m0).cols
            = m0.cols := by
        intro l2
        induction l2 with
        | nil => intro i f m0; exact ⟨rfl, rfl⟩
        | cons j l2 ih =>
          intro i f m0
          rw [List.foldl_cons]
          obtain ⟨h1, h2⟩ := ih i f (m0.SetElem i j (f i j))
          rw [h1, h2]
          unfold RowMatrix.SetElem
          split <;> exact ⟨rfl, rfl⟩
      intro l1
      induction l1 with
      | nil => intro l2 f m0; exact ⟨rfl, rfl⟩
      | cons i l1 ih =>
        intro l2 f m0
        rw [List.foldl_cons]
        obtain ⟨h1, h2⟩ := ih l2 f
          (l2.foldl (fun (ret : RowMatrix) (j : Nat) => ret.SetElem i j (f i j)) m0)
        obtain ⟨h3, h4⟩ := inner l2 i f m0
        rw [h1, h2, h3, h4]
        exact ⟨rfl, rfl⟩
    have hret := Option.some.inj h
    obtain ⟨h1, h2⟩ := key (List.range mat1.GetRows.toNat) (List.range mat2.GetColumns.toNat)
      (fun i j => mat1.GetElem i j + mat2.GetElem i j)
      (RowMatrix.new mat1.GetRows mat2.GetRows mem)
    rw [← hret]
    refine ⟨h1, ?_⟩
    show _ = mat1.GetRows
    rw [RowMatrix.GetColumns, h2]
    exact hrows

/-- C29: `AddMatrices` on the 1 x 2 matrices `[[1, 2]]` and `[[10, 20]]` returns a matrix
with `GetRows() = 1` and `GetColumns() = 1` whose only cell holds `11`: the result is
allocated with `mat2->GetRows()` columns, the sum for column 1 is not stored, and
`GetElem(0, 1)` of the result is `11`, not `22`. -/
theorem add_matrices_one_by_two (mem : Nat → Int) :
    AddMatrices mem { rows := 1, cols := 2, linear := [1, 2] }
        { rows := 1, cols := 2, linear := [10, 20] } =
      some { rows := 1, cols := 1, linear := [11] } ∧
    (RowMatrix.GetColumns { rows := 1, cols := 1, linear := [11] } = 1) ∧
    (RowMatrix.GetElem { rows := 1, cols := 1, linear := [11] } 0 1 = 11) := by
  refine ⟨?_, rfl, rfl⟩
  rfl

theorem run_bind {α β : Type} (m : TM α) (f : α → TM β) (s : TState) :
    (m >>= f).run s =
      match m.run s with
      | Res.ok a t => (f a).run t
      | Res.throw t => Res.throw t
      | Res.fault => Res.fault := rfl

theorem run_bind_ok {α β : Type} {m : TM α} {f : α → TM β} {s t : TState} {a : α}
    (h : m.run s = Res.ok a t) : (m >>= f).run s = (f a).run t := by
  rw [run_bind, h]

theorem run_bind_throw {α β : Type} {m : TM α} (f : α → TM β) {s t : TState}
    (h : m.run s = Res.throw t) : (m >>= f).run s = Res.throw t := by
  rw [run_bind, h]

theorem run_bind_fault {α β : Type} {m : TM α} (f : α → TM β) {s : TState}
    (h : m.run s = Res.fault) : (m >>= f).run s = Res.fault := by
  rw [run_bind, h]

theorem run_getPage {p : page_id_t} {s : TState} {pg : BPlusTreePage}
    (h : s.pages p = some pg) : (getPage p).run s = Res.ok pg s := by
  show (TM.get >>= fun s => TM.ofOption (s.pages p)).run s = _
  rw [run_bind]
  show (TM.ofOption (s.pages p)).run s = _
  rw [h]
  rfl

theorem run_getPage_none {p : page_id_t} {s : TState}
    (h : s.pages p = none) : (getPage p).run s = Res.fault := by
  show (TM.get >>= fun s => TM.ofOption (s.pages p)).run s = _
  rw [run_bind]
  show (TM.ofOption (s.pages p)).run s = _
  rw [h]
  rfl

/-- Method `isEnd()` on an iterator without leaf. -/
theorem isEnd_none {it : IndexIterator} (h : it.leaf_page_ = none) (s : TState) :
    it.isEnd.run s = Res.ok true s := by
  unfold IndexIterator.isEnd
  rw [h]
  rfl

/-- Method `isEnd()` on an iterator anchored at a resident leaf. -/
theorem isEnd_some {it : IndexIterator} {L : page_id_t} {leaf : BPlusTreePage} {s : TState}
    (h : it.leaf_page_ = some L) (hpg : s.pages L = some leaf) :
    it.isEnd.run s =
      Res.ok (decide (it.index_ = (leaf.GetSize : Int)) &&
        decide (leaf.next_page_id_ = INVALID_PAGE_ID)) s := by
  unfold IndexIterator.isEnd
  rw [h]
  show (getPage L >>= _).run s = _
  rw [run_bind_ok (run_getPage hpg)]
  rfl

/-- Method `isEnd()` returns in the state it was called in, or reads a page that is not
resident. -/
theorem isEnd_cases (it : IndexIterator) (s : TState) :
    it.isEnd.run s = Res.ok true s ∨ it.isEnd.run s = Res.ok false s ∨
      it.isEnd.run s = Res.fault := by
  cases hl : it.leaf_page_ with
  | none => exact Or.inl (isEnd_none hl s)
  | some L =>
    cases hpg : s.pages L with
    | none =>
      refine Or.inr (Or.inr ?_)
      unfold IndexIterator.isEnd
      rw [hl]
      show (getPage L >>= _).run s = _
      exact run_bind_fault _ (run_getPage_none hpg)
    | some leaf =>
      rw [isEnd_some hl hpg]
      cases (decide (it.index_ = (leaf.GetSize : Int)) &&
        decide (leaf.next_page_id_ = INVALID_PAGE_ID))
      · exact Or.inr (Or.inl rfl)
      · exact Or.inl rfl

theorem deref_of_end {it : IndexIterator} {s : TState}
    (h : it.isEnd.run s = Res.ok true s) : it.deref.run s = Res.throw s := by
  unfold IndexIterator.deref
  rw [run_bind_ok h]
  rfl

theorem deref_of_not_end {it : IndexIterator} {s : TState} {L : page_id_t}
    {leaf : BPlusTreePage} (hl : it.leaf_page_ = some L) (hpg : s.pages L = some leaf)
    (h : it.isEnd.run s = Res.ok false s) :
    it.deref.run s = (TM.ofOption (leaf.slot? it.index_)).run s := by
  unfold IndexIterator.deref
  rw [run_bind_ok h]
  simp only [Bool.false_eq_true, if_false]
  rw [hl]
  show (getPage L >>= _).run s = _
  rw [run_bind_ok (run_getPage hpg)]

theorem next_of_end {it : IndexIterator} {s : TState}
    (h : it.isEnd.run s = Res.ok true s) : it.next.run s = Res.ok it s := by
  unfold IndexIterator.next
  rw [run_bind_ok h]
  rfl

theorem next_of_not_end {it : IndexIterator} {s : TState} {L : page_id_t}
    {leaf : BPlusTreePage} (hl : it.leaf_page_ = some L) (hpg : s.pages L = some leaf)
    (h : it.isEnd.run s = Res.ok false s) :
    it.next.run s =
      (if it.index_ < (leaf.GetSize : Int) - 1 then
          (pure { it with index_ := it.index_ + 1 } : TM IndexIterator)
        else if leaf.next_page_id_ ≠ INVALID_PAGE_ID then do
          let _ ← UnpinPage leaf.page_id_ false
          FetchPage leaf.next_page_id_
          pure { leaf_page_ := some leaf.next_page_id_, index_ := 0 }
        else pure { it with index_ := it.index_ + 1 }).run s := by
  unfold IndexIterator.next
  rw [run_bind_ok h]
  simp only [Bool.false_eq_true, if_false]
  rw [hl]
  show (getPage L >>= _).run s = _
  rw [run_bind_ok (run_getPage hpg)]

theorem run_UnpinPage_pos {p : page_id_t} {d : Bool} {s : TState} (h : 0 < s.pin p) :
    (UnpinPage p d).run s =
      Res.ok true { s with pin := Function.update s.pin p (s.pin p - 1) } := by
  unfold UnpinPage
  show (TM.get >>= _).run s = _
  rw [run_bind]
  show (if s.pin p ≤ 0 then _ else _ : TM Bool).run s = _
  rw [if_neg (by omega)]
  rfl

theorem run_FetchPage {p : page_id_t} {s : TState} {pg : BPlusTreePage}
    (h : s.pages p = some pg) :
    (FetchPage p).run s =
      Res.ok () { s with pin := Function.update s.pin p (s.pin p + 1) } := by
  unfold FetchPage
  rw [run_bind_ok (run_getPage h)]
  rfl

/-- C27: iterator advance.  `operator++` on an iterator for which `isEnd()` holds returns
the iterator and the state as they are.  On an iterator that is not at end and stands at
position `i <= size(L)` of the resident leaf `L`: when `i + 1 < size(L)` the result is
slot `i + 1` of `L` and the state is as before; otherwise, when `L` has a next leaf `N`
(resident, and `L` pinned by the iterator), the result is slot 0 of `N`, the pin count of
`L` has gone down by exactly one and `N` has been fetched (its pin count is one more); and
otherwise the result is an iterator for which `isEnd()` is true. -/
theorem iterator_advance (s : TState) (it : IndexIterator) :
    (it.isEnd.run s = Res.ok true s → it.next.run s = Res.ok it s) ∧
    (∀ (L : page_id_t) (leaf : BPlusTreePage), it.leaf_page_ = some L →
      s.pages L = some leaf → leaf.page_id_ = L → it.index_ ≤ (leaf.GetSize : Int) →
      it.isEnd.run s = Res.ok false s →
      (it.index_ + 1 < (leaf.GetSize : Int) →
        it.next.run s = Res.ok { leaf_page_ := some L, index_ := it.index_ + 1 } s) ∧
      (¬ it.index_ + 1 < (leaf.GetSize : Int) → leaf.next_page_id_ ≠ INVALID_PAGE_ID →
        0 < s.pin L → (∃ ng, s.pages leaf.next_page_id_ = some ng) →
        it.next.run s = Res.ok { leaf_page_ := some leaf.next_page_id_, index_ := 0 }
          { s with pin :=
              (Function.update (Function.update s.pin L (s.pin L - 1)) leaf.next_page_id_
                (Function.update s.pin L (s.pin L - 1) leaf.next_page_id_ + 1)) }) ∧
      (¬ it.index_ + 1 < (leaf.GetSize : Int) → leaf.next_page_id_ = INVALID_PAGE_ID →
        ∃ it2, it.next.run s = Res.ok it2 s ∧ it2.isEnd.run s = Res.ok true s)) := by
  refine ⟨next_of_end, ?_⟩
  intro L leaf hl hpg hid hle hne
  have hnext := next_of_not_end hl hpg hne
  refine ⟨?_, ?_, ?_⟩
  · intro hlt
    rw [hnext, if_pos (by omega)]
    show Res.ok _ s = _
    cases it
    simp only at hl
    subst hl
    rfl
  · intro hge hnx hpin ⟨ng, hng⟩
    rw [hnext, if_neg (by omega), if_pos hnx, hid]
    rw [run_bind_ok (run_UnpinPage_pos hpin)]
    have hng2 : ({ s with pin := Function.update s.pin L (s.pin L - 1) } : TState).pages
        leaf.next_page_id_ = some ng := hng
    show (FetchPage leaf.next_page_id_ >>= _).run _ = _
    rw [run_bind_ok (run_FetchPage hng2)]
    rfl
  · intro hge hnx
    rw [isEnd_some hl hpg] at hne
    have hidx : it.index_ ≠ (leaf.GetSize : Int) := by
      intro he
      rw [he, hnx] at hne
      simp at hne
    refine ⟨{ it with index_ := it.index_ + 1 }, ?_, ?_⟩
    · rw [hnext, if_neg (by omega), if_neg (by simpa using hnx)]
      rfl
    · have hl2 : ({ it with index_ := it.index_ + 1 } : IndexIterator).leaf_page_ = some L := hl
      rw [isEnd_some hl2 hpg]
      have : it.index_ + 1 = (leaf.GetSize : Int) := by omega
      simp [this, hnx]

theorem iterator_advance_witness :
    (IndexIterator.next { leaf_page_ := some 1, index_ := 1 }).run twoLeafState =
      Res.ok { leaf_page_ := some 2, index_ := 0 }
        { twoLeafState with pin :=
            (Function.update (Function.update twoLeafState.pin 1 (twoLeafState.pin 1 - 1)) 2
              (Function.update twoLeafState.pin 1 (twoLeafState.pin 1 - 1) 2 + 1)) } :=
  ((iterator_advance twoLeafState { leaf_page_ := some 1, index_ := 1 }).2 1
    { BPlusTreePage.zero with
      page_type_ := IndexPageType.LEAF_PAGE, page_id_ := 1, next_page_id_ := 2,
      array := [(1, 10), (2, 20)] } rfl rfl rfl (by decide) rfl).2.1
    (by decide) (by decide) (by decide) ⟨_, rfl⟩

theorem operatorEq_of_end {it itr : IndexIterator} (same_buffer_pool : Bool) {s : TState}
    (h1 : it.isEnd.run s = Res.ok true s) (h2 : itr.isEnd.run s = Res.ok true s) :
    (it.operatorEq itr same_buffer_pool).run s = Res.ok true s := by
  unfold IndexIterator.operatorEq
  rw [run_bind_ok h1]
  simp only [if_true]
  rw [run_bind_ok h2]
  rfl

theorem deref_throw_iff (it : IndexIterator) (s : TState) :
    (∃ t, it.deref.run s = Res.throw t) ↔ it.isEnd.run s = Res.ok true s := by
  constructor
  · rintro ⟨t, ht⟩
    rcases isEnd_cases it s with h | h | h
    · exact h
    · exfalso
      cases hl : it.leaf_page_ with
      | none =>
        rw [isEnd_none hl s] at h
        cases h
      | some L =>
        cases hpg : s.pages L with
        | none =>
          unfold IndexIterator.isEnd at h
          rw [hl] at h
          have : (getPage L >>= fun leaf => (pure (decide (it.index_ = (leaf.GetSize : Int)) &&
              decide (leaf.next_page_id_ = INVALID_PAGE_ID)) : TM Bool)).run s = Res.fault :=
            run_bind_fault _ (run_getPage_none hpg)
          rw [show (do
              let leaf ← getPage L
              pure (decide (it.index_ = (leaf.GetSize : Int)) &&
                decide (leaf.next_page_id_ = INVALID_PAGE_ID)) : TM Bool).run s = Res.fault
            from this] at h
          cases h
        | some leaf =>
          rw [deref_of_not_end hl hpg h] at ht
          cases hs : leaf.slot? it.index_ with
          | none => rw [hs] at ht; cases ht
          | some e => rw [hs] at ht; cases ht
    · exfalso
      unfold IndexIterator.deref at ht
      rw [run_bind_fault _ h] at ht
      cases ht
  · intro h
    exact ⟨s, deref_of_end h⟩

/-- C28, amended: iterator end and dereference.  `isEnd()` is true on an iterator without
anchored leaf, and on an iterator anchored at the resident leaf `L` it is true iff the slot
equals the size of `L` and the next page id of `L` is `INVALID_PAGE_ID`; `operator*` raises
the error iff `isEnd()` is true; when `isEnd()` is false and the slot is a slot of the leaf
(`0 <= slot < size`), `operator*` returns the entry of the leaf at the iterator's slot;
when `isEnd()` is false and the slot is not a slot of the leaf (an iterator at
`slot = size` of a leaf that has a next leaf is of this kind), `operator*` reads outside
the entries of the leaf; `operator==` on two iterators that are both at end returns
true. -/
theorem iterator_end_deref (s : TState) (it : IndexIterator) :
    (it.leaf_page_ = none → it.isEnd.run s = Res.ok true s) ∧
    (∀ (L : page_id_t) (leaf : BPlusTreePage), it.leaf_page_ = some L →
      s.pages L = some leaf →
      ∃ e, it.isEnd.run s = Res.ok e s ∧
        (e = true ↔ it.index_ = (leaf.GetSize : Int) ∧
          leaf.next_page_id_ = INVALID_PAGE_ID) ∧
        (0 ≤ it.index_ → it.index_ < (leaf.GetSize : Int) →
          e = false ∧ ∃ kv, leaf.array[it.index_.toNat]? = some kv ∧
            it.deref.run s = Res.ok kv s) ∧
        (e = false → ¬ (0 ≤ it.index_ ∧ it.index_ < (leaf.GetSize : Int)) →
          it.deref.run s = Res.fault)) ∧
    ((∃ t, it.deref.run s = Res.throw t) ↔ it.isEnd.run s = Res.ok true s) ∧
    (it.isEnd.run s = Res.ok true s → it.deref.run s = Res.throw s) ∧
    (∀ (itr : IndexIterator) (same_buffer_pool : Bool), it.isEnd.run s = Res.ok true s →
      itr.isEnd.run s = Res.ok true s →
      (it.operatorEq itr same_buffer_pool).run s = Res.ok true s) := by
  refine ⟨fun h => isEnd_none h s, ?_, deref_throw_iff it s, deref_of_end, ?_⟩
  · intro L leaf hl hpg
    refine ⟨_, isEnd_some hl hpg, by simp, ?_, ?_⟩
    · intro h0 hlt
      have hlt2 : it.index_.toNat < leaf.array.length := by
        have : it.index_ < (leaf.array.length : Int) := hlt
        omega
      have he : (decide (it.index_ = (leaf.GetSize : Int)) &&
          decide (leaf.next_page_id_ = INVALID_PAGE_ID)) = false := by
        have hne : ¬ it.index_ = (leaf.GetSize : Int) := ne_of_lt hlt
        simp [hne]
      refine ⟨he, leaf.array[it.index_.toNat], List.getElem?_eq_getElem hlt2, ?_⟩
      have hne : it.isEnd.run s = Res.ok false s := by
        rw [isEnd_some hl hpg, he]
      rw [deref_of_not_end hl hpg hne]
      unfold BPlusTreePage.slot?
      rw [if_pos h0, List.getElem?_eq_getElem hlt2]
      rfl
    · intro he hout
      have hne : it.isEnd.run s = Res.ok false s := by
        rw [isEnd_some hl hpg, he]
      rw [deref_of_not_end hl hpg hne]
      unfold BPlusTreePage.slot?
      by_cases h0 : 0 ≤ it.index_
      · rw [if_pos h0]
        have hge : leaf.array.length ≤ it.index_.toNat := by
          have : ¬ it.index_ < (leaf.array.length : Int) := fun h => hout ⟨h0, h⟩
          omega
        rw [List.getElem?_eq_none hge]
        rfl
      · rw [if_neg h0]
        rfl
  · intro itr same_buffer_pool h1 h2
    exact operatorEq_of_end same_buffer_pool h1 h2

theorem iterator_end_deref_witness :
    (0 : Int) ≤ 1 ∧ (1 : Int) < ((2 : Nat) : Int) ∧
    (IndexIterator.isEnd { leaf_page_ := some 1, index_ := 1 }).run twoLeafState =
      Res.ok false twoLeafState ∧
    (IndexIterator.deref { leaf_page_ := some 1, index_ := 1 }).run twoLeafState =
      Res.ok (2, 20) twoLeafState := by
  obtain ⟨e, he, _, hin, _⟩ :=
    (iterator_end_deref twoLeafState { leaf_page_ := some 1, index_ := 1 }).2.1 1
      { BPlusTreePage.zero with
        page_type_ := IndexPageType.LEAF_PAGE, page_id_ := 1, next_page_id_ := 2,
        array := [(1, 10), (2, 20)] } rfl rfl
  obtain ⟨hf, kv, hkv, hd⟩ := hin (by decide) (by decide)
  have hkv2 : kv = (2, 20) := by
    have h1 : ([((1 : KeyType), (10 : Int)), (2, 20)] : List (KeyType × Int))[
        (1 : Int).toNat]? = some (2, 20) := rfl
    exact Option.some.inj (hkv.symm.trans h1)
  rw [hf] at he
  rw [hkv2] at hd
  exact ⟨by decide, by decide, he, hd⟩

/-- C25: on the empty tree (`root_page_id_ = INVALID_PAGE_ID`, as the constructor leaves
it) `FindLeafPage(key, leftMost)` returns the null pointer and `Begin(key)` returns an
iterator without leaf, each with the root lock still held: `LatchCrabbingToLeaf` leaves
the unlocking to its caller and `FindLeafPage` drops the flag.  `GetValue(key)` on the
same tree returns `false` with the root lock released. -/
theorem find_leaf_page_empty_tree_lock (leaf_max_size internal_max_size : Nat)
    (first_page_id : page_id_t) (new_budget : Option Nat) (key : KeyType) (leftMost : Bool) :
    (FindLeafPage key leftMost).run
        (BPlusTree.new leaf_max_size internal_max_size first_page_id new_budget) =
      Res.ok none
        { BPlusTree.new leaf_max_size internal_max_size first_page_id new_budget with
          root_mutex_ := true } ∧
    (BPlusTree.Begin key).run
        (BPlusTree.new leaf_max_size internal_max_size first_page_id new_budget) =
      Res.ok { leaf_page_ := none, index_ := 0 }
        { BPlusTree.new leaf_max_size internal_max_size first_page_id new_budget with
          root_mutex_ := true } ∧
    (GetValue key).run
        (BPlusTree.new leaf_max_size internal_max_size first_page_id new_budget) =
      Res.ok none
        (BPlusTree.new leaf_max_size internal_max_size first_page_id new_budget) := by
  have hf : (FindLeafPage key leftMost).run
        (BPlusTree.new leaf_max_size internal_max_size first_page_id new_budget) =
      Res.ok none
        { BPlusTree.new leaf_max_size internal_max_size first_page_id new_budget with
          root_mutex_ := true } := by
    cases leftMost <;> rfl
  refine ⟨hf, ?_, rfl⟩
  rfl

/-- The write descent of `LatchCrabbingToLeaf` on a tree whose root is a leaf: the root is
returned pinned, the page set is empty and the root lock stays held. -/
theorem LatchCrabbing_rootLeaf (insert : Bool) (key : KeyType) (s : TState) {v : TreeView}
    {h : Multiset Int} {b : Bool} {pg : BPlusTreePage} (hs : St s v h b)
    (hroot : v.root ≠ INVALID_PAGE_ID) (hpg : v.pages v.root = some pg)
    (hleaf : pg.IsLeafPage = true)
    {Q : Option page_id_t × List page_id_t × Bool → TState → Prop}
    (hq : ∀ t, St t v (v.root ::ₘ h) true → Q (some v.root, [], true) t) :
    wp (LatchCrabbingToLeaf
        (if insert then OPERATION_TYPE.INSERT_TRAVEL else OPERATION_TYPE.DELETE_TRAVEL) key)
      Q s := by
  unfold LatchCrabbingToLeaf
  apply wp_bind_of
  apply wp_lockRoot_st hs
  intro t1 h1
  apply wp_bind_of
  rw [wp_get]
  have hr1 : t1.root_page_id_ = v.root := view_root h1.1
  rw [if_neg (by rw [hr1]; exact hroot)]
  apply wp_bind_of
  rw [hr1]
  apply wp_FetchPage_st h1 hpg
  intro t2 h2
  have hcrab : ∀ (t : TState), St t v (v.root ::ₘ h) true →
      wp (crabWrite insert key (t1.next_page_id_.toNat + 1) v.root [] true)
        (fun r t4 => r = (v.root, [], true) ∧ St t4 v (v.root ::ₘ h) true) t := by
    intro t ht
    unfold crabWrite
    apply wp_bind_of
    apply wp_getPage_st ht hpg
    rw [if_pos hleaf, wp_pure]
    exact ⟨rfl, ht⟩
  cases insert with
  | true =>
    simp only [if_true]
    apply wp_bind_of
    apply wp_WLatch_st h2
    intro t3 h3
    apply wp_bind_of
    refine wp_mono (hcrab t3 h3) ?_
    rintro r t4 ⟨hr, h4⟩
    rw [wp_pure, hr]
    exact hq t4 h4
  | false =>
    simp only [Bool.false_eq_true, if_false]
    apply wp_bind_of
    apply wp_WLatch_st h2
    intro t3 h3
    apply wp_bind_of
    refine wp_mono (hcrab t3 h3) ?_
    rintro r t4 ⟨hr, h4⟩
    rw [wp_pure, hr]
    exact hq t4 h4

/-- Method `Insert` on an empty tree: the tree becomes a single leaf. -/
theorem Insert_empty (key : KeyType) (value : ValueType) (s : TState) {v : TreeView}
    {h : Multiset Int} {b : Bool} (hs : St s v h b) (hh : ∀ p ∈ h, p < v.next)
    (hroot : v.root = INVALID_PAGE_ID) :
    wp (Insert key value) (fun r t => r = true ∧ St t (v.startNew key value) h false) s := by
  unfold Insert InsertIntoLeaf
  apply wp_bind_of
  apply LatchCrabbing_empty_spec _ key s hs hroot
  intro t1 h1
  simp only
  apply wp_bind_of
  apply StartNewTree_spec key value t1 h1 (not_mem_of_lt hh)
  intro t2 h2
  apply wp_bind_of
  apply wp_unlockRootIf_st h2
  intro t3 h3
  rw [wp_pure]
  exact ⟨rfl, h3⟩

/-- Method `Insert` of a new key on a tree whose root is a leaf that has room: the pair is
placed in the root. -/
theorem Insert_rootLeaf_safe (key : KeyType) (value : ValueType) (s : TState)
    {v : TreeView} {h : Multiset Int} {b : Bool} {pg : BPlusTreePage} (hs : St s v h b)
    (hroot : v.root ≠ INVALID_PAGE_ID) (hpg : v.pages v.root = some pg)
    (hleaf : pg.IsLeafPage = true) (hid : pg.page_id_ = v.root)
    (hnew : pg.LookupLeaf key = none)
    (hsafe : (pg.InsertLeaf key value).IS_INSERT_SAFE = true) :
    wp (Insert key value)
      (fun r t => r = true ∧ St t (v.setPage v.root (pg.InsertLeaf key value)) h false) s := by
  unfold Insert InsertIntoLeaf
  apply wp_bind_of
  apply LatchCrabbing_rootLeaf true key s hs hroot hpg hleaf
  intro t1 h1
  simp only
  apply wp_bind_of
  apply wp_getPage_st h1 hpg
  rw [hnew]
  simp only
  apply wp_bind_of
  apply wp_modifyPage_st h1 hpg
  intro t2 h2
  apply wp_bind_of
  apply wp_getPage_st h2 (g := pg.InsertLeaf key value) (by simp [TreeView.setPage])
  rw [if_neg (by simp [hsafe])]
  apply wp_bind_of
  apply wp_WUnlatch_st h2
  intro t3 h3
  apply wp_bind_of
  have hid1 : (pg.InsertLeaf key value).page_id_ = v.root := hid
  rw [hid1]
  apply wp_UnpinPage_st h3
  intro t4 h4
  apply wp_bind_of
  apply wp_CLEAN_ROUTINE_st [] (by simpa using h4)
  intro t5 h5
  rw [wp_pure]
  exact ⟨rfl, h5⟩

/-- Method `Insert` of a new key on a tree whose root is a leaf that becomes full: the
leaf is split and a new root is put over the two halves. -/
theorem Insert_rootLeaf_split (key : KeyType) (value : ValueType) (s : TState)
    {v : TreeView} {h : Multiset Int} {b : Bool} {pg : BPlusTreePage} (hs : St s v h b)
    (hh : ∀ p ∈ h, p < v.next) (hroot : v.root ≠ INVALID_PAGE_ID) (hrn : v.root < v.next)
    (hpg : v.pages v.root = some pg)
    (hleaf : pg.IsLeafPage = true) (hid : pg.page_id_ = v.root)
    (hpar : pg.IsRootPage = true) (hnew : pg.LookupLeaf key = none)
    (hfull : ¬ (pg.InsertLeaf key value).IS_INSERT_SAFE = true) {e : KeyType × Int}
    (he : (pg.InsertLeaf key value).array[(pg.InsertLeaf key value).GetMinSize]? = some e) :
    wp (Insert key value)
      (fun r t => r = true ∧
        St t (((v.setPage v.root (pg.InsertLeaf key value)).splitLeaf v.root
            (pg.InsertLeaf key value)).newRoot v.root e.1 v.next
            (leafLow (pg.InsertLeaf key value) v.next)
            (leafHigh (pg.InsertLeaf key value) v.next v.lmax)) h false) s := by
  unfold Insert InsertIntoLeaf
  apply wp_bind_of
  apply LatchCrabbing_rootLeaf true key s hs hroot hpg hleaf
  intro t1 h1
  simp only
  apply wp_bind_of
  apply wp_getPage_st h1 hpg
  rw [hnew]
  simp only
  apply wp_bind_of
  apply wp_modifyPage_st h1 hpg
  intro t2 h2
  apply wp_bind_of
  apply wp_getPage_st h2 (g := pg.InsertLeaf key value) (by simp [TreeView.setPage])
  rw [if_pos (by simp [hfull])]
  have hLN : v.root ≠ v.next := ne_of_lt hrn
  have hheld : (v.setPage v.root (pg.InsertLeaf key value)).next ∉ v.root ::ₘ h := by
    apply not_mem_of_lt
    intro p hp
    rcases Multiset.mem_cons.1 hp with rfl | hp
    · exact hrn
    · exact hh p hp
  have hp2 : (v.setPage v.root (pg.InsertLeaf key value)).pages v.root =
      some (pg.InsertLeaf key value) := by simp [TreeView.setPage]
  apply wp_bind_of
  apply SplitLeaf_spec h2 hheld hp2 hLN
  intro t3 h3
  apply wp_bind_of
  apply wp_WUnlatch_st h3
  intro t4 h4
  have hNp : ((v.setPage v.root (pg.InsertLeaf key value)).splitLeaf v.root
      (pg.InsertLeaf key value)).pages v.next =
        some (leafHigh (pg.InsertLeaf key value) v.next v.lmax) := by
    simp [TreeView.splitLeaf, TreeView.setPage, Function.update_noteq hLN.symm]
  have hLp : ((v.setPage v.root (pg.InsertLeaf key value)).splitLeaf v.root
      (pg.InsertLeaf key value)).pages v.root =
        some (leafLow (pg.InsertLeaf key value) v.next) := by
    simp [TreeView.splitLeaf, TreeView.setPage]
  apply wp_bind_of
  apply wp_getPage_st h4 hNp
  apply wp_bind_of
  rw [wp_ofOption]
  refine ⟨e, ?_, ?_⟩
  · rw [slot_zero]
    show ((pg.InsertLeaf key value).array.drop (pg.InsertLeaf key value).GetMinSize)[0]? =
      some e
    rw [List.getElem?_drop]
    exact he
  · apply wp_bind_of
    unfold InsertIntoParent
    apply wp_bind_of
    apply wp_getPage_st h4 hLp
    have hrootp : (leafLow (pg.InsertLeaf key value) v.next).IsRootPage = true := hpar
    rw [if_pos hrootp]
    apply wp_bind_of
    have hheld2 : ((v.setPage v.root (pg.InsertLeaf key value)).splitLeaf v.root
        (pg.InsertLeaf key value)).next ∉ v.next ::ₘ v.root ::ₘ h := by
      apply not_mem_of_lt
      intro p hp
      show p < v.next + 1
      rcases Multiset.mem_cons.1 hp with rfl | hp
      · exact lt_add_one _
      · rcases Multiset.mem_cons.1 hp with rfl | hp
        · exact lt_trans hrn (lt_add_one _)
        · exact lt_trans (hh p hp) (lt_add_one _)
    apply InsertIntoParentRoot_spec h4 hheld2 hLp hNp hLN
      (ne_of_lt (lt_trans hrn (lt_add_one _))) (ne_of_lt (lt_add_one _))
    intro t5 h5
    rw [wp_pure]
    apply wp_bind_of
    have hidN : (leafHigh (pg.InsertLeaf key value) v.next v.lmax).page_id_ = v.next := rfl
    rw [hidN]
    apply wp_UnpinPage_st h5
    intro t6 h6
    apply wp_bind_of
    have hid1 : (pg.InsertLeaf key value).page_id_ = v.root := hid
    rw [hid1]
    apply wp_UnpinPage_st h6
    intro t7 h7
    apply wp_bind_of
    apply wp_CLEAN_ROUTINE_st [] (by simpa using h7)
    intro t8 h8
    rw [wp_pure]
    exact ⟨rfl, h8⟩

theorem St_new (leaf_max_size internal_max_size : Nat) (first_page_id : page_id_t) :
    St (BPlusTree.new leaf_max_size internal_max_size first_page_id none)
      (BPlusTree.new leaf_max_size internal_max_size first_page_id none).view 0 false :=
  ⟨rfl, rfl, fun _ => by simp [BPlusTree.new], rfl⟩

theorem split_scenario_wp (v1 v2 v3 v4 : ValueType) (p0 : page_id_t)
    (h0 : HEADER_PAGE_ID < p0) :
    wp (insertAll [(1, v1), (2, v2), (3, v3), (4, v4)])
      (fun rs t => rs = [true, true, true, true] ∧ t.root_page_id_ = p0 + 2 ∧
        t.pages (p0 + 2) = some
          { page_type_ := IndexPageType.INTERNAL_PAGE, max_size_ := 4,
            parent_page_id_ := INVALID_PAGE_ID, page_id_ := p0 + 2, next_page_id_ := 0,
            array := [(0, p0), (3, p0 + 1)] } ∧
        t.pages p0 = some (leafPage 4 p0 (p0 + 2) (p0 + 1) [(1, v1), (2, v2)]) ∧
        t.pages (p0 + 1) = some
          (leafPage 4 (p0 + 1) (p0 + 2) INVALID_PAGE_ID [(3, v3), (4, v4)]))
      (BPlusTree.new 4 4 p0 none) := by
  have hinv : p0 ≠ INVALID_PAGE_ID := by
    unfold INVALID_PAGE_ID
    intro h
    rw [h] at h0
    exact absurd h0 (by decide)
  have hs0 := St_new 4 4 p0
  have hpg1 : ((BPlusTree.new 4 4 p0 none).view.startNew 1 v1).pages p0 = some
      (leafPage 4 p0 INVALID_PAGE_ID INVALID_PAGE_ID [(1, v1)]) := by
    simp [TreeView.startNew, TreeView.setRoot, TreeView.setPage, TreeView.alloc, TState.view,
      BPlusTree.new, BPlusTreePage.InitLeaf, BPlusTreePage.InsertLeaf, BPlusTreePage.zero,
      leafPage]
  have hins2 : (leafPage 4 p0 INVALID_PAGE_ID INVALID_PAGE_ID [(1, v1)]).InsertLeaf 2 v2 =
      leafPage 4 p0 INVALID_PAGE_ID INVALID_PAGE_ID [(1, v1), (2, v2)] := by
    simp [BPlusTreePage.InsertLeaf, comparator_, leafPage]
  have hins3 : (leafPage 4 p0 INVALID_PAGE_ID INVALID_PAGE_ID [(1, v1), (2, v2)]).InsertLeaf
      3 v3 = leafPage 4 p0 INVALID_PAGE_ID INVALID_PAGE_ID [(1, v1), (2, v2), (3, v3)] := by
    simp [BPlusTreePage.InsertLeaf, comparator_, leafPage]
  have hins4 : (leafPage 4 p0 INVALID_PAGE_ID INVALID_PAGE_ID
      [(1, v1), (2, v2), (3, v3)]).InsertLeaf 4 v4 =
      leafPage 4 p0 INVALID_PAGE_ID INVALID_PAGE_ID [(1, v1), (2, v2), (3, v3), (4, v4)] := by
    simp [BPlusTreePage.InsertLeaf, comparator_, leafPage]
  unfold insertAll
  apply wp_bind_of
  refine wp_mono (Insert_empty 1 v1 _ hs0 (fun p hp => by simp at hp) rfl) ?_
  rintro r1 t1 ⟨hr1, h1⟩
  apply wp_bind_of
  unfold insertAll
  apply wp_bind_of
  have hroot1 : ((BPlusTree.new 4 4 p0 none).view.startNew 1 v1).root = p0 := rfl
  have hleaf1 : (leafPage 4 p0 INVALID_PAGE_ID INVALID_PAGE_ID [(1, v1)]).IsLeafPage = true :=
    rfl
  have hid1 : (leafPage 4 p0 INVALID_PAGE_ID INVALID_PAGE_ID [(1, v1)]).page_id_ =
      ((BPlusTree.new 4 4 p0 none).view.startNew 1 v1).root := rfl
  refine wp_mono (Insert_rootLeaf_safe 2 v2 t1 h1 (by rw [hroot1]; exact hinv)
    (by rw [hroot1]; exact hpg1) hleaf1 hid1
    (by simp [BPlusTreePage.LookupLeaf, comparator_, leafPage])
    (by rw [hins2]; simp [BPlusTreePage.IS_INSERT_SAFE, BPlusTreePage.GetSize,
      BPlusTreePage.GetMaxSize, leafPage])) ?_
  rintro r2 t2 ⟨hr2, h2⟩
  rw [hroot1, hins2] at h2
  have hpg2 : (((BPlusTree.new 4 4 p0 none).view.startNew 1 v1).setPage p0
      (leafPage 4 p0 INVALID_PAGE_ID INVALID_PAGE_ID [(1, v1), (2, v2)])).pages
        (((BPlusTree.new 4 4 p0 none).view.startNew 1 v1).setPage p0
      (leafPage 4 p0 INVALID_PAGE_ID INVALID_PAGE_ID [(1, v1), (2, v2)])).root = some
      (leafPage 4 p0 INVALID_PAGE_ID INVALID_PAGE_ID [(1, v1), (2, v2)]) := by
    show Function.update _ p0 _ p0 = _
    rw [Function.update_same]
  have hleaf2 : (leafPage 4 p0 INVALID_PAGE_ID INVALID_PAGE_ID
      [(1, v1), (2, v2)]).IsLeafPage = true := rfl
  apply wp_bind_of
  unfold insertAll
  apply wp_bind_of
  refine wp_mono (Insert_rootLeaf_safe 3 v3 t2 h2 hinv hpg2 hleaf2 rfl
    (by simp [BPlusTreePage.LookupLeaf, comparator_, leafPage])
    (by rw [hins3]; simp [BPlusTreePage.IS_INSERT_SAFE, BPlusTreePage.GetSize,
      BPlusTreePage.GetMaxSize, leafPage])) ?_
  rintro r3 t3 ⟨hr3, h3⟩
  rw [hins3] at h3
  have hleaf3 : (leafPage 4 p0 INVALID_PAGE_ID INVALID_PAGE_ID
      [(1, v1), (2, v2), (3, v3)]).IsLeafPage = true := rfl
  have hpar3 : (leafPage 4 p0 INVALID_PAGE_ID INVALID_PAGE_ID
      [(1, v1), (2, v2), (3, v3)]).IsRootPage = true := by
    simp [BPlusTreePage.IsRootPage, leafPage]
  apply wp_bind_of
  unfold insertAll
  apply wp_bind_of
  have hpg3 : ((((BPlusTree.new 4 4 p0 none).view.startNew 1 v1).setPage p0
      (leafPage 4 p0 INVALID_PAGE_ID INVALID_PAGE_ID [(1, v1), (2, v2)])).setPage
        (((BPlusTree.new 4 4 p0 none).view.startNew 1 v1).setPage p0
      (leafPage 4 p0 INVALID_PAGE_ID INVALID_PAGE_ID [(1, v1), (2, v2)])).root
      (leafPage 4 p0 INVALID_PAGE_ID INVALID_PAGE_ID [(1, v1), (2, v2), (3, v3)])).pages p0 =
      some (leafPage 4 p0 INVALID_PAGE_ID INVALID_PAGE_ID [(1, v1), (2, v2), (3, v3)]) := by
    show Function.update _ p0 _ p0 = _
    rw [Function.update_same]
  have he : ((leafPage 4 p0 INVALID_PAGE_ID INVALID_PAGE_ID
      [(1, v1), (2, v2), (3, v3)]).InsertLeaf 4 v4).array[
        ((leafPage 4 p0 INVALID_PAGE_ID INVALID_PAGE_ID
          [(1, v1), (2, v2), (3, v3)]).InsertLeaf 4 v4).GetMinSize]? = some (3, v3) := by
    rw [hins4]
    simp [BPlusTreePage.GetMinSize, leafPage]
  refine wp_mono (Insert_rootLeaf_split 4 v4 t3 h3 (fun p hp => by simp at hp) hinv
    (show p0 < p0 + 1 from lt_add_one _) hpg3 hleaf3 rfl hpar3
    (by simp [BPlusTreePage.LookupLeaf, comparator_, leafPage])
    (by rw [hins4]; simp [BPlusTreePage.IS_INSERT_SAFE, BPlusTreePage.GetSize,
      BPlusTreePage.GetMaxSize, leafPage]) he) ?_
  rintro r4 t4 ⟨hr4, h4⟩
  rw [hins4] at h4
  rw [wp_bind]
  unfold insertAll
  rw [wp_pure, wp_pure, wp_pure, wp_pure, wp_pure]
  have hpages := view_pages h4.1
  have hrootv := view_root h4.1
  refine ⟨by rw [hr1, hr2, hr3, hr4], ?_, ?_, ?_, ?_⟩
  · rw [hrootv]
    show p0 + 1 + 1 = p0 + 2
    ring
  · rw [hpages]
    have e2 : p0 + 2 = p0 + 1 + 1 := by ring
    simp [TreeView.newRoot, TreeView.splitLeaf, TreeView.setPage, TreeView.startNew,
      TreeView.setRoot, TreeView.alloc, TState.view, BPlusTree.new, rootPage, leafLow,
      leafHigh, leafPage, BPlusTreePage.InitInternal, BPlusTreePage.PopulateNewRoot,
      BPlusTreePage.zero, BPlusTreePage.SetNextPageId, BPlusTreePage.SetSize,
      BPlusTreePage.GetMinSize, BPlusTreePage.InitLeaf, BPlusTreePage.SetParentPageId, e2,
      Function.update]
    intro h
    have h' : (p0 : Int) + 1 + 1 = p0 := h
    omega
  · rw [hpages]
    simp [TreeView.newRoot, TreeView.splitLeaf, TreeView.setPage, TreeView.startNew,
      TreeView.setRoot, TreeView.alloc, TState.view, BPlusTree.new, rootPage, leafLow,
      leafHigh, leafPage, BPlusTreePage.InitInternal, BPlusTreePage.PopulateNewRoot,
      BPlusTreePage.zero, BPlusTreePage.SetNextPageId, BPlusTreePage.SetSize,
      BPlusTreePage.GetMinSize, BPlusTreePage.InitLeaf, BPlusTreePage.SetParentPageId,
      Function.update]
    ring
  · rw [hpages]
    simp [TreeView.newRoot, TreeView.splitLeaf, TreeView.setPage, TreeView.startNew,
      TreeView.setRoot, TreeView.alloc, TState.view, BPlusTree.new, rootPage, leafLow,
      leafHigh, leafPage, BPlusTreePage.InitInternal, BPlusTreePage.PopulateNewRoot,
      BPlusTreePage.zero, BPlusTreePage.SetNextPageId, BPlusTreePage.SetSize,
      BPlusTreePage.GetMinSize, BPlusTreePage.InitLeaf, BPlusTreePage.SetParentPageId,
      Function.update]
    ring

/-- C21: the split scenario.  With `leaf_max_size = 4` and `internal_max_size = 4`, on a
pool that holds the header page already (its next free page id `first_page_id` is above
`HEADER_PAGE_ID`) and in which `NewPage` never fails,
the calls `Insert(1, v1)`, `Insert(2, v2)`, `Insert(3, v3)`, `Insert(4, v4)` on the empty
tree all return `true`, and afterwards the root (page `first_page_id + 2`) is an internal
page of size 2 whose slots point to the leaves `first_page_id` and `first_page_id + 1`, in
that order, with the key 3 in slot 1; the first leaf holds the keys 1, 2 and its next page
id is the id of the second leaf, the second leaf holds the keys 3, 4 and its next page id
is `INVALID_PAGE_ID`, and the parent id of both leaves is the id of the root. -/
theorem split_scenario (v1 v2 v3 v4 : ValueType) (first_page_id : page_id_t)
    (h0 : HEADER_PAGE_ID < first_page_id) :
    ∃ t root left right,
      (insertAll [(1, v1), (2, v2), (3, v3), (4, v4)]).run
          (BPlusTree.new 4 4 first_page_id none) = Res.ok [true, true, true, true] t ∧
      t.pages t.root_page_id_ = some root ∧
      root.page_type_ = IndexPageType.INTERNAL_PAGE ∧ root.GetSize = 2 ∧
      root.array.map Prod.snd = [left.page_id_, right.page_id_] ∧
      (root.slot? 1).map Prod.fst = some 3 ∧
      t.pages left.page_id_ = some left ∧ t.pages right.page_id_ = some right ∧
      left.IsLeafPage = true ∧ right.IsLeafPage = true ∧
      left.array = [(1, v1), (2, v2)] ∧ right.array = [(3, v3), (4, v4)] ∧
      left.next_page_id_ = right.page_id_ ∧ right.next_page_id_ = INVALID_PAGE_ID ∧
      left.parent_page_id_ = t.root_page_id_ ∧ right.parent_page_id_ = t.root_page_id_ ∧
      root.page_id_ = t.root_page_id_ := by
  obtain ⟨rs, t, hrun, hrs, hroot, hR, hL, hN⟩ := split_scenario_wp v1 v2 v3 v4 first_page_id h0
  refine ⟨t,
    ({
      page_type_ := IndexPageType.INTERNAL_PAGE, max_size_ := 4,
      parent_page_id_ := INVALID_PAGE_ID, page_id_ := first_page_id + 2, next_page_id_ := 0,
      array := [(0, first_page_id), (3, first_page_id + 1)] } : BPlusTreePage),
    leafPage 4 first_page_id (first_page_id + 2) (first_page_id + 1) [(1, v1), (2, v2)],
    leafPage 4 (first_page_id + 1) (first_page_id + 2) INVALID_PAGE_ID [(3, v3), (4, v4)],
    by rw [hrun, hrs], by rw [hroot]; exact hR, rfl, rfl, rfl, rfl,
    hL, hN, rfl, rfl, rfl, rfl, rfl, rfl, hroot.symm, hroot.symm, hroot.symm⟩

theorem split_scenario_witness :
    ∃ t root left right,
      (insertAll [(1, 10), (2, 20), (3, 30), (4, 40)]).run
          (BPlusTree.new 4 4 1 none) = Res.ok [true, true, true, true] t ∧
      t.pages t.root_page_id_ = some root ∧
      root.page_type_ = IndexPageType.INTERNAL_PAGE ∧ root.GetSize = 2 ∧
      root.array.map Prod.snd = [left.page_id_, right.page_id_] ∧
      (root.slot? 1).map Prod.fst = some 3 ∧
      t.pages left.page_id_ = some left ∧ t.pages right.page_id_ = some right ∧
      left.IsLeafPage = true ∧ right.IsLeafPage = true ∧
      left.array = [(1, 10), (2, 20)] ∧ right.array = [(3, 30), (4, 40)] ∧
      left.next_page_id_ = right.page_id_ ∧ right.next_page_id_ = INVALID_PAGE_ID ∧
      left.parent_page_id_ = t.root_page_id_ ∧ right.parent_page_id_ = t.root_page_id_ ∧
      root.page_id_ = t.root_page_id_ :=
  split_scenario 10 20 30 40 1 (by decide)

/-- One sibling test of `CoalesceOrRedistribute`, for a resident sibling. -/
theorem testSibling_run {s : TState} {pg sg : BPlusTreePage} {sib : page_id_t}
    (hsg : s.pages sib = some sg) :
    wp (testSibling pg sib)
      (fun r t => r = !decide (sg.GetSize + pg.GetSize ≤ pg.GetMaxSize) ∧
        t.pages = s.pages) s := by
  unfold testSibling
  apply wp_bind_of
  rw [wp_FetchPage]
  refine ⟨⟨sg, hsg⟩, ?_⟩
  apply wp_bind_of
  rw [wp_getPage]
  refine ⟨sg, hsg, ?_⟩
  apply wp_bind_of
  rw [wp_WLatch, wp_ite]
  constructor
  · intro hfit
    apply wp_bind_of
    rw [wp_WUnlatch]
    apply wp_bind_of
    rw [wp_UnpinPage]
    constructor
    · intro _
      rw [wp_pure]
      exact ⟨by simp [hfit], rfl⟩
    · intro _
      rw [wp_pure]
      exact ⟨by simp [hfit], rfl⟩
  · intro hfit
    rw [wp_pure]
    exact ⟨by simp [hfit], rfl⟩

/-- The sibling tests of `CoalesceOrRedistribute` for a page that has a left sibling:
the left sibling is chosen when the two pages do not fit into one; otherwise the right
sibling is chosen when there is one and it does not fit into one page with the page;
otherwise no sibling is chosen. -/
theorem findRedistributeSibling_run {s : TState} {pg ppg yg : BPlusTreePage} {i : Nat}
    {ey : KeyType × Int} (hi : 0 < i) (hey : ppg.array[i - 1]? = some ey)
    (hyg : s.pages ey.2 = some yg) :
    (¬ yg.GetSize + pg.GetSize ≤ pg.GetMaxSize →
      ∃ t, (findRedistributeSibling pg ppg i).run s = Res.ok (some ey.2, (i : Int)) t) ∧
    (yg.GetSize + pg.GetSize ≤ pg.GetMaxSize →
      (∀ ex xg, ppg.array[i + 1]? = some ex → s.pages ex.2 = some xg →
        ¬ xg.GetSize + pg.GetSize ≤ pg.GetMaxSize →
        ∃ t, (findRedistributeSibling pg ppg i).run s =
          Res.ok (some ex.2, -((i : Int) + 1)) t) ∧
      ((¬ i + 1 < ppg.GetSize ∨ ∃ ex xg, ppg.array[i + 1]? = some ex ∧
          s.pages ex.2 = some xg ∧ xg.GetSize + pg.GetSize ≤ pg.GetMaxSize) →
        ∃ t, (findRedistributeSibling pg ppg i).run s = Res.ok (none, (i : Int)) t)) := by
  have hleft : wp (if i > 0 then do
        let e ← TM.ofOption (ppg.slot? ((i : Int) - 1))
        let keep ← testSibling pg e.2
        pure (if keep then some e.2 else none)
      else pure none)
      (fun r t => r = (if yg.GetSize + pg.GetSize ≤ pg.GetMaxSize then none else some ey.2) ∧
        t.pages = s.pages) s := by
    rw [if_pos hi]
    apply wp_bind_of
    rw [wp_ofOption]
    refine ⟨ey, by rw [slot_pred ppg hi]; exact hey, ?_⟩
    apply wp_bind_of
    refine wp_mono (testSibling_run hyg) ?_
    rintro r t ⟨hr, ht⟩
    rw [wp_pure]
    refine ⟨?_, ht⟩
    rw [hr]
    by_cases hfit : yg.GetSize + pg.GetSize ≤ pg.GetMaxSize <;> simp [hfit]
  refine ⟨?_, ?_⟩
  · intro hfit
    have : wp (findRedistributeSibling pg ppg i)
        (fun r _ => r = (some ey.2, (i : Int))) s := by
      unfold findRedistributeSibling
      apply wp_bind_of
      refine wp_mono hleft ?_
      rintro r t ⟨hr, _⟩
      rw [hr, if_neg hfit]
      simp only
      rw [wp_pure]
    obtain ⟨r, t, hrun, hr⟩ := this
    exact ⟨t, by rw [hrun, hr]⟩
  · intro hfit
    refine ⟨?_, ?_⟩
    · intro ex xg hex hxg hnfit
      have : wp (findRedistributeSibling pg ppg i)
          (fun r _ => r = (some ex.2, -((i : Int) + 1))) s := by
        unfold findRedistributeSibling
        apply wp_bind_of
        refine wp_mono hleft ?_
        rintro r t ⟨hr, ht⟩
        rw [hr, if_pos hfit]
        simp only
        have hlt : i + 1 < ppg.GetSize := by
          have := (List.getElem?_eq_some_iff.1 hex).1
          exact this
        rw [if_pos hlt]
        apply wp_bind_of
        rw [wp_ofOption]
        refine ⟨ex, by rw [slot_succ]; exact hex, ?_⟩
        apply wp_bind_of
        refine wp_mono (@testSibling_run t pg xg ex.2 (by rw [ht]; exact hxg)) ?_
        rintro r2 t2 ⟨hr2, _⟩
        rw [wp_pure, hr2]
        simp [hnfit]
      obtain ⟨r, t, hrun, hr⟩ := this
      exact ⟨t, by rw [hrun, hr]⟩
    · intro hright
      have : wp (findRedistributeSibling pg ppg i)
          (fun r _ => r = (none, (i : Int))) s := by
        unfold findRedistributeSibling
        apply wp_bind_of
        refine wp_mono hleft ?_
        rintro r t ⟨hr, ht⟩
        rw [hr, if_pos hfit]
        simp only
        rcases hright with hno | ⟨ex, xg, hex, hxg, hxfit⟩
        · rw [if_neg hno, wp_pure]
        · have hlt : i + 1 < ppg.GetSize := (List.getElem?_eq_some_iff.1 hex).1
          rw [if_pos hlt]
          apply wp_bind_of
          rw [wp_ofOption]
          refine ⟨ex, by rw [slot_succ]; exact hex, ?_⟩
          apply wp_bind_of
          refine wp_mono (@testSibling_run t pg xg ex.2 (by rw [ht]; exact hxg)) ?_
          rintro r2 t2 ⟨hr2, _⟩
          rw [wp_pure, hr2]
          simp [hxfit]
      obtain ⟨r, t, hrun, hr⟩ := this
      exact ⟨t, by rw [hrun, hr]⟩

/-- The start of `CoalesceOrRedistribute` on a page that is not the root: the sibling
tests are made with the slot of the page in its parent, and their outcome selects the
branch. -/
theorem CoalesceOrRedistribute_run {isLeaf : Bool} {s : TState} {page P : page_id_t}
    {rest : List page_id_t} {pd ppg : BPlusTreePage} {i : Nat}
    (hpd : s.pages page = some pd) (hnr : pd.IsRootPage = false)
    (hpp : s.pages P = some ppg) (hidx : ppg.ValueIndex pd.page_id_ = some i) :
    (CoalesceOrRedistribute isLeaf page (P :: rest)).run s =
      (do
        let found ← findRedistributeSibling pd ppg i
        match found.1 with
        | some sibling_id => do
          RedistributeWith isLeaf sibling_id page P ppg.page_id_ found.2
          pure (false, rest)
        | none =>
          CoalesceAndRecurse isLeaf page P ppg.page_id_ ppg i rest
            (CoalesceOrRedistribute false P rest)).run s := by
  have key : ∀ recur : TM (Bool × List page_id_t),
      recur = CoalesceOrRedistribute false P rest →
      (CoalesceOrRedistribute isLeaf page (P :: rest)).run s =
        (do
          let found ← findRedistributeSibling pd ppg i
          match found.1 with
          | some sibling_id => do
            RedistributeWith isLeaf sibling_id page P ppg.page_id_ found.2
            pure (false, rest)
          | none =>
            CoalesceAndRecurse isLeaf page P ppg.page_id_ ppg i rest recur).run s := by
    intro recur hrec
    unfold CoalesceOrRedistribute
    rw [run_bind_ok (run_getPage hpd)]
    rw [if_neg (by rw [hnr]; exact Bool.false_ne_true)]
    rw [run_bind_ok (run_getPage hpp)]
    rw [hidx, ← hrec]
    rfl
  exact key _ rfl

/-- The coalesce branch of `CoalesceOrRedistribute` for a page that has a left sibling:
the page is merged into its left sibling. -/
theorem CoalesceWith_left {isLeaf : Bool} {page P : page_id_t} {ppg : BPlusTreePage}
    {i : Nat} {ey : KeyType × Int} (hi : 0 < i) (hey : ppg.array[i - 1]? = some ey)
    (t : TState) :
    (CoalesceWith isLeaf page P ppg i).run t =
      (do
        FetchPage ey.2
        WLatch ey.2
        let CR_recursively ← Coalesce isLeaf ey.2 page P i
        WUnlatch ey.2
        let _ ← UnpinPage ey.2 true
        pure CR_recursively).run t := by
  unfold CoalesceWith
  have hne : ¬ i = 0 := by omega
  rw [if_neg hne, slot_pred ppg hi, hey]
  simp only [if_neg hne]
  rfl

/-- C22: sibling selection on underflow.  For a page that is not the root and stands at
slot `i > 0` of its parent, `CoalesceOrRedistribute` makes the sibling tests and acts on
their outcome: when the left sibling and the page do not fit into one page, the sibling
chosen for `Redistribute` is the left sibling; when they fit, and a right sibling exists
that does not fit into one page with the page, the sibling chosen for `Redistribute` is
the right sibling; when neither is chosen, `Coalesce` is called with the left sibling. -/
theorem sibling_selection (isLeaf : Bool) (s : TState) (page P : page_id_t)
    (rest : List page_id_t) (pd ppg yg : BPlusTreePage) (i : Nat) (ey : KeyType × Int)
    (hpd : s.pages page = some pd) (hnr : pd.IsRootPage = false)
    (hpp : s.pages P = some ppg) (hidx : ppg.ValueIndex pd.page_id_ = some i) (hi : 0 < i)
    (hey : ppg.array[i - 1]? = some ey) (hyg : s.pages ey.2 = some yg) :
    (CoalesceOrRedistribute isLeaf page (P :: rest)).run s =
      (do
        let found ← findRedistributeSibling pd ppg i
        match found.1 with
        | some sibling_id => do
          RedistributeWith isLeaf sibling_id page P ppg.page_id_ found.2
          pure (false, rest)
        | none =>
          CoalesceAndRecurse isLeaf page P ppg.page_id_ ppg i rest
            (CoalesceOrRedistribute false P rest)).run s ∧
    (¬ yg.GetSize + pd.GetSize ≤ pd.GetMaxSize →
      ∃ t, (findRedistributeSibling pd ppg i).run s = Res.ok (some ey.2, (i : Int)) t) ∧
    (yg.GetSize + pd.GetSize ≤ pd.GetMaxSize →
      (∀ ex xg, ppg.array[i + 1]? = some ex → s.pages ex.2 = some xg →
        ¬ xg.GetSize + pd.GetSize ≤ pd.GetMaxSize →
        ∃ t, (findRedistributeSibling pd ppg i).run s =
          Res.ok (some ex.2, -((i : Int) + 1)) t) ∧
      ((¬ i + 1 < ppg.GetSize ∨ ∃ ex xg, ppg.array[i + 1]? = some ex ∧
          s.pages ex.2 = some xg ∧ xg.GetSize + pd.GetSize ≤ pd.GetMaxSize) →
        ∃ t, (findRedistributeSibling pd ppg i).run s = Res.ok (none, (i : Int)) t)) ∧
    (∀ t, (CoalesceWith isLeaf page P ppg i).run t =
      (do
        FetchPage ey.2
        WLatch ey.2
        let CR_recursively ← Coalesce isLeaf ey.2 page P i
        WUnlatch ey.2
        let _ ← UnpinPage ey.2 true
        pure CR_recursively).run t) := by
  obtain ⟨h1, h2⟩ := @findRedistributeSibling_run s pd ppg yg i ey hi hey hyg
  exact ⟨CoalesceOrRedistribute_run hpd hnr hpp hidx, h1, h2, CoalesceWith_left hi hey⟩

theorem sibling_selection_witness :
    ∃ t, (findRedistributeSibling (leafPage 6 2 3 4 [(5, 50), (6, 60)])
        { page_type_ := IndexPageType.INTERNAL_PAGE, max_size_ := 4,
          parent_page_id_ := INVALID_PAGE_ID, page_id_ := 3, next_page_id_ := 0,
          array := [(0, 1), (4, 2), (7, 4)] } 1).run siblingShort =
      Res.ok (some 4, -(((1 : Nat) : Int) + 1)) t :=
  ((sibling_selection true siblingShort 2 3 [] (leafPage 6 2 3 4 [(5, 50), (6, 60)])
    { page_type_ := IndexPageType.INTERNAL_PAGE, max_size_ := 4,
      parent_page_id_ := INVALID_PAGE_ID, page_id_ := 3, next_page_id_ := 0,
      array := [(0, 1), (4, 2), (7, 4)] }
    (leafPage 6 1 3 2 [(1, 10), (2, 20), (3, 30)]) 1 (0, 1)
    (by decide) (by decide) (by decide) (by decide) (by decide) (by decide)
    (by decide)).2.2.1 (by decide)).1 (7, 4)
    (leafPage 6 4 3 INVALID_PAGE_ID [(7, 70), (8, 80), (9, 90), (10, 100), (11, 110)])
    (by decide) (by decide) (by decide)

/-- C22 as stated fails: in the tree `siblingState` leaf 2 stands at slot 1 of the root,
between leaf 1 (three pairs) and leaf 4 (five pairs); once the key 4 is removed it holds two
pairs, below the minimum of three, and it fits into one page with its left sibling.  The
sibling tests choose the right sibling, leaf 4, and `Remove(4)` moves the first pair of
leaf 4 into leaf 2 and leaves leaf 1, the left sibling, as it was. -/
theorem sibling_selection_counterexample :
    (siblingState.pages 3).map (fun p => p.array.map Prod.snd) = some [1, 2, 4] ∧
    (siblingShort.pages 2).map (fun p => (p.GetSize, p.GetMinSize, p.IsRootPage)) =
      some (2, 3, false) ∧
    (siblingShort.pages 3).bind (fun ppg => ppg.ValueIndex 2) = some 1 ∧
    (siblingShort.pages 2).bind (fun pd => (siblingShort.pages 3).bind (fun ppg =>
      resultOf (findRedistributeSibling pd ppg 1) siblingShort)) = some (some 4, -2) ∧
    (stateAfter (Remove 4) siblingState).pages 1 = siblingState.pages 1 ∧
    ((stateAfter (Remove 4) siblingState).pages 2).map (fun p => p.array.map Prod.fst) =
      some [5, 6, 7] ∧
    ((stateAfter (Remove 4) siblingState).pages 4).map (fun p => p.array.map Prod.fst) =
      some [8, 9, 10, 11] := by
  decide

/-- The split branch of `InsertIntoParent` ends with the recursive call on the parent and
the new page. -/
theorem InsertIntoParent_full_run {s : TState} {old new P : page_id_t} {key : KeyType}
    {rest : List page_id_t} {pgo pgn ppg : BPlusTreePage}
    (hold : s.pages old = some pgo) (hnr : pgo.IsRootPage = false)
    (hpp : s.pages P = some ppg) (hnew : s.pages new = some pgn)
    (hfull : ¬ ppg.IS_INSERT_SAFE = true) :
    (InsertIntoParent old key new (P :: rest)).run s =
      (do
        let r ← InsertIntoParentSplit pgo ppg pgn key P new
        let rest2 ← InsertIntoParent P r.2.1 r.1 rest
        let _ ← UnpinPage r.2.2 true
        let _ ← UnpinPage ppg.page_id_ true
        pure rest2).run s := by
  have key2 : ∀ recur : page_id_t → KeyType → page_id_t → TM (List page_id_t),
      recur = (fun o k n => InsertIntoParent o k n rest) →
      (InsertIntoParent old key new (P :: rest)).run s =
        (do
          let r ← InsertIntoParentSplit pgo ppg pgn key P new
          let rest2 ← recur P r.2.1 r.1
          let _ ← UnpinPage r.2.2 true
          let _ ← UnpinPage ppg.page_id_ true
          pure rest2).run s := by
    intro recur hrec
    unfold InsertIntoParent
    rw [run_bind_ok (run_getPage hold)]
    rw [if_neg (by rw [hnr]; exact Bool.false_ne_true)]
    rw [run_bind_ok (run_getPage hpp), run_bind_ok (run_getPage hnew)]
    simp only
    rw [if_neg hfull, hrec]
  exact key2 _ rfl

theorem Oblivious_bind {α β : Type} {m : TM α} {f : α → TM β} (hm : Oblivious m)
    (hf : ∀ a, Oblivious (f a)) : Oblivious (m >>= f) := by
  constructor
  · intro s b
    rw [run_bind, run_bind, hm.1 s b]
    cases h : m.run s with
    | ok a t =>
      show (f a).run (t.withBudget b) = _
      rw [(hf a).1 t b]
    | throw t => rfl
    | fault => rfl
  · intro s b t h
    rw [run_bind] at h
    cases h1 : m.run s with
    | ok a t1 =>
      rw [h1] at h
      obtain ⟨e1, e2⟩ := hm.2 s a t1 h1
      obtain ⟨e3, e4⟩ := (hf a).2 t1 b t h
      exact ⟨e3.trans e1, e4.trans e2⟩
    | throw t1 => rw [h1] at h; cases h
    | fault => rw [h1] at h; cases h

theorem Built.oblivious {α : Type} {m : TM α} (h : Built m) : Oblivious m := by
  induction h with
  | ret a =>
    refine ⟨fun _ _ => rfl, fun s b t h => ?_⟩
    have : Res.ok a s = Res.ok b t := h
    cases this
    exact ⟨rfl, rfl⟩
  | stop => exact ⟨fun _ _ => rfl, fun s b t h => by cases h⟩
  | @read β f hf _ ih =>
    constructor
    · intro s b
      show (f (s.withBudget b)).run (s.withBudget b) = Res.mapState _ ((f s).run s)
      rw [hf s b, (ih s).1 s b]
    · intro s b t hr
      exact (ih s).2 s b t hr
  | @write f h1 h2 =>
    constructor
    · intro s b
      show Res.ok () (f (s.withBudget b)) = Res.ok () ((f s).withBudget b)
      rw [h1]
    · intro s a t h
      have : Res.ok () (f s) = Res.ok a t := h
      cases this
      exact h2 s
  | seq _ _ ihm ihf => exact Oblivious_bind ihm ihf

theorem NoThrow_bind {α β : Type} {m : TM α} {f : α → TM β} (hm : NoThrow m)
    (hf : ∀ a, NoThrow (f a)) : NoThrow (m >>= f) := by
  intro s t h
  rw [run_bind] at h
  cases h1 : m.run s with
  | ok a t1 => rw [h1] at h; exact hf a t1 t h
  | throw t1 => exact hm s t1 h1
  | fault => rw [h1] at h; cases h

theorem Built.noThrow {α : Type} {m : TM α} (h : Built m) : NoThrow m := by
  induction h with
  | ret a => intro s t h; cases h
  | stop => intro s t h; cases h
  | read _ _ ih => intro s t h; exact ih s s t h
  | write _ _ => intro s t h; cases h
  | seq _ _ ihm ihf => exact NoThrow_bind ihm ihf

theorem Built_ofOption {α : Type} (o : Option α) : Built (TM.ofOption o) := by
  cases o with
  | none => exact Built.stop
  | some a => exact Built.ret a

theorem Built_ite {α : Type} (c : Prop) [Decidable c] {m n : TM α} (hm : Built m)
    (hn : Built n) : Built (if c then m else n) := by
  split
  · exact hm
  · exact hn

theorem Built_getPage (p : page_id_t) : Built (getPage p) :=
  Built.read (fun _ _ => rfl) (fun _ => Built_ofOption _)

theorem Built_modifyPage (p : page_id_t) (f : BPlusTreePage → BPlusTreePage) :
    Built (modifyPage p f) :=
  Built.seq (Built_getPage p)
    (fun _ => Built.write (fun _ _ => rfl) (fun _ => ⟨rfl, rfl⟩))

theorem Built_FetchPage (p : page_id_t) : Built (FetchPage p) :=
  Built.seq (Built_getPage p)
    (fun _ => Built.write (fun _ _ => rfl) (fun _ => ⟨rfl, rfl⟩))

theorem Built_FetchHeaderPage : Built FetchHeaderPage :=
  Built.write (fun _ _ => rfl) (fun _ => ⟨rfl, rfl⟩)

theorem Built_UnpinPage (p : page_id_t) (d : Bool) : Built (UnpinPage p d) :=
  Built.read (fun _ _ => rfl) (fun _ =>
    Built_ite _ (Built.ret _)
      (Built.seq (Built.write (fun _ _ => rfl) (fun _ => ⟨rfl, rfl⟩))
        (fun _ => Built.ret _)))

theorem Built_WLatch (p : page_id_t) : Built (WLatch p) :=
  Built.write (fun _ _ => rfl) (fun _ => ⟨rfl, rfl⟩)

theorem Built_WUnlatch (p : page_id_t) : Built (WUnlatch p) :=
  Built.write (fun _ _ => rfl) (fun _ => ⟨rfl, rfl⟩)

theorem Built_lockRoot : Built lockRoot :=
  Built.write (fun _ _ => rfl) (fun _ => ⟨rfl, rfl⟩)

theorem Built_unlockRoot : Built unlockRoot :=
  Built.write (fun _ _ => rfl) (fun _ => ⟨rfl, rfl⟩)

theorem Built_unlockRootIf (b : Bool) : Built (unlockRootIf b) := by
  unfold unlockRootIf
  exact Built_ite _ Built_unlockRoot (Built.ret _)

theorem Built_REPLACE (c U : page_id_t) : Built (REPLACE c U) := by
  unfold REPLACE
  exact Built.seq (Built_FetchPage _) (fun _ =>
    Built.seq (Built_WLatch _) (fun _ =>
    Built.seq (Built_modifyPage _ _) (fun _ =>
    Built.seq (Built_WUnlatch _) (fun _ =>
    Built.seq (Built_UnpinPage _ _) (fun _ => Built.ret _)))))

theorem Built_QueueWUnlatchUnpin : ∀ queue : List page_id_t,
    Built (QueueWUnlatchUnpin queue)
  | [] => Built.ret _
  | p :: queue => by
    unfold QueueWUnlatchUnpin
    exact Built.seq (Built_WUnlatch _) (fun _ =>
      Built.seq (Built_UnpinPage _ _) (fun _ => Built_QueueWUnlatchUnpin queue))

theorem Built_CLEAN_ROUTINE (queue : List page_id_t) (b : Bool) :
    Built (CLEAN_ROUTINE queue b) := by
  unfold CLEAN_ROUTINE
  exact Built.seq (Built_QueueWUnlatchUnpin _) (fun _ => Built_unlockRootIf _)

theorem Built_UpdateRootPageId (ir : Bool) : Built (UpdateRootPageId ir) := by
  unfold UpdateRootPageId
  exact Built.seq Built_FetchHeaderPage (fun _ =>
    Built.seq (Built_WLatch _) (fun _ =>
    Built.seq (Built.write (fun _ _ => rfl) (fun _ => ⟨rfl, rfl⟩)) (fun _ =>
    Built.seq (Built_WUnlatch _) (fun _ =>
    Built.seq (Built_UnpinPage _ _) (fun _ => Built.ret _)))))

theorem Built_MoveHalfToLeaf (node recipient : page_id_t) :
    Built (MoveHalfToLeaf node recipient) := by
  unfold MoveHalfToLeaf
  exact Built.seq (Built_getPage _) (fun _ =>
    Built.seq (Built_modifyPage _ _) (fun _ => Built_modifyPage _ _))

theorem Built_CopyNFrom (recipient : page_id_t) : ∀ items : List (KeyType × Int),
    Built (CopyNFrom recipient items)
  | [] => Built.ret _
  | item :: items => by
    unfold CopyNFrom
    exact Built.seq (Built_modifyPage _ _) (fun _ =>
      Built.seq (Built_getPage _) (fun _ =>
      Built.seq (Built_REPLACE _ _) (fun _ => Built_CopyNFrom recipient items)))

theorem Built_MoveHalfToInternal (node recipient : page_id_t) :
    Built (MoveHalfToInternal node recipient) := by
  unfold MoveHalfToInternal
  exact Built.seq (Built_getPage _) (fun _ =>
    Built.seq (Built_CopyNFrom _ _) (fun _ => Built_modifyPage _ _))

theorem Built_crabWrite (insert : Bool) (key : KeyType) :
    ∀ (fuel : Nat) (p : page_id_t) (queue : List page_id_t) (rl : Bool),
      Built (crabWrite insert key fuel p queue rl)
  | 0, _, _, _ => Built.stop
  | fuel + 1, p, queue, rl => by
    unfold crabWrite
    refine Built.seq (Built_getPage _) (fun pg => ?_)
    refine Built_ite _ (Built.ret _) ?_
    refine Built_ite _ ?_ ?_
    · exact Built.seq (Built_QueueWUnlatchUnpin _) (fun _ =>
        Built.seq (Built_unlockRootIf _) (fun _ =>
        Built.seq (Built_ofOption _) (fun _ =>
        Built.seq (Built_FetchPage _) (fun _ =>
        Built.seq (Built_WLatch _) (fun _ =>
          Built_crabWrite insert key fuel _ _ _)))))
    · exact Built.seq (Built_ofOption _) (fun _ =>
        Built.seq (Built_FetchPage _) (fun _ =>
        Built.seq (Built_WLatch _) (fun _ =>
          Built_crabWrite insert key fuel _ _ _)))

/-- The insert descent calls no `NewPage`. -/
theorem Built_crabInsert (key : KeyType) :
    Built (LatchCrabbingToLeaf OPERATION_TYPE.INSERT_TRAVEL key) := by
  unfold LatchCrabbingToLeaf
  refine Built.seq Built_lockRoot (fun _ => ?_)
  refine Built.read (fun _ _ => rfl) (fun s => ?_)
  refine Built_ite _ (Built.ret _) ?_
  refine Built.seq (Built_FetchPage _) (fun _ => ?_)
  exact Built.seq (Built_WLatch _) (fun _ =>
    Built.seq (Built_crabWrite _ _ _ _ _ _) (fun _ => Built.ret _))

theorem BudgetSim_of_built {α : Type} {m : TM α} (hbuilt : Built m) : BudgetSim m := by
  intro s a t hb hr
  have hm := hbuilt.oblivious
  obtain ⟨e1, e2⟩ := hm.2 s a t hr
  refine ⟨e2.trans hb, 0, by simp [e1], fun n => ⟨fun _ => ?_, fun h => absurd h (by omega)⟩⟩
  rw [hm.1 s (some n), hr]
  rfl

theorem BudgetSim_bind {α β : Type} {m : TM α} {f : α → TM β} (hm : BudgetSim m)
    (hf : ∀ a, BudgetSim (f a)) : BudgetSim (m >>= f) := by
  intro s b u hb hr
  rw [run_bind] at hr
  cases h1 : m.run s with
  | throw t1 => rw [h1] at hr; cases hr
  | fault => rw [h1] at hr; cases hr
  | ok a t =>
    rw [h1] at hr
    have hr2 : (f a).run t = Res.ok b u := hr
    obtain ⟨hb1, k1, e1, c1⟩ := hm s a t hb h1
    obtain ⟨hb2, k2, e2, c2⟩ := hf a t b u hb1 hr2
    refine ⟨hb2, k1 + k2, by rw [e2, e1]; push_cast; ring, fun n => ⟨fun hn => ?_, fun hn => ?_⟩⟩
    · rw [run_bind_ok ((c1 n).1 (by omega)), (c2 (n - k1)).1 (by omega), Nat.sub_sub]
    · by_cases hk : n < k1
      · obtain ⟨t2, ht2⟩ := (c1 n).2 hk
        exact ⟨t2, run_bind_throw f ht2⟩
      · obtain ⟨t2, ht2⟩ := (c2 (n - k1)).2 (by omega)
        exact ⟨t2, by rw [run_bind_ok ((c1 n).1 (by omega)), ht2]⟩

theorem BudgetSim_get_bind {β : Type} {f : TState → TM β}
    (hf : ∀ s b, f (s.withBudget b) = f s) (h : ∀ s, BudgetSim (f s)) :
    BudgetSim (TM.get >>= f) := by
  intro s b u hb hr
  obtain ⟨hb2, k, e, c⟩ := h s s b u hb hr
  refine ⟨hb2, k, e, fun n => ⟨fun hn => ?_, fun hn => ?_⟩⟩
  · show (f (s.withBudget (some n))).run (s.withBudget (some n)) = _
    rw [hf]
    exact (c n).1 hn
  · obtain ⟨t2, ht2⟩ := (c n).2 hn
    refine ⟨t2, ?_⟩
    show (f (s.withBudget (some n))).run (s.withBudget (some n)) = _
    rw [hf]
    exact ht2

theorem BudgetSim_ite {α : Type} (c : Prop) [Decidable c] {m n : TM α} (hm : BudgetSim m)
    (hn : BudgetSim n) : BudgetSim (if c then m else n) := by
  split
  · exact hm
  · exact hn

theorem run_NewPage_unlimited (s : TState) (hb : s.new_budget = none) :
    NewPage.run s = Res.ok (some s.next_page_id_) s.afterNew := by
  have h : NewPage.run { s with new_budget := none } =
      Res.ok (some s.next_page_id_) (TState.afterNew { s with new_budget := none }) := rfl
  have e : ({ s with new_budget := none } : TState) = s := by
    cases s
    simp only at hb
    subst hb
    rfl
  rw [e] at h
  exact h

theorem run_NewPage_succ (s : TState) (n : Nat) :
    NewPage.run (s.withBudget (some (n + 1))) =
      Res.ok (some s.next_page_id_) (s.afterNew.withBudget (some n)) := rfl

theorem run_NewPage_zero (s : TState) :
    NewPage.run (s.withBudget (some 0)) =
      Res.ok none { s.withBudget (some 0) with next_page_id_ := s.next_page_id_ + 1 } := rfl

/-- The pattern of every allocation of the tree: `NewPage`, and `throw` when it returns
`nullptr`. -/
theorem BudgetSim_alloc {β : Type} {f : Option page_id_t → TM β} (hnone : f none = TM.raise)
    (hsome : ∀ id, BudgetSim (f (some id))) : BudgetSim (NewPage >>= f) := by
  intro s b u hb hr
  rw [run_bind_ok (run_NewPage_unlimited s hb)] at hr
  obtain ⟨hb2, k, e, c⟩ := hsome _ s.afterNew b u hb hr
  have e2 : u.next_page_id_ = s.next_page_id_ + ((k + 1 : Nat) : Int) := by
    rw [e]
    show s.next_page_id_ + 1 + (k : Int) = _
    push_cast
    ring
  refine ⟨hb2, k + 1, e2, fun n => ⟨fun hn => ?_, fun hn => ?_⟩⟩
  · obtain ⟨n, rfl⟩ : ∃ j, n = j + 1 := ⟨n - 1, by omega⟩
    rw [run_bind_ok (run_NewPage_succ s n), (c n).1 (by omega)]
    simp
  · cases n with
    | zero =>
      refine ⟨{ s.withBudget (some 0) with next_page_id_ := s.next_page_id_ + 1 }, ?_⟩
      rw [run_bind_ok (run_NewPage_zero s), hnone]
      rfl
    | succ n =>
      obtain ⟨t2, ht2⟩ := (c n).2 (by omega)
      exact ⟨t2, by rw [run_bind_ok (run_NewPage_succ s n), ht2]⟩

theorem StartNewTree_alloc (key : KeyType) (value : ValueType) :
    ∃ f : Option page_id_t → TM Unit, StartNewTree key value = NewPage >>= f ∧ f none = TM.raise ∧
      ∀ id, Built (f (some id)) := by
  unfold StartNewTree
  refine ⟨_, rfl, rfl, fun id => ?_⟩
  refine Built.read (fun _ _ => rfl) (fun s => ?_)
  exact Built.seq (Built_modifyPage _ _) (fun _ =>
    Built.seq (Built_modifyPage _ _) (fun _ =>
    Built.seq (Built.write (fun _ _ => rfl) (fun _ => ⟨rfl, rfl⟩)) (fun _ =>
    Built.seq (Built_UpdateRootPageId _) (fun _ =>
    Built.seq (Built_UnpinPage _ _) (fun _ => Built.ret _)))))

theorem BudgetSim_StartNewTree (key : KeyType) (value : ValueType) : BudgetSim (StartNewTree key value) := by
  obtain ⟨f, e, hn, hs⟩ := StartNewTree_alloc key value
  rw [e]
  exact BudgetSim_alloc hn (fun id => BudgetSim_of_built (hs id))

theorem SplitLeaf_alloc (node : page_id_t) :
    ∃ f : Option page_id_t → TM page_id_t, SplitLeaf node = NewPage >>= f ∧ f none = TM.raise ∧
      ∀ id, Built (f (some id)) := by
  unfold SplitLeaf
  refine ⟨_, rfl, rfl, fun id => ?_⟩
  refine Built.read (fun _ _ => rfl) (fun s => ?_)
  exact Built.seq (Built_getPage _) (fun _ =>
    Built.seq (Built_modifyPage _ _) (fun _ =>
    Built.seq (Built_modifyPage _ _) (fun _ =>
    Built.seq (Built_modifyPage _ _) (fun _ =>
    Built.seq (Built_MoveHalfToLeaf _ _) (fun _ => Built.ret _)))))

theorem BudgetSim_SplitLeaf (node : page_id_t) : BudgetSim (SplitLeaf node) := by
  obtain ⟨f, e, hn, hs⟩ := SplitLeaf_alloc node
  rw [e]
  exact BudgetSim_alloc hn (fun id => BudgetSim_of_built (hs id))

theorem SplitInternal_alloc (node : page_id_t) :
    ∃ f : Option page_id_t → TM page_id_t, SplitInternal node = NewPage >>= f ∧ f none = TM.raise ∧
      ∀ id, Built (f (some id)) := by
  unfold SplitInternal
  refine ⟨_, rfl, rfl, fun id => ?_⟩
  refine Built.read (fun _ _ => rfl) (fun s => ?_)
  exact Built.seq (Built_getPage _) (fun _ =>
    Built.seq (Built_modifyPage _ _) (fun _ =>
    Built.seq (Built_MoveHalfToInternal _ _) (fun _ => Built.ret _)))

theorem BudgetSim_SplitInternal (node : page_id_t) : BudgetSim (SplitInternal node) := by
  obtain ⟨f, e, hn, hs⟩ := SplitInternal_alloc node
  rw [e]
  exact BudgetSim_alloc hn (fun id => BudgetSim_of_built (hs id))

theorem InsertIntoParentRoot_alloc (old_node : page_id_t) (key : KeyType) (new_node : page_id_t) :
    ∃ f : Option page_id_t → TM Unit, InsertIntoParentRoot old_node key new_node = NewPage >>= f ∧ f none = TM.raise ∧
      ∀ id, Built (f (some id)) := by
  unfold InsertIntoParentRoot
  refine ⟨_, rfl, rfl, fun id => ?_⟩
  refine Built.read (fun _ _ => rfl) (fun s => ?_)
  exact Built.seq (Built_getPage _) (fun _ =>
    Built.seq (Built_getPage _) (fun _ =>
    Built.seq (Built_modifyPage _ _) (fun _ =>
    Built.seq (Built_modifyPage _ _) (fun _ =>
    Built.seq (Built_modifyPage _ _) (fun _ =>
    Built.seq (Built_modifyPage _ _) (fun _ =>
    Built.seq (Built.write (fun _ _ => rfl) (fun _ => ⟨rfl, rfl⟩)) (fun _ =>
    Built.seq (Built_UnpinPage _ _) (fun _ => Built_UpdateRootPageId _))))))))

theorem BudgetSim_InsertIntoParentRoot (old_node : page_id_t) (key : KeyType) (new_node : page_id_t) : BudgetSim (InsertIntoParentRoot old_node key new_node) := by
  obtain ⟨f, e, hn, hs⟩ := InsertIntoParentRoot_alloc old_node key new_node
  rw [e]
  exact BudgetSim_alloc hn (fun id => BudgetSim_of_built (hs id))

theorem BudgetSim_InsertIntoParentSplit (old_data parent_data new_data : BPlusTreePage)
    (key : KeyType) (parent_page new_node : page_id_t) :
    BudgetSim (InsertIntoParentSplit old_data parent_data new_data key parent_page new_node) := by
  unfold InsertIntoParentSplit
  refine BudgetSim_bind (BudgetSim_of_built (Built_ofOption _)) (fun last => ?_)
  refine BudgetSim_bind (BudgetSim_of_built ?_) (fun temp => ?_)
  · exact Built_ite _
      (Built.seq (Built_ofOption _) (fun _ =>
        Built.seq (Built_modifyPage _ _) (fun _ => Built.ret _)))
      (Built.ret _)
  refine BudgetSim_bind (BudgetSim_SplitInternal _) (fun uncle => BudgetSim_of_built ?_)
  refine Built.seq (Built_getPage _) (fun _ =>
    Built.seq (Built_ofOption _) (fun _ =>
    Built.seq (Built_ofOption _) (fun _ =>
    Built.seq (Built_modifyPage _ _) (fun _ =>
    Built.seq (Built_ite _ (Built_modifyPage _ _) (Built_REPLACE _ _)) (fun _ =>
    Built.seq (Built_WUnlatch _) (fun _ =>
    Built.seq (Built_getPage _) (fun _ =>
    Built.seq (Built_ofOption _) (fun _ => Built.ret _))))))))

theorem BudgetSim_InsertIntoParent : ∀ (queue : List page_id_t)
    (old_node new_node : page_id_t) (key : KeyType),
    BudgetSim (InsertIntoParent old_node key new_node queue)
  | [], old_node, new_node, key => by
    unfold InsertIntoParent
    refine BudgetSim_bind (BudgetSim_of_built (Built_getPage _)) (fun _ => ?_)
    refine BudgetSim_ite _ ?_ (BudgetSim_of_built Built.stop)
    exact BudgetSim_bind (BudgetSim_InsertIntoParentRoot _ _ _)
      (fun _ => BudgetSim_of_built (Built.ret _))
  | parent_page :: rest, old_node, new_node, key => by
    unfold InsertIntoParent
    refine BudgetSim_bind (BudgetSim_of_built (Built_getPage _)) (fun _ => ?_)
    refine BudgetSim_ite _ ?_ ?_
    · exact BudgetSim_bind (BudgetSim_InsertIntoParentRoot _ _ _)
        (fun _ => BudgetSim_of_built (Built.ret _))
    refine BudgetSim_bind (BudgetSim_of_built (Built_getPage _)) (fun _ => ?_)
    refine BudgetSim_bind (BudgetSim_of_built (Built_getPage _)) (fun _ => ?_)
    refine BudgetSim_ite _ (BudgetSim_of_built ?_) ?_
    · exact Built.seq (Built_ofOption _) (fun _ =>
        Built.seq (Built_modifyPage _ _) (fun _ =>
        Built.seq (Built_WUnlatch _) (fun _ =>
        Built.seq (Built_UnpinPage _ _) (fun _ => Built.ret _))))
    refine BudgetSim_bind (BudgetSim_InsertIntoParentSplit _ _ _ _ _ _) (fun r => ?_)
    refine BudgetSim_bind (BudgetSim_InsertIntoParent rest _ _ _) (fun _ =>
      BudgetSim_of_built ?_)
    exact Built.seq (Built_UnpinPage _ _) (fun _ =>
      Built.seq (Built_UnpinPage _ _) (fun _ => Built.ret _))

/-- The run of `Insert` with an unlimited pool determines its run with `n` frames left. -/
theorem BudgetSim_Insert (key : KeyType) (value : ValueType) : BudgetSim (Insert key value) := by
  unfold Insert InsertIntoLeaf
  refine BudgetSim_bind (BudgetSim_of_built (Built_crabInsert key)) (fun r => ?_)
  cases h : r.1 with
  | none =>
    exact BudgetSim_bind (BudgetSim_StartNewTree _ _) (fun _ => BudgetSim_of_built
      (Built.seq (Built_unlockRootIf _) (fun _ => Built.ret _)))
  | some leaf_page =>
    refine BudgetSim_bind (BudgetSim_of_built (Built_getPage _)) (fun leaf_data => ?_)
    cases h2 : leaf_data.LookupLeaf key with
    | some v =>
      exact BudgetSim_of_built (Built.seq (Built_WUnlatch _) (fun _ =>
        Built.seq (Built_UnpinPage _ _) (fun _ =>
        Built.seq (Built_CLEAN_ROUTINE _ _) (fun _ => Built.ret _))))
    | none =>
      refine BudgetSim_bind (BudgetSim_of_built (Built_modifyPage _ _)) (fun _ => ?_)
      refine BudgetSim_bind (BudgetSim_of_built (Built_getPage _)) (fun _ => ?_)
      refine BudgetSim_ite _ ?_ (BudgetSim_of_built ?_)
      · refine BudgetSim_bind (BudgetSim_SplitLeaf _) (fun _ => ?_)
        refine BudgetSim_bind (BudgetSim_of_built (Built_WUnlatch _)) (fun _ => ?_)
        refine BudgetSim_bind (BudgetSim_of_built (Built_getPage _)) (fun _ => ?_)
        refine BudgetSim_bind (BudgetSim_of_built (Built_ofOption _)) (fun _ => ?_)
        refine BudgetSim_bind (BudgetSim_InsertIntoParent _ _ _ _) (fun _ => ?_)
        exact BudgetSim_of_built (Built.seq (Built_UnpinPage _ _) (fun _ =>
          Built.seq (Built_UnpinPage _ _) (fun _ =>
          Built.seq (Built_CLEAN_ROUTINE _ _) (fun _ => Built.ret _))))
      · exact Built.seq (Built_WUnlatch _) (fun _ =>
          Built.seq (Built_UnpinPage _ _) (fun _ =>
          Built.seq (Built_CLEAN_ROUTINE _ _) (fun _ => Built.ret _)))

theorem Keep_refl (s : TState) : Keep s s := ⟨rfl, le_refl _, fun _ _ => le_refl _⟩

theorem Keep_trans {s t u : TState} (h1 : Keep s t) (h2 : Keep t u) : Keep s u :=
  ⟨h2.1.trans h1.1, le_trans h1.2.1 h2.2.1,
    fun p hp => le_trans (h1.2.2 p hp) (h2.2.2 p (lt_of_lt_of_le hp h1.2.1))⟩

theorem HoldsOk_pure {α : Type} (a : α) : HoldsOk (pure a : TM α) := by
  intro s b t h
  have : Res.ok a s = Res.ok b t := h
  cases this
  exact Keep_refl s

theorem HoldsOk_of_never {α : Type} {m : TM α} (h : ∀ s a t, m.run s ≠ Res.ok a t) :
    HoldsOk m := fun s a t hr => absurd hr (h s a t)

theorem HoldsOk_raise {α : Type} : HoldsOk (TM.raise : TM α) :=
  HoldsOk_of_never (fun s a t h => by cases h)

theorem HoldsOk_fault {α : Type} : HoldsOk (TM.fault : TM α) :=
  HoldsOk_of_never (fun s a t h => by cases h)

theorem HoldsOk_ofOption {α : Type} (o : Option α) : HoldsOk (TM.ofOption o) := by
  cases o with
  | none => exact HoldsOk_fault
  | some a => exact HoldsOk_pure a

theorem HoldsOk_bind {α β : Type} {m : TM α} {f : α → TM β} (hm : HoldsOk m)
    (hf : ∀ a, HoldsOk (f a)) : HoldsOk (m >>= f) := by
  intro s b u h
  rw [run_bind] at h
  cases h1 : m.run s with
  | ok a t => rw [h1] at h; exact Keep_trans (hm s a t h1) (hf a t b u h)
  | throw t => rw [h1] at h; cases h
  | fault => rw [h1] at h; cases h

theorem HoldsOk_get_bind {β : Type} {f : TState → TM β} (h : ∀ s, HoldsOk (f s)) :
    HoldsOk (TM.get >>= f) := fun s b t hr => h s s b t hr

theorem HoldsOk_modify {f : TState → TState} (h : ∀ s, Keep s (f s)) :
    HoldsOk (TM.modify f) := by
  intro s a t hr
  have : Res.ok () (f s) = Res.ok a t := hr
  cases this
  exact h s

theorem HoldsOk_ite {α : Type} (c : Prop) [Decidable c] {m n : TM α} (hm : HoldsOk m)
    (hn : HoldsOk n) : HoldsOk (if c then m else n) := by
  split
  · exact hm
  · exact hn

theorem HoldsOk_getPage (p : page_id_t) : HoldsOk (getPage p) :=
  HoldsOk_get_bind (fun _ => HoldsOk_ofOption _)

theorem HoldsOk_modifyPage (p : page_id_t) (f : BPlusTreePage → BPlusTreePage) :
    HoldsOk (modifyPage p f) :=
  HoldsOk_bind (HoldsOk_getPage p) (fun _ => HoldsOk_modify (fun s => Keep_refl s))

theorem HoldsOk_WLatch (p : page_id_t) : HoldsOk (WLatch p) :=
  HoldsOk_modify (fun s => Keep_refl s)

theorem HoldsOk_WUnlatch (p : page_id_t) : HoldsOk (WUnlatch p) :=
  HoldsOk_modify (fun s => Keep_refl s)

theorem Keep_afterNew (s : TState) (b : Option Nat) : Keep s (s.afterNew.withBudget b) := by
  refine ⟨rfl, le_of_lt (lt_add_one _), fun p hp => ?_⟩
  show s.pin p ≤ Function.update s.pin s.next_page_id_ 1 p
  rw [Function.update_noteq (ne_of_lt hp)]

theorem withBudget_self (s : TState) : s.withBudget s.new_budget = s := by
  cases s
  rfl

theorem HoldsOk_NewPage : HoldsOk NewPage := by
  intro s a t hr
  have e := withBudget_self s
  rcases hb : s.new_budget with _ | _ | n
  · rw [run_NewPage_unlimited s hb] at hr
    cases hr
    have := Keep_afterNew s none
    rw [← hb] at this
    rw [TState.withBudget] at this
    have e2 : ({ s.afterNew with new_budget := s.new_budget } : TState) = s.afterNew := rfl
    rw [e2] at this
    exact this
  · rw [hb] at e
    rw [← e, run_NewPage_zero] at hr
    cases hr
    rw [e]
    exact ⟨rfl, le_of_lt (lt_add_one _), fun p _ => le_refl _⟩
  · rw [hb] at e
    rw [← e, run_NewPage_succ] at hr
    cases hr
    exact Keep_afterNew s (some n)

theorem run_bind_inv {α β : Type} {m : TM α} {f : α → TM β} {s u : TState} {b : β}
    (h : (m >>= f).run s = Res.ok b u) :
    ∃ a t, m.run s = Res.ok a t ∧ (f a).run t = Res.ok b u := by
  rw [run_bind] at h
  cases h1 : m.run s with
  | ok a t => rw [h1] at h; exact ⟨a, t, rfl, h⟩
  | throw t => rw [h1] at h; cases h
  | fault => rw [h1] at h; cases h

theorem Still_modify {f : TState → TState}
    (h : ∀ s, (f s).root_mutex_ = s.root_mutex_ ∧ (f s).next_page_id_ = s.next_page_id_ ∧
      (f s).pin = s.pin) : Still (TM.modify f) := by
  intro s a t hr
  have : Res.ok () (f s) = Res.ok a t := hr
  cases this
  exact h s

theorem Still_modifyPage (p : page_id_t) (f : BPlusTreePage → BPlusTreePage) :
    Still (modifyPage p f) := by
  intro s a t hr
  have hw : wp (modifyPage p f) (fun _ u => u = t) s := ⟨a, t, hr, rfl⟩
  rw [wp_modifyPage] at hw
  obtain ⟨pg, _, e⟩ := hw
  subst e
  exact ⟨rfl, rfl, rfl⟩

/-- A page that is pinned, used without a change of the pins, and unpinned once: no pin
is short afterwards. -/
theorem HoldsOk_bracket {c : page_id_t} {d : Bool} {fetch m1 m2 m3 : TM Unit}
    (hfetch : ∀ s a t, fetch.run s = Res.ok a t → t.root_mutex_ = s.root_mutex_ ∧
      t.next_page_id_ = s.next_page_id_ ∧ t.pin = Function.update s.pin c (s.pin c + 1))
    (h1 : Still m1) (h2 : Still m2) (h3 : Still m3) :
    HoldsOk (fetch >>= fun _ => m1 >>= fun _ => m2 >>= fun _ => m3 >>= fun _ =>
      UnpinPage c d >>= fun _ => pure ()) := by
  intro s a t h
  obtain ⟨_, t1, r1, h⟩ := run_bind_inv h
  obtain ⟨_, t2, r2, h⟩ := run_bind_inv h
  obtain ⟨_, t3, r3, h⟩ := run_bind_inv h
  obtain ⟨_, t4, r4, h⟩ := run_bind_inv h
  obtain ⟨a1, a2, a3⟩ := hfetch _ _ _ r1
  obtain ⟨b1, b2, b3⟩ := h1 _ _ _ r2
  obtain ⟨c1, c2, c3⟩ := h2 _ _ _ r3
  obtain ⟨d1, d2, d3⟩ := h3 _ _ _ r4
  have hpin : t4.pin = Function.update s.pin c (s.pin c + 1) := by rw [d3, c3, b3, a3]
  have hmx : t4.root_mutex_ = s.root_mutex_ := by rw [d1, c1, b1, a1]
  have hnx : t4.next_page_id_ = s.next_page_id_ := by rw [d2, c2, b2, a2]
  have hw : wp (UnpinPage c d >>= fun _ => pure ()) (fun _ u => u = t) t4 := ⟨a, t, h, rfl⟩
  rw [wp_bind, wp_UnpinPage] at hw
  simp only [wp_pure] at hw
  have hle : ∀ p, s.pin p ≤ t4.pin p := by
    intro p
    rw [hpin]
    by_cases hpc : p = c
    · subst hpc; simp
    · rw [Function.update_noteq hpc]
  by_cases hc : t4.pin c ≤ 0
  · have := hw.1 hc
    subst this
    exact ⟨hmx, le_of_eq hnx.symm, fun p _ => hle p⟩
  · have := hw.2 hc
    subst this
    refine ⟨hmx, le_of_eq hnx.symm, fun p _ => ?_⟩
    show s.pin p ≤ Function.update t4.pin c (t4.pin c - 1) p
    by_cases hpc : p = c
    · subst hpc
      rw [Function.update_same, hpin, Function.update_same]
      simp
    · rw [Function.update_noteq hpc]
      exact hle p

theorem HoldsOk_REPLACE (c U : page_id_t) : HoldsOk (REPLACE c U) := by
  unfold REPLACE
  refine HoldsOk_bracket ?_ (Still_modify (fun _ => ⟨rfl, rfl, rfl⟩)) (Still_modifyPage _ _)
    (Still_modify (fun _ => ⟨rfl, rfl, rfl⟩))
  intro s a t hr
  have hw : wp (FetchPage c) (fun _ u => u = t) s := ⟨a, t, hr, rfl⟩
  rw [wp_FetchPage] at hw
  obtain ⟨_, e⟩ := hw
  subst e
  exact ⟨rfl, rfl, rfl⟩

theorem HoldsOk_UpdateRootPageId (ir : Bool) : HoldsOk (UpdateRootPageId ir) := by
  unfold UpdateRootPageId
  refine HoldsOk_bracket ?_ (Still_modify (fun _ => ⟨rfl, rfl, rfl⟩))
    (Still_modify (fun _ => ⟨rfl, rfl, rfl⟩)) (Still_modify (fun _ => ⟨rfl, rfl, rfl⟩))
  intro s a t hr
  have : Res.ok () _ = Res.ok a t := hr
  cases this
  exact ⟨rfl, rfl, rfl⟩

theorem HoldsOk_MoveHalfToLeaf (node recipient : page_id_t) :
    HoldsOk (MoveHalfToLeaf node recipient) := by
  unfold MoveHalfToLeaf
  exact HoldsOk_bind (HoldsOk_getPage _) (fun _ =>
    HoldsOk_bind (HoldsOk_modifyPage _ _) (fun _ => HoldsOk_modifyPage _ _))

theorem HoldsOk_CopyNFrom (recipient : page_id_t) : ∀ items : List (KeyType × Int),
    HoldsOk (CopyNFrom recipient items)
  | [] => HoldsOk_pure _
  | item :: items => by
    unfold CopyNFrom
    exact HoldsOk_bind (HoldsOk_modifyPage _ _) (fun _ =>
      HoldsOk_bind (HoldsOk_getPage _) (fun _ =>
      HoldsOk_bind (HoldsOk_REPLACE _ _) (fun _ => HoldsOk_CopyNFrom recipient items)))

theorem HoldsOk_MoveHalfToInternal (node recipient : page_id_t) :
    HoldsOk (MoveHalfToInternal node recipient) := by
  unfold MoveHalfToInternal
  exact HoldsOk_bind (HoldsOk_getPage _) (fun _ =>
    HoldsOk_bind (HoldsOk_CopyNFrom _ _) (fun _ => HoldsOk_modifyPage _ _))

theorem HoldsOk_alloc {β : Type} {f : Option page_id_t → TM β} (hnone : f none = TM.raise)
    (hsome : ∀ id, HoldsOk (f (some id))) : HoldsOk (NewPage >>= f) := by
  refine HoldsOk_bind HoldsOk_NewPage (fun r => ?_)
  cases r with
  | none => rw [hnone]; exact HoldsOk_raise
  | some id => exact hsome id

theorem HoldsOk_SplitLeaf (node : page_id_t) : HoldsOk (SplitLeaf node) := by
  unfold SplitLeaf
  refine HoldsOk_alloc rfl (fun id => ?_)
  refine HoldsOk_get_bind (fun s => ?_)
  exact HoldsOk_bind (HoldsOk_getPage _) (fun _ =>
    HoldsOk_bind (HoldsOk_modifyPage _ _) (fun _ =>
    HoldsOk_bind (HoldsOk_modifyPage _ _) (fun _ =>
    HoldsOk_bind (HoldsOk_modifyPage _ _) (fun _ =>
    HoldsOk_bind (HoldsOk_MoveHalfToLeaf _ _) (fun _ => HoldsOk_pure _)))))

theorem HoldsOk_SplitInternal (node : page_id_t) : HoldsOk (SplitInternal node) := by
  unfold SplitInternal
  refine HoldsOk_alloc rfl (fun id => ?_)
  refine HoldsOk_get_bind (fun s => ?_)
  exact HoldsOk_bind (HoldsOk_getPage _) (fun _ =>
    HoldsOk_bind (HoldsOk_modifyPage _ _) (fun _ =>
    HoldsOk_bind (HoldsOk_MoveHalfToInternal _ _) (fun _ => HoldsOk_pure _)))

theorem HoldsOk_InsertIntoParentSplit (old_data parent_data new_data : BPlusTreePage)
    (key : KeyType) (parent_page new_node : page_id_t) :
    HoldsOk (InsertIntoParentSplit old_data parent_data new_data key parent_page new_node) := by
  unfold InsertIntoParentSplit
  refine HoldsOk_bind (HoldsOk_ofOption _) (fun last => ?_)
  refine HoldsOk_bind ?_ (fun temp => ?_)
  · exact HoldsOk_ite _
      (HoldsOk_bind (HoldsOk_ofOption _) (fun _ =>
        HoldsOk_bind (HoldsOk_modifyPage _ _) (fun _ => HoldsOk_pure _)))
      (HoldsOk_pure _)
  refine HoldsOk_bind (HoldsOk_SplitInternal _) (fun uncle => ?_)
  exact HoldsOk_bind (HoldsOk_getPage _) (fun _ =>
    HoldsOk_bind (HoldsOk_ofOption _) (fun _ =>
    HoldsOk_bind (HoldsOk_ofOption _) (fun _ =>
    HoldsOk_bind (HoldsOk_modifyPage _ _) (fun _ =>
    HoldsOk_bind (HoldsOk_ite _ (HoldsOk_modifyPage _ _) (HoldsOk_REPLACE _ _)) (fun _ =>
    HoldsOk_bind (HoldsOk_WUnlatch _) (fun _ =>
    HoldsOk_bind (HoldsOk_getPage _) (fun _ =>
    HoldsOk_bind (HoldsOk_ofOption _) (fun _ => HoldsOk_pure _))))))))

theorem Holds_of_noThrow {α : Type} {m : TM α} (h : NoThrow m) : Holds m :=
  fun s t hr => absurd hr (h s t)

theorem Holds_bind {α β : Type} {m : TM α} {f : α → TM β} (hm : Holds m) (hok : HoldsOk m)
    (hf : ∀ a, Holds (f a)) : Holds (m >>= f) := by
  intro s u h
  rw [run_bind] at h
  cases h1 : m.run s with
  | ok a t => rw [h1] at h; exact Keep_trans (hok s a t h1) (hf a t u h)
  | throw t =>
    rw [h1] at h
    have : Res.throw t = Res.throw u := h
    cases this
    exact hm s _ h1
  | fault => rw [h1] at h; cases h

/-- A part that may throw, followed by code that cannot. -/
theorem Holds_bind_last {α β : Type} {m : TM α} {f : α → TM β} (hm : Holds m)
    (hf : ∀ a, NoThrow (f a)) : Holds (m >>= f) := by
  intro s u h
  rw [run_bind] at h
  cases h1 : m.run s with
  | ok a t => rw [h1] at h; exact absurd h (hf a t u)
  | throw t =>
    rw [h1] at h
    have : Res.throw t = Res.throw u := h
    cases this
    exact hm s _ h1
  | fault => rw [h1] at h; cases h

theorem Holds_ite {α : Type} (c : Prop) [Decidable c] {m n : TM α} (hm : Holds m)
    (hn : Holds n) : Holds (if c then m else n) := by
  split
  · exact hm
  · exact hn

theorem Holds_alloc {β : Type} {f : Option page_id_t → TM β} (hnone : f none = TM.raise)
    (hsome : ∀ id, Built (f (some id))) : Holds (NewPage >>= f) := by
  refine Holds_bind (Holds_of_noThrow ?_) HoldsOk_NewPage (fun r => ?_)
  · intro s t hr
    have e := withBudget_self s
    rcases hb : s.new_budget with _ | _ | n
    · rw [run_NewPage_unlimited s hb] at hr
      cases hr
    · rw [hb] at e
      rw [← e, run_NewPage_zero] at hr
      cases hr
    · rw [hb] at e
      rw [← e, run_NewPage_succ] at hr
      cases hr
  · cases r with
    | none =>
      rw [hnone]
      intro s t hr
      have : Res.throw s = Res.throw t := hr
      cases this
      exact Keep_refl s
    | some id => exact Holds_of_noThrow (hsome id).noThrow

theorem Holds_StartNewTree (key : KeyType) (value : ValueType) :
    Holds (StartNewTree key value) := by
  obtain ⟨f, e, hn, hs⟩ := StartNewTree_alloc key value
  rw [e]
  exact Holds_alloc hn hs

theorem Holds_SplitLeaf (node : page_id_t) : Holds (SplitLeaf node) := by
  obtain ⟨f, e, hn, hs⟩ := SplitLeaf_alloc node
  rw [e]
  exact Holds_alloc hn hs

theorem Holds_SplitInternal (node : page_id_t) : Holds (SplitInternal node) := by
  obtain ⟨f, e, hn, hs⟩ := SplitInternal_alloc node
  rw [e]
  exact Holds_alloc hn hs

theorem Holds_InsertIntoParentRoot (old_node : page_id_t) (key : KeyType)
    (new_node : page_id_t) : Holds (InsertIntoParentRoot old_node key new_node) := by
  obtain ⟨f, e, hn, hs⟩ := InsertIntoParentRoot_alloc old_node key new_node
  rw [e]
  exact Holds_alloc hn hs

theorem Holds_built {α : Type} {m : TM α} (h : Built m) : Holds m :=
  Holds_of_noThrow h.noThrow

theorem Holds_InsertIntoParentSplit (old_data parent_data new_data : BPlusTreePage)
    (key : KeyType) (parent_page new_node : page_id_t) :
    Holds (InsertIntoParentSplit old_data parent_data new_data key parent_page new_node) := by
  unfold InsertIntoParentSplit
  refine Holds_bind (Holds_built (Built_ofOption _)) (HoldsOk_ofOption _) (fun last => ?_)
  refine Holds_bind (Holds_built ?_) ?_ (fun temp => ?_)
  · exact Built_ite _
      (Built.seq (Built_ofOption _) (fun _ =>
        Built.seq (Built_modifyPage _ _) (fun _ => Built.ret _)))
      (Built.ret _)
  · exact HoldsOk_ite _
      (HoldsOk_bind (HoldsOk_ofOption _) (fun _ =>
        HoldsOk_bind (HoldsOk_modifyPage _ _) (fun _ => HoldsOk_pure _)))
      (HoldsOk_pure _)
  refine Holds_bind_last (Holds_SplitInternal _) (fun uncle => Built.noThrow ?_)
  exact Built.seq (Built_getPage _) (fun _ =>
    Built.seq (Built_ofOption _) (fun _ =>
    Built.seq (Built_ofOption _) (fun _ =>
    Built.seq (Built_modifyPage _ _) (fun _ =>
    Built.seq (Built_ite _ (Built_modifyPage _ _) (Built_REPLACE _ _)) (fun _ =>
    Built.seq (Built_WUnlatch _) (fun _ =>
    Built.seq (Built_getPage _) (fun _ =>
    Built.seq (Built_ofOption _) (fun _ => Built.ret _))))))))

theorem Holds_InsertIntoParent : ∀ (queue : List page_id_t)
    (old_node new_node : page_id_t) (key : KeyType),
    Holds (InsertIntoParent old_node key new_node queue)
  | [], old_node, new_node, key => by
    unfold InsertIntoParent
    refine Holds_bind (Holds_built (Built_getPage _)) (HoldsOk_getPage _) (fun _ => ?_)
    refine Holds_ite _ ?_ (Holds_built Built.stop)
    exact Holds_bind_last (Holds_InsertIntoParentRoot _ _ _) (fun _ => (Built.ret _).noThrow)
  | parent_page :: rest, old_node, new_node, key => by
    unfold InsertIntoParent
    refine Holds_bind (Holds_built (Built_getPage _)) (HoldsOk_getPage _) (fun _ => ?_)
    refine Holds_ite _ ?_ ?_
    · exact Holds_bind_last (Holds_InsertIntoParentRoot _ _ _)
        (fun _ => (Built.ret _).noThrow)
    refine Holds_bind (Holds_built (Built_getPage _)) (HoldsOk_getPage _) (fun _ => ?_)
    refine Holds_bind (Holds_built (Built_getPage _)) (HoldsOk_getPage _) (fun _ => ?_)
    refine Holds_ite _ (Holds_built ?_) ?_
    · exact Built.seq (Built_ofOption _) (fun _ =>
        Built.seq (Built_modifyPage _ _) (fun _ =>
        Built.seq (Built_WUnlatch _) (fun _ =>
        Built.seq (Built_UnpinPage _ _) (fun _ => Built.ret _))))
    refine Holds_bind (Holds_InsertIntoParentSplit _ _ _ _ _ _)
      (HoldsOk_InsertIntoParentSplit _ _ _ _ _ _) (fun r => ?_)
    refine Holds_bind_last (Holds_InsertIntoParent rest _ _ _) (fun _ => Built.noThrow ?_)
    exact Built.seq (Built_UnpinPage _ _) (fun _ =>
      Built.seq (Built_UnpinPage _ _) (fun _ => Built.ret _))

theorem Insert_eq_crab (key : KeyType) (value : ValueType) :
    Insert key value =
      LatchCrabbingToLeaf OPERATION_TYPE.INSERT_TRAVEL key >>= insertAfterCrab key value := rfl

theorem Holds_insertAfterCrab (key : KeyType) (value : ValueType)
    (r : Option page_id_t × List page_id_t × Bool) : Holds (insertAfterCrab key value r) := by
  unfold insertAfterCrab
  cases h : r.1 with
  | none =>
    exact Holds_bind_last (Holds_StartNewTree _ _) (fun _ => Built.noThrow
      (Built.seq (Built_unlockRootIf _) (fun _ => Built.ret _)))
  | some leaf_page =>
    refine Holds_bind (Holds_built (Built_getPage _)) (HoldsOk_getPage _) (fun leaf_data => ?_)
    cases h2 : leaf_data.LookupLeaf key with
    | some v =>
      exact Holds_built (Built.seq (Built_WUnlatch _) (fun _ =>
        Built.seq (Built_UnpinPage _ _) (fun _ =>
        Built.seq (Built_CLEAN_ROUTINE _ _) (fun _ => Built.ret _))))
    | none =>
      refine Holds_bind (Holds_built (Built_modifyPage _ _)) (HoldsOk_modifyPage _ _)
        (fun _ => ?_)
      refine Holds_bind (Holds_built (Built_getPage _)) (HoldsOk_getPage _) (fun _ => ?_)
      refine Holds_ite _ ?_ (Holds_built ?_)
      · refine Holds_bind (Holds_SplitLeaf _) (HoldsOk_SplitLeaf _) (fun _ => ?_)
        refine Holds_bind (Holds_built (Built_WUnlatch _)) (HoldsOk_WUnlatch _) (fun _ => ?_)
        refine Holds_bind (Holds_built (Built_getPage _)) (HoldsOk_getPage _) (fun _ => ?_)
        refine Holds_bind (Holds_built (Built_ofOption _)) (HoldsOk_ofOption _) (fun _ => ?_)
        refine Holds_bind_last (Holds_InsertIntoParent _ _ _ _) (fun _ => Built.noThrow ?_)
        exact Built.seq (Built_UnpinPage _ _) (fun _ =>
          Built.seq (Built_UnpinPage _ _) (fun _ =>
          Built.seq (Built_CLEAN_ROUTINE _ _) (fun _ => Built.ret _)))
      · exact Built.seq (Built_WUnlatch _) (fun _ =>
          Built.seq (Built_UnpinPage _ _) (fun _ =>
          Built.seq (Built_CLEAN_ROUTINE _ _) (fun _ => Built.ret _)))

/-- An `Insert` that throws has run the descent to its end, and from there to the `throw`
it has released nothing. -/
theorem Insert_throw_keeps (key : KeyType) (value : ValueType) (s t : TState)
    (h : (Insert key value).run s = Res.throw t) :
    ∃ r c, (LatchCrabbingToLeaf OPERATION_TYPE.INSERT_TRAVEL key).run s = Res.ok r c ∧
      Keep c t := by
  rw [Insert_eq_crab, run_bind] at h
  cases h1 : (LatchCrabbingToLeaf OPERATION_TYPE.INSERT_TRAVEL key).run s with
  | ok r c =>
    rw [h1] at h
    exact ⟨r, c, rfl, Holds_insertAfterCrab key value r c t h⟩
  | throw c => exact absurd h1 ((Built_crabInsert key).noThrow s c)
  | fault => rw [h1] at h; cases h

theorem mapState_ok_inv {α : Type} {f : TState → TState} {x : Res α} {a : α} {c : TState}
    (h : Res.ok a c = x.mapState f) : ∃ c0, x = Res.ok a c0 ∧ c = f c0 := by
  cases x with
  | ok b c0 =>
    have : Res.ok a c = Res.ok b (f c0) := h
    cases this
    exact ⟨c0, rfl, rfl⟩
  | throw t => cases h
  | fault => cases h

/-- What the insert descent holds when it has returned, in a state at rest. -/
theorem crabInsert_holds (key : KeyType) (s : TState) {v : TreeView} {G : Ghost}
    (hs : St s v 0 false) (hg : Good v G none)
    (res : Option page_id_t × List page_id_t × Bool) (c : TState)
    (hc : (LatchCrabbingToLeaf OPERATION_TYPE.INSERT_TRAVEL key).run s = Res.ok res c) :
    c.root_mutex_ = res.2.2 ∧ (res.1 = none → res.2.2 = true) ∧
      ∀ p, res.1 = some p ∨ p ∈ res.2.1 → p < c.next_page_id_ ∧ 0 < c.pin p := by
  by_cases hroot : v.root = INVALID_PAGE_ID
  · obtain ⟨r0, c0, hr0, e0, hst0⟩ :=
      LatchCrabbing_empty_spec OPERATION_TYPE.INSERT_TRAVEL key s hs hroot
        (Q := fun r t => r = (none, [], true) ∧ St t v 0 true) (fun t ht => ⟨rfl, ht⟩)
    rw [hc] at hr0
    cases hr0
    subst e0
    refine ⟨hst0.2.2.2, fun _ => rfl, fun p hp => ?_⟩
    rcases hp with hp | hp
    · cases hp
    · cases hp
  · obtain ⟨r0, c0, hr0, leaf, hleaf, hst0, hlive, _, _, hpath, _⟩ :=
      LatchCrabbing_write_spec true key s hs hg hroot
    have hr1 : (LatchCrabbingToLeaf OPERATION_TYPE.INSERT_TRAVEL key).run s = Res.ok r0 c0 :=
      hr0
    rw [hc] at hr1
    cases hr1
    refine ⟨hst0.2.2.2, fun h => ?_, fun p hp => ?_⟩
    · rw [hleaf] at h
      cases h
    · have hpl : G.live p := by
        rcases hp with hp | hp
        · rw [hleaf] at hp
          cases hp
          exact hlive
        · exact PathQ_live _ _ hpath p hp
      refine ⟨?_, ?_⟩
      · rw [view_next hst0.1]
        exact (hg.live_range p hpl).2
      · rw [hst0.2.2.1 p]
        have : 0 < Multiset.count p (leaf ::ₘ ((res.2.1 : Multiset Int) + 0)) := by
          rw [Multiset.count_pos]
          rcases hp with hp | hp
          · rw [hleaf] at hp
            cases hp
            exact Multiset.mem_cons_self _ _
          · exact Multiset.mem_cons_of_mem (by simpa using hp)
        exact_mod_cast this

/-- C26: what the code does when an allocation fails, against the claim that the root
lock, the ancestors and the target leaf are released by then.  In every state at rest that
holds a well-formed tree, `Insert` with an unlimited pool returns and allocates some
number `k` of pages.  With `n` frames left for new pages it returns the same result when
`k ≤ n`; when `n < k`, so that one of its `NewPage` calls (in `StartNewTree`, in `Split` of
a leaf or of an internal page, or for a new root in `InsertIntoParent`) returns null, it
throws to its caller, as claimed, but nothing has been released when the caller gets
control back: the root lock is as the descent `LatchCrabbingToLeaf` left it (held when its
`root_locked` is true, as it is for an empty tree), and the target leaf and every page of
the descent's page set are still pinned. -/
theorem insert_allocation_failure (s : TState) (m : KeyType → Option ValueType)
    (hrep : Rep s m) (key : KeyType) (value : ValueType) (n : Nat) :
    ∃ (k : Nat) (r : Bool) (u : TState),
      (Insert key value).run s = Res.ok r u ∧ u.next_page_id_ = s.next_page_id_ + k ∧
      (k ≤ n → (Insert key value).run (s.withBudget (some n)) =
        Res.ok r (u.withBudget (some (n - k)))) ∧
      (n < k → ∃ t res c,
        (Insert key value).run (s.withBudget (some n)) = Res.throw t ∧
        (LatchCrabbingToLeaf OPERATION_TYPE.INSERT_TRAVEL key).run (s.withBudget (some n)) =
          Res.ok res c ∧
        t.root_mutex_ = res.2.2 ∧ (res.1 = none → t.root_mutex_ = true) ∧
        ∀ p, res.1 = some p ∨ p ∈ res.2.1 → 0 < t.pin p) := by
  obtain ⟨G, hs, hg, _⟩ := hrep
  obtain ⟨r, u, hrun, _⟩ := Insert_spec key value s hs (fun p hp => by simp at hp) hg
  obtain ⟨_, k, hk, hsim⟩ := BudgetSim_Insert key value s r u hs.2.1 hrun
  refine ⟨k, r, u, hrun, hk, (hsim n).1, fun hn => ?_⟩
  obtain ⟨t, ht⟩ := (hsim n).2 hn
  obtain ⟨res, c, hc, hkeep⟩ := Insert_throw_keeps _ _ _ _ ht
  refine ⟨t, res, c, ht, hc, ?_⟩
  have hob := (Built_crabInsert key).oblivious.1 s (some n)
  rw [hc] at hob
  obtain ⟨c0, hc0, e⟩ := mapState_ok_inv hob
  obtain ⟨h1, h2, h3⟩ := crabInsert_holds key s hs hg res c0 hc0
  have hmx : c.root_mutex_ = c0.root_mutex_ := by rw [e]; rfl
  have hnx : c.next_page_id_ = c0.next_page_id_ := by rw [e]; rfl
  have hpin : c.pin = c0.pin := by rw [e]; rfl
  have hroot : t.root_mutex_ = res.2.2 := by rw [hkeep.1, hmx, h1]
  refine ⟨hroot, fun h => by rw [hroot]; exact h2 h, fun p hp => ?_⟩
  obtain ⟨hlt, hpos⟩ := h3 p hp
  have := hkeep.2.2 p (by rw [hnx]; exact hlt)
  rw [hpin] at this
  exact lt_of_lt_of_le hpos this

theorem insert_allocation_failure_witness :
    Rep (BPlusTree.new 4 4 1 none) (fun _ => none) ∧
    ∃ t, (Insert 1 10).run ((BPlusTree.new 4 4 1 none).withBudget (some 0)) = Res.throw t ∧
      t.root_mutex_ = true := by
  refine ⟨Rep_new 4 4 1 (by decide) (by decide) (by decide), ?_⟩
  obtain ⟨k, r, u, hrun, hk, _, hthrow⟩ :=
    insert_allocation_failure _ _ (Rep_new 4 4 1 (by decide) (by decide) (by decide)) 1 10 0
  have hu : (stateAfter (Insert 1 10) (BPlusTree.new 4 4 1 none)).next_page_id_ = 2 := by
    decide
  have hsu : stateAfter (Insert 1 10) (BPlusTree.new 4 4 1 none) = u := by
    simp [stateAfter, hrun]
  have hkpos : 0 < k := by
    rw [hsu, hk] at hu
    have h1 : (BPlusTree.new 4 4 1 none).next_page_id_ = 1 := rfl
    rw [h1] at hu
    have hu2 : (1 : Int) + (k : Int) = 2 := hu
    omega
  obtain ⟨t, res, c, ht, hc, _, hnone, _⟩ := hthrow hkpos
  refine ⟨t, ht, hnone ?_⟩
  have hc2 : (LatchCrabbingToLeaf OPERATION_TYPE.INSERT_TRAVEL 1).run
      ((BPlusTree.new 4 4 1 none).withBudget (some 0)) =
        Res.ok (none, [], true)
          { (BPlusTree.new 4 4 1 none).withBudget (some 0) with root_mutex_ := true } := rfl
  rw [hc2] at hc
  cases hc
  rfl

/-- The failing inputs of C26.  On the empty tree with no frame left, `Insert(1, 10)`
throws out of `StartNewTree` and the root lock is still held in the state the caller gets
back.  On the root leaf of capacity four that holds 1, 2 and 3, with no frame left,
`Insert(4, 40)` throws out of `Split`: the root lock is still held, and the leaf (page 1),
which had no pin and no latch before the call, is still pinned and still write-latched. -/
theorem insert_allocation_failure_leak :
    (thrownState (Insert 1 10) (BPlusTree.new 4 4 1 (some 0))).map
        (fun t => t.root_mutex_) = some true ∧
    (fullLeafNoFrame.root_mutex_, fullLeafNoFrame.pin 1, fullLeafNoFrame.wlatch 1) =
      (false, 0, 0) ∧
    (thrownState (Insert 4 40) fullLeafNoFrame).map
        (fun t => (t.root_mutex_, t.pin 1, t.wlatch 1)) = some (true, 1, 1) := by
  decide

theorem wp_and {α : Type} {m : TM α} {Q R : α → TState → Prop} {s : TState}
    (h1 : wp m Q s) (h2 : wp m R s) : wp m (fun a t => Q a t ∧ R a t) s := by
  obtain ⟨a, t, e1, q⟩ := h1
  obtain ⟨a2, t2, e2, r⟩ := h2
  rw [e1] at e2
  cases e2
  exact ⟨a, t, e1, q, r⟩

theorem Occ_new (leaf_max_size internal_max_size : Nat) (first_page_id : page_id_t) :
    Occ (BPlusTree.new leaf_max_size internal_max_size first_page_id none).view none :=
  ⟨rfl, fun p pg h => by cases h⟩

/-- Method `Insert` keeps the occupancy invariant of a tree at rest. -/
theorem Insert_keeps_occ (key : KeyType) (value : ValueType) (s : TState)
    (m : KeyType → Option ValueType) (hrep : Rep s m) (hocc : Occ s.view none) :
    wp (Insert key value) (fun _ t => Occ t.view none) s := by
  obtain ⟨G, hs, hg, _⟩ := hrep
  refine wp_mono (Insert_occ key value s hs (fun p hp => by simp at hp) hg) ?_
  rintro r t ⟨u, H, h1, _, _, _, _, h6⟩
  have hu : t.view = u := h1.1
  rw [hu]
  exact h6 hocc

/-- Method `Remove` keeps the occupancy invariant of a tree at rest. -/
theorem Remove_keeps_occ (key : KeyType) (s : TState)
    (m : KeyType → Option ValueType) (hrep : Rep s m) (hocc : Occ s.view none) :
    wp (Remove key) (fun _ t => Occ t.view none) s := by
  obtain ⟨G, hs, hg, _⟩ := hrep
  refine wp_mono (Remove_occ key s hs hg) ?_
  rintro r t ⟨u, H, h1, _, _, _, h5⟩
  have hu : t.view = u := h1.1
  rw [hu]
  exact h5 hocc

/-- The calls of a list keep the occupancy invariant. -/
theorem runOps_occ :
    ∀ (ops : List Op) (s : TState) (m : KeyType → Option ValueType), Rep s m →
      Occ s.view none →
      wp (runOps ops) (fun _ t => Rep t (ops.foldl applyOp m) ∧ Occ t.view none) s := by
  intro ops
  induction ops with
  | nil =>
    intro s m hrep hocc
    unfold runOps
    rw [wp_pure]
    exact ⟨hrep, hocc⟩
  | cons op rest ih =>
    intro s m hrep hocc
    unfold runOps
    apply wp_bind_of
    cases op with
    | insert key value =>
      unfold runOp
      apply wp_bind_of
      refine wp_mono (wp_and (Insert_rep key value s m hrep)
        (Insert_keeps_occ key value s m hrep hocc)) ?_
      rintro r t ⟨⟨h1, h2⟩, h3⟩
      rw [wp_pure]
      have hrep2 : Rep t (applyOp m (Op.insert key value)) := by
        show Rep t (if m key = none then Function.update m key (some value) else m)
        by_cases hk : m key = none
        · rw [if_pos hk]; exact (h1 hk).2
        · rw [if_neg hk]; exact (h2 hk).2.1
      exact ih t _ hrep2 h3
    | remove key =>
      unfold runOp
      refine wp_mono (wp_and (Remove_rep key s m hrep) (Remove_keeps_occ key s m hrep hocc)) ?_
      rintro r t ⟨⟨h1, _⟩, h3⟩
      exact ih t _ h1 h3

/-- A well-formed tree at rest whose pages satisfy the occupancy condition has the
occupancy the code keeps. -/
theorem Rep_occupancy {s : TState} {m : KeyType → Option ValueType} (hrep : Rep s m)
    (hocc : Occ s.view none) : OccupancyInvariant s := by
  obtain ⟨G, hs, hg, hst⟩ := hrep
  intro hroot p hup hpr
  obtain ⟨hrl, _, _⟩ := hg.root_live hroot
  obtain ⟨hp, _, _⟩ := Under_live hg _ _ hup hrl
  obtain ⟨pg, hpg, hgood⟩ := hg.page p hp
  have ho := hocc.page p pg hpg
  refine ⟨pg, hpg, ho.1, fun hleaf => ?_, fun hint => ?_⟩
  · have hl : G.lvl p = 0 := (isLeaf_iff hgood).1 hleaf
    have hpos : 0 < pg.array.length := List.length_pos.2 (hgood.leaf_ne hl (by simp))
    have hlow := (ho.2 hpr).2 (by simp) hpos
    have hlw : lowerOf pg = pg.max_size_ / 2 := by
      unfold lowerOf
      rw [if_pos hleaf]
    rw [hlw] at hlow
    refine ⟨(hgood.leaf_type hl).2, hlow, fun heven => ?_⟩
    unfold BPlusTreePage.GetMinSize BPlusTreePage.GetSize
    unfold BPlusTreePage.GetMaxSize at heven
    omega
  · have hl : G.lvl p ≠ 0 := fun h0 => by
      have := (isLeaf_iff hgood).2 h0
      rw [hint] at this
      cases this
    have hpos : 0 < pg.array.length := lt_of_lt_of_le (by decide) (hgood.int_size hl (by simp))
    have hlow := (ho.2 hpr).2 (by simp) hpos
    have hlw : lowerOf pg = (pg.max_size_ + 1) / 2 := by
      unfold lowerOf
      rw [if_neg (by rw [hint]; simp)]
    rw [hlw] at hlow
    exact ⟨(hgood.int_type hl).2, hlow⟩

/-- C23, amended: on a tree constructed with `leaf_max_size >= 1` and
`internal_max_size >= 3` (odd as well as even) over a pool that holds the header page
already (the next page id is above `HEADER_PAGE_ID`) and in which `NewPage` never fails,
every sequence of `Insert` and `Remove` calls from the empty tree returns, and once it has
returned every page of the tree other than the root holds at most `max_size` slots; every
internal page other than the root holds at least `min_size = ceil(max_size / 2)` slots; and
every leaf other than the root holds at least `floor(max_size / 2)` pairs, which is
`min_size` when `leaf_max_size` is even and `min_size - 1` when it is odd. -/
theorem page_occupancy (leaf_max_size internal_max_size : Nat)
    (first_page_id : page_id_t) (h1 : 1 ≤ leaf_max_size) (h3 : 3 ≤ internal_max_size)
    (h0 : HEADER_PAGE_ID < first_page_id) (ops : List Op) :
    ∃ s, (runOps ops).run
        (BPlusTree.new leaf_max_size internal_max_size first_page_id none) = Res.ok () s ∧
      OccupancyInvariant s := by
  obtain ⟨u, s, hrun, hrep, hocc⟩ := runOps_occ ops _ _
    (Rep_new leaf_max_size internal_max_size first_page_id h1 h3 h0)
    (Occ_new leaf_max_size internal_max_size first_page_id)
  exact ⟨s, hrun, Rep_occupancy hrep hocc⟩

theorem page_occupancy_witness :
    ∃ s, (runOps [Op.insert 1 10, Op.insert 2 20, Op.insert 3 30, Op.insert 4 40,
        Op.insert 5 50, Op.remove 2, Op.remove 4]).run (BPlusTree.new 3 3 1 none) =
          Res.ok () s ∧
      OccupancyInvariant s :=
  page_occupancy 3 3 1 (by decide) (by decide) (by decide)
    [Op.insert 1 10, Op.insert 2 20, Op.insert 3 30, Op.insert 4 40, Op.insert 5 50,
      Op.remove 2, Op.remove 4]

/-- C23 as stated fails for an odd capacity of leaves: with `leaf_max_size = 3` and
`internal_max_size = 3`, after `Insert` of the keys 1, 2 and 3 the root (page 3) points to
the leaves 1 and 2, and leaf 2 holds the single key 3, below its minimum size of 2. -/
theorem page_occupancy_counterexample :
    ((stateAfter (runOps [Op.insert 1 10, Op.insert 2 20, Op.insert 3 30])
        (BPlusTree.new 3 3 1 none)).pages 2).map
      (fun pg => (pg.array, pg.GetSize, pg.GetMinSize, pg.GetMaxSize, pg.IsRootPage)) =
        some ([(3, 30)], 1, 2, 3, false) ∧
    ¬ ClaimedOccupancy (stateAfter (runOps [Op.insert 1 10, Op.insert 2 20, Op.insert 3 30])
      (BPlusTree.new 3 3 1 none)) := by
  have hr : (stateAfter (runOps [Op.insert 1 10, Op.insert 2 20, Op.insert 3 30])
      (BPlusTree.new 3 3 1 none)).root_page_id_ = 3 := by decide
  have h3 : ((stateAfter (runOps [Op.insert 1 10, Op.insert 2 20, Op.insert 3 30])
      (BPlusTree.new 3 3 1 none)).pages 3).map
      (fun pg => (pg.array, pg.IsLeafPage)) = some ([(0, 1), (3, 2)], false) := by decide
  have h2 : ((stateAfter (runOps [Op.insert 1 10, Op.insert 2 20, Op.insert 3 30])
      (BPlusTree.new 3 3 1 none)).pages 2).map
      (fun pg => (pg.array, pg.GetSize, pg.GetMinSize, pg.GetMaxSize, pg.IsRootPage)) =
        some ([(3, 30)], 1, 2, 3, false) := by decide
  refine ⟨h2, fun hc => ?_⟩
  cases hp3 : (stateAfter (runOps [Op.insert 1 10, Op.insert 2 20, Op.insert 3 30])
      (BPlusTree.new 3 3 1 none)).pages 3 with
  | none => rw [hp3] at h3; cases h3
  | some rg =>
    rw [hp3] at h3
    have ha : rg.array = [(0, 1), (3, 2)] := by
      have := congrArg (Option.map Prod.fst) h3
      simpa using this
    have hl : rg.IsLeafPage = false := by
      have := congrArg (Option.map Prod.snd) h3
      simpa using this
    obtain ⟨pg, hpg, hmin, _⟩ := hc (by rw [hr]; decide) 2
      (by rw [hr]; exact Under.child 3 2 rg (3, 2) hp3 hl (by rw [ha]; simp) (Under.self 2))
      (by rw [hr]; decide)
    rw [hpg] at h2
    have hs : pg.GetSize = 1 := by
      have := congrArg (Option.map (fun x => x.2.1)) h2
      simpa using this
    have hm : pg.GetMinSize = 2 := by
      have := congrArg (Option.map (fun x => x.2.2.1)) h2
      simpa using this
    omega

/-- C24: pin balance of the tree operations.  Let the state `s` hold a well-formed tree
(`Good v G none`) in a pool in which no `NewPage` fails, with the pins held at the time of
the call given by the multiset `h` (`St s v h b`: `pin_count` of a page is the number of
times it occurs in `h`), all of them on page ids issued so far.  Then each of `GetValue`,
`Insert` and `Remove` returns, with the `pin_count` of every page as before the call, and
with `pin_count` 0 on every page created by the call (every page id from the
`next_page_id_` of before the call on).  So each `FetchPage` and `NewPage` of the operation
is matched by exactly one successful `UnpinPage`. -/
theorem pin_balance (s : TState) (v : TreeView) (G : Ghost) (h : Multiset Int) (b : Bool)
    (hs : St s v h b) (hg : Good v G none) (hh : ∀ p ∈ h, p < v.next)
    (key : KeyType) (value : ValueType) :
    (∃ r t, (GetValue key).run s = Res.ok r t ∧ (∀ p, t.pin p = s.pin p) ∧
      ∀ p, s.next_page_id_ ≤ p → t.pin p = 0) ∧
    (∃ r t, (Insert key value).run s = Res.ok r t ∧ (∀ p, t.pin p = s.pin p) ∧
      ∀ p, s.next_page_id_ ≤ p → t.pin p = 0) ∧
    (∃ t, (Remove key).run s = Res.ok () t ∧ (∀ p, t.pin p = s.pin p) ∧
      ∀ p, s.next_page_id_ ≤ p → t.pin p = 0) := by
  have hzero : ∀ p, s.next_page_id_ ≤ p → s.pin p = 0 := by
    intro p hp
    have hnot : p ∉ h := fun hm => by
      have h1 := hh p hm
      have h2 : s.next_page_id_ = v.next := view_next hs.1
      rw [h2] at hp
      exact absurd (lt_of_lt_of_le h1 hp) (lt_irrefl _)
    rw [hs.2.2.1 p, Multiset.count_eq_zero_of_not_mem hnot]
    rfl
  have hsame : ∀ {u : TreeView} {c : Bool} {t : TState}, St t u h c →
      (∀ p, t.pin p = s.pin p) ∧ ∀ p, s.next_page_id_ ≤ p → t.pin p = 0 := by
    intro u c t ht
    have hpin : ∀ p, t.pin p = s.pin p := fun p => by rw [ht.2.2.1 p, hs.2.2.1 p]
    exact ⟨hpin, fun p hp => by rw [hpin p]; exact hzero p hp⟩
  refine ⟨?_, ?_, ?_⟩
  · obtain ⟨r, t, hrun, ht, _⟩ := GetValue_spec key s hs hg
    exact ⟨r, t, hrun, hsame ht⟩
  · obtain ⟨r, t, hrun, u, H, ht, _⟩ := Insert_spec key value s hs hh hg
    exact ⟨r, t, hrun, hsame ht⟩
  · obtain ⟨r, t, hrun, u, H, ht, _⟩ := Remove_occ key s hs hg
    exact ⟨t, hrun, hsame ht⟩

theorem pin_balance_witness :
    pinnedLeafState.pin 1 = 1 ∧
    (∃ r t, (GetValue 7).run pinnedLeafState = Res.ok r t ∧
      (∀ p, t.pin p = pinnedLeafState.pin p) ∧
      ∀ p, pinnedLeafState.next_page_id_ ≤ p → t.pin p = 0) ∧
    (∃ r t, (Insert 7 71).run pinnedLeafState = Res.ok r t ∧
      (∀ p, t.pin p = pinnedLeafState.pin p) ∧
      ∀ p, pinnedLeafState.next_page_id_ ≤ p → t.pin p = 0) ∧
    (∃ t, (Remove 7).run pinnedLeafState = Res.ok () t ∧
      (∀ p, t.pin p = pinnedLeafState.pin p) ∧
      ∀ p, pinnedLeafState.next_page_id_ ≤ p → t.pin p = 0) := by
  obtain ⟨G, hs, hg, _⟩ := Rep_stateAfter_insert 7 70 _ _
    (Rep_new 2 3 1 (by decide) (by decide) (by decide)) rfl
  obtain ⟨g, hgp⟩ : ∃ g,
      (stateAfter (Insert 7 70) (BPlusTree.new 2 3 1 none)).view.pages 1 = some g :=
    Option.isSome_iff_exists.1 (by decide)
  obtain ⟨a, t, hrun, ht⟩ := wp_FetchPage_st
    (Q := fun _ t => St t (stateAfter (Insert 7 70) (BPlusTree.new 2 3 1 none)).view
      (1 ::ₘ 0) false) hs hgp (fun t h => h)
  have e : pinnedLeafState = t := by
    simp only [pinnedLeafState]
    rw [stateAfter, hrun]
  have hh : ∀ p ∈ (1 ::ₘ 0 : Multiset Int),
      p < (stateAfter (Insert 7 70) (BPlusTree.new 2 3 1 none)).view.next := by
    intro p hp
    have hp1 : p = 1 := by simpa using hp
    rw [hp1]
    decide
  have hall := pin_balance t _ G _ false ht hg hh 7 71
  rw [← e] at hall
  exact ⟨by decide, hall⟩

theorem middle_facts {b e : Int} (hb : 0 ≤ b) (hbe : b < e) :
    b < Int.tdiv (b + e + 1) 2 ∧ Int.tdiv (b + e + 1) 2 ≤ e := by
  rw [Int.tdiv_eq_ediv (by omega) (by decide)]
  omega

/-- The loop of internal `Lookup` ends within `end - begin` iterations, whatever the keys
are, with a result inside the interval it started on. -/
theorem lookupLoopInt_ends (keyAt : Int → KeyType) (key : KeyType) :
    ∀ (fuel : Nat) (b e : Int), 0 ≤ b → b ≤ e → e - b < fuel →
      ∃ r, lookupLoopInt keyAt key fuel b e = some r ∧ b ≤ r ∧ r ≤ e := by
  intro fuel
  induction fuel with
  | zero => intro b e _ _ hf; simp at hf; omega
  | succ fuel ih =>
    intro b e hb hbe hf
    unfold lookupLoopInt
    by_cases h0 : b = e
    · rw [if_pos h0]
      exact ⟨e, rfl, hbe, le_refl _⟩
    · rw [if_neg h0]
      obtain ⟨m1, m2⟩ := middle_facts hb (lt_of_le_of_ne hbe h0)
      have hf2 : e - b < (fuel : Int) + 1 := by exact_mod_cast hf
      split
      · obtain ⟨r, h1, h2, h3⟩ := ih (Int.tdiv (b + e + 1) 2) e (by omega) m2 (by omega)
        exact ⟨r, h1, by omega, h3⟩
      · split
        · exact ⟨_, rfl, by omega, m2⟩
        · obtain ⟨r, h1, h2, h3⟩ := ih b (Int.tdiv (b + e + 1) 2 - 1) hb (by omega) (by omega)
          exact ⟨r, h1, h2, by omega⟩

/-- The result of the loop does not depend on the bound, once the bound is large enough. -/
theorem lookupLoopInt_fuel (keyAt : Int → KeyType) (key : KeyType) :
    ∀ (fuel fuel2 : Nat) (b e : Int), 0 ≤ b → b ≤ e → e - b < fuel → e - b < fuel2 →
      lookupLoopInt keyAt key fuel b e = lookupLoopInt keyAt key fuel2 b e := by
  intro fuel
  induction fuel with
  | zero => intro _ b e _ _ hf; simp at hf; omega
  | succ fuel ih =>
    intro fuel2 b e hb hbe hf hf2
    cases fuel2 with
    | zero => simp at hf2; omega
    | succ fuel2 =>
      unfold lookupLoopInt
      by_cases h0 : b = e
      · rw [if_pos h0, if_pos h0]
      · rw [if_neg h0, if_neg h0]
        obtain ⟨m1, m2⟩ := middle_facts hb (lt_of_le_of_ne hbe h0)
        have hf3 : e - b < (fuel : Int) + 1 := by exact_mod_cast hf
        have hf4 : e - b < (fuel2 : Int) + 1 := by exact_mod_cast hf2
        split
        · exact ih fuel2 _ e (by omega) m2 (by omega) (by omega)
        · split
          · rfl
          · exact ih fuel2 b _ hb (by omega) (by omega) (by omega)

/-- Every iteration works on a sub-interval `begin < end` of the interval the loop started
on and reads a slot `middle` with `begin < middle <= end`. -/
theorem lookupTrace_bounds (keyAt : Int → KeyType) (key : KeyType) :
    ∀ (fuel : Nat) (b e : Int), 0 ≤ b → b ≤ e →
      ∀ x ∈ lookupTrace keyAt key fuel b e,
        b ≤ x.1 ∧ x.2.1 ≤ e ∧ x.1 < x.2.1 ∧ x.1 < x.2.2 ∧ x.2.2 ≤ x.2.1 := by
  intro fuel
  induction fuel with
  | zero => intro b e _ _ x hx; simp [lookupTrace] at hx
  | succ fuel ih =>
    intro b e hb hbe x hx
    unfold lookupTrace at hx
    by_cases h0 : b = e
    · rw [if_pos h0] at hx
      cases hx
    · rw [if_neg h0] at hx
      obtain ⟨m1, m2⟩ := middle_facts hb (lt_of_le_of_ne hbe h0)
      rcases List.mem_cons.1 hx with h1 | h1
      · rw [h1]
        exact ⟨le_refl _, le_refl _, lt_of_le_of_ne hbe h0, m1, m2⟩
      · split at h1
        · obtain ⟨a1, a2, a3⟩ := ih _ e (by omega) m2 x h1
          exact ⟨by omega, a2, a3⟩
        · split at h1
          · cases h1
          · obtain ⟨a1, a2, a3⟩ := ih b _ hb (by omega) x h1
            exact ⟨a1, by omega, a3⟩

/-- The interval strictly shrinks from each iteration to every later one. -/
theorem lookupTrace_shrinks (keyAt : Int → KeyType) (key : KeyType) :
    ∀ (fuel : Nat) (b e : Int), 0 ≤ b → b ≤ e →
      (lookupTrace keyAt key fuel b e).Pairwise
        (fun x y => y.2.1 - y.1 < x.2.1 - x.1) := by
  intro fuel
  induction fuel with
  | zero => intro b e _ _; simp [lookupTrace]
  | succ fuel ih =>
    intro b e hb hbe
    unfold lookupTrace
    by_cases h0 : b = e
    · rw [if_pos h0]
      exact List.Pairwise.nil
    · rw [if_neg h0]
      obtain ⟨m1, m2⟩ := middle_facts hb (lt_of_le_of_ne hbe h0)
      rw [List.pairwise_cons]
      split
      · refine ⟨fun y hy => ?_, ih _ e (by omega) m2⟩
        obtain ⟨a1, a2, _⟩ := lookupTrace_bounds keyAt key fuel _ e (by omega) m2 y hy
        show y.2.1 - y.1 < e - b
        omega
      · split
        · exact ⟨fun y hy => (by cases hy), List.Pairwise.nil⟩
        · refine ⟨fun y hy => ?_, ih b _ hb (by omega)⟩
          obtain ⟨a1, a2, _⟩ := lookupTrace_bounds keyAt key fuel b _ hb (by omega) y hy
          show y.2.1 - y.1 < e - b
          omega

/-- The loop makes at most `end - begin` iterations. -/
theorem lookupTrace_length (keyAt : Int → KeyType) (key : KeyType) :
    ∀ (fuel : Nat) (b e : Int), 0 ≤ b → b ≤ e →
      ((lookupTrace keyAt key fuel b e).length : Int) ≤ e - b := by
  intro fuel
  induction fuel with
  | zero => intro b e _ hbe; simp [lookupTrace]; omega
  | succ fuel ih =>
    intro b e hb hbe
    unfold lookupTrace
    by_cases h0 : b = e
    · rw [if_pos h0]
      simp
      omega
    · rw [if_neg h0]
      obtain ⟨m1, m2⟩ := middle_facts hb (lt_of_le_of_ne hbe h0)
      rw [List.length_cons]
      push_cast
      split
      · have := ih (Int.tdiv (b + e + 1) 2) e (by omega) m2
        omega
      · split
        · simp
          omega
        · have := ih b (Int.tdiv (b + e + 1) 2 - 1) hb (by omega)
          omega

/-- On an interval inside the page the loop on C++ `int`s is the loop of `lookupLoop`. -/
theorem lookupLoop_eq_int (arr : List (KeyType × Int)) (key : KeyType) (keyAt : Int → KeyType)
    (hmem : ∀ (i : Nat) (x : KeyType × Int), arr[i]? = some x → keyAt (i : Int) = x.1) :
    ∀ (fuel b e : Nat), b ≤ e → e < arr.length →
      BPlusTreePage.lookupLoop arr key fuel b e =
        (lookupLoopInt keyAt key fuel (b : Int) (e : Int)).map Int.toNat := by
  intro fuel
  induction fuel with
  | zero => intro b e _ _; rfl
  | succ fuel ih =>
    intro b e hbe hen
    unfold BPlusTreePage.lookupLoop lookupLoopInt
    by_cases h0 : b = e
    · rw [if_pos h0, if_pos (by exact_mod_cast h0)]
      simp
    · rw [if_neg h0, if_neg (by exact_mod_cast h0)]
      have hm : Int.tdiv ((b : Int) + (e : Int) + 1) 2 = (((b + e + 1) / 2 : Nat) : Int) := by
        rw [Int.tdiv_eq_ediv (by omega) (by decide)]
        push_cast
        rfl
      have hlt : (b + e + 1) / 2 < arr.length := by omega
      have hge : 1 ≤ (b + e + 1) / 2 := by omega
      rw [hm, List.getElem?_eq_getElem hlt]
      simp only
      rw [hmem _ _ (List.getElem?_eq_getElem hlt)]
      split
      · exact ih _ e (by omega) hen
      · split
        · simp
          omega
        · have hm1 : (((b + e + 1) / 2 : Nat) : Int) - 1 = (((b + e + 1) / 2 - 1 : Nat) : Int) := by
            omega
          rw [hm1]
          exact ih b _ (by omega) (by omega)

/-- On a page of size zero the loop starts with `begin = 0` and `end = -1`, reads slot 0,
and does not end unless the key found there is the search key. -/
theorem lookupLoopInt_empty (keyAt : Int → KeyType) (key : KeyType) (h : keyAt 0 ≠ key) :
    ∀ fuel : Nat, lookupLoopInt keyAt key fuel 0 (-1) = none := by
  intro fuel
  induction fuel with
  | zero => rfl
  | succ fuel ih =>
    unfold lookupLoopInt
    have hm : Int.tdiv ((0 : Int) + -1 + 1) 2 = 0 := by decide
    rw [if_neg (by decide), hm]
    split
    · exact ih
    · rename_i h1
      rw [if_neg (fun h2 => h (comparator_eq.1 h2))]
      exact ih

theorem lookupTrace_empty (keyAt : Int → KeyType) (key : KeyType) (fuel : Nat) :
    (lookupTrace keyAt key (fuel + 1) 0 (-1)).head? = some (0, -1, 0) := by
  unfold lookupTrace
  rw [if_neg (by decide)]
  rfl

/-- C38: internal-page `Lookup` terminates.  Let the memory of the page hold the keys of
its slots (`keyAt`, arbitrary outside the size of the page).  On a page of size at least 1
the loop of `Lookup` ends, whatever the order of the keys and whatever the search key, after
fewer than `size` iterations, with a slot of the page, and `Lookup` returns the child of
that slot; every iteration works on an interval `0 <= begin < end <= size - 1`, compares the
key of a slot `middle` with `begin < middle <= end`, hence a slot among `1 .. size-1`, and
the interval strictly shrinks from one iteration to every later one.  On a page of size 0
the loop starts on `[0, -1]`, reads slot 0, outside the page, and never ends unless the key
it finds there is the search key. -/
theorem internal_lookup_terminates (pg : BPlusTreePage) (key : KeyType)
    (keyAt : Int → KeyType)
    (hmem : ∀ (i : Nat) (x : KeyType × Int), pg.array[i]? = some x → keyAt (i : Int) = x.1) :
    (1 ≤ pg.GetSize →
      (∃ e : Nat, e < pg.GetSize ∧
        (∀ fuel : Nat, pg.GetSize ≤ fuel →
          lookupLoopInt keyAt key fuel 0 ((pg.GetSize : Int) - 1) = some (e : Int)) ∧
        ∃ c, pg.array[e]? = some c ∧ pg.LookupInternal key = some c.2) ∧
      (∀ fuel : Nat,
        (lookupTrace keyAt key fuel 0 ((pg.GetSize : Int) - 1)).length < pg.GetSize ∧
        (∀ x ∈ lookupTrace keyAt key fuel 0 ((pg.GetSize : Int) - 1),
          0 ≤ x.1 ∧ x.1 < x.2.1 ∧ x.2.1 ≤ (pg.GetSize : Int) - 1 ∧
          1 ≤ x.2.2 ∧ x.1 < x.2.2 ∧ x.2.2 ≤ x.2.1) ∧
        (lookupTrace keyAt key fuel 0 ((pg.GetSize : Int) - 1)).Pairwise
          (fun x y => y.2.1 - y.1 < x.2.1 - x.1))) ∧
    (pg.GetSize = 0 → keyAt 0 ≠ key →
      ∀ fuel : Nat,
        lookupLoopInt keyAt key fuel 0 ((pg.GetSize : Int) - 1) = none ∧
        (lookupTrace keyAt key (fuel + 1) 0 ((pg.GetSize : Int) - 1)).head? =
          some (0, -1, 0)) := by
  refine ⟨fun hsize => ?_, fun h0 hk fuel => ?_⟩
  · have hn : 1 ≤ pg.array.length := hsize
    have hcast : ((pg.array.length - 1 : Nat) : Int) = (pg.array.length : Int) - 1 := by omega
    obtain ⟨r, hr, h1, h2⟩ := lookupLoopInt_ends keyAt key pg.array.length 0
      ((pg.array.length : Int) - 1) (le_refl _) (by omega) (by omega)
    obtain ⟨e, he⟩ : ∃ e : Nat, r = (e : Int) := ⟨r.toNat, by omega⟩
    subst he
    have hen : e < pg.array.length := by omega
    have hfuel : ∀ fuel : Nat, pg.array.length ≤ fuel →
        lookupLoopInt keyAt key fuel 0 ((pg.array.length : Int) - 1) = some (e : Int) := by
      intro fuel hf
      rw [lookupLoopInt_fuel keyAt key fuel pg.array.length 0 _ (le_refl _) (by omega)
        (by omega) (by omega)]
      exact hr
    refine ⟨⟨e, hen, hfuel, pg.array[e], List.getElem?_eq_getElem hen, ?_⟩, fun fuel => ?_⟩
    · unfold BPlusTreePage.LookupInternal
      rw [if_neg (by omega)]
      have := lookupLoop_eq_int pg.array key keyAt hmem (pg.array.length + 1) 0
        (pg.array.length - 1) (Nat.zero_le _) (by omega)
      rw [hcast] at this
      have h3 : lookupLoopInt keyAt key (pg.array.length + 1) ((0 : Nat) : Int)
          ((pg.array.length : Int) - 1) = some (e : Int) := hfuel _ (by omega)
      rw [h3] at this
      rw [this]
      simp [List.getElem?_eq_getElem hen]
    · have hb := lookupTrace_bounds keyAt key fuel 0 ((pg.array.length : Int) - 1)
        (le_refl _) (by omega)
      have hl := lookupTrace_length keyAt key fuel 0 ((pg.array.length : Int) - 1)
        (le_refl _) (by omega)
      refine ⟨?_, fun x hx => ?_, lookupTrace_shrinks keyAt key fuel 0 _ (le_refl _) (by omega)⟩
      · show (lookupTrace keyAt key fuel 0 ((pg.array.length : Int) - 1)).length <
          pg.array.length
        omega
      · obtain ⟨a1, a2, a3, a4, a5⟩ := hb x hx
        exact ⟨a1, a3, a2, by omega, a4, a5⟩
  · have hz : ((pg.GetSize : Int) - 1) = -1 := by rw [h0]; rfl
    rw [hz]
    exact ⟨lookupLoopInt_empty keyAt key hk fuel, lookupTrace_empty keyAt key fuel⟩

theorem internal_lookup_terminates_witness :
    (∃ e : Nat, e < 4 ∧
      (∀ fuel : Nat, 4 ≤ fuel →
        lookupLoopInt (fun i => if i = 1 then 9 else if i = 2 then 2 else if i = 3 then 5 else 0)
          4 fuel 0 3 = some (e : Int)) ∧
      ∃ c, [((0 : KeyType), (10 : Int)), (9, 11), (2, 12), (5, 13)][e]? = some c ∧
        BPlusTreePage.LookupInternal (internalPage 4 3 INVALID_PAGE_ID
          [(0, 10), (9, 11), (2, 12), (5, 13)]) 4 = some c.2) :=
  ((internal_lookup_terminates (internalPage 4 3 INVALID_PAGE_ID
      [(0, 10), (9, 11), (2, 12), (5, 13)]) 4
    (fun i => if i = 1 then 9 else if i = 2 then 2 else if i = 3 then 5 else 0)
    (by
      intro i x hx
      have hi : i < 4 := by
        by_contra hc
        rw [List.getElem?_eq_none (by simpa [internalPage] using hc)] at hx
        cases hx
      interval_cases i <;> simp [internalPage] at hx <;> subst hx <;> rfl)).1
    (by decide)).1

theorem run_UnpinPage_pages (p : page_id_t) (d : Bool) (s : TState) :
    ∃ r t, (UnpinPage p d).run s = Res.ok r t ∧ t.pages = s.pages := by
  by_cases h : s.pin p ≤ 0
  · refine ⟨false, s, ?_, rfl⟩
    show (if s.pin p ≤ 0 then (pure false : TM Bool) else _).run s = _
    rw [if_pos h]
    rfl
  · refine ⟨true, { s with pin := Function.update s.pin p (s.pin p - 1) }, ?_, rfl⟩
    show (if s.pin p ≤ 0 then (pure false : TM Bool) else _).run s = _
    rw [if_neg h]
    rfl

/-- One `operator++` from a slot of a leaf: the result is at end, or on a slot of a leaf of
the chain; the pages are as before. -/
theorem next_in_leaf {s : TState} {it : IndexIterator} {L : page_id_t}
    (hin : InLeaf s it L)
    (hchain : ∀ q, OnChain s.pages L q → ∃ pg, s.pages q = some pg ∧ 1 ≤ pg.GetSize) :
    ∃ it2 t, it.next.run s = Res.ok it2 t ∧ t.pages = s.pages ∧
      (it2.isEnd.run t = Res.ok true t ∨
        ∃ L2, OnChain s.pages L L2 ∧ InLeaf t it2 L2 ∧ (0 ≤ it.index_ → 0 ≤ it2.index_)) := by
  obtain ⟨leaf, hl, hpg, hidx⟩ := hin
  have hne : it.isEnd.run s = Res.ok false s := by
    rw [isEnd_some hl hpg]
    have : ¬ it.index_ = (leaf.GetSize : Int) := by omega
    simp [this]
  rw [next_of_not_end hl hpg hne]
  by_cases h1 : it.index_ < (leaf.GetSize : Int) - 1
  · rw [if_pos h1]
    refine ⟨_, s, rfl, rfl, Or.inr ⟨L, OnChain.start, ⟨leaf, hl, hpg, ?_⟩, fun h => ?_⟩⟩
    · show it.index_ + 1 < _
      omega
    · show 0 ≤ it.index_ + 1
      omega
  · rw [if_neg h1]
    by_cases h2 : leaf.next_page_id_ ≠ INVALID_PAGE_ID
    · rw [if_pos h2]
      obtain ⟨ng, hng, hsz⟩ := hchain _ (OnChain.step OnChain.start hpg h2)
      obtain ⟨r, t1, hrun, hp1⟩ := run_UnpinPage_pages leaf.page_id_ false s
      have hng1 : t1.pages leaf.next_page_id_ = some ng := by rw [hp1]; exact hng
      obtain ⟨t2, hf, hp2⟩ : ∃ t2, (FetchPage leaf.next_page_id_).run t1 = Res.ok () t2 ∧
          t2.pages = t1.pages := ⟨_, run_FetchPage hng1, rfl⟩
      refine ⟨{ leaf_page_ := some leaf.next_page_id_, index_ := 0 }, t2, ?_, ?_,
        Or.inr ⟨leaf.next_page_id_, OnChain.step OnChain.start hpg h2,
          ⟨ng, rfl, ?_, ?_⟩, fun _ => le_refl _⟩⟩
      · rw [run_bind_ok hrun]
        show (FetchPage leaf.next_page_id_ >>= _).run t1 = _
        rw [run_bind_ok hf]
        rfl
      · rw [hp2]; exact hp1
      · rw [hp2]; exact hng1
      · show (0 : Int) < _
        omega
    · rw [if_neg h2]
      refine ⟨_, s, rfl, rfl, Or.inl ?_⟩
      have hl2 : ({ it with index_ := it.index_ + 1 } : IndexIterator).leaf_page_ = some L := hl
      rw [isEnd_some hl2 hpg]
      have e1 : it.index_ + 1 = (leaf.GetSize : Int) := by omega
      have e2 : leaf.next_page_id_ = INVALID_PAGE_ID := not_not.1 h2
      simp [e1, e2]

theorem OnChain_trans {pages : page_id_t → Option BPlusTreePage} {L M q : page_id_t}
    (h1 : OnChain pages L M) (h2 : OnChain pages M q) : OnChain pages L q := by
  induction h2 with
  | start => exact h1
  | step _ hpg hn ih => exact OnChain.step ih hpg hn

theorem nextN_of_end {it : IndexIterator} {s : TState}
    (h : it.isEnd.run s = Res.ok true s) : ∀ n, (nextN n it).run s = Res.ok it s := by
  intro n
  induction n with
  | zero => rfl
  | succ n ih =>
    unfold nextN
    rw [run_bind_ok (next_of_end h)]
    exact ih

/-- On a slot below the size of its leaf `operator*` returns the pair of the slot. -/
theorem deref_in_leaf {s : TState} {it : IndexIterator} {L : page_id_t}
    {leaf : BPlusTreePage} (hl : it.leaf_page_ = some L) (hpg : s.pages L = some leaf)
    (h0 : 0 ≤ it.index_) (hidx : it.index_ < (leaf.GetSize : Int)) :
    ∃ kv, leaf.array[it.index_.toNat]? = some kv ∧ it.deref.run s = Res.ok kv s := by
  have hlt : it.index_.toNat < leaf.array.length := by
    have : it.index_ < (leaf.array.length : Int) := hidx
    omega
  have hne : it.isEnd.run s = Res.ok false s := by
    rw [isEnd_some hl hpg]
    have : ¬ it.index_ = (leaf.GetSize : Int) := by omega
    simp [this]
  refine ⟨leaf.array[it.index_.toNat], List.getElem?_eq_getElem hlt, ?_⟩
  rw [deref_of_not_end hl hpg hne]
  unfold BPlusTreePage.slot?
  rw [if_pos h0, List.getElem?_eq_getElem hlt]
  rfl

/-- After any number of increments from a slot of a leaf the iterator is at end or on a
slot of a leaf of the chain. -/
theorem nextN_in_leaf (L0 : page_id_t) :
    ∀ (n : Nat) (s : TState) (it : IndexIterator) (L : page_id_t),
      OnChain s.pages L0 L → InLeaf s it L → 0 ≤ it.index_ →
      (∀ q, OnChain s.pages L0 q → ∃ pg, s.pages q = some pg ∧ 1 ≤ pg.GetSize) →
      ∃ itn t, (nextN n it).run s = Res.ok itn t ∧ t.pages = s.pages ∧
        (itn.isEnd.run t = Res.ok true t ∨
          ∃ L2 leaf kv, OnChain s.pages L0 L2 ∧ itn.leaf_page_ = some L2 ∧
            t.pages L2 = some leaf ∧ 0 ≤ itn.index_ ∧ itn.index_ < (leaf.GetSize : Int) ∧
            leaf.array[itn.index_.toNat]? = some kv ∧ itn.deref.run t = Res.ok kv t) := by
  intro n
  induction n with
  | zero =>
    intro s it L hL hin h0 _
    obtain ⟨leaf, hl, hpg, hidx⟩ := hin
    obtain ⟨kv, hkv, hd⟩ := deref_in_leaf hl hpg h0 hidx
    exact ⟨it, s, rfl, rfl, Or.inr ⟨L, leaf, kv, hL, hl, hpg, h0, hidx, hkv, hd⟩⟩
  | succ n ih =>
    intro s it L hL hin h0 hchain
    obtain ⟨it2, t, hrun, hp, hcase⟩ := next_in_leaf hin
      (fun q hq => hchain q (OnChain_trans hL hq))
    unfold nextN
    rw [run_bind_ok hrun]
    rcases hcase with hend | ⟨L2, hL2, hin2, h02⟩
    · exact ⟨it2, t, nextN_of_end hend n, hp, Or.inl hend⟩
    · have hchain2 : ∀ q, OnChain t.pages L0 q → ∃ pg, t.pages q = some pg ∧ 1 ≤ pg.GetSize := by
        rw [hp]; exact hchain
      have hL2' : OnChain t.pages L0 L2 := by rw [hp]; exact OnChain_trans hL hL2
      obtain ⟨itn, u, h1, h2, h3⟩ := ih t it2 L2 hL2' hin2 (h02 h0) hchain2
      refine ⟨itn, u, h1, h2.trans hp, ?_⟩
      rw [hp] at h3
      exact h3

/-- C40: iterator position invariant.  Let every leaf on the leaf chain from the leaf `L`
be resident with size at least 1, and let the iterator be anchored at `L` on a slot below
the size of `L`.  Then `operator++` returns, leaves the pages as they are, and yields an
iterator for which `isEnd()` is true or an iterator anchored at a leaf of the chain on a
slot below the size of that leaf.  Hence, when the slot it starts on is not negative, after
any number `n` of increments the iterator is at end, or `operator*` returns the pair stored
in a slot below the size of the leaf the iterator is anchored at. -/
theorem iterator_position_invariant (s : TState) (it : IndexIterator) (L : page_id_t)
    (hin : InLeaf s it L)
    (hchain : ∀ q, OnChain s.pages L q → ∃ pg, s.pages q = some pg ∧ 1 ≤ pg.GetSize) :
    (∃ it2 t, it.next.run s = Res.ok it2 t ∧ t.pages = s.pages ∧
      (it2.isEnd.run t = Res.ok true t ∨ ∃ L2, OnChain s.pages L L2 ∧ InLeaf t it2 L2)) ∧
    (0 ≤ it.index_ → ∀ n : Nat, ∃ itn t, (nextN n it).run s = Res.ok itn t ∧
      t.pages = s.pages ∧
      (itn.isEnd.run t = Res.ok true t ∨
        ∃ L2 leaf kv, OnChain s.pages L L2 ∧ itn.leaf_page_ = some L2 ∧
          t.pages L2 = some leaf ∧ 0 ≤ itn.index_ ∧ itn.index_ < (leaf.GetSize : Int) ∧
          leaf.array[itn.index_.toNat]? = some kv ∧ itn.deref.run t = Res.ok kv t)) := by
  refine ⟨?_, fun h0 n => nextN_in_leaf L n s it L OnChain.start hin h0 hchain⟩
  obtain ⟨it2, t, h1, h2, h3⟩ := next_in_leaf hin hchain
  refine ⟨it2, t, h1, h2, ?_⟩
  rcases h3 with h | ⟨L2, a, b, _⟩
  · exact Or.inl h
  · exact Or.inr ⟨L2, a, b⟩

theorem iterator_position_invariant_witness :
    ∃ itn t, (nextN 2 { leaf_page_ := some 1, index_ := 0 }).run twoLeafState =
        Res.ok itn t ∧ t.pages = twoLeafState.pages ∧
      (itn.isEnd.run t = Res.ok true t ∨
        ∃ L2 leaf kv, OnChain twoLeafState.pages 1 L2 ∧ itn.leaf_page_ = some L2 ∧
          t.pages L2 = some leaf ∧ 0 ≤ itn.index_ ∧ itn.index_ < (leaf.GetSize : Int) ∧
          leaf.array[itn.index_.toNat]? = some kv ∧ itn.deref.run t = Res.ok kv t) :=
  (iterator_position_invariant twoLeafState { leaf_page_ := some 1, index_ := 0 } 1
    ⟨_, rfl, rfl, by decide⟩
    (by
      have key : ∀ q, OnChain twoLeafState.pages 1 q → q = 1 ∨ q = 2 := by
        intro q hq
        induction hq with
        | start => exact Or.inl rfl
        | step _ hpg hn ih =>
          rcases ih with h | h
          · subst h
            cases hpg
            exact Or.inr rfl
          · subst h
            cases hpg
            exact absurd rfl hn
      intro q hq
      rcases key q hq with h | h
      · subst h; exact ⟨_, rfl, by decide⟩
      · subst h; exact ⟨_, rfl, by decide⟩)).2 (by decide) 2

theorem PoolInv_writeBuffer {b : BufferPoolManager} (h : PoolInv b) (f : frame_id_t)
    (data : PageData) : PoolInv (writeBuffer b f data) := by
  refine PoolInv_congr h rfl rfl rfl rfl ?_ (le_refl _)
  intro e _
  show ((Function.update b.pages_ f { b.pages_ f with data_ := data }) e.2).page_id_ = _
  by_cases he : e.2 = f
  · rw [he, Function.update_same]
  · rw [Function.update_noteq he]

theorem PoolInv_COp_apply {b : BufferPoolManager} (h : PoolInv b) (op : COp)
    (hop : op.allocated b = true) : PoolInv (op.apply b) := by
  cases op with
  | call op => exact PoolInv_apply h op hop
  | write q data =>
    show PoolInv (match b.page_table_.lookup q with
      | some frame_id => writeBuffer b frame_id data
      | none => b)
    cases b.page_table_.lookup q with
    | none => exact h
    | some g => exact PoolInv_writeBuffer h g data

theorem PoolInv_clientRun (ops : List COp) :
    ∀ b : BufferPoolManager, PoolInv b → AllocatedC b ops = true →
      PoolInv (clientRun b ops) := by
  induction ops with
  | nil => intro b h _; exact h
  | cons op ops ih =>
    intro b h ha
    simp only [AllocatedC, Bool.and_eq_true] at ha
    exact ih (op.apply b) (PoolInv_COp_apply h op ha.1) ha.2

/-- Two page ids resident in the same frame are the same page id. -/
theorem lookup_frame_inj {b : BufferPoolManager} (h : PoolInv b) {p q : page_id_t}
    {f : frame_id_t} (hp : b.page_table_.lookup p = some f)
    (hq : b.page_table_.lookup q = some f) : p = q := by
  have h1 := h.pt_id _ (lookup_eq_some_mem hp)
  have h2 := h.pt_id _ (lookup_eq_some_mem hq)
  simp only at h1 h2
  rw [← h1, ← h2]

/-- A frame update that keeps the content and does not clear the dirty flag keeps the
resident case of `Durable`. -/
theorem durable_frame {pages pages2 : frame_id_t → Page} {f : frame_id_t} {C : PageData}
    {P : Prop} (hd : (pages2 f).data_ = (pages f).data_)
    (hdirty : (pages f).is_dirty_ = true → (pages2 f).is_dirty_ = true)
    (h2 : (pages f).data_ = C) (h3 : (pages f).is_dirty_ = true ∨ P) :
    (pages2 f).data_ = C ∧ ((pages2 f).is_dirty_ = true ∨ P) :=
  ⟨hd.trans h2, h3.elim (fun h => Or.inl (hdirty h)) Or.inr⟩

/-- The frame the replacer hands out holds a resident page, which is not page `p` unless
the frame is the frame of `p`. -/
theorem victim_page {b : BufferPoolManager} (h : PoolInv b) {g : frame_id_t}
    (hg : g ∈ b.replacer_.order_) {p : page_id_t} :
    ((b.pages_ g).page_id_ = p → b.page_table_.lookup p = some g) ∧
    (∀ f, b.page_table_.lookup p = some f → f ≠ g → (b.pages_ g).page_id_ ≠ p) := by
  have ht := tracked_resident h hg
  refine ⟨fun h0 => by rw [← h0]; exact ht, fun f hf hfg h0 => ?_⟩
  rw [h0, hf] at ht
  exact hfg (Option.some.inj ht)

/-- The state after `FetchPageImpl` or `NewPageImpl` has installed page `q` in the frame
`g`, seen from another page `p`. -/
theorem Durable_install {b c : BufferPoolManager} (h : PoolInv b) {p q : page_id_t}
    {C : PageData} {g : frame_id_t} (hd : Durable b p C) (hq : p ≠ q)
    (hnext : b.disk_manager_.next_page_id_ ≤ c.disk_manager_.next_page_id_)
    (hg : g ∈ b.free_list_ ∨ g ∈ b.replacer_.order_)
    (htable : c.page_table_ = (q, g) :: BufferPoolManager.eraseEntry
      (if g ∈ b.free_list_ then b.page_table_
        else BufferPoolManager.eraseEntry b.page_table_ (b.pages_ g).page_id_) q)
    (hpages : ∀ x, x ≠ g → c.pages_ x = b.pages_ x)
    (hdisk : c.disk_manager_.content =
      if g ∈ b.free_list_ then b.disk_manager_.content
      else if (b.pages_ g).is_dirty_ then
        Function.update b.disk_manager_.content (b.pages_ g).page_id_ (b.pages_ g).data_
      else b.disk_manager_.content) :
    Durable c p C := by
  obtain ⟨hlt, hcase⟩ := hd
  refine ⟨lt_of_lt_of_le hlt hnext, ?_⟩
  by_cases hfree : g ∈ b.free_list_
  · rw [if_pos hfree] at htable hdisk
    have hlk : c.page_table_.lookup p = b.page_table_.lookup p := by
      rw [htable]; exact lookup_install _ g hq
    rcases hcase with ⟨f, h1, h2, h3⟩ | ⟨h1, h2⟩
    · have hfg : f ≠ g := fun h0 => by
        rw [h0] at h1
        exact h.pt_disj _ (lookup_eq_some_mem h1) hfree
      refine Or.inl ⟨f, by rw [hlk]; exact h1, ?_⟩
      rw [hpages f hfg, hdisk]
      exact ⟨h2, h3⟩
    · exact Or.inr ⟨by rw [hlk]; exact h1, by rw [hdisk]; exact h2⟩
  · rw [if_neg hfree] at htable hdisk
    have hgo : g ∈ b.replacer_.order_ := hg.resolve_left hfree
    obtain ⟨v1, v2⟩ := @victim_page b h g hgo p
    by_cases hpg : (b.pages_ g).page_id_ = p
    · -- the frame of `p` is the victim
      have hlkp := v1 hpg
      have hlk : c.page_table_.lookup p = none := by
        rw [htable, lookup_cons_ne _ g hq, lookup_eraseEntry_ne _ hq, hpg]
        exact lookup_eraseEntry_self _ p
      refine Or.inr ⟨hlk, ?_⟩
      rw [hdisk]
      rcases hcase with ⟨f, h1, h2, h3⟩ | ⟨h1, _⟩
      · rw [hlkp] at h1
        have hfg : g = f := Option.some.inj h1
        subst hfg
        rcases h3 with h3 | h3
        · rw [if_pos h3, hpg, Function.update_same]
          exact h2
        · split
          · rw [hpg, Function.update_same]
            exact h2
          · exact h3
      · rw [hlkp] at h1
        cases h1
    · have hlk : c.page_table_.lookup p = b.page_table_.lookup p := by
        rw [htable, lookup_cons_ne _ g hq, lookup_eraseEntry_ne _ hq,
          lookup_eraseEntry_ne _ (Ne.symm hpg)]
      have hcont : c.disk_manager_.content p = b.disk_manager_.content p := by
        rw [hdisk]
        split
        · rw [Function.update_noteq (Ne.symm hpg)]
        · rfl
      rcases hcase with ⟨f, h1, h2, h3⟩ | ⟨h1, h2⟩
      · have hfg : f ≠ g := fun h0 => by
          rw [h0] at h1
          have := h.pt_id _ (lookup_eq_some_mem h1)
          exact hpg this
        refine Or.inl ⟨f, by rw [hlk]; exact h1, ?_⟩
        rw [hpages f hfg, hcont]
        exact ⟨h2, h3⟩
      · exact Or.inr ⟨by rw [hlk]; exact h1, by rw [hcont]; exact h2⟩

theorem Durable_Fetch {b : BufferPoolManager} (h : PoolInv b) {p q : page_id_t}
    {C : PageData} (hd : Durable b p C) (hq : q ≠ p) : Durable (b.FetchPageImpl q).2 p C := by
  cases hlk : b.page_table_.lookup q with
  | some g =>
    rw [FetchPageImpl_resident hlk]
    obtain ⟨hlt, hcase⟩ := hd
    refine ⟨hlt, ?_⟩
    rcases hcase with ⟨f, h1, h2, h3⟩ | h1
    · refine Or.inl ⟨f, h1, ?_⟩
      show ((Function.update b.pages_ g
        { b.pages_ g with pin_count_ := (b.pages_ g).pin_count_ + 1 }) f).data_ = C ∧
        (((Function.update b.pages_ g
          { b.pages_ g with pin_count_ := (b.pages_ g).pin_count_ + 1 }) f).is_dirty_ = true ∨
          b.disk_manager_.content p = C)
      by_cases hfg : f = g
      · subst hfg
        rw [Function.update_same]
        exact ⟨h2, h3⟩
      · rw [Function.update_noteq hfg]
        exact ⟨h2, h3⟩
    · exact Or.inr h1
  | none =>
    cases hfl : b.free_list_ with
    | cons g rest =>
      rw [FetchPageImpl_free hlk hfl]
      have hmem : g ∈ b.free_list_ := by rw [hfl]; exact List.mem_cons_self _ _
      refine Durable_install h hd (Ne.symm hq) (le_refl _) (Or.inl hmem) ?_ ?_ ?_
      · rw [if_pos hmem]; rfl
      · intro x hx
        simp [BufferPoolManager.readInto, BufferPoolManager.SetHelper1,
          Function.update_noteq hx]
      · rw [if_pos hmem]; rfl
    | nil =>
      rcases victim_cases b.replacer_ with ⟨hv, _⟩ | ⟨g, hv, hg⟩
      · rw [FetchPageImpl_none hlk hfl hv]
        exact hd
      · rw [FetchPageImpl_victim hlk hfl hv]
        have hmem : g ∉ b.free_list_ := by rw [hfl]; exact List.not_mem_nil _
        refine Durable_install h hd (Ne.symm hq) ?_ (Or.inr hg) ?_ ?_ ?_
        · show _ ≤ ((if (b.pages_ g).is_dirty_ = true then
              b.disk_manager_.WritePage (b.pages_ g).page_id_ (b.pages_ g).data_
            else b.disk_manager_).ReadPage q).2.next_page_id_
          cases (b.pages_ g).is_dirty_ <;> exact le_refl _
        · rw [if_neg hmem]; rfl
        · intro x hx
          simp [BufferPoolManager.readInto, BufferPoolManager.SetHelper1,
            BufferPoolManager.evict, Function.update_noteq hx]
        · rw [if_neg hmem]
          show ((if (b.pages_ g).is_dirty_ = true then
              b.disk_manager_.WritePage (b.pages_ g).page_id_ (b.pages_ g).data_
            else b.disk_manager_).ReadPage q).2.content = _
          cases (b.pages_ g).is_dirty_ <;> rfl

theorem Durable_New {b : BufferPoolManager} (h : PoolInv b) {p : page_id_t}
    {C : PageData} (hd : Durable b p C) : Durable b.NewPageImpl.2 p C := by
  have hq : p ≠ b.disk_manager_.AllocatePage.1 := ne_of_lt hd.1
  have hle : b.disk_manager_.next_page_id_ ≤ b.disk_manager_.next_page_id_ + 1 :=
    le_of_lt (lt_add_one _)
  cases hfl : b.free_list_ with
  | cons g rest =>
    rw [NewPageImpl_free hfl]
    have hmem : g ∈ b.free_list_ := by rw [hfl]; exact List.mem_cons_self _ _
    refine Durable_install h hd hq hle (Or.inl hmem) ?_ ?_ ?_
    · rw [if_pos hmem]; rfl
    · intro x hx
      simp [BufferPoolManager.SetHelper1, Function.update_noteq hx]
    · rw [if_pos hmem]; rfl
  | nil =>
    rcases victim_cases b.replacer_ with ⟨hv, _⟩ | ⟨g, hv, hg⟩
    · rw [NewPageImpl_none hfl hv]
      exact ⟨lt_of_lt_of_le hd.1 hle, hd.2⟩
    · rw [NewPageImpl_victim hfl hv]
      have hmem : g ∉ b.free_list_ := by rw [hfl]; exact List.not_mem_nil _
      refine Durable_install h hd hq ?_ (Or.inr hg) ?_ ?_ ?_
      · show _ ≤ (if (b.pages_ g).is_dirty_ = true then
            b.disk_manager_.AllocatePage.2.WritePage (b.pages_ g).page_id_ (b.pages_ g).data_
          else b.disk_manager_.AllocatePage.2).next_page_id_
        cases (b.pages_ g).is_dirty_ <;> exact hle
      · rw [if_neg hmem]; rfl
      · intro x hx
        simp [BufferPoolManager.SetHelper1, BufferPoolManager.evict,
          Function.update_noteq hx]
      · rw [if_neg hmem]
        show (if (b.pages_ g).is_dirty_ = true then
            b.disk_manager_.AllocatePage.2.WritePage (b.pages_ g).page_id_ (b.pages_ g).data_
          else b.disk_manager_.AllocatePage.2).content = _
        cases (b.pages_ g).is_dirty_ <;> rfl

theorem Durable_Unpin {b : BufferPoolManager} {p q : page_id_t} (d : Bool)
    {C : PageData} (hd : Durable b p C) : Durable (b.UnpinPageImpl q d).2 p C := by
  cases hlk : b.page_table_.lookup q with
  | none => rw [UnpinPageImpl_absent d hlk]; exact hd
  | some g =>
    by_cases hp : (b.pages_ g).pin_count_ ≤ 0
    · rw [UnpinPageImpl_zero d hlk hp]; exact hd
    · rw [UnpinPageImpl_pinned d hlk hp]
      obtain ⟨hlt, hcase⟩ := hd
      refine ⟨hlt, ?_⟩
      rcases hcase with ⟨f, h1, h2, h3⟩ | h1
      · refine Or.inl ⟨f, h1, ?_⟩
        show ((Function.update b.pages_ g
          { b.pages_ g with
            pin_count_ := (b.pages_ g).pin_count_ - 1,
            is_dirty_ := if d then true else (b.pages_ g).is_dirty_ }) f).data_ = C ∧
          (((Function.update b.pages_ g
            { b.pages_ g with
              pin_count_ := (b.pages_ g).pin_count_ - 1,
              is_dirty_ := if d then true else (b.pages_ g).is_dirty_ }) f).is_dirty_ = true ∨
            b.disk_manager_.content p = C)
        by_cases hfg : f = g
        · subst hfg
          rw [Function.update_same]
          refine ⟨h2, h3.elim (fun h0 => Or.inl ?_) Or.inr⟩
          show (if d then true else (b.pages_ f).is_dirty_) = true
          rw [h0]
          cases d <;> rfl
        · rw [Function.update_noteq hfg]
          exact ⟨h2, h3⟩
      · exact Or.inr h1

theorem Durable_Delete {b : BufferPoolManager} (h : PoolInv b) {p q : page_id_t}
    {C : PageData} (hd : Durable b p C) (hq : q ≠ p) :
    Durable (b.DeletePageImpl q).2 p C := by
  cases hlk : b.page_table_.lookup q with
  | none => rw [DeletePageImpl_absent hlk]; exact hd
  | some g =>
    by_cases hp : (b.pages_ g).pin_count_ > 0
    · rw [DeletePageImpl_pinned hlk hp]; exact hd
    · rw [DeletePageImpl_unpinned hlk hp]
      obtain ⟨hlt, hcase⟩ := hd
      refine ⟨hlt, ?_⟩
      have hlk2 : (BufferPoolManager.eraseEntry b.page_table_ q).lookup p =
          b.page_table_.lookup p := lookup_eraseEntry_ne _ (Ne.symm hq)
      rcases hcase with ⟨f, h1, h2, h3⟩ | ⟨h1, h2⟩
      · have hfg : f ≠ g := fun h0 => by
          rw [h0] at h1
          exact hq (lookup_frame_inj h hlk h1)
        refine Or.inl ⟨f, hlk2.trans h1, ?_⟩
        show ((Function.update b.pages_ g _) f).data_ = C ∧
          (((Function.update b.pages_ g _) f).is_dirty_ = true ∨
            b.disk_manager_.content p = C)
        rw [Function.update_noteq hfg]
        exact ⟨h2, h3⟩
      · exact Or.inr ⟨hlk2.trans h1, h2⟩

theorem Durable_Flush {b : BufferPoolManager} {p q : page_id_t}
    {C : PageData} (hd : Durable b p C) (hq : q ≠ p) :
    Durable (b.FlushPageImpl q).2 p C := by
  cases hlk : b.page_table_.lookup q with
  | none => rw [FlushPageImpl_absent hlk]; exact hd
  | some g =>
    rw [FlushPageImpl_resident hlk]
    obtain ⟨hlt, hcase⟩ := hd
    refine ⟨hlt, ?_⟩
    have hc : (b.disk_manager_.WritePage q (b.pages_ g).data_).content p =
        b.disk_manager_.content p := by
      show Function.update b.disk_manager_.content q _ p = _
      rw [Function.update_noteq (Ne.symm hq)]
    rcases hcase with ⟨f, h1, h2, h3⟩ | ⟨h1, h2⟩
    · exact Or.inl ⟨f, h1, h2, h3.elim Or.inl (fun h0 => Or.inr (hc.trans h0))⟩
    · exact Or.inr ⟨h1, hc.trans h2⟩

theorem Durable_FlushAll {b : BufferPoolManager} (h : PoolInv b) {p : page_id_t}
    {C : PageData} (hd : Durable b p C) : Durable b.FlushAllPagesImpl p C := by
  obtain ⟨hlt, hcase⟩ := hd
  refine ⟨?_, ?_⟩
  · show p < (b.page_table_.foldl (fun d e => d.WritePage e.1 (b.pages_ e.2).data_)
      b.disk_manager_).next_page_id_
    rw [next_page_id_foldl_WritePage]
    exact hlt
  · rcases hcase with ⟨f, h1, h2, _⟩ | ⟨h1, h2⟩
    · refine Or.inl ⟨f, h1, h2, Or.inr ?_⟩
      show (b.page_table_.foldl (fun d e => d.WritePage e.1 (b.pages_ e.2).data_)
        b.disk_manager_).content p = C
      rw [writeAll_content_mem b.pages_ b.page_table_ b.disk_manager_ h.pt_keys
        (lookup_eq_some_mem h1)]
      exact h2
    · refine Or.inr ⟨h1, ?_⟩
      show (b.page_table_.foldl (fun d e => d.WritePage e.1 (b.pages_ e.2).data_)
        b.disk_manager_).content p = C
      rw [writeAll_content_not_mem b.pages_ b.page_table_ b.disk_manager_]
      · exact h2
      · intro hm
        obtain ⟨e, he, hep⟩ := List.mem_map.1 hm
        have := lookup_of_mem h.pt_keys (show (e.1, e.2) ∈ b.page_table_ from he)
        rw [hep, h1] at this
        cases this

theorem Durable_write {b : BufferPoolManager} (h : PoolInv b) {p q : page_id_t}
    (data : PageData) {C : PageData} (hd : Durable b p C) (hq : q ≠ p) :
    Durable ((COp.write q data).apply b) p C := by
  show Durable (match b.page_table_.lookup q with
    | some frame_id => writeBuffer b frame_id data
    | none => b) p C
  cases hlk : b.page_table_.lookup q with
  | none => exact hd
  | some g =>
    obtain ⟨hlt, hcase⟩ := hd
    refine ⟨hlt, ?_⟩
    rcases hcase with ⟨f, h1, h2, h3⟩ | h1
    · have hfg : f ≠ g := fun h0 => by
        rw [h0] at h1
        exact hq (lookup_frame_inj h hlk h1)
      refine Or.inl ⟨f, h1, ?_⟩
      show ((Function.update b.pages_ g _) f).data_ = C ∧
        (((Function.update b.pages_ g _) f).is_dirty_ = true ∨ b.disk_manager_.content p = C)
      rw [Function.update_noteq hfg]
      exact ⟨h2, h3⟩
    · exact Or.inr h1

/-- A client step that does not name page `p` keeps its content safe. -/
theorem Durable_COp_apply {b : BufferPoolManager} (h : PoolInv b) {p : page_id_t}
    {C : PageData} (hd : Durable b p C) (op : COp) (ha : op.avoids p = true) :
    Durable (op.apply b) p C := by
  cases op with
  | write q data => exact Durable_write h data hd (of_decide_eq_true ha)
  | call op =>
    cases op with
    | Fetch q => exact Durable_Fetch h hd (of_decide_eq_true ha)
    | Unpin q d => exact Durable_Unpin d hd
    | New => exact Durable_New h hd
    | Delete q => exact Durable_Delete h hd (of_decide_eq_true ha)
    | Flush q => exact Durable_Flush hd (of_decide_eq_true ha)
    | FlushAll => exact Durable_FlushAll h hd

theorem Durable_clientRun {p : page_id_t} {C : PageData} (ops : List COp) :
    ∀ b : BufferPoolManager, PoolInv b → Durable b p C → AllocatedC b ops = true →
      (∀ op ∈ ops, op.avoids p = true) →
      PoolInv (clientRun b ops) ∧ Durable (clientRun b ops) p C := by
  induction ops with
  | nil => intro b h hd _ _; exact ⟨h, hd⟩
  | cons op ops ih =>
    intro b h hd ha hav
    simp only [AllocatedC, Bool.and_eq_true] at ha
    exact ih (op.apply b) (PoolInv_COp_apply h op ha.1)
      (Durable_COp_apply h hd op (hav op (List.mem_cons_self _ _))) ha.2
      (fun o ho => hav o (List.mem_cons_of_mem _ ho))

/-- `FetchPage` of a page whose content is safe returns that content. -/
theorem Durable_fetch_same {b : BufferPoolManager} (h : PoolInv b) {p : page_id_t}
    {C : PageData} (hd : Durable b p C) {g : frame_id_t}
    (hr : (b.FetchPageImpl p).1 = some g) : ((b.FetchPageImpl p).2.pages_ g).data_ = C := by
  obtain ⟨_, hcase⟩ := hd
  rcases hcase with ⟨f, h1, h2, _⟩ | ⟨h1, h2⟩
  · rw [FetchPageImpl_resident h1] at hr ⊢
    have hfg : f = g := Option.some.inj hr
    subst hfg
    show ((Function.update b.pages_ f _) f).data_ = C
    rw [Function.update_same]
    exact h2
  · cases hfl : b.free_list_ with
    | cons g2 rest =>
      rw [FetchPageImpl_free h1 hfl] at hr ⊢
      have hfg : g2 = g := Option.some.inj hr
      subst hfg
      simp only [BufferPoolManager.readInto, Function.update_same]
      exact h2
    | nil =>
      rcases victim_cases b.replacer_ with ⟨hv, _⟩ | ⟨g2, hv, hg⟩
      · rw [FetchPageImpl_none h1 hfl hv] at hr
        cases hr
      · rw [FetchPageImpl_victim h1 hfl hv] at hr ⊢
        have hfg : g2 = g := Option.some.inj hr
        subst hfg
        simp only [BufferPoolManager.readInto, Function.update_same]
        show (if (b.pages_ g2).is_dirty_ = true then
            b.disk_manager_.WritePage (b.pages_ g2).page_id_ (b.pages_ g2).data_
          else b.disk_manager_).content p = C
        have hne : (b.pages_ g2).page_id_ ≠ p := fun h0 => by
          have := tracked_resident h hg
          rw [h0, h1] at this
          cases this
        split
        · show Function.update b.disk_manager_.content _ _ p = C
          rw [Function.update_noteq (Ne.symm hne)]
          exact h2
        · exact h2

/-- C39, amended: no lost write through eviction.  Take a pool driven from its construction
by client steps (calls on the public surface and writes into buffers of resident pages) in
which `FetchPage` is only asked for page ids below the allocation counter of the disk
collaborator.  Let page `p` be resident in frame `f` with content `C` and the dirty flag set
(as it is from a successful `UnpinPage(p, true)` on).  Then after any further client steps
that do not name `p` (`FetchPage`, `UnpinPage`, `FlushPage`, `DeletePage` and buffer writes
of other page ids, `NewPage`, `FlushAllPages`), which may evict the page, a `FetchPage(p)`
that returns a frame returns it with content `C`. -/
theorem no_lost_write (pool_size : Nat) (disk : DiskManager) (pre : List COp)
    (hpre : AllocatedC (BufferPoolManager.new pool_size disk) pre = true)
    (p : page_id_t) (f : frame_id_t) (C : PageData)
    (hres : (clientRun (BufferPoolManager.new pool_size disk) pre).page_table_.lookup p =
      some f)
    (hdata : ((clientRun (BufferPoolManager.new pool_size disk) pre).pages_ f).data_ = C)
    (hdirty : ((clientRun (BufferPoolManager.new pool_size disk) pre).pages_ f).is_dirty_ =
      true)
    (post : List COp)
    (hpost : AllocatedC (clientRun (BufferPoolManager.new pool_size disk) pre) post = true)
    (havoid : ∀ op ∈ post, op.avoids p = true) (g : frame_id_t)
    (hfetch : ((clientRun (clientRun (BufferPoolManager.new pool_size disk) pre)
      post).FetchPageImpl p).1 = some g) :
    (((clientRun (clientRun (BufferPoolManager.new pool_size disk) pre)
      post).FetchPageImpl p).2.pages_ g).data_ = C := by
  have hinv := PoolInv_clientRun pre _ (PoolInv_new pool_size disk) hpre
  have hd : Durable (clientRun (BufferPoolManager.new pool_size disk) pre) p C :=
    ⟨hinv.alloc _ (lookup_eq_some_mem hres), Or.inl ⟨f, hres, hdata, Or.inl hdirty⟩⟩
  obtain ⟨hinv2, hd2⟩ := Durable_clientRun post _ hinv hd hpost havoid
  exact Durable_fetch_same hinv2 hd2 hfetch

theorem no_lost_write_witness :
    (((clientRun (clientRun (BufferPoolManager.new 2 (DiskManager.fresh (fun _ => [])))
        [COp.call BOp.New, COp.write 0 [42], COp.call (BOp.Unpin 0 true), COp.call BOp.New,
          COp.call (BOp.Unpin 1 false)])
      [COp.call BOp.New]).FetchPageImpl 0).2.pages_ 1).data_ = [42] :=
  no_lost_write 2 (DiskManager.fresh (fun _ => []))
    [COp.call BOp.New, COp.write 0 [42], COp.call (BOp.Unpin 0 true), COp.call BOp.New,
      COp.call (BOp.Unpin 1 false)] (by decide) 0 0 [42] (by decide) (by decide) (by decide)
    [COp.call BOp.New] (by decide) (by decide) 1 (by decide)

/-- C39 as stated fails: on a pool of three frames over a disk that has issued no page id
yet, `FetchPage(0)` and `UnpinPage(0, false)` leave frame 0 evictable under page id 0; the
first `NewPage()` is issued page id 0 and maps it to frame 1, the second creates page 1 in
frame 2, which is unpinned; the client writes `[42]` into the buffer of page 0 and unpins it
with `is_dirty = true`.  Page 0 is then resident in frame 1 with content `[42]`, dirty, with
pin count 0.  One further `NewPage()` takes frame 0 as victim and erases page id 0 from the
page table, and the `FetchPage(0)` after it returns frame 2 with the content of the disk,
which is not `[42]`. -/
theorem no_lost_write_counterexample :
    (clientRun (BufferPoolManager.new 3 (DiskManager.fresh (fun _ => [])))
      [COp.call (BOp.Fetch 0), COp.call (BOp.Unpin 0 false), COp.call BOp.New,
        COp.call BOp.New, COp.call (BOp.Unpin 1 false), COp.write 0 [42],
        COp.call (BOp.Unpin 0 true)]).page_table_.lookup 0 = some 1 ∧
    ((clientRun (BufferPoolManager.new 3 (DiskManager.fresh (fun _ => [])))
      [COp.call (BOp.Fetch 0), COp.call (BOp.Unpin 0 false), COp.call BOp.New,
        COp.call BOp.New, COp.call (BOp.Unpin 1 false), COp.write 0 [42],
        COp.call (BOp.Unpin 0 true)]).pages_ 1).data_ = [42] ∧
    ((clientRun (BufferPoolManager.new 3 (DiskManager.fresh (fun _ => [])))
      [COp.call (BOp.Fetch 0), COp.call (BOp.Unpin 0 false), COp.call BOp.New,
        COp.call BOp.New, COp.call (BOp.Unpin 1 false), COp.write 0 [42],
        COp.call (BOp.Unpin 0 true)]).pages_ 1).is_dirty_ = true ∧
    ((clientRun (BufferPoolManager.new 3 (DiskManager.fresh (fun _ => [])))
      [COp.call (BOp.Fetch 0), COp.call (BOp.Unpin 0 false), COp.call BOp.New,
        COp.call BOp.New, COp.call (BOp.Unpin 1 false), COp.write 0 [42],
        COp.call (BOp.Unpin 0 true)]).pages_ 1).pin_count_ = 0 ∧
    (∀ op ∈ [COp.call BOp.New], op.avoids 0 = true) ∧
    ((clientRun (clientRun (BufferPoolManager.new 3 (DiskManager.fresh (fun _ => [])))
      [COp.call (BOp.Fetch 0), COp.call (BOp.Unpin 0 false), COp.call BOp.New,
        COp.call BOp.New, COp.call (BOp.Unpin 1 false), COp.write 0 [42],
        COp.call (BOp.Unpin 0 true)]) [COp.call BOp.New]).FetchPageImpl 0).1 = some 2 ∧
    (((clientRun (clientRun (BufferPoolManager.new 3 (DiskManager.fresh (fun _ => [])))
      [COp.call (BOp.Fetch 0), COp.call (BOp.Unpin 0 false), COp.call BOp.New,
        COp.call BOp.New, COp.call (BOp.Unpin 1 false), COp.write 0 [42],
        COp.call (BOp.Unpin 0 true)]) [COp.call BOp.New]).FetchPageImpl 0).2.pages_ 2).data_ ≠
      [42] := by
  refine ⟨by decide, by decide, by decide, by decide, by decide, by decide, by decide⟩

theorem update_back (f : page_id_t → Int) (a : page_id_t) :
    Function.update (Function.update f a (f a + 1)) a (f a + 1 - 1) = f := by
  funext x
  by_cases h : x = a
  · subst h
    simp
  · simp [Function.update_noteq h]

theorem wp_UpdateRootPageId_false {Q : Unit → TState → Prop} {s : TState}
    (hpin : 0 ≤ s.pin HEADER_PAGE_ID)
    (hq : Q () { s with header_record := s.header_record.map (fun _ => s.root_page_id_) }) :
    wp (UpdateRootPageId false) Q s := by
  unfold UpdateRootPageId FetchHeaderPage
  refine wp_bind_of ((wp_modify _ _ _).2 ?_)
  refine wp_bind_of ((wp_WLatch _ _ _).2 ?_)
  refine wp_bind_of ((wp_modify _ _ _).2 ?_)
  refine wp_bind_of ((wp_WUnlatch _ _ _).2 ?_)
  refine wp_bind_of ((wp_UnpinPage _ _ _ _).2 ⟨?_, ?_⟩)
  · intro h
    simp at h
    omega
  · intro _
    refine (wp_pure _ _ _).2 ?_
    refine Eq.mpr (congrArg (Q ()) ?_) hq
    cases hh : s.header_record <;> simp [update_back, hh]

theorem wp_relink {α : Type} {k : TM α} {Q : α → TState → Prop} {s : TState}
    {c U : page_id_t} {g : BPlusTreePage} (hc : s.pages c = some g) (hpin : 0 ≤ s.pin c)
    (hq : wp k Q { s with pages := Function.update s.pages c (some (g.SetParentPageId U)) }) :
    wp (do
      FetchPage c
      WLatch c
      modifyPage c (fun p => p.SetParentPageId U)
      WUnlatch c
      let _ ← UnpinPage c true
      k) Q s := by
  refine wp_bind_of ((wp_FetchPage _ _ _).2 ⟨⟨_, hc⟩, ?_⟩)
  refine wp_bind_of ((wp_WLatch _ _ _).2 ?_)
  refine wp_bind_of ((wp_modifyPage _ _ _ _).2 ⟨_, hc, ?_⟩)
  refine wp_bind_of ((wp_WUnlatch _ _ _).2 ?_)
  refine wp_bind_of ((wp_UnpinPage _ _ _ _).2 ⟨?_, ?_⟩)
  · intro h
    simp at h
    omega
  · intro _
    refine Eq.mpr (congrArg (wp k Q) ?_) hq
    simp [update_back]

theorem AdjustRoot_leaf (s : TState) (old_root_node : page_id_t) (pg : BPlusTreePage)
    (hpg : s.pages old_root_node = some pg) (hpin : 0 ≤ s.pin HEADER_PAGE_ID)
    (hl : pg.IsLeafPage = true) (hz : pg.GetSize = 0) :
    (AdjustRoot old_root_node).run s =
      Res.ok true { s with root_page_id_ := INVALID_PAGE_ID, header_record := none } := by
  have h : wp (AdjustRoot old_root_node)
      (fun r t => r = true ∧
        t = { s with root_page_id_ := INVALID_PAGE_ID, header_record := none }) s := by
    unfold AdjustRoot
    refine wp_bind_of (wp_getPage_of hpg ?_)
    rw [if_pos ⟨hl, hz⟩]
    refine wp_bind_of ((wp_modify _ _ _).2 ?_)
    unfold FetchHeaderPage
    refine wp_bind_of ((wp_modify _ _ _).2 ?_)
    refine wp_bind_of ((wp_WLatch _ _ _).2 ?_)
    refine wp_bind_of ((wp_modify _ _ _).2 ?_)
    refine wp_bind_of ((wp_WUnlatch _ _ _).2 ?_)
    refine wp_bind_of ((wp_UnpinPage _ _ _ _).2 ⟨?_, ?_⟩)
    · intro h
      simp at h
      omega
    · intro _
      refine (wp_pure _ _ _).2 ⟨rfl, ?_⟩
      simp [update_back]
  obtain ⟨a, t, hr, rfl, rfl⟩ := h
  exact hr

theorem AdjustRoot_internal (s : TState) (old_root_node : page_id_t) (pg cpg : BPlusTreePage)
    (e : KeyType × Int)
    (hpg : s.pages old_root_node = some pg) (hpin : ∀ q, 0 ≤ s.pin q)
    (hl : pg.IsLeafPage = false) (hz : pg.GetSize = 1) (he : pg.slot? 0 = some e)
    (hc : s.pages e.2 = some cpg) :
    (AdjustRoot old_root_node).run s =
      Res.ok true
        { s with
          root_page_id_ := e.2,
          header_record := s.header_record.map (fun _ => e.2),
          pages := Function.update
            (Function.update s.pages old_root_node (some (pg.SetSize 0))) e.2
            (some ((if e.2 = old_root_node then pg.SetSize 0 else cpg).SetParentPageId
              INVALID_PAGE_ID)) } := by
  have hc2 : Function.update s.pages old_root_node (some (pg.SetSize 0)) e.2 =
      some (if e.2 = old_root_node then pg.SetSize 0 else cpg) := by
    by_cases h : e.2 = old_root_node
    · rw [if_pos h, h, Function.update_same]
    · rw [if_neg h, Function.update_noteq h, hc]
  have h : wp (AdjustRoot old_root_node)
      (fun r t => r = true ∧
        t = { s with
          root_page_id_ := e.2,
          header_record := s.header_record.map (fun _ => e.2),
          pages := Function.update
            (Function.update s.pages old_root_node (some (pg.SetSize 0))) e.2
            (some ((if e.2 = old_root_node then pg.SetSize 0 else cpg).SetParentPageId
              INVALID_PAGE_ID)) }) s := by
    unfold AdjustRoot
    refine wp_bind_of (wp_getPage_of hpg ?_)
    rw [if_neg (by simp [hl]), if_pos (by simp [hl, hz])]
    refine wp_bind_of ((wp_ofOption _ _ _).2 ⟨e, he, ?_⟩)
    refine wp_bind_of ((wp_modifyPage _ _ _ _).2 ⟨pg, hpg, ?_⟩)
    refine wp_bind_of ((wp_modify _ _ _).2 ?_)
    refine wp_relink hc2 (hpin _) ?_
    refine wp_bind_of (wp_UpdateRootPageId_false (hpin _) ?_)
    refine (wp_pure _ _ _).2 ⟨rfl, ?_⟩
    rfl
  obtain ⟨a, t, hr, rfl, rfl⟩ := h
  exact hr

theorem AdjustRoot_other (s : TState) (old_root_node : page_id_t) (pg : BPlusTreePage)
    (hpg : s.pages old_root_node = some pg)
    (h1 : ¬ (pg.IsLeafPage = true ∧ pg.GetSize = 0))
    (h2 : ¬ (pg.IsLeafPage = false ∧ pg.GetSize = 1)) :
    (AdjustRoot old_root_node).run s = Res.ok false s := by
  have h : wp (AdjustRoot old_root_node) (fun r t => r = false ∧ t = s) s := by
    unfold AdjustRoot
    refine wp_bind_of (wp_getPage_of hpg ?_)
    rw [if_neg h1, if_neg (by simpa using h2)]
    exact (wp_pure _ _ _).2 ⟨rfl, rfl⟩
  obtain ⟨a, t, hr, rfl, rfl⟩ := h
  exact hr

/-- C36: `AdjustRoot` on a resident old root returns, and returns true exactly when the old
root is a leaf of size 0 or a non-leaf page of size 1.  For the empty leaf the root page id
becomes `INVALID_PAGE_ID`, the header record is deleted and no page changes.  For the
one-child internal root the root page id becomes the slot-0 child, that child's parent page
id becomes `INVALID_PAGE_ID`, the old root's size becomes 0, no other page changes, and an
existing header record is replaced by the new root id.  In every other case the whole state
is unchanged and the result is false.  Pins and latches are as before in all cases. -/
theorem adjust_root (s : TState) (old_root_node : page_id_t) (pg : BPlusTreePage)
    (hpg : s.pages old_root_node = some pg) (hpin : ∀ q, 0 ≤ s.pin q)
    (hchild : pg.IsLeafPage = false → ∀ e, pg.slot? 0 = some e →
      ∃ cpg, s.pages e.2 = some cpg) :
    ∃ r t, (AdjustRoot old_root_node).run s = Res.ok r t ∧
      (r = true ↔ (pg.IsLeafPage = true ∧ pg.GetSize = 0) ∨
        (pg.IsLeafPage = false ∧ pg.GetSize = 1)) ∧
      (pg.IsLeafPage = true ∧ pg.GetSize = 0 →
        t.root_page_id_ = INVALID_PAGE_ID ∧ t.header_record = none ∧ t.pages = s.pages) ∧
      (pg.IsLeafPage = false ∧ pg.GetSize = 1 →
        ∃ e, pg.slot? 0 = some e ∧ t.root_page_id_ = e.2 ∧
          t.header_record = s.header_record.map (fun _ => e.2) ∧
          (∃ child, t.pages e.2 = some child ∧ child.parent_page_id_ = INVALID_PAGE_ID ∧
            (e.2 ≠ old_root_node → ∃ cpg, s.pages e.2 = some cpg ∧
              child = cpg.SetParentPageId INVALID_PAGE_ID)) ∧
          (∃ root, t.pages old_root_node = some root ∧ root.GetSize = 0 ∧
            (e.2 ≠ old_root_node → root = pg.SetSize 0)) ∧
          (∀ q, q ≠ old_root_node → q ≠ e.2 → t.pages q = s.pages q)) ∧
      (¬ (pg.IsLeafPage = true ∧ pg.GetSize = 0) →
        ¬ (pg.IsLeafPage = false ∧ pg.GetSize = 1) → r = false ∧ t = s) ∧
      t.pin = s.pin ∧ t.wlatch = s.wlatch ∧ t.rlatch = s.rlatch ∧
      t.root_mutex_ = s.root_mutex_ ∧ t.deleted_page_set = s.deleted_page_set := by
  by_cases h1 : pg.IsLeafPage = true ∧ pg.GetSize = 0
  · have hn : ¬ (pg.IsLeafPage = false ∧ pg.GetSize = 1) := by
      rintro ⟨_, h⟩
      omega
    refine ⟨_, _, AdjustRoot_leaf s old_root_node pg hpg (hpin _) h1.1 h1.2, ?_, ?_, ?_, ?_,
      rfl, rfl, rfl, rfl, rfl⟩
    · exact ⟨fun _ => Or.inl h1, fun _ => rfl⟩
    · exact fun _ => ⟨rfl, rfl, rfl⟩
    · exact fun h => absurd h hn
    · exact fun h => absurd h1 h
  · by_cases h2 : pg.IsLeafPage = false ∧ pg.GetSize = 1
    · obtain ⟨e, he⟩ : ∃ e, pg.slot? 0 = some e := by
        have hlen : pg.array.length = 1 := h2.2
        match hm : pg.array, hlen with
        | [x], _ => exact ⟨x, by simp [BPlusTreePage.slot?, hm]⟩
      obtain ⟨cpg, hc⟩ := hchild h2.1 e he
      refine ⟨_, _, AdjustRoot_internal s old_root_node pg cpg e hpg hpin h2.1 h2.2 he hc,
        ?_, ?_, ?_, ?_, rfl, rfl, rfl, rfl, rfl⟩
      · exact ⟨fun _ => Or.inr h2, fun _ => rfl⟩
      · exact fun h => absurd h h1
      · intro _
        refine ⟨e, he, rfl, rfl, ⟨_, Function.update_same _ _ _, rfl, ?_⟩, ?_, ?_⟩
        · intro hne
          exact ⟨cpg, hc, by rw [if_neg hne]⟩
        · by_cases hne : e.2 = old_root_node
          · refine ⟨_, by rw [hne]; exact Function.update_same _ _ _, ?_, fun h => absurd hne h⟩
            rw [if_pos rfl]
            simp [BPlusTreePage.SetParentPageId, BPlusTreePage.SetSize, BPlusTreePage.GetSize]
          · refine ⟨pg.SetSize 0, ?_, ?_, fun _ => rfl⟩
            · show Function.update (Function.update s.pages old_root_node _) e.2 _
                old_root_node = _
              rw [Function.update_noteq (Ne.symm hne), Function.update_same]
            · simp [BPlusTreePage.SetSize, BPlusTreePage.GetSize]
        · intro q hq1 hq2
          show Function.update (Function.update s.pages old_root_node _) e.2 _ q = _
          rw [Function.update_noteq hq2, Function.update_noteq hq1]
      · exact fun _ h => absurd h2 h
    · refine ⟨_, _, AdjustRoot_other s old_root_node pg hpg h1 h2, ?_, ?_, ?_, ?_,
        rfl, rfl, rfl, rfl, rfl⟩
      · constructor
        · intro h
          cases h
        · rintro (h | h)
          · exact absurd h h1
          · exact absurd h h2
      · exact fun h => absurd h h1
      · exact fun h => absurd h h2
      · exact fun _ _ => ⟨rfl, rfl⟩

theorem adjust_root_witness :
    ∃ r t, (AdjustRoot 3).run oneChildRootState = Res.ok r t ∧
      (r = true ↔ ((internalPage 3 3 INVALID_PAGE_ID [(0, 1)]).IsLeafPage = true ∧
          (internalPage 3 3 INVALID_PAGE_ID [(0, 1)]).GetSize = 0) ∨
        ((internalPage 3 3 INVALID_PAGE_ID [(0, 1)]).IsLeafPage = false ∧
          (internalPage 3 3 INVALID_PAGE_ID [(0, 1)]).GetSize = 1)) ∧ t.root_page_id_ = 1 := by
  obtain ⟨r, t, hr, hiff, _, h2, _⟩ := adjust_root oneChildRootState 3
    (internalPage 3 3 INVALID_PAGE_ID [(0, 1)]) rfl
    (fun q => by
      show (0 : Int) ≤ if q = 3 then 1 else 0
      split <;> decide)
    (fun _ e he => by
      have h : e = (0, 1) := by
        have h0 : (internalPage 3 3 INVALID_PAGE_ID [(0, 1)]).slot? 0 = some (0, 1) := rfl
        rw [h0] at he
        exact (Option.some.inj he).symm
      subst h
      exact ⟨_, rfl⟩)
  obtain ⟨e, he, hroot, _⟩ := h2 ⟨rfl, rfl⟩
  have h : e = (0, 1) := by
    have h0 : (internalPage 3 3 INVALID_PAGE_ID [(0, 1)]).slot? 0 = some (0, 1) := rfl
    rw [h0] at he
    exact (Option.some.inj he).symm
  subst h
  exact ⟨r, t, hr, hiff, hroot⟩

/-- Internal page `MoveHalfTo` into an empty recipient: the view reached. -/
theorem MoveHalfToInternal_local {s : TState} {v : TreeView} {h : Multiset Int} {b : Bool}
    {node recipient : page_id_t} {nd rd : BPlusTreePage} (hs : St s v h b)
    (hn : v.pages node = some nd) (hr : v.pages recipient = some rd)
    (hid : rd.page_id_ = recipient) (hne : node ≠ recipient)
    (hch : ∀ x ∈ nd.array.drop nd.GetMinSize,
      x.2 ≠ node ∧ x.2 ≠ recipient ∧ ∃ cpg, v.pages x.2 = some cpg)
    {Q : Unit → TState → Prop}
    (hq : ∀ t, St t ((copyView v recipient rd (nd.array.drop nd.GetMinSize)).setPage node
      (nd.SetSize nd.GetMinSize)) h b → Q () t) :
    wp (MoveHalfToInternal node recipient) Q s := by
  unfold MoveHalfToInternal
  refine wp_bind_of (wp_getPage_st hs hn ?_)
  refine wp_bind_of (CopyNFrom_spec recipient _ hs hr hid
    (fun x hx => ⟨(hch x hx).2.1, (hch x hx).2.2⟩) ?_)
  intro t ht
  refine wp_modifyPage_st ht ?_ hq
  show reparent _ _ _ node = some nd
  unfold reparent
  rw [if_neg, Function.update_noteq hne, hn]
  intro hmem
  obtain ⟨x, hx, hx2⟩ := List.mem_map.1 hmem
  exact (hch x hx).1 hx2

/-- C31: internal `MoveHalfTo` from a page of size `n >= min_size` into an empty, freshly
initialised recipient returns; afterwards the source is its old page cut to its first
`min_size` entries (size `min_size`, entries `0 .. min_size - 1` unchanged), the recipient
holds the old entries `min_size .. n - 1` in order at the slots `0 .. n - min_size - 1` with
size `n - min_size`, every child referenced by a moved entry is its old page with the parent
page id set to the recipient, every other page (the children of retained entries among them)
is unchanged, and no pin is left behind. -/
theorem internal_move_half (s : TState) (v : TreeView) (h : Multiset Int) (b : Bool)
    (node recipient : page_id_t) (nd rd : BPlusTreePage) (hs : St s v h b)
    (hn : v.pages node = some nd) (hr : v.pages recipient = some rd)
    (hid : rd.page_id_ = recipient) (hempty : rd.array = []) (hne : node ≠ recipient)
    (hmin : nd.GetMinSize ≤ nd.GetSize)
    (hch : ∀ x ∈ nd.array.drop nd.GetMinSize,
      x.2 ≠ node ∧ x.2 ≠ recipient ∧ ∃ cpg, v.pages x.2 = some cpg) :
    ∃ t, (MoveHalfToInternal node recipient).run s = Res.ok () t ∧
      (∃ nd2, t.pages node = some nd2 ∧ nd2 = nd.SetSize nd.GetMinSize ∧
        nd2.GetSize = nd.GetMinSize ∧
        (∀ i, i < nd.GetMinSize → nd2.array[i]? = nd.array[i]?)) ∧
      (∃ rd2, t.pages recipient = some rd2 ∧
        rd2 = { rd with array := nd.array.drop nd.GetMinSize } ∧
        rd2.GetSize = nd.GetSize - nd.GetMinSize ∧
        (∀ i, rd2.array[i]? = nd.array[nd.GetMinSize + i]?)) ∧
      (∀ x ∈ nd.array.drop nd.GetMinSize, ∃ c, v.pages x.2 = some c ∧
        t.pages x.2 = some (c.SetParentPageId recipient)) ∧
      (∀ q, q ≠ node → q ≠ recipient → (∀ x ∈ nd.array.drop nd.GetMinSize, x.2 ≠ q) →
        t.pages q = v.pages q) ∧
      (∀ x ∈ nd.array.take nd.GetMinSize, x.2 ≠ node → x.2 ≠ recipient →
        (∀ y ∈ nd.array.drop nd.GetMinSize, y.2 ≠ x.2) → t.pages x.2 = v.pages x.2) ∧
      (∀ q, t.pin q = s.pin q) := by
  obtain ⟨u, t, hrun, ht⟩ := @MoveHalfToInternal_local s v h b node recipient nd rd hs hn hr hid
    hne hch (fun _ t => St t ((copyView v recipient rd (nd.array.drop nd.GetMinSize)).setPage
      node (nd.SetSize nd.GetMinSize)) h b) (fun t ht => ht)
  have hpages : t.pages = Function.update (reparent ((nd.array.drop nd.GetMinSize).map Prod.snd)
      recipient (Function.update v.pages recipient
        (some { rd with array := rd.array ++ nd.array.drop nd.GetMinSize }))) node
      (some (nd.SetSize nd.GetMinSize)) := by
    rw [view_pages ht.1]
    rfl
  have hnotmem : ∀ q, (∀ x ∈ nd.array.drop nd.GetMinSize, x.2 ≠ q) →
      q ∉ (nd.array.drop nd.GetMinSize).map Prod.snd := by
    intro q hq hmem
    obtain ⟨x, hx, hx2⟩ := List.mem_map.1 hmem
    exact hq x hx hx2
  have hframe : ∀ q, q ≠ node → q ≠ recipient →
      (∀ x ∈ nd.array.drop nd.GetMinSize, x.2 ≠ q) → t.pages q = v.pages q := by
    intro q h1 h2 h3
    rw [hpages, Function.update_noteq h1]
    unfold reparent
    rw [if_neg (hnotmem q h3), Function.update_noteq h2]
  refine ⟨t, hrun, ⟨_, by rw [hpages, Function.update_same], rfl, ?_, ?_⟩,
    ⟨_, ?_, rfl, ?_, ?_⟩, ?_, hframe, fun x _ h1 h2 h3 => hframe x.2 h1 h2 h3, ?_⟩
  · show (nd.array.take nd.GetMinSize).length = nd.GetMinSize
    rw [List.length_take]
    exact Nat.min_eq_left hmin
  · intro i hi
    show (nd.array.take nd.GetMinSize)[i]? = _
    rw [List.getElem?_take_of_lt hi]
  · rw [hpages, Function.update_noteq (Ne.symm hne)]
    unfold reparent
    rw [if_neg (hnotmem recipient (fun x hx => (hch x hx).2.1)), Function.update_same, hempty]
    rfl
  · show (nd.array.drop nd.GetMinSize).length = _
    rw [List.length_drop]
    rfl
  · intro i
    show (nd.array.drop nd.GetMinSize)[i]? = _
    rw [List.getElem?_drop]
  · intro x hx
    obtain ⟨h1, h2, c, hc⟩ := hch x hx
    refine ⟨c, hc, ?_⟩
    rw [hpages, Function.update_noteq h1]
    unfold reparent
    rw [if_pos (List.mem_map.2 ⟨x, hx, rfl⟩), Function.update_noteq h2, hc]
    rfl
  · intro q
    rw [ht.2.2.1 q, hs.2.2.1 q]

theorem internal_move_half_witness :
    ∃ t, (MoveHalfToInternal 3 6).run halfMoveState = Res.ok () t ∧
      t.pages 3 = some (internalPage 4 3 INVALID_PAGE_ID [(0, 1), (10, 2)]) ∧
      t.pages 6 = some (internalPage 4 6 INVALID_PAGE_ID [(20, 4), (30, 5)]) ∧
      t.pages 4 = some (internalPage 4 4 6 []) ∧
      t.pages 1 = some (internalPage 4 1 3 []) := by
  have hs : St halfMoveState halfMoveState.view 0 true :=
    ⟨rfl, rfl, fun p => by simp [halfMoveState], rfl⟩
  obtain ⟨t, hrun, ⟨n2, hn2, hn2e, _⟩, ⟨r2, hr2, hr2e, _⟩, hmoved, hframe, _⟩ :=
    internal_move_half halfMoveState halfMoveState.view 0 true 3 6
      (internalPage 4 3 INVALID_PAGE_ID [(0, 1), (10, 2), (20, 4), (30, 5)])
      (internalPage 4 6 INVALID_PAGE_ID []) hs rfl rfl rfl rfl (by decide) (by decide)
      (by
        intro x hx
        have hx2 : x = (20, 4) ∨ x = (30, 5) := by
          simpa [internalPage, BPlusTreePage.GetMinSize] using hx
        rcases hx2 with rfl | rfl
        · exact ⟨by decide, by decide, _, rfl⟩
        · exact ⟨by decide, by decide, _, rfl⟩)
  refine ⟨t, hrun, ?_, ?_, ?_, ?_⟩
  · rw [hn2, hn2e]
    rfl
  · rw [hr2, hr2e]
    rfl
  · obtain ⟨c, hc, hc2⟩ := hmoved (20, 4) (by decide)
    rw [hc2]
    have : c = internalPage 4 4 3 [] := (Option.some.inj hc).symm
    rw [this]
    rfl
  · rw [hframe 1 (by decide) (by decide) (by decide)]
    rfl

/-- C32: internal `MoveAllTo` from a page with the entries `(k0, c0), ..., (k_{n-1}, c_{n-1})`
into a recipient with `m` entries and the separator `middle_key` returns; afterwards the
recipient has size `m + n`, its first `m` entries are unchanged, slot `m` holds
`(middle_key, c0)` and the slots `m + i` for `1 <= i < n` hold `(k_i, c_i)`, the source has
size 0, every child `c_0 .. c_{n-1}` is its old page with the parent page id set to the
recipient's page id, no other page changes and no pin is left behind. -/
theorem internal_move_all (s : TState) (v : TreeView) (h : Multiset Int) (b : Bool)
    (node recipient : page_id_t) (nd rd : BPlusTreePage) (middle_key : KeyType)
    (hs : St s v h b) (hn : v.pages node = some nd) (hr : v.pages recipient = some rd)
    (hne : recipient ≠ node) (hid : rd.page_id_ = recipient)
    (hch : ∀ x ∈ nd.array, x.2 ≠ recipient ∧ x.2 ≠ node ∧ ∃ cpg, v.pages x.2 = some cpg) :
    ∃ t, (MoveAllToInternal node recipient middle_key).run s = Res.ok () t ∧
      (∃ rd2, t.pages recipient = some rd2 ∧ rd2 = intMerged rd nd middle_key ∧
        rd2.GetSize = rd.GetSize + nd.GetSize ∧
        (∀ i, i < rd.GetSize → rd2.array[i]? = rd.array[i]?) ∧
        (∀ e, nd.array[0]? = some e → rd2.array[rd.GetSize]? = some (middle_key, e.2)) ∧
        (∀ i, 1 ≤ i → rd2.array[rd.GetSize + i]? = nd.array[i]?)) ∧
      (∃ nd2, t.pages node = some nd2 ∧ nd2 = nd.SetSize 0 ∧ nd2.GetSize = 0) ∧
      (∀ x ∈ nd.array, ∃ c, v.pages x.2 = some c ∧
        t.pages x.2 = some (c.SetParentPageId rd.page_id_)) ∧
      (∀ q, q ≠ node → q ≠ recipient → (∀ x ∈ nd.array, x.2 ≠ q) → t.pages q = v.pages q) ∧
      (∀ q, t.pin q = s.pin q) := by
  obtain ⟨u, t, hrun, ht⟩ := @MoveAllToInternal_spec s v h b recipient node rd nd middle_key hs
    hr hn hne hid hch (fun _ t => St t (((copyView v recipient rd nd.array).setPage recipient
      (intMerged rd nd middle_key)).setPage node (nd.SetSize 0)) h b) (fun t ht => ht)
  have hpages : t.pages = Function.update (Function.update
      (reparent (nd.array.map Prod.snd) recipient (Function.update v.pages recipient
        (some { rd with array := rd.array ++ nd.array }))) recipient
      (some (intMerged rd nd middle_key))) node (some (nd.SetSize 0)) := by
    rw [view_pages ht.1]
    rfl
  have hnotmem : ∀ q, (∀ x ∈ nd.array, x.2 ≠ q) → q ∉ nd.array.map Prod.snd := by
    intro q hq hmem
    obtain ⟨x, hx, hx2⟩ := List.mem_map.1 hmem
    exact hq x hx hx2
  have harr : (intMerged rd nd middle_key).array =
      (rd.array ++ nd.array).modify (fun e => (middle_key, e.2)) rd.array.length := rfl
  refine ⟨t, hrun, ⟨_, ?_, rfl, ?_, ?_, ?_, ?_⟩, ⟨_, by rw [hpages, Function.update_same], rfl,
    rfl⟩, ?_, ?_, ?_⟩
  · rw [hpages, Function.update_noteq hne, Function.update_same]
  · show (intMerged rd nd middle_key).array.length = rd.array.length + nd.array.length
    rw [harr, List.length_modify, List.length_append]
  · intro i hi
    have hi2 : i < rd.array.length := hi
    have hne2 : ¬ rd.array.length = i := by omega
    rw [harr, List.getElem?_modify, List.getElem?_append_left hi2]
    simp only [if_neg hne2]
    cases rd.array[i]? <;> rfl
  · intro e he
    show (intMerged rd nd middle_key).array[rd.array.length]? = _
    rw [harr, List.getElem?_modify,
      List.getElem?_append_right (le_refl _), Nat.sub_self, he]
    simp
  · intro i hi
    show (intMerged rd nd middle_key).array[rd.array.length + i]? = _
    have hne2 : ¬ rd.array.length = rd.array.length + i := by omega
    rw [harr, List.getElem?_modify,
      List.getElem?_append_right (by omega), Nat.add_sub_cancel_left]
    simp only [if_neg hne2]
    cases nd.array[i]? <;> rfl
  · intro x hx
    obtain ⟨h1, h2, c, hc⟩ := hch x hx
    refine ⟨c, hc, ?_⟩
    rw [hpages, Function.update_noteq h2, Function.update_noteq h1]
    unfold reparent
    rw [if_pos (List.mem_map.2 ⟨x, hx, rfl⟩), Function.update_noteq h1, hc, hid]
    rfl
  · intro q h1 h2 h3
    rw [hpages, Function.update_noteq h1, Function.update_noteq h2]
    unfold reparent
    rw [if_neg (hnotmem q h3), Function.update_noteq h2]
  · intro q
    rw [ht.2.2.1 q, hs.2.2.1 q]

theorem internal_move_all_witness :
    ∃ t, (MoveAllToInternal 6 3 20).run mergeState = Res.ok () t ∧
      t.pages 3 = some (internalPage 6 3 9 [(0, 1), (10, 2), (20, 4), (30, 5)]) ∧
      t.pages 6 = some (internalPage 6 6 9 []) ∧
      t.pages 4 = some (internalPage 6 4 3 []) := by
  have hs : St mergeState mergeState.view 0 true :=
    ⟨rfl, rfl, fun p => by simp [mergeState], rfl⟩
  obtain ⟨t, hrun, ⟨r2, hr2, hr2e, _⟩, ⟨n2, hn2, hn2e, _⟩, hmoved, _⟩ :=
    internal_move_all mergeState mergeState.view 0 true 6 3
      (internalPage 6 6 9 [(0, 4), (30, 5)]) (internalPage 6 3 9 [(0, 1), (10, 2)]) 20
      hs rfl rfl (by decide) rfl
      (by
        intro x hx
        have hx2 : x = (0, 4) ∨ x = (30, 5) := by
          simpa [internalPage] using hx
        rcases hx2 with rfl | rfl
        · exact ⟨by decide, by decide, _, rfl⟩
        · exact ⟨by decide, by decide, _, rfl⟩)
  refine ⟨t, hrun, ?_, ?_, ?_⟩
  · rw [hr2, hr2e]
    rfl
  · rw [hn2, hn2e]
    rfl
  · obtain ⟨c, hc, hc2⟩ := hmoved (0, 4) (by decide)
    rw [hc2]
    have : c = internalPage 6 4 6 [] := (Option.some.inj hc).symm
    rw [this]
    rfl

theorem sib_lookup (v : TreeView) (cs : List Int) (D Y X P : Int) (yg xg ppg : BPlusTreePage)
    (hYX : Y ≠ X) (hYP : Y ≠ P) (hXP : X ≠ P) :
    (v.sib cs D Y X P yg xg ppg).pages Y = some yg ∧
    (v.sib cs D Y X P yg xg ppg).pages X = some xg ∧
    (v.sib cs D Y X P yg xg ppg).pages P = some ppg ∧
    ∀ q, q ≠ Y → q ≠ X → q ≠ P →
      (v.sib cs D Y X P yg xg ppg).pages q = reparent cs D v.pages q := by
  refine ⟨?_, ?_, ?_, ?_⟩
  · show Function.update (Function.update (Function.update _ Y _) X _) P _ Y = _
    rw [Function.update_noteq hYP, Function.update_noteq hYX, Function.update_same]
  · show Function.update (Function.update (Function.update _ Y _) X _) P _ X = _
    rw [Function.update_noteq hXP, Function.update_same]
  · show Function.update (Function.update (Function.update _ Y _) X _) P _ P = _
    rw [Function.update_same]
  · intro q h1 h2 h3
    show Function.update (Function.update (Function.update _ Y _) X _) P _ q = _
    rw [Function.update_noteq h3, Function.update_noteq h2, Function.update_noteq h1]

theorem SetKeyAt_children (pg : BPlusTreePage) (n : Nat) (k : KeyType) :
    (pg.SetKeyAt n k).array.map Prod.snd = pg.array.map Prod.snd := by
  show (pg.array.modify (fun e => (k, e.2)) n).map Prod.snd = _
  apply List.ext_getElem?
  intro i
  rw [List.getElem?_map, List.getElem?_map, List.getElem?_modify]
  cases pg.array[i]? with
  | none => rfl
  | some e =>
    by_cases h : n = i <;> simp [h]

theorem SetKeyAt_slot (pg : BPlusTreePage) (n : Nat) (k : KeyType) (e : KeyType × Int)
    (he : pg.array[n]? = some e) : (pg.SetKeyAt n k).array[n]? = some (k, e.2) := by
  show (pg.array.modify (fun e => (k, e.2)) n)[n]? = _
  rw [List.getElem?_modify, he]
  simp

theorem SetKeyAt_other (pg : BPlusTreePage) (n : Nat) (k : KeyType) (i : Nat) (hi : i ≠ n) :
    (pg.SetKeyAt n k).array[i]? = pg.array[i]? := by
  show (pg.array.modify (fun e => (k, e.2)) n)[i]? = _
  rw [List.getElem?_modify]
  have : ¬ n = i := fun h => hi h.symm
  simp only [if_neg this]
  cases pg.array[i]? <;> rfl

/-- C33: internal `Redistribute` moves one child and rotates the separator through the
parent.  With `p = j + 1` the parent slot of the right-hand page and `S` the old parent key
at `p`: (a) called with `index = -p` for the right sibling `R` (at least two entries), the
node gains `(S, child of R's slot 0)` as its last entry, `R` loses its slot 0, and the parent
key at `p` becomes `R`'s old key at slot 1; (b) called with `index = p` for the left sibling
`L` and a non-empty node, the node's entries shift right by one, its slot-0 child becomes
`L`'s old last child, its key at slot 1 becomes `S`, `L` loses its last entry, and the parent
key at `p` becomes `L`'s old last key.  In both cases the call returns, the moved child is its
old page with the parent id set to the node's id, the sizes change by +1 and -1, the parent
keeps its size, its child pointers and its other keys, no other page changes, and the pin
counts are as before. -/
theorem internal_redistribute (s : TState) (v : TreeView) (h : Multiset Int) (b : Bool)
    (P N : Int) (ng ppg cg : BPlusTreePage) (j : Nat) (ex : KeyType × Int)
    (hs : St s v h b) (hng : v.pages N = some ng) (hpp : v.pages P = some ppg)
    (hpar : ng.parent_page_id_ = P) (hid : ng.page_id_ = N)
    (hex : ppg.array[j + 1]? = some ex) (hNP : N ≠ P) :
    (∀ (R : Int) (rg : BPlusTreePage) (x0 x1 : KeyType × Int) (rest : List (KeyType × Int)),
      v.pages R = some rg → rg.array = x0 :: x1 :: rest → v.pages x0.2 = some cg →
      N ≠ R → R ≠ P → x0.2 ≠ N → x0.2 ≠ R → x0.2 ≠ P →
      ∃ t, (RedistributeInternal R N (-((j : Int) + 1))).run s = Res.ok () t ∧
        (∃ ng2, t.pages N = some ng2 ∧ ng2.array = ng.array ++ [(ex.1, x0.2)] ∧
          ng2.GetSize = ng.GetSize + 1) ∧
        (∃ rg2, t.pages R = some rg2 ∧ rg2.array = x1 :: rest ∧
          rg2.GetSize + 1 = rg.GetSize) ∧
        (∃ pp2, t.pages P = some pp2 ∧ pp2.array[j + 1]? = some (x1.1, ex.2) ∧
          (∀ i, i ≠ j + 1 → pp2.array[i]? = ppg.array[i]?) ∧
          pp2.GetSize = ppg.GetSize ∧ pp2.array.map Prod.snd = ppg.array.map Prod.snd) ∧
        t.pages x0.2 = some (cg.SetParentPageId N) ∧
        (∀ q, q ≠ N → q ≠ R → q ≠ P → q ≠ x0.2 → t.pages q = v.pages q) ∧
        (∀ q, t.pin q = s.pin q)) ∧
    (∀ (L : Int) (lg : BPlusTreePage) (W : List (KeyType × Int)) (yl n0 : KeyType × Int)
      (nt : List (KeyType × Int)),
      v.pages L = some lg → lg.array = W ++ [yl] → ng.array = n0 :: nt →
      v.pages yl.2 = some cg →
      L ≠ N → L ≠ P → yl.2 ≠ L → yl.2 ≠ N → yl.2 ≠ P →
      ∃ t, (RedistributeInternal L N ((j : Int) + 1)).run s = Res.ok () t ∧
        (∃ ng2, t.pages N = some ng2 ∧ ng2.array = (n0.1, yl.2) :: (ex.1, n0.2) :: nt ∧
          ng2.GetSize = ng.GetSize + 1) ∧
        (∃ lg2, t.pages L = some lg2 ∧ lg2.array = W ∧ lg2.GetSize + 1 = lg.GetSize) ∧
        (∃ pp2, t.pages P = some pp2 ∧ pp2.array[j + 1]? = some (yl.1, ex.2) ∧
          (∀ i, i ≠ j + 1 → pp2.array[i]? = ppg.array[i]?) ∧
          pp2.GetSize = ppg.GetSize ∧ pp2.array.map Prod.snd = ppg.array.map Prod.snd) ∧
        t.pages yl.2 = some (cg.SetParentPageId N) ∧
        (∀ q, q ≠ N → q ≠ L → q ≠ P → q ≠ yl.2 → t.pages q = v.pages q) ∧
        (∀ q, t.pin q = s.pin q)) := by
  constructor
  · intro R rg x0 x1 rest hrg hx hcg hNR hRP hcN hcR hcP
    obtain ⟨u, t, hrun, ht⟩ := @RedistributeInternal_specL s v h b P N R ng rg ppg cg j x0 x1 ex
      rest hs hng hrg hpp hcg hpar hid hx hex hNR hNP hRP hcN hcR hcP
      (fun _ t => St t (v.sib [x0.2] N N R P { ng with array := ng.array ++ [(ex.1, x0.2)] }
        { rg with array := rg.array.tail } (ppg.SetKeyAt (j + 1) x1.1)) h b) (fun t ht => ht)
    obtain ⟨h1, h2, h3, h4⟩ := sib_lookup v [x0.2] N N R P
      { ng with array := ng.array ++ [(ex.1, x0.2)] } { rg with array := rg.array.tail }
      (ppg.SetKeyAt (j + 1) x1.1) hNR hNP hRP
    rw [← view_pages ht.1] at h1 h2 h3 h4
    refine ⟨t, hrun, ⟨_, h1, rfl, ?_⟩, ⟨_, h2, by rw [hx]; rfl, ?_⟩,
      ⟨_, h3, SetKeyAt_slot _ _ _ _ hex, fun i hi => SetKeyAt_other _ _ _ _ hi, ?_,
        SetKeyAt_children _ _ _⟩, ?_, ?_, ?_⟩
    · show (ng.array ++ [(ex.1, x0.2)]).length = ng.array.length + 1
      simp
    · show rg.array.tail.length + 1 = rg.array.length
      rw [hx]
      rfl
    · exact length_SetKeyAt _ _ _
    · rw [h4 _ hcN hcR hcP]
      simp [reparent, hcg]
    · intro q q1 q2 q3 q4
      rw [h4 q q1 q2 q3]
      simp [reparent, q4]
    · intro q
      rw [ht.2.2.1 q, hs.2.2.1 q]
  · intro L lg W yl n0 nt hlg hy hn hcg hLN hLP hcL hcN hcP
    obtain ⟨u, t, hrun, ht⟩ := @RedistributeInternal_specR s v h b P L N lg ng ppg cg j yl ex W
      hs hlg hng hpp hcg hpar hid hy hex hLN hLP hNP hcL hcN hcP
      (fun _ t => St t (v.sib [yl.2] N L N P lg.DecreaseSize (intPushFront ng ex.1 yl.2)
        (ppg.SetKeyAt (j + 1) yl.1)) h b) (fun t ht => ht)
    obtain ⟨h1, h2, h3, h4⟩ := sib_lookup v [yl.2] N L N P lg.DecreaseSize
      (intPushFront ng ex.1 yl.2) (ppg.SetKeyAt (j + 1) yl.1) hLN hLP hNP
    rw [← view_pages ht.1] at h1 h2 h3 h4
    refine ⟨t, hrun, ⟨_, h2, intPushFront_array hn, ?_⟩, ⟨_, h1, ?_, ?_⟩,
      ⟨_, h3, SetKeyAt_slot _ _ _ _ hex, fun i hi => SetKeyAt_other _ _ _ _ hi, ?_,
        SetKeyAt_children _ _ _⟩, ?_, ?_, ?_⟩
    · show (intPushFront ng ex.1 yl.2).array.length = ng.array.length + 1
      rw [intPushFront_array hn, hn]
      rfl
    · show lg.array.dropLast = W
      rw [hy]
      simp
    · show lg.array.dropLast.length + 1 = lg.array.length
      rw [hy]
      simp
    · exact length_SetKeyAt _ _ _
    · rw [h4 _ hcL hcN hcP]
      simp [reparent, hcg]
    · intro q q1 q2 q3 q4
      rw [h4 q q2 q1 q3]
      simp [reparent, q4]
    · intro q
      rw [ht.2.2.1 q, hs.2.2.1 q]

theorem internal_redistribute_witness :
    ∃ t, (RedistributeInternal 6 3 (-(((0 : Nat) : Int) + 1))).run mergeState = Res.ok () t ∧
      (∃ ng2, t.pages 3 = some ng2 ∧ ng2.array = [(0, 1), (10, 2), (20, 4)]) ∧
      (∃ rg2, t.pages 6 = some rg2 ∧ rg2.array = [(30, 5)]) ∧
      (∃ pp2, t.pages 9 = some pp2 ∧ pp2.array[1]? = some (30, 6)) ∧
      t.pages 4 = some (internalPage 6 4 3 []) := by
  have hs : St mergeState mergeState.view 0 true :=
    ⟨rfl, rfl, fun p => by simp [mergeState], rfl⟩
  obtain ⟨t, hrun, ⟨n2, hn2, hn2a, _⟩, ⟨r2, hr2, hr2a, _⟩, ⟨p2, hp2, hp2a, _⟩, hc, _⟩ :=
    (internal_redistribute mergeState mergeState.view 0 true 9 3
      (internalPage 6 3 9 [(0, 1), (10, 2)]) (internalPage 6 9 INVALID_PAGE_ID [(0, 3), (20, 6)])
      (internalPage 6 4 6 []) 0 (20, 6) hs rfl rfl rfl rfl rfl (by decide)).1 6
      (internalPage 6 6 9 [(0, 4), (30, 5)]) (0, 4) (30, 5) [] rfl rfl rfl
      (by decide) (by decide) (by decide) (by decide) (by decide)
  exact ⟨t, hrun, ⟨n2, hn2, hn2a⟩, ⟨r2, hr2, hr2a⟩, ⟨p2, hp2, hp2a⟩, hc⟩

theorem SameData_refl (s : TState) : SameData s s :=
  ⟨Eq.refl _, Eq.refl _, Eq.refl _, Eq.refl _, Eq.refl _, Eq.refl _, Eq.refl _, Eq.refl _,
    Eq.refl _⟩

theorem SameData_trans {s t u : TState} (h1 : SameData s t) (h2 : SameData t u) :
    SameData s u := by
  obtain ⟨a1, a2, a3, a4, a5, a6, a7, a8, a9⟩ := h1
  obtain ⟨b1, b2, b3, b4, b5, b6, b7, b8, b9⟩ := h2
  exact ⟨b1.trans a1, b2.trans a2, b3.trans a3, b4.trans a4, b5.trans a5, b6.trans a6,
    b7.trans a7, b8.trans a8, b9.trans a9⟩

theorem heldOf_reverse (safe : page_id_t → Bool) :
    ∀ (path queue : List page_id_t),
      (heldOf safe queue path).reverse =
        if path.any safe then crabSet safe path else queue.reverse ++ path := by
  intro path
  induction path with
  | nil =>
    intro queue
    simp [heldOf]
  | cons p ps ih =>
    intro queue
    show (heldOf safe (if safe p then [p] else p :: queue) ps).reverse = _
    rw [ih]
    by_cases hps : ps.any safe = true
    · rw [if_pos hps]
      have h1 : (p :: ps).any safe = true := by
        rw [List.any_cons, hps, Bool.or_true]
      rw [if_pos h1]
      show _ = if ps.any safe then crabSet safe ps else p :: ps
      rw [if_pos hps]
    · rw [if_neg hps]
      have hps2 : ps.any safe = false := by simpa using hps
      by_cases hp : safe p = true
      · have h1 : (p :: ps).any safe = true := by
          rw [List.any_cons, hp, Bool.true_or]
        rw [if_pos hp, if_pos h1]
        show _ = if ps.any safe then crabSet safe ps else p :: ps
        rw [if_neg hps]
        rfl
      · have hp2 : safe p = false := by simpa using hp
        have h1 : ¬ (p :: ps).any safe = true := by
          rw [List.any_cons, hp2, hps2]
          simp
        rw [if_neg hp, if_neg h1]
        simp

theorem crabSet_facts (safe : page_id_t → Bool) :
    ∀ path : List page_id_t,
      (∃ above, path = above ++ crabSet safe path) ∧
      (∀ x ∈ (crabSet safe path).tail, safe x = false) ∧
      (path.any safe = true → ∃ p rest, crabSet safe path = p :: rest ∧ safe p = true) ∧
      (path.any safe = false → crabSet safe path = path) := by
  intro path
  induction path with
  | nil =>
    refine ⟨⟨[], rfl⟩, ?_, ?_, fun _ => rfl⟩
    · intro x hx
      cases hx
    · intro h
      cases h
  | cons p ps ih =>
    obtain ⟨⟨above, h1⟩, h2, h3, h4⟩ := ih
    by_cases hps : ps.any safe = true
    · have e : crabSet safe (p :: ps) = crabSet safe ps := by
        show (if ps.any safe then crabSet safe ps else p :: ps) = _
        rw [if_pos hps]
      rw [e]
      refine ⟨⟨p :: above, by rw [List.cons_append, ← h1]⟩, h2, fun _ => h3 hps, ?_⟩
      intro h
      rw [List.any_cons, hps, Bool.or_true] at h
      cases h
    · have hps2 : ps.any safe = false := by simpa using hps
      have e : crabSet safe (p :: ps) = p :: ps := by
        show (if ps.any safe then crabSet safe ps else p :: ps) = _
        rw [if_neg hps]
      rw [e]
      refine ⟨⟨[], rfl⟩, ?_, ?_, fun _ => rfl⟩
      · intro x hx
        have hx2 : x ∈ ps := hx
        have := List.any_eq_false.1 hps2 x hx2
        simpa using this
      · intro h
        rw [List.any_cons, hps2, Bool.or_false] at h
        exact ⟨p, ps, rfl, h⟩

theorem run_unlockRootIf (locked : Bool) (s : TState) :
    (unlockRootIf locked).run s =
      Res.ok () { s with root_mutex_ := if locked then false else s.root_mutex_ } := by
  cases locked <;> rfl

theorem count_cons_int (q x : page_id_t) (l : List page_id_t) :
    ((List.count q (x :: l) : Nat) : Int) =
      (List.count q l : Int) + (if q = x then 1 else 0) := by
  by_cases h : q = x
  · subst h
    rw [List.count_cons_self, if_pos rfl]
    push_cast
    rfl
  · rw [List.count_cons_of_ne h, if_neg h]
    simp

theorem count_single_int (q x : page_id_t) :
    ((List.count q [x] : Nat) : Int) = (if q = x then 1 else 0) := by
  rw [count_cons_int]
  simp

/-- The macro `QueueWUnlatchUnpin` on a page set whose pages are pinned: every page of the
set is unlatched and unpinned once. -/
theorem QueueWUnlatchUnpin_run (base wl : page_id_t → Int) (hbase : ∀ q, 0 ≤ base q) :
    ∀ (queue : List page_id_t) (s : TState),
      (∀ q, s.pin q = base q + (List.count q queue : Int)) →
      (∀ q, s.wlatch q = wl q + (List.count q queue : Int)) →
      ∃ t, (QueueWUnlatchUnpin queue).run s = Res.ok () t ∧ SameData s t ∧
        (∀ q, t.pin q = base q) ∧ (∀ q, t.wlatch q = wl q) ∧
        t.root_mutex_ = s.root_mutex_ := by
  intro queue
  induction queue with
  | nil =>
    intro s hp hw
    exact ⟨s, rfl, SameData_refl s, fun q => by simpa using hp q,
      fun q => by simpa using hw q, rfl⟩
  | cons x xs ih =>
    intro s hp hw
    have hpos : 0 < s.pin x := by
      have h1 := hp x
      rw [count_cons_int, if_pos rfl] at h1
      have h2 := hbase x
      have h3 : (0 : Int) ≤ (List.count x xs : Int) := Int.ofNat_nonneg _
      omega
    have hpos2 : 0 < ({ s with wlatch := Function.update s.wlatch x (s.wlatch x - 1) } :
        TState).pin x := hpos
    obtain ⟨t, hrun, hsame, htp, htw, htr⟩ := ih
      { s with
        wlatch := Function.update s.wlatch x (s.wlatch x - 1),
        pin := Function.update s.pin x (s.pin x - 1) }
      (by
        intro q
        have h1 := hp q
        rw [count_cons_int] at h1
        by_cases hq : q = x
        · subst hq
          rw [if_pos rfl] at h1
          show Function.update s.pin q (s.pin q - 1) q = _
          rw [Function.update_same]
          omega
        · rw [if_neg hq] at h1
          show Function.update s.pin x (s.pin x - 1) q = _
          rw [Function.update_noteq hq]
          omega)
      (by
        intro q
        have h1 := hw q
        rw [count_cons_int] at h1
        by_cases hq : q = x
        · subst hq
          rw [if_pos rfl] at h1
          show Function.update s.wlatch q (s.wlatch q - 1) q = _
          rw [Function.update_same]
          omega
        · rw [if_neg hq] at h1
          show Function.update s.wlatch x (s.wlatch x - 1) q = _
          rw [Function.update_noteq hq]
          omega)
    refine ⟨t, ?_, hsame, htp, htw, htr⟩
    show (WUnlatch x >>= fun _ => UnpinPage x false >>= fun _ =>
      QueueWUnlatchUnpin xs).run s = _
    have hw1 : (WUnlatch x).run s =
        Res.ok () { s with wlatch := Function.update s.wlatch x (s.wlatch x - 1) } := rfl
    rw [run_bind_ok hw1, run_bind_ok (run_UnpinPage_pos hpos2)]
    exact hrun

theorem crabWrite_succ (insert : Bool) (key : KeyType) (fuel : Nat) (page_id : page_id_t)
    (queue : List page_id_t) (root_locked : Bool) :
    crabWrite insert key (fuel + 1) page_id queue root_locked =
      (do
        let page_data ← getPage page_id
        if page_data.IsLeafPage then pure (page_id, queue, root_locked)
        else do
          let safe_ := if insert then page_data.IS_INSERT_SAFE else page_data.IS_DELETE_SAFE
          if safe_ then do
            QueueWUnlatchUnpin queue
            unlockRootIf root_locked
            let child ← TM.ofOption (page_data.LookupInternal key)
            FetchPage child
            WLatch child
            crabWrite insert key fuel child [page_id] false
          else do
            let child ← TM.ofOption (page_data.LookupInternal key)
            FetchPage child
            WLatch child
            crabWrite insert key fuel child (page_id :: queue) root_locked) := by
  rw [crabWrite]

/-- The write descent of `LatchCrabbingToLeaf` from page `p`, which is pinned and latched
as are the pages of the page set: it returns exactly when the path to a leaf exists, and
then the page set, the flag, the pins, the latches and the root lock are those the path
determines. -/
theorem crabWrite_run (insert : Bool) (key : KeyType) (pin0 wl0 : page_id_t → Int)
    (hpin0 : ∀ q, 0 ≤ pin0 q) :
    ∀ (fuel : Nat) (p : page_id_t) (queue : List page_id_t) (locked : Bool) (s : TState),
      (∀ q, s.pin q = pin0 q + (List.count q (p :: queue) : Int)) →
      (∀ q, s.wlatch q = wl0 q + (List.count q (p :: queue) : Int)) →
      (∀ path leaf, internalPath s.pages key fuel p = some (path, leaf) →
        ∃ t, (crabWrite insert key fuel p queue locked).run s =
            Res.ok (leaf, heldOf (safeAt s.pages insert) queue path,
              locked && !(path.any (safeAt s.pages insert))) t ∧
          SameData s t ∧
          (∀ q, t.pin q = pin0 q +
            (List.count q (leaf :: heldOf (safeAt s.pages insert) queue path) : Int)) ∧
          (∀ q, t.wlatch q = wl0 q +
            (List.count q (leaf :: heldOf (safeAt s.pages insert) queue path) : Int)) ∧
          t.root_mutex_ =
            (if (locked && path.any (safeAt s.pages insert)) = true then false
             else s.root_mutex_)) ∧
      (internalPath s.pages key fuel p = none →
        (crabWrite insert key fuel p queue locked).run s = Res.fault) := by
  intro fuel
  induction fuel with
  | zero =>
    intro p queue locked s _ _
    refine ⟨fun path leaf h => ?_, fun _ => rfl⟩
    have h0 : internalPath s.pages key 0 p = none := rfl
    rw [h0] at h
    cases h
  | succ fuel ih =>
    intro p queue locked s hp hw
    cases hpg : s.pages p with
    | none =>
      have hnone : internalPath s.pages key (fuel + 1) p = none := by
        simp [internalPath, hpg]
      refine ⟨fun path leaf h => ?_, fun _ => ?_⟩
      · rw [hnone] at h
        cases h
      · rw [crabWrite_succ]
        exact run_bind_fault _ (run_getPage_none hpg)
    | some pg =>
      by_cases hleaf : pg.IsLeafPage = true
      · have hpath : internalPath s.pages key (fuel + 1) p = some ([], p) := by
          simp [internalPath, hpg, hleaf]
        refine ⟨fun path leaf h => ?_, fun h => ?_⟩
        · rw [hpath] at h
          cases h
          refine ⟨s, ?_, SameData_refl s, hp, hw, ?_⟩
          · rw [crabWrite_succ]
            rw [run_bind_ok (run_getPage hpg), if_pos hleaf]
            simp [heldOf]
            rfl
          · simp
        · rw [hpath] at h
          cases h
      · -- the statements up to the lookup of the child
        have hsafeAt : safeAt s.pages insert p = safeFor insert pg := by
          simp [safeAt, hpg]
        obtain ⟨s2, hrun2, hsame2, hp2, hw2, hr2⟩ : ∃ s2,
            (crabWrite insert key (fuel + 1) p queue locked).run s =
              (TM.ofOption (pg.LookupInternal key) >>= fun child =>
                FetchPage child >>= fun _ => WLatch child >>= fun _ =>
                crabWrite insert key fuel child
                  (if safeFor insert pg then [p] else p :: queue)
                  (locked && !(safeFor insert pg))).run s2 ∧
            SameData s s2 ∧
            (∀ q, s2.pin q = pin0 q +
              (List.count q (if safeFor insert pg then [p] else p :: queue) : Int)) ∧
            (∀ q, s2.wlatch q = wl0 q +
              (List.count q (if safeFor insert pg then [p] else p :: queue) : Int)) ∧
            s2.root_mutex_ =
              (if (locked && safeFor insert pg) = true then false else s.root_mutex_) := by
          by_cases hsafe : safeFor insert pg = true
          · obtain ⟨t1, hq1, hs1, hp1, hw1, hr1⟩ := QueueWUnlatchUnpin_run
              (fun q => pin0 q + (List.count q [p] : Int))
              (fun q => wl0 q + (List.count q [p] : Int))
              (fun q => by
                show (0 : Int) ≤ pin0 q + (List.count q [p] : Int)
                have := hpin0 q
                have h3 : (0 : Int) ≤ (List.count q [p] : Int) := Int.ofNat_nonneg _
                omega) queue s
              (fun q => by
                show s.pin q = pin0 q + (List.count q [p] : Int) + (List.count q queue : Int)
                have h1 := hp q
                rw [count_cons_int] at h1
                rw [count_single_int]
                omega)
              (fun q => by
                show s.wlatch q =
                  wl0 q + (List.count q [p] : Int) + (List.count q queue : Int)
                have h1 := hw q
                rw [count_cons_int] at h1
                rw [count_single_int]
                omega)
            refine ⟨{ t1 with root_mutex_ := if locked then false else t1.root_mutex_ },
              ?_, hs1, ?_, ?_, ?_⟩
            · rw [crabWrite_succ]
              rw [run_bind_ok (run_getPage hpg), if_neg hleaf]
              have hs' : (if insert = true then pg.IS_INSERT_SAFE else pg.IS_DELETE_SAFE) =
                  true := hsafe
              simp only [hs', hsafe, if_true, Bool.not_true, Bool.and_false]
              show (QueueWUnlatchUnpin queue >>= fun _ => unlockRootIf locked >>= fun _ =>
                TM.ofOption (pg.LookupInternal key) >>= fun child =>
                FetchPage child >>= fun _ => WLatch child >>= fun _ =>
                crabWrite insert key fuel child [p] false).run s = _
              rw [run_bind_ok hq1, run_bind_ok (run_unlockRootIf locked t1)]
            · intro q
              rw [if_pos hsafe]
              exact hp1 q
            · intro q
              rw [if_pos hsafe]
              exact hw1 q
            · show (if locked then false else t1.root_mutex_) = _
              rw [hr1, hsafe, Bool.and_true]
          · have hsafe2 : safeFor insert pg = false := by simpa using hsafe
            refine ⟨s, ?_, SameData_refl s, ?_, ?_, ?_⟩
            · rw [crabWrite_succ]
              rw [run_bind_ok (run_getPage hpg), if_neg hleaf]
              have hs' : (if insert = true then pg.IS_INSERT_SAFE else pg.IS_DELETE_SAFE) =
                  false := hsafe2
              simp only [hs', hsafe2, Bool.false_eq_true, if_false, Bool.not_false,
                Bool.and_true]
            · intro q
              rw [hsafe2]
              exact hp q
            · intro q
              rw [hsafe2]
              exact hw q
            · rw [hsafe2]
              simp
        have hpages2 : s2.pages = s.pages := hsame2.2.2.2.1
        cases hlk : pg.LookupInternal key with
        | none =>
          have hnone : internalPath s.pages key (fuel + 1) p = none := by
            simp [internalPath, hpg, hleaf, hlk]
          refine ⟨fun path leaf h => ?_, fun _ => ?_⟩
          · rw [hnone] at h
            cases h
          · rw [hrun2, hlk]
            rfl
        | some c =>
          cases hc : s.pages c with
          | none =>
            have hnone : internalPath s.pages key (fuel + 1) p = none := by
              simp [internalPath, hpg, hleaf, hlk, hc]
            refine ⟨fun path leaf h => ?_, fun _ => ?_⟩
            · rw [hnone] at h
              cases h
            · rw [hrun2, hlk]
              show (FetchPage c >>= _).run s2 = _
              refine run_bind_fault _ ?_
              unfold FetchPage
              exact run_bind_fault _ (run_getPage_none (by rw [hpages2]; exact hc))
          | some cpg =>
            have hrec : internalPath s.pages key (fuel + 1) p =
                (internalPath s.pages key fuel c).map (fun r => (p :: r.1, r.2)) := by
              simp [internalPath, hpg, hleaf, hlk, hc]
            have hc2 : s2.pages c = some cpg := by rw [hpages2]; exact hc
            obtain ⟨s3, hrun3, hpg3, hsame3, hp3, hw3, hr3⟩ : ∃ s3,
                (crabWrite insert key (fuel + 1) p queue locked).run s =
                  (crabWrite insert key fuel c
                    (if safeFor insert pg then [p] else p :: queue)
                    (locked && !(safeFor insert pg))).run s3 ∧
                s3.pages = s.pages ∧ SameData s2 s3 ∧
                (∀ q, s3.pin q = pin0 q + (List.count q
                  (c :: (if safeFor insert pg then [p] else p :: queue)) : Int)) ∧
                (∀ q, s3.wlatch q = wl0 q + (List.count q
                  (c :: (if safeFor insert pg then [p] else p :: queue)) : Int)) ∧
                s3.root_mutex_ = s2.root_mutex_ := by
              refine ⟨{ s2 with
                pin := Function.update s2.pin c (s2.pin c + 1),
                wlatch := Function.update s2.wlatch c (s2.wlatch c + 1) }, ?_, hpages2,
                ⟨rfl, rfl, rfl, rfl, rfl, rfl, rfl, rfl, rfl⟩, ?_, ?_, rfl⟩
              · rw [hrun2, hlk]
                show (FetchPage c >>= _).run s2 = _
                rw [run_bind_ok (run_FetchPage hc2)]
                rfl
              · intro q
                rw [count_cons_int]
                have h1 := hp2 q
                by_cases hq : q = c
                · subst hq
                  show Function.update s2.pin q (s2.pin q + 1) q = _
                  rw [Function.update_same, if_pos rfl]
                  omega
                · show Function.update s2.pin c (s2.pin c + 1) q = _
                  rw [Function.update_noteq hq, if_neg hq]
                  omega
              · intro q
                rw [count_cons_int]
                have h1 := hw2 q
                by_cases hq : q = c
                · subst hq
                  show Function.update s2.wlatch q (s2.wlatch q + 1) q = _
                  rw [Function.update_same, if_pos rfl]
                  omega
                · show Function.update s2.wlatch c (s2.wlatch c + 1) q = _
                  rw [Function.update_noteq hq, if_neg hq]
                  omega
            obtain ⟨ihok, ihfault⟩ := ih c (if safeFor insert pg then [p] else p :: queue)
              (locked && !(safeFor insert pg)) s3 hp3 hw3
            rw [hpg3] at ihok ihfault
            refine ⟨fun path leaf h => ?_, fun h => ?_⟩
            · rw [hrec] at h
              cases hsub : internalPath s.pages key fuel c with
              | none =>
                rw [hsub] at h
                cases h
              | some r =>
                rw [hsub] at h
                cases h
                obtain ⟨t, hrun, hsame, hpt, hwt, hrt⟩ := ihok r.1 r.2 hsub
                have hheld : heldOf (safeAt s.pages insert) queue (p :: r.1) =
                    heldOf (safeAt s.pages insert)
                      (if safeFor insert pg then [p] else p :: queue) r.1 := by
                  show heldOf (safeAt s.pages insert)
                    (if safeAt s.pages insert p then [p] else p :: queue) r.1 = _
                  rw [hsafeAt]
                have hany : (p :: r.1).any (safeAt s.pages insert) =
                    (safeFor insert pg || r.1.any (safeAt s.pages insert)) := by
                  rw [List.any_cons, hsafeAt]
                refine ⟨t, ?_, SameData_trans hsame2 (SameData_trans hsame3 hsame), ?_, ?_,
                  ?_⟩
                · rw [hrun3, hrun, hheld, hany]
                  cases locked <;> cases safeFor insert pg <;>
                    cases r.1.any (safeAt s.pages insert) <;> rfl
                · intro q
                  rw [hheld]
                  exact hpt q
                · intro q
                  rw [hheld]
                  exact hwt q
                · rw [hrt, hany, hr3, hr2]
                  cases locked <;> cases safeFor insert pg <;>
                    cases r.1.any (safeAt s.pages insert) <;> simp
            · rw [hrec] at h
              cases hsub : internalPath s.pages key fuel c with
              | none =>
                rw [hrun3]
                exact ihfault hsub
              | some r =>
                rw [hsub] at h
                cases h

/-- The start of the insert and delete instantiations of `LatchCrabbingToLeaf` on a tree
that is not empty: the root lock is taken, the root is fetched and write-latched, and the
write descent starts with an empty page set. -/
theorem LatchCrabbing_write_start (insert : Bool) (key : KeyType) (s : TState)
    (hroot : s.root_page_id_ ≠ INVALID_PAGE_ID) :
    (s.pages s.root_page_id_ = none →
      (LatchCrabbingToLeaf
        (if insert then OPERATION_TYPE.INSERT_TRAVEL else OPERATION_TYPE.DELETE_TRAVEL)
        key).run s = Res.fault) ∧
    (∀ pg, s.pages s.root_page_id_ = some pg →
      ∃ s1, (LatchCrabbingToLeaf
          (if insert then OPERATION_TYPE.INSERT_TRAVEL else OPERATION_TYPE.DELETE_TRAVEL)
          key).run s =
          (crabWrite insert key (s.next_page_id_.toNat + 1) s.root_page_id_ [] true >>=
            fun r => pure (some r.1, r.2.1, r.2.2)).run s1 ∧
        s1.pages = s.pages ∧ SameData s s1 ∧ s1.root_mutex_ = true ∧
        (∀ q, s1.pin q = s.pin q + (List.count q [s.root_page_id_] : Int)) ∧
        (∀ q, s1.wlatch q = s.wlatch q + (List.count q [s.root_page_id_] : Int))) := by
  have hl : (lockRoot).run s = Res.ok () { s with root_mutex_ := true } := rfl
  have hg : (TM.get).run ({ s with root_mutex_ := true } : TState) =
      Res.ok ({ s with root_mutex_ := true } : TState) { s with root_mutex_ := true } := rfl
  have hne : ¬ ({ s with root_mutex_ := true } : TState).root_page_id_ = INVALID_PAGE_ID :=
    hroot
  constructor
  · intro hnone
    have hf : (FetchPage s.root_page_id_).run ({ s with root_mutex_ := true } : TState) =
        Res.fault := by
      unfold FetchPage
      exact run_bind_fault _ (run_getPage_none hnone)
    unfold LatchCrabbingToLeaf
    rw [run_bind_ok hl, run_bind_ok hg, if_neg hne]
    exact run_bind_fault _ hf
  · intro pg hpg
    have hf : (FetchPage s.root_page_id_).run ({ s with root_mutex_ := true } : TState) =
        Res.ok () { s with
          root_mutex_ := true,
          pin := Function.update s.pin s.root_page_id_ (s.pin s.root_page_id_ + 1) } :=
      run_FetchPage (s := { s with root_mutex_ := true }) hpg
    refine ⟨{ s with
        root_mutex_ := true,
        pin := Function.update s.pin s.root_page_id_ (s.pin s.root_page_id_ + 1),
        wlatch := Function.update s.wlatch s.root_page_id_
          (s.wlatch s.root_page_id_ + 1) }, ?_, rfl,
      ⟨rfl, rfl, rfl, rfl, rfl, rfl, rfl, rfl, rfl⟩, rfl, ?_, ?_⟩
    · unfold LatchCrabbingToLeaf
      rw [run_bind_ok hl, run_bind_ok hg, if_neg hne, run_bind_ok hf]
      cases insert <;> rfl
    · intro q
      rw [count_single_int]
      by_cases hq : q = s.root_page_id_
      · rw [hq]
        show Function.update s.pin s.root_page_id_ _ s.root_page_id_ = _
        rw [Function.update_same, if_pos rfl]
      · show Function.update s.pin s.root_page_id_ _ q = _
        rw [Function.update_noteq hq, if_neg hq]
        omega
    · intro q
      rw [count_single_int]
      by_cases hq : q = s.root_page_id_
      · rw [hq]
        show Function.update s.wlatch s.root_page_id_ _ s.root_page_id_ = _
        rw [Function.update_same, if_pos rfl]
      · show Function.update s.wlatch s.root_page_id_ _ q = _
        rw [Function.update_noteq hq, if_neg hq]
        omega

theorem internalPath_root_none (pages : page_id_t → Option BPlusTreePage) (key : KeyType)
    (fuel : Nat) (p : page_id_t) (h : pages p = none) : internalPath pages key fuel p = none := by
  cases fuel with
  | zero => rfl
  | succ fuel => simp [internalPath, h]

/-- C37: write-crabbing release.  On a tree that is not empty, with `path` the internal
pages from the root down to the parent of the leaf that `key` leads to, the insert and
delete instantiations of `LatchCrabbingToLeaf` return that leaf.  The page set holds, in
top-down order, the pages `held` of the path from the deepest page that was safe for the
operation on (all of the path if none was safe); the leaf and the pages of `held` have one
pin and one write latch more than before, every page of the path above `held` has the pins
and latches it had before (it was fetched and latched once and unlatched and unpinned
once), nothing else of the state changes, and the root lock is held, and reported as held,
iff no page of the path was safe.  When no such path exists the call does not return; in a
well-formed tree it exists. -/
theorem write_crabbing_release (insert : Bool) (key : KeyType) (s : TState)
    (hroot : s.root_page_id_ ≠ INVALID_PAGE_ID) (hpin : ∀ q, 0 ≤ s.pin q) :
    (∀ path leaf,
      internalPath s.pages key (s.next_page_id_.toNat + 1) s.root_page_id_ =
        some (path, leaf) →
      ∃ t above held,
        (LatchCrabbingToLeaf
          (if insert then OPERATION_TYPE.INSERT_TRAVEL else OPERATION_TYPE.DELETE_TRAVEL)
          key).run s =
          Res.ok (some leaf, held.reverse, !(path.any (safeAt s.pages insert))) t ∧
        path = above ++ held ∧ held = crabSet (safeAt s.pages insert) path ∧
        (∀ x ∈ held.tail, safeAt s.pages insert x = false) ∧
        (path.any (safeAt s.pages insert) = true →
          ∃ p rest, held = p :: rest ∧ safeAt s.pages insert p = true) ∧
        (path.any (safeAt s.pages insert) = false → above = [] ∧ held = path) ∧
        SameData s t ∧
        (∀ q, t.pin q = s.pin q + (List.count q (leaf :: held) : Int)) ∧
        (∀ q, t.wlatch q = s.wlatch q + (List.count q (leaf :: held) : Int)) ∧
        (∀ q ∈ above, q ∉ held → q ≠ leaf →
          t.pin q = s.pin q ∧ t.wlatch q = s.wlatch q) ∧
        t.root_mutex_ = !(path.any (safeAt s.pages insert))) ∧
    (internalPath s.pages key (s.next_page_id_.toNat + 1) s.root_page_id_ = none →
      (LatchCrabbingToLeaf
        (if insert then OPERATION_TYPE.INSERT_TRAVEL else OPERATION_TYPE.DELETE_TRAVEL)
        key).run s = Res.fault) ∧
    (∀ (v : TreeView) (G : Ghost) (E : Option Int) (h : Multiset Int) (b : Bool),
      St s v h b → Good v G E →
      ∃ path leaf,
        internalPath s.pages key (s.next_page_id_.toNat + 1) s.root_page_id_ =
          some (path, leaf)) := by
  obtain ⟨hstart0, hstart⟩ := LatchCrabbing_write_start insert key s hroot
  have hfault : internalPath s.pages key (s.next_page_id_.toNat + 1) s.root_page_id_ = none →
      (LatchCrabbingToLeaf
        (if insert then OPERATION_TYPE.INSERT_TRAVEL else OPERATION_TYPE.DELETE_TRAVEL)
        key).run s = Res.fault := by
    intro hnone
    cases hpg : s.pages s.root_page_id_ with
    | none => exact hstart0 hpg
    | some pg =>
      obtain ⟨s1, hrun1, hp1, _, _, hpin1, hwl1⟩ := hstart pg hpg
      have hcr := (crabWrite_run insert key s.pin s.wlatch hpin (s.next_page_id_.toNat + 1)
        s.root_page_id_ [] true s1 hpin1 hwl1).2
      rw [hp1] at hcr
      rw [hrun1]
      exact run_bind_fault _ (hcr hnone)
  refine ⟨?_, hfault, ?_⟩
  · intro path leaf hpath
    cases hpg : s.pages s.root_page_id_ with
    | none =>
      rw [internalPath_root_none _ _ _ _ hpg] at hpath
      cases hpath
    | some pg =>
      obtain ⟨s1, hrun1, hp1, hsame1, hr1, hpin1, hwl1⟩ := hstart pg hpg
      have hcr := (crabWrite_run insert key s.pin s.wlatch hpin (s.next_page_id_.toNat + 1)
        s.root_page_id_ [] true s1 hpin1 hwl1).1
      rw [hp1] at hcr
      obtain ⟨t, hrun, hsame, hpt, hwt, hrt⟩ := hcr path leaf hpath
      have hrev := heldOf_reverse (safeAt s.pages insert) path []
      obtain ⟨⟨above0, h1⟩, h2, h3, h4⟩ := crabSet_facts (safeAt s.pages insert) path
      have hheld : (heldOf (safeAt s.pages insert) [] path).reverse =
          crabSet (safeAt s.pages insert) path := by
        rw [hrev]
        by_cases hany : path.any (safeAt s.pages insert) = true
        · rw [if_pos hany]
        · rw [if_neg hany]
          have hany2 : path.any (safeAt s.pages insert) = false := by simpa using hany
          rw [h4 hany2]
          rfl
      have hq : heldOf (safeAt s.pages insert) [] path =
          (crabSet (safeAt s.pages insert) path).reverse := by
        rw [← hheld, List.reverse_reverse]
      have hcount : ∀ q, List.count q (leaf :: heldOf (safeAt s.pages insert) [] path) =
          List.count q (leaf :: crabSet (safeAt s.pages insert) path) := by
        intro q
        rw [hq, List.count_cons, List.count_cons, List.count_reverse]
      have hpt2 : ∀ q, t.pin q = s.pin q +
          (List.count q (leaf :: crabSet (safeAt s.pages insert) path) : Int) := by
        intro q
        rw [← hcount]
        exact hpt q
      have hwt2 : ∀ q, t.wlatch q = s.wlatch q +
          (List.count q (leaf :: crabSet (safeAt s.pages insert) path) : Int) := by
        intro q
        rw [← hcount]
        exact hwt q
      refine ⟨t, if path.any (safeAt s.pages insert) then above0 else [],
        crabSet (safeAt s.pages insert) path, ?_, ?_, rfl, h2, h3, ?_,
        SameData_trans hsame1 hsame, hpt2, hwt2, ?_, ?_⟩
      · rw [hrun1, run_bind_ok hrun, hq]
        show Res.ok (some leaf, (crabSet (safeAt s.pages insert) path).reverse,
          true && !(path.any (safeAt s.pages insert))) t = _
        rw [Bool.true_and]
      · by_cases hany : path.any (safeAt s.pages insert) = true
        · rw [if_pos hany]
          exact h1
        · have hany2 : path.any (safeAt s.pages insert) = false := by simpa using hany
          rw [if_neg hany, h4 hany2]
          rfl
      · intro hany
        rw [hany]
        exact ⟨rfl, h4 hany⟩
      · intro q _ hq1 hq2
        have c0 : List.count q (leaf :: crabSet (safeAt s.pages insert) path) = 0 := by
          rw [List.count_eq_zero]
          intro hmem
          rcases List.mem_cons.1 hmem with h | h
          · exact hq2 h
          · exact hq1 h
        have e1 := hpt2 q
        have e2 := hwt2 q
        rw [c0] at e1 e2
        simp only [Nat.cast_zero, add_zero] at e1 e2
        exact ⟨e1, e2⟩
      · rw [hrt, hr1]
        cases path.any (safeAt s.pages insert) <;> rfl
  · intro v G E h b hs hg
    have hr : v.root ≠ INVALID_PAGE_ID := by
      rw [← view_root hs.1]
      exact hroot
    obtain ⟨r, t, hrun, _⟩ := LatchCrabbing_write_spec insert key s hs hg hr
    cases hp : internalPath s.pages key (s.next_page_id_.toNat + 1) s.root_page_id_ with
    | none =>
      rw [hfault hp] at hrun
      cases hrun
    | some r => exact ⟨r.1, r.2, rfl⟩

theorem write_crabbing_release_witness :
    ∃ t, (LatchCrabbingToLeaf OPERATION_TYPE.DELETE_TRAVEL 7).run crabState =
        Res.ok (some 2, [3], false) t ∧
      t.pin 9 = 0 ∧ t.pin 3 = 1 ∧ t.pin 2 = 1 ∧ t.wlatch 9 = 0 ∧ t.wlatch 3 = 1 ∧
      t.root_mutex_ = false := by
  have hpath : internalPath crabState.pages 7 (crabState.next_page_id_.toNat + 1)
      crabState.root_page_id_ = some ([9, 3], 2) := by decide
  obtain ⟨t, above, held, hrun, _, hheld, _, _, _, _, hp, hw, _, hr⟩ :=
    (write_crabbing_release false 7 crabState (by decide) (fun q => le_refl _)).1 [9, 3] 2
      hpath
  have hh : held = [3] := by
    rw [hheld]
    decide
  subst hh
  have hany : List.any [9, 3] (safeAt crabState.pages false) = true := by decide
  rw [hany] at hrun hr
  refine ⟨t, hrun, ?_, ?_, ?_, ?_, ?_, hr⟩
  · rw [hp 9]
    decide
  · rw [hp 3]
    decide
  · rw [hp 2]
    decide
  · rw [hw 9]
    decide
  · rw [hw 3]
    decide

/-- C28 as stated fails for an iterator that `Begin(key)` hands out.  In the tree with the
leaves `[1, 2]` and `[4, 5]`, `Begin(3)` finds the first leaf (page 1, of size 2, whose
next page id is 2) and anchors the iterator at slot `KeyIndex(3) = 2`, the size of the
leaf.  `isEnd()` is false for this iterator, and `operator*` neither raises the error nor
returns an entry of the leaf: the leaf has no entry at slot 2, and the read goes past its
entries. -/
theorem iterator_end_deref_counterexample :
    resultOf (BPlusTree.Begin 3) gapTree = some { leaf_page_ := some 1, index_ := 2 } ∧
    ((stateAfter (BPlusTree.Begin 3) gapTree).pages 1).map
      (fun pg => (pg.array, pg.GetSize, pg.next_page_id_)) =
        some ([(1, 10), (2, 20)], 2, 2) ∧
    resultOf (IndexIterator.isEnd { leaf_page_ := some 1, index_ := 2 })
      (stateAfter (BPlusTree.Begin 3) gapTree) = some false ∧
    faults (IndexIterator.deref { leaf_page_ := some 1, index_ := 2 })
      (stateAfter (BPlusTree.Begin 3) gapTree) = true ∧
    ¬ (∃ kv t, (IndexIterator.deref { leaf_page_ := some 1, index_ := 2 }).run
      (stateAfter (BPlusTree.Begin 3) gapTree) = Res.ok kv t) ∧
    ¬ (∃ t, (IndexIterator.deref { leaf_page_ := some 1, index_ := 2 }).run
      (stateAfter (BPlusTree.Begin 3) gapTree) = Res.throw t) := by
  have hf : faults (IndexIterator.deref { leaf_page_ := some 1, index_ := 2 })
      (stateAfter (BPlusTree.Begin 3) gapTree) = true := by decide
  refine ⟨by decide, by decide, by decide, hf, ?_, ?_⟩
  · rintro ⟨kv, t, h⟩
    unfold faults at hf
    rw [h] at hf
    cases hf
  · rintro ⟨t, h⟩
    unfold faults at hf
    rw [h] at hf
    cases hf

theorem SameButParent_refl (x : Option BPlusTreePage) : SameButParent x x := rfl

theorem SameButParent_trans {x y z : Option BPlusTreePage} (h1 : SameButParent x y)
    (h2 : SameButParent y z) : SameButParent x z := Eq.trans h1 h2

theorem SameButParent_set (pg : BPlusTreePage) (U : Int) :
    SameButParent (some (pg.SetParentPageId U)) (some pg) := rfl

/-- Pages that agree up to the parent pointer: one is resident iff the other is, with the
same slots, identity and capacity. -/
theorem SameButParent_some {x : Option BPlusTreePage} {pg : BPlusTreePage}
    (h : SameButParent x (some pg)) :
    ∃ xg, x = some xg ∧ xg.array = pg.array ∧ xg.page_id_ = pg.page_id_ ∧
      xg.max_size_ = pg.max_size_ ∧ xg.page_type_ = pg.page_type_ := by
  cases x with
  | none => cases h
  | some xg =>
    have h1 : xg.SetParentPageId INVALID_PAGE_ID = pg.SetParentPageId INVALID_PAGE_ID :=
      Option.some.inj h
    have e1 : (xg.SetParentPageId INVALID_PAGE_ID).array =
        (pg.SetParentPageId INVALID_PAGE_ID).array := by rw [h1]
    have e2 : (xg.SetParentPageId INVALID_PAGE_ID).page_id_ =
        (pg.SetParentPageId INVALID_PAGE_ID).page_id_ := by rw [h1]
    have e3 : (xg.SetParentPageId INVALID_PAGE_ID).max_size_ =
        (pg.SetParentPageId INVALID_PAGE_ID).max_size_ := by rw [h1]
    have e4 : (xg.SetParentPageId INVALID_PAGE_ID).page_type_ =
        (pg.SetParentPageId INVALID_PAGE_ID).page_type_ := by rw [h1]
    exact ⟨xg, rfl, e1, e2, e3, e4⟩

theorem reparent_same (cs : List Int) (U : Int) (f : Int → Option BPlusTreePage) (p : Int) :
    SameButParent (reparent cs U f p) (f p) := by
  unfold reparent
  split
  · cases f p with
    | none => rfl
    | some pg => rfl
  · rfl

/-- The pages of the view after a new root was put over `old` and `new`. -/
theorem InsertFrame_newRoot {a : TreeView} {old new : Int} (key : KeyType)
    {pgo pgn : BPlusTreePage} (queue : List Int)
    (hpgo : a.pages old = some pgo) (hpgn : a.pages new = some pgn)
    (hidn : pgn.page_id_ = new) (holt : old < a.next) (hnlt : new < a.next) :
    InsertFrame a old key new queue (a.newRoot old key new pgo pgn).pages := by
  have hoN : old ≠ a.next := ne_of_lt holt
  have hnN : new ≠ a.next := ne_of_lt hnlt
  refine ⟨?_, ?_, ?_⟩
  · intro q hq _
    have hqN : q ≠ a.next := ne_of_lt hq
    by_cases h1 : q = new
    · subst h1
      simp only [TreeView.newRoot, Function.update_same, hpgn]
      exact SameButParent_set _ _
    · by_cases h2 : q = old
      · subst h2
        simp only [TreeView.newRoot, Function.update_noteq h1, Function.update_same, hpgo]
        exact SameButParent_set _ _
      · simp only [TreeView.newRoot, Function.update_noteq h1, Function.update_noteq h2,
          Function.update_noteq hqN]
        rfl
  · intro q hq h2 h1 _ _
    have hqN : q ≠ a.next := ne_of_lt hq
    simp only [TreeView.newRoot, Function.update_noteq h1, Function.update_noteq h2,
      Function.update_noteq hqN]
  · refine ⟨pgn.SetParentPageId a.next, rootPage a.next a.imax pgo.page_id_ key pgn.page_id_,
      ?_, ?_, ?_⟩
    · simp only [TreeView.newRoot, Function.update_same]
    · show (a.newRoot old key new pgo pgn).pages a.next = _
      simp only [TreeView.newRoot, Function.update_noteq hnN.symm,
        Function.update_noteq hoN.symm, Function.update_same]
    · rw [hidn]
      simp [rootPage, BPlusTreePage.PopulateNewRoot]

/-- The pages of the view after the pair was put into a parent that had room. -/
theorem InsertFrame_safe {a : TreeView} {old new P : Int} {key : KeyType}
    {ppg pgn : BPlusTreePage} (i : Nat) (rest : List Int)
    (hpgn : a.pages new = some pgn) (hnP : new ≠ P) (hpar : pgn.parent_page_id_ = P) :
    InsertFrame a old key new (P :: rest)
      (a.setPage P (ppg.InsertNodeAfterAt i key new)).pages := by
  refine ⟨?_, ?_, ?_⟩
  · intro q _ hq
    have hqP : q ≠ P := fun h => hq (by rw [h]; exact List.mem_cons_self _ _)
    simp only [TreeView.setPage, Function.update_noteq hqP]
    rfl
  · intro q _ _ _ hq _
    have hqP : q ≠ P := fun h => hq (by rw [h]; exact List.mem_cons_self _ _)
    simp only [TreeView.setPage, Function.update_noteq hqP]
  · refine ⟨pgn, ppg.InsertNodeAfterAt i key new, ?_, ?_, ?_⟩
    · simp only [TreeView.setPage, Function.update_noteq hnP, hpgn]
    · rw [hpar]
      simp only [TreeView.setPage, Function.update_same]
    · simp [BPlusTreePage.InsertNodeAfterAt]

/-- A page of the view after the split of the internal page `P`: it is the lower part of
`P`, or the new page holding the upper part, or a page that was there before, with its
slots. -/
theorem splitInt_page_cases {a : TreeView} {P : Int} {V : BPlusTreePage} {p : Int}
    {pg : BPlusTreePage} (h : ((a.setPage P V).splitInt P V).pages p = some pg) :
    (p = P ∧ pg.array = V.array.take V.GetMinSize) ∨
    (p ≠ P ∧ p = a.next ∧ pg.array = V.array.drop V.GetMinSize) ∨
    (p ≠ P ∧ p ≠ a.next ∧ ∃ pg0, a.pages p = some pg0 ∧ pg.array = pg0.array) := by
  obtain ⟨pg0, h0, harr, _⟩ := reparent_some h
  by_cases hP : p = P
  · subst hP
    rw [Function.update_same] at h0
    cases h0
    exact Or.inl ⟨rfl, harr⟩
  · by_cases hN : p = a.next
    · subst hN
      have h1 : (a.setPage P V).next = a.next := rfl
      rw [Function.update_noteq hP, h1, Function.update_same] at h0
      cases h0
      exact Or.inr (Or.inl ⟨hP, rfl, harr⟩)
    · have h1 : (a.setPage P V).next = a.next := rfl
      rw [Function.update_noteq hP, h1, Function.update_noteq hN] at h0
      have h2 : (a.setPage P V).pages p = a.pages p := by
        simp only [TreeView.setPage, Function.update_noteq hP]
      rw [h2] at h0
      exact Or.inr (Or.inr ⟨hP, hN, pg0, h0, harr⟩)

/-- A page that the split of `P` does not create, cut or hand over is as before. -/
theorem splitInt_page_same {a : TreeView} {P : Int} {V : BPlusTreePage} {q : Int}
    (hP : q ≠ P) (hN : q ≠ a.next) (hm : q ∉ movedOf V) :
    ((a.setPage P V).splitInt P V).pages q = a.pages q := by
  show reparent (movedOf V) (a.setPage P V).next _ q = _
  unfold reparent
  rw [if_neg hm, Function.update_noteq hP]
  have h1 : (a.setPage P V).next = a.next := rfl
  rw [h1, Function.update_noteq hN]
  simp only [TreeView.setPage, Function.update_noteq hP]

/-- A page handed over in the split of `P` has the new page as its parent afterwards. -/
theorem splitInt_page_moved {a : TreeView} {P : Int} {V : BPlusTreePage} {q : Int}
    {qg : BPlusTreePage} (hP : q ≠ P) (hN : q ≠ a.next) (hm : q ∈ movedOf V)
    (hq : a.pages q = some qg) :
    ((a.setPage P V).splitInt P V).pages q = some (qg.SetParentPageId a.next) := by
  show reparent (movedOf V) (a.setPage P V).next _ q = _
  unfold reparent
  rw [if_pos hm, Function.update_noteq hP]
  have h1 : (a.setPage P V).next = a.next := rfl
  rw [h1, Function.update_noteq hN]
  simp only [TreeView.setPage, Function.update_noteq hP, hq]
  rfl

/-- Up to the parent pointer, the split of `P` changes the page `P` and creates the new
page only. -/
theorem splitInt_page_core {a : TreeView} {P : Int} {V : BPlusTreePage} {q : Int}
    (hP : q ≠ P) (hN : q ≠ a.next) :
    SameButParent (((a.setPage P V).splitInt P V).pages q) (a.pages q) := by
  have h := reparent_same (movedOf V) (a.setPage P V).next
    (Function.update (Function.update (a.setPage P V).pages (a.setPage P V).next
      (some (intHigh V (a.setPage P V).next (a.setPage P V).imax))) P (some (intLow V))) q
  have h1 : (a.setPage P V).next = a.next := rfl
  rw [Function.update_noteq hP, h1, Function.update_noteq hN] at h
  have h2 : (a.setPage P V).pages q = a.pages q := by
    simp only [TreeView.setPage, Function.update_noteq hP]
  rw [h2] at h
  exact h

theorem splitInt_page_low {a : TreeView} {P : Int} {V : BPlusTreePage}
    (hm : P ∉ movedOf V) : ((a.setPage P V).splitInt P V).pages P = some (intLow V) := by
  show reparent (movedOf V) (a.setPage P V).next _ P = _
  unfold reparent
  rw [if_neg hm, Function.update_same]

theorem splitInt_page_high {a : TreeView} {P : Int} {V : BPlusTreePage}
    (hPN : P ≠ a.next) (hm : a.next ∉ movedOf V) :
    ((a.setPage P V).splitInt P V).pages a.next = some (intHigh V a.next a.imax) := by
  show reparent (movedOf V) (a.setPage P V).next _ a.next = _
  unfold reparent
  rw [if_neg hm, Function.update_noteq hPN.symm]
  have h1 : (a.setPage P V).next = a.next := rfl
  rw [h1, Function.update_same]
  rfl

/-- The children of a page with a pair put in are the new child and the old children. -/
theorem slot_of_InsertNodeAfterAt {pg : BPlusTreePage} {i : Nat} {key : KeyType} {new : Int}
    {y : KeyType × Int} (hy : y ∈ (pg.InsertNodeAfterAt i key new).array) :
    y = (key, new) ∨ y ∈ pg.array := by
  have hy' : y ∈ pg.array.take (i + 1) ++ (key, new) :: pg.array.drop (i + 1) := hy
  rcases List.mem_append.1 hy' with h | h
  · exact Or.inr (List.mem_of_mem_take h)
  · rcases List.mem_cons.1 h with h | h
    · exact Or.inl h
    · exact Or.inr (List.mem_of_mem_drop h)

/-- The children of an internal page are neither in the page set above the page nor
children of a page in it. -/
theorem kids_apart {t : TreeView} {G : Ghost} {P : Int} {V : BPlusTreePage}
    {rest : List Int} (hg : Good t G none) (hP : G.live P) (hl : G.lvl P ≠ 0)
    (hV : t.pages P = some V) (hpath : PathQ t G true P rest) :
    P ∉ rest ∧ ∀ y ∈ V.array, G.live y.2 ∧ G.par y.2 = P ∧ y.2 ≠ P ∧ y.2 ∉ rest ∧
      ∀ p ∈ rest, ∀ pg, t.pages p = some pg → y.2 ∉ pg.array.map Prod.snd := by
  have hlv := PathQ_lvl rest P hpath
  have hPr : P ∉ rest := fun h => absurd (hlv P h).2 (lt_irrefl _)
  refine ⟨hPr, ?_⟩
  intro y hy
  obtain ⟨pgP, hpgP, hgoodP⟩ := hg.page P hP
  rw [hV] at hpgP
  cases hpgP
  obtain ⟨c1, c2, c3, _⟩ := Seg_child (hgoodP.int_seg hl) y hy
  refine ⟨c1, c2, fun h => by rw [h] at c3; omega, ?_, ?_⟩
  · intro h
    have := (hlv y.2 h).2
    omega
  · intro p hp pg hpg hmem
    obtain ⟨hpl, hplv⟩ := hlv p hp
    obtain ⟨pg1, hpg1, hgoodp⟩ := hg.page p hpl
    rw [hpg] at hpg1
    cases hpg1
    obtain ⟨z, hz, hzy⟩ := List.mem_map.1 hmem
    obtain ⟨_, d2, _, _⟩ := Seg_child (hgoodp.int_seg (by omega)) z hz
    rw [hzy, c2] at d2
    exact hPr (d2 ▸ hp)

/-- The frame of the split branch of `InsertIntoParent`, from the frame of the recursive
call. -/
theorem InsertFrame_split {a : TreeView} {old new P : Int} {key : KeyType}
    {ppg pgn V : BPlusTreePage} {rest : List Int} {k2 : KeyType}
    {u : Int → Option BPlusTreePage}
    (hpp : a.pages P = some ppg) (hpgn : a.pages new = some pgn)
    (hpar : pgn.parent_page_id_ = P) (hPlt : P < a.next) (hnlt : new < a.next)
    (hrlt : ∀ q ∈ rest, q < a.next) (hnP : new ≠ P)
    (hmem : (key, new) ∈ V.array) (hVch : ∀ y ∈ V.array, y = (key, new) ∨ y ∈ ppg.array)
    (hnd : (V.array.map Prod.snd).Nodup)
    (hPm : P ∉ movedOf V) (hNm : a.next ∉ movedOf V)
    (hPr : P ∉ rest) (hnr : new ∉ rest)
    (hkid : ∀ p ∈ rest, ∀ pg, a.pages p = some pg → new ∉ pg.array.map Prod.snd)
    (hIH : InsertFrame ((a.setPage P V).splitInt P V) P k2 a.next rest u) :
    InsertFrame a old key new (P :: rest) u := by
  obtain ⟨hA, hB, _⟩ := hIH
  have hnext : ((a.setPage P V).splitInt P V).next = a.next + 1 := rfl
  have hPN : P ≠ a.next := ne_of_lt hPlt
  have hnN : new ≠ a.next := ne_of_lt hnlt
  have hNr : a.next ∉ rest := fun h => absurd (hrlt _ h) (lt_irrefl _)
  -- the slots a page of the page set has after the split come from the tree before
  have hsub : ∀ q, q ≠ new → q ∉ ppg.array.map Prod.snd →
      (∀ p ∈ rest, ∀ pg, a.pages p = some pg → q ∉ pg.array.map Prod.snd) →
      ∀ p ∈ rest, ∀ pg, ((a.setPage P V).splitInt P V).pages p = some pg →
        q ∉ pg.array.map Prod.snd := by
    intro q hqn hqp hqr p hp pg hpg hmem2
    obtain ⟨z, hz, hzq⟩ := List.mem_map.1 hmem2
    have hzV : z ∈ V.array → False := by
      intro hzv
      rcases hVch z hzv with h | h
      · rw [h] at hzq
        exact hqn hzq.symm
      · exact hqp (List.mem_map.2 ⟨z, h, hzq⟩)
    rcases splitInt_page_cases hpg with ⟨_, harr⟩ | ⟨_, _, harr⟩ | ⟨_, _, pg0, hpg0, harr⟩
    · rw [harr] at hz
      exact hzV (List.mem_of_mem_take hz)
    · rw [harr] at hz
      exact hzV (List.mem_of_mem_drop hz)
    · rw [harr] at hz
      exact hqr p hp pg0 hpg0 (List.mem_map.2 ⟨z, hz, hzq⟩)
  refine ⟨?_, ?_, ?_⟩
  · intro q hq hqq
    have hqP : q ≠ P := fun h => hqq (by rw [h]; exact List.mem_cons_self _ _)
    have hqr : q ∉ rest := fun h => hqq (List.mem_cons_of_mem _ h)
    exact SameButParent_trans (hA q (by rw [hnext]; omega) hqr)
      (splitInt_page_core hqP (ne_of_lt hq))
  · intro q hq hqo hqn hqq hkids
    have hqP : q ≠ P := fun h => hqq (by rw [h]; exact List.mem_cons_self _ _)
    have hqr : q ∉ rest := fun h => hqq (List.mem_cons_of_mem _ h)
    have hqp : q ∉ ppg.array.map Prod.snd := hkids P (List.mem_cons_self _ _) ppg hpp
    have hqm : q ∉ movedOf V := by
      intro hm
      obtain ⟨z, hz, hzq⟩ := List.mem_map.1 hm
      rcases hVch z (List.mem_of_mem_drop hz) with h | h
      · rw [h] at hzq
        exact hqn hzq.symm
      · exact hqp (List.mem_map.2 ⟨z, h, hzq⟩)
    rw [hB q (by rw [hnext]; omega) hqP (ne_of_lt hq) hqr
      (hsub q hqn hqp (fun p hp => hkids p (List.mem_cons_of_mem _ hp)))]
    exact splitInt_page_same hqP (ne_of_lt hq) hqm
  · -- the page `new` is out of reach of the recursive call
    have hnew : u new = ((a.setPage P V).splitInt P V).pages new := by
      refine hB new (by rw [hnext]; omega) hnP hnN hnr ?_
      intro p hp pg hpg
      rcases splitInt_page_cases hpg with ⟨h1, _⟩ | ⟨_, h1, _⟩ | ⟨_, _, pg0, hpg0, harr⟩
      · exact absurd (h1 ▸ hp) hPr
      · exact absurd (h1 ▸ hp) hNr
      · rw [harr]
        exact hkid p hp pg0 hpg0
    by_cases hm : new ∈ movedOf V
    · have h1 := splitInt_page_moved (V := V) hnP hnN hm hpgn
      have h2 := hA a.next (by rw [hnext]; omega) hNr
      rw [splitInt_page_high hPN hNm] at h2
      obtain ⟨wpg, hw, harr, _⟩ := SameButParent_some h2
      refine ⟨pgn.SetParentPageId a.next, wpg, by rw [hnew, h1], hw, ?_⟩
      rw [harr]
      show (key, new) ∈ V.array.drop V.GetMinSize
      obtain ⟨z, hz, hzn⟩ := List.mem_map.1 hm
      have hsplit := hnd
      rw [← List.take_append_drop V.GetMinSize V.array, List.map_append,
        List.nodup_append] at hsplit
      rw [← List.take_append_drop V.GetMinSize V.array, List.mem_append] at hmem
      rcases hmem with h | h
      · exact absurd (List.mem_map.2 ⟨z, hz, hzn⟩)
          (hsplit.2.2 (List.mem_map.2 ⟨(key, new), h, rfl⟩))
      · exact h
    · have h1 := splitInt_page_same (a := a) (V := V) hnP hnN hm
      have h2 := hA P (by rw [hnext]; omega) hPr
      rw [splitInt_page_low hPm] at h2
      obtain ⟨wpg, hw, harr, _⟩ := SameButParent_some h2
      refine ⟨pgn, wpg, by rw [hnew, h1, hpgn], by rw [hpar]; exact hw, ?_⟩
      rw [harr]
      show (key, new) ∈ V.array.take V.GetMinSize
      rw [← List.take_append_drop V.GetMinSize V.array, List.mem_append] at hmem
      rcases hmem with h | h
      · exact h
      · exact absurd (List.mem_map.2 ⟨(key, new), h, rfl⟩) hm

theorem wp_UnpinPage_pages {p : page_id_t} {d : Bool} {Q : Bool → TState → Prop} {s : TState}
    (hq : ∀ r t, t.pages = s.pages → Q r t) : wp (UnpinPage p d) Q s := by
  obtain ⟨r, t, hrun, hp⟩ := run_UnpinPage_pages p d s
  exact ⟨r, t, hrun, hq r t hp⟩

/-- Method `InsertIntoParent`, what it leaves of the pages: see `InsertFrame`. -/
theorem InsertIntoParent_frame (S : KeyType → ValueType → Prop) :
    ∀ (queue : List Int) (old : Int) (key : KeyType) (new : Int) (s : TState) (a : TreeView)
      (G : Ghost) (h : Multiset Int) (b : Bool),
      St s a (new ::ₘ old ::ₘ ((queue : Multiset Int) + h)) b → (∀ p ∈ h, p < a.next) →
      Pend a G S old key new queue →
      wp (InsertIntoParent old key new queue)
        (fun _ t => InsertFrame a old key new queue t.pages) s := by
  intro queue
  induction queue with
  | nil =>
    intro old key new s a G h b hs hh hp
    obtain ⟨pgo, pgn, hpgo, hpgn, hido, hidn, hon, holt, hnlt, hql, hnn, hcase⟩ := hp
    have hheld : a.next ∉ new ::ₘ old ::ₘ ((([] : List Int) : Multiset Int) + h) := by
      apply not_mem_of_lt
      intro p hp
      simp only [Multiset.mem_cons, Multiset.mem_add, Multiset.mem_coe] at hp
      rcases hp with rfl | rfl | hp | hp
      · exact hnlt
      · exact holt
      · exact hql p hp
      · exact hh p hp
    unfold InsertIntoParent
    apply wp_bind_of
    apply wp_getPage_st hs hpgo
    rcases hcase with ⟨hroot, hgood, hst⟩ | ⟨_, P, rest, _, _, _, hq, _⟩
    · rw [if_pos hroot]
      apply wp_bind_of
      apply InsertIntoParentRoot_spec hs hheld hpgo hpgn hon (ne_of_lt holt) (ne_of_lt hnlt)
      intro t1 h1
      rw [wp_pure, view_pages h1.1]
      exact InsertFrame_newRoot key [] hpgo hpgn hidn holt hnlt
    · cases hq
  | cons parent_page rest ih =>
    intro old key new s a G h b hs hh hp
    obtain ⟨pgo, pgn, hpgo, hpgn, hido, hidn, hon, holt, hnlt, hql, hnn, hcase⟩ := hp
    have hheld : a.next ∉ new ::ₘ old ::ₘ
        (((parent_page :: rest : List Int) : Multiset Int) + h) := by
      apply not_mem_of_lt
      intro p hp
      simp only [Multiset.mem_cons, Multiset.mem_add, Multiset.mem_coe] at hp
      rcases hp with rfl | rfl | hp | hp
      · exact hnlt
      · exact holt
      · exact hql p hp
      · exact hh p hp
    unfold InsertIntoParent
    apply wp_bind_of
    apply wp_getPage_st hs hpgo
    rcases hcase with ⟨hroot, hgood, hst⟩ |
      ⟨hroot, P, rest1, ppg, i, f, hq, hpp, hi, hf, hgood, hst, hPl, hPlvl, hnl, hnp, htail⟩
    · rw [if_pos hroot]
      apply wp_bind_of
      apply InsertIntoParentRoot_spec hs hheld hpgo hpgn hon (ne_of_lt holt) (ne_of_lt hnlt)
      intro t1 h1
      rw [wp_pure, view_pages h1.1]
      exact InsertFrame_newRoot key (parent_page :: rest) hpgo hpgn hidn holt hnlt
    · rw [if_neg (by rw [hroot]; decide)]
      cases hq
      obtain ⟨hvgood, hnd, hnew, hvi, hch⟩ := Pend_parent_facts hgood hPl hPlvl hi
      have hidp : ppg.page_id_ = parent_page := hvgood.id
      have hmemV : (key, new) ∈ (ppg.InsertNodeAfterAt i key new).array := by
        simp [BPlusTreePage.InsertNodeAfterAt]
      have hnP : new ≠ parent_page := (hch _ hmemV).2.1
      have hpar : pgn.parent_page_id_ = parent_page := by
        obtain ⟨pg1, hpg1, hgood1⟩ := hgood.page new hnl
        have e1 : (a.setPage parent_page (ppg.InsertNodeAfterAt i key new)).pages new =
            some pgn := by
          simp only [TreeView.setPage, Function.update_noteq hnP, hpgn]
        rw [e1] at hpg1
        cases hpg1
        rw [hgood1.parent, hnp]
      apply wp_bind_of
      apply wp_getPage_st hs hpp
      apply wp_bind_of
      apply wp_getPage_st hs hpgn
      simp only
      by_cases hsafe : ppg.IS_INSERT_SAFE = true
      · rw [if_pos hsafe]
        apply wp_bind_of
        rw [wp_ofOption]
        refine ⟨ppg.InsertNodeAfterAt i key new, ?_, ?_⟩
        · unfold BPlusTreePage.InsertNodeAfter
          rw [hido, hidn, ← hf, hvi]
          rfl
        · apply wp_bind_of
          apply wp_modifyPage_st hs hpp
          intro t1 h1
          apply wp_bind_of
          apply wp_WUnlatch_st h1
          intro t2 h2
          apply wp_bind_of
          apply wp_UnpinPage_pages
          intro r3 t3 h3
          rw [wp_pure, h3, view_pages h2.1]
          exact InsertFrame_safe i rest hpgn hnP hpar
      · rw [if_neg hsafe]
        have hpath : PathQ (a.setPage parent_page (ppg.InsertNodeAfterAt i key new)) G true
            parent_page rest := by
          rcases htail with ⟨hs1, _⟩ | hpath
          · exact absurd hs1 hsafe
          · exact hpath
        apply wp_bind_of
        apply InsertIntoParentSplit_spec hs hheld hido hidn hpp hi hf hgood hPl hPlvl hsafe
        intro t1 e e2 he he2 hm2 h1
        obtain ⟨H, hpend⟩ := Pend_splitInt hgood hst hPl hPlvl
          (by simp [TreeView.setPage]) hm2 he he2 hpath
        apply wp_bind_of
        simp only
        rw [held_rearrange] at h1
        have hh2 : ∀ p ∈ new ::ₘ old ::ₘ h,
            p < ((a.setPage parent_page (ppg.InsertNodeAfterAt i key new)).splitInt parent_page
              (ppg.InsertNodeAfterAt i key new)).next := by
          intro p hp
          show p < a.next + 1
          simp only [Multiset.mem_cons] at hp
          rcases hp with rfl | rfl | hp
          · exact lt_trans hnlt (lt_add_one _)
          · exact lt_trans holt (lt_add_one _)
          · exact lt_trans (hh p hp) (lt_add_one _)
        refine wp_mono (ih parent_page e.1 a.next t1 _ H (new ::ₘ old ::ₘ h) b h1 hh2 hpend) ?_
        intro r t2 hframe
        apply wp_bind_of
        apply wp_UnpinPage_pages
        intro r3 t3 h3
        apply wp_bind_of
        apply wp_UnpinPage_pages
        intro r4 t4 h4
        rw [wp_pure, h4, h3]
        have hVP : (a.setPage parent_page (ppg.InsertNodeAfterAt i key new)).pages parent_page =
            some (ppg.InsertNodeAfterAt i key new) := by simp [TreeView.setPage]
        obtain ⟨hPr, hkids⟩ := kids_apart hgood hPl hPlvl hVP hpath
        obtain ⟨_, _, _, hnr, hkn⟩ := hkids _ hmemV
        have hPm : parent_page ∉ movedOf (ppg.InsertNodeAfterAt i key new) := by
          intro h0
          obtain ⟨y, hy, hyP⟩ := List.mem_map.1 h0
          exact (hch y (List.mem_of_mem_drop hy)).2.1 hyP
        have hNm : a.next ∉ movedOf (ppg.InsertNodeAfterAt i key new) := by
          intro h0
          obtain ⟨y, hy, hyP⟩ := List.mem_map.1 h0
          exact (hch y (List.mem_of_mem_drop hy)).2.2.1 hyP
        refine InsertFrame_split hpp hpgn hpar (hql _ (List.mem_cons_self _ _)) hnlt
          (fun q hq => hql q (List.mem_cons_of_mem _ hq)) hnP hmemV
          (fun y hy => slot_of_InsertNodeAfterAt hy) (Seg_nodup _ (hvgood.int_seg hPlvl))
          hPm hNm hPr hnr ?_ hframe
        intro p hp pg hpg
        have hpP : p ≠ parent_page := fun h0 => hPr (h0 ▸ hp)
        exact hkn p hp pg (by simp only [TreeView.setPage, Function.update_noteq hpP, hpg])

/-- C30: the split of a full parent in `InsertIntoParent`.  Let a split be pending in a
well-formed tree (`Pend`: the page `new` was split off `old`, and with the pair
`(key, new)` recorded behind the slot of `old` in the parent `P` of `old` the tree
satisfies the invariant: distinct children, keys within their bounds; the page set holds
the ancestors the descent kept), let `old` not be the root and let `P` be full, with the
slots `E`.  Then `InsertIntoParent(old, key, new)` returns, having created the page `U`,
and in the state it returns in: the slots of `P` followed by the slots of `U` are `E`
with `(key, new)` placed right behind the slot of `old`; `P` holds exactly `min_size`
slots; every page `U` points to has the parent pointer `U` and every page `P` points to
has the parent pointer `P`; and the key passed up is the key `k2` in slot 0 of `U`: the
call ends with the recursive call `InsertIntoParent(P, k2, U)`, and the pair `(k2, U)` is
a slot of the page that `U` has as its parent. -/
theorem full_parent_split (S : KeyType → ValueType → Prop) (s : TState) (a : TreeView)
    (G : Ghost) (h : Multiset Int) (b : Bool) (old new P : Int) (key : KeyType)
    (rest : List page_id_t) (pgo pgn ppg : BPlusTreePage)
    (hs : St s a (new ::ₘ old ::ₘ (((P :: rest : List Int) : Multiset Int) + h)) b)
    (hh : ∀ p ∈ h, p < a.next) (hp : Pend a G S old key new (P :: rest))
    (hold : a.pages old = some pgo) (hnr : pgo.IsRootPage = false)
    (hnew : a.pages new = some pgn) (hpp : a.pages P = some ppg)
    (hfull : ppg.GetSize = ppg.GetMaxSize) :
    ∃ (i : Nat) (k2 : KeyType) (t1 : TState) (r : List page_id_t) (t : TState)
        (pg2 ug : BPlusTreePage),
      (ppg.array[i]?).map Prod.snd = some old ∧
      (InsertIntoParentSplit pgo ppg pgn key P new).run s = Res.ok (a.next, k2, a.next) t1 ∧
      (InsertIntoParent old key new (P :: rest)).run s =
        (do
          let rest2 ← InsertIntoParent P k2 a.next rest
          let _ ← UnpinPage a.next true
          let _ ← UnpinPage P true
          pure rest2).run t1 ∧
      (InsertIntoParent old key new (P :: rest)).run s = Res.ok r t ∧
      t.pages P = some pg2 ∧ t.pages a.next = some ug ∧
      pg2.array ++ ug.array =
        ppg.array.take (i + 1) ++ (key, new) :: ppg.array.drop (i + 1) ∧
      pg2.GetSize = pg2.GetMinSize ∧ pg2.page_id_ = P ∧ ug.page_id_ = a.next ∧
      (∀ e ∈ ug.array, ∃ cpg, t.pages e.2 = some cpg ∧ cpg.parent_page_id_ = a.next) ∧
      (∀ e ∈ pg2.array, ∃ cpg, t.pages e.2 = some cpg ∧ cpg.parent_page_id_ = P) ∧
      (ug.slot? 0).map Prod.fst = some k2 ∧
      ∃ wpg, t.pages ug.parent_page_id_ = some wpg ∧ (k2, a.next) ∈ wpg.array := by
  obtain ⟨pgo1, pgn1, hpgo, hpgn, hido, hidn, hon, holt, hnlt, hql, hnn, hcase⟩ := hp
  rw [hold] at hpgo
  cases hpgo
  rw [hnew] at hpgn
  cases hpgn
  rcases hcase with ⟨hroot, _⟩ |
    ⟨_, P1, rest1, ppg1, i, f, hq, hpp1, hi, hf, hgood, hst, hPl, hPlvl, hnl, hnp, htail⟩
  · rw [hnr] at hroot
    cases hroot
  cases hq
  rw [hpp] at hpp1
  cases hpp1
  have hsafe : ¬ ppg.IS_INSERT_SAFE = true := by
    simp [BPlusTreePage.IS_INSERT_SAFE, hfull]
  have hpath : PathQ (a.setPage P (ppg.InsertNodeAfterAt i key new)) G true P rest := by
    rcases htail with ⟨hs1, _⟩ | hpath
    · exact absurd hs1 hsafe
    · exact hpath
  have hheld : a.next ∉ new ::ₘ old ::ₘ (((P :: rest : List Int) : Multiset Int) + h) := by
    apply not_mem_of_lt
    intro p hp
    simp only [Multiset.mem_cons, Multiset.mem_add, Multiset.mem_coe] at hp
    rcases hp with rfl | rfl | hp | hp
    · exact hnlt
    · exact holt
    · exact hql p hp
    · exact hh p hp
  obtain ⟨hvgood, hnd, hnewc, hvi, hch⟩ := Pend_parent_facts hgood hPl hPlvl hi
  have hidp : ppg.page_id_ = P := hvgood.id
  -- the split, up to the recursive call
  obtain ⟨r1, t1, hrun1, e, e2, hr1, he, he2, hm2, h1⟩ :=
    @InsertIntoParentSplit_spec a G old new P key ppg pgo pgn i f _ b s hs hheld hido hidn
      hpp hi hf hgood hPl hPlvl hsafe
      (fun r t => ∃ e e2, r = (a.next, e.1, a.next) ∧
        (ppg.InsertNodeAfterAt i key new).array[
          (ppg.InsertNodeAfterAt i key new).GetMinSize]? = some e ∧
        (ppg.InsertNodeAfterAt i key new).array[
          (ppg.InsertNodeAfterAt i key new).GetMinSize + 1]? = some e2 ∧
        2 ≤ (ppg.InsertNodeAfterAt i key new).GetMinSize ∧
        St t ((a.setPage P (ppg.InsertNodeAfterAt i key new)).splitInt P
          (ppg.InsertNodeAfterAt i key new))
          (a.next ::ₘ new ::ₘ old ::ₘ (((P :: rest : List Int) : Multiset Int) + h)) b)
      (fun t e e2 he he2 hm2 h1 => ⟨e, e2, rfl, he, he2, hm2, h1⟩)
  obtain ⟨H, hpend⟩ := Pend_splitInt hgood hst hPl hPlvl
    (by simp [TreeView.setPage]) hm2 he he2 hpath
  rw [held_rearrange] at h1
  have hh2 : ∀ p ∈ new ::ₘ old ::ₘ h,
      p < ((a.setPage P (ppg.InsertNodeAfterAt i key new)).splitInt P
        (ppg.InsertNodeAfterAt i key new)).next := by
    intro p hp
    show p < a.next + 1
    simp only [Multiset.mem_cons] at hp
    rcases hp with rfl | rfl | hp
    · exact lt_trans hnlt (lt_add_one _)
    · exact lt_trans holt (lt_add_one _)
    · exact lt_trans (hh p hp) (lt_add_one _)
  -- the recursive call and the two unpins
  obtain ⟨r, t2, hrun2, hA, hB, npg, wpg, hC1, hC2, hC3⟩ :=
    InsertIntoParent_frame S rest P e.1 a.next t1 _ H (new ::ₘ old ::ₘ h) b h1 hh2 hpend
  obtain ⟨r3, t3, hrun3, hp3⟩ := run_UnpinPage_pages a.next true t2
  obtain ⟨r4, t4, hrun4, hp4⟩ := run_UnpinPage_pages P true t3
  have hpages : t4.pages = t2.pages := by rw [hp4, hp3]
  have hrec : (do
      let rest2 ← InsertIntoParent P e.1 a.next rest
      let _ ← UnpinPage a.next true
      let _ ← UnpinPage P true
      pure rest2).run t1 = Res.ok r t4 := by
    rw [run_bind_ok hrun2, run_bind_ok hrun3, run_bind_ok hrun4]
    rfl
  have hsp := view_pages hs.1
  have heq : (InsertIntoParent old key new (P :: rest)).run s =
      (do
        let rest2 ← InsertIntoParent P e.1 a.next rest
        let _ ← UnpinPage a.next true
        let _ ← UnpinPage P true
        pure rest2).run t1 := by
    rw [InsertIntoParent_full_run (by rw [hsp]; exact hold) hnr
      (by rw [hsp]; exact hpp) (by rw [hsp]; exact hnew) hsafe]
    rw [run_bind_ok hrun1, hr1, hidp]
  -- facts about the pages around the parent
  have hVP : (a.setPage P (ppg.InsertNodeAfterAt i key new)).pages P =
      some (ppg.InsertNodeAfterAt i key new) := by simp [TreeView.setPage]
  obtain ⟨hPr, hkids⟩ := kids_apart hgood hPl hPlvl hVP hpath
  have hPlt : P < a.next := hql P (List.mem_cons_self _ _)
  have hPN : P ≠ a.next := ne_of_lt hPlt
  have hNr : a.next ∉ rest := fun h0 =>
    absurd (hql _ (List.mem_cons_of_mem _ h0)) (lt_irrefl _)
  have hPm : P ∉ movedOf (ppg.InsertNodeAfterAt i key new) := by
    intro h0
    obtain ⟨y, hy, hyP⟩ := List.mem_map.1 h0
    exact (hch y (List.mem_of_mem_drop hy)).2.1 hyP
  have hNm : a.next ∉ movedOf (ppg.InsertNodeAfterAt i key new) := by
    intro h0
    obtain ⟨y, hy, hyP⟩ := List.mem_map.1 h0
    exact (hch y (List.mem_of_mem_drop hy)).2.2.1 hyP
  have hnext : ((a.setPage P (ppg.InsertNodeAfterAt i key new)).splitInt P
      (ppg.InsertNodeAfterAt i key new)).next = a.next + 1 := rfl
  have hVnd := Seg_nodup _ (hvgood.int_seg hPlvl)
  have hsplitnd := hVnd
  rw [← List.take_append_drop (ppg.InsertNodeAfterAt i key new).GetMinSize
    (ppg.InsertNodeAfterAt i key new).array, List.map_append, List.nodup_append] at hsplitnd
  -- a child of the parent is out of reach of the recursive call
  have hkeep : ∀ y ∈ (ppg.InsertNodeAfterAt i key new).array,
      t2.pages y.2 = ((a.setPage P (ppg.InsertNodeAfterAt i key new)).splitInt P
        (ppg.InsertNodeAfterAt i key new)).pages y.2 := by
    intro y hy
    obtain ⟨c1, _, c3, c4, c5⟩ := hkids y hy
    have hylt : y.2 < a.next := (hgood.live_range _ c1).2
    refine hB y.2 (by rw [hnext]; omega) c3 (ne_of_lt hylt) c4 ?_
    intro p hp pg hpg
    rcases splitInt_page_cases hpg with ⟨h1, _⟩ | ⟨_, h1, _⟩ | ⟨h0, _, pg0, hpg0, harr⟩
    · exact absurd (h1 ▸ hp) hPr
    · exact absurd (h1 ▸ hp) hNr
    · rw [harr]
      exact c5 p hp pg0 (by simp only [TreeView.setPage, Function.update_noteq h0, hpg0])
  have hP2 := hA P (by rw [hnext]; omega) hPr
  rw [splitInt_page_low hPm] at hP2
  obtain ⟨pg2, hpg2, harr2, hid2, hmax2, _⟩ := SameButParent_some hP2
  have hU2 := hA a.next (by rw [hnext]; omega) hNr
  rw [splitInt_page_high hPN hNm] at hU2
  obtain ⟨ug, hug, harrU, hidU, _, _⟩ := SameButParent_some hU2
  have harr2' : pg2.array = (ppg.InsertNodeAfterAt i key new).array.take
      (ppg.InsertNodeAfterAt i key new).GetMinSize := harr2
  have harrU' : ug.array = (ppg.InsertNodeAfterAt i key new).array.drop
      (ppg.InsertNodeAfterAt i key new).GetMinSize := harrU
  have hmlt : (ppg.InsertNodeAfterAt i key new).GetMinSize <
      (ppg.InsertNodeAfterAt i key new).array.length := (List.getElem?_eq_some_iff.1 he).1
  refine ⟨i, e.1, t1, r, t4, pg2, ug, by rw [hi, ← hf]; rfl, by rw [hrun1, hr1], heq,
    by rw [heq, hrec], by rw [hpages]; exact hpg2, by rw [hpages]; exact hug, ?_, ?_, ?_, ?_,
    ?_, ?_, ?_, ?_⟩
  · rw [harr2', harrU', List.take_append_drop]
    rfl
  · show pg2.array.length = (pg2.max_size_ + 1) / 2
    rw [harr2', List.length_take, hmax2]
    have : (ppg.InsertNodeAfterAt i key new).GetMinSize =
        ((intLow (ppg.InsertNodeAfterAt i key new)).max_size_ + 1) / 2 := rfl
    omega
  · rw [hid2]
    exact hidp
  · exact hidU
  · intro y hy
    rw [harrU'] at hy
    have hyV := List.mem_of_mem_drop hy
    obtain ⟨_, c2, c3, cpg, hcpg⟩ := hch y hyV
    have hm : y.2 ∈ movedOf (ppg.InsertNodeAfterAt i key new) := List.mem_map.2 ⟨y, hy, rfl⟩
    refine ⟨cpg.SetParentPageId a.next, ?_, rfl⟩
    rw [hpages, hkeep y hyV]
    exact splitInt_page_moved c2 c3 hm hcpg
  · intro y hy
    rw [harr2'] at hy
    have hyV := List.mem_of_mem_take hy
    obtain ⟨c1, c2, c3, cpg, hcpg⟩ := hch y hyV
    obtain ⟨_, d2, _⟩ := hkids y hyV
    have hm : y.2 ∉ movedOf (ppg.InsertNodeAfterAt i key new) := fun h0 =>
      hsplitnd.2.2 (List.mem_map.2 ⟨y, hy, rfl⟩) h0
    refine ⟨cpg, ?_, ?_⟩
    · rw [hpages, hkeep y hyV]
      rw [splitInt_page_same c2 c3 hm]
      exact hcpg
    · obtain ⟨pg1, hpg1, hgood1⟩ := hgood.page y.2 c1
      have e1 : (a.setPage P (ppg.InsertNodeAfterAt i key new)).pages y.2 = some cpg := by
        simp only [TreeView.setPage, Function.update_noteq c2, hcpg]
      rw [e1] at hpg1
      cases hpg1
      rw [hgood1.parent, d2]
  · rw [slot_zero, harrU', List.getElem?_drop]
    show ((ppg.InsertNodeAfterAt i key new).array[
      (ppg.InsertNodeAfterAt i key new).GetMinSize]?).map Prod.fst = some e.1
    rw [he]
    rfl
  · rw [hug] at hC1
    cases hC1
    exact ⟨wpg, by rw [hpages]; exact hC2, hC3⟩

/-- A leaf with one pair under the root of `fullParentPending` satisfies the invariant. -/
theorem fullParent_leaf {p : Int} {pg : BPlusTreePage} {k : KeyType} {v : Int}
    (hpg : fullParentPending.pages p = some pg) (hp3 : p ≠ 3)
    (hmem : p ∈ [(1 : Int), 2, 4, 5])
    (hid : pg.page_id_ = p) (hpar : pg.parent_page_id_ = 3)
    (hty : pg.page_type_ = IndexPageType.LEAF_PAGE) (hmx : pg.max_size_ = 2)
    (harr : pg.array = [(k, v)])
    (hlo : loLe (fullParentGhost.lo p) k) (hhi : ltHi k (fullParentGhost.hi p))
    (hne : bLt (fullParentGhost.lo p) (fullParentGhost.hi p))
    (hend : pg.next_page_id_ = INVALID_PAGE_ID ↔ fullParentGhost.hi p = none)
    (hok : pg.next_page_id_ ≠ INVALID_PAGE_ID →
      fullParentGhost.live pg.next_page_id_ ∧ fullParentGhost.lvl pg.next_page_id_ = 0 ∧
        fullParentGhost.lo pg.next_page_id_ = fullParentGhost.hi p) :
    PageGood fullParentPending fullParentGhost none p pg := by
  have hlvl : fullParentGhost.lvl p = 0 := by
    show (if p = 3 then 1 else 0) = 0
    rw [if_neg hp3]
  have hGpar : fullParentGhost.par p = 3 := by
    show (if p = 3 then INVALID_PAGE_ID else 3) = 3
    rw [if_neg hp3]
  exact
    { id := hid
      parent := by rw [hpar, hGpar]
      root_iff := by
        rw [hGpar]
        constructor
        · intro h0
          exact absurd h0 (by decide)
        · intro h0
          exact absurd h0 hp3
      attached := fun _ => by
        rw [hGpar, hlvl]
        refine ⟨Or.inr (Or.inr (Or.inl rfl)), rfl, _, rfl, ?_⟩
        simp only [List.mem_cons, List.mem_singleton, List.not_mem_nil, or_false] at hmem
        rcases hmem with rfl | rfl | rfl | rfl <;> decide
      range_ne := hne
      leaf_type := fun _ => ⟨hty, hmx⟩
      leaf_sorted := fun _ => by rw [harr]; simp
      leaf_range := fun _ e he => by
        rw [harr] at he
        simp only [List.mem_singleton] at he
        rw [he]
        exact ⟨hlo, hhi⟩
      leaf_ne := fun _ _ => by rw [harr]; simp
      next_end := fun _ => hend
      next_ok := fun _ => hok
      int_type := fun h0 => absurd hlvl h0
      int_seg := fun h0 => absurd hlvl h0
      int_size := fun h0 => absurd hlvl h0 }

/-- The tree of `fullParentState` with the pair `(4, 5)` recorded in the root satisfies
the invariant. -/
theorem fullParentPending_good : Good fullParentPending fullParentGhost none where
  lmax_pos := by decide
  imax_ge := by decide
  next_nonneg := by decide
  root_none := fun h0 => absurd h0 (by decide)
  root_live := fun _ => ⟨Or.inr (Or.inr (Or.inl rfl)), rfl, rfl⟩
  live_range := by
    intro p hp
    rcases hp with rfl | rfl | rfl | rfl | rfl <;> exact ⟨by decide, by decide⟩
  lvl_le := by
    intro p hp
    rcases hp with rfl | rfl | rfl | rfl | rfl <;> decide
  lvl_fuel := fun _ => by decide
  page := by
    intro p hp
    rcases hp with rfl | rfl | rfl | rfl | rfl
    · refine ⟨leafPage 2 1 3 2 [(1, 10)], rfl, ?_⟩
      refine fullParent_leaf rfl (by decide) (by decide) rfl rfl rfl rfl rfl ?_ ?_ ?_ ?_ ?_
      · intro x hx; cases hx
      · intro x hx; cases hx; decide
      · intro x y hx; cases hx
      · exact ⟨fun h0 => absurd h0 (by decide), fun h0 => by cases h0⟩
      · intro _
        exact ⟨Or.inr (Or.inl rfl), rfl, rfl⟩
    · refine ⟨leafPage 2 2 3 4 [(2, 20)], rfl, ?_⟩
      refine fullParent_leaf rfl (by decide) (by decide) rfl rfl rfl rfl rfl ?_ ?_ ?_ ?_ ?_
      · intro x hx; cases hx; decide
      · intro x hx; cases hx; decide
      · intro x y hx hy; cases hx; cases hy; decide
      · exact ⟨fun h0 => absurd h0 (by decide), fun h0 => by cases h0⟩
      · intro _
        exact ⟨Or.inr (Or.inr (Or.inr (Or.inl rfl))), rfl, rfl⟩
    · refine ⟨(internalPage 3 3 INVALID_PAGE_ID [(0, 1), (2, 2), (3, 4)]).InsertNodeAfterAt
        2 4 5, rfl, ?_⟩
      have hlvl : fullParentGhost.lvl 3 = 1 := rfl
      exact
        { id := rfl
          parent := rfl
          root_iff := ⟨fun _ => rfl, fun _ => rfl⟩
          attached := fun h0 => absurd rfl h0
          range_ne := fun x y hx => by cases hx
          leaf_type := fun h0 => by rw [hlvl] at h0; cases h0
          leaf_sorted := fun h0 => by rw [hlvl] at h0; cases h0
          leaf_range := fun h0 => by rw [hlvl] at h0; cases h0
          leaf_ne := fun h0 => by rw [hlvl] at h0; cases h0
          next_end := fun h0 => by rw [hlvl] at h0; cases h0
          next_ok := fun h0 => by rw [hlvl] at h0; cases h0
          int_type := fun _ => ⟨rfl, rfl⟩
          int_seg := fun _ => by
            show Seg fullParentGhost 3 none [(0, 1), (2, 2), (3, 4), (4, 5)] none
            refine ⟨?_, ?_, ?_, ?_⟩
            · exact ⟨Or.inl rfl, rfl, rfl, rfl, rfl, fun x y hx => by cases hx⟩
            · exact ⟨Or.inr (Or.inl rfl), rfl, rfl, rfl, rfl,
                fun x y hx hy => by cases hx; cases hy; decide⟩
            · exact ⟨Or.inr (Or.inr (Or.inr (Or.inl rfl))), rfl, rfl, rfl, rfl,
                fun x y hx hy => by cases hx; cases hy; decide⟩
            · exact ⟨Or.inr (Or.inr (Or.inr (Or.inr rfl))), rfl, rfl, rfl, rfl,
                fun x y hx hy => by cases hy⟩
          int_size := fun _ _ => by decide }
    · refine ⟨leafPage 2 4 3 5 [(3, 30)], rfl, ?_⟩
      refine fullParent_leaf rfl (by decide) (by decide) rfl rfl rfl rfl rfl ?_ ?_ ?_ ?_ ?_
      · intro x hx; cases hx; decide
      · intro x hx; cases hx; decide
      · intro x y hx hy; cases hx; cases hy; decide
      · exact ⟨fun h0 => absurd h0 (by decide), fun h0 => by cases h0⟩
      · intro _
        exact ⟨Or.inr (Or.inr (Or.inr (Or.inr rfl))), rfl, rfl⟩
    · refine ⟨leafPage 2 5 3 INVALID_PAGE_ID [(4, 40)], rfl, ?_⟩
      refine fullParent_leaf rfl (by decide) (by decide) rfl rfl rfl rfl rfl ?_ ?_ ?_ ?_ ?_
      · intro x hx; cases hx; decide
      · intro x hx; cases hx
      · intro x y hx hy; cases hy
      · exact ⟨fun _ => rfl, fun _ => rfl⟩
      · intro h0
        exact absurd rfl h0

/-- In `fullParentState` the split of leaf 4 is pending. -/
theorem fullParentState_pending :
    Pend fullParentState.view fullParentGhost (Stored fullParentPending fullParentGhost)
      4 4 5 [3] :=
  ⟨leafPage 2 4 3 5 [(3, 30)], leafPage 2 5 3 INVALID_PAGE_ID [(4, 40)], rfl, rfl, rfl, rfl,
    by decide, by decide, by decide,
    fun q hq => by
      simp only [List.mem_singleton] at hq
      rw [hq]
      decide,
    by decide,
    Or.inr ⟨rfl, 3, [], internalPage 3 3 INVALID_PAGE_ID [(0, 1), (2, 2), (3, 4)], 2, (3, 4),
      rfl, rfl, rfl, rfl, fullParentPending_good, fun _ _ => Iff.rfl,
      Or.inr (Or.inr (Or.inl rfl)), by decide, Or.inr (Or.inr (Or.inr (Or.inr rfl))), rfl,
      Or.inr rfl⟩⟩

theorem full_parent_split_witness :
    Pend fullParentState.view fullParentGhost (Stored fullParentPending fullParentGhost)
      4 4 5 [3] ∧
    ∃ (i : Nat) (k2 : KeyType) (t1 : TState) (r : List page_id_t) (t : TState)
        (pg2 ug : BPlusTreePage),
      ((internalPage 3 3 INVALID_PAGE_ID [(0, 1), (2, 2), (3, 4)]).array[i]?).map Prod.snd =
        some 4 ∧
      (InsertIntoParentSplit (leafPage 2 4 3 5 [(3, 30)])
          (internalPage 3 3 INVALID_PAGE_ID [(0, 1), (2, 2), (3, 4)])
          (leafPage 2 5 3 INVALID_PAGE_ID [(4, 40)]) 4 3 5).run fullParentState =
        Res.ok (fullParentState.view.next, k2, fullParentState.view.next) t1 ∧
      (InsertIntoParent 4 4 5 (3 :: [])).run fullParentState =
        (do
          let rest2 ← InsertIntoParent 3 k2 fullParentState.view.next []
          let _ ← UnpinPage fullParentState.view.next true
          let _ ← UnpinPage 3 true
          pure rest2).run t1 ∧
      (InsertIntoParent 4 4 5 (3 :: [])).run fullParentState = Res.ok r t ∧
      t.pages 3 = some pg2 ∧ t.pages fullParentState.view.next = some ug ∧
      pg2.array ++ ug.array =
        (internalPage 3 3 INVALID_PAGE_ID [(0, 1), (2, 2), (3, 4)]).array.take (i + 1) ++
          (4, 5) :: (internalPage 3 3 INVALID_PAGE_ID [(0, 1), (2, 2), (3, 4)]).array.drop
            (i + 1) ∧
      pg2.GetSize = pg2.GetMinSize ∧ pg2.page_id_ = 3 ∧
      ug.page_id_ = fullParentState.view.next ∧
      (∀ e ∈ ug.array, ∃ cpg, t.pages e.2 = some cpg ∧
        cpg.parent_page_id_ = fullParentState.view.next) ∧
      (∀ e ∈ pg2.array, ∃ cpg, t.pages e.2 = some cpg ∧ cpg.parent_page_id_ = 3) ∧
      (ug.slot? 0).map Prod.fst = some k2 ∧
      ∃ wpg, t.pages ug.parent_page_id_ = some wpg ∧
        (k2, fullParentState.view.next) ∈ wpg.array :=
  ⟨fullParentState_pending,
    full_parent_split (Stored fullParentPending fullParentGhost) fullParentState
      fullParentState.view fullParentGhost 0 true 4 5 3 4 []
      (leafPage 2 4 3 5 [(3, 30)]) (leafPage 2 5 3 INVALID_PAGE_ID [(4, 40)])
      (internalPage 3 3 INVALID_PAGE_ID [(0, 1), (2, 2), (3, 4)])
      ⟨rfl, rfl, fun p => by
        show (if p = 3 ∨ p = 4 ∨ p = 5 then (1 : Int) else 0) = _
        by_cases h3 : p = 3
        · subst h3; rfl
        · by_cases h4 : p = 4
          · subst h4; rfl
          · by_cases h5 : p = 5
            · subst h5; rfl
            · rw [if_neg (by simp [h3, h4, h5])]
              simp [Multiset.count_cons_of_ne h5, Multiset.count_cons_of_ne h4, h3], rfl⟩
      (fun p hp => by simp at hp) fullParentState_pending rfl rfl rfl rfl rfl⟩

end bustub
